import Mathlib

/-!
Verification of the graph library

A shallow embedding of the Go package `graph` (files `dir_RO.go`, `undir_RO.go`,
`dir_cg.go`, `cg_label.go` and `cg_undir.go`) and proofs about its strongly connected component, dominator,
clique and degeneracy algorithms.  Definitions come first, theorems after.
-/

namespace Graph

/-- Ways in which a run of the Go code fails to return a result: the model ran out
of the recursion and iteration budget it was given, the code indexed a slice out
of range, or it stored an entry into a nil map (run-time panics in Go). -/
inductive Fault where
  | fuel : Fault
  | index : Fault
  | nilMap : Fault
  deriving DecidableEq, Repr

deriving instance DecidableEq for Except

/-- The adjacency list of a graph: `g[n]` lists the to-nodes of the arcs leaving
node `n`.  Node numbers (`NI`) of arcs are natural numbers. -/
abbrev AdjacencyList := List (List Nat)

/-- Slice indexing `xs[i]`, a fault when `i` is out of range. -/
def idx {α : Type} (xs : List α) (i : Nat) : Except Fault α :=
  match xs[i]? with
  | some x => .ok x
  | none => .error .index

/-- Slice indexing by a signed integer, a fault when negative or out of range. -/
def idxInt {α : Type} (xs : List α) (i : Int) : Except Fault α :=
  match i with
  | Int.ofNat n => idx xs n
  | Int.negSucc _ => .error .index

/-! ### Bit sets

`big.Int` values (and the package's `Bits`) are used as sets of node numbers.
A non-negative `big.Int` is a natural number. -/

/-- The method `Bit` of `big.Int`: bit `i` of `x`. -/
def Bit (x i : Nat) : Bool := x.testBit i

/-- The method `SetBit` of `big.Int`: `x` with bit `i` set to `b`. -/
def SetBit (x i : Nat) (b : Bool) : Nat :=
  if b then x ||| 2 ^ i else x ^^^ (x &&& 2 ^ i)

/-- The one bits of `x` in ascending order (a one bit of `x` has an index below `x`). -/
def bitList (x : Nat) : List Nat := (List.range x).filter (fun i => x.testBit i)

/-- Modelled from the spec: `NextOne` is not among the source files; the spec has
"find next set bit at or after position k (returns none sentinel at end)", the
sentinel being `-1`. -/
def NextOne (x : Nat) (k : Int) : Int :=
  match List.find? (fun (i : Nat) => decide (k ≤ Int.ofNat i)) (bitList x) with
  | some i => Int.ofNat i
  | none => -1

/-- Modelled from the spec: `PopCount` is not among the source files; the spec has
"population count", the number of one bits. -/
def PopCount (x : Nat) : Nat := (bitList x).length

/-- Modelled from the spec: `OneBits` is not among the source files; the spec has
the initial call with "P = all nodes": the set of the `n` lowest bits. -/
def OneBits (n : Nat) : Nat := 2 ^ n - 1

/-! ### Bron-Kerbosch -/

/-- A pivot function of `BronKerbosch2` and `BronKerbosch3`: from `P` and `X` to a
node number. -/
abbrev Pivot := Nat → Nat → Int

/-- An `emit` callback.  The callback may keep state of its own, so its answer may
depend on the lists it was called with before (first argument, oldest first) as
well as on the list it is called with now. -/
abbrev Emit (α : Type) := List (List α) → List α → Bool

/-- The callback that always answers true. -/
def emitAll {α : Type} : Emit α := fun _ _ => true

/-- The loop `for _, to := range g.AdjacencyList[n]` of the Bron-Kerbosch closures:
`p2` and `x2` start at zero and get the bits of the neighbours found in `P` and `X`. -/
def bkChild (adj : List Nat) (P X : Nat) : Nat × Nat :=
  adj.foldl (fun px t =>
    (if Bit P t then SetBit px.1 t true else px.1,
     if Bit X t then SetBit px.2 t true else px.2)) (0, 0)

/-- The loop filling the emitted slice `c`: `k` entries are still to be written and
`n` is the last bit found: `n = NextOne(R, n+1); c[i] = NI(n)`. -/
def bkCollect (R : Nat) : Nat → Int → List Int
  | 0, _ => []
  | k + 1, n => NextOne R (n + 1) :: bkCollect R k (NextOne R (n + 1))

/-- The list passed to `emit` for the clique `R`. -/
def bkClique (R : Nat) : List Int := bkCollect R (PopCount R) (-1)

/-- The loop `for n := NextOne(L, 0); n >= 0; n = NextOne(L, n+1)` of the
Bron-Kerbosch closures, entered with candidate `n`.  `L` is `P` itself in
`BronKerbosch1` (`pnu = none`) and the unchanging `pnu` in `BronKerbosch2` and
`BronKerbosch3`.  `call` is the recursive call of the closure `f`; the first
argument bounds the number of iterations.  The result is the value returned by `f`
if the loop returned from it, together with the calls of `emit` so far. -/
def bkLoop (g : AdjacencyList)
    (call : Nat → Nat → Nat → List (List Int) → Except Fault (Bool × List (List Int)))
    (pnu : Option Nat) (R : Nat) :
    Nat → Int → Nat → Nat → List (List Int) → Except Fault (Bool × List (List Int))
  | _, Int.negSucc _, _, _, log => .ok (true, log)
  | 0, Int.ofNat _, _, _, _ => .error .fuel
  | k + 1, Int.ofNat n, P, X, log =>
    match idx g n with
    | .error e => .error e
    | .ok adj =>
      let r2 := SetBit R n true
      let px := bkChild adj P X
      match call r2 px.1 px.2 log with
      | .error e => .error e
      | .ok (false, log1) => .ok (false, log1)
      | .ok (true, log1) =>
        let P1 := SetBit P n false
        let X1 := SetBit X n true
        bkLoop g call pnu R k (NextOne (pnu.getD P1) (Int.ofNat n + 1)) P1 X1 log1

/-- The set `pnu` of `BronKerbosch2` and `BronKerbosch3`: `P` without the neighbours
of the pivot. -/
def bkPnu (adj : List Nat) (P : Nat) : Nat :=
  adj.foldl (fun pnu t => SetBit pnu t false) P

/-- The recursive closure `f` of `BronKerbosch1` (`pivot = none`), and of
`BronKerbosch2` and `BronKerbosch3` (`pivot = some p`), whose closures are the same
code and differ from that of `BronKerbosch1` only in the lines computing `pnu`.
The first argument bounds the depth of the recursion and the iterations of each
loop.  The result is the boolean returned by `f` and the calls of `emit` so far. -/
def bkf (g : AdjacencyList) (pivot : Option Pivot) (emit : Emit Int) :
    Nat → Nat → Nat → Nat → List (List Int) → Except Fault (Bool × List (List Int))
  | 0, _, _, _, _ => .error .fuel
  | fuel + 1, R, P, X, log =>
    if P ≠ 0 then
      match pivot with
      | none => bkLoop g (bkf g pivot emit fuel) none R fuel (NextOne P 0) P X log
      | some pv =>
        match idxInt g (pv P X) with
        | .error e => .error e
        | .ok adj =>
          let pnu := bkPnu adj P
          bkLoop g (bkf g pivot emit fuel) (some pnu) R fuel (NextOne pnu 0) P X log
    else if X = 0 then
      let c := bkClique R
      if emit log c then .ok (true, log ++ [c]) else .ok (false, log ++ [c])
    else .ok (true, log)

/-- `BronKerbosch1`: the calls of `emit`, in order (given enough fuel). -/
def BronKerbosch1 (fuel : Nat) (g : AdjacencyList) (emit : Emit Int) :
    Except Fault (List (List Int)) :=
  (bkf g none emit fuel 0 (OneBits g.length) 0 []).map Prod.snd

/-- `BronKerbosch2`: the calls of `emit`, in order (given enough fuel). -/
def BronKerbosch2 (fuel : Nat) (g : AdjacencyList) (pivot : Pivot) (emit : Emit Int) :
    Except Fault (List (List Int)) :=
  (bkf g (some pivot) emit fuel 0 (OneBits g.length) 0 []).map Prod.snd

/-- The variables of `Degeneracy`: the results `k`, `ordering` and `cores`, the set
`L` of the nodes already ordered, the degrees `d` and the buckets `D`. -/
structure DegState where
  k : Nat
  ordering : List Nat
  cores : List Nat
  L : Nat
  d : List Nat
  D : List (List Nat)
  deriving DecidableEq, Repr

/-- The loop `for len(xs) <= i { xs = append(xs, x) }`. -/
def growTo {α : Type} (xs : List α) (i : Nat) (x : α) : List α :=
  xs ++ List.replicate (i + 1 - xs.length) x

/-- The first loop of `Degeneracy`, from node `v` on: record the degree of each node
and put the node into the bucket of its degree. -/
def degInit : List (List Nat) → Nat → List Nat → List (List Nat) →
    Except Fault (List Nat × List (List Nat))
  | [], _, d, D => .ok (d, D)
  | nb :: rest, v, d, D =>
    let dv := nb.length
    let D1 := growTo D dv []
    match idx D1 dv with
    | .error e => .error e
    | .ok b => degInit rest (v + 1) (d.set v dv) (D1.set dv (b ++ [v]))

/-- The loop `i := 0; for len(D[i]) == 0 { i++ }`, from bucket `i` on, the list
being the buckets from `D[i]`; indexing `D` past its end is a fault. -/
def firstNonEmpty : List (List Nat) → Nat → Except Fault Nat
  | [], _ => .error .index
  | b :: rest, i => if b.length = 0 then firstNonEmpty rest (i + 1) else .ok i

/-- The slice `xs` with the entries at `i` and `j` exchanged. -/
def swapAt (xs : List Nat) (i j : Nat) : List Nat :=
  (xs.set i (xs.getD j 0)).set j (xs.getD i 0)

/-- The loop `for wx, w := range Ddn` of `Degeneracy` from index `wx` on, with `c`
entries still to visit: where `w == nb`, the entry is exchanged with the last one
and `D[dn]` becomes `Ddn` without its last entry.  `Ddn` and `D[dn]` share their
backing array, so the loop reads what the exchange has written. -/
def degRemove (nb dn : Nat) : Nat → Nat → List Nat → List (List Nat) → List (List Nat)
  | 0, _, _, D => D
  | c + 1, wx, Ddn, D =>
    if Ddn.getD wx 0 = nb then
      let last := Ddn.length - 1
      let Ddn1 := swapAt Ddn wx last
      degRemove nb dn c (wx + 1) Ddn1 (D.set dn (Ddn1.take last))
    else degRemove nb dn c (wx + 1) Ddn D

/-- The body of the loop `for _, nb := range g.AdjacencyList[v]` of `Degeneracy`:
a neighbour not yet ordered moves to the next lower bucket.  When the degree
recorded for `nb` is zero, `dn--` makes `dn` negative and `D[dn]` is a fault. -/
def degNeighbor (s : DegState) (nb : Nat) : Except Fault DegState :=
  if Bit s.L nb then .ok s
  else
    match idx s.d nb with
    | .error e => .error e
    | .ok dn =>
      match idx s.D dn with
      | .error e => .error e
      | .ok Ddn =>
        let D1 := degRemove nb dn Ddn.length 0 Ddn s.D
        match dn with
        | 0 => .error .index
        | dn1 + 1 =>
          match idx D1 dn1 with
          | .error e => .error e
          | .ok b => .ok { s with d := s.d.set nb dn1, D := D1.set dn1 (b ++ [nb]) }

/-- The loop over the neighbours of `v`. -/
def degNeighbors : List Nat → DegState → Except Fault DegState
  | [], s => .ok s
  | nb :: rest, s =>
    match degNeighbor s nb with
    | .error e => .error e
    | .ok s1 => degNeighbors rest s1

/-- The body of the loop `for ox := range g.AdjacencyList` of `Degeneracy`. -/
def degStep (g : AdjacencyList) (ox : Nat) (s : DegState) : Except Fault DegState :=
  match firstNonEmpty s.D 0 with
  | .error e => .error e
  | .ok i =>
    let cores := if i > s.k then (growTo s.cores i 0).set s.k ox else s.cores
    let k := if i > s.k then i else s.k
    match idx s.D i with
    | .error e => .error e
    | .ok Di =>
      let last := Di.length - 1
      match idx Di last with
      | .error e => .error e
      | .ok v =>
        match idx g v with
        | .error e => .error e
        | .ok adj =>
          degNeighbors adj
            { k := k, ordering := s.ordering.set ox v, cores := cores,
              L := SetBit s.L v true, d := s.d, D := s.D.set i (Di.take last) }

/-- The loop `for ox := range g.AdjacencyList`, from `ox` on, `c` iterations left. -/
def degLoop (g : AdjacencyList) : Nat → Nat → DegState → Except Fault DegState
  | 0, _, s => .ok s
  | c + 1, ox, s =>
    match degStep g ox s with
    | .error e => .error e
    | .ok s1 => degLoop g c (ox + 1) s1

/-- `Degeneracy`: `k`, `ordering` and `cores`, or a fault. -/
def Degeneracy (g : AdjacencyList) : Except Fault (Nat × List Nat × List Nat) :=
  match degInit g 0 (List.replicate g.length 0) [] with
  | .error e => .error e
  | .ok (d, D) =>
    match degLoop g g.length 0
        { k := 0, ordering := List.replicate g.length 0, cores := [], L := 0, d := d, D := D } with
    | .error e => .error e
    | .ok s =>
      if s.k < s.cores.length then .ok (s.k, s.ordering, s.cores.set s.k s.ordering.length)
      else .error .index

/-- The outer loop `for _, n := range ord` of `BronKerbosch3`; `call` is the closure
`f`.  The result is the list of the calls of `emit`. -/
def bk3Outer (g : AdjacencyList)
    (call : Nat → Nat → Nat → List (List Int) → Except Fault (Bool × List (List Int))) :
    List Nat → Nat → Nat → Nat → List (List Int) → Except Fault (List (List Int))
  | [], _, _, _, log => .ok log
  | n :: rest, R, P, X, log =>
    let R1 := SetBit R n true
    match idx g n with
    | .error e => .error e
    | .ok adj =>
      let px := bkChild adj P X
      match call R1 px.1 px.2 log with
      | .error e => .error e
      | .ok (false, log1) => .ok log1
      | .ok (true, log1) =>
        bk3Outer g call rest (SetBit R1 n false) (SetBit P n false) (SetBit X n true) log1

/-- `BronKerbosch3`: the calls of `emit`, in order (given enough fuel). -/
def BronKerbosch3 (fuel : Nat) (g : AdjacencyList) (pivot : Pivot) (emit : Emit Int) :
    Except Fault (List (List Int)) :=
  match Degeneracy g with
  | .error e => .error e
  | .ok (_, ord, _) =>
    bk3Outer g (bkf g (some pivot) emit fuel) ord 0 (OneBits g.length) 0 []

/-! ### Graph predicates -/

/-- The graph `g` has the arc `u → v`. -/
def Arc (g : AdjacencyList) (u v : Nat) : Prop := v ∈ g.getD u []

/-- Every arc of `g` leads to a node of `g`. -/
def InRange (g : AdjacencyList) : Prop := ∀ nbs ∈ g, ∀ v ∈ nbs, v < g.length

/-- Every arc of `g` has a reciprocal arc. -/
def Reciprocal (g : AdjacencyList) : Prop :=
  ∀ u < g.length, ∀ v ∈ g.getD u [], u ∈ g.getD v []

/-- No node of `g` has an arc to itself. -/
def LoopFree (g : AdjacencyList) : Prop := ∀ u < g.length, u ∉ g.getD u []

/-- No node of `g` has two arcs to the same node. -/
def NoParallel (g : AdjacencyList) : Prop := ∀ nbs ∈ g, nbs.Nodup

/-- A simple undirected graph: arcs in range, every arc reciprocated, no loops, no
parallel edges. -/
def Simple (g : AdjacencyList) : Prop :=
  InRange g ∧ Reciprocal g ∧ LoopFree g ∧ NoParallel g

instance (g : AdjacencyList) (u v : Nat) : Decidable (Arc g u v) := by
  unfold Arc; infer_instance

instance (g : AdjacencyList) : Decidable (InRange g) := by
  unfold InRange; infer_instance

instance (g : AdjacencyList) : Decidable (Simple g) := by
  unfold Simple InRange Reciprocal LoopFree NoParallel; infer_instance

/-- The set of nodes `S` is a maximal clique of `g`: its members are nodes of `g`,
any two of them are adjacent, and no node outside it is adjacent to all of them. -/
def IsMaximalClique (g : AdjacencyList) (S : Nat → Prop) : Prop :=
  (∀ v, S v → v < g.length) ∧
  (∀ a b, S a → S b → a ≠ b → Arc g a b) ∧
  ¬ ∃ v, v < g.length ∧ ¬ S v ∧ ∀ c, S c → Arc g c v

/-- The nodes of an emitted list. -/
def nodesOf (c : List Int) : Nat → Prop := fun v => (v : Int) ∈ c

/-- A pivot function is valid when it returns a node of `P` or `X` whenever `P` is
not empty. -/
def PivotValid (pivot : Pivot) : Prop :=
  ∀ P X, P ≠ 0 → ∃ u : Nat, pivot P X = (u : Int) ∧ (Bit P u = true ∨ Bit X u = true)

/-! ### Invariants of the Bron-Kerbosch closures -/

/-- The members of a bit set. -/
def bitsOf (C : Nat) : Nat → Prop := fun v => Bit C v = true

/-- The invariant of the arguments of the closure `f`: `R` is a clique of nodes of
`g`, `P` and `X` are disjoint, and together they hold the nodes adjacent to every
member of `R`. -/
def BInv (g : AdjacencyList) (R P X : Nat) : Prop :=
  (∀ r, Bit R r = true → r < g.length) ∧
  (∀ a b, Bit R a = true → Bit R b = true → a ≠ b → Arc g a b) ∧
  (∀ v, (Bit P v = true ∨ Bit X v = true) ↔
    (v < g.length ∧ ∀ r, Bit R r = true → Arc g r v)) ∧
  (∀ v, Bit P v = true → ¬ Bit X v = true)

/-- The maximal cliques a call `f(R, P, X)` is to report: those that contain `R`
and are contained in `R ∪ P`. -/
def MC (g : AdjacencyList) (R P C : Nat) : Prop :=
  IsMaximalClique g (bitsOf C) ∧ (∀ v, Bit R v = true → Bit C v = true) ∧
  (∀ v, Bit C v = true → Bit R v = true ∨ Bit P v = true)

/-- What a call `f(R, P, X)` does when `emit` always returns true: it returns true
after reporting each clique of `MC g R P` once. -/
def BKSpec (g : AdjacencyList) (R P : Nat) (log : List (List Int))
    (res : Except Fault (Bool × List (List Int))) : Prop :=
  ∃ out : List Nat, res = .ok (true, log ++ out.map bkClique) ∧ out.Nodup ∧
    ∀ C, C ∈ out ↔ MC g R P C

/-! ### Invariants of Degeneracy -/

/-- The number of neighbours of `v` among the nodes of the list `S`. -/
def degreeIn (g : AdjacencyList) (v : Nat) (S : List Nat) : Nat :=
  ((g.getD v []).filter (fun u => decide (u ∈ S))).length

/-- The number of neighbours of `v` outside the list `pre`. -/
def outDeg (g : AdjacencyList) (v : Nat) (pre : List Nat) : Nat :=
  ((g.getD v []).filter (fun u => decide (u ∉ pre))).length

/-- The invariant of the degrees and buckets of `Degeneracy`: `pre` lists the nodes
ordered so far and `rest` the neighbours of the last of them that the inner loop
has still to visit. -/
structure DegInv (g : AdjacencyList) (pre rest : List Nat) (s : DegState) : Prop where
  hd : s.d.length = g.length
  hL : ∀ v, Bit s.L v = true ↔ v ∈ pre
  hdeg : ∀ w, w < g.length → w ∉ pre →
    s.d.getD w 0 = outDeg g w pre + (if w ∈ rest then 1 else 0)
  hD : ∀ j v, v ∈ s.D.getD j [] ↔ (v < g.length ∧ v ∉ pre ∧ s.d.getD v 0 = j)
  hnd : ∀ j, (s.D.getD j []).Nodup

/-- The invariant of the outer loop of `Degeneracy` before iteration `ox`. -/
structure DegOuter (g : AdjacencyList) (ox : Nat) (s : DegState) : Prop where
  hlen : s.ordering.length = g.length
  inv : DegInv g (s.ordering.take ox) [] s
  hnodup : (s.ordering.take ox).Nodup
  hlt : ∀ v ∈ s.ordering.take ox, v < g.length
  hk1 : ∀ t, t < ox → outDeg g (s.ordering.getD t 0) (s.ordering.take t) ≤ s.k
  hk2 : s.k = 0 ∨ ∃ t, t < ox ∧ outDeg g (s.ordering.getD t 0) (s.ordering.take t) = s.k
  hmin : ∀ t, t < ox → ∀ w, w < g.length → w ∉ s.ordering.take t →
    outDeg g (s.ordering.getD t 0) (s.ordering.take t) ≤ outDeg g w (s.ordering.take t)

/-! ### Strongly connected components: Tarjan -/

/-- The variables of `SCCTarjan`: the slices `index` and `lowlink`, the sets `indexed`
and `stacked`, the counter `x`, the stack `S` (written with the top of the stack
first) and the lists passed to `emit` so far. -/
structure TState where
  index : List Nat
  lowlink : List Nat
  indexed : Nat
  stacked : Nat
  x : Nat
  S : List Nat
  log : List (List Nat)
  deriving DecidableEq, Repr

/-- The loop of `sc` that pops the component of `n` off the stack into `c`.  Taking
the last entry of an empty `S` is a fault. -/
def scPop (n : Nat) : List Nat → Nat → List Nat → Except Fault (List Nat × Nat × List Nat)
  | [], _, _ => .error .index
  | w :: S, stacked, c =>
    if w = n then .ok (S, SetBit stacked w false, c ++ [w])
    else scPop n S (SetBit stacked w false) (c ++ [w])

/-- The assignment `if v < lowlink[n] { lowlink[n] = v }`. -/
def lowerLink (st : TState) (n v : Nat) : TState :=
  if v < st.lowlink.getD n 0 then { st with lowlink := st.lowlink.set n v } else st

/-- The loop `for _, nb := range a[n]` of the closure `sc`; `call` is the recursive
call of `sc`.  The boolean is false when the loop returned false from `sc`. -/
def scLoop (call : Nat → TState → Except Fault (Bool × TState)) (n : Nat) :
    List Nat → TState → Except Fault (Bool × TState)
  | [], st => .ok (true, st)
  | nb :: rest, st =>
    if Bit st.indexed nb = false then
      match call nb st with
      | .error e => .error e
      | .ok (false, st1) => .ok (false, st1)
      | .ok (true, st1) => scLoop call n rest (lowerLink st1 n (st1.lowlink.getD nb 0))
    else if Bit st.stacked nb = true then
      scLoop call n rest (lowerLink st n (st.index.getD nb 0))
    else scLoop call n rest st

/-- The closure `sc` of `SCCTarjan`.  The first argument bounds the depth of the
recursion.  Indexing `index` with a node that is not in the graph is a fault. -/
def sc (g : AdjacencyList) (emit : Emit Nat) : Nat → Nat → TState → Except Fault (Bool × TState)
  | 0, _, _ => .error .fuel
  | fuel + 1, n, st =>
    match idx g n with
    | .error e => .error e
    | .ok adj =>
      let st1 : TState :=
        { index := st.index.set n st.x, lowlink := st.lowlink.set n st.x,
          indexed := SetBit st.indexed n true, stacked := SetBit st.stacked n true,
          x := st.x + 1, S := n :: st.S, log := st.log }
      match scLoop (sc g emit fuel) n adj st1 with
      | .error e => .error e
      | .ok (false, st2) => .ok (false, st2)
      | .ok (true, st2) =>
        if st2.lowlink.getD n 0 = st2.index.getD n 0 then
          match scPop n st2.S st2.stacked [] with
          | .error e => .error e
          | .ok (S, stacked, c) =>
            .ok (emit st2.log c, { st2 with S := S, stacked := stacked, log := st2.log ++ [c] })
        else .ok (true, st2)

/-- The loop `for n := range a` of `SCCTarjan` over the nodes still to visit. -/
def tarjanLoop (g : AdjacencyList) (emit : Emit Nat) (fuel : Nat) :
    List Nat → TState → Except Fault TState
  | [], st => .ok st
  | n :: rest, st =>
    if Bit st.indexed n = false then
      match sc g emit fuel n st with
      | .error e => .error e
      | .ok (false, st1) => .ok st1
      | .ok (true, st1) => tarjanLoop g emit fuel rest st1
    else tarjanLoop g emit fuel rest st

/-- The variables of `SCCTarjan` before the first call of `sc`. -/
def tarjanInit (g : AdjacencyList) : TState :=
  { index := List.replicate g.length 0, lowlink := List.replicate g.length 0,
    indexed := 0, stacked := 0, x := 0, S := [], log := [] }

/-- `SCCTarjan`: the components passed to `emit`, in order (given enough fuel). -/
def SCCTarjan (fuel : Nat) (g : AdjacencyList) (emit : Emit Nat) :
    Except Fault (List (List Nat)) :=
  (tarjanLoop g emit fuel (List.range g.length) (tarjanInit g)).map (fun st => st.log)

/-- `TarjanForward`: the components of `SCCTarjan` in the reverse order. -/
def TarjanForward (fuel : Nat) (g : AdjacencyList) : Except Fault (List (List Nat)) :=
  (SCCTarjan fuel g emitAll).map List.reverse

/-- The loop `for _, n := range c { cond[n] = NI(cn) }` of `TarjanCondensation`. -/
def condMark (cn : Nat) : List Nat → List Nat → Except Fault (List Nat)
  | [], cond => .ok cond
  | n :: c, cond =>
    if n < cond.length then condMark cn c (cond.set n cn) else .error .index

/-- The loop `for _, to := range g.AdjacencyList[n]` of `TarjanCondensation`: the
component `ct` of the to-node goes to the list `tos` unless its bit is set in `m`. -/
def condArcs (cond : List Nat) : List Nat → Nat × List Nat → Except Fault (Nat × List Nat)
  | [], mt => .ok mt
  | t :: rest, mt =>
    match idx cond t with
    | .error e => .error e
    | .ok ct =>
      if Bit mt.1 ct = false then condArcs cond rest (SetBit mt.1 ct true, mt.2 ++ [ct])
      else condArcs cond rest mt

/-- The second loop `for _, n := range c` of `TarjanCondensation`. -/
def condNodes (g : AdjacencyList) (cond : List Nat) :
    List Nat → Nat × List Nat → Except Fault (Nat × List Nat)
  | [], mt => .ok mt
  | n :: c, mt =>
    match idx g n with
    | .error e => .error e
    | .ok adj =>
      match condArcs cond adj mt with
      | .error e => .error e
      | .ok mt1 => condNodes g cond c mt1

/-- The loop `for cn := NI(len(scc) - 1); cn >= 0; cn--` of `TarjanCondensation`,
the first argument being `cn + 1`. -/
def condLoop (g : AdjacencyList) (scc : List (List Nat)) :
    Nat → List Nat → List (List Nat) → Except Fault (List (List Nat))
  | 0, _, cd => .ok cd
  | cn + 1, cond, cd =>
    match idx scc cn with
    | .error e => .error e
    | .ok c =>
      match condMark cn c cond with
      | .error e => .error e
      | .ok cond1 =>
        match condNodes g cond1 c (SetBit 0 cn true, []) with
        | .error e => .error e
        | .ok mt => condLoop g scc cn cond1 (cd.set cn mt.2)

/-- `TarjanCondensation`: the components and the condensation graph (given enough
fuel); `g.Order()` is the number of nodes of `g`. -/
def TarjanCondensation (fuel : Nat) (g : AdjacencyList) :
    Except Fault (List (List Nat) × List (List Nat)) :=
  match TarjanForward fuel g with
  | .error e => .error e
  | .ok scc =>
    match condLoop g scc scc.length (List.replicate g.length 0)
        (List.replicate scc.length []) with
    | .error e => .error e
    | .ok cd => .ok (scc, cd)

/-- The node `v` is reachable from `u` in `g` (by a path of zero or more arcs). -/
def Reach (g : AdjacencyList) : Nat → Nat → Prop := Relation.ReflTransGen (Arc g)

/-! ### Invariants of SCCTarjan -/

/-- The number of nodes of `g` that are not in the set `indexed`. -/
def whites (g : AdjacencyList) (indexed : Nat) : Nat :=
  (List.range g.length).countP (fun v => !Bit indexed v)

/-- The invariant of the variables of `SCCTarjan`: the slices have the length of the
graph, `stacked` is the set of the nodes of `S`, which occur once and are indexed,
indexes are below `x`, the emitted components hold each indexed node that is not
on the stack exactly once, are strongly connected, and every arc that leaves an
emitted component leads to a component emitted before it. -/
structure TWf (g : AdjacencyList) (st : TState) : Prop where
  hidx : st.index.length = g.length
  hlow : st.lowlink.length = g.length
  hstk : ∀ v, Bit st.stacked v = true ↔ v ∈ st.S
  hnd : st.S.Nodup
  hSi : ∀ v, v ∈ st.S → Bit st.indexed v = true
  hlt : ∀ v, Bit st.indexed v = true → v < g.length
  hix : ∀ v, Bit st.indexed v = true → st.index.getD v 0 < st.x
  hjoin : st.log.flatten.Nodup
  hlog : ∀ v, v ∈ st.log.flatten ↔ (Bit st.indexed v = true ∧ ¬ Bit st.stacked v = true)
  hscc : ∀ c, c ∈ st.log → ∀ u, u ∈ c → ∀ v, v ∈ c → Reach g u v
  hne : ∀ c, c ∈ st.log → c ≠ []
  htopo : ∀ i u w, u ∈ st.log.getD i [] → Arc g u w → ∃ j, j ≤ i ∧ w ∈ st.log.getD j []

/-- What a call `sc(n)` that returns true has done, from the variables `st` before
the call to the variables `st1` after it. -/
structure ScPost (g : AdjacencyList) (n : Nat) (st st1 : TState) : Prop where
  wf : TWf g st1
  mono : ∀ v, Bit st.indexed v = true → Bit st1.indexed v = true
  hn : Bit st1.indexed n = true
  keepI : ∀ v, Bit st.indexed v = true → st1.index.getD v 0 = st.index.getD v 0
  keepL : ∀ v, Bit st.indexed v = true → st1.lowlink.getD v 0 = st.lowlink.getD v 0
  closed : ∀ v, Bit st1.indexed v = true → ¬ Bit st.indexed v = true →
    ∀ w, Arc g v w → Bit st1.indexed w = true
  hx : st.x < st1.x
  stack : ∃ seg, st1.S = seg ++ st.S ∧
    (∀ v, v ∈ seg → st.x ≤ st1.index.getD v 0) ∧
    (∀ v, v ∈ seg → Reach g n v ∧ Reach g v n) ∧
    ((seg = [] ∧ st1.lowlink.getD n 0 = st.x) ∨
      (n ∈ seg ∧ ∃ w, w ∈ st.S ∧ st1.lowlink.getD n 0 = st1.index.getD w 0 ∧ Reach g n w)) ∧
    (∀ u, u ∈ seg → ∀ v, v ∈ st.S → Arc g u v → st1.lowlink.getD n 0 ≤ st1.index.getD v 0)

/-- The invariant of the loop over the successors of `n` in `sc(n)`: `st0` are the
variables at the call of `sc(n)`, `done` the successors already visited and `st` the
current variables. -/
structure ScLoopInv (g : AdjacencyList) (n : Nat) (st0 : TState) (done : List Nat)
    (st : TState) : Prop where
  wf : TWf g st
  mono : ∀ v, Bit st0.indexed v = true → Bit st.indexed v = true
  hn0 : Bit st0.indexed n = false
  hn : Bit st.indexed n = true
  hnidx : st.index.getD n 0 = st0.x
  keepI : ∀ v, Bit st0.indexed v = true → st.index.getD v 0 = st0.index.getD v 0
  keepL : ∀ v, Bit st0.indexed v = true → st.lowlink.getD v 0 = st0.lowlink.getD v 0
  closed : ∀ v, Bit st.indexed v = true → ¬ Bit st0.indexed v = true → v ≠ n →
    ∀ w, Arc g v w → Bit st.indexed w = true
  hdone : ∀ w, w ∈ done → Bit st.indexed w = true
  hx : st0.x < st.x
  hlowle : st.lowlink.getD n 0 ≤ st0.x
  hloww : ∃ w, w ∈ st.S ∧ st.lowlink.getD n 0 = st.index.getD w 0 ∧ Reach g n w
  stack : ∃ seg, st.S = seg ++ n :: st0.S ∧
    (∀ v, v ∈ seg → st0.x < st.index.getD v 0) ∧
    (∀ v, v ∈ seg → Reach g n v ∧ Reach g v n) ∧
    (∀ u, u ∈ seg → ∀ v, v ∈ st0.S → Arc g u v → st.lowlink.getD n 0 ≤ st.index.getD v 0)
  hdoneS : ∀ w, w ∈ done → w ∈ st0.S → st.lowlink.getD n 0 ≤ st.index.getD w 0

/-! ### Invariants of TarjanCondensation -/

/-- The invariant of the scan of the arcs of component `cn`: `T` holds the to-nodes
scanned so far, `mt.1` is the set `m` and `mt.2` the list `tos`. -/
def ScanInv (cn : Nat) (cond : List Nat) (T : Nat → Prop) (mt : Nat × List Nat) : Prop :=
  (∀ j, Bit mt.1 j = true ↔ (j = cn ∨ j ∈ mt.2)) ∧ mt.2.Nodup ∧
  (∀ j, j ∈ mt.2 ↔ (j ≠ cn ∧ ∃ t, T t ∧ cond.getD t 0 = j))

/-- The invariant of the loop of `TarjanCondensation` when the components from `k`
on are done: `cond` maps their nodes to them and `cd` holds their arcs. -/
structure CondInv (g : AdjacencyList) (scc : List (List Nat)) (k : Nat) (cond : List Nat)
    (cd : List (List Nat)) : Prop where
  hcond : cond.length = g.length
  hcd : cd.length = scc.length
  hmap : ∀ j v, k ≤ j → v ∈ scc.getD j [] → cond.getD v 0 = j
  harcs : ∀ i, k ≤ i → ∀ j, j ∈ cd.getD i [] ↔
    (i ≠ j ∧ ∃ u, u ∈ scc.getD i [] ∧ ∃ w, w ∈ scc.getD j [] ∧ Arc g u w)
  hnodup : ∀ i, k ≤ i → (cd.getD i []).Nodup

/-! ### Dominators -/

/-- The loop `for i, n := range post { pi[n] = i }` of `Doms`, from index `i` on. -/
def domPi : List Nat → Nat → List Nat → Except Fault (List Nat)
  | [], _, pi => .ok pi
  | n :: rest, i, pi =>
    if n < pi.length then domPi rest (i + 1) (pi.set n i) else .error .index

/-- An inner loop of `intersect`: `for pi[x] < pi[y] { x = dom[x] }`, returning `x`.
Node numbers are signed here because `dom` holds `-1` for "none"; indexing `pi` or
`dom` with a negative number is a fault. -/
def domWalk (dom : List Int) (pi : List Nat) : Nat → Int → Int → Except Fault Int
  | 0, _, _ => .error .fuel
  | fuel + 1, x, y =>
    match idxInt pi x with
    | .error e => .error e
    | .ok px =>
      match idxInt pi y with
      | .error e => .error e
      | .ok py =>
        if px < py then
          match idxInt dom x with
          | .error e => .error e
          | .ok d => domWalk dom pi fuel d y
        else .ok x

/-- The closure `intersect` of `Doms`: `for b1 != b2 { ... }` around the two inner
loops.  The first argument bounds the iterations of each loop. -/
def intersect (dom : List Int) (pi : List Nat) : Nat → Int → Int → Except Fault Int
  | 0, _, _ => .error .fuel
  | fuel + 1, b1, b2 =>
    if b1 = b2 then .ok b1
    else
      match domWalk dom pi (fuel + 1) b1 b2 with
      | .error e => .error e
      | .ok c1 =>
        match domWalk dom pi (fuel + 1) b2 c1 with
        | .error e => .error e
        | .ok c2 => intersect dom pi fuel c1 c2

/-- The loop `for j, fp = range fr { if dom[fp] >= 0 { im = fp; break } }` from index
`j` on: the index at which it breaks, if it does. -/
def domFirst (dom : List Int) : List Nat → Nat → Except Fault (Option Nat)
  | [], _ => .ok none
  | fp :: rest, j =>
    match idx dom fp with
    | .error e => .error e
    | .ok d => if 0 ≤ d then .ok (some j) else domFirst dom rest (j + 1)

/-- The loop `for _, p := range fr[j:] { if dom[p] >= 0 { im = intersect(im, p) } }`. -/
def domFold (dom : List Int) (pi : List Nat) (fuel : Nat) : List Nat → Int → Except Fault Int
  | [], im => .ok im
  | p :: rest, im =>
    match idx dom p with
    | .error e => .error e
    | .ok d =>
      if 0 ≤ d then
        match intersect dom pi fuel im (Int.ofNat p) with
        | .error e => .error e
        | .ok im1 => domFold dom pi fuel rest im1
      else domFold dom pi fuel rest im

/-- The body of the loop `for i := len(post) - 2; i >= 0; i--` of `Doms` for the node
`b = post[i]`.  When the first loop does not break, `j` is left at the last index
of `fr` (at zero when `fr` is empty) and `im` at zero. -/
def domStep (tr : AdjacencyList) (pi : List Nat) (fuel : Nat) (b : Nat) (dom : List Int)
    (changed : Bool) : Except Fault (List Int × Bool) :=
  match idx tr b with
  | .error e => .error e
  | .ok fr =>
    match domFirst dom fr 0 with
    | .error e => .error e
    | .ok jo =>
      let j := match jo with
        | some j => j
        | none => fr.length - 1
      let im0 : Int := match jo with
        | some j => Int.ofNat (fr.getD j 0)
        | none => 0
      match domFold dom pi fuel (fr.drop j) im0 with
      | .error e => .error e
      | .ok im =>
        match idx dom b with
        | .error e => .error e
        | .ok d => if d ≠ im then .ok (dom.set b im, true) else .ok (dom, changed)

/-- The loop `for i := len(post) - 2; i >= 0; i--`, the first argument being `i + 1`. -/
def domPass (tr : AdjacencyList) (pi : List Nat) (fuel : Nat) (post : List Nat) :
    Nat → List Int → Bool → Except Fault (List Int × Bool)
  | 0, dom, changed => .ok (dom, changed)
  | k + 1, dom, changed =>
    match idx post k with
    | .error e => .error e
    | .ok b =>
      match domStep tr pi fuel b dom changed with
      | .error e => .error e
      | .ok r => domPass tr pi fuel post k r.1 r.2

/-- The loop `for changed := false; ; changed = false` of `Doms`: passes over `post`
until one changes nothing.  The first argument bounds the number of passes. -/
def domLoop (tr : AdjacencyList) (pi : List Nat) (fuel : Nat) (post : List Nat) :
    Nat → List Int → Except Fault (List Int)
  | 0, _ => .error .fuel
  | n + 1, dom =>
    match domPass tr pi fuel post (post.length - 1) dom false with
    | .error e => .error e
    | .ok r => if r.2 then domLoop tr pi fuel post n r.1 else .ok r.1

/-- `Doms`: the slice `Immediate` of the result (given enough fuel).  The receiver `g`
gives the number of nodes. -/
def Doms (fuel : Nat) (g tr : AdjacencyList) (post : List Nat) : Except Fault (List Int) :=
  match domPi post 0 (List.replicate g.length 0) with
  | .error e => .error e
  | .ok pi =>
    match post.getLast? with
    | none => .error .index
    | some start =>
      if start < g.length then
        domLoop tr pi fuel post fuel ((List.replicate g.length (-1 : Int)).set start (Int.ofNat start))
      else .error .index

/-! ### Specification of Doms -/

/-- The graph `tr` is the transpose of `g`: the same nodes, every arc reversed. -/
def IsTranspose (g tr : AdjacencyList) : Prop :=
  tr.length = g.length ∧ (∀ u < g.length, ∀ v ∈ g.getD u [], u ∈ tr.getD v []) ∧
    (∀ v < tr.length, ∀ u ∈ tr.getD v [], v ∈ g.getD u [])

instance (g tr : AdjacencyList) : Decidable (IsTranspose g tr) := by
  unfold IsTranspose; infer_instance

/-- The list `post` is a postordering of a spanning tree of the subgraph of `g`
reachable from `start`, with `start` last: it has no repetition, it is closed under
the arcs of `g`, and every element but the last has an arc from an element further
on (in a postordering, its parent in the tree).  So `post` holds exactly the nodes
reachable from `start`. -/
def PostOrdering (g : AdjacencyList) (start : Nat) (post : List Nat) : Prop :=
  post.Nodup ∧ post.getLast? = some start ∧
    (∀ u ∈ post, u < g.length ∧ ∀ v ∈ g.getD u [], v ∈ post) ∧
    (∀ i < post.length - 1, ∃ j < post.length, i < j ∧ Arc g (post.getD j 0) (post.getD i 0))

instance (g : AdjacencyList) (start : Nat) (post : List Nat) :
    Decidable (PostOrdering g start post) := by
  unfold PostOrdering; infer_instance

/-- A walk of `g` from `s` to `v`, with the list of the nodes it visits (both ends
included, the last one first). -/
inductive Walk (g : AdjacencyList) (s : Nat) : Nat → List Nat → Prop
  | base : Walk g s s [s]
  | step {p v : Nat} {l : List Nat} : Walk g s p l → Arc g p v → Walk g s v (v :: l)

/-- The node `d` dominates `v` with respect to `s`: it lies on every path from `s`
to `v`. -/
def Dominates (g : AdjacencyList) (s d v : Nat) : Prop := ∀ l, Walk g s v l → d ∈ l

/-! ### Invariants of Doms -/

/-- The entry of `v` in `dom` is defined (not the sentinel `-1`). -/
def Dfn (dom : List Int) (v : Nat) : Prop := 0 ≤ dom.getD v (-1)

instance (dom : List Int) (v : Nat) : Decidable (Dfn dom v) := by
  unfold Dfn; infer_instance

/-- The entry of `v` in `dom`, as a node. -/
def domPar (dom : List Int) (v : Nat) : Nat := (dom.getD v (-1)).toNat

/-- The node `x` is on the chain `v, dom[v], dom[dom[v]], ...` that ends at `r`. -/
inductive Anc (dom : List Int) (r : Nat) : Nat → Nat → Prop
  | self {v : Nat} : Dfn dom v → Anc dom r v v
  | up {x v : Nat} : Dfn dom v → v ≠ r → Anc dom r x (domPar dom v) → Anc dom r x v

/-- What `Doms` has set up before its main loop: `tr` lists the predecessors in `g`,
`pi` is the position in `post`, and `post` is a postordering ending in `r`. -/
structure DomCtx (g tr : AdjacencyList) (post pi : List Nat) (r : Nat) : Prop where
  trlen : tr.length = g.length
  trarc : ∀ u v, v < g.length → (u ∈ tr.getD v [] ↔ Arc g u v)
  pilen : pi.length = g.length
  pipost : ∀ i < post.length, pi.getD (post.getD i 0) 0 = i
  nodup : post.Nodup
  last : post.getLast? = some r
  range : ∀ u ∈ post, u < g.length
  closed : ∀ u ∈ post, ∀ v, Arc g u v → v ∈ post
  later : ∀ i < post.length - 1,
    ∃ j < post.length, i < j ∧ Arc g (post.getD j 0) (post.getD i 0)

/-- The array `dom` is a forest on `post`: `r` is its own entry, only nodes of `post`
have an entry, and the entry of a node is a node with an entry and a greater
position in `post`. -/
structure DomWf (g : AdjacencyList) (post pi : List Nat) (r : Nat) (dom : List Int) : Prop where
  len : dom.length = g.length
  root : dom.getD r (-1) = Int.ofNat r
  inpost : ∀ v, Dfn dom v → v ∈ post
  parent : ∀ v, Dfn dom v → v ≠ r →
    Dfn dom (domPar dom v) ∧ pi.getD v 0 < pi.getD (domPar dom v) 0

/-- Every dominator of `v` other than `v` dominates the entry of `v`. -/
def StrictDomInv (g : AdjacencyList) (r : Nat) (dom : List Int) : Prop :=
  ∀ v, Dfn dom v → v ≠ r → ∀ d, d ≠ v → Dominates g r d v → Dominates g r d (domPar dom v)

/-- The invariant of the first pass of `Doms`, before the node at position `k - 1`
is handled: the nodes from position `k` on have an entry, which is the nearest
common ancestor of their predecessors further on in `post`. -/
structure FirstPassInv (g : AdjacencyList) (post pi : List Nat) (r : Nat) (k : Nat)
    (dom : List Int) : Prop where
  wf : DomWf g post pi r dom
  defd : ∀ v, Dfn dom v ↔ v ∈ post ∧ k ≤ pi.getD v 0
  sd : StrictDomInv g r dom
  nca : ∀ v ∈ post, v ≠ r → k ≤ pi.getD v 0 →
    (∀ q ∈ post, Arc g q v → pi.getD v 0 < pi.getD q 0 → Anc dom r (domPar dom v) q) ∧
    (∀ x, (∀ q ∈ post, Arc g q v → pi.getD v 0 < pi.getD q 0 → Anc dom r x q) →
      Anc dom r x (domPar dom v))

/-- The invariant of the later passes of `Doms`, before the node at position `k - 1`
is handled. -/
structure PassInv (g : AdjacencyList) (post pi : List Nat) (r : Nat) (k : Nat)
    (dom : List Int) : Prop where
  wf : DomWf g post pi r dom
  all : ∀ v ∈ post, Dfn dom v
  sd : StrictDomInv g r dom
  lb : ∀ v ∈ post, v ≠ r → ∀ x, (∀ p ∈ post, Arc g p v → Anc dom r x p) →
    pi.getD (domPar dom v) 0 ≤ pi.getD x 0
  k3 : ∀ v ∈ post, v ≠ r → k ≤ pi.getD v 0 →
    ∀ q ∈ post, Arc g q v → pi.getD v 0 < pi.getD q 0 → Anc dom r (domPar dom v) q
  k2 : ∀ v ∈ post, v ≠ r → pi.getD v 0 < k →
    ∃ q ∈ post, Arc g q v ∧ pi.getD v 0 < pi.getD q 0 ∧
      (Anc dom r (domPar dom v) q ∨
        (k ≤ pi.getD (domPar dom v) 0 ∧
          ∀ x, Anc dom r x q → pi.getD (domPar dom v) 0 ≤ pi.getD x 0 →
            Anc dom r x (domPar dom v)))

/-- The entry of every node from position `k` on is an ancestor of all the
predecessors of the node. -/
def DomFixed (g : AdjacencyList) (post pi : List Nat) (r : Nat) (k : Nat)
    (dom : List Int) : Prop :=
  ∀ v ∈ post, v ≠ r → k ≤ pi.getD v 0 →
    ∀ p ∈ post, Arc g p v → Anc dom r (domPar dom v) p

/-- The sum of the positions of the entries of `dom`, which no pass decreases. -/
def domPot (post pi : List Nat) (dom : List Int) : Nat :=
  (post.map (fun v => pi.getD (domPar dom v) 0)).sum

/-! ### Visiting orders -/

/-- The list `order` is the order in which a search of `g` from `start` (breadth
first, for one) visits the nodes: it starts with `start`, has no repetition, is
closed under the arcs of `g`, and every element but the first has an arc from an
element before it (the node from which the search came to it). -/
def VisitOrder (g : AdjacencyList) (start : Nat) (order : List Nat) : Prop :=
  order.Nodup ∧ order.head? = some start ∧
    (∀ u ∈ order, u < g.length ∧ ∀ v ∈ g.getD u [], v ∈ order) ∧
    (∀ i < order.length, 0 < i → ∃ j < i, Arc g (order.getD j 0) (order.getD i 0))

instance (g : AdjacencyList) (start : Nat) (order : List Nat) :
    Decidable (VisitOrder g start order) := by
  unfold VisitOrder; infer_instance

/-! ### Transpose and breadth-first search -/

/-- Modelled from the spec: `Transpose`, which is not in the source files read here.
The transpose is the graph with every edge reversed: the list of `v` holds a node
`u` once for each arc from `u` to `v`, in the order of the from-nodes. -/
def Transpose (g : AdjacencyList) : AdjacencyList :=
  (List.range g.length).map (fun v =>
    ((List.range g.length).map (fun u =>
      ((g.getD u []).filter (fun w => decide (w = v))).map (fun _ => u))).flatten)

/-- The successors in `vs` that are not in `seen`, each once. -/
def bfsFresh : List Nat → List Nat → List Nat
  | [], _ => []
  | v :: vs, seen => if v ∈ seen then bfsFresh vs seen else v :: bfsFresh vs (seen ++ [v])

/-- The loop of a breadth-first search: `queue` holds the nodes whose arcs are still
to be followed, `seen` the nodes visited so far, in the order of the visits. -/
def bfsLoop (g : AdjacencyList) : Nat → List Nat → List Nat → List Nat
  | 0, _, seen => seen
  | _ + 1, [], seen => seen
  | fuel + 1, u :: queue, seen =>
    bfsLoop g fuel (queue ++ bfsFresh (g.getD u []) seen) (seen ++ bfsFresh (g.getD u []) seen)

/-- Modelled from the spec: `BreadthFirst`, which is not in the source files read
here: the nodes reachable from `start`, in the order in which a breadth-first
traversal from `start` visits them (and calls its visitor). -/
def BreadthFirst (g : AdjacencyList) (start : Nat) : List Nat :=
  bfsLoop g g.length [start] [start]

/-- The invariant of the loop of the breadth-first search. -/
structure BfsInv (g : AdjacencyList) (start : Nat) (queue seen : List Nat) : Prop where
  nodup : seen.Nodup
  range : ∀ v ∈ seen, v < g.length
  sub : ∀ u ∈ queue, u ∈ seen
  head : seen.head? = some start
  closed : ∀ u ∈ seen, u ∉ queue → ∀ v ∈ g.getD u [], v ∈ seen
  pred : ∀ i < seen.length, 0 < i → ∃ j < i, Arc g (seen.getD j 0) (seen.getD i 0)

/-- `Dominators`: the visitor fills `post` from its end, so that `post[l:]` is the
reverse of the order of the visits. -/
def Dominators (fuel : Nat) (g : AdjacencyList) (start : Nat) : Except Fault (List Int) :=
  Doms fuel g (Transpose g) (BreadthFirst g start).reverse

/-- `PostDominators`: `Doms` on the transpose, with `g` as the graph of the
predecessors. -/
def PostDominators (fuel : Nat) (g : AdjacencyList) (e : Nat) : Except Fault (List Int) :=
  Doms fuel (Transpose g) g (BreadthFirst (Transpose g) e).reverse

/-- The node `d` postdominates `v` with respect to `e`: it lies on every path from
`v` to `e`. -/
def PostDominates (g : AdjacencyList) (e d v : Nat) : Prop := ∀ l, Walk g v e l → d ∈ l

/-! ### Dominance frontiers -/

/-- The type `DominanceFrontiers`: for each node a set of nodes (a list without
repetition), or no set (a nil map). -/
abbrev DominanceFrontiers := List (Option (List Nat))

/-- The loop `for i := range f { if im[i] >= 0 { f[i] = map[NI]struct{}{} } }`. -/
def frontierInit (im : List Int) : DominanceFrontiers :=
  im.map (fun x => if 0 ≤ x then some [] else none)

/-- The loop `for runner := p; runner != imb; runner = im[runner]` of `domFrontiers`,
whose body stores `b` into the set `f[runner]`. -/
def frontierRun (im : List Int) (b : Nat) (imb : Int) :
    Nat → Int → DominanceFrontiers → Except Fault DominanceFrontiers
  | 0, _, _ => .error .fuel
  | fuel + 1, runner, f =>
    if runner = imb then .ok f
    else
      match idxInt f runner with
      | .error e => .error e
      | .ok none => .error .nilMap
      | .ok (some s) =>
        match idxInt im runner with
        | .error e => .error e
        | .ok next =>
          frontierRun im b imb fuel next
            (f.set runner.toNat (some (if b ∈ s then s else s ++ [b])))

/-- The loop `for _, p := range fr` of `domFrontiers`. -/
def frontierPreds (im : List Int) (b : Nat) (imb : Int) (fuel : Nat) :
    List Nat → DominanceFrontiers → Except Fault DominanceFrontiers
  | [], f => .ok f
  | p :: rest, f =>
    match frontierRun im b imb fuel (Int.ofNat p) f with
    | .error e => .error e
    | .ok f1 => frontierPreds im b imb fuel rest f1

/-- The loop `for b, fr := range from.AdjacencyList` of `domFrontiers`, from node `b`
on. -/
def frontierNodes (im : List Int) (fuel : Nat) :
    List (List Nat) → Nat → DominanceFrontiers → Except Fault DominanceFrontiers
  | [], _, f => .ok f
  | fr :: rest, b, f =>
    if fr.length < 2 then frontierNodes im fuel rest (b + 1) f
    else
      match idx im b with
      | .error e => .error e
      | .ok imb =>
        match frontierPreds im b imb fuel fr f with
        | .error e => .error e
        | .ok f1 => frontierNodes im fuel rest (b + 1) f1

/-- `domFrontiers`, the receiver being the graph of the predecessors that the
dominators retain. -/
def domFrontiers (fuel : Nat) (preds : AdjacencyList) (im : List Int) :
    Except Fault DominanceFrontiers :=
  frontierNodes im fuel preds 0 (frontierInit im)

/-- Modelled from the spec: the method `Frontier` of the result of `Dominators`,
which is not in the source files read here: the dominance frontiers, computed by
`domFrontiers` from the dominators and the transpose that they retain. -/
def DominatorsFrontier (fuel : Nat) (g : AdjacencyList) (start : Nat) :
    Except Fault DominanceFrontiers :=
  match Dominators fuel g start with
  | .error e => .error e
  | .ok im => domFrontiers fuel (Transpose g) im

/-- The node `y` is in the set of `a` in the frontiers `f`. -/
def FMem (f : DominanceFrontiers) (a y : Nat) : Prop :=
  ∃ s, f.getD a none = some s ∧ y ∈ s

/-- The frontiers `f` hold a set for the nodes that have an entry in `im`, and for
no other node. -/
def FrontierWf (im : List Int) (f : DominanceFrontiers) : Prop :=
  f.length = im.length ∧ ∀ a, (∃ s, f.getD a none = some s) ↔ Dfn im a

/-- The definition of the dominance frontier: `y` is in the frontier of `b` when `b`
dominates a predecessor of `y` and does not strictly dominate `y`. -/
def InFrontier (g : AdjacencyList) (start b y : Nat) : Prop :=
  (∃ p, Arc g p y ∧ Dominates g start b p) ∧ ¬ (Dominates g start b y ∧ b ≠ y)

/-- Every predecessor of a node with two or more incoming arcs is visited by the
search from `start`, that is, is reachable from `start`. -/
def JoinsReached (g : AdjacencyList) (start : Nat) : Prop :=
  ∀ b < g.length, 2 ≤ ((Transpose g).getD b []).length →
    ∀ p ∈ (Transpose g).getD b [], p ∈ BreadthFirst g start

instance (g : AdjacencyList) (start : Nat) : Decidable (JoinsReached g start) := by
  unfold JoinsReached; infer_instance

/-! ### Subgraphs and cores -/

/-- A subgraph of `g`: the nodes `S`, nodes of `g`, and the edges `E`, edges of `g`
between nodes of `S`. -/
def IsSubgraph (g : AdjacencyList) (S : List Nat) (E : Nat → Nat → Bool) : Prop :=
  (∀ v ∈ S, v < g.length) ∧ ∀ u v, E u v = true → u ∈ S ∧ v ∈ S ∧ Arc g u v

/-- The degree of `v` in the subgraph with the edges `E`: the number of neighbours
`u` of `v` in `g` with an edge between `v` and `u` in the subgraph. -/
def degreeSub (g : AdjacencyList) (E : Nat → Nat → Bool) (v : Nat) : Nat :=
  ((g.getD v []).filter (fun u => E v u)).length

/-- The node `v` is in the `j`-core of `g`, the maximal subgraph in which every node
has degree at least `j`: it is in some set of nodes of `g` each of which has at
least `j` neighbours in the set. -/
def InCore (g : AdjacencyList) (j v : Nat) : Prop :=
  ∃ S : List Nat, v ∈ S ∧ ∀ u ∈ S, u < g.length ∧ j ≤ degreeIn g u S

/-- The invariant of `cores` in `Degeneracy` before iteration `ox`: an entry `c` of
index `j` that has been stored (the entry of index zero once `k` is positive, and
every entry that is not zero) has an index below `k` and is the position of the
first node whose degree at removal is above `j`. -/
structure CoresInv (g : AdjacencyList) (ox : Nat) (s : DegState) : Prop where
  hlen : (s.cores.length = 0 ∧ s.k = 0) ∨ (s.cores.length = s.k + 1 ∧ 0 < s.k)
  hset : ∀ j, (j = 0 ∧ 0 < s.k) ∨ s.cores.getD j 0 ≠ 0 →
    j < s.k ∧ s.cores.getD j 0 < ox ∧
    (∀ t, t < s.cores.getD j 0 →
      outDeg g (s.ordering.getD t 0) (s.ordering.take t) ≤ j) ∧
    j < outDeg g (s.ordering.getD (s.cores.getD j 0) 0) (s.ordering.take (s.cores.getD j 0))

/-! ### Strongly connected components: Pearce -/

/-- The variables of `SCCPearce`: the slice `rindex`, the stack `S` (written with the
top of the stack first), the counters `index` and `c`, and the lists passed to
`emit` so far. -/
structure PState where
  rindex : List Int
  S : List Nat
  index : Int
  c : Int
  log : List (List Nat)
  deriving DecidableEq, Repr

/-- The loop `for last := len(S) - 1; last >= 0; last--` of the closure `visit(v)`:
as long as the top `w` of the stack has `rindex[v] <= rindex[w]` it is popped,
`rindex[w]` becomes `c`, `w` is appended to `scc` and `index` is decremented. -/
def pearcePop (v : Nat) (c : Int) :
    List Nat → List Int → List Nat → Int → Except Fault (List Nat × List Int × List Nat × Int)
  | [], rindex, scc, index => .ok ([], rindex, scc, index)
  | w :: S, rindex, scc, index =>
    match idx rindex v with
    | .error e => .error e
    | .ok rv =>
      match idx rindex w with
      | .error e => .error e
      | .ok rw =>
        if rv > rw then .ok (w :: S, rindex, scc, index)
        else pearcePop v c S (rindex.set w c) (scc ++ [w]) (index - 1)

/-- The statement `if rindex[w] < rindex[v] { rindex[v] = rindex[w]; root = false }`
of the closure `visit(v)`. -/
def pearceLower (v w : Nat) (st : PState) (root : Bool) : PState × Bool :=
  if st.rindex.getD w 0 < st.rindex.getD v 0 then
    ({ st with rindex := st.rindex.set v (st.rindex.getD w 0) }, false)
  else (st, root)

/-- The loop `for _, w := range a[v]` of the closure `visit(v)`; `call` is the
recursive call of `visit`.  The first boolean is false when the loop returned false
from `visit`, the last one is the variable `root`. -/
def pearceArcs (call : Nat → PState → Except Fault (Bool × PState)) (v : Nat) :
    List Nat → PState → Bool → Except Fault (Bool × PState × Bool)
  | [], st, root => .ok (true, st, root)
  | w :: rest, st, root =>
    match idx st.rindex w with
    | .error e => .error e
    | .ok rw =>
      if rw = 0 then
        match call w st with
        | .error e => .error e
        | .ok (false, st1) => .ok (false, st1, root)
        | .ok (true, st1) =>
          pearceArcs call v rest (pearceLower v w st1 root).1 (pearceLower v w st1 root).2
      else pearceArcs call v rest (pearceLower v w st root).1 (pearceLower v w st root).2

/-- The closure `visit` of `SCCPearce`.  The first argument bounds the depth of the
recursion.  Indexing `rindex` with a node that is not in the graph is a fault. -/
def pearceVisit (g : AdjacencyList) (emit : Emit Nat) :
    Nat → Nat → PState → Except Fault (Bool × PState)
  | 0, _, _ => .error .fuel
  | fuel + 1, v, st =>
    if v < st.rindex.length then
      match idx g v with
      | .error e => .error e
      | .ok adj =>
        match pearceArcs (pearceVisit g emit fuel) v adj
            { st with rindex := st.rindex.set v st.index, index := st.index + 1 } true with
        | .error e => .error e
        | .ok (false, st2, _) => .ok (false, st2)
        | .ok (true, st2, false) => .ok (true, { st2 with S := v :: st2.S })
        | .ok (true, st2, true) =>
          match pearcePop v st2.c st2.S st2.rindex [] (st2.index - 1) with
          | .error e => .error e
          | .ok (S, rindex, scc, index) =>
            .ok (emit st2.log (scc ++ [v]),
              { rindex := rindex.set v st2.c, S := S, index := index, c := st2.c - 1,
                log := st2.log ++ [scc ++ [v]] })
    else .error .index

/-- The loop `for v := range a` of `SCCPearce` over the nodes still to look at. -/
def pearceLoop (g : AdjacencyList) (emit : Emit Nat) (fuel : Nat) :
    List Nat → PState → Except Fault PState
  | [], st => .ok st
  | v :: rest, st =>
    if st.rindex.getD v 0 = 0 then
      match pearceVisit g emit fuel v st with
      | .error e => .error e
      | .ok (false, st1) => .ok st1
      | .ok (true, st1) => pearceLoop g emit fuel rest st1
    else pearceLoop g emit fuel rest st

/-- The variables of `SCCPearce` before the first call of `visit`. -/
def pearceInit (g : AdjacencyList) : PState :=
  { rindex := List.replicate g.length 0, S := [], index := 1,
    c := (g.length : Int) - 1, log := [] }

/-- `SCCPearce`: the components passed to `emit`, in order (given enough fuel). -/
def SCCPearce (fuel : Nat) (g : AdjacencyList) (emit : Emit Nat) :
    Except Fault (List (List Nat)) :=
  (pearceLoop g emit fuel (List.range g.length) (pearceInit g)).map (fun st => st.log)

/-- The loop `for i, ci := range r { scc[last-i] = ci }` of `Condensation`, from
position `i` on; `last` is `len(r) - 1` as a signed number. -/
def condFill (last : Int) : Nat → List (List Nat) → List (List Nat) →
    Except Fault (List (List Nat))
  | _, [], scc => .ok scc
  | i, ci :: r, scc =>
    match last - (i : Int) with
    | Int.ofNat k =>
      if k < scc.length then condFill last (i + 1) r (scc.set k ci) else .error .index
    | Int.negSucc _ => .error .index

/-- `LabeledDirected.Condensation` on the graph `g` of the to-nodes of the labeled
arcs: `StronglyConnectedComponents` is the code of `SCCPearce` with `w.To` for `w`,
and the labels are not looked at.  The components `r` are collected with an `emit`
that returns true and stored in reverse, then the condensation graph is built by
the loop shared with `TarjanCondensation`. -/
def Condensation (fuel : Nat) (g : AdjacencyList) :
    Except Fault (List (List Nat) × List (List Nat)) :=
  match SCCPearce fuel g emitAll with
  | .error e => .error e
  | .ok r =>
    match condFill ((r.length : Int) - 1) 0 r (List.replicate r.length []) with
    | .error e => .error e
    | .ok scc =>
      match condLoop g scc scc.length (List.replicate g.length 0)
          (List.replicate scc.length []) with
      | .error e => .error e
      | .ok cd => .ok (scc, cd)

/-! ### Invariants of SCCPearce -/

/-- Node `v` has been visited: its `rindex` is not zero, or it was emitted. -/
def PVis (st : PState) (v : Nat) : Prop :=
  st.rindex.getD v 0 ≠ 0 ∨ v ∈ st.log.flatten

instance (st : PState) (v : Nat) : Decidable (PVis st v) := by
  unfold PVis; infer_instance

/-- The number of nodes of `g` that have not been visited. -/
def pwhites (g : AdjacencyList) (st : PState) : Nat :=
  (List.range g.length).countP (fun v => !decide (PVis st v))

/-- The invariant of the variables of `SCCPearce` when the calls of `visit` in
progress are those of the nodes `P`: the nodes of `P` and `S` are the visited nodes
that were not emitted, each once; `index` is their number plus one and their
`rindex` is positive and below `index`; `c` is the order of the graph minus one
minus the number of emitted components; the `rindex` of an emitted node is above
`c`; the emitted components hold no node twice, are strongly connected, and every
arc that leaves an emitted component leads to a component emitted before it. -/
structure PWf (g : AdjacencyList) (P : List Nat) (st : PState) : Prop where
  hlen : st.rindex.length = g.length
  hnd : (P ++ st.S).Nodup
  hact : ∀ v, v ∈ P ++ st.S ↔
    (v < g.length ∧ st.rindex.getD v 0 ≠ 0 ∧ v ∉ st.log.flatten)
  hidx : st.index = 1 + ((P ++ st.S).length : Int)
  hc : st.c + 1 + (st.log.length : Int) = (g.length : Int)
  hri : ∀ v, v ∈ P ++ st.S → 1 ≤ st.rindex.getD v 0 ∧ st.rindex.getD v 0 < st.index
  hdone : ∀ v, v ∈ st.log.flatten → v < g.length ∧ st.c < st.rindex.getD v 0
  hjoin : st.log.flatten.Nodup
  hscc : ∀ c, c ∈ st.log → ∀ u, u ∈ c → ∀ v, v ∈ c → Reach g u v
  hne : ∀ c, c ∈ st.log → c ≠ []
  htopo : ∀ i u w, u ∈ st.log.getD i [] → Arc g u w → ∃ j, j ≤ i ∧ w ∈ st.log.getD j []

/-- What a call `visit(n)` that returns true has done, from the variables `st` before
the call to the variables `st1` after it; `P` are the nodes whose calls of `visit`
are in progress. -/
structure PPost (g : AdjacencyList) (P : List Nat) (n : Nat) (st st1 : PState) : Prop where
  wf : PWf g P st1
  keep : ∀ v, v ∈ P ++ st.S ∨ v ∈ st.log.flatten →
    st1.rindex.getD v 0 = st.rindex.getD v 0
  mono : ∀ v, PVis st v → PVis st1 v
  hn : PVis st1 n
  closed : ∀ v, PVis st1 v → ¬ PVis st v → ∀ w, Arc g v w → PVis st1 w
  logpre : ∃ new, st1.log = st.log ++ new
  zero : ∀ w, w ∈ st1.log.flatten → st1.rindex.getD w 0 = 0 → w = n
  stack : ∃ seg, st1.S = seg ++ st.S ∧
    (∀ v, v ∈ seg → Reach g n v ∧ Reach g v n) ∧
    (∀ v, v ∈ seg → st1.rindex.getD n 0 ≤ st1.rindex.getD v 0) ∧
    ((seg = [] ∧ n ∈ st1.log.flatten) ∨
      (n ∈ seg ∧ ∃ z, z ∈ P ++ st.S ∧ Reach g n z ∧
        st1.rindex.getD z 0 ≤ st1.rindex.getD n 0)) ∧
    (∀ u, u ∈ seg → ∀ v, v ∈ P ++ st.S → Arc g u v →
      st1.rindex.getD n 0 ≤ st1.rindex.getD v 0)

/-- The invariant of the loop over the successors of `n` in `visit(n)`: `st0` are the
variables at the call of `visit(n)`, `P` the nodes whose calls were in progress
then, `done` the successors already looked at, `st` the current variables and `root`
the variable `root`. -/
structure PLoopInv (g : AdjacencyList) (P : List Nat) (n : Nat) (st0 : PState)
    (done : List Nat) (st : PState) (root : Bool) : Prop where
  wf : PWf g (n :: P) st
  keep : ∀ v, v ∈ P ++ st0.S ∨ v ∈ st0.log.flatten →
    st.rindex.getD v 0 = st0.rindex.getD v 0
  mono : ∀ v, PVis st0 v → PVis st v
  logpre : ∃ new, st.log = st0.log ++ new
  closed : ∀ v, PVis st v → ¬ PVis st0 v → v ≠ n → ∀ w, Arc g v w → PVis st w
  hdone : ∀ w, w ∈ done → PVis st w
  hnle : st.rindex.getD n 0 ≤ st0.index
  hroot : root = true ↔ st.rindex.getD n 0 = st0.index
  hloww : st.rindex.getD n 0 < st0.index → ∃ z, z ∈ P ++ st0.S ∧ Reach g n z ∧
    st.rindex.getD z 0 ≤ st.rindex.getD n 0
  stack : ∃ seg, st.S = seg ++ st0.S ∧
    (∀ v, v ∈ seg → Reach g n v ∧ Reach g v n) ∧
    (∀ v, v ∈ seg → st.rindex.getD n 0 ≤ st.rindex.getD v 0) ∧
    (∀ u, u ∈ seg → ∀ v, v ∈ P ++ st0.S → Arc g u v →
      st.rindex.getD n 0 ≤ st.rindex.getD v 0)
  hdoneS : ∀ w, w ∈ done → w ∈ P ++ st0.S → st.rindex.getD n 0 ≤ st.rindex.getD w 0

/-! ### Calls of `emit` -/

/-- All the calls of `emit` with the lists `new`, made in this order after the calls
with the lists `pre`, return true. -/
def emitAllTrue {α : Type} (emit : Emit α) : List (List α) → List (List α) → Bool
  | _, [] => true
  | pre, c :: rest => emit pre c && emitAllTrue emit (pre ++ [c]) rest

/-- The lists of `new` up to and including the first one for which `emit` returns
false, when `emit` is called with the lists `new` in this order after the calls with
the lists `pre`. -/
def emitCut {α : Type} (emit : Emit α) : List (List α) → List (List α) → List (List α)
  | _, [] => []
  | pre, c :: rest => if emit pre c then c :: emitCut emit (pre ++ [c]) rest else [c]

/-- A callback that returns true when it is called first and false when it is called
again. -/
def emitStopSecond {α : Type} : Emit α := fun log _ => decide (log.length < 1)

/-- In the sequence `log` of the calls of `emit`, no call follows a call that
returned false: a call that returned false is the last one. -/
def StopsAtFalse {α : Type} (emit : Emit α) (log : List (List α)) : Prop :=
  ∀ i, i < log.length → emit (log.take i) (log.getD i []) = false → i + 1 = log.length

/-- The calls of `emit` with the lists `new`, made after the calls with the lists
`pre`, by code that goes on (`b = true`) or stops (`b = false`): every call returned
true, except that the last one returned false when the code stops. -/
def EmitTrace {α : Type} (emit : Emit α) : List (List α) → List (List α) → Bool → Prop
  | _, [], b => b = true
  | pre, c :: rest, b =>
    if emit pre c then EmitTrace emit (pre ++ [c]) rest b else rest = [] ∧ b = false

/-! ### The pivot strategy BKPivotMaxDegree -/

/-- The loops of `BKPivotMaxDegree` over the set `L`, entered with the candidate `n`:
`if d := len(g.AdjacencyList[n]); d > maxDeg { u = n; maxDeg = d }`, then
`n = NextOne(L, n+1)`, until `n < 0`.  The first argument bounds the number of
iterations.  The result is `u` and `maxDeg`. -/
def pivotScan (g : AdjacencyList) (L : Nat) : Nat → Int → Int → Nat → Except Fault (Int × Nat)
  | _, Int.negSucc _, u, maxDeg => .ok (u, maxDeg)
  | 0, Int.ofNat _, _, _ => .error .fuel
  | k + 1, Int.ofNat n, u, maxDeg =>
    match idx g n with
    | .error e => .error e
    | .ok adj =>
      if adj.length > maxDeg then
        pivotScan g L k (NextOne L (Int.ofNat n + 1)) (Int.ofNat n) adj.length
      else pivotScan g L k (NextOne L (Int.ofNat n + 1)) u maxDeg

/-- `BKPivotMaxDegree`: the node returned, or a fault when `P` is empty or a member
of `P` or `X` is not a node of `g`.  A one bit of a set has an index below the
value of the set, which bounds the iterations of the scans. -/
def BKPivotMaxDegree (g : AdjacencyList) (P X : Nat) : Except Fault Int :=
  match idxInt g (NextOne P 0) with
  | .error e => .error e
  | .ok adj =>
    match pivotScan g P P (NextOne P (NextOne P 0 + 1)) (NextOne P 0) adj.length with
    | .error e => .error e
    | .ok um =>
      match pivotScan g X X (NextOne X 0) um.1 um.2 with
      | .error e => .error e
      | .ok um1 => .ok um1.1

/-- A pivot strategy that can fail, as the argument `pivot` of `BronKerbosch2` and
`BronKerbosch3`: a failure of the strategy is a failure of the caller, which fails
when it indexes the adjacency list with `-1`. -/
def pivotOf (f : Nat → Nat → Except Fault Int) : Pivot := fun P X =>
  match f P X with
  | .ok u => u
  | .error _ => -1

/-! ### Strongly connected components: path-based -/

/-- The variables of `SCCPathBased`: the stacks `S` and `B` (written with the top of
the stack first), the slice `I`, the counter `c` and the lists passed to `emit` so
far. -/
structure BState where
  S : List Nat
  B : List Int
  I : List Int
  c : Int
  log : List (List Nat)
  deriving DecidableEq, Repr

/-- The loop `for last := len(B) - 1; I[w] < B[last]; last-- { B = B[:last] }` of the
closure `df`; `iw` is `I[w]`.  Indexing the empty `B` is a fault. -/
def pathTrim (iw : Int) : List Int → Except Fault (List Int)
  | [] => .error .index
  | b :: B => if iw < b then pathTrim iw B else .ok (b :: B)

/-- The loop `for I[v] <= len(S)` of the closure `df`, which pops `S` into `scc` and
sets `I` of the popped nodes to `c`.  Taking the last entry of the empty `S` is a
fault. -/
def pathPop (v : Nat) (c : Int) : List Nat → List Int → List Nat →
    Except Fault (List Nat × List Int × List Nat)
  | [], I, scc =>
    match idx I v with
    | .error e => .error e
    | .ok iv => if iv ≤ 0 then .error .index else .ok ([], I, scc)
  | w :: S, I, scc =>
    match idx I v with
    | .error e => .error e
    | .ok iv =>
      if iv ≤ ((w :: S).length : Int) then
        if w < I.length then pathPop v c S (I.set w c) (scc ++ [w]) else .error .index
      else .ok (w :: S, I, scc)

/-- The loop `for _, w := range a[v]` of the closure `df` of `SCCPathBased`; `call` is
the recursive call of `df`. -/
def pathArcs (call : Nat → BState → Except Fault BState) :
    List Nat → BState → Except Fault BState
  | [], st => .ok st
  | w :: rest, st =>
    match idx st.I w with
    | .error e => .error e
    | .ok iw =>
      if iw < 0 then
        match call w st with
        | .error e => .error e
        | .ok st1 => pathArcs call rest st1
      else
        match pathTrim iw st.B with
        | .error e => .error e
        | .ok B => pathArcs call rest { st with B := B }

/-- The closure `df` of `SCCPathBased`.  The first argument bounds the depth of the
recursion.  The closure has no result, and the value returned by `emit` is not
looked at. -/
def pathDf (g : AdjacencyList) (emit : Emit Nat) : Nat → Nat → BState → Except Fault BState
  | 0, _, _ => .error .fuel
  | fuel + 1, v, st =>
    if v < st.I.length then
      match idx g v with
      | .error e => .error e
      | .ok adj =>
        match pathArcs (pathDf g emit fuel) adj
            { st with I := st.I.set v (st.S.length : Int), B := (st.S.length : Int) :: st.B,
                      S := v :: st.S } with
        | .error e => .error e
        | .ok st1 =>
          match st1.B, idx st1.I v with
          | _, .error e => .error e
          | [], .ok _ => .error .index
          | b :: B, .ok iv =>
            if iv = b then
              match pathPop v st1.c st1.S st1.I [] with
              | .error e => .error e
              | .ok (S, I, scc) =>
                let _ignored := emit st1.log scc
                .ok { S := S, B := B, I := I, c := st1.c + 1, log := st1.log ++ [scc] }
            else .ok st1
    else .error .index

/-- The loop `for v := range a` of `SCCPathBased` over the nodes still to look at. -/
def pathLoop (g : AdjacencyList) (emit : Emit Nat) (fuel : Nat) :
    List Nat → BState → Except Fault BState
  | [], st => .ok st
  | v :: rest, st =>
    if st.I.getD v 0 < 0 then
      match pathDf g emit fuel v st with
      | .error e => .error e
      | .ok st1 => pathLoop g emit fuel rest st1
    else pathLoop g emit fuel rest st

/-- `SCCPathBased`: the components passed to `emit`, in order (given enough fuel). -/
def SCCPathBased (fuel : Nat) (g : AdjacencyList) (emit : Emit Nat) :
    Except Fault (List (List Nat)) :=
  (pathLoop g emit fuel (List.range g.length)
    { S := [], B := [], I := List.replicate g.length (-1), c := (g.length : Int),
      log := [] }).map (fun st => st.log)

/-! ### Topological ordering -/

/-- The variables of `dfTopo`: the slice `ordering`, the index `i`, the sets `temp` and
`perm`, `cycleFound`, `cycleStart` and the slice `cycle` (`none` is `nil`). -/
structure TopoState where
  ordering : List Nat
  i : Nat
  temp : Nat
  perm : Nat
  cycleFound : Bool
  cycleStart : Int
  cycle : Option (List Nat)
  deriving DecidableEq, Repr

/-- The statements of the loop of the closure `df(n)` of `dfTopo` that follow a call
`df(nb)` after which `cycleFound` is set: while `cycleStart >= 0` the node `n` is
written in front of the cycle, which lives at the end of `ordering`. -/
def topoCycle (n : Nat) (st : TopoState) : Except Fault TopoState :=
  if 0 ≤ st.cycleStart then
    match (st.ordering.length : Int) - 1 - ((st.cycle.getD []).length : Int) with
    | Int.ofNat x =>
      if x < st.ordering.length then
        .ok { st with ordering := st.ordering.set x n,
                      cycle := some ((st.ordering.set x n).drop x),
                      cycleStart := if (n : Int) = st.cycleStart then -1 else st.cycleStart }
      else .error .index
    | Int.negSucc _ => .error .index
  else .ok st

/-- The loop `for _, nb := range a[n]` of the closure `df(n)` of `dfTopo`; `call` is
the recursive call of `df`.  The boolean is false when the loop returned from
`df`. -/
def topoArcs (call : Nat → TopoState → Except Fault TopoState) (n : Nat) :
    List Nat → TopoState → Except Fault (Bool × TopoState)
  | [], st => .ok (true, st)
  | nb :: rest, st =>
    match call nb st with
    | .error e => .error e
    | .ok st1 =>
      if st1.cycleFound then
        match topoCycle n st1 with
        | .error e => .error e
        | .ok st2 => .ok (false, st2)
      else topoArcs call n rest st1

/-- The closure `df` of `dfTopo`.  The first argument bounds the depth of the
recursion. -/
def topoDf (g : AdjacencyList) : Nat → Nat → TopoState → Except Fault TopoState
  | 0, _, _ => .error .fuel
  | fuel + 1, n, st =>
    if Bit st.temp n then .ok { st with cycleFound := true, cycleStart := n }
    else if Bit st.perm n then .ok st
    else
      match idx g n with
      | .error e => .error e
      | .ok adj =>
        match topoArcs (topoDf g fuel) n adj { st with temp := SetBit st.temp n true } with
        | .error e => .error e
        | .ok (false, st1) => .ok st1
        | .ok (true, st1) =>
          match st1.i with
          | 0 => .error .index
          | j + 1 =>
            if j < st1.ordering.length then
              .ok { st1 with temp := SetBit st1.temp n false, perm := SetBit st1.perm n true,
                             i := j, ordering := st1.ordering.set j n }
            else .error .index

/-- The loop `for` of `dfTopo`; `nodes` are the values that the calls of `f` return
before the first negative one. -/
def topoLoop (g : AdjacencyList) (fuel : Nat) :
    List Nat → TopoState → Except Fault (Option (List Nat) × Option (List Nat))
  | [], st => .ok (some (st.ordering.drop st.i), none)
  | n :: rest, st =>
    if Bit st.perm n then topoLoop g fuel rest st
    else
      match topoDf g fuel n st with
      | .error e => .error e
      | .ok st1 => if st1.cycleFound then .ok (none, st1.cycle) else topoLoop g fuel rest st1

/-- `dfTopo`: `ordering` and `cycle` (given enough fuel), `none` being `nil`;
`nodes` are the values that the calls of `f` return before the first negative
one. -/
def dfTopo (fuel : Nat) (g : AdjacencyList) (nodes : List Nat) :
    Except Fault (Option (List Nat) × Option (List Nat)) :=
  topoLoop g fuel nodes
    { ordering := List.replicate g.length 0, i := g.length, temp := 0, perm := 0,
      cycleFound := false, cycleStart := 0, cycle := none }

/-- `Topological`: its function `f` returns the node numbers `0 .. Order()-1` in
order, then `-1`. -/
def Topological (fuel : Nat) (g : AdjacencyList) :
    Except Fault (Option (List Nat) × Option (List Nat)) :=
  dfTopo fuel g (List.range g.length)

/-- The graph `g` has no cycle: no node reaches itself by one or more arcs. -/
def Acyclic (g : AdjacencyList) : Prop := ∀ v, ¬ Relation.TransGen (Arc g) v v

/-- In the list `l`, every arc that leaves a member leads to a member further
back: where `u` occurs, the to-nodes of its arcs occur after it. -/
def ArcsForward (g : AdjacencyList) (l : List Nat) : Prop :=
  ∀ l1 u l2, l = l1 ++ u :: l2 → ∀ v, Arc g u v → v ∈ l2

/-! ### Invariants of dfTopo -/

/-- The number of nodes of `g` that are neither in `temp` nor in `perm`. -/
def twhites (g : AdjacencyList) (st : TopoState) : Nat :=
  (List.range g.length).countP (fun v => !Bit st.temp v && !Bit st.perm v)

/-- The invariant of the variables of `dfTopo` on an acyclic graph: `perm` is the set
of the nodes of `ordering[i:]`, which are nodes of `g`, occur once, and have their
arcs leading further back; `temp` is disjoint from `perm`; no cycle was found. -/
structure TopoWf (g : AdjacencyList) (st : TopoState) : Prop where
  hlen : st.ordering.length = g.length
  hi : st.i ≤ g.length
  hperm : ∀ v, Bit st.perm v = true ↔ v ∈ st.ordering.drop st.i
  hnd : (st.ordering.drop st.i).Nodup
  hlt : ∀ v, v ∈ st.ordering.drop st.i → v < g.length
  hdisj : ∀ v, Bit st.temp v = true → Bit st.perm v = false
  htlt : ∀ v, Bit st.temp v = true → v < g.length
  hcf : st.cycleFound = false
  hord : ArcsForward g (st.ordering.drop st.i)

/-- What a call `df(n)` of `dfTopo` has done on an acyclic graph, from the variables
`st` before the call to the variables `st1` after it. -/
structure TopoPost (g : AdjacencyList) (n : Nat) (st st1 : TopoState) : Prop where
  wf : TopoWf g st1
  temp : ∀ v, Bit st1.temp v = Bit st.temp v
  hn : Bit st1.perm n = true
  mono : ∀ v, Bit st.perm v = true → Bit st1.perm v = true

/-- The invariant of the loop over the successors of `n` in `df(n)` of `dfTopo`:
`st0` are the variables at the call, `done` the successors already visited. -/
structure TopoLoopInv (g : AdjacencyList) (n : Nat) (st0 : TopoState) (done : List Nat)
    (st : TopoState) : Prop where
  wf : TopoWf g st
  temp : ∀ v, Bit st.temp v = (Bit st0.temp v || decide (n = v))
  mono : ∀ v, Bit st0.perm v = true → Bit st.perm v = true
  hdone : ∀ w, w ∈ done → Bit st.perm w = true

/-- How a run of a closure of `SCCTarjan` with `emit` relates to the run with an `emit`
that always returns true, which goes from the variables `st` to `st2` and returns
`b`: that run returns true, and the run `r` with `emit` does the same if every call
of `emit` returns true; otherwise it returns false after the first call of `emit`
that returned false. -/
def TSim (emit : Emit Nat) (st st2 : TState) (b : Bool)
    (r : Except Fault (Bool × TState)) : Prop :=
  b = true ∧ ∃ new, st2.log = st.log ++ new ∧
    ((emitAllTrue emit st.log new = true ∧ r = .ok (true, st2)) ∨
     (emitAllTrue emit st.log new = false ∧
       ∃ st1, r = .ok (false, st1) ∧ st1.log = st.log ++ emitCut emit st.log new))

/-- How a run of a closure of the Bron-Kerbosch methods with `emit` relates to the
run with an `emit` that always returns true, which takes the calls of `emit` from
`log` to `log2` and returns `b`: that run returns true, and the run `r` with `emit`
does the same if every call of `emit` returns true; otherwise it returns false
after the first call of `emit` that returned false. -/
def LSim (emit : Emit Int) (log log2 : List (List Int)) (b : Bool)
    (r : Except Fault (Bool × List (List Int))) : Prop :=
  b = true ∧ ∃ new, log2 = log ++ new ∧
    ((emitAllTrue emit log new = true ∧ r = .ok (true, log2)) ∨
     (emitAllTrue emit log new = false ∧ r = .ok (false, log ++ emitCut emit log new)))

/-! ### The steps of the passes of Doms -/

/-- The calls of the body of the loop `for i := len(post) - 2; i >= 0; i--` of `Doms`
that a run of `domPass` makes: for each of them the node `b` and the slice `dom` at
that moment, in order. -/
def domPassSteps (tr : AdjacencyList) (pi : List Nat) (fuel : Nat) (post : List Nat) :
    Nat → List Int → Bool → List (Nat × List Int)
  | 0, _, _ => []
  | k + 1, dom, changed =>
    match idx post k with
    | .error _ => []
    | .ok b =>
      (b, dom) ::
        (match domStep tr pi fuel b dom changed with
         | .error _ => []
         | .ok r => domPassSteps tr pi fuel post k r.1 r.2)

/-- The calls of the body of the inner loop made by a run of `domLoop`, pass after
pass. -/
def domLoopSteps (tr : AdjacencyList) (pi : List Nat) (fuel : Nat) (post : List Nat) :
    Nat → List Int → List (Nat × List Int)
  | 0, _ => []
  | n + 1, dom =>
    domPassSteps tr pi fuel post (post.length - 1) dom false ++
      (match domPass tr pi fuel post (post.length - 1) dom false with
       | .error _ => []
       | .ok r => if r.2 then domLoopSteps tr pi fuel post n r.1 else [])

/-- The nodes `b` that a run of `Doms` processes in its passes, each with the slice
`dom` at the moment it is processed, in order. -/
def DomsSteps (fuel : Nat) (g tr : AdjacencyList) (post : List Nat) : List (Nat × List Int) :=
  match domPi post 0 (List.replicate g.length 0) with
  | .error _ => []
  | .ok pi =>
    match post.getLast? with
    | none => []
    | some start =>
      if start < g.length then
        domLoopSteps tr pi fuel post fuel
          ((List.replicate g.length (-1 : Int)).set start (Int.ofNat start))
      else []

/-- When the node `b` is processed with the slice `dom`, a predecessor of `b` in `tr`
has an entry in `dom`; so the first loop over the predecessors breaks, which sets
`im`, and the step returns for either value of `changed`: `intersect` indexes
nothing out of range and follows no entry `-1`. -/
def DomStepOk (tr : AdjacencyList) (pi : List Nat) (fuel : Nat) (b : Nat) (dom : List Int) :
    Prop :=
  (∃ q, q ∈ tr.getD b [] ∧ 0 ≤ dom.getD q (-1)) ∧
  (∃ j, domFirst dom (tr.getD b []) 0 = .ok (some j)) ∧
  ∀ ch, ∃ res, domStep tr pi fuel b dom ch = .ok res

/-! ### The calls of the closure of BronKerbosch1 -/

/-- The calls `f(R, P, X)` made from the loop `bkLoop`: `calls` lists those that a
call of `f` makes, itself included. -/
def bkLoopCalls (g : AdjacencyList)
    (call : Nat → Nat → Nat → List (List Int) → Except Fault (Bool × List (List Int)))
    (calls : Nat → Nat → Nat → List (List Int) → List (Nat × Nat × Nat))
    (pnu : Option Nat) (R : Nat) :
    Nat → Int → Nat → Nat → List (List Int) → List (Nat × Nat × Nat)
  | _, Int.negSucc _, _, _, _ => []
  | 0, Int.ofNat _, _, _, _ => []
  | k + 1, Int.ofNat n, P, X, log =>
    match idx g n with
    | .error _ => []
    | .ok adj =>
      let r2 := SetBit R n true
      let px := bkChild adj P X
      calls r2 px.1 px.2 log ++
        (match call r2 px.1 px.2 log with
         | .error _ => []
         | .ok (false, _) => []
         | .ok (true, log1) =>
           let P1 := SetBit P n false
           let X1 := SetBit X n true
           bkLoopCalls g call calls pnu R k (NextOne (pnu.getD P1) (Int.ofNat n + 1)) P1 X1
             log1)

/-- The calls of the closure `f` that a call `f(R, P, X)` makes, itself first: the
arguments `(R, P, X)` of each, in order. -/
def bkfCalls (g : AdjacencyList) (pivot : Option Pivot) (emit : Emit Int) :
    Nat → Nat → Nat → Nat → List (List Int) → List (Nat × Nat × Nat)
  | 0, R, P, X, _ => [(R, P, X)]
  | fuel + 1, R, P, X, log =>
    (R, P, X) ::
      (if P ≠ 0 then
        match pivot with
        | none =>
          bkLoopCalls g (bkf g pivot emit fuel) (bkfCalls g pivot emit fuel) none R fuel
            (NextOne P 0) P X log
        | some pv =>
          match idxInt g (pv P X) with
          | .error _ => []
          | .ok adj =>
            bkLoopCalls g (bkf g pivot emit fuel) (bkfCalls g pivot emit fuel)
              (some (bkPnu adj P)) R fuel (NextOne (bkPnu adj P) 0) P X log
      else [])

/-- The calls `f(R, P, X)` made during `BronKerbosch1`, in order. -/
def BronKerbosch1Calls (fuel : Nat) (g : AdjacencyList) (emit : Emit Int) :
    List (Nat × Nat × Nat) :=
  bkfCalls g none emit fuel 0 (OneBits g.length) 0 []

/-! ### Labeled graphs -/

/-- Modelled from the spec: the declaration of `Half` is not in the source files
read here; the spec has "An edge carries a target NI and, in the labeled variant, an
integer label (LI)", and the code reads the field `To`. -/
structure Half where
  To : Nat
  Label : Int
  deriving DecidableEq, Repr

/-- The labeled adjacency list of a graph: `g[n]` lists the arcs leaving node `n`,
each with its to-node and its label. -/
abbrev LabeledAdjacencyList := List (List Half)

/-- The graph `g` with the labels of its arcs dropped. -/
def unlabeled (g : LabeledAdjacencyList) : AdjacencyList := g.map (fun l => l.map Half.To)

/-! ### Depth-first traversal -/

/-- A visitor function.  Like `emit` it may keep state of its own, so its answer may
depend on the nodes it was called with before (first argument, oldest first) as well
as on the node it is called with now. -/
abbrev Visitor := List Nat → Nat → Bool

/-- The variables of `DepthFirst`: the bitmap `bm`, the result `ok`, and the nodes the
visitor was called with so far. -/
structure DFState where
  bm : Nat
  ok : Bool
  visits : List Nat
  deriving DecidableEq, Repr

/-- The loop `for _, nb := range g[n] { df(nb.To) }` of the closure `df` of
`DepthFirst`; `call` is the recursive call of `df`. -/
def depthArcs (call : Nat → DFState → Except Fault DFState) :
    List Half → DFState → Except Fault DFState
  | [], st => .ok st
  | nb :: rest, st =>
    match call nb.To st with
    | .error e => .error e
    | .ok st1 => depthArcs call rest st1

/-- The closure `df` of `DepthFirst`; `v` is the visitor (`none` is `nil`).  The first
argument bounds the depth of the recursion. -/
def depthDf (g : LabeledAdjacencyList) (v : Option Visitor) :
    Nat → Nat → DFState → Except Fault DFState
  | 0, _, _ => .error .fuel
  | fuel + 1, n, st =>
    if Bit st.bm n then .ok st
    else
      match v with
      | some f =>
        if f st.visits n then
          match idx g n with
          | .error e => .error e
          | .ok adj =>
            depthArcs (depthDf g v fuel) adj
              { st with bm := SetBit st.bm n true, visits := st.visits ++ [n] }
        else
          .ok { bm := SetBit st.bm n true, ok := false, visits := st.visits ++ [n] }
      | none =>
        match idx g n with
        | .error e => .error e
        | .ok adj => depthArcs (depthDf g v fuel) adj { st with bm := SetBit st.bm n true }

/-- `LabeledAdjacencyList.DepthFirst`: the result `ok`, the bitmap after the
traversal, and the nodes the visitor was called with, in order (given enough fuel).
The arguments `bm` and `v` may be `nil` (`none`). -/
def DepthFirst (fuel : Nat) (g : LabeledAdjacencyList) (start : Nat) (bm : Option Nat)
    (v : Option Visitor) : Except Fault (Bool × Nat × List Nat) :=
  match bm, v with
  | none, none => .ok (false, 0, [])
  | _, _ =>
    (depthDf g v fuel start { bm := bm.getD 0, ok := true, visits := [] }).map
      (fun st => (st.ok, st.bm, st.visits))

/-- No call of the visitor follows a call that returned false. -/
def VisitsStop (v : Visitor) (visits : List Nat) : Prop :=
  ∀ i, i < visits.length → v (visits.take i) (visits.getD i 0) = false →
    i + 1 = visits.length

instance (v : Visitor) (visits : List Nat) : Decidable (VisitsStop v visits) := by
  unfold VisitsStop; infer_instance

/-! ### FromList -/

/-- Modelled from the spec: the declaration of `PathEnd` is not in the source files
read here; `FromList` uses its fields `From`, a node number or `-1`, and `Len`, a
length. -/
structure PathEnd where
  From : Int
  Len : Nat
  deriving DecidableEq, Repr

/-- Modelled from the spec: the declaration of the type `FromList` is not in the
source files read here; the method `FromList` builds a value of it from the slice of
`PathEnd`, the set of the leaves and the maximum length. -/
structure FromListData where
  Paths : List PathEnd
  Leaves : Nat
  MaxLen : Nat
  deriving DecidableEq, Repr

/-- The loop `for _, to := range to` of `FromList` over the arcs that leave `fr`.
The result holds the node returned with `nil` when the loop returns from
`FromList`. -/
def fromArcs (fr : Nat) :
    List Half → List PathEnd → Nat → Except Fault (Option Nat × List PathEnd × Nat)
  | [], paths, leaves => .ok (none, paths, leaves)
  | h :: rest, paths, leaves =>
    match idx paths h.To with
    | .error e => .error e
    | .ok p =>
      if 0 ≤ p.From then .ok (some h.To, paths, leaves)
      else
        fromArcs fr rest (paths.set h.To { p with From := (fr : Int) })
          (SetBit leaves fr false)

/-- The loop `for fr, to := range g` of `FromList`, from node `fr` on. -/
def fromNodes :
    List (List Half) → Nat → List PathEnd → Nat →
      Except Fault (Option Nat × List PathEnd × Nat)
  | [], _, paths, leaves => .ok (none, paths, leaves)
  | arcs :: rest, fr, paths, leaves =>
    match fromArcs fr arcs paths leaves with
    | .error e => .error e
    | .ok (some n, paths1, leaves1) => .ok (some n, paths1, leaves1)
    | .ok (none, paths1, leaves1) => fromNodes rest (fr + 1) paths1 leaves1

/-- The closure `leng` of `FromList`, which sets and returns the length of the path
that ends at `n`.  The first argument bounds the depth of the recursion. -/
def leng : Nat → Nat → List PathEnd → Except Fault (Nat × List PathEnd)
  | 0, _, _ => .error .fuel
  | fuel + 1, n, paths =>
    match idx paths n with
    | .error e => .error e
    | .ok p =>
      if p.Len > 0 then .ok (p.Len, paths)
      else
        match p.From with
        | Int.negSucc _ => .ok (1, paths.set n { p with Len := 1 })
        | Int.ofNat fr =>
          match leng fuel fr paths with
          | .error e => .error e
          | .ok (l, paths1) =>
            match idx paths1 n with
            | .error e => .error e
            | .ok p1 => .ok (1 + l, paths1.set n { p1 with Len := 1 + l })

/-- The loop `for i := range paths` of `FromList` with `c` nodes still to look at,
from node `i` on. -/
def fromLeaves (fuel : Nat) (leaves : Nat) :
    Nat → Nat → List PathEnd → Nat → Except Fault (List PathEnd × Nat)
  | 0, _, paths, maxLen => .ok (paths, maxLen)
  | c + 1, i, paths, maxLen =>
    if Bit leaves i then
      match leng fuel i paths with
      | .error e => .error e
      | .ok (l, paths1) =>
        fromLeaves fuel leaves c (i + 1) paths1 (if l > maxLen then l else maxLen)
    else fromLeaves fuel leaves c (i + 1) paths maxLen

/-- `LabeledAdjacencyList.FromList`: the pointer to the result (`none` is `nil`) and
the node number returned with it (given enough fuel). -/
def FromList (fuel : Nat) (g : LabeledAdjacencyList) :
    Except Fault (Option FromListData × Int) :=
  match fromNodes g 0 (List.replicate g.length { From := -1, Len := 0 })
      (OneBits g.length) with
  | .error e => .error e
  | .ok (some n, _, _) => .ok (none, (n : Int))
  | .ok (none, paths, leaves) =>
    match fromLeaves fuel leaves paths.length 0 paths 0 with
    | .error e => .error e
    | .ok (paths1, maxLen) =>
      .ok (some { Paths := paths1, Leaves := leaves, MaxLen := maxLen }, -1)

/-- The number of arcs of the list `hs` that lead to node `n`. -/
def cntTo (hs : List Half) (n : Nat) : Nat := (hs.filter (fun h => decide (h.To = n))).length

/-- The number of arcs of `g` that lead to node `n`. -/
def inArcs (g : LabeledAdjacencyList) (n : Nat) : Nat := cntTo g.flatten n

/-- The invariant of the first loops of `FromList` when the arcs of the nodes below
`fr` and the arcs `pre` of `fr` have been looked at: each node is the to-node of at
most one of these arcs; without such an arc its `From` is `-1`, and with one its
`From` is the from-node of the arc; every `Len` is zero. -/
structure FromInv (g : LabeledAdjacencyList) (fr : Nat) (pre : List Half)
    (paths : List PathEnd) : Prop where
  hlen : paths.length = g.length
  hcnt : ∀ m, m < g.length →
    ((paths.getD m ⟨-1, 0⟩).From = -1 ∧ cntTo ((g.take fr).flatten ++ pre) m = 0) ∨
    (0 ≤ (paths.getD m ⟨-1, 0⟩).From ∧ cntTo ((g.take fr).flatten ++ pre) m = 1)
  hsrc : ∀ m, m < g.length → ∀ u h, h.To = m →
    ((u < fr ∧ h ∈ g.getD u []) ∨ (u = fr ∧ h ∈ pre)) →
    (paths.getD m ⟨-1, 0⟩).From = (u : Int)
  hLen : ∀ m, m < g.length → (paths.getD m ⟨-1, 0⟩).Len = 0

/-- The invariant of the slice `paths` while the lengths are set: an entry `From`
that is not negative is the from-node of an arc of `g` to the node. -/
structure LengInv (g : LabeledAdjacencyList) (paths : List PathEnd) : Prop where
  hlen : paths.length = g.length
  harc : ∀ m, m < g.length → ∀ u : Nat, (paths.getD m ⟨-1, 0⟩).From = (u : Int) →
    Arc (unlabeled g) u m

/-! ### Topological ordering: Kahn -/

/-- The first loop of `TopologicalKahn`, `for n, fr := range tr.AdjacencyList`, from
node `n` on.  The stack `S` is written with its top first. -/
def kahnInit : List (List Nat) → Nat → List Nat → List Nat →
    Except Fault (List Nat × List Nat)
  | [], _, S, rem => .ok (S, rem)
  | fr :: rest, n, S, rem =>
    if fr.length = 0 then kahnInit rest (n + 1) (n :: S) rem
    else if n < rem.length then kahnInit rest (n + 1) S (rem.set n fr.length)
    else .error .index

/-- The loop `for _, m := range g.AdjacencyList[n]` of `TopologicalKahn`. -/
def kahnArcs : List Nat → List Nat → List Nat → Except Fault (List Nat × List Nat)
  | [], S, rem => .ok (S, rem)
  | m :: rest, S, rem =>
    match idx rem m with
    | .error e => .error e
    | .ok r =>
      if r > 0 then
        if r - 1 = 0 then kahnArcs rest (m :: S) (rem.set m (r - 1))
        else kahnArcs rest S (rem.set m (r - 1))
      else kahnArcs rest S rem

/-- The loop `for len(S) > 0` of `TopologicalKahn`.  The first argument bounds the
number of iterations. -/
def kahnLoop (g : AdjacencyList) :
    Nat → List Nat → List Nat → List Nat → Except Fault (List Nat × List Nat)
  | _, L, [], rem => .ok (L, rem)
  | 0, _, _ :: _, _ => .error .fuel
  | fuel + 1, L, n :: S, rem =>
    match idx g n with
    | .error e => .error e
    | .ok adj =>
      match kahnArcs adj S rem with
      | .error e => .error e
      | .ok (S1, rem1) => kahnLoop g fuel (L ++ [n]) S1 rem1

/-- The loop `for _, nb := range g.AdjacencyList[c]` of the last loop of
`TopologicalKahn`: whether it reaches its `break`. -/
def kahnHasRem (rem : List Nat) : List Nat → Except Fault Bool
  | [] => .ok false
  | nb :: rest =>
    match idx rem nb with
    | .error e => .error e
    | .ok r => if r > 0 then .ok true else kahnHasRem rem rest

/-- The loop `for c, in := range rem` of `TopologicalKahn`, from index `c` on, the
first list being the entries of `rem` from there. -/
def kahnCycle (g : AdjacencyList) (rem : List Nat) :
    List Nat → Nat → List Nat → Except Fault (List Nat)
  | [], _, cycle => .ok cycle
  | i :: rest, c, cycle =>
    if i > 0 then
      match idx g c with
      | .error e => .error e
      | .ok adj =>
        match kahnHasRem rem adj with
        | .error e => .error e
        | .ok true => kahnCycle g rem rest (c + 1) (cycle ++ [c])
        | .ok false => kahnCycle g rem rest (c + 1) cycle
    else kahnCycle g rem rest (c + 1) cycle

/-- A slice that grows from `nil` by `append`: it is `nil` (`none`) as long as
nothing was appended. -/
def sliceOf (l : List Nat) : Option (List Nat) := if l = [] then none else some l

/-- `TopologicalKahn`: `ordering` and `cycle` (given enough fuel), `none` being
`nil`. -/
def TopologicalKahn (fuel : Nat) (g tr : AdjacencyList) :
    Except Fault (Option (List Nat) × Option (List Nat)) :=
  match kahnInit tr 0 [] (List.replicate g.length 0) with
  | .error e => .error e
  | .ok (S, rem) =>
    match kahnLoop g fuel [] S rem with
    | .error e => .error e
    | .ok (L, rem1) =>
      match kahnCycle g rem1 rem1 0 [] with
      | .error e => .error e
      | .ok cycle => if cycle.length > 0 then .ok (none, some cycle) else .ok (sliceOf L, none)

/-- The graph `tr` is the transpose of `g`, arc for arc: it has the same nodes, its
arcs are in range, and it has as many arcs from `v` to `u` as `g` has from `u` to
`v`. -/
def TransposeOf (g tr : AdjacencyList) : Prop :=
  tr.length = g.length ∧ InRange tr ∧
    ∀ u < g.length, ∀ v < g.length, (tr.getD v []).count u = (g.getD u []).count v

instance (g tr : AdjacencyList) : Decidable (TransposeOf g tr) := by
  unfold TransposeOf; infer_instance

/-- The number of arcs of `g` that lead to `m` from a node outside the list `L`. -/
def remFrom (g : AdjacencyList) (L : List Nat) (m : Nat) : Nat :=
  (((List.range g.length).filter (fun u => decide (u ∉ L))).map
    (fun u => (g.getD u []).count m)).sum

/-- The invariant of the variables of `TopologicalKahn`; `pend` holds the arcs of the
node added to `L` last that the inner loop has still to look at.  `L` and `S` hold
each node at most once; `rem[m]` is the number of arcs to `m` not yet removed, those
from the nodes outside `L` and those of `pend`; the nodes of `L` and `S` are those
with no such arc; and every arc to a node of `L` comes from a node before it in
`L`. -/
structure KahnInv (g : AdjacencyList) (L S rem pend : List Nat) : Prop where
  hlen : rem.length = g.length
  hnd : (L ++ S).Nodup
  hlt : ∀ v, v ∈ L ++ S → v < g.length
  hrem : ∀ m, m < g.length → rem.getD m 0 = remFrom g L m + pend.count m
  hzero : ∀ m, m < g.length → (m ∈ L ++ S ↔ rem.getD m 0 = 0)
  hord : ∀ i, i < L.length → ∀ u, Arc g u (L.getD i 0) → u ∈ L.take i

/-- The list `c` is the path of a cycle of `g`: it is not empty, each of its nodes
has an arc to the next, and the last has an arc to the first. -/
def IsCyclePath (g : AdjacencyList) (c : List Nat) : Prop :=
  c ≠ [] ∧ (∀ i, i < c.length - 1 → Arc g (c.getD i 0) (c.getD (i + 1) 0)) ∧
    Arc g (c.getD (c.length - 1) 0) (c.getD 0 0)

instance (g : AdjacencyList) (c : List Nat) : Decidable (IsCyclePath g c) := by
  unfold IsCyclePath; infer_instance

/-! ### Invariants of dfTopo on any graph -/

/-- The nodes `P` are those whose calls of `df` are in progress, the innermost first:
they are the nodes of `temp`, each once, and each has an arc from the next, which
called it. -/
structure TopoPath (g : AdjacencyList) (P : List Nat) (st : TopoState) : Prop where
  htemp : ∀ v, Bit st.temp v = true ↔ v ∈ P
  hnd : P.Nodup
  hchain : List.Chain' (fun a b => Arc g b a) P

/-- Each node of the list `c` has an arc to the next one, and the last one has an arc
to `s`. -/
def PathTo (g : AdjacencyList) (c : List Nat) (s : Nat) : Prop :=
  ∀ i, i < c.length → Arc g (c.getD i 0) ((c ++ [s]).getD (i + 1) 0)

/-- What a call `df(n)` of `dfTopo` that found a cycle leaves, `P` being the nodes
whose calls are still in progress: the cycle lies at the end of `ordering`, which
has room for the nodes of `P`; either the cycle is complete, or `cycleStart` is a
node of `P` and the cycle so far is a path from `n` to it. -/
structure TopoCyc (g : AdjacencyList) (P : List Nat) (n : Nat) (st : TopoState) : Prop where
  hcf : st.cycleFound = true
  hlen : st.ordering.length = g.length
  hsuf : st.cycle.getD [] = st.ordering.drop (g.length - (st.cycle.getD []).length)
  hroom : (st.cycle.getD []).length + P.length ≤ g.length
  hcyc : (st.cycleStart = -1 ∧ st.cycle.getD [] ≠ [] ∧
      PathTo g (st.cycle.getD []) ((st.cycle.getD []).getD 0 0)) ∨
    (∃ s : Nat, st.cycleStart = (s : Int) ∧ s ∈ P ∧ PathTo g (st.cycle.getD []) s ∧
      (st.cycle.getD [] ++ [s]).getD 0 0 = n)

/-! ### Cyclic -/

/-- The variables of `Cyclic`: the sets `temp` and `perm` and the results `cyclic`,
`fr` and `to` (here `toNode`). -/
structure CycState where
  temp : Nat
  perm : Nat
  cyclic : Bool
  fr : Int
  toNode : Int
  deriving DecidableEq, Repr

/-- The loop `for _, nb := range a[n]` of the closure `df(n)` of `Cyclic`; `call` is
the recursive call of `df`.  The boolean is false when the loop returned from
`df`. -/
def cyclicArcs (call : Nat → CycState → Except Fault CycState) (n : Nat) :
    List Nat → CycState → Except Fault (Bool × CycState)
  | [], st => .ok (true, st)
  | nb :: rest, st =>
    match call nb st with
    | .error e => .error e
    | .ok st1 =>
      if st1.cyclic then
        .ok (false, if st1.fr < 0 then { st1 with fr := (n : Int), toNode := (nb : Int) } else st1)
      else cyclicArcs call n rest st1

/-- The closure `df` of `Cyclic`.  The first argument bounds the depth of the
recursion. -/
def cyclicDf (g : AdjacencyList) : Nat → Nat → CycState → Except Fault CycState
  | 0, _, _ => .error .fuel
  | fuel + 1, n, st =>
    if Bit st.temp n then .ok { st with cyclic := true }
    else if Bit st.perm n then .ok st
    else
      match idx g n with
      | .error e => .error e
      | .ok adj =>
        match cyclicArcs (cyclicDf g fuel) n adj { st with temp := SetBit st.temp n true } with
        | .error e => .error e
        | .ok (false, st1) => .ok st1
        | .ok (true, st1) =>
          .ok { st1 with temp := SetBit st1.temp n false, perm := SetBit st1.perm n true }

/-- The loop `for n := range a` of `Cyclic` over the nodes still to look at. -/
def cyclicLoop (g : AdjacencyList) (fuel : Nat) : List Nat → CycState → Except Fault CycState
  | [], st => .ok st
  | n :: rest, st =>
    if Bit st.perm n then cyclicLoop g fuel rest st
    else
      match cyclicDf g fuel n st with
      | .error e => .error e
      | .ok st1 => if st1.cyclic then .ok st1 else cyclicLoop g fuel rest st1

/-- `Cyclic`: the results `cyclic`, `fr` and `to` (given enough fuel). -/
def Cyclic (fuel : Nat) (g : AdjacencyList) : Except Fault (Bool × Int × Int) :=
  (cyclicLoop g fuel (List.range g.length)
    { temp := 0, perm := 0, cyclic := false, fr := -1, toNode := -1 }).map
    (fun st => (st.cyclic, st.fr, st.toNode))

/-- How the variables of `Cyclic` relate to those of `dfTopo` as long as no cycle is
found: the same sets `temp` and `perm`, and `fr` and `to` at `-1`. -/
def CycSimN (sc : CycState) (st : TopoState) : Prop :=
  sc.temp = st.temp ∧ sc.perm = st.perm ∧ sc.cyclic = false ∧ sc.fr = -1 ∧ sc.toNode = -1

/-- How the variables of `Cyclic` relate to those of `dfTopo` once a cycle is found:
as long as the cycle of `dfTopo` is empty, `fr` is `-1`; afterwards `fr` is the last
node of the cycle and `to` is the node `cycleStart`, the first node of the cycle when
the cycle is complete. -/
def CycSimC (sc : CycState) (st : TopoState) : Prop :=
  sc.cyclic = true ∧
  ((st.cycle.getD [] = [] ∧ sc.fr = -1) ∨
   (st.cycle.getD [] ≠ [] ∧
    sc.fr = (((st.cycle.getD []).getD ((st.cycle.getD []).length - 1) 0 : Nat) : Int) ∧
    ((st.cycleStart = -1 ∧ sc.toNode = (((st.cycle.getD []).getD 0 0 : Nat) : Int)) ∨
     (∃ s : Nat, st.cycleStart = (s : Int) ∧ sc.toNode = (s : Int)))))

/-! ### Bit sets of the labeled clique methods

The methods of `UndirectedLAL` keep their sets of nodes in values of the type
`bitset.BitSet`.  Every set is created with the length `len(g)`. -/

/-- Modelled from the spec: the type `bitset.BitSet` is not among the source files;
the spec has "a mutable set of node ids; supports test, set, clear, find next set bit
at or after position k (returns none sentinel at end), population count, and set
algebra (AND-NOT, complement)".  A set of node ids is the natural number whose one
bits are its members.  `Test(i)`: whether `i` is a member. -/
def bsTest (b i : Nat) : Bool := b.testBit i

/-- Modelled from the spec: `Set(i)` ("set"), the set with the member `i` added. -/
def bsSet (b i : Nat) : Nat := b ||| 2 ^ i

/-- Modelled from the spec: `SetTo(i, false)` ("clear"), the set without the member
`i`. -/
def bsClear (b i : Nat) : Nat := b ^^^ (b &&& 2 ^ i)

/-- Modelled from the spec: `NextSet(k)` ("find next set bit at or after position k
(returns none sentinel at end)"): the least member that is `k` or more and true, or
zero and false when there is none. -/
def bsNextSet (b k : Nat) : Nat × Bool :=
  match List.find? (fun i => decide (k ≤ i)) (bitList b) with
  | some i => (i, true)
  | none => (0, false)

/-- Modelled from the spec: `Count()` ("population count"), the number of members. -/
def bsCount (b : Nat) : Nat := (bitList b).length

/-- Modelled from the spec: `Any()`, whether the set has a member. -/
def bsAny (b : Nat) : Bool := decide (bitList b ≠ [])

/-- Modelled from the spec: `None()`, whether the set has no member. -/
def bsNone (b : Nat) : Bool := decide (bitList b = [])

/-- Modelled from the spec: `bitset.New(n).Complement()` ("complement"), the set of
the node ids below the length `n` the set was created with. -/
def bsFull (n : Nat) : Nat := (List.range n).foldl bsSet 0

/-! ### Degeneracy of a labeled graph -/

/-- The first loop of `LabeledAdjacencyList.Degeneracy`, from node `v` on: record the
degree of each node and put the node into the bucket of its degree. -/
def degInitL : List (List Half) → Nat → List Nat → List (List Nat) →
    Except Fault (List Nat × List (List Nat))
  | [], _, d, D => .ok (d, D)
  | nb :: rest, v, d, D =>
    let dv := nb.length
    let D1 := growTo D dv []
    match idx D1 dv with
    | .error e => .error e
    | .ok b => degInitL rest (v + 1) (d.set v dv) (D1.set dv (b ++ [v]))

/-- The loop `for _, nb := range g[v]` of `LabeledAdjacencyList.Degeneracy`; its body
is that of the unlabeled method with `nb.To` in the place of `nb`. -/
def degNeighborsL : List Half → DegState → Except Fault DegState
  | [], s => .ok s
  | nb :: rest, s =>
    match degNeighbor s nb.To with
    | .error e => .error e
    | .ok s1 => degNeighborsL rest s1

/-- The body of the loop `for ox := range g` of `LabeledAdjacencyList.Degeneracy`. -/
def degStepL (g : LabeledAdjacencyList) (ox : Nat) (s : DegState) : Except Fault DegState :=
  match firstNonEmpty s.D 0 with
  | .error e => .error e
  | .ok i =>
    let cores := if i > s.k then (growTo s.cores i 0).set s.k ox else s.cores
    let k := if i > s.k then i else s.k
    match idx s.D i with
    | .error e => .error e
    | .ok Di =>
      let last := Di.length - 1
      match idx Di last with
      | .error e => .error e
      | .ok v =>
        match idx g v with
        | .error e => .error e
        | .ok adj =>
          degNeighborsL adj
            { k := k, ordering := s.ordering.set ox v, cores := cores,
              L := SetBit s.L v true, d := s.d, D := s.D.set i (Di.take last) }

/-- The loop `for ox := range g`, from `ox` on, `c` iterations left. -/
def degLoopL (g : LabeledAdjacencyList) : Nat → Nat → DegState → Except Fault DegState
  | 0, _, s => .ok s
  | c + 1, ox, s =>
    match degStepL g ox s with
    | .error e => .error e
    | .ok s1 => degLoopL g c (ox + 1) s1

/-- `LabeledAdjacencyList.Degeneracy`: `k`, `ordering` and `cores`, or a fault. -/
def DegeneracyL (g : LabeledAdjacencyList) : Except Fault (Nat × List Nat × List Nat) :=
  match degInitL g 0 (List.replicate g.length 0) [] with
  | .error e => .error e
  | .ok (d, D) =>
    match degLoopL g g.length 0
        { k := 0, ordering := List.replicate g.length 0, cores := [], L := 0, d := d, D := D } with
    | .error e => .error e
    | .ok s =>
      if s.k < s.cores.length then .ok (s.k, s.ordering, s.cores.set s.k s.ordering.length)
      else .error .index

/-! ### Bron-Kerbosch on a labeled graph -/

/-- The loops of `UndirectedLAL.BKPivotMaxDegree` over the set `L`, entered with the
result `(n, ok)` of `NextSet`:
`if d := len(g.LabeledAdjacencyList[n]); d > maxDeg { u = n; maxDeg = d }`, then
`n, ok = L.NextSet(n + 1)`, until `ok` is false.  The first argument bounds the number
of iterations.  The result is `u` and `maxDeg`. -/
def pivotScanL (g : LabeledAdjacencyList) (L : Nat) :
    Nat → Nat × Bool → Nat → Nat → Except Fault (Nat × Nat)
  | _, (_, false), u, maxDeg => .ok (u, maxDeg)
  | 0, (_, true), _, _ => .error .fuel
  | k + 1, (n, true), u, maxDeg =>
    match idx g n with
    | .error e => .error e
    | .ok adj =>
      if adj.length > maxDeg then pivotScanL g L k (bsNextSet L (n + 1)) n adj.length
      else pivotScanL g L k (bsNextSet L (n + 1)) u maxDeg

/-- `UndirectedLAL.BKPivotMaxDegree`: the node returned, or a fault when the list of a
member of `P` or `X` (of node 0 when `P` is empty) is indexed out of range.  A member
of a set is below the value of the set, which bounds the iterations of the scans. -/
def BKPivotMaxDegreeL (g : LabeledAdjacencyList) (P X : Nat) : Except Fault Int :=
  match idx g (bsNextSet P 0).1 with
  | .error e => .error e
  | .ok adj =>
    match pivotScanL g P P (bsNextSet P ((bsNextSet P 0).1 + 1)) (bsNextSet P 0).1
        adj.length with
    | .error e => .error e
    | .ok um =>
      match pivotScanL g X X (bsNextSet X 0) um.1 um.2 with
      | .error e => .error e
      | .ok um1 => .ok (Int.ofNat um1.1)

/-- The loop `for _, to := range g.LabeledAdjacencyList[n]` of the closures of the
labeled Bron-Kerbosch methods: `p2` and `x2` are cleared and get the to-nodes found in
`P` and in `X`. -/
def bkChildL (adj : List Half) (P X : Nat) : Nat × Nat :=
  adj.foldl (fun px t =>
    (if bsTest P t.To then bsSet px.1 t.To else px.1,
     if bsTest X t.To then bsSet px.2 t.To else px.2)) (0, 0)

/-- The loop filling the emitted slice `c`: `k` entries are still to be written and
the search goes on from position `s`, the value of `n + 1`:
`n, _ = R.NextSet(n + 1); c[i] = NI(n)`.  The unsigned `n` is decremented from zero
before the loop, so that `n + 1` is zero in the first iteration. -/
def bkCollectL (R : Nat) : Nat → Nat → List Int
  | 0, _ => []
  | k + 1, s => Int.ofNat (bsNextSet R s).1 :: bkCollectL R k ((bsNextSet R s).1 + 1)

/-- The list passed to `emit` for the clique `R`. -/
def bkCliqueL (R : Nat) : List Int := bkCollectL R (bsCount R) 0

/-- The set `pnu` of `UndirectedLAL.BronKerbosch3`: a clone of `P` without the
neighbours of the pivot. -/
def bkPnuL (adj : List Half) (P : Nat) : Nat :=
  adj.foldl (fun pnu t => bsClear pnu t.To) P

/-- The loop `for n, ok := pnu.NextSet(0); ok; n, ok = pnu.NextSet(n + 1)` of the
closure `f` of `UndirectedLAL.BronKerbosch3`, entered with the result `(n, ok)` of
`NextSet`.  `call` is the recursive call of `f`; the first argument bounds the number
of iterations.  The result is the value returned by `f` if the loop returned from it,
together with the calls of `emit` so far. -/
def bkLoopL (g : LabeledAdjacencyList)
    (call : Nat → Nat → Nat → List (List Int) → Except Fault (Bool × List (List Int)))
    (pnu R : Nat) :
    Nat → Nat × Bool → Nat → Nat → List (List Int) → Except Fault (Bool × List (List Int))
  | _, (_, false), _, _, log => .ok (true, log)
  | 0, (_, true), _, _, _ => .error .fuel
  | k + 1, (n, true), P, X, log =>
    match idx g n with
    | .error e => .error e
    | .ok adj =>
      let r2 := bsSet R n
      let px := bkChildL adj P X
      match call r2 px.1 px.2 log with
      | .error e => .error e
      | .ok (false, log1) => .ok (false, log1)
      | .ok (true, log1) =>
        bkLoopL g call pnu R k (bsNextSet pnu (n + 1)) (bsClear P n) (bsSet X n) log1

/-- The recursive closure `f` of `UndirectedLAL.BronKerbosch3`.  The first argument
bounds the depth of the recursion and the iterations of each loop.  The result is the
boolean returned by `f` and the calls of `emit` so far. -/
def bkfL (g : LabeledAdjacencyList) (pivot : Pivot) (emit : Emit Int) :
    Nat → Nat → Nat → Nat → List (List Int) → Except Fault (Bool × List (List Int))
  | 0, _, _, _, _ => .error .fuel
  | fuel + 1, R, P, X, log =>
    if bsAny P then
      match idxInt g (pivot P X) with
      | .error e => .error e
      | .ok adj =>
        let pnu := bkPnuL adj P
        bkLoopL g (bkfL g pivot emit fuel) pnu R fuel (bsNextSet pnu 0) P X log
    else if bsNone X then
      let c := bkCliqueL R
      if emit log c then .ok (true, log ++ [c]) else .ok (false, log ++ [c])
    else .ok (true, log)

/-- The outer loop `for _, n := range ord` of `UndirectedLAL.BronKerbosch3`; `call` is
the closure `f`.  The result is the list of the calls of `emit`. -/
def bk3OuterL (g : LabeledAdjacencyList)
    (call : Nat → Nat → Nat → List (List Int) → Except Fault (Bool × List (List Int))) :
    List Nat → Nat → Nat → Nat → List (List Int) → Except Fault (List (List Int))
  | [], _, _, _, log => .ok log
  | n :: rest, R, P, X, log =>
    let R1 := bsSet R n
    match idx g n with
    | .error e => .error e
    | .ok adj =>
      let px := bkChildL adj P X
      match call R1 px.1 px.2 log with
      | .error e => .error e
      | .ok (false, log1) => .ok log1
      | .ok (true, log1) =>
        bk3OuterL g call rest (bsClear R1 n) (bsClear P n) (bsSet X n) log1

/-- `UndirectedLAL.BronKerbosch3`: the calls of `emit`, in order (given enough
fuel). -/
def BronKerbosch3L (fuel : Nat) (g : LabeledAdjacencyList) (pivot : Pivot)
    (emit : Emit Int) : Except Fault (List (List Int)) :=
  match DegeneracyL g with
  | .error e => .error e
  | .ok (_, ord, _) =>
    bk3OuterL g (bkfL g pivot emit fuel) ord 0 (bsFull g.length) 0 []

/-- A pivot function is valid on `g` when it returns a node of `P` or `X` whenever `P`
is not empty and the members of `P` and `X` are nodes of `g`. -/
def PivotValidOn (g : AdjacencyList) (pivot : Pivot) : Prop :=
  ∀ P X, P ≠ 0 → (∀ v, Bit P v = true ∨ Bit X v = true → v < g.length) →
    ∃ u : Nat, pivot P X = (u : Int) ∧ (Bit P u = true ∨ Bit X u = true)

/-! ### Comparing the three methods for strongly connected components -/

/-- Two sequences of components have the same length and, position by position, the
same nodes. -/
def SameSets (a b : List (List Nat)) : Prop :=
  a.length = b.length ∧ ∀ i v, v ∈ a.getD i [] ↔ v ∈ b.getD i []

/-- How the variables of `SCCTarjan` and of `SCCPearce` relate when both run on the same
graph: the same nodes have been visited, and the components emitted so far have the
same nodes. -/
structure TPRel (tj : TState) (pe : PState) : Prop where
  vis : ∀ v, Bit tj.indexed v = true ↔ PVis pe v
  logs : SameSets tj.log pe.log

/-- The stack `B` of `SCCPathBased` when the stack `S` has `len` entries: positions in
`S`, higher ones nearer the top, with the position zero at the bottom when `S` is not
empty. -/
def BOk (B : List Int) (len : Nat) : Prop :=
  B.Pairwise (fun a b => b < a) ∧ (∀ b, b ∈ B → 0 ≤ b ∧ b < (len : Int)) ∧
  (0 < len → (0 : Int) ∈ B)

/-- How the variables of `SCCTarjan` and of `SCCPathBased` relate when both run on the
same graph: the same stack `S` and the same emitted components; `I` is negative for the
nodes not visited, the position in `S` for the nodes of `S`, and at least the order of
the graph for the emitted nodes; along `S` the index of `SCCTarjan` grows with the
position. -/
structure PBRel (g : AdjacencyList) (tj : TState) (pb : BState) : Prop where
  hS : pb.S = tj.S
  hlog : pb.log = tj.log
  hI : pb.I.length = g.length
  hc : (g.length : Int) ≤ pb.c
  hwhite : ∀ v, v < g.length → (pb.I.getD v 0 < 0 ↔ Bit tj.indexed v = false)
  hpos : ∀ l1 v l2, tj.S = l1 ++ v :: l2 → pb.I.getD v 0 = (l2.length : Int)
  hdone : ∀ v, Bit tj.indexed v = true → ¬ Bit tj.stacked v = true →
    (g.length : Int) ≤ pb.I.getD v 0
  hsort : tj.S.Pairwise (fun a b => tj.index.getD b 0 < tj.index.getD a 0)

/-- The relation during the loops over the successors of `n` in `sc(n)` and `df(n)`;
`pb0` are the variables of `SCCPathBased` at the call of `df(n)`: the stack `B` holds
the position of `n` and the entries it had at the call, as far as they are not above
the position of the node whose index is `lowlink[n]`. -/
structure PBLoop (g : AdjacencyList) (n : Nat) (pb0 : BState) (tj : TState) (pb : BState) :
    Prop where
  rel : PBRel g tj pb
  hB : ∃ w, w ∈ tj.S ∧ tj.lowlink.getD n 0 = tj.index.getD w 0 ∧
    pb.B = ((pb0.S.length : Int) :: pb0.B).filter (fun b => decide (b ≤ pb.I.getD w 0))

/-- What a call of `df(n)` has done to the stack `B`, next to a call of `sc(n)`: nothing
when `n` was a root, and otherwise the entries above the position of the node whose
index is `lowlink[n]` are gone. -/
def PBPost (n : Nat) (tj tj1 : TState) (pb pb1 : BState) : Prop :=
  (tj1.S = tj.S ∧ tj1.lowlink.getD n 0 = tj.x ∧ pb1.B = pb.B) ∨
  (∃ w, w ∈ tj.S ∧ tj1.lowlink.getD n 0 = tj1.index.getD w 0 ∧
    pb1.B = pb.B.filter (fun b => decide (b ≤ pb1.I.getD w 0)))

/-! ## Bit sets -/

theorem Bit_SetBit_true (x i j : Nat) :
    Bit (SetBit x i true) j = (Bit x j || decide (i = j)) := by
  simp [Bit, SetBit, Nat.testBit_or, Nat.testBit_two_pow]

theorem Bit_SetBit_false (x i j : Nat) :
    Bit (SetBit x i false) j = (Bit x j && !decide (i = j)) := by
  simp only [Bit, SetBit, Nat.testBit_xor, Nat.testBit_and, Nat.testBit_two_pow]
  by_cases h : i = j <;> cases hx : x.testBit j <;> simp [h, hx]

theorem Bit_zero (j : Nat) : Bit 0 j = false := by simp [Bit]

theorem Bit_OneBits (n j : Nat) : Bit (OneBits n) j = decide (j < n) := by
  simp [Bit, OneBits, Nat.testBit_two_pow_sub_one]

theorem Bit_lt {x i : Nat} (h : Bit x i = true) : i < x := by
  have h1 : x ≥ 2 ^ i := Nat.testBit_implies_ge h
  have h2 : i < 2 ^ i := Nat.lt_two_pow i
  omega

theorem eq_of_Bit_eq {x y : Nat} (h : ∀ i, Bit x i = Bit y i) : x = y :=
  Nat.eq_of_testBit_eq h

theorem exists_Bit_of_ne_zero {x : Nat} (h : x ≠ 0) : ∃ i, Bit x i = true :=
  Nat.ne_zero_implies_bit_true h

theorem mem_bitList {x i : Nat} : i ∈ bitList x ↔ Bit x i = true := by
  unfold bitList
  rw [List.mem_filter, List.mem_range]
  constructor
  · intro h; exact h.2
  · intro h; exact ⟨Bit_lt h, h⟩

theorem bitList_sorted (x : Nat) : (bitList x).Pairwise (· < ·) :=
  (List.pairwise_lt_range x).sublist (List.filter_sublist _)

theorem bitList_nodup (x : Nat) : (bitList x).Nodup :=
  (bitList_sorted x).imp (fun h => Nat.ne_of_lt h)

theorem find_sorted (p : Nat → Bool) :
    ∀ l : List Nat, l.Pairwise (· < ·) →
      (l.find? p = none ∧ ∀ a ∈ l, p a = false) ∨
      (∃ n, l.find? p = some n ∧ n ∈ l ∧ p n = true ∧ ∀ a ∈ l, p a = true → n ≤ a) := by
  intro l
  induction l with
  | nil => intro _; left; simp
  | cons b l ih =>
    intro hs
    rw [List.pairwise_cons] at hs
    by_cases hb : p b = true
    · right
      refine ⟨b, by simp [List.find?, hb], by simp, hb, ?_⟩
      intro a ha _
      rcases List.mem_cons.1 ha with h | h
      · omega
      · exact Nat.le_of_lt (hs.1 a h)
    · have hb' : p b = false := by simpa using hb
      rcases ih hs.2 with ⟨h1, h2⟩ | ⟨n, h1, h2, h3, h4⟩
      · left
        refine ⟨by simp [List.find?, hb', h1], ?_⟩
        intro a ha
        rcases List.mem_cons.1 ha with h | h
        · rw [h]; exact hb'
        · exact h2 a h
      · right
        refine ⟨n, by simp [List.find?, hb', h1], List.mem_cons_of_mem _ h2, h3, ?_⟩
        intro a ha hpa
        rcases List.mem_cons.1 ha with h | h
        · rw [h, hb'] at hpa; cases hpa
        · exact h4 a h hpa

theorem NextOne_cases (x : Nat) (k : Int) :
    (NextOne x k = -1 ∧ ∀ i, Bit x i = true → ¬ k ≤ (i : Int)) ∨
    (∃ n : Nat, NextOne x k = (n : Int) ∧ Bit x n = true ∧ k ≤ (n : Int) ∧
      ∀ i, Bit x i = true → k ≤ (i : Int) → n ≤ i) := by
  unfold NextOne
  rcases find_sorted (fun i => decide (k ≤ Int.ofNat i)) (bitList x) (bitList_sorted x) with
    ⟨h1, h2⟩ | ⟨n, h1, h2, h3, h4⟩
  · left
    rw [h1]
    refine ⟨rfl, ?_⟩
    intro i hi hk
    have := h2 i (mem_bitList.2 hi)
    simp at this
    omega
  · right
    rw [h1]
    refine ⟨n, rfl, mem_bitList.1 h2, by simpa using h3, ?_⟩
    intro i hi hk
    exact h4 i (mem_bitList.2 hi) (by simpa using hk)

theorem NextOne_eq_of_min {x : Nat} {k : Int} {n : Nat} (hb : Bit x n = true)
    (hk : k ≤ (n : Int)) (hmin : ∀ i, Bit x i = true → k ≤ (i : Int) → n ≤ i) :
    NextOne x k = (n : Int) := by
  rcases NextOne_cases x k with ⟨_, h2⟩ | ⟨m, h1, h2, h3, h4⟩
  · exact absurd hk (h2 n hb)
  · have h5 := h4 n hb hk
    have h6 := hmin m h2 h3
    rw [h1]
    have : m = n := by omega
    rw [this]

theorem bkCollect_suffix (R : Nat) :
    ∀ (suf pre : List Nat) (n : Int), bitList R = pre ++ suf →
      (∀ a ∈ pre, (a : Int) ≤ n) → (∀ a ∈ suf, n < (a : Int)) →
      bkCollect R suf.length n = suf.map Int.ofNat := by
  intro suf
  induction suf with
  | nil => intro pre n _ _ _; rfl
  | cons a rest ih =>
    intro pre n hsplit hpre hsuf
    have hsorted := bitList_sorted R
    rw [hsplit, List.pairwise_append] at hsorted
    have hrest : ∀ b ∈ rest, a < b := (List.pairwise_cons.1 hsorted.2.1).1
    have ha : Bit R a = true := mem_bitList.1 (by rw [hsplit]; simp)
    have hnext : NextOne R (n + 1) = (a : Int) := by
      apply NextOne_eq_of_min ha
      · have := hsuf a (by simp); omega
      · intro i hi hki
        have hmem : i ∈ pre ++ a :: rest := by rw [← hsplit]; exact mem_bitList.2 hi
        rcases List.mem_append.1 hmem with h | h
        · have := hpre i h; omega
        · rcases List.mem_cons.1 h with h | h
          · omega
          · exact Nat.le_of_lt (hrest i h)
    simp only [List.length_cons, bkCollect, hnext, List.map_cons]
    congr 1
    apply ih (pre ++ [a]) (a : Int)
    · rw [hsplit]; simp
    · intro b hb
      rcases List.mem_append.1 hb with h | h
      · have h1 := hpre b h
        have h2 := hsuf a (by simp)
        omega
      · simp at h; omega
    · intro b hb
      have := hrest b hb
      omega

theorem bkClique_eq (R : Nat) : bkClique R = (bitList R).map Int.ofNat := by
  unfold bkClique PopCount
  apply bkCollect_suffix R (bitList R) [] (-1)
  · simp
  · simp
  · intro a _; omega

theorem mem_bkClique {R v : Nat} : nodesOf (bkClique R) v ↔ Bit R v = true := by
  unfold nodesOf
  rw [bkClique_eq, ← mem_bitList]
  constructor
  · intro h
    rcases List.mem_map.1 h with ⟨a, ha, hav⟩
    have : a = v := by simpa using hav
    rw [← this]; exact ha
  · intro h
    exact List.mem_map.2 ⟨v, h, rfl⟩

theorem bkClique_injective {R R' : Nat} (h : bkClique R = bkClique R') : R = R' := by
  apply eq_of_Bit_eq
  intro i
  have h1 := @mem_bkClique R i
  have h2 := @mem_bkClique R' i
  rw [h] at h1
  cases hb : Bit R i <;> cases hb' : Bit R' i <;> simp_all

theorem PopCount_lt {a b n : Nat} (hsub : ∀ i, Bit a i = true → Bit b i = true)
    (hb : Bit b n = true) (ha : ¬ Bit a n = true) : PopCount a < PopCount b := by
  unfold PopCount
  rw [← List.toFinset_card_of_nodup (bitList_nodup a),
    ← List.toFinset_card_of_nodup (bitList_nodup b)]
  apply Finset.card_lt_card
  rw [Finset.ssubset_iff_of_subset]
  · exact ⟨n, by simpa [mem_bitList] using hb, by simpa [mem_bitList] using ha⟩
  · intro i hi
    simp only [List.mem_toFinset, mem_bitList] at hi ⊢
    exact hsub i hi

theorem PopCount_pos {x n : Nat} (h : Bit x n = true) : 0 < PopCount x :=
  List.length_pos_of_mem (mem_bitList.2 h)

theorem PopCount_OneBits (n : Nat) : PopCount (OneBits n) = n := by
  have : bitList (OneBits n) = List.range n := by
    apply List.eq_of_perm_of_sorted (r := (· < ·)) _ (bitList_sorted _) (List.pairwise_lt_range n)
    rw [List.perm_ext_iff_of_nodup (bitList_nodup _) (List.nodup_range n)]
    intro a
    simp [mem_bitList, Bit_OneBits]
  unfold PopCount
  rw [this, List.length_range]

theorem bkChild_fst (adj : List Nat) (P X : Nat) (j : Nat) :
    Bit (bkChild adj P X).1 j = (decide (j ∈ adj) && Bit P j) := by
  unfold bkChild
  suffices h : ∀ (l : List Nat) (p x : Nat),
      Bit (l.foldl (fun px t =>
        (if Bit P t then SetBit px.1 t true else px.1,
         if Bit X t then SetBit px.2 t true else px.2)) (p, x)).1 j
        = (Bit p j || (decide (j ∈ l) && Bit P j)) by
    rw [h, Bit_zero]; simp
  intro l
  induction l with
  | nil => intro p x; simp
  | cons b l ih =>
    intro p x
    rw [List.foldl_cons, ih]
    by_cases hb : Bit P b = true
    · simp only [hb, if_true, Bit_SetBit_true, List.mem_cons]
      by_cases hjb : j = b
      · subst hjb; simp [hb]
      · have : ¬ b = j := fun h => hjb h.symm
        simp [hjb, this]
    · simp only [hb, List.mem_cons]
      by_cases hjb : j = b
      · subst hjb
        have : Bit P j = false := by simpa using hb
        simp [this]
      · simp [hjb]

theorem bkChild_snd (adj : List Nat) (P X : Nat) (j : Nat) :
    Bit (bkChild adj P X).2 j = (decide (j ∈ adj) && Bit X j) := by
  unfold bkChild
  suffices h : ∀ (l : List Nat) (p x : Nat),
      Bit (l.foldl (fun px t =>
        (if Bit P t then SetBit px.1 t true else px.1,
         if Bit X t then SetBit px.2 t true else px.2)) (p, x)).2 j
        = (Bit x j || (decide (j ∈ l) && Bit X j)) by
    rw [h, Bit_zero]; simp
  intro l
  induction l with
  | nil => intro p x; simp
  | cons b l ih =>
    intro p x
    rw [List.foldl_cons, ih]
    by_cases hb : Bit X b = true
    · simp only [hb, if_true, Bit_SetBit_true, List.mem_cons]
      by_cases hjb : j = b
      · subst hjb; simp [hb]
      · have : ¬ b = j := fun h => hjb h.symm
        simp [hjb, this]
    · simp only [hb, List.mem_cons]
      by_cases hjb : j = b
      · subst hjb
        have : Bit X j = false := by simpa using hb
        simp [this]
      · simp [hjb]

theorem Bit_bkPnu (adj : List Nat) (P j : Nat) :
    Bit (bkPnu adj P) j = (Bit P j && !decide (j ∈ adj)) := by
  unfold bkPnu
  induction adj generalizing P with
  | nil => simp
  | cons b l ih =>
    rw [List.foldl_cons, ih, Bit_SetBit_false]
    by_cases hjb : j = b
    · subst hjb; simp
    · have : ¬ b = j := fun h => hjb h.symm
      simp [hjb, this]

/-! ## Graph facts -/

theorem Arc.lt_left {g : AdjacencyList} {u v : Nat} (h : Arc g u v) : u < g.length := by
  unfold Arc at h
  by_contra hu
  rw [List.getD_eq_default _ _ (by omega)] at h
  simp at h

theorem getD_mem {g : AdjacencyList} {u : Nat} (h : u < g.length) : g.getD u [] ∈ g := by
  rw [List.getD_eq_getElem _ _ h]
  exact List.getElem_mem _

theorem Arc.lt_right {g : AdjacencyList} (hg : InRange g) {u v : Nat} (h : Arc g u v) :
    v < g.length :=
  hg _ (getD_mem h.lt_left) v h

theorem Arc.symm {g : AdjacencyList} (hg : Reciprocal g) {u v : Nat} (h : Arc g u v) :
    Arc g v u :=
  hg u h.lt_left v h

theorem Arc.ne {g : AdjacencyList} (hg : LoopFree g) {u v : Nat} (h : Arc g u v) : u ≠ v := by
  intro huv
  subst huv
  exact hg u h.lt_left h

theorem idx_eq_getD {g : AdjacencyList} {u : Nat} (h : u < g.length) :
    idx g u = .ok (g.getD u []) := by
  unfold idx
  rw [List.getD_eq_getElem _ _ h, List.getElem?_eq_getElem h]

/-! ## Bron-Kerbosch -/

theorem BInv.not_mem_R {g : AdjacencyList} (hg : Simple g) {R P X m : Nat}
    (h : BInv g R P X) (hm : Bit P m = true ∨ Bit X m = true) : ¬ Bit R m = true := by
  intro hR
  exact Arc.ne hg.2.2.1 (((h.2.2.1 m).1 hm).2 m hR) rfl

theorem BInv.bk_child {g : AdjacencyList} (hg : Simple g) {R P X m : Nat}
    (h : BInv g R P X) (hm : Bit P m = true) :
    BInv g (SetBit R m true) (bkChild (g.getD m []) P X).1 (bkChild (g.getD m []) P X).2 := by
  obtain ⟨h1, h2, h3, h4⟩ := h
  have hmP := (h3 m).1 (Or.inl hm)
  refine ⟨?_, ?_, ?_, ?_⟩
  · intro r hr
    rw [Bit_SetBit_true] at hr
    simp only [Bool.or_eq_true, decide_eq_true_eq] at hr
    rcases hr with hr | hr
    · exact h1 r hr
    · rw [← hr]; exact hmP.1
  · intro a b ha hb hab
    rw [Bit_SetBit_true] at ha hb
    simp only [Bool.or_eq_true, decide_eq_true_eq] at ha hb
    rcases ha with ha | ha <;> rcases hb with hb | hb
    · exact h2 a b ha hb hab
    · rw [← hb]; exact hmP.2 a ha
    · rw [← ha]; exact Arc.symm hg.2.1 (hmP.2 b hb)
    · exact absurd (ha.symm.trans hb) hab
  · intro v
    rw [bkChild_fst, bkChild_snd]
    simp only [Bool.and_eq_true, decide_eq_true_eq]
    constructor
    · intro hv
      have hadj : v ∈ g.getD m [] := by rcases hv with hv | hv <;> exact hv.1
      have hPX : Bit P v = true ∨ Bit X v = true := by
        rcases hv with hv | hv
        · exact Or.inl hv.2
        · exact Or.inr hv.2
      have := (h3 v).1 hPX
      refine ⟨this.1, ?_⟩
      intro r hr
      rw [Bit_SetBit_true] at hr
      simp only [Bool.or_eq_true, decide_eq_true_eq] at hr
      rcases hr with hr | hr
      · exact this.2 r hr
      · rw [← hr]; exact hadj
    · intro hv
      have hadj : v ∈ g.getD m [] :=
        hv.2 m (by rw [Bit_SetBit_true]; simp)
      have hPX := (h3 v).2 ⟨hv.1, fun r hr => hv.2 r (by rw [Bit_SetBit_true]; simp [hr])⟩
      rcases hPX with hP | hX
      · exact Or.inl ⟨hadj, hP⟩
      · exact Or.inr ⟨hadj, hX⟩
  · intro v hv
    rw [bkChild_fst] at hv
    rw [bkChild_snd]
    simp only [Bool.and_eq_true, decide_eq_true_eq] at hv ⊢
    intro hx
    exact h4 v hv.2 hx.2

theorem BInv.move {g : AdjacencyList} {R P X m : Nat}
    (h : BInv g R P X) (hm : Bit P m = true) :
    BInv g R (SetBit P m false) (SetBit X m true) := by
  obtain ⟨h1, h2, h3, h4⟩ := h
  refine ⟨h1, h2, ?_, ?_⟩
  · intro v
    rw [← h3 v, Bit_SetBit_false, Bit_SetBit_true]
    simp only [Bool.and_eq_true, Bool.or_eq_true, decide_eq_true_eq, Bool.not_eq_true',
      decide_eq_false_iff_not]
    constructor
    · rintro (⟨hP, _⟩ | hX | hmv)
      · exact Or.inl hP
      · exact Or.inr hX
      · rw [← hmv]; exact Or.inl hm
    · rintro (hP | hX)
      · by_cases hmv : m = v
        · exact Or.inr (Or.inr hmv)
        · exact Or.inl ⟨hP, hmv⟩
      · exact Or.inr (Or.inl hX)
  · intro v hv
    rw [Bit_SetBit_false] at hv
    rw [Bit_SetBit_true]
    simp only [Bool.and_eq_true, Bool.or_eq_true, decide_eq_true_eq, Bool.not_eq_true',
      decide_eq_false_iff_not] at hv ⊢
    rintro (hX | hmv)
    · exact h4 v hv.1 hX
    · exact hv.2 hmv

theorem MC.child_mem {g : AdjacencyList} {R p2 m C : Nat}
    (h : MC g (SetBit R m true) p2 C) : Bit C m = true :=
  h.2.1 m (by rw [Bit_SetBit_true]; simp)

theorem MC.move_not_mem {g : AdjacencyList} {R P m C : Nat} (hR : ¬ Bit R m = true)
    (h : MC g R (SetBit P m false) C) : ¬ Bit C m = true := by
  intro hC
  rcases h.2.2 m hC with h1 | h1
  · exact hR h1
  · rw [Bit_SetBit_false] at h1
    simp at h1

theorem MC.split {g : AdjacencyList} {R P m C : Nat} (hm : Bit P m = true) :
    MC g R P C ↔
      (MC g (SetBit R m true) (bkChild (g.getD m []) P 0).1 C ∨
        MC g R (SetBit P m false) C) := by
  constructor
  · intro h
    by_cases hC : Bit C m = true
    · left
      refine ⟨h.1, ?_, ?_⟩
      · intro v hv
        rw [Bit_SetBit_true] at hv
        simp only [Bool.or_eq_true, decide_eq_true_eq] at hv
        rcases hv with hv | hv
        · exact h.2.1 v hv
        · rw [← hv]; exact hC
      · intro v hv
        rw [Bit_SetBit_true, bkChild_fst]
        simp only [Bool.or_eq_true, decide_eq_true_eq, Bool.and_eq_true]
        rcases h.2.2 v hv with h1 | h1
        · exact Or.inl (Or.inl h1)
        · by_cases hmv : m = v
          · exact Or.inl (Or.inr hmv)
          · exact Or.inr ⟨h.1.2.1 m v hC hv hmv, h1⟩
    · right
      refine ⟨h.1, h.2.1, ?_⟩
      intro v hv
      rcases h.2.2 v hv with h1 | h1
      · exact Or.inl h1
      · right
        rw [Bit_SetBit_false]
        simp only [Bool.and_eq_true, Bool.not_eq_true', decide_eq_false_iff_not]
        refine ⟨h1, ?_⟩
        intro hmv
        rw [hmv] at hC
        exact hC hv
  · rintro (h | h)
    · refine ⟨h.1, ?_, ?_⟩
      · intro v hv
        exact h.2.1 v (by rw [Bit_SetBit_true]; simp [hv])
      · intro v hv
        have := h.2.2 v hv
        rw [Bit_SetBit_true, bkChild_fst] at this
        simp only [Bool.or_eq_true, decide_eq_true_eq, Bool.and_eq_true] at this
        rcases this with (h1 | h1) | h1
        · exact Or.inl h1
        · rw [← h1]; exact Or.inr hm
        · exact Or.inr h1.2
    · refine ⟨h.1, h.2.1, ?_⟩
      intro v hv
      rcases h.2.2 v hv with h1 | h1
      · exact Or.inl h1
      · rw [Bit_SetBit_false] at h1
        simp only [Bool.and_eq_true] at h1
        exact Or.inr h1.1

theorem bkChild_fst_eq (adj : List Nat) (P X : Nat) :
    (bkChild adj P X).1 = (bkChild adj P 0).1 := by
  apply eq_of_Bit_eq
  intro i
  rw [bkChild_fst, bkChild_fst]

theorem bkLoop_neg (g : AdjacencyList)
    (call : Nat → Nat → Nat → List (List Int) → Except Fault (Bool × List (List Int)))
    (pnu : Option Nat) (R k j P X : Nat) (log : List (List Int)) :
    bkLoop g call pnu R k (Int.negSucc j) P X log = .ok (true, log) := by
  cases k <;> rfl

theorem getD_move (pnu : Option Nat) (P m v : Nat) :
    Bit (pnu.getD (SetBit P m false)) v = true ↔
      (Bit (pnu.getD P) v = true ∧ (pnu = none → m ≠ v)) := by
  cases pnu with
  | none =>
    simp only [Option.getD_none, Bit_SetBit_false, Bool.and_eq_true, Bool.not_eq_true',
      decide_eq_false_iff_not, forall_const]
  | some L => simp

theorem bkLoop_spec (g : AdjacencyList) (hg : Simple g)
    (call : Nat → Nat → Nat → List (List Int) → Except Fault (Bool × List (List Int)))
    (pnu : Option Nat) (R fuel : Nat)
    (hcall : ∀ R1 P1 X1 log, BInv g R1 P1 X1 → PopCount P1 < fuel →
      BKSpec g R1 P1 log (call R1 P1 X1 log)) :
    ∀ (k : Nat) (n : Int) (P X : Nat) (log : List (List Int)),
      BInv g R P X → PopCount P ≤ k → PopCount P ≤ fuel →
      (0 ≤ n → Bit (pnu.getD P) n.toNat = true ∧
        ∀ v : Nat, Bit (pnu.getD P) v = true → n ≤ (v : Int) → Bit P v = true) →
      (∀ v : Nat, Bit (pnu.getD P) v = true → Bit P v = true → 0 ≤ n ∧ n ≤ (v : Int)) →
      (∀ C, MC g R P C → ∃ v, Bit C v = true ∧ Bit (pnu.getD P) v = true ∧ Bit P v = true) →
      BKSpec g R P log (bkLoop g call pnu R k n P X log) := by
  intro k
  induction k with
  | zero =>
    intro n P X log hinv hk hfuel hc1 hc2 hcover
    cases n with
    | negSucc j =>
      refine ⟨[], by simp [bkLoop_neg], List.nodup_nil, ?_⟩
      intro C
      simp only [List.not_mem_nil, false_iff]
      intro hmc
      obtain ⟨v, _, hv2, hv3⟩ := hcover C hmc
      have := (hc2 v hv2 hv3).1
      have := Int.negSucc_lt_zero j
      omega
    | ofNat m =>
      exfalso
      have h1 := hc1 (Int.ofNat_nonneg m)
      have h2 : Bit P m = true := h1.2 m h1.1 (le_refl _)
      have := PopCount_pos h2
      omega
  | succ k ih =>
    intro n P X log hinv hk hfuel hc1 hc2 hcover
    cases n with
    | negSucc j =>
      refine ⟨[], by simp [bkLoop_neg], List.nodup_nil, ?_⟩
      intro C
      simp only [List.not_mem_nil, false_iff]
      intro hmc
      obtain ⟨v, _, hv2, hv3⟩ := hcover C hmc
      have := (hc2 v hv2 hv3).1
      have := Int.negSucc_lt_zero j
      omega
    | ofNat m =>
      have h1 := hc1 (Int.ofNat_nonneg m)
      have hLm : Bit (pnu.getD P) m = true := h1.1
      have hPm : Bit P m = true := h1.2 m h1.1 (le_refl _)
      have hmlt : m < g.length := ((hinv.2.2.1 m).1 (Or.inl hPm)).1
      have hmR : ¬ Bit R m = true := hinv.not_mem_R hg (Or.inl hPm)
      have hchild := hinv.bk_child hg hPm
      have hpop : PopCount (bkChild (g.getD m []) P X).1 < PopCount P := by
        apply PopCount_lt (n := m) _ hPm
        · rw [bkChild_fst]
          simp only [Bool.and_eq_true, decide_eq_true_eq, not_and]
          intro hmm
          exact absurd rfl (Arc.ne hg.2.2.1 hmm)
        · intro i hi
          rw [bkChild_fst] at hi
          simp only [Bool.and_eq_true] at hi
          exact hi.2
      obtain ⟨out1, hcall1, hnd1, hmem1⟩ :=
        hcall _ _ _ log hchild (by omega)
      have hpop1 : PopCount (SetBit P m false) < PopCount P := by
        apply PopCount_lt (n := m) _ hPm
        · rw [Bit_SetBit_false]; simp
        · intro i hi
          rw [Bit_SetBit_false] at hi
          simp only [Bool.and_eq_true] at hi
          exact hi.1
      obtain ⟨out2, hloop2, hnd2, hmem2⟩ :=
        ih (NextOne (pnu.getD (SetBit P m false)) (Int.ofNat m + 1)) (SetBit P m false)
          (SetBit X m true) (log ++ out1.map bkClique) (hinv.move hPm) (by omega) (by omega)
          (by
            intro hn
            rcases NextOne_cases (pnu.getD (SetBit P m false)) (Int.ofNat m + 1) with
              ⟨e1, _⟩ | ⟨n1, e1, e2, e3, _⟩
            · rw [e1] at hn; omega
            · rw [e1]
              refine ⟨by simpa using e2, ?_⟩
              intro v hv hnv
              rw [getD_move] at hv
              rw [Bit_SetBit_false]
              simp only [Bool.and_eq_true, Bool.not_eq_true', decide_eq_false_iff_not]
              have hmv : (Int.ofNat m) < (v : Int) := by omega
              refine ⟨h1.2 v hv.1 (by omega), ?_⟩
              intro hmv2
              rw [hmv2] at hmv
              simp at hmv)
          (by
            intro v hv hPv
            rw [getD_move] at hv
            rw [Bit_SetBit_false] at hPv
            simp only [Bool.and_eq_true, Bool.not_eq_true', decide_eq_false_iff_not] at hPv
            have h3 := hc2 v hv.1 hPv.1
            have hmv : (Int.ofNat m) + 1 ≤ (v : Int) := by
              have : (m : Int) ≠ (v : Int) := by
                intro h; exact hPv.2 (by exact_mod_cast h)
              have h4 : Int.ofNat m = (m : Int) := rfl
              omega
            have hbit : Bit (pnu.getD (SetBit P m false)) v = true := by
              rw [getD_move]; exact hv
            rcases NextOne_cases (pnu.getD (SetBit P m false)) (Int.ofNat m + 1) with
              ⟨_, e2⟩ | ⟨n1, e1, _, _, e4⟩
            · exact absurd hmv (e2 v hbit)
            · rw [e1]
              have := e4 v hbit hmv
              omega)
          (by
            intro C hC
            have hC' : MC g R P C := MC.split hPm |>.2 (Or.inr hC)
            obtain ⟨v, hv1, hv2, hv3⟩ := hcover C hC'
            have hmv : m ≠ v := by
              intro h
              rw [← h] at hv1
              exact hC.move_not_mem hmR hv1
            refine ⟨v, hv1, ?_, ?_⟩
            · rw [getD_move]; exact ⟨hv2, fun _ => hmv⟩
            · rw [Bit_SetBit_false]; simp [hv3, hmv])
      refine ⟨out1 ++ out2, ?_, ?_, ?_⟩
      · simp only [bkLoop, idx_eq_getD hmlt, hcall1]
        rw [hloop2]
        simp [List.append_assoc]
      · rw [List.nodup_append]
        refine ⟨hnd1, hnd2, ?_⟩
        intro C hC1 hC2
        rw [hmem1, bkChild_fst_eq] at hC1
        rw [hmem2] at hC2
        exact hC2.move_not_mem hmR hC1.child_mem
      · intro C
        rw [List.mem_append, hmem1, hmem2, MC.split hPm, bkChild_fst_eq]

theorem MC.exists_mem_P {g : AdjacencyList} (hg : Simple g) {R P X C : Nat}
    (hinv : BInv g R P X) (hP : P ≠ 0) (h : MC g R P C) :
    ∃ v, Bit C v = true ∧ Bit P v = true := by
  by_contra hno
  obtain ⟨p, hp⟩ := exists_Bit_of_ne_zero hP
  have hp' := (hinv.2.2.1 p).1 (Or.inl hp)
  apply h.1.2.2
  refine ⟨p, hp'.1, fun hCp => hno ⟨p, hCp, hp⟩, ?_⟩
  intro c hc
  rcases h.2.2 c hc with h1 | h1
  · exact hp'.2 c h1
  · exact absurd ⟨c, hc, h1⟩ hno

theorem MC.exists_mem_pnu {g : AdjacencyList} (hg : Simple g) {R P X C u : Nat}
    (hinv : BInv g R P X) (hu : Bit P u = true ∨ Bit X u = true) (h : MC g R P C) :
    ∃ v, Bit C v = true ∧ Bit (bkPnu (g.getD u []) P) v = true ∧ Bit P v = true := by
  by_contra hno
  have hadj : ∀ v, Bit C v = true → Bit P v = true → Arc g u v := by
    intro v hv hPv
    by_contra hnadj
    apply hno
    refine ⟨v, hv, ?_, hPv⟩
    rw [Bit_bkPnu]
    simp only [Bool.and_eq_true, Bool.not_eq_true', decide_eq_false_iff_not]
    exact ⟨hPv, hnadj⟩
  have hu' := (hinv.2.2.1 u).1 hu
  have huR : ¬ Bit R u = true := hinv.not_mem_R hg hu
  apply h.1.2.2
  refine ⟨u, hu'.1, ?_, ?_⟩
  · intro hCu
    rcases h.2.2 u hCu with h1 | h1
    · exact huR h1
    · exact Arc.ne hg.2.2.1 (hadj u hCu h1) rfl
  · intro c hc
    rcases h.2.2 c hc with h1 | h1
    · exact hu'.2 c h1
    · exact Arc.symm hg.2.1 (hadj c hc h1)

theorem MC.base_iff {g : AdjacencyList} {R C : Nat} (hinv : BInv g R 0 0) :
    MC g R 0 C ↔ C = R := by
  constructor
  · intro h
    apply eq_of_Bit_eq
    intro i
    cases hC : Bit C i <;> cases hR : Bit R i <;> try rfl
    · have := h.2.1 i hR
      rw [hC] at this; cases this
    · rcases h.2.2 i hC with h1 | h1
      · rw [hR] at h1; cases h1
      · rw [Bit_zero] at h1; cases h1
  · intro h
    subst h
    refine ⟨⟨hinv.1, hinv.2.1, ?_⟩, fun v hv => hv, fun v hv => Or.inl hv⟩
    rintro ⟨v, hv1, _, hv3⟩
    have := (hinv.2.2.1 v).2 ⟨hv1, hv3⟩
    simp [Bit_zero] at this

theorem MC.base_none {g : AdjacencyList} (hg : Simple g) {R X C : Nat}
    (hinv : BInv g R 0 X) (hX : X ≠ 0) : ¬ MC g R 0 C := by
  intro h
  obtain ⟨x, hx⟩ := exists_Bit_of_ne_zero hX
  have hx' := (hinv.2.2.1 x).1 (Or.inr hx)
  have hxR : ¬ Bit R x = true := hinv.not_mem_R hg (Or.inr hx)
  apply h.1.2.2
  refine ⟨x, hx'.1, ?_, ?_⟩
  · intro hCx
    rcases h.2.2 x hCx with h1 | h1
    · exact hxR h1
    · rw [Bit_zero] at h1; cases h1
  · intro c hc
    rcases h.2.2 c hc with h1 | h1
    · exact hx'.2 c h1
    · rw [Bit_zero] at h1; cases h1

theorem bkf_spec (g : AdjacencyList) (hg : Simple g) (pivot : Option Pivot)
    (hpv : ∀ p, pivot = some p → PivotValid p) :
    ∀ (fuel R P X : Nat) (log : List (List Int)), BInv g R P X → PopCount P < fuel →
      BKSpec g R P log (bkf g pivot emitAll fuel R P X log) := by
  intro fuel
  induction fuel with
  | zero => intro R P X log _ h; omega
  | succ fuel ih =>
    intro R P X log hinv hpop
    by_cases hP : P = 0
    · subst hP
      by_cases hX : X = 0
      · subst hX
        refine ⟨[R], by simp [bkf, emitAll], by simp, ?_⟩
        intro C
        rw [MC.base_iff hinv]
        simp
      · refine ⟨[], by simp [bkf, hX], by simp, ?_⟩
        intro C
        simp only [List.not_mem_nil, false_iff]
        exact MC.base_none hg hinv hX
    · cases pivot with
      | none =>
        simp only [bkf, ne_eq, hP, not_false_eq_true, if_true]
        apply bkLoop_spec g hg _ none R fuel ih fuel _ P X log hinv (by omega) (by omega)
        · intro hn
          rcases NextOne_cases P 0 with ⟨e1, _⟩ | ⟨n1, e1, e2, _, _⟩
          · rw [e1] at hn; omega
          · rw [e1]
            exact ⟨by simpa using e2, fun v hv _ => hv⟩
        · intro v hv _
          rcases NextOne_cases P 0 with ⟨_, e2⟩ | ⟨n1, e1, _, _, e4⟩
          · exact absurd (Int.ofNat_nonneg v) (e2 v hv)
          · rw [e1]
            have := e4 v hv (Int.ofNat_nonneg v)
            omega
        · intro C hC
          obtain ⟨v, hv1, hv2⟩ := hC.exists_mem_P hg hinv hP
          exact ⟨v, hv1, hv2, hv2⟩
      | some pv =>
        obtain ⟨u, hu1, hu2⟩ := hpv pv rfl P X hP
        have hult : u < g.length := ((hinv.2.2.1 u).1 hu2).1
        have hidx : idxInt g (pv P X) = .ok (g.getD u []) := by
          rw [hu1]
          exact idx_eq_getD hult
        simp only [bkf, ne_eq, hP, not_false_eq_true, if_true, hidx]
        apply bkLoop_spec g hg _ _ R fuel ih fuel _ P X log hinv (by omega) (by omega)
        · intro hn
          rcases NextOne_cases (bkPnu (g.getD u []) P) 0 with ⟨e1, _⟩ | ⟨n1, e1, e2, _, _⟩
          · rw [e1] at hn; omega
          · rw [e1]
            refine ⟨by simpa using e2, ?_⟩
            intro v hv _
            simp only [Option.getD_some, Bit_bkPnu, Bool.and_eq_true] at hv
            exact hv.1
        · intro v hv _
          rcases NextOne_cases (bkPnu (g.getD u []) P) 0 with ⟨_, e2⟩ | ⟨n1, e1, _, _, e4⟩
          · exact absurd (Int.ofNat_nonneg v) (e2 v hv)
          · rw [e1]
            have := e4 v hv (Int.ofNat_nonneg v)
            omega
        · intro C hC
          exact hC.exists_mem_pnu hg hinv hu2

theorem BInv.bk_init (g : AdjacencyList) : BInv g 0 (OneBits g.length) 0 := by
  refine ⟨?_, ?_, ?_, ?_⟩
  · intro r hr; rw [Bit_zero] at hr; cases hr
  · intro a b ha; rw [Bit_zero] at ha; cases ha
  · intro v
    simp [Bit_zero, Bit_OneBits]
  · intro v _; simp [Bit_zero]

theorem MC.init_iff {g : AdjacencyList} {C : Nat} :
    MC g 0 (OneBits g.length) C ↔ IsMaximalClique g (bitsOf C) := by
  constructor
  · intro h; exact h.1
  · intro h
    refine ⟨h, ?_, ?_⟩
    · intro v hv; rw [Bit_zero] at hv; cases hv
    · intro v hv
      right
      rw [Bit_OneBits]
      simpa using h.1 v hv

/-- The bit set of the members of a list. -/
theorem exists_bits_of_list (l : List Nat) : ∃ C : Nat, ∀ j, Bit C j = true ↔ j ∈ l := by
  induction l with
  | nil => exact ⟨0, fun j => by simp [Bit_zero]⟩
  | cons a l ih =>
    obtain ⟨C, hC⟩ := ih
    refine ⟨SetBit C a true, ?_⟩
    intro j
    rw [Bit_SetBit_true]
    simp only [Bool.or_eq_true, decide_eq_true_eq, hC, List.mem_cons]
    constructor
    · rintro (h | h)
      · exact Or.inr h
      · exact Or.inl h.symm
    · rintro (h | h)
      · exact Or.inr h.symm
      · exact Or.inl h

theorem bkClique_sorted (C : Nat) : (bkClique C).Pairwise (· < ·) := by
  rw [bkClique_eq, List.pairwise_map]
  exact (bitList_sorted C).imp (fun h => Int.ofNat_lt.2 h)

theorem bkClique_nonneg (C : Nat) : ∀ x ∈ bkClique C, (0 : Int) ≤ x := by
  intro x hx
  rw [bkClique_eq] at hx
  rcases List.mem_map.1 hx with ⟨a, _, rfl⟩
  exact Int.ofNat_nonneg a

theorem nodesOf_bkClique (C : Nat) : nodesOf (bkClique C) = bitsOf C := by
  funext v
  exact propext mem_bkClique

/-- What `BronKerbosch1` and `BronKerbosch2` report, from the specification of `f`. -/
theorem BKSpec.top {g : AdjacencyList} {res : Except Fault (Bool × List (List Int))}
    (h : BKSpec g 0 (OneBits g.length) [] res) :
    ∃ cs, res.map Prod.snd = .ok cs ∧ cs.Nodup ∧
      (∀ c, c ∈ cs ↔ (∃ C : Nat, c = bkClique C ∧ IsMaximalClique g (bitsOf C))) := by
  obtain ⟨out, h1, h2, h3⟩ := h
  refine ⟨out.map bkClique, by rw [h1]; rfl, ?_, ?_⟩
  · exact h2.map (fun a b hab => bkClique_injective hab)
  · intro c
    rw [List.mem_map]
    constructor
    · rintro ⟨C, hC, rfl⟩
      exact ⟨C, rfl, MC.init_iff.1 ((h3 C).1 hC)⟩
    · rintro ⟨C, rfl, hC⟩
      exact ⟨C, (h3 C).2 (MC.init_iff.2 hC), rfl⟩

theorem BronKerbosch1_spec (g : AdjacencyList) (hg : Simple g) (fuel : Nat)
    (hfuel : g.length < fuel) :
    ∃ cs, BronKerbosch1 fuel g emitAll = .ok cs ∧ cs.Nodup ∧
      (∀ c, c ∈ cs ↔ (∃ C : Nat, c = bkClique C ∧ IsMaximalClique g (bitsOf C))) := by
  apply BKSpec.top
  apply bkf_spec g hg none (fun p hp => by cases hp) fuel 0 _ 0 [] (BInv.bk_init g)
  rw [PopCount_OneBits]
  exact hfuel

/-- From the description of the reported list to the statement about node sets. -/
theorem maximal_cliques_of_spec {g : AdjacencyList} {cs : List (List Int)}
    (hnd : cs.Nodup)
    (h : ∀ c, c ∈ cs ↔ (∃ C : Nat, c = bkClique C ∧ IsMaximalClique g (bitsOf C))) :
    (∀ c ∈ cs, c.Pairwise (· < ·) ∧ (∀ x ∈ c, 0 ≤ x) ∧ IsMaximalClique g (nodesOf c)) ∧
    (∀ S : Nat → Prop, IsMaximalClique g S → ∃ c ∈ cs, ∀ v, nodesOf c v ↔ S v) ∧
    cs.Pairwise (fun c d => ¬ ∀ v, nodesOf c v ↔ nodesOf d v) := by
  refine ⟨?_, ?_, ?_⟩
  · intro c hc
    obtain ⟨C, rfl, hC⟩ := (h c).1 hc
    refine ⟨bkClique_sorted C, bkClique_nonneg C, ?_⟩
    rw [nodesOf_bkClique]
    exact hC
  · intro S hS
    classical
    obtain ⟨C, hC⟩ := exists_bits_of_list ((List.range g.length).filter (fun v => decide (S v)))
    have hCS : bitsOf C = S := by
      funext v
      apply propext
      unfold bitsOf
      rw [hC, List.mem_filter, List.mem_range]
      simp only [decide_eq_true_eq]
      exact ⟨fun h => h.2, fun h => ⟨hS.1 v h, h⟩⟩
    refine ⟨bkClique C, (h _).2 ⟨C, rfl, by rw [hCS]; exact hS⟩, ?_⟩
    intro v
    rw [nodesOf_bkClique, hCS]
  · refine hnd.imp_of_mem ?_
    intro c d hc hd hne hsame
    obtain ⟨C, rfl, _⟩ := (h c).1 hc
    obtain ⟨D, rfl, _⟩ := (h d).1 hd
    apply hne
    congr 1
    apply eq_of_Bit_eq
    intro i
    have := hsame i
    rw [mem_bkClique, mem_bkClique] at this
    cases hC : Bit C i <;> cases hD : Bit D i <;> simp_all

/-! ## Slices -/

theorem idx_ok {α : Type} {xs : List α} {i : Nat} {x : α} (h : idx xs i = .ok x) :
    i < xs.length ∧ ∀ d, xs.getD i d = x := by
  unfold idx at h
  cases hx : xs[i]? with
  | none => rw [hx] at h; cases h
  | some y =>
    rw [hx] at h
    injection h with h
    subst h
    have hlt : i < xs.length := by
      by_contra hge
      rw [List.getElem?_eq_none (by omega)] at hx
      cases hx
    refine ⟨hlt, fun d => ?_⟩
    rw [List.getD_eq_getElem?_getD, hx]
    rfl

theorem getD_set_eq {α : Type} (xs : List α) (i : Nat) (a d : α) (h : i < xs.length) :
    (xs.set i a).getD i d = a := by
  rw [List.getD_eq_getElem?_getD, List.getElem?_set]
  simp [h]

theorem getD_set_ne {α : Type} (xs : List α) (i j : Nat) (a d : α) (h : i ≠ j) :
    (xs.set i a).getD j d = xs.getD j d := by
  rw [List.getD_eq_getElem?_getD, List.getD_eq_getElem?_getD, List.getElem?_set]
  simp [h]

theorem getD_mem_of_lt {xs : List Nat} {i : Nat} (h : i < xs.length) : xs.getD i 0 ∈ xs := by
  rw [List.getD_eq_getElem _ _ h]
  exact List.getElem_mem _

theorem getD_append_len (A : List Nat) (x : Nat) (C : List Nat) :
    (A ++ x :: C).getD A.length 0 = x := by
  rw [List.getD_append_right _ _ _ _ (le_refl _)]
  simp

theorem set_append_len (A : List Nat) (x y : Nat) (C : List Nat) :
    (A ++ x :: C).set A.length y = A ++ y :: C := by
  rw [List.set_append, if_neg (by omega)]
  simp

theorem swapAt_split (A B : List Nat) (nb z : Nat) :
    swapAt (A ++ nb :: (B ++ [z])) A.length (A.length + B.length + 1)
      = A ++ z :: (B ++ [nb]) := by
  unfold swapAt
  have h1 : (A ++ nb :: (B ++ [z])).getD A.length 0 = nb := getD_append_len A nb _
  have h2 : (A ++ nb :: (B ++ [z])).getD (A.length + B.length + 1) 0 = z := by
    have := getD_append_len (A ++ nb :: B) z []
    simpa [Nat.add_assoc] using this
  rw [h1, h2, set_append_len]
  have := set_append_len (A ++ z :: B) z nb []
  simpa [Nat.add_assoc] using this

theorem swapAt_self (l : List Nat) (i : Nat) : swapAt l i i = l := by
  unfold swapAt
  apply List.ext_getElem?
  intro j
  simp only [List.getElem?_set, List.length_set, List.getD_eq_getElem?_getD]
  by_cases h : i = j
  · subst h
    by_cases h2 : i < l.length
    · simp [h2]
    · simp [h2]; omega
  · simp [h]

theorem length_swapAt (l : List Nat) (i j : Nat) : (swapAt l i j).length = l.length := by
  simp [swapAt]

/-! ## The removal loop -/

theorem degRemove_stable (nb dn : Nat) (T : List Nat) :
    ∀ (c wx : Nat) (Ddn : List Nat) (D : List (List Nat)), c + wx = Ddn.length →
      (∀ x, wx ≤ x → x < Ddn.length → Ddn.getD x 0 = nb → x = Ddn.length - 1) →
      T = Ddn.take (Ddn.length - 1) →
      degRemove nb dn c wx Ddn (D.set dn T) = D.set dn T := by
  intro c
  induction c with
  | zero => intro wx Ddn D _ _ _; rfl
  | succ c ih =>
    intro wx Ddn D hlen hlast hT
    by_cases h : Ddn.getD wx 0 = nb
    · have hwx : wx = Ddn.length - 1 := hlast wx (le_refl _) (by omega) h
      simp only [degRemove, h, if_true]
      rw [← hwx, swapAt_self, List.set_set]
      have hT1 : T = Ddn.take wx := by rw [hT, ← hwx]
      rw [← hT1]
      apply ih (wx + 1) Ddn D (by omega) _ hT
      intro x hx1 hx2 _
      omega
    · simp only [degRemove, h, if_false]
      apply ih _ _ _ (by omega) _ hT
      intro x hx1 hx2 hx3
      exact hlast x (by omega) hx2 hx3

theorem degRemove_skip (nb dn : Nat) (A B : List Nat) (hA : nb ∉ A) (D : List (List Nat)) :
    ∀ (c wx : Nat), wx ≤ A.length → c + wx = (A ++ nb :: B).length →
      degRemove nb dn c wx (A ++ nb :: B) D
        = degRemove nb dn (B.length + 1) A.length (A ++ nb :: B) D := by
  intro c
  induction c with
  | zero =>
    intro wx h1 h2
    simp at h2
    omega
  | succ c ih =>
    intro wx h1 h2
    by_cases hwx : wx = A.length
    · subst hwx
      have : c = B.length := by simp at h2; omega
      rw [this]
    · have hlt : wx < A.length := by omega
      have hne : (A ++ nb :: B).getD wx 0 ≠ nb := by
        rw [List.getD_append _ _ _ _ hlt]
        intro h
        exact hA (h ▸ getD_mem_of_lt hlt)
      simp only [degRemove, hne, if_false]
      exact ih (wx + 1) (by omega) (by omega)

theorem degRemove_spec (nb dn : Nat) (Ddn : List Nat) (D : List (List Nat))
    (hnd : Ddn.Nodup) (hmem : nb ∈ Ddn) :
    ∃ T, degRemove nb dn Ddn.length 0 Ddn D = D.set dn T ∧ T.Nodup ∧
      ∀ v, v ∈ T ↔ (v ∈ Ddn ∧ v ≠ nb) := by
  obtain ⟨A, B, hsplit⟩ := List.append_of_mem hmem
  subst hsplit
  have hA : nb ∉ A := by
    intro h
    have := List.nodup_append.1 hnd
    exact this.2.2 h (List.mem_cons_self _ _)
  have hB : nb ∉ B := by
    have := (List.nodup_append.1 hnd).2.1
    exact (List.nodup_cons.1 this).1
  have hAB : (A ++ B).Nodup := by
    have h1 := List.nodup_append.1 hnd
    rw [List.nodup_append]
    refine ⟨h1.1, (List.nodup_cons.1 h1.2.1).2, ?_⟩
    intro a ha hb
    exact h1.2.2 ha (List.mem_cons_of_mem _ hb)
  rw [degRemove_skip nb dn A B hA D _ 0 (by omega) (by simp)]
  have hget : (A ++ nb :: B).getD A.length 0 = nb := getD_append_len A nb B
  rcases List.eq_nil_or_concat B with hB0 | ⟨B1, z, hB1⟩
  · subst hB0
    refine ⟨A, ?_, by simpa using hAB, ?_⟩
    · simp only [List.length_nil, Nat.zero_add, degRemove, hget, if_true, List.length_append,
        List.length_cons, Nat.add_sub_cancel, swapAt_self]
      simp
    · intro v
      simp only [List.mem_append, List.mem_cons, List.mem_singleton, List.not_mem_nil, or_false]
      constructor
      · intro h; exact ⟨Or.inl h, fun hv => hA (hv ▸ h)⟩
      · rintro ⟨h | h, h2⟩
        · exact h
        · exact absurd h h2
  · subst hB1
    rw [List.concat_eq_append] at *
    refine ⟨A ++ z :: B1, ?_, ?_, ?_⟩
    · have hlast : (A ++ nb :: (B1 ++ [z])).length - 1 = A.length + B1.length + 1 := by
        simp; omega
      simp only [degRemove, hget, if_true, hlast, swapAt_split]
      have htake : (A ++ z :: (B1 ++ [nb])).take (A.length + B1.length + 1) = A ++ z :: B1 := by
        have : A ++ z :: (B1 ++ [nb]) = (A ++ z :: B1) ++ [nb] := by simp
        rw [this, List.take_left']
        simp; omega
      rw [htake]
      apply degRemove_stable nb dn (A ++ z :: B1) _ _ _ D
      · simp; omega
      · intro x hx1 hx2 hx3
        simp only [List.length_append, List.length_cons, List.length_singleton,
          List.length_nil] at hx2 ⊢
        by_contra hne
        have hx4 : x - (A.length + 1) < B1.length := by omega
        have : (A ++ z :: (B1 ++ [nb])).getD x 0 = B1.getD (x - (A.length + 1)) 0 := by
          have e1 : A ++ z :: (B1 ++ [nb]) = (A ++ [z]) ++ (B1 ++ [nb]) := by simp
          rw [e1, List.getD_append_right _ _ _ _ (by simp; omega)]
          simp only [List.length_append, List.length_singleton]
          rw [List.getD_append _ _ _ _ hx4]
        rw [this] at hx3
        apply hB
        rw [List.mem_append]
        left
        rw [← hx3]
        exact getD_mem_of_lt hx4
      · have : (A ++ z :: (B1 ++ [nb])).length - 1 = A.length + B1.length + 1 := by
          simp; omega
        rw [this, htake]
    · have : (A ++ z :: B1).Perm (A ++ (B1 ++ [z])) := by
        apply List.Perm.append_left
        have := List.perm_append_singleton z B1
        exact this.symm
      exact this.nodup_iff.2 hAB
    · intro v
      simp only [List.mem_append, List.mem_cons, List.mem_singleton, List.not_mem_nil,
        or_false]
      constructor
      · rintro (h | h | h)
        · exact ⟨Or.inl h, fun hv => hA (hv ▸ h)⟩
        · refine ⟨Or.inr (Or.inr (Or.inr h)), fun hv => hB ?_⟩
          rw [← hv, h]; simp
        · refine ⟨Or.inr (Or.inr (Or.inl h)), fun hv => hB ?_⟩
          rw [← hv]; simp [h]
      · rintro ⟨h | h | h | h, h2⟩
        · exact Or.inl h
        · exact absurd h h2
        · exact Or.inr (Or.inr h)
        · exact Or.inr (Or.inl h)

/-! ## Counting neighbours -/

theorem filter_length_split (pre : List Nat) (v : Nat) (hv : v ∉ pre) :
    ∀ l : List Nat, l.Nodup →
      (l.filter (fun u => decide (u ∉ pre))).length
        = (l.filter (fun u => decide (u ∉ pre ++ [v]))).length + (if v ∈ l then 1 else 0) := by
  intro l
  induction l with
  | nil => intro _; simp
  | cons a l ih =>
    intro hnd
    rw [List.nodup_cons] at hnd
    have ih1 := ih hnd.2
    by_cases hav : a = v
    · subst hav
      have h1 : a ∉ l := hnd.1
      simp only [h1, if_false, Nat.add_zero] at ih1
      simp at ih1
      simp [List.filter_cons, hv]
      exact ih1
    · have hva : ¬ v = a := fun h => hav h.symm
      simp [hva] at ih1
      by_cases hap : a ∈ pre
      · simp [List.filter_cons, hap, hav, hva]
        exact ih1
      · simp [List.filter_cons, hap, hav, hva]
        omega

theorem outDeg_split {g : AdjacencyList} (hg : Simple g) {pre : List Nat} {v w : Nat}
    (hv : v ∉ pre) (hw : w < g.length) :
    outDeg g w pre = outDeg g w (pre ++ [v]) + (if w ∈ g.getD v [] then 1 else 0) := by
  unfold outDeg
  rw [filter_length_split pre v hv _ (hg.2.2.2 _ (getD_mem hw))]
  congr 1
  have : v ∈ g.getD w [] ↔ w ∈ g.getD v [] :=
    ⟨fun h => Arc.symm hg.2.1 h, fun h => Arc.symm hg.2.1 h⟩
  simp only [this]

/-! ## The loop over the neighbours -/

theorem degNeighbor_inv {g : AdjacencyList} {pre rest : List Nat} {s s1 : DegState}
    {nb : Nat} (hinv : DegInv g pre (nb :: rest) s) (hnd : (nb :: rest).Nodup)
    (hnb : nb < g.length) (h : degNeighbor s nb = .ok s1) :
    DegInv g pre rest s1 ∧ s1.k = s.k ∧ s1.ordering = s.ordering := by
  rw [List.nodup_cons] at hnd
  unfold degNeighbor at h
  by_cases hb : Bit s.L nb = true
  · rw [if_pos hb] at h
    injection h with h
    subst h
    refine ⟨⟨hinv.hd, hinv.hL, ?_, hinv.hD, hinv.hnd⟩, rfl, rfl⟩
    intro w hw hwp
    rw [hinv.hdeg w hw hwp]
    have hne : w ≠ nb := fun e => hwp (e ▸ (hinv.hL nb).1 hb)
    simp [hne]
  · rw [if_neg hb] at h
    have hnbp : nb ∉ pre := fun e => hb ((hinv.hL nb).2 e)
    cases h1 : idx s.d nb with
    | error e => rw [h1] at h; cases h
    | ok dn =>
      rw [h1] at h
      simp only at h
      have hdn : s.d.getD nb 0 = dn := (idx_ok h1).2 0
      cases h2 : idx s.D dn with
      | error e => rw [h2] at h; cases h
      | ok Ddn =>
        rw [h2] at h
        simp only at h
        have hDdn : s.D.getD dn [] = Ddn := (idx_ok h2).2 []
        have hdnlt : dn < s.D.length := (idx_ok h2).1
        have hmem : nb ∈ Ddn := by
          rw [← hDdn, hinv.hD]
          exact ⟨hnb, hnbp, hdn⟩
        have hndD : Ddn.Nodup := hDdn ▸ hinv.hnd dn
        obtain ⟨T, hT1, hT2, hT3⟩ := degRemove_spec nb dn Ddn s.D hndD hmem
        rw [hT1] at h
        cases dn with
        | zero => cases h
        | succ dn1 =>
          simp only at h
          cases h3 : idx ((s.D.set (dn1 + 1) T)) dn1 with
          | error e => rw [h3] at h; cases h
          | ok b =>
            rw [h3] at h
            simp only at h
            injection h with h
            subst h
            have hb1 : b = s.D.getD dn1 [] := by
              rw [← (idx_ok h3).2 [], getD_set_ne _ _ _ _ _ (by omega)]
            have hdn1lt : dn1 < (s.D.set (dn1 + 1) T).length := (idx_ok h3).1
            have hnbd : nb < s.d.length := by rw [hinv.hd]; exact hnb
            have hgetD : ∀ j, ((s.D.set (dn1 + 1) T).set dn1 (b ++ [nb])).getD j []
                = if j = dn1 then s.D.getD dn1 [] ++ [nb]
                  else if j = dn1 + 1 then T else s.D.getD j [] := by
              intro j
              by_cases hj1 : j = dn1
              · subst hj1
                rw [getD_set_eq _ _ _ _ hdn1lt, if_pos rfl, hb1]
              · rw [getD_set_ne _ _ _ _ _ (fun e => hj1 e.symm), if_neg hj1]
                by_cases hj2 : j = dn1 + 1
                · subst hj2
                  rw [getD_set_eq _ _ _ _ hdnlt, if_pos rfl]
                · rw [getD_set_ne _ _ _ _ _ (fun e => hj2 e.symm), if_neg hj2]
            have hgetd : ∀ w, (s.d.set nb dn1).getD w 0 = if w = nb then dn1 else s.d.getD w 0 := by
              intro w
              by_cases hw : w = nb
              · subst hw
                rw [getD_set_eq _ _ _ _ hnbd, if_pos rfl]
              · rw [getD_set_ne _ _ _ _ _ (fun e => hw e.symm), if_neg hw]
            refine ⟨⟨?_, hinv.hL, ?_, ?_, ?_⟩, rfl, rfl⟩
            · simp [hinv.hd]
            · intro w hw hwp
              show (s.d.set nb dn1).getD w 0 = _
              rw [hgetd]
              by_cases hwn : w = nb
              · subst hwn
                have := hinv.hdeg w hw hwp
                simp only [List.mem_cons, true_or, if_true] at this
                rw [if_pos rfl, if_neg hnd.1]
                omega
              · rw [if_neg hwn, hinv.hdeg w hw hwp]
                simp [hwn]
            · intro j v
              show v ∈ ((s.D.set (dn1 + 1) T).set dn1 (b ++ [nb])).getD j [] ↔
                (v < g.length ∧ v ∉ pre ∧ (s.d.set nb dn1).getD v 0 = j)
              rw [hgetD, hgetd]
              by_cases hj1 : j = dn1
              · subst hj1
                rw [if_pos rfl, List.mem_append, hinv.hD, List.mem_singleton]
                by_cases hvn : v = nb
                · subst hvn
                  simp [hnb, hnbp]
                · simp [hvn]
              · rw [if_neg hj1]
                by_cases hj2 : j = dn1 + 1
                · subst hj2
                  rw [if_pos rfl, hT3, ← hDdn, hinv.hD]
                  by_cases hvn : v = nb
                  · subst hvn
                    simp
                  · simp [hvn]
                · rw [if_neg hj2, hinv.hD]
                  by_cases hvn : v = nb
                  · subst hvn
                    rw [hdn]
                    simp only [if_true]
                    constructor
                    · intro h; exact absurd h.2.2.symm hj2
                    · intro h; exact absurd h.2.2.symm hj1
                  · simp [hvn]
            · intro j
              show (((s.D.set (dn1 + 1) T).set dn1 (b ++ [nb])).getD j []).Nodup
              rw [hgetD]
              by_cases hj1 : j = dn1
              · rw [if_pos hj1]
                rw [List.nodup_append]
                refine ⟨hinv.hnd dn1, List.nodup_singleton nb, ?_⟩
                intro a ha hb2
                rw [List.mem_singleton] at hb2
                subst hb2
                have := ((hinv.hD dn1 a).1 ha).2.2
                omega
              · rw [if_neg hj1]
                by_cases hj2 : j = dn1 + 1
                · rw [if_pos hj2]; exact hT2
                · rw [if_neg hj2]; exact hinv.hnd j

theorem degNeighbors_inv {g : AdjacencyList} {pre : List Nat} :
    ∀ (adj : List Nat) (s s1 : DegState), DegInv g pre adj s → adj.Nodup →
      (∀ nb ∈ adj, nb < g.length) → degNeighbors adj s = .ok s1 →
      DegInv g pre [] s1 ∧ s1.k = s.k ∧ s1.ordering = s.ordering := by
  intro adj
  induction adj with
  | nil =>
    intro s s1 hinv _ _ h
    simp only [degNeighbors] at h
    injection h with h
    subst h
    exact ⟨hinv, rfl, rfl⟩
  | cons nb rest ih =>
    intro s s1 hinv hnd hlt h
    simp only [degNeighbors] at h
    cases h1 : degNeighbor s nb with
    | error e => rw [h1] at h; cases h
    | ok s2 =>
      rw [h1] at h
      simp only at h
      obtain ⟨i1, i2, i3⟩ := degNeighbor_inv hinv hnd (hlt nb (List.mem_cons_self _ _)) h1
      obtain ⟨j1, j2, j3⟩ := ih s2 s1 i1 (List.nodup_cons.1 hnd).2
        (fun x hx => hlt x (List.mem_cons_of_mem _ hx)) h
      exact ⟨j1, j2.trans i2, j3.trans i3⟩

/-! ## The outer loop -/

theorem firstNonEmpty_spec :
    ∀ (l : List (List Nat)) (i j : Nat), firstNonEmpty l i = .ok j →
      i ≤ j ∧ l.getD (j - i) [] ≠ [] ∧ ∀ t, t < j - i → l.getD t [] = [] := by
  intro l
  induction l with
  | nil => intro i j h; cases h
  | cons b rest ih =>
    intro i j h
    simp only [firstNonEmpty] at h
    by_cases hb : b.length = 0
    · rw [if_pos hb] at h
      obtain ⟨h1, h2, h3⟩ := ih (i + 1) j h
      have e : j - i = (j - (i + 1)) + 1 := by omega
      refine ⟨by omega, ?_, ?_⟩
      · rw [e, List.getD_cons_succ]; exact h2
      · intro t ht
        cases t with
        | zero => simpa using hb
        | succ t =>
          rw [List.getD_cons_succ]
          exact h3 t (by omega)
    · rw [if_neg hb] at h
      injection h with h
      subst h
      refine ⟨le_refl _, ?_, ?_⟩
      · simp only [Nat.sub_self, List.getD_cons_zero]
        intro e; rw [e] at hb; exact hb rfl
      · intro t ht; omega

theorem take_set_le {α : Type} (l : List α) (i t : Nat) (a : α) (h : t ≤ i) :
    (l.set i a).take t = l.take t := by
  apply List.ext_getElem?
  intro j
  simp only [List.getElem?_take, List.getElem?_set]
  by_cases hj : j < t
  · have : ¬ i = j := by omega
    simp [hj, this]
  · simp [hj]

theorem take_set_succ {α : Type} (l : List α) (i : Nat) (a : α) (h : i < l.length) :
    (l.set i a).take (i + 1) = l.take i ++ [a] := by
  rw [List.take_succ, take_set_le l i i a (le_refl _), List.getElem?_set]
  simp [h]

theorem degStep_inv {g : AdjacencyList} (hg : Simple g) {ox : Nat} {s s1 : DegState}
    (hout : DegOuter g ox s) (hox : ox < g.length) (h : degStep g ox s = .ok s1) :
    DegOuter g (ox + 1) s1 := by
  unfold degStep at h
  cases h1 : firstNonEmpty s.D 0 with
  | error e => rw [h1] at h; cases h
  | ok i =>
    rw [h1] at h
    simp only at h
    cases h2 : idx s.D i with
    | error e => rw [h2] at h; cases h
    | ok Di =>
      rw [h2] at h
      simp only at h
      cases h3 : idx Di (Di.length - 1) with
      | error e => rw [h3] at h; cases h
      | ok v =>
        rw [h3] at h
        simp only at h
        cases h4 : idx g v with
        | error e => rw [h4] at h; cases h
        | ok adj =>
          rw [h4] at h
          simp only at h
          have hinv := hout.inv
          have hDi : s.D.getD i [] = Di := (idx_ok h2).2 []
          have hilt : i < s.D.length := (idx_ok h2).1
          have hvget : Di.getD (Di.length - 1) 0 = v := (idx_ok h3).2 0
          have hlast : Di.length - 1 < Di.length := (idx_ok h3).1
          have hadj : g.getD v [] = adj := (idx_ok h4).2 []
          have hvlt : v < g.length := (idx_ok h4).1
          have hvDi : v ∈ Di := hvget ▸ getD_mem_of_lt hlast
          have hvfacts := (hinv.hD i v).1 (by rw [hDi]; exact hvDi)
          have hvpre : v ∉ s.ordering.take ox := hvfacts.2.1
          have hempty : ∀ t, t < i → s.D.getD t [] = [] := by
            have := (firstNonEmpty_spec s.D 0 i h1).2.2
            intro t ht
            exact this t (by omega)
          -- the bucket of `v` without its last entry
          obtain ⟨T0, hT0⟩ : ∃ T0, Di = T0 ++ [v] := by
            rcases List.eq_nil_or_concat Di with e | ⟨L, b, e⟩
            · rw [e] at hlast; simp at hlast
            · rw [List.concat_eq_append] at e
              refine ⟨L, ?_⟩
              have : Di.getD (Di.length - 1) 0 = b := by
                rw [e]
                have := getD_append_len L b []
                simpa using this
              rw [e, ← hvget, this]
          have htake : Di.take (Di.length - 1) = T0 := by
            rw [hT0]
            simp
          have hndDi : Di.Nodup := hDi ▸ hinv.hnd i
          have hT0nd : T0.Nodup := by
            rw [hT0] at hndDi
            exact (List.nodup_append.1 hndDi).1
          have hvT0 : v ∉ T0 := by
            rw [hT0] at hndDi
            intro hv
            exact (List.nodup_append.1 hndDi).2.2 hv (List.mem_singleton_self v)
          have hdegv : outDeg g v (s.ordering.take ox) = i := by
            have := hinv.hdeg v hvlt hvpre
            simp only [List.not_mem_nil, if_false, Nat.add_zero] at this
            rw [← this]; exact hvfacts.2.2
          have hmid : DegInv g (s.ordering.take ox ++ [v]) adj
              { k := if i > s.k then i else s.k, ordering := s.ordering.set ox v,
                cores := if i > s.k then (growTo s.cores i 0).set s.k ox else s.cores,
                L := SetBit s.L v true, d := s.d, D := s.D.set i (Di.take (Di.length - 1)) } := by
            refine ⟨hinv.hd, ?_, ?_, ?_, ?_⟩
            · intro w
              show Bit (SetBit s.L v true) w = true ↔ _
              rw [Bit_SetBit_true, List.mem_append, List.mem_singleton, Bool.or_eq_true,
                hinv.hL, decide_eq_true_eq]
              constructor
              · rintro (h | h)
                · exact Or.inl h
                · exact Or.inr h.symm
              · rintro (h | h)
                · exact Or.inl h
                · exact Or.inr h.symm
            · intro w hw hwp
              show s.d.getD w 0 = _
              rw [List.mem_append, List.mem_singleton, not_or] at hwp
              have := hinv.hdeg w hw hwp.1
              simp only [List.not_mem_nil, if_false, Nat.add_zero] at this
              rw [this, outDeg_split hg hvpre hw, hadj]
            · intro j w
              show w ∈ (s.D.set i (Di.take (Di.length - 1))).getD j [] ↔
                (w < g.length ∧ w ∉ s.ordering.take ox ++ [v] ∧ s.d.getD w 0 = j)
              rw [List.mem_append, List.mem_singleton, not_or]
              by_cases hj : j = i
              · subst hj
                rw [getD_set_eq _ _ _ _ hilt, htake]
                have h5 := hinv.hD j w
                rw [hDi, hT0, List.mem_append, List.mem_singleton] at h5
                constructor
                · intro hw
                  have := h5.1 (Or.inl hw)
                  exact ⟨this.1, ⟨this.2.1, fun e => hvT0 (e ▸ hw)⟩, this.2.2⟩
                · rintro ⟨a1, ⟨a2, a3⟩, a4⟩
                  rcases h5.2 ⟨a1, a2, a4⟩ with h6 | h6
                  · exact h6
                  · exact absurd h6 a3
              · rw [getD_set_ne _ _ _ _ _ (fun e => hj e.symm), hinv.hD]
                constructor
                · rintro ⟨a1, a2, a3⟩
                  refine ⟨a1, ⟨a2, ?_⟩, a3⟩
                  intro e
                  subst e
                  exact hj (a3.symm.trans hvfacts.2.2)
                · rintro ⟨a1, ⟨a2, _⟩, a4⟩
                  exact ⟨a1, a2, a4⟩
            · intro j
              show ((s.D.set i (Di.take (Di.length - 1))).getD j []).Nodup
              by_cases hj : j = i
              · subst hj
                rw [getD_set_eq _ _ _ _ hilt, htake]
                exact hT0nd
              · rw [getD_set_ne _ _ _ _ _ (fun e => hj e.symm)]
                exact hinv.hnd j
          have hadjmem : adj ∈ g := hadj ▸ getD_mem hvlt
          obtain ⟨j1, j2, j3⟩ := degNeighbors_inv adj _ s1 hmid (hg.2.2.2 adj hadjmem)
            (fun nb hnb => hg.1 adj hadjmem nb hnb) h
          simp only at j2 j3
          have hoxlen : ox < s.ordering.length := by rw [hout.hlen]; exact hox
          have htk : s1.ordering.take (ox + 1) = s.ordering.take ox ++ [v] := by
            rw [j3, take_set_succ _ _ _ hoxlen]
          have htk_le : ∀ t, t ≤ ox → s1.ordering.take t = s.ordering.take t := by
            intro t ht
            rw [j3, take_set_le _ _ _ _ ht]
          have hget_lt : ∀ t, t < ox → s1.ordering.getD t 0 = s.ordering.getD t 0 := by
            intro t ht
            rw [j3, getD_set_ne _ _ _ _ _ (by omega)]
          have hget_ox : s1.ordering.getD ox 0 = v := by
            rw [j3, getD_set_eq _ _ _ _ hoxlen]
          have hk_ge : s.k ≤ s1.k ∧ i ≤ s1.k := by
            rw [j2]
            by_cases hik : i > s.k
            · rw [if_pos hik]; omega
            · rw [if_neg hik]; omega
          refine ⟨?_, ?_, ?_, ?_, ?_, ?_, ?_⟩
          · rw [j3, List.length_set]; exact hout.hlen
          · rw [htk]; exact j1
          · rw [htk, List.nodup_append]
            refine ⟨hout.hnodup, List.nodup_singleton v, ?_⟩
            intro a ha hb
            rw [List.mem_singleton] at hb
            exact hvpre (hb ▸ ha)
          · intro w hw
            rw [htk, List.mem_append, List.mem_singleton] at hw
            rcases hw with hw | hw
            · exact hout.hlt w hw
            · rw [hw]; exact hvlt
          · intro t ht
            by_cases hto : t = ox
            · subst hto
              rw [hget_ox, htk_le t (le_refl _), hdegv]
              exact hk_ge.2
            · rw [hget_lt t (by omega), htk_le t (by omega)]
              exact le_trans (hout.hk1 t (by omega)) hk_ge.1
          · by_cases hik : i > s.k
            · right
              refine ⟨ox, by omega, ?_⟩
              rw [hget_ox, htk_le ox (le_refl _), hdegv, j2, if_pos hik]
            · have hk : s1.k = s.k := by rw [j2, if_neg hik]
              rcases hout.hk2 with h0 | ⟨t, ht, h0⟩
              · left; rw [hk]; exact h0
              · right
                refine ⟨t, by omega, ?_⟩
                rw [hget_lt t ht, htk_le t (by omega), hk]
                exact h0
          · intro t ht w hw hwp
            by_cases hto : t = ox
            · subst hto
              rw [htk_le t (le_refl _)] at hwp ⊢
              rw [hget_ox, hdegv]
              have hdw := hinv.hdeg w hw hwp
              simp only [List.not_mem_nil, if_false, Nat.add_zero] at hdw
              rw [← hdw]
              by_contra hlt
              have hwmem : w ∈ s.D.getD (s.d.getD w 0) [] :=
                (hinv.hD _ w).2 ⟨hw, hwp, rfl⟩
              rw [hempty _ (by omega)] at hwmem
              simp at hwmem
            · rw [htk_le t (by omega)] at hwp ⊢
              rw [hget_lt t (by omega)]
              exact hout.hmin t (by omega) w hw hwp

theorem degLoop_inv {g : AdjacencyList} (hg : Simple g) :
    ∀ (c ox : Nat) (s s1 : DegState), DegOuter g ox s → ox + c = g.length →
      degLoop g c ox s = .ok s1 → DegOuter g g.length s1 := by
  intro c
  induction c with
  | zero =>
    intro ox s s1 hout hc h
    simp only [degLoop] at h
    injection h with h
    subst h
    have : ox = g.length := by omega
    rw [← this]; exact hout
  | succ c ih =>
    intro ox s s1 hout hc h
    simp only [degLoop] at h
    cases h1 : degStep g ox s with
    | error e => rw [h1] at h; cases h
    | ok s2 =>
      rw [h1] at h
      simp only at h
      exact ih (ox + 1) s2 s1 (degStep_inv hg hout (by omega) h1) (by omega) h

/-! ## The first loop -/

theorem getD_growTo (D : List (List Nat)) (dv j : Nat) :
    (growTo D dv []).getD j [] = D.getD j [] := by
  unfold growTo
  by_cases hj : j < D.length
  · rw [List.getD_append _ _ _ _ hj]
  · rw [List.getD_append_right _ _ _ _ (by omega), List.getD_eq_default D _ (by omega)]
    rw [List.getD_eq_getElem?_getD]
    by_cases h2 : j - D.length < (List.replicate (dv + 1 - D.length) ([] : List Nat)).length
    · rw [List.getElem?_eq_getElem h2]
      simp
    · rw [List.getElem?_eq_none (by omega)]
      rfl

theorem degInit_inv {g : AdjacencyList} :
    ∀ (rest : List (List Nat)) (v : Nat) (d d1 : List Nat) (D D1 : List (List Nat)),
      g.drop v = rest → v ≤ g.length → d.length = g.length →
      (∀ w, w < v → d.getD w 0 = (g.getD w []).length) →
      (∀ j x, x ∈ D.getD j [] ↔ (x < v ∧ (g.getD x []).length = j)) →
      (∀ j, (D.getD j []).Nodup) →
      degInit rest v d D = .ok (d1, D1) →
      d1.length = g.length ∧
      (∀ w, w < g.length → d1.getD w 0 = (g.getD w []).length) ∧
      (∀ j x, x ∈ D1.getD j [] ↔ (x < g.length ∧ (g.getD x []).length = j)) ∧
      (∀ j, (D1.getD j []).Nodup) := by
  intro rest
  induction rest with
  | nil =>
    intro v d d1 D D1 hdrop hvle hlen hd hD hnd h
    simp only [degInit] at h
    injection h with h
    injection h with h1 h2
    subst h1; subst h2
    have hv : v = g.length := by
      have := congrArg List.length hdrop
      simp at this
      omega
    subst hv
    exact ⟨hlen, hd, hD, hnd⟩
  | cons nb rest ih =>
    intro v d d1 D D1 hdrop _ hlen hd hD hnd h
    have hv : v < g.length := by
      have := congrArg List.length hdrop
      simp at this
      omega
    have hnb : g.getD v [] = nb ∧ g.drop (v + 1) = rest := by
      rw [List.drop_eq_getElem_cons hv] at hdrop
      injection hdrop with e1 e2
      exact ⟨by rw [List.getD_eq_getElem _ _ hv]; exact e1, e2⟩
    simp only [degInit] at h
    cases h1 : idx (growTo D nb.length []) nb.length with
    | error e => rw [h1] at h; cases h
    | ok b =>
      rw [h1] at h
      simp only at h
      have hb : b = D.getD nb.length [] := by
        rw [← (idx_ok h1).2 [], getD_growTo]
      have hblt := (idx_ok h1).1
      have hgetD : ∀ j, ((growTo D nb.length []).set nb.length (b ++ [v])).getD j []
          = if j = nb.length then D.getD nb.length [] ++ [v] else D.getD j [] := by
        intro j
        by_cases hj : j = nb.length
        · subst hj
          rw [getD_set_eq _ _ _ _ hblt, if_pos rfl, hb]
        · rw [getD_set_ne _ _ _ _ _ (fun e => hj e.symm), if_neg hj, getD_growTo]
      apply ih (v + 1) (d.set v nb.length) d1 _ D1 hnb.2 (by omega) (by simp [hlen]) _ _ _ h
      · intro w hw
        by_cases hwv : w = v
        · subst hwv
          rw [getD_set_eq _ _ _ _ (by omega), hnb.1]
        · rw [getD_set_ne _ _ _ _ _ (fun e => hwv e.symm)]
          exact hd w (by omega)
      · intro j x
        rw [hgetD]
        by_cases hj : j = nb.length
        · subst hj
          rw [if_pos rfl, List.mem_append, hD, List.mem_singleton]
          constructor
          · rintro (⟨a1, a2⟩ | a)
            · exact ⟨by omega, a2⟩
            · subst a
              exact ⟨by omega, by rw [hnb.1]⟩
          · rintro ⟨a1, a2⟩
            by_cases hxv : x = v
            · exact Or.inr hxv
            · exact Or.inl ⟨by omega, a2⟩
        · rw [if_neg hj, hD]
          constructor
          · rintro ⟨a1, a2⟩
            exact ⟨by omega, a2⟩
          · rintro ⟨a1, a2⟩
            refine ⟨?_, a2⟩
            by_contra hx
            have : x = v := by omega
            subst this
            rw [hnb.1] at a2
            exact hj a2.symm
      · intro j
        rw [hgetD]
        by_cases hj : j = nb.length
        · rw [if_pos hj, List.nodup_append]
          refine ⟨hnd _, List.nodup_singleton v, ?_⟩
          intro a ha hb2
          rw [List.mem_singleton] at hb2
          subst hb2
          have := ((hD _ a).1 ha).1
          omega
        · rw [if_neg hj]; exact hnd j

/-! ## The result of Degeneracy -/

theorem outDeg_nil (g : AdjacencyList) (w : Nat) : outDeg g w [] = (g.getD w []).length := by
  simp [outDeg]

theorem Degeneracy_outer {g : AdjacencyList} (hg : Simple g) {k : Nat} {ord cores : List Nat}
    (h : Degeneracy g = .ok (k, ord, cores)) :
    ∃ s, DegOuter g g.length s ∧ s.k = k ∧ s.ordering = ord := by
  unfold Degeneracy at h
  cases h1 : degInit g 0 (List.replicate g.length 0) [] with
  | error e => rw [h1] at h; cases h
  | ok dD =>
    obtain ⟨d, D⟩ := dD
    rw [h1] at h
    simp only at h
    cases h2 : degLoop g g.length 0
        { k := 0, ordering := List.replicate g.length 0, cores := [], L := 0, d := d, D := D } with
    | error e => rw [h2] at h; cases h
    | ok s =>
      rw [h2] at h
      simp only at h
      by_cases hk : s.k < s.cores.length
      · rw [if_pos hk] at h
        injection h with h
        injection h with e1 e2
        injection e2 with e2 e3
        refine ⟨s, ?_, e1, e2⟩
        obtain ⟨i1, i2, i3, i4⟩ := degInit_inv (g := g) g 0 _ d [] D (by simp) (by omega) (by simp)
          (fun w hw => by omega) (fun j x => by simp) (fun j => by simp) h1
        apply degLoop_inv hg g.length 0 _ s _ (by omega) h2
        refine ⟨by simp, ⟨i1, ?_, ?_, ?_, i4⟩, by simp, by simp, ?_, Or.inl rfl, ?_⟩
        · intro v; simp [Bit_zero]
        · intro w hw _
          show d.getD w 0 = _
          rw [i2 w hw, List.take_zero, outDeg_nil]
          simp
        · intro j v
          show v ∈ D.getD j [] ↔ _
          rw [i3]
          constructor
          · rintro ⟨a, b⟩
            exact ⟨a, by simp, by rw [i2 v a]; exact b⟩
          · rintro ⟨a, _, b⟩
            exact ⟨a, by rw [← i2 v a]; exact b⟩
        · intro t ht; omega
        · intro t ht; omega
      · rw [if_neg hk] at h; cases h

theorem perm_range_of_nodup {l : List Nat} {n : Nat} (hnd : l.Nodup) (hlt : ∀ v ∈ l, v < n)
    (hlen : l.length = n) : l.Perm (List.range n) := by
  rw [List.perm_ext_iff_of_nodup hnd (List.nodup_range n)]
  have hsub : l.toFinset ⊆ Finset.range n := by
    intro a ha
    rw [List.mem_toFinset] at ha
    exact Finset.mem_range.2 (hlt a ha)
  have hcard : (Finset.range n).card ≤ l.toFinset.card := by
    rw [List.toFinset_card_of_nodup hnd, Finset.card_range, hlen]
  have heq := Finset.eq_of_subset_of_card_le hsub hcard
  intro a
  rw [List.mem_range, ← Finset.mem_range, ← heq, List.mem_toFinset]

theorem mem_drop_iff_not_mem_take {l : List Nat} (hnd : l.Nodup) (i : Nat) {u : Nat}
    (hu : u ∈ l) : u ∈ l.drop i ↔ u ∉ l.take i := by
  have hsplit := List.take_append_drop i l
  rw [← hsplit] at hnd hu
  rw [List.nodup_append] at hnd
  rw [List.mem_append] at hu
  constructor
  · intro h1 h2; exact hnd.2.2 h2 h1
  · intro h1
    rcases hu with h | h
    · exact absurd h h1
    · exact h

theorem degreeIn_drop {g : AdjacencyList} (hg : Simple g) {ord : List Nat}
    (hperm : ord.Perm (List.range g.length)) (w i : Nat) :
    degreeIn g w (ord.drop i) = outDeg g w (ord.take i) := by
  unfold degreeIn outDeg
  have hnd : ord.Nodup := hperm.nodup_iff.2 (List.nodup_range _)
  congr 1
  apply List.filter_congr
  intro u hu
  have hult : u < g.length := Arc.lt_right hg.1 hu
  have humem : u ∈ ord := hperm.mem_iff.2 (List.mem_range.2 hult)
  have := mem_drop_iff_not_mem_take hnd i humem
  simp only [this]

theorem outDeg_take_succ {g : AdjacencyList} (hg : Simple g) {ord : List Nat}
    (hnd : ord.Nodup) (hlen : ord.length = g.length) {i : Nat} (hi : i < ord.length) :
    outDeg g (ord.getD i 0) (ord.take (i + 1)) = outDeg g (ord.getD i 0) (ord.take i) := by
  have hget : ord.getD i 0 = ord[i] := List.getD_eq_getElem _ _ hi
  have htake : ord.take (i + 1) = ord.take i ++ [ord.getD i 0] := by
    rw [List.take_succ, List.getElem?_eq_getElem hi, hget]
    rfl
  have hnot : ord.getD i 0 ∉ ord.take i := by
    intro hmem
    have h1 : ord.getD i 0 ∈ ord.drop i := by
      rw [hget, List.drop_eq_getElem_cons hi]
      exact List.mem_cons_self _ _
    exact (mem_drop_iff_not_mem_take hnd i (hget ▸ List.getElem_mem _)).1 h1 hmem
  by_cases hvn : ord.getD i 0 < g.length
  · rw [htake, outDeg_split hg hnot hvn]
    have : ord.getD i 0 ∉ g.getD (ord.getD i 0) [] := hg.2.2.1 _ hvn
    rw [if_neg this]
    rfl
  · unfold outDeg
    rw [List.getD_eq_default _ _ (by omega)]
    simp

/-! ## Reachability and counting -/

theorem Reach.refl (g : AdjacencyList) (u : Nat) : Reach g u u := Relation.ReflTransGen.refl

theorem Reach.trans {g : AdjacencyList} {u v w : Nat} (h1 : Reach g u v) (h2 : Reach g v w) :
    Reach g u w := Relation.ReflTransGen.trans h1 h2

theorem Arc.reach {g : AdjacencyList} {u v : Nat} (h : Arc g u v) : Reach g u v :=
  Relation.ReflTransGen.single h

theorem whites_mono (g : AdjacencyList) {a b : Nat}
    (h : ∀ v, Bit a v = true → Bit b v = true) : whites g b ≤ whites g a := by
  unfold whites
  apply List.countP_mono_left
  intro v _ hv
  cases ha : Bit a v
  · rfl
  · rw [h v ha] at hv; simp at hv

theorem countP_lt_of_mem {l : List Nat} {p q : Nat → Bool}
    (h : ∀ x ∈ l, p x = true → q x = true) {n : Nat} (hn : n ∈ l) (hq : q n = true)
    (hp : p n = false) : l.countP p < l.countP q := by
  induction l with
  | nil => cases hn
  | cons a l ih =>
    have hmono : l.countP p ≤ l.countP q :=
      List.countP_mono_left (fun x hx => h x (List.mem_cons_of_mem _ hx))
    rcases List.mem_cons.1 hn with e | e
    · subst e
      rw [List.countP_cons_of_pos _ _ hq, List.countP_cons_of_neg _ _ (by simp [hp])]
      omega
    · have ih1 := ih (fun x hx => h x (List.mem_cons_of_mem _ hx)) e
      by_cases hpa : p a = true
      · rw [List.countP_cons_of_pos _ _ hpa,
          List.countP_cons_of_pos _ _ (h a (List.mem_cons_self _ _) hpa)]
        omega
      · rw [List.countP_cons_of_neg _ _ hpa]
        by_cases hqa : q a = true
        · rw [List.countP_cons_of_pos _ _ hqa]; omega
        · rw [List.countP_cons_of_neg _ _ hqa]; exact ih1

theorem whites_lt (g : AdjacencyList) {a b n : Nat}
    (h : ∀ v, Bit a v = true → Bit b v = true) (hn : n < g.length)
    (ha : Bit a n = false) (hb : Bit b n = true) : whites g b < whites g a := by
  unfold whites
  apply countP_lt_of_mem _ (List.mem_range.2 hn)
  · simp [ha]
  · simp [hb]
  · intro v _ hv
    cases hav : Bit a v
    · rfl
    · rw [h v hav] at hv; simp at hv

/-! ## The pop loop -/

theorem scPop_spec (n : Nat) (S0 : List Nat) :
    ∀ (seg : List Nat) (stacked : Nat) (c : List Nat), n ∉ seg →
      ∃ stk, scPop n (seg ++ n :: S0) stacked c = .ok (S0, stk, c ++ seg ++ [n]) ∧
        ∀ v, Bit stk v = true ↔ (Bit stacked v = true ∧ v ∉ seg ∧ v ≠ n) := by
  intro seg
  induction seg with
  | nil =>
    intro stacked c _
    refine ⟨SetBit stacked n false, by simp [scPop], ?_⟩
    intro v
    rw [Bit_SetBit_false]
    simp only [Bool.and_eq_true, Bool.not_eq_true', decide_eq_false_iff_not, List.not_mem_nil,
      not_false_eq_true, true_and]
    constructor
    · rintro ⟨a, b⟩; exact ⟨a, fun e => b e.symm⟩
    · rintro ⟨a, b⟩; exact ⟨a, fun e => b e.symm⟩
  | cons w seg ih =>
    intro stacked c hn
    have hwn : w ≠ n := fun e => hn (e ▸ List.mem_cons_self _ _)
    have hn2 : n ∉ seg := fun e => hn (List.mem_cons_of_mem _ e)
    obtain ⟨stk, h1, h2⟩ := ih (SetBit stacked w false) (c ++ [w]) hn2
    refine ⟨stk, ?_, ?_⟩
    · rw [List.cons_append, scPop, if_neg hwn, h1]
      simp
    · intro v
      rw [h2, Bit_SetBit_false]
      simp only [Bool.and_eq_true, Bool.not_eq_true', decide_eq_false_iff_not, List.mem_cons,
        not_or]
      constructor
      · rintro ⟨⟨a, b⟩, c1, d⟩; exact ⟨a, ⟨fun e => b e.symm, c1⟩, d⟩
      · rintro ⟨a, ⟨b, c1⟩, d⟩; exact ⟨⟨a, fun e => b e.symm⟩, c1, d⟩

/-! ## Lowering the low link -/

theorem lowerLink_index (st : TState) (n v : Nat) : (lowerLink st n v).index = st.index := by
  unfold lowerLink; split <;> rfl

theorem lowerLink_indexed (st : TState) (n v : Nat) :
    (lowerLink st n v).indexed = st.indexed := by
  unfold lowerLink; split <;> rfl

theorem lowerLink_stacked (st : TState) (n v : Nat) :
    (lowerLink st n v).stacked = st.stacked := by
  unfold lowerLink; split <;> rfl

theorem lowerLink_x (st : TState) (n v : Nat) : (lowerLink st n v).x = st.x := by
  unfold lowerLink; split <;> rfl

theorem lowerLink_S (st : TState) (n v : Nat) : (lowerLink st n v).S = st.S := by
  unfold lowerLink; split <;> rfl

theorem lowerLink_log (st : TState) (n v : Nat) : (lowerLink st n v).log = st.log := by
  unfold lowerLink; split <;> rfl

theorem lowerLink_length (st : TState) (n v : Nat) :
    (lowerLink st n v).lowlink.length = st.lowlink.length := by
  unfold lowerLink; split <;> simp

theorem lowerLink_ne (st : TState) (n v m : Nat) (h : m ≠ n) :
    (lowerLink st n v).lowlink.getD m 0 = st.lowlink.getD m 0 := by
  unfold lowerLink
  split
  · exact getD_set_ne _ _ _ _ _ (fun e => h e.symm)
  · rfl

theorem lowerLink_eq (st : TState) (n v : Nat) (h : n < st.lowlink.length) :
    (lowerLink st n v).lowlink.getD n 0 = min (st.lowlink.getD n 0) v := by
  unfold lowerLink
  split
  · rw [getD_set_eq _ _ _ _ h]; omega
  · show st.lowlink.getD n 0 = _
    omega

theorem TWf.lower_link {g : AdjacencyList} {st : TState} (h : TWf g st) (n v : Nat) :
    TWf g (lowerLink st n v) := by
  refine ⟨?_, ?_, ?_, ?_, ?_, ?_, ?_, ?_, ?_, ?_, ?_, ?_⟩
  · rw [lowerLink_index]; exact h.hidx
  · rw [lowerLink_length]; exact h.hlow
  · rw [lowerLink_stacked, lowerLink_S]; exact h.hstk
  · rw [lowerLink_S]; exact h.hnd
  · rw [lowerLink_S, lowerLink_indexed]; exact h.hSi
  · rw [lowerLink_indexed]; exact h.hlt
  · rw [lowerLink_indexed, lowerLink_index, lowerLink_x]; exact h.hix
  · rw [lowerLink_log]; exact h.hjoin
  · rw [lowerLink_log, lowerLink_indexed, lowerLink_stacked]; exact h.hlog
  · rw [lowerLink_log]; exact h.hscc
  · rw [lowerLink_log]; exact h.hne
  · rw [lowerLink_log]; exact h.htopo

/-! ## The loop over the successors -/

theorem ScLoopInv.enter {g : AdjacencyList} {st : TState} {n : Nat} (hwf : TWf g st)
    (hn : n < g.length) (hni : Bit st.indexed n = false) :
    ScLoopInv g n st []
      { index := st.index.set n st.x, lowlink := st.lowlink.set n st.x,
        indexed := SetBit st.indexed n true, stacked := SetBit st.stacked n true,
        x := st.x + 1, S := n :: st.S, log := st.log } := by
  have hne : ∀ v, Bit st.indexed v = true → v ≠ n := by
    intro v hv e
    rw [e, hni] at hv
    cases hv
  have hnS : n ∉ st.S := fun h => hne n (hwf.hSi n h) rfl
  have hnk : ¬ Bit st.stacked n = true := fun h => hnS ((hwf.hstk n).1 h)
  have hilen : n < st.index.length := by rw [hwf.hidx]; exact hn
  have hllen : n < st.lowlink.length := by rw [hwf.hlow]; exact hn
  refine ⟨⟨?_, ?_, ?_, ?_, ?_, ?_, ?_, hwf.hjoin, ?_, hwf.hscc, hwf.hne, hwf.htopo⟩, ?_, hni, ?_, ?_, ?_,
    ?_, ?_, ?_, ?_, ?_, ?_, ?_, ?_⟩
  · simp [hwf.hidx]
  · simp [hwf.hlow]
  · intro v
    show Bit (SetBit st.stacked n true) v = true ↔ v ∈ n :: st.S
    rw [Bit_SetBit_true, List.mem_cons, Bool.or_eq_true, hwf.hstk, decide_eq_true_eq]
    constructor
    · rintro (h | h)
      · exact Or.inr h
      · exact Or.inl h.symm
    · rintro (h | h)
      · exact Or.inr h.symm
      · exact Or.inl h
  · exact List.nodup_cons.2 ⟨hnS, hwf.hnd⟩
  · intro v hv
    show Bit (SetBit st.indexed n true) v = true
    rw [Bit_SetBit_true, Bool.or_eq_true, decide_eq_true_eq]
    rcases List.mem_cons.1 hv with h | h
    · exact Or.inr h.symm
    · exact Or.inl (hwf.hSi v h)
  · intro v hv
    change Bit (SetBit st.indexed n true) v = true at hv
    rw [Bit_SetBit_true, Bool.or_eq_true, decide_eq_true_eq] at hv
    rcases hv with h | h
    · exact hwf.hlt v h
    · rw [← h]; exact hn
  · intro v hv
    change Bit (SetBit st.indexed n true) v = true at hv
    show (st.index.set n st.x).getD v 0 < st.x + 1
    rw [Bit_SetBit_true, Bool.or_eq_true, decide_eq_true_eq] at hv
    by_cases hvn : v = n
    · subst hvn
      rw [getD_set_eq _ _ _ _ hilen]; omega
    · rcases hv with h | h
      · rw [getD_set_ne _ _ _ _ _ (fun e => hvn e.symm)]
        have := hwf.hix v h
        omega
      · exact absurd h.symm hvn
  · intro v
    show v ∈ st.log.flatten ↔
      (Bit (SetBit st.indexed n true) v = true ∧ ¬ Bit (SetBit st.stacked n true) v = true)
    rw [hwf.hlog, Bit_SetBit_true, Bit_SetBit_true]
    simp only [Bool.or_eq_true, decide_eq_true_eq, not_or]
    constructor
    · rintro ⟨a, b⟩
      exact ⟨Or.inl a, b, fun e => hne v a e.symm⟩
    · rintro ⟨a | a, b, c⟩
      · exact ⟨a, b⟩
      · exact absurd a c
  · intro v hv
    show Bit (SetBit st.indexed n true) v = true
    rw [Bit_SetBit_true, hv]; rfl
  · show Bit (SetBit st.indexed n true) n = true
    rw [Bit_SetBit_true]; simp
  · exact getD_set_eq _ _ _ _ hilen
  · intro v hv
    exact getD_set_ne _ _ _ _ _ (fun e => hne v hv e.symm)
  · intro v hv
    exact getD_set_ne _ _ _ _ _ (fun e => hne v hv e.symm)
  · intro v hv hv0 hvn
    change Bit (SetBit st.indexed n true) v = true at hv
    rw [Bit_SetBit_true, Bool.or_eq_true, decide_eq_true_eq] at hv
    rcases hv with h | h
    · exact absurd h hv0
    · exact absurd h.symm hvn
  · intro w hw; cases hw
  · show st.x < st.x + 1
    omega
  · show (st.lowlink.set n st.x).getD n 0 ≤ st.x
    rw [getD_set_eq _ _ _ _ hllen]
  · refine ⟨n, List.mem_cons_self _ _, ?_, Reach.refl g n⟩
    show (st.lowlink.set n st.x).getD n 0 = (st.index.set n st.x).getD n 0
    rw [getD_set_eq _ _ _ _ hllen, getD_set_eq _ _ _ _ hilen]
  · refine ⟨[], rfl, ?_, ?_, ?_⟩
    · intro v hv; cases hv
    · intro v hv; cases hv
    · intro v hv; cases hv
  · intro w hw; cases hw

theorem ScLoopInv.lower {g : AdjacencyList} {n : Nat} {st0 st : TState} {done : List Nat}
    (h : ScLoopInv g n st0 done st) (hnlt : n < g.length) (v : Nat)
    (hv : v < st.lowlink.getD n 0 → ∃ w, w ∈ st.S ∧ v = st.index.getD w 0 ∧ Reach g n w) :
    ScLoopInv g n st0 done (lowerLink st n v) := by
  have hllen : n < st.lowlink.length := by rw [h.wf.hlow]; exact hnlt
  have hmin := lowerLink_eq st n v hllen
  have hle : (lowerLink st n v).lowlink.getD n 0 ≤ st.lowlink.getD n 0 := by
    rw [hmin]; exact Nat.min_le_left _ _
  refine ⟨h.wf.lower_link n v, ?_, h.hn0, ?_, ?_, ?_, ?_, ?_, ?_, ?_, ?_, ?_, ?_, ?_⟩
  · rw [lowerLink_indexed]; exact h.mono
  · rw [lowerLink_indexed]; exact h.hn
  · rw [lowerLink_index]; exact h.hnidx
  · rw [lowerLink_index]; exact h.keepI
  · intro u hu
    have hun : u ≠ n := by
      intro e
      rw [e, h.hn0] at hu
      cases hu
    rw [lowerLink_ne _ _ _ _ hun]
    exact h.keepL u hu
  · rw [lowerLink_indexed]; exact h.closed
  · rw [lowerLink_indexed]; exact h.hdone
  · rw [lowerLink_x]; exact h.hx
  · exact le_trans hle h.hlowle
  · rw [lowerLink_S, lowerLink_index]
    by_cases hlt : v < st.lowlink.getD n 0
    · obtain ⟨w, hw1, hw2, hw3⟩ := hv hlt
      refine ⟨w, hw1, ?_, hw3⟩
      rw [hmin, ← hw2]
      omega
    · obtain ⟨w, hw1, hw2, hw3⟩ := h.hloww
      refine ⟨w, hw1, ?_, hw3⟩
      rw [hmin, ← hw2]
      omega
  · rw [lowerLink_S, lowerLink_index]
    obtain ⟨seg, h1, h2, h3, h4⟩ := h.stack
    refine ⟨seg, h1, h2, h3, ?_⟩
    intro u hu w hw harc
    exact le_trans hle (h4 u hu w hw harc)
  · rw [lowerLink_index]
    intro w hw hw0
    exact le_trans hle (h.hdoneS w hw hw0)

theorem ScLoopInv.snoc {g : AdjacencyList} {n : Nat} {st0 st : TState} {done : List Nat}
    (h : ScLoopInv g n st0 done st) (nb : Nat) (hi : Bit st.indexed nb = true)
    (hS : nb ∈ st0.S → st.lowlink.getD n 0 ≤ st.index.getD nb 0) :
    ScLoopInv g n st0 (done ++ [nb]) st := by
  refine ⟨h.wf, h.mono, h.hn0, h.hn, h.hnidx, h.keepI, h.keepL, h.closed, ?_, h.hx, h.hlowle,
    h.hloww, h.stack, ?_⟩
  · intro w hw
    rcases List.mem_append.1 hw with e | e
    · exact h.hdone w e
    · rw [List.mem_singleton] at e
      rw [e]; exact hi
  · intro w hw hw0
    rcases List.mem_append.1 hw with e | e
    · exact h.hdoneS w e hw0
    · rw [List.mem_singleton] at e
      subst e
      exact hS hw0

theorem ScLoopInv.after_call {g : AdjacencyList} {n : Nat} {st0 st st1 : TState} {done : List Nat}
    (h : ScLoopInv g n st0 done st) (hpre : ∀ v, v ∈ st0.S → Reach g v n)
    (hnlt : n < g.length) {nb : Nat} (harc : Arc g n nb) (hnb : Bit st.indexed nb = false)
    (hp : ScPost g nb st st1) :
    ScLoopInv g n st0 (done ++ [nb]) (lowerLink st1 n (st1.lowlink.getD nb 0)) := by
  have hllen : n < st1.lowlink.length := by rw [hp.wf.hlow]; exact hnlt
  have hmin := lowerLink_eq st1 n (st1.lowlink.getD nb 0) hllen
  have hlown : st1.lowlink.getD n 0 = st.lowlink.getD n 0 := hp.keepL n h.hn
  have hle1 : (lowerLink st1 n (st1.lowlink.getD nb 0)).lowlink.getD n 0
      ≤ st.lowlink.getD n 0 := by
    rw [hmin, hlown]; exact Nat.min_le_left _ _
  have hle2 : (lowerLink st1 n (st1.lowlink.getD nb 0)).lowlink.getD n 0
      ≤ st1.lowlink.getD nb 0 := by
    rw [hmin]; exact Nat.min_le_right _ _
  obtain ⟨seg0, s1, s2, s3, s4⟩ := h.stack
  obtain ⟨seg1, t1, t2, t3, t4, t5⟩ := hp.stack
  have hS0sub : ∀ v, v ∈ st0.S → v ∈ st.S := by
    intro v hv
    rw [s1]
    exact List.mem_append_right _ (List.mem_cons_of_mem _ hv)
  have hSsub : ∀ v, v ∈ st.S → v ∈ st1.S := by
    intro v hv
    rw [t1]
    exact List.mem_append_right _ hv
  have hkeepS : ∀ v, v ∈ st.S → st1.index.getD v 0 = st.index.getD v 0 :=
    fun v hv => hp.keepI v (h.wf.hSi v hv)
  have hreachS : ∀ w, w ∈ st.S → Reach g w n := by
    intro w hw
    rw [s1] at hw
    rcases List.mem_append.1 hw with e | e
    · exact (s3 w e).2
    · rcases List.mem_cons.1 e with e | e
      · rw [e]; exact Reach.refl g n
      · exact hpre w e
  refine ⟨hp.wf.lower_link _ _, ?_, h.hn0, ?_, ?_, ?_, ?_, ?_, ?_, ?_, ?_, ?_, ?_, ?_⟩
  · rw [lowerLink_indexed]
    intro v hv
    exact hp.mono v (h.mono v hv)
  · rw [lowerLink_indexed]; exact hp.mono n h.hn
  · rw [lowerLink_index, hp.keepI n h.hn]; exact h.hnidx
  · rw [lowerLink_index]
    intro v hv
    rw [hp.keepI v (h.mono v hv)]
    exact h.keepI v hv
  · intro v hv
    have hvn : v ≠ n := by
      intro e
      rw [e, h.hn0] at hv
      cases hv
    rw [lowerLink_ne _ _ _ _ hvn, hp.keepL v (h.mono v hv)]
    exact h.keepL v hv
  · rw [lowerLink_indexed]
    intro v hv hv0 hvn w hw
    by_cases hvi : Bit st.indexed v = true
    · exact hp.mono w (h.closed v hvi hv0 hvn w hw)
    · exact hp.closed v hv hvi w hw
  · rw [lowerLink_indexed]
    intro w hw
    rcases List.mem_append.1 hw with e | e
    · exact hp.mono w (h.hdone w e)
    · rw [List.mem_singleton] at e
      rw [e]; exact hp.hn
  · rw [lowerLink_x]
    have := h.hx
    have := hp.hx
    omega
  · exact le_trans hle1 h.hlowle
  · rw [lowerLink_S, lowerLink_index]
    by_cases hlt : st1.lowlink.getD nb 0 < st.lowlink.getD n 0
    · rcases t4 with ⟨_, e2⟩ | ⟨_, w, hw1, hw2, hw3⟩
      · exfalso
        have := h.hlowle
        have := h.hx
        omega
      · refine ⟨w, hSsub w hw1, ?_, Reach.trans harc.reach hw3⟩
        rw [hmin, hlown, ← hw2]
        omega
    · obtain ⟨w, hw1, hw2, hw3⟩ := h.hloww
      refine ⟨w, hSsub w hw1, ?_, hw3⟩
      rw [hmin, hlown, hkeepS w hw1, ← hw2]
      omega
  · rw [lowerLink_S, lowerLink_index]
    refine ⟨seg1 ++ seg0, by rw [t1, s1, List.append_assoc], ?_, ?_, ?_⟩
    · intro v hv
      rcases List.mem_append.1 hv with e | e
      · have := t2 v e
        have := h.hx
        omega
      · rw [hkeepS v (by rw [s1]; exact List.mem_append_left _ e)]
        exact s2 v e
    · intro v hv
      rcases List.mem_append.1 hv with e | e
      · have hr := t3 v e
        refine ⟨Reach.trans harc.reach hr.1, ?_⟩
        rcases t4 with ⟨e1, _⟩ | ⟨_, w, hw1, _, hw3⟩
        · rw [e1] at e; cases e
        · exact Reach.trans hr.2 (Reach.trans hw3 (hreachS w hw1))
      · exact s3 v e
    · intro u hu v hv huv
      rcases List.mem_append.1 hu with e | e
      · exact le_trans hle2 (t5 u e v (hS0sub v hv) huv)
      · rw [hkeepS v (hS0sub v hv)]
        exact le_trans hle1 (s4 u e v hv huv)
  · rw [lowerLink_index]
    intro w hw hw0
    rcases List.mem_append.1 hw with e | e
    · rw [hkeepS w (hS0sub w hw0)]
      exact le_trans hle1 (h.hdoneS w e hw0)
    · rw [List.mem_singleton] at e
      subst e
      have := h.wf.hSi w (hS0sub w hw0)
      rw [hnb] at this
      cases this

/-! ## The end of `sc` -/

theorem ScLoopInv.exit_nonroot {g : AdjacencyList} {n : Nat} {st0 st : TState}
    {adj : List Nat} (h : ScLoopInv g n st0 adj st)
    (hadj : ∀ w, Arc g n w → w ∈ adj)
    (hne : st.lowlink.getD n 0 ≠ st.index.getD n 0) : ScPost g n st0 st := by
  obtain ⟨seg0, s1, s2, s3, s4⟩ := h.stack
  refine ⟨h.wf, h.mono, h.hn, h.keepI, h.keepL, ?_, h.hx, ?_⟩
  · intro v hv hv0 w hw
    by_cases hvn : v = n
    · subst hvn
      exact h.hdone w (hadj w hw)
    · exact h.closed v hv hv0 hvn w hw
  · refine ⟨seg0 ++ [n], by rw [s1]; simp, ?_, ?_, ?_, ?_⟩
    · intro v hv
      rcases List.mem_append.1 hv with e | e
      · exact Nat.le_of_lt (s2 v e)
      · rw [List.mem_singleton] at e
        rw [e, h.hnidx]
    · intro v hv
      rcases List.mem_append.1 hv with e | e
      · exact s3 v e
      · rw [List.mem_singleton] at e
        rw [e]; exact ⟨Reach.refl g n, Reach.refl g n⟩
    · right
      refine ⟨by simp, ?_⟩
      obtain ⟨w, hw1, hw2, hw3⟩ := h.hloww
      refine ⟨w, ?_, hw2, hw3⟩
      have hlt : st.index.getD w 0 < st0.x := by
        have := h.hlowle
        have := h.hnidx
        omega
      rw [s1] at hw1
      rcases List.mem_append.1 hw1 with e | e
      · have := s2 w e; omega
      · rcases List.mem_cons.1 e with e | e
        · rw [e, h.hnidx] at hlt; omega
        · exact e
    · intro u hu v hv huv
      rcases List.mem_append.1 hu with e | e
      · exact s4 u e v hv huv
      · rw [List.mem_singleton] at e
        subst e
        exact h.hdoneS v (hadj v huv) hv

theorem getD_append_singleton (log : List (List Nat)) (c : List Nat) (i : Nat) :
    (log ++ [c]).getD i [] =
      if i < log.length then log.getD i [] else if i = log.length then c else [] := by
  by_cases h1 : i < log.length
  · rw [if_pos h1, List.getD_append _ _ _ _ h1]
  · rw [if_neg h1, List.getD_append_right _ _ _ _ (by omega)]
    by_cases h2 : i = log.length
    · rw [if_pos h2, h2]; simp
    · rw [if_neg h2]
      have : i - log.length = (i - log.length - 1) + 1 := by omega
      rw [this]
      simp

theorem mem_flatten_getD {log : List (List Nat)} {w : Nat} (h : w ∈ log.flatten) :
    ∃ j, j < log.length ∧ w ∈ log.getD j [] := by
  obtain ⟨l, hl, hw⟩ := List.mem_flatten.1 h
  obtain ⟨j, hj, e⟩ := List.getElem_of_mem hl
  refine ⟨j, hj, ?_⟩
  rw [List.getD_eq_getElem _ _ hj, e]
  exact hw

theorem getD_mem_flatten {log : List (List Nat)} {w j : Nat} (h : w ∈ log.getD j []) :
    w ∈ log.flatten := by
  by_cases hj : j < log.length
  · rw [List.getD_eq_getElem _ _ hj] at h
    exact List.mem_flatten.2 ⟨_, List.getElem_mem _, h⟩
  · rw [List.getD_eq_default _ _ (by omega)] at h
    cases h

theorem ScLoopInv.exit_root {g : AdjacencyList} {n : Nat} {st0 st : TState}
    {adj : List Nat} (h : ScLoopInv g n st0 adj st) (hwf0 : TWf g st0)
    (hadj : ∀ w, Arc g n w → w ∈ adj)
    (heq : st.lowlink.getD n 0 = st.index.getD n 0) :
    ∃ stk c, scPop n st.S st.stacked [] = .ok (st0.S, stk, c) ∧
      ScPost g n st0 { st with S := st0.S, stacked := stk, log := st.log ++ [c] } := by
  obtain ⟨seg0, s1, s2, s3, s4⟩ := h.stack
  have hnd := h.wf.hnd
  rw [s1] at hnd
  have hnseg : n ∉ seg0 := by
    intro e
    exact (List.nodup_append.1 hnd).2.2 e (List.mem_cons_self _ _)
  have hnd2 := (List.nodup_append.1 hnd).2.1
  have hn0S : n ∉ st0.S := (List.nodup_cons.1 hnd2).1
  have hS0nd : st0.S.Nodup := (List.nodup_cons.1 hnd2).2
  have hdisj : ∀ v, v ∈ seg0 → v ∉ st0.S := by
    intro v hv hv0
    exact (List.nodup_append.1 hnd).2.2 hv (List.mem_cons_of_mem _ hv0)
  obtain ⟨stk, p1, p2⟩ := scPop_spec n st0.S seg0 st.stacked [] hnseg
  rw [← s1] at p1
  have hc : ([] : List Nat) ++ seg0 ++ [n] = seg0 ++ [n] := by simp
  rw [hc] at p1
  have hcS : ∀ v, v ∈ seg0 ++ [n] → v ∈ st.S := by
    intro v hv
    rw [s1]
    rcases List.mem_append.1 hv with e | e
    · exact List.mem_append_left _ e
    · rw [List.mem_singleton] at e
      rw [e]; exact List.mem_append_right _ (List.mem_cons_self _ _)
  have hstk : ∀ v, Bit stk v = true ↔ v ∈ st0.S := by
    intro v
    rw [p2, h.wf.hstk, s1]
    constructor
    · rintro ⟨a, b, c⟩
      rcases List.mem_append.1 a with e | e
      · exact absurd e b
      · rcases List.mem_cons.1 e with e | e
        · exact absurd e c
        · exact e
    · intro hv
      refine ⟨List.mem_append_right _ (List.mem_cons_of_mem _ hv), fun e => hdisj v e hv, ?_⟩
      intro e
      exact hn0S (e ▸ hv)
  have hcmem : ∀ v, v ∈ seg0 ++ [n] ↔ (v ∈ st.S ∧ ¬ Bit stk v = true) := by
    intro v
    rw [hstk]
    constructor
    · intro hv
      refine ⟨hcS v hv, ?_⟩
      intro hv0
      rcases List.mem_append.1 hv with e | e
      · exact hdisj v e hv0
      · rw [List.mem_singleton] at e
        exact hn0S (e ▸ hv0)
    · rintro ⟨a, b⟩
      rw [s1] at a
      rcases List.mem_append.1 a with e | e
      · exact List.mem_append_left _ e
      · rcases List.mem_cons.1 e with e | e
        · rw [e]; simp
        · exact absurd e b
  have hclosed : ∀ v, Bit st.indexed v = true → ¬ Bit st0.indexed v = true →
      ∀ w, Arc g v w → Bit st.indexed w = true := by
    intro v hv hv0 w hw
    by_cases hvn : v = n
    · subst hvn
      exact h.hdone w (hadj w hw)
    · exact h.closed v hv hv0 hvn w hw
  have hnew : ∀ v, v ∈ seg0 ++ [n] → ¬ Bit st0.indexed v = true := by
    intro v hv hv0
    rcases List.mem_append.1 hv with e | e
    · have h1 := s2 v e
      have h2 := h.keepI v hv0
      have h3 := hwf0.hix v hv0
      omega
    · rw [List.mem_singleton] at e
      rw [e, h.hn0] at hv0
      cases hv0
  refine ⟨stk, seg0 ++ [n], p1, ?_⟩
  refine ⟨⟨h.wf.hidx, h.wf.hlow, hstk, hS0nd, ?_, h.wf.hlt, h.wf.hix, ?_, ?_, ?_, ?_, ?_⟩, h.mono,
    h.hn, h.keepI, h.keepL, hclosed, h.hx, ?_⟩
  · intro v hv
    exact h.mono v (hwf0.hSi v hv)
  · show (st.log ++ [seg0 ++ [n]]).flatten.Nodup
    rw [List.flatten_concat, List.nodup_append]
    refine ⟨h.wf.hjoin, ?_, ?_⟩
    · have : (seg0 ++ [n]).Sublist (seg0 ++ n :: st0.S) := by
        apply List.Sublist.append_left
        simp
      exact this.nodup hnd
    · intro v hv1 hv2
      exact ((h.wf.hlog v).1 hv1).2 ((h.wf.hstk v).2 (hcS v hv2))
  · intro v
    show v ∈ (st.log ++ [seg0 ++ [n]]).flatten ↔ (Bit st.indexed v = true ∧ ¬ Bit stk v = true)
    rw [List.flatten_concat, List.mem_append, h.wf.hlog, hcmem]
    constructor
    · rintro (⟨a, b⟩ | ⟨a, b⟩)
      · refine ⟨a, ?_⟩
        intro hv
        exact b ((p2 v).1 hv).1
      · exact ⟨h.wf.hSi v a, b⟩
    · rintro ⟨a, b⟩
      by_cases hs : Bit st.stacked v = true
      · exact Or.inr ⟨(h.wf.hstk v).1 hs, b⟩
      · exact Or.inl ⟨a, hs⟩
  · intro c hc u hu v hv
    change c ∈ st.log ++ [seg0 ++ [n]] at hc
    rcases List.mem_append.1 hc with e | e
    · exact h.wf.hscc c e u hu v hv
    · rw [List.mem_singleton] at e
      subst e
      have hun : Reach g u n := by
        rcases List.mem_append.1 hu with e | e
        · exact (s3 u e).2
        · rw [List.mem_singleton] at e
          rw [e]; exact Reach.refl g n
      have hnv : Reach g n v := by
        rcases List.mem_append.1 hv with e | e
        · exact (s3 v e).1
        · rw [List.mem_singleton] at e
          rw [e]; exact Reach.refl g n
      exact Reach.trans hun hnv
  · intro c hc
    change c ∈ st.log ++ [seg0 ++ [n]] at hc
    rcases List.mem_append.1 hc with e | e
    · exact h.wf.hne c e
    · rw [List.mem_singleton] at e
      rw [e]; simp
  · intro i u w hu huw
    change u ∈ (st.log ++ [seg0 ++ [n]]).getD i [] at hu
    show ∃ j, j ≤ i ∧ w ∈ (st.log ++ [seg0 ++ [n]]).getD j []
    rw [getD_append_singleton] at hu
    by_cases h1 : i < st.log.length
    · rw [if_pos h1] at hu
      obtain ⟨j, hj1, hj2⟩ := h.wf.htopo i u w hu huw
      refine ⟨j, hj1, ?_⟩
      rw [getD_append_singleton, if_pos (by omega)]
      exact hj2
    · rw [if_neg h1] at hu
      by_cases h2 : i = st.log.length
      · rw [if_pos h2] at hu
        have hui : Bit st.indexed u = true := h.wf.hSi u (hcS u hu)
        have hwi : Bit st.indexed w = true := hclosed u hui (hnew u hu) w huw
        by_cases hws : Bit st.stacked w = true
        · by_cases hwk : Bit stk w = true
          · exfalso
            have hw0 : w ∈ st0.S := (hstk w).1 hwk
            have hw0i := hwf0.hSi w hw0
            have e1 := h.keepI w hw0i
            have e2 := hwf0.hix w hw0i
            have e3 : st.lowlink.getD n 0 ≤ st.index.getD w 0 := by
              rcases List.mem_append.1 hu with e | e
              · exact s4 u e w hw0 huw
              · rw [List.mem_singleton] at e
                subst e
                exact h.hdoneS w (hadj w huw) hw0
            have e4 := h.hnidx
            omega
          · refine ⟨i, le_refl _, ?_⟩
            rw [getD_append_singleton, if_neg h1, if_pos h2]
            exact (hcmem w).2 ⟨(h.wf.hstk w).1 hws, hwk⟩
        · obtain ⟨j, hj1, hj2⟩ := mem_flatten_getD ((h.wf.hlog w).2 ⟨hwi, hws⟩)
          refine ⟨j, by omega, ?_⟩
          rw [getD_append_singleton, if_pos hj1]
          exact hj2
      · rw [if_neg h2] at hu
        cases hu
  · refine ⟨[], rfl, ?_, ?_, ?_, ?_⟩
    · intro v hv; cases hv
    · intro v hv; cases hv
    · left
      refine ⟨rfl, ?_⟩
      show st.lowlink.getD n 0 = st0.x
      rw [heq]; exact h.hnidx
    · intro v hv; cases hv

/-! ## The closure `sc` -/

theorem ScLoopInv.reachS {g : AdjacencyList} {n : Nat} {st0 st : TState} {done : List Nat}
    (h : ScLoopInv g n st0 done st) (hpre : ∀ v, v ∈ st0.S → Reach g v n) :
    ∀ w, w ∈ st.S → Reach g w n := by
  obtain ⟨seg0, s1, _, s3, _⟩ := h.stack
  intro w hw
  rw [s1] at hw
  rcases List.mem_append.1 hw with e | e
  · exact (s3 w e).2
  · rcases List.mem_cons.1 e with e | e
    · rw [e]; exact Reach.refl g n
    · exact hpre w e

theorem scLoop_spec (g : AdjacencyList) (hg : InRange g)
    (call : Nat → TState → Except Fault (Bool × TState)) (fuel : Nat)
    (hcall : ∀ m st, TWf g st → m < g.length → Bit st.indexed m = false →
      (∀ v, v ∈ st.S → Reach g v m) → whites g st.indexed ≤ fuel →
      ∃ st1, call m st = .ok (true, st1) ∧ ScPost g m st st1)
    (n : Nat) (st0 : TState) (hnlt : n < g.length) (hpre : ∀ v, v ∈ st0.S → Reach g v n) :
    ∀ (rest done : List Nat) (st : TState), (∀ w, w ∈ rest → Arc g n w) →
      ScLoopInv g n st0 done st → whites g st.indexed ≤ fuel →
      ∃ st1, scLoop call n rest st = .ok (true, st1) ∧ ScLoopInv g n st0 (done ++ rest) st1 := by
  intro rest
  induction rest with
  | nil =>
    intro done st _ h _
    exact ⟨st, rfl, by rw [List.append_nil]; exact h⟩
  | cons nb rest ih =>
    intro done st harcs h hw
    have harc : Arc g n nb := harcs nb (List.mem_cons_self _ _)
    have harcs2 : ∀ w, w ∈ rest → Arc g n w := fun w hw => harcs w (List.mem_cons_of_mem _ hw)
    have hcons : done ++ nb :: rest = (done ++ [nb]) ++ rest := by simp
    rw [hcons]
    by_cases hi : Bit st.indexed nb = false
    · have hnb : nb < g.length := Arc.lt_right hg harc
      obtain ⟨st1, hc, hp⟩ := hcall nb st h.wf hnb hi
        (fun v hv => Reach.trans (h.reachS hpre v hv) harc.reach) hw
      have hinv := h.after_call hpre hnlt harc hi hp
      obtain ⟨st2, e1, e2⟩ := ih (done ++ [nb]) _ harcs2 hinv (by
        rw [lowerLink_indexed]
        exact le_trans (whites_mono g hp.mono) hw)
      refine ⟨st2, ?_, e2⟩
      rw [scLoop, if_pos hi, hc]
      exact e1
    · have hi1 : Bit st.indexed nb = true := by
        cases hb : Bit st.indexed nb
        · exact absurd hb hi
        · rfl
      by_cases hs : Bit st.stacked nb = true
      · have hnbS : nb ∈ st.S := (h.wf.hstk nb).1 hs
        have hlow := h.lower hnlt (st.index.getD nb 0)
          (fun _ => ⟨nb, hnbS, rfl, harc.reach⟩)
        have hinv : ScLoopInv g n st0 (done ++ [nb]) (lowerLink st n (st.index.getD nb 0)) := by
          apply hlow.snoc nb
          · rw [lowerLink_indexed]; exact hi1
          · intro _
            rw [lowerLink_eq _ _ _ (by rw [h.wf.hlow]; exact hnlt), lowerLink_index]
            exact Nat.min_le_right _ _
        obtain ⟨st2, e1, e2⟩ := ih (done ++ [nb]) _ harcs2 hinv (by
          rw [lowerLink_indexed]; exact hw)
        refine ⟨st2, ?_, e2⟩
        rw [scLoop, if_neg hi, if_pos hs]
        exact e1
      · have hinv : ScLoopInv g n st0 (done ++ [nb]) st := by
          apply h.snoc nb hi1
          intro h0
          obtain ⟨seg0, s1, _⟩ := h.stack
          exfalso
          apply hs
          rw [h.wf.hstk, s1]
          exact List.mem_append_right _ (List.mem_cons_of_mem _ h0)
        obtain ⟨st2, e1, e2⟩ := ih (done ++ [nb]) _ harcs2 hinv hw
        refine ⟨st2, ?_, e2⟩
        rw [scLoop, if_neg hi, if_neg hs]
        exact e1

theorem sc_spec (g : AdjacencyList) (hg : InRange g) :
    ∀ (fuel n : Nat) (st : TState), TWf g st → n < g.length → Bit st.indexed n = false →
      (∀ v, v ∈ st.S → Reach g v n) → whites g st.indexed ≤ fuel →
      ∃ st1, sc g emitAll fuel n st = .ok (true, st1) ∧ ScPost g n st st1 := by
  intro fuel
  induction fuel with
  | zero =>
    intro n st _ hn hni _ hw
    exfalso
    have := whites_lt g (a := st.indexed) (b := SetBit st.indexed n true) (n := n)
      (fun v hv => by rw [Bit_SetBit_true, hv]; rfl) hn hni (by rw [Bit_SetBit_true]; simp)
    omega
  | succ fuel ih =>
    intro n st hwf hn hni hpre hw
    have hw1 : whites g (SetBit st.indexed n true) ≤ fuel := by
      have := whites_lt g (a := st.indexed) (b := SetBit st.indexed n true) (n := n)
        (fun v hv => by rw [Bit_SetBit_true, hv]; rfl) hn hni (by rw [Bit_SetBit_true]; simp)
      omega
    have hadjmem : ∀ w, w ∈ g.getD n [] → Arc g n w := fun w hw => hw
    obtain ⟨st2, e1, e2⟩ := scLoop_spec g hg (sc g emitAll fuel) fuel ih n st hn hpre
      (g.getD n []) [] _ hadjmem (ScLoopInv.enter hwf hn hni) hw1
    rw [List.nil_append] at e2
    by_cases hroot : st2.lowlink.getD n 0 = st2.index.getD n 0
    · obtain ⟨stk, c, p1, p2⟩ := e2.exit_root hwf (fun w hw => hw) hroot
      refine ⟨_, ?_, p2⟩
      rw [sc, idx_eq_getD hn]
      simp only []
      rw [e1]
      simp only []
      rw [if_pos hroot, p1]
      rfl
    · refine ⟨st2, ?_, e2.exit_nonroot (fun w hw => hw) hroot⟩
      rw [sc, idx_eq_getD hn]
      simp only []
      rw [e1]
      simp only []
      rw [if_neg hroot]

/-! ## The main loop -/

theorem whites_le (g : AdjacencyList) (indexed : Nat) : whites g indexed ≤ g.length := by
  unfold whites
  have := List.countP_le_length (fun v => !Bit indexed v) (l := List.range g.length)
  simpa using this

theorem tarjanLoop_spec (g : AdjacencyList) (hg : InRange g) (fuel : Nat)
    (hfuel : g.length ≤ fuel) :
    ∀ (nodes : List Nat) (st : TState), TWf g st → st.S = [] → (∀ v, v ∈ nodes → v < g.length) →
      ∃ st1, tarjanLoop g emitAll fuel nodes st = .ok st1 ∧ TWf g st1 ∧ st1.S = [] ∧
        (∀ v, Bit st.indexed v = true → Bit st1.indexed v = true) ∧
        (∀ v, v ∈ nodes → Bit st1.indexed v = true) := by
  intro nodes
  induction nodes with
  | nil =>
    intro st hwf hS _
    exact ⟨st, rfl, hwf, hS, fun v hv => hv, fun v hv => by cases hv⟩
  | cons n rest ih =>
    intro st hwf hS hlt
    have hrest : ∀ v, v ∈ rest → v < g.length := fun v hv => hlt v (List.mem_cons_of_mem _ hv)
    by_cases hi : Bit st.indexed n = false
    · obtain ⟨st1, e1, hp⟩ := sc_spec g hg fuel n st hwf (hlt n (List.mem_cons_self _ _)) hi
        (fun v hv => by rw [hS] at hv; cases hv) (le_trans (whites_le g _) hfuel)
      have hS1 : st1.S = [] := by
        obtain ⟨seg, t1, _, _, t4, _⟩ := hp.stack
        rcases t4 with ⟨e, _⟩ | ⟨_, w, hw, _⟩
        · rw [t1, e, hS]; rfl
        · rw [hS] at hw; cases hw
      obtain ⟨st2, e2, h1, h2, h3, h4⟩ := ih st1 hp.wf hS1 hrest
      refine ⟨st2, ?_, h1, h2, fun v hv => h3 v (hp.mono v hv), ?_⟩
      · rw [tarjanLoop, if_pos hi, e1]
        exact e2
      · intro v hv
        rcases List.mem_cons.1 hv with e | e
        · rw [e]; exact h3 n hp.hn
        · exact h4 v e
    · obtain ⟨st2, e2, h1, h2, h3, h4⟩ := ih st hwf hS hrest
      refine ⟨st2, ?_, h1, h2, h3, ?_⟩
      · rw [tarjanLoop, if_neg hi]
        exact e2
      · intro v hv
        rcases List.mem_cons.1 hv with e | e
        · rw [e]
          apply h3
          cases hb : Bit st.indexed n
          · exact absurd hb hi
          · rfl
        · exact h4 v e

theorem TWf.tarjan_init (g : AdjacencyList) : TWf g (tarjanInit g) := by
  refine ⟨by simp [tarjanInit], by simp [tarjanInit], ?_, by simp [tarjanInit], ?_, ?_, ?_,
    by simp [tarjanInit], ?_, ?_, ?_, ?_⟩
  · intro v; simp [tarjanInit, Bit_zero]
  · intro v hv; simp [tarjanInit] at hv
  · intro v hv; simp [tarjanInit, Bit_zero] at hv
  · intro v hv; simp [tarjanInit, Bit_zero] at hv
  · intro v; simp [tarjanInit, Bit_zero]
  · intro c hc; simp [tarjanInit] at hc
  · intro c hc; simp [tarjanInit] at hc
  · intro i u w hu; simp [tarjanInit] at hu

/-- The emitted components when `emit` always returns true: they are not empty, hold
each node once, are strongly connected, and arcs lead to components emitted before. -/
theorem SCCTarjan_spec (g : AdjacencyList) (hg : InRange g) (fuel : Nat)
    (hfuel : g.length ≤ fuel) :
    ∃ comps, SCCTarjan fuel g emitAll = .ok comps ∧
      comps.flatten.Perm (List.range g.length) ∧
      (∀ c, c ∈ comps → c ≠ []) ∧
      (∀ c, c ∈ comps → ∀ u, u ∈ c → ∀ v, v ∈ c → Reach g u v) ∧
      (∀ i u w, u ∈ comps.getD i [] → Arc g u w → ∃ j, j ≤ i ∧ w ∈ comps.getD j []) := by
  obtain ⟨st, e, hwf, hS, _, hall⟩ := tarjanLoop_spec g hg fuel hfuel (List.range g.length)
    (tarjanInit g) (TWf.tarjan_init g) rfl (fun v hv => List.mem_range.1 hv)
  refine ⟨st.log, by rw [SCCTarjan, e]; rfl, ?_, hwf.hne, hwf.hscc, hwf.htopo⟩
  rw [List.perm_ext_iff_of_nodup hwf.hjoin (List.nodup_range _)]
  intro v
  rw [hwf.hlog, hwf.hstk, hS, List.mem_range]
  constructor
  · intro h; exact hwf.hlt v h.1
  · intro h; exact ⟨hall v (List.mem_range.2 h), by simp⟩

/-! ## Consequences for the components -/

theorem getD_unique_of_nodup_flatten {L : List (List Nat)} (h : L.flatten.Nodup) {w i j : Nat}
    (hi : w ∈ L.getD i []) (hj : w ∈ L.getD j []) : i = j := by
  have hil : i < L.length := by
    by_contra hc
    rw [List.getD_eq_default _ _ (by omega)] at hi
    cases hi
  have hjl : j < L.length := by
    by_contra hc
    rw [List.getD_eq_default _ _ (by omega)] at hj
    cases hj
  rw [List.getD_eq_getElem _ _ hil] at hi
  rw [List.getD_eq_getElem _ _ hjl] at hj
  have hp := (List.nodup_flatten.1 h).2
  rw [List.pairwise_iff_getElem] at hp
  rcases Nat.lt_trichotomy i j with hlt | heq | hgt
  · exact absurd hj (hp i j hil hjl hlt hi)
  · exact heq
  · exact absurd hi (hp j i hjl hil hgt hj)

theorem reach_closed {g : AdjacencyList} {L : List (List Nat)}
    (htopo : ∀ i u w, u ∈ L.getD i [] → Arc g u w → ∃ j, j ≤ i ∧ w ∈ L.getD j [])
    {u v : Nat} (h : Reach g u v) :
    ∀ i, u ∈ L.getD i [] → ∃ j, j ≤ i ∧ v ∈ L.getD j [] := by
  induction h with
  | refl => intro i hi; exact ⟨i, le_refl _, hi⟩
  | tail _ hbc ih =>
    intro i hi
    obtain ⟨j, hj1, hj2⟩ := ih i hi
    obtain ⟨k, hk1, hk2⟩ := htopo j _ _ hj2 hbc
    exact ⟨k, le_trans hk1 hj1, hk2⟩

theorem same_component_iff {g : AdjacencyList} {L : List (List Nat)}
    (hperm : L.flatten.Perm (List.range g.length))
    (hscc : ∀ c, c ∈ L → ∀ u, u ∈ c → ∀ v, v ∈ c → Reach g u v)
    (htopo : ∀ i u w, u ∈ L.getD i [] → Arc g u w → ∃ j, j ≤ i ∧ w ∈ L.getD j [])
    {u v : Nat} (hu : u < g.length) :
    (∃ c, c ∈ L ∧ u ∈ c ∧ v ∈ c) ↔ (Reach g u v ∧ Reach g v u) := by
  have hnd : L.flatten.Nodup := hperm.nodup_iff.2 (List.nodup_range _)
  constructor
  · rintro ⟨c, hc, huc, hvc⟩
    exact ⟨hscc c hc u huc v hvc, hscc c hc v hvc u huc⟩
  · rintro ⟨huv, hvu⟩
    have humem : u ∈ L.flatten := hperm.mem_iff.2 (List.mem_range.2 hu)
    obtain ⟨i, hil, hi⟩ := mem_flatten_getD humem
    obtain ⟨j, hj1, hj2⟩ := reach_closed htopo huv i hi
    obtain ⟨k, hk1, hk2⟩ := reach_closed htopo hvu j hj2
    have hki : k = i := getD_unique_of_nodup_flatten hnd hk2 hi
    have hji : j = i := by omega
    rw [hji] at hj2
    refine ⟨L.getD i [], ?_, hi, hj2⟩
    rw [List.getD_eq_getElem _ _ hil]
    exact List.getElem_mem _

/-! ## The condensation -/

theorem condMark_spec (cn : Nat) :
    ∀ (c cond : List Nat), (∀ n, n ∈ c → n < cond.length) →
      ∃ cond1, condMark cn c cond = .ok cond1 ∧ cond1.length = cond.length ∧
        ∀ v, cond1.getD v 0 = if v ∈ c then cn else cond.getD v 0 := by
  intro c
  induction c with
  | nil =>
    intro cond _
    exact ⟨cond, rfl, rfl, fun v => by simp⟩
  | cons n c ih =>
    intro cond hlt
    have hn : n < cond.length := hlt n (List.mem_cons_self _ _)
    obtain ⟨cond1, e1, e2, e3⟩ := ih (cond.set n cn) (fun m hm => by
      rw [List.length_set]; exact hlt m (List.mem_cons_of_mem _ hm))
    refine ⟨cond1, by rw [condMark, if_pos hn]; exact e1, by rw [e2, List.length_set], ?_⟩
    intro v
    rw [e3]
    by_cases hvc : v ∈ c
    · rw [if_pos hvc, if_pos (List.mem_cons_of_mem _ hvc)]
    · rw [if_neg hvc]
      by_cases hvn : v = n
      · subst hvn
        rw [if_pos (List.mem_cons_self _ _), getD_set_eq _ _ _ _ hn]
      · rw [if_neg (by simp [hvn, hvc]), getD_set_ne _ _ _ _ _ (fun e => hvn e.symm)]

theorem condArcs_spec (cn : Nat) (cond : List Nat) :
    ∀ (ts : List Nat) (mt : Nat × List Nat) (T : Nat → Prop), (∀ t, t ∈ ts → t < cond.length) →
      ScanInv cn cond T mt →
      ∃ mt1, condArcs cond ts mt = .ok mt1 ∧ ScanInv cn cond (fun t => T t ∨ t ∈ ts) mt1 := by
  intro ts
  induction ts with
  | nil =>
    intro mt T _ h
    refine ⟨mt, rfl, ?_⟩
    have : (fun t => T t ∨ t ∈ ([] : List Nat)) = T := by
      funext t; simp
    rw [this]; exact h
  | cons t ts ih =>
    intro mt T hlt h
    have ht : t < cond.length := hlt t (List.mem_cons_self _ _)
    have hidx : idx cond t = .ok (cond.getD t 0) := by
      unfold idx
      rw [List.getD_eq_getElem _ _ ht, List.getElem?_eq_getElem ht]
    have hT : (fun x => (T x ∨ x = t) ∨ x ∈ ts) = (fun x => T x ∨ x ∈ t :: ts) := by
      funext x
      simp only [List.mem_cons, or_assoc]
    obtain ⟨h1, h2, h3⟩ := h
    by_cases hb : Bit mt.1 (cond.getD t 0) = false
    · have hnot : ¬ (cond.getD t 0 = cn ∨ cond.getD t 0 ∈ mt.2) := by
        intro hc
        rw [(h1 _).2 hc] at hb
        cases hb
      rw [not_or] at hnot
      obtain ⟨mt1, e1, e2⟩ := ih (SetBit mt.1 (cond.getD t 0) true, mt.2 ++ [cond.getD t 0])
        (fun x => T x ∨ x = t) (fun x hx => hlt x (List.mem_cons_of_mem _ hx)) (by
          refine ⟨?_, ?_, ?_⟩
          · intro j
            show Bit (SetBit mt.1 (cond.getD t 0) true) j = true ↔ _
            rw [Bit_SetBit_true, Bool.or_eq_true, h1, decide_eq_true_eq]
            show _ ↔ (j = cn ∨ j ∈ mt.2 ++ [cond.getD t 0])
            rw [List.mem_append, List.mem_singleton]
            constructor
            · rintro ((a | a) | a)
              · exact Or.inl a
              · exact Or.inr (Or.inl a)
              · exact Or.inr (Or.inr a.symm)
            · rintro (a | a | a)
              · exact Or.inl (Or.inl a)
              · exact Or.inl (Or.inr a)
              · exact Or.inr a.symm
          · show (mt.2 ++ [cond.getD t 0]).Nodup
            rw [List.nodup_append]
            refine ⟨h2, List.nodup_singleton _, ?_⟩
            intro a ha hb2
            rw [List.mem_singleton] at hb2
            exact hnot.2 (hb2 ▸ ha)
          · intro j
            show j ∈ mt.2 ++ [cond.getD t 0] ↔ _
            rw [List.mem_append, List.mem_singleton, h3]
            constructor
            · rintro (⟨a, x, hx1, hx2⟩ | a)
              · exact ⟨a, x, Or.inl hx1, hx2⟩
              · exact ⟨by rw [a]; exact hnot.1, t, Or.inr rfl, a.symm⟩
            · rintro ⟨a, x, hx1 | hx1, hx2⟩
              · exact Or.inl ⟨a, x, hx1, hx2⟩
              · rw [hx1] at hx2
                exact Or.inr hx2.symm)
      refine ⟨mt1, ?_, by rw [← hT]; exact e2⟩
      rw [condArcs, hidx]
      simp only []
      rw [if_pos hb]
      exact e1
    · have hb1 : Bit mt.1 (cond.getD t 0) = true := by
        cases hx : Bit mt.1 (cond.getD t 0)
        · exact absurd hx hb
        · rfl
      obtain ⟨mt1, e1, e2⟩ := ih mt (fun x => T x ∨ x = t)
        (fun x hx => hlt x (List.mem_cons_of_mem _ hx)) (by
          refine ⟨h1, h2, ?_⟩
          intro j
          rw [h3]
          constructor
          · rintro ⟨a, x, hx1, hx2⟩
            exact ⟨a, x, Or.inl hx1, hx2⟩
          · rintro ⟨a, x, hx1 | hx1, hx2⟩
            · exact ⟨a, x, hx1, hx2⟩
            · rw [hx1] at hx2
              rcases (h1 _).1 hb1 with hc | hc
              · exact absurd (hx2.symm.trans hc) a
              · rw [hx2] at hc
                exact (h3 j).1 hc)
      refine ⟨mt1, ?_, by rw [← hT]; exact e2⟩
      rw [condArcs, hidx]
      simp only []
      rw [if_neg hb]
      exact e1

theorem condNodes_spec (g : AdjacencyList) (hg : InRange g) (cn : Nat) (cond : List Nat)
    (hcond : cond.length = g.length) :
    ∀ (c : List Nat) (mt : Nat × List Nat) (T : Nat → Prop), (∀ n, n ∈ c → n < g.length) →
      ScanInv cn cond T mt →
      ∃ mt1, condNodes g cond c mt = .ok mt1 ∧
        ScanInv cn cond (fun t => T t ∨ ∃ n, n ∈ c ∧ Arc g n t) mt1 := by
  intro c
  induction c with
  | nil =>
    intro mt T _ h
    refine ⟨mt, rfl, ?_⟩
    have : (fun t => T t ∨ ∃ n, n ∈ ([] : List Nat) ∧ Arc g n t) = T := by
      funext t; simp
    rw [this]; exact h
  | cons n c ih =>
    intro mt T hlt h
    have hn : n < g.length := hlt n (List.mem_cons_self _ _)
    obtain ⟨mt1, e1, e2⟩ := condArcs_spec cn cond (g.getD n []) mt T (fun t ht => by
      rw [hcond]; exact Arc.lt_right hg (u := n) ht) h
    obtain ⟨mt2, e3, e4⟩ := ih mt1 _ (fun m hm => hlt m (List.mem_cons_of_mem _ hm)) e2
    refine ⟨mt2, ?_, ?_⟩
    · rw [condNodes, idx_eq_getD hn]
      simp only []
      rw [e1]
      exact e3
    · have : (fun t => (T t ∨ t ∈ g.getD n []) ∨ ∃ m, m ∈ c ∧ Arc g m t)
          = (fun t => T t ∨ ∃ m, m ∈ n :: c ∧ Arc g m t) := by
        funext t
        apply propext
        constructor
        · rintro ((a | a) | ⟨m, hm1, hm2⟩)
          · exact Or.inl a
          · exact Or.inr ⟨n, List.mem_cons_self _ _, a⟩
          · exact Or.inr ⟨m, List.mem_cons_of_mem _ hm1, hm2⟩
        · rintro (a | ⟨m, hm1, hm2⟩)
          · exact Or.inl (Or.inl a)
          · rcases List.mem_cons.1 hm1 with e | e
            · rw [e] at hm2; exact Or.inl (Or.inr hm2)
            · exact Or.inr ⟨m, e, hm2⟩
      rw [← this]; exact e4

theorem condLoop_spec (g : AdjacencyList) (hg : InRange g) (scc : List (List Nat))
    (hperm : scc.flatten.Perm (List.range g.length))
    (hfwd : ∀ i u w, u ∈ scc.getD i [] → Arc g u w → ∃ j, i ≤ j ∧ w ∈ scc.getD j []) :
    ∀ (k : Nat) (cond : List Nat) (cd : List (List Nat)), k ≤ scc.length →
      CondInv g scc k cond cd →
      ∃ cd1, condLoop g scc k cond cd = .ok cd1 ∧ ∃ cond1, CondInv g scc 0 cond1 cd1 := by
  have hnd : scc.flatten.Nodup := hperm.nodup_iff.2 (List.nodup_range _)
  have hmemlt : ∀ i v, v ∈ scc.getD i [] → v < g.length := by
    intro i v hv
    exact List.mem_range.1 (hperm.mem_iff.1 (getD_mem_flatten hv))
  intro k
  induction k with
  | zero =>
    intro cond cd _ h
    exact ⟨cd, rfl, cond, h⟩
  | succ cn ih =>
    intro cond cd hk h
    have hcn : cn < scc.length := by omega
    have hidx : idx scc cn = .ok (scc.getD cn []) := by
      unfold idx
      rw [List.getD_eq_getElem _ _ hcn, List.getElem?_eq_getElem hcn]
    obtain ⟨cond1, m1, m2, m3⟩ := condMark_spec cn (scc.getD cn []) cond (fun n hn => by
      rw [h.hcond]; exact hmemlt cn n hn)
    have hscan0 : ScanInv cn cond1 (fun _ => False) (SetBit 0 cn true, []) := by
      refine ⟨?_, List.nodup_nil, ?_⟩
      · intro j
        show Bit (SetBit 0 cn true) j = true ↔ _
        rw [Bit_SetBit_true, Bit_zero]
        simp only [Bool.false_or, decide_eq_true_eq, List.not_mem_nil, or_false]
        exact ⟨fun e => e.symm, fun e => e.symm⟩
      · intro j
        simp
    obtain ⟨mt, n1, n2⟩ := condNodes_spec g hg cn cond1 (by rw [m2, h.hcond]) (scc.getD cn [])
      _ _ (fun n hn => hmemlt cn n hn) hscan0
    have hmap1 : ∀ j v, cn ≤ j → v ∈ scc.getD j [] → cond1.getD v 0 = j := by
      intro j v hj hv
      rw [m3]
      by_cases hvc : v ∈ scc.getD cn []
      · rw [if_pos hvc]
        exact getD_unique_of_nodup_flatten hnd hvc hv
      · rw [if_neg hvc]
        have : cn ≠ j := by
          intro e
          rw [e] at hvc
          exact hvc hv
        exact h.hmap j v (by omega) hv
    have hinv : CondInv g scc cn cond1 (cd.set cn mt.2) := by
      refine ⟨by rw [m2, h.hcond], by rw [List.length_set, h.hcd], hmap1, ?_, ?_⟩
      · intro i hi j
        by_cases hic : i = cn
        · subst hic
          rw [getD_set_eq _ _ _ _ (by rw [h.hcd]; exact hcn), n2.2.2]
          constructor
          · rintro ⟨a, t, ht, e⟩
            rcases ht with ht | ⟨u, hu1, hu2⟩
            · exact absurd ht id
            · obtain ⟨j1, hj1, hj2⟩ := hfwd i u t hu1 hu2
              have := hmap1 j1 t hj1 hj2
              rw [e] at this
              subst this
              exact ⟨fun e2 => a e2.symm, u, hu1, t, hj2, hu2⟩
          · rintro ⟨a, u, hu1, w, hw1, hw2⟩
            refine ⟨fun e => a e.symm, w, Or.inr ⟨u, hu1, hw2⟩, ?_⟩
            obtain ⟨j1, hj1, hj2⟩ := hfwd i u w hu1 hw2
            have e1 := getD_unique_of_nodup_flatten hnd hj2 hw1
            rw [← e1]
            exact hmap1 j1 w hj1 hj2
        · rw [getD_set_ne _ _ _ _ _ (fun e => hic e.symm)]
          exact h.harcs i (by omega) j
      · intro i hi
        by_cases hic : i = cn
        · subst hic
          rw [getD_set_eq _ _ _ _ (by rw [h.hcd]; exact hcn)]
          exact n2.2.1
        · rw [getD_set_ne _ _ _ _ _ (fun e => hic e.symm)]
          exact h.hnodup i (by omega)
    obtain ⟨cd1, e1, e2⟩ := ih cond1 (cd.set cn mt.2) (by omega) hinv
    refine ⟨cd1, ?_, e2⟩
    rw [condLoop, hidx]
    simp only []
    rw [m1]
    simp only []
    rw [n1]
    exact e1

theorem CondInv.cond_init (g : AdjacencyList) (scc : List (List Nat)) :
    CondInv g scc scc.length (List.replicate g.length 0) (List.replicate scc.length []) := by
  refine ⟨by simp, by simp, ?_, ?_, ?_⟩
  · intro j v hj hv
    rw [List.getD_eq_default _ _ hj] at hv
    cases hv
  · intro i hi j
    rw [List.getD_eq_default _ _ (by simp; exact hi), List.getD_eq_default _ _ hi]
    simp
  · intro i hi
    rw [List.getD_eq_default _ _ (by simp; exact hi)]
    exact List.nodup_nil

theorem getD_reverse (L : List (List Nat)) (i : Nat) (hi : i < L.length) :
    L.reverse.getD i [] = L.getD (L.length - 1 - i) [] := by
  rw [List.getD_eq_getElem?_getD, List.getD_eq_getElem?_getD, List.getElem?_reverse hi]

/-- What `TarjanCondensation` returns, from the components of `SCCTarjan`. -/
theorem TarjanCondensation_spec (g : AdjacencyList) (hg : InRange g) (fuel : Nat)
    (hfuel : g.length ≤ fuel) :
    ∃ comps cd, SCCTarjan fuel g emitAll = .ok comps ∧
      TarjanForward fuel g = .ok comps.reverse ∧
      TarjanCondensation fuel g = .ok (comps.reverse, cd) ∧
      cd.length = comps.reverse.length ∧
      (∀ i j, j ∈ cd.getD i [] ↔ (i ≠ j ∧ ∃ u, u ∈ comps.reverse.getD i [] ∧
        ∃ w, w ∈ comps.reverse.getD j [] ∧ Arc g u w)) ∧
      (∀ i, (cd.getD i []).Nodup) ∧
      (∀ i u w, u ∈ comps.reverse.getD i [] → Arc g u w →
        ∃ j, i ≤ j ∧ w ∈ comps.reverse.getD j []) := by
  obtain ⟨comps, e, hperm, _, _, htopo⟩ := SCCTarjan_spec g hg fuel hfuel
  have hfw : TarjanForward fuel g = .ok comps.reverse := by
    rw [TarjanForward, e]; rfl
  have hperm2 : comps.reverse.flatten.Perm (List.range g.length) :=
    ((List.reverse_perm comps).flatten).trans hperm
  have hfwd : ∀ i u w, u ∈ comps.reverse.getD i [] → Arc g u w →
      ∃ j, i ≤ j ∧ w ∈ comps.reverse.getD j [] := by
    intro i u w hu huw
    have hi : i < comps.length := by
      by_contra hc
      rw [List.getD_eq_default _ _ (by simp; omega)] at hu
      cases hu
    rw [getD_reverse _ _ hi] at hu
    obtain ⟨j, hj1, hj2⟩ := htopo _ u w hu huw
    have hj : j < comps.length := by omega
    refine ⟨comps.length - 1 - j, by omega, ?_⟩
    rw [getD_reverse _ _ (by omega)]
    have : comps.length - 1 - (comps.length - 1 - j) = j := by omega
    rw [this]
    exact hj2
  obtain ⟨cd, c1, cond1, c2⟩ := condLoop_spec g hg comps.reverse hperm2 hfwd comps.reverse.length
    _ _ (le_refl _) (CondInv.cond_init g comps.reverse)
  refine ⟨comps, cd, e, hfw, ?_, c2.hcd, fun i j => c2.harcs i (Nat.zero_le _) j,
    fun i => c2.hnodup i (Nat.zero_le _), hfwd⟩
  rw [TarjanCondensation, hfw]
  simp only []
  rw [c1]

/-! ## Dominators: the iteration of `Doms` -/

section DomsProofs

variable {g tr : AdjacencyList} {post pi : List Nat} {r : Nat}

theorem mem_iff_getD {xs : List Nat} {v : Nat} :
    v ∈ xs ↔ ∃ i, i < xs.length ∧ xs.getD i 0 = v := by
  constructor
  · intro h
    obtain ⟨i, hi, e⟩ := List.mem_iff_getElem.mp h
    exact ⟨i, hi, by rw [List.getD_eq_getElem _ _ hi]; exact e⟩
  · rintro ⟨i, hi, e⟩
    rw [← e]
    exact getD_mem_of_lt hi

theorem DomCtx.pos_lt (C : DomCtx g tr post pi r) {v : Nat} (hv : v ∈ post) :
    pi.getD v 0 < post.length := by
  obtain ⟨i, hi, e⟩ := mem_iff_getD.mp hv
  rw [← e, C.pipost i hi]
  exact hi

theorem DomCtx.post_pos (C : DomCtx g tr post pi r) {v : Nat} (hv : v ∈ post) :
    post.getD (pi.getD v 0) 0 = v := by
  obtain ⟨i, hi, e⟩ := mem_iff_getD.mp hv
  rw [← e, C.pipost i hi]

theorem DomCtx.inj (C : DomCtx g tr post pi r) {v w : Nat} (hv : v ∈ post) (hw : w ∈ post)
    (h : pi.getD v 0 = pi.getD w 0) : v = w := by
  rw [← C.post_pos hv, ← C.post_pos hw, h]

theorem DomCtx.length_pos (C : DomCtx g tr post pi r) : 0 < post.length := by
  have h := C.last
  cases post with
  | nil => simp at h
  | cons a l => simp

theorem DomCtx.last_eq_root (C : DomCtx g tr post pi r) : post.getD (post.length - 1) 0 = r := by
  have h := C.last
  have hp := C.length_pos
  rw [List.getLast?_eq_getElem?] at h
  rw [List.getD_eq_getElem?_getD, h]
  rfl

theorem DomCtx.root_mem (C : DomCtx g tr post pi r) : r ∈ post :=
  mem_iff_getD.mpr ⟨post.length - 1, by have := C.length_pos; omega, C.last_eq_root⟩

theorem DomCtx.root_pos (C : DomCtx g tr post pi r) : pi.getD r 0 = post.length - 1 := by
  have h := C.pipost (post.length - 1) (by have := C.length_pos; omega)
  rw [C.last_eq_root] at h
  exact h

theorem DomCtx.pos_lt_root (C : DomCtx g tr post pi r) {v : Nat} (hv : v ∈ post) (hne : v ≠ r) :
    pi.getD v 0 < post.length - 1 := by
  have h1 := C.pos_lt hv
  by_contra hc
  have : pi.getD v 0 = pi.getD r 0 := by rw [C.root_pos]; omega
  exact hne (C.inj hv C.root_mem this)

theorem DomCtx.exists_later (C : DomCtx g tr post pi r) {v : Nat} (hv : v ∈ post) (hne : v ≠ r) :
    ∃ q ∈ post, Arc g q v ∧ pi.getD v 0 < pi.getD q 0 := by
  obtain ⟨j, hj, hij, harc⟩ := C.later (pi.getD v 0) (C.pos_lt_root hv hne)
  rw [C.post_pos hv] at harc
  exact ⟨post.getD j 0, getD_mem_of_lt hj, harc, by rw [C.pipost j hj]; exact hij⟩

/-- The nodes of `post` are the nodes reachable from `r`. -/
theorem DomCtx.mem_of_reach (C : DomCtx g tr post pi r) {v : Nat} (h : Reach g r v) :
    v ∈ post := by
  induction h with
  | refl => exact C.root_mem
  | tail _ harc ih => exact C.closed _ ih _ harc

theorem DomCtx.reach_of_mem (C : DomCtx g tr post pi r) :
    ∀ n v, v ∈ post → post.length - 1 - pi.getD v 0 ≤ n → Reach g r v := by
  intro n
  induction n with
  | zero =>
    intro v hv hn
    by_cases hne : v = r
    · rw [hne]; exact Reach.refl _ _
    · have := C.pos_lt_root hv hne
      omega
  | succ n ih =>
    intro v hv hn
    by_cases hne : v = r
    · rw [hne]; exact Reach.refl _ _
    · obtain ⟨q, hq, harc, hlt⟩ := C.exists_later hv hne
      have := C.pos_lt hq
      exact Reach.trans (ih q hq (by omega)) harc.reach

/-! ### Walks and dominators -/

theorem Walk.head_mem {s v : Nat} {l : List Nat} (h : Walk g s v l) : v ∈ l := by
  cases h <;> simp

theorem Walk.to_reach {s v : Nat} {l : List Nat} (h : Walk g s v l) : Reach g s v := by
  induction h with
  | base => exact Reach.refl _ _
  | step _ harc ih => exact Reach.trans ih harc.reach

theorem exists_walk_of_reach {s v : Nat} (h : Reach g s v) : ∃ l, Walk g s v l := by
  induction h with
  | refl => exact ⟨[s], Walk.base⟩
  | tail _ harc ih =>
    obtain ⟨l, hl⟩ := ih
    exact ⟨_, Walk.step hl harc⟩

theorem Dominates.self_of (s v : Nat) : Dominates g s v v := fun _ h => h.head_mem

theorem Dominates.eq_root {s d : Nat} (h : Dominates g s d s) : d = s := by
  have := h [s] Walk.base
  simpa using this

/-- A dominator of `v` other than `v` dominates every predecessor of `v` that is
reachable. -/
theorem Dominates.pred {s d p v : Nat} (h : Dominates g s d v) (hne : d ≠ v)
    (harc : Arc g p v) : Dominates g s d p := by
  intro l hl
  have := h (v :: l) (Walk.step hl harc)
  rcases List.mem_cons.mp this with e | e
  · exact absurd e hne
  · exact e

/-! ### Chains of `dom` -/

theorem Anc.dfn_right {dom : List Int} {x v : Nat} (h : Anc dom r x v) : Dfn dom v := by
  cases h <;> assumption

theorem Anc.dfn_left {dom : List Int} {x v : Nat} (h : Anc dom r x v) : Dfn dom x := by
  induction h with
  | self h => exact h
  | up _ _ _ ih => exact ih

theorem Anc.anc_trans {dom : List Int} {x y v : Nat} (h1 : Anc dom r x y) (h2 : Anc dom r y v) :
    Anc dom r x v := by
  induction h2 with
  | self _ => exact h1
  | up hd hne _ ih => exact Anc.up hd hne ih

theorem Anc.pos_le {dom : List Int} (W : DomWf g post pi r dom) {x v : Nat}
    (h : Anc dom r x v) : pi.getD v 0 ≤ pi.getD x 0 := by
  induction h with
  | self _ => exact le_rfl
  | up hd hne _ ih => have := (W.parent _ hd hne).2; omega

theorem Anc.eq_of_pos_le {dom : List Int} (W : DomWf g post pi r dom) {x v : Nat}
    (h : Anc dom r x v) (hle : pi.getD x 0 ≤ pi.getD v 0) : x = v := by
  cases h with
  | self _ => rfl
  | up hd hne h2 =>
    have := (W.parent _ hd hne).2
    have := h2.pos_le W
    omega

theorem Anc.eq_root_of {dom : List Int} {x : Nat} (h : Anc dom r x r) : x = r := by
  cases h with
  | self _ => rfl
  | up _ hne _ => exact absurd rfl hne

theorem Anc.parent {dom : List Int} (W : DomWf g post pi r dom) {v : Nat} (hd : Dfn dom v)
    (hne : v ≠ r) : Anc dom r (domPar dom v) v :=
  Anc.up hd hne (Anc.self (W.parent v hd hne).1)

/-- Two ancestors of a node are ancestors of each other, the one further on in `post`
of the other. -/
theorem Anc.total {dom : List Int} (W : DomWf g post pi r dom) {x y v : Nat}
    (hx : Anc dom r x v) (hy : Anc dom r y v) (hle : pi.getD x 0 ≤ pi.getD y 0) :
    Anc dom r y x := by
  induction hx with
  | self _ => exact hy
  | up hd hne h2 ih =>
    cases hy with
    | self _ =>
      have := (W.parent _ hd hne).2
      have := h2.pos_le W
      omega
    | up _ _ hy2 => exact ih hy2

theorem Anc.of_root (C : DomCtx g tr post pi r) {dom : List Int} (W : DomWf g post pi r dom) :
    ∀ n v, Dfn dom v → post.length - 1 - pi.getD v 0 ≤ n → Anc dom r r v := by
  intro n
  induction n with
  | zero =>
    intro v hd hn
    by_cases hne : v = r
    · rw [hne]; rw [hne] at hd; exact Anc.self hd
    · have := C.pos_lt_root (W.inpost v hd) hne
      omega
  | succ n ih =>
    intro v hd hn
    by_cases hne : v = r
    · rw [hne]; rw [hne] at hd; exact Anc.self hd
    · have hp := W.parent v hd hne
      have := C.pos_lt (W.inpost _ hp.1)
      exact Anc.up hd hne (ih _ hp.1 (by omega))

theorem DomWf.dfn_root {dom : List Int} (W : DomWf g post pi r dom) : Dfn dom r := by
  unfold Dfn
  rw [W.root]
  exact Int.ofNat_nonneg r

theorem DomWf.dfn_lt {dom : List Int} (W : DomWf g post pi r dom) {v : Nat} (h : Dfn dom v) :
    v < g.length := by
  rw [← W.len]
  by_contra hc
  unfold Dfn at h
  rw [List.getD_eq_default _ _ (by omega)] at h
  omega

theorem DomWf.getD_eq {dom : List Int} {v : Nat} (h : Dfn dom v) :
    dom.getD v (-1) = Int.ofNat (domPar dom v) := by
  unfold Dfn at h
  unfold domPar
  exact (Int.toNat_of_nonneg h).symm

/-! ### The closure `intersect` -/

theorem idx_of_lt {α : Type} {xs : List α} {i : Nat} (h : i < xs.length) (d : α) :
    idx xs i = .ok (xs.getD i d) := by
  unfold idx
  rw [List.getD_eq_getElem _ _ h, List.getElem?_eq_getElem h]

theorem idxInt_ofNat {α : Type} (xs : List α) (i : Nat) : idxInt xs (Int.ofNat i) = idx xs i := rfl

theorem domWalk_spec (C : DomCtx g tr post pi r) {dom : List Int} (W : DomWf g post pi r dom) :
    ∀ fuel u w, Dfn dom u → Dfn dom w → post.length - pi.getD u 0 ≤ fuel →
      ∃ c, domWalk dom pi fuel (Int.ofNat u) (Int.ofNat w) = .ok (Int.ofNat c) ∧
        Anc dom r c u ∧ pi.getD w 0 ≤ pi.getD c 0 ∧
        (∀ x, Anc dom r x u → pi.getD w 0 ≤ pi.getD x 0 → Anc dom r x c) ∧
        (pi.getD w 0 ≤ pi.getD u 0 → c = u) := by
  intro fuel
  induction fuel with
  | zero =>
    intro u w hu _ hf
    have := C.pos_lt (W.inpost u hu)
    omega
  | succ fuel ih =>
    intro u w hu hw hf
    have hul : u < pi.length := by rw [C.pilen]; exact W.dfn_lt hu
    have hwl : w < pi.length := by rw [C.pilen]; exact W.dfn_lt hw
    have hud : u < dom.length := by rw [W.len]; exact W.dfn_lt hu
    unfold domWalk
    rw [idxInt_ofNat, idxInt_ofNat, idx_of_lt hul 0, idx_of_lt hwl 0]
    by_cases hlt : pi.getD u 0 < pi.getD w 0
    · have hne : u ≠ r := by
        intro e
        have h1 := C.pos_lt (W.inpost w hw)
        rw [e, C.root_pos] at hlt
        omega
      have hp := W.parent u hu hne
      have hpl := C.pos_lt (W.inpost _ hp.1)
      obtain ⟨c, hc, ha, hle, hall, _⟩ := ih (domPar dom u) w hp.1 hw (by omega)
      refine ⟨c, ?_, Anc.up hu hne ha, hle, ?_, ?_⟩
      · simp only [hlt, if_true]
        rw [idxInt_ofNat, idx_of_lt hud (-1), DomWf.getD_eq hu]
        exact hc
      · intro x hx hwx
        cases hx with
        | self _ => omega
        | up _ _ h2 => exact hall x h2 hwx
      · intro h; omega
    · refine ⟨u, ?_, Anc.self hu, by omega, ?_, fun _ => rfl⟩
      · simp only [hlt, if_false]
      · intro x hx _
        exact hx

theorem intersect_spec (C : DomCtx g tr post pi r) {dom : List Int}
    (W : DomWf g post pi r dom) :
    ∀ fuel b1 b2, Dfn dom b1 → Dfn dom b2 →
      (post.length - pi.getD b1 0) + (post.length - pi.getD b2 0) ≤ fuel →
      ∃ m, intersect dom pi fuel (Int.ofNat b1) (Int.ofNat b2) = .ok (Int.ofNat m) ∧
        Anc dom r m b1 ∧ Anc dom r m b2 ∧
        ∀ x, Anc dom r x b1 → Anc dom r x b2 → Anc dom r x m := by
  intro fuel
  induction fuel with
  | zero =>
    intro b1 b2 h1 _ hf
    have := C.pos_lt (W.inpost b1 h1)
    omega
  | succ fuel ih =>
    intro b1 b2 h1 h2 hf
    have hl1 := C.pos_lt (W.inpost b1 h1)
    have hl2 := C.pos_lt (W.inpost b2 h2)
    unfold intersect
    by_cases hb : b1 = b2
    · subst hb
      exact ⟨b1, by simp, Anc.self h1, Anc.self h1, fun x hx _ => hx⟩
    · have hb2 : ¬ Int.ofNat b1 = Int.ofNat b2 := fun e => hb (Int.ofNat_inj.mp e)
      obtain ⟨c1, e1, a1, le1, all1, eq1⟩ := domWalk_spec C W (fuel + 1) b1 b2 h1 h2 (by omega)
      have hc1 := a1.dfn_left
      obtain ⟨c2, e2, a2, le2, all2, _⟩ := domWalk_spec C W (fuel + 1) b2 c1 h2 hc1 (by omega)
      have hc2 := a2.dfn_left
      have hlc1 := C.pos_lt (W.inpost c1 hc1)
      have hlc2 := C.pos_lt (W.inpost c2 hc2)
      have p1 := a1.pos_le W
      have p2 := a2.pos_le W
      have hmeasure : (post.length - pi.getD c1 0) + (post.length - pi.getD c2 0) ≤ fuel := by
        by_cases hlt : pi.getD b1 0 < pi.getD b2 0
        · omega
        · have hne : pi.getD b1 0 ≠ pi.getD b2 0 :=
            fun e => hb (C.inj (W.inpost b1 h1) (W.inpost b2 h2) e)
          have := eq1 (by omega)
          subst this
          omega
      obtain ⟨m, em, am1, am2, hall⟩ := ih c1 c2 hc1 hc2 hmeasure
      refine ⟨m, ?_, am1.anc_trans a1, am2.anc_trans a2, ?_⟩
      · simp only [hb2, if_false]
        rw [e1]
        simp only
        rw [e2]
        exact em
      · intro x hx1 hx2
        have hxc1 := all1 x hx1 (hx2.pos_le W)
        exact hall x hxc1 (all2 x hx2 (hxc1.pos_le W))

/-! ### One step of a pass -/

theorem domFirst_spec {dom : List Int} :
    ∀ (l : List Nat) (j : Nat), (∀ p ∈ l, p < dom.length) →
      (domFirst dom l j = .ok none ∧ ∀ p ∈ l, ¬ Dfn dom p) ∨
      ∃ t, t < l.length ∧ domFirst dom l j = .ok (some (j + t)) ∧ Dfn dom (l.getD t 0) ∧
        ∀ p ∈ l.take t, ¬ Dfn dom p := by
  intro l
  induction l with
  | nil =>
    intro j _
    exact Or.inl ⟨rfl, fun p hp => absurd hp (List.not_mem_nil p)⟩
  | cons fp rest ih =>
    intro j hl
    have hfp : fp < dom.length := hl fp (List.mem_cons_self _ _)
    unfold domFirst
    rw [idx_of_lt hfp (-1)]
    by_cases hd : 0 ≤ dom.getD fp (-1)
    · refine Or.inr ⟨0, by simp, ?_, hd, ?_⟩
      · simp only [hd, if_true, Nat.add_zero]
      · intro p hp
        simp at hp
    · simp only [hd, if_false]
      rcases ih (j + 1) (fun p hp => hl p (List.mem_cons_of_mem _ hp)) with ⟨e, hn⟩ | ⟨t, ht, e, hdt, hn⟩
      · refine Or.inl ⟨e, ?_⟩
        intro p hp
        rcases List.mem_cons.mp hp with e1 | e1
        · rw [e1]; exact hd
        · exact hn p e1
      · refine Or.inr ⟨t + 1, by simp; omega, ?_, ?_, ?_⟩
        · rw [e]; congr 2; omega
        · simpa using hdt
        · intro p hp
          rw [List.take_succ_cons] at hp
          rcases List.mem_cons.mp hp with e1 | e1
          · rw [e1]; exact hd
          · exact hn p e1

theorem domFold_spec (C : DomCtx g tr post pi r) {dom : List Int} (W : DomWf g post pi r dom)
    {fuel : Nat} (hfuel : 2 * post.length ≤ fuel) :
    ∀ (l : List Nat) (im : Nat), (∀ p ∈ l, p < dom.length) → Dfn dom im →
      ∃ a, domFold dom pi fuel l (Int.ofNat im) = .ok (Int.ofNat a) ∧ Anc dom r a im ∧
        (∀ p ∈ l, Dfn dom p → Anc dom r a p) ∧
        (∀ x, Anc dom r x im → (∀ p ∈ l, Dfn dom p → Anc dom r x p) → Anc dom r x a) := by
  intro l
  induction l with
  | nil =>
    intro im _ him
    exact ⟨im, rfl, Anc.self him, fun p hp => absurd hp (List.not_mem_nil p), fun x hx _ => hx⟩
  | cons p rest ih =>
    intro im hl him
    have hp : p < dom.length := hl p (List.mem_cons_self _ _)
    have hrest : ∀ q ∈ rest, q < dom.length := fun q hq => hl q (List.mem_cons_of_mem _ hq)
    unfold domFold
    rw [idx_of_lt hp (-1)]
    by_cases hd : 0 ≤ dom.getD p (-1)
    · have hdp : Dfn dom p := hd
      obtain ⟨m, em, am1, am2, hall⟩ := intersect_spec C W fuel im p him hdp (by omega)
      obtain ⟨a, ea, aa, hap, hx⟩ := ih m hrest am1.dfn_left
      refine ⟨a, ?_, aa.anc_trans am1, ?_, ?_⟩
      · simp only [hd, if_true]
        rw [em]
        exact ea
      · intro q hq hdq
        rcases List.mem_cons.mp hq with e1 | e1
        · rw [e1]; exact aa.anc_trans am2
        · exact hap q e1 hdq
      · intro x hxim hxall
        apply hx x (hall x hxim (hxall p (List.mem_cons_self _ _) hdp))
        intro q hq hdq
        exact hxall q (List.mem_cons_of_mem _ hq) hdq
    · obtain ⟨a, ea, aa, hap, hx⟩ := ih im hrest him
      refine ⟨a, ?_, aa, ?_, ?_⟩
      · simp only [hd, if_false]
        exact ea
      · intro q hq hdq
        rcases List.mem_cons.mp hq with e1 | e1
        · rw [e1] at hdq; exact absurd hdq hd
        · exact hap q e1 hdq
      · intro x hxim hxall
        apply hx x hxim
        intro q hq hdq
        exact hxall q (List.mem_cons_of_mem _ hq) hdq

theorem set_getD_self (dom : List Int) (b : Nat) : dom.set b (dom.getD b (-1)) = dom := by
  apply List.ext_getElem?
  intro i
  rw [List.getElem?_set]
  by_cases h : b = i
  · subst h
    by_cases hb : b < dom.length
    · simp [hb, List.getD_eq_getElem _ _ hb]
    · simp [hb]
      omega
  · simp [h]

/-- One step of a pass computes the nearest common ancestor of the predecessors of
`b` that have an entry, and stores it as the entry of `b`. -/
theorem domStep_spec (C : DomCtx g tr post pi r) {dom : List Int} (W : DomWf g post pi r dom)
    {fuel : Nat} (hfuel : 2 * post.length ≤ fuel) {b : Nat} (hb : b ∈ post) (ch : Bool)
    (hex : ∃ p, Arc g p b ∧ Dfn dom p) :
    ∃ a, domStep tr pi fuel b dom ch =
        .ok (dom.set b (Int.ofNat a), ch || decide (dom.getD b (-1) ≠ Int.ofNat a)) ∧
      Dfn dom a ∧ (∀ p, Arc g p b → Dfn dom p → Anc dom r a p) ∧
      (∀ x, (∀ p, Arc g p b → Dfn dom p → Anc dom r x p) → Anc dom r x a) := by
  have hbl : b < g.length := C.range b hb
  have hfr : ∀ p, p ∈ tr.getD b [] ↔ Arc g p b := fun p => C.trarc p b hbl
  have hlt : ∀ p ∈ tr.getD b [], p < dom.length := by
    intro p hp
    rw [W.len]
    exact ((hfr p).mp hp).lt_left
  unfold domStep
  rw [idx_of_lt (by rw [C.trlen]; exact hbl) []]
  simp only
  rcases domFirst_spec (tr.getD b []) 0 hlt with ⟨_, hn⟩ | ⟨t, ht, e, hdt, hn⟩
  · obtain ⟨p, hp, hdp⟩ := hex
    exact absurd hdp (hn p ((hfr p).mpr hp))
  · rw [e]
    simp only [Nat.zero_add]
    have hdrop : ∀ p ∈ (tr.getD b []).drop t, p < dom.length :=
      fun p hp => hlt p (List.mem_of_mem_drop hp)
    obtain ⟨a, ea, aa, hap, hx⟩ := domFold_spec C W hfuel _ _ hdrop hdt
    have hmem : ∀ p ∈ tr.getD b [], Dfn dom p → p ∈ (tr.getD b []).drop t := by
      intro p hp hdp
      rw [← List.take_append_drop t (tr.getD b [])] at hp
      rcases List.mem_append.mp hp with h1 | h1
      · exact absurd hdp (hn p h1)
      · exact h1
    have him : (tr.getD b []).getD t 0 ∈ tr.getD b [] := getD_mem_of_lt ht
    refine ⟨a, ?_, aa.dfn_left, ?_, ?_⟩
    · rw [ea]
      simp only
      rw [idx_of_lt (by rw [W.len]; exact hbl) (-1)]
      by_cases hd : dom.getD b (-1) = Int.ofNat a
      · simp only [hd, ne_eq, not_true_eq_false, if_false, decide_False, Bool.or_false]
        rw [← hd, set_getD_self]
      · simp only [hd, ne_eq, not_false_eq_true, if_true, decide_True, Bool.or_true]
    · intro p hp hdp
      exact hap p (hmem p ((hfr p).mpr hp) hdp) hdp
    · intro x hall
      apply hx x (hall _ ((hfr _).mp him) hdt)
      intro p hp hdp
      exact hall p ((hfr p).mp (List.mem_of_mem_drop hp)) hdp

/-! ### The effect of storing an entry on the chains -/

theorem Dfn.dfn_set_self {dom : List Int} {b : Nat} (a : Nat) (hb : b < dom.length) :
    Dfn (dom.set b (Int.ofNat a)) b := by
  unfold Dfn
  rw [getD_set_eq _ _ _ _ hb]
  exact Int.ofNat_nonneg a

theorem Dfn.set_ne {dom : List Int} {b v : Nat} (a : Int) (h : b ≠ v) :
    Dfn (dom.set b a) v ↔ Dfn dom v := by
  unfold Dfn
  rw [getD_set_ne _ _ _ _ _ h]

theorem domPar_set_self {dom : List Int} {b : Nat} (a : Nat) (hb : b < dom.length) :
    domPar (dom.set b (Int.ofNat a)) b = a := by
  unfold domPar
  rw [getD_set_eq _ _ _ _ hb]
  rfl

theorem domPar_set_ne {dom : List Int} {b v : Nat} (a : Int) (h : b ≠ v) :
    domPar (dom.set b a) v = domPar dom v := by
  unfold domPar
  rw [getD_set_ne _ _ _ _ _ h]

theorem Dfn.set_of {dom : List Int} {b v : Nat} (a : Nat) (hb : b < dom.length)
    (h : Dfn dom v) : Dfn (dom.set b (Int.ofNat a)) v := by
  by_cases e : b = v
  · subst e; exact Dfn.dfn_set_self a hb
  · exact (Dfn.set_ne _ e).mpr h

theorem DomWf.set_wf (C : DomCtx g tr post pi r) {dom : List Int} (W : DomWf g post pi r dom)
    {b a : Nat} (hb : b ∈ post) (hbr : b ≠ r) (ha : Dfn dom a)
    (hab : pi.getD b 0 < pi.getD a 0) : DomWf g post pi r (dom.set b (Int.ofNat a)) := by
  have hbl : b < dom.length := by rw [W.len]; exact C.range b hb
  constructor
  · rw [List.length_set]; exact W.len
  · rw [getD_set_ne _ _ _ _ _ hbr]; exact W.root
  · intro v hv
    by_cases e : b = v
    · subst e; exact hb
    · exact W.inpost v ((Dfn.set_ne _ e).mp hv)
  · intro v hv hvr
    by_cases e : b = v
    · subst e
      rw [domPar_set_self a hbl]
      exact ⟨Dfn.set_of a hbl ha, hab⟩
    · rw [domPar_set_ne _ e]
      have := W.parent v ((Dfn.set_ne _ e).mp hv) hvr
      exact ⟨Dfn.set_of a hbl this.1, this.2⟩

/-- Storing an entry for `b` leaves the chains of the nodes further on in `post` as
they are. -/
theorem Anc.set_above {dom : List Int} (W : DomWf g post pi r dom) {b a : Nat}
    (hbl : b < dom.length) {x v : Nat} (hlt : pi.getD b 0 < pi.getD v 0) :
    Anc (dom.set b (Int.ofNat a)) r x v ↔ Anc dom r x v := by
  constructor
  · intro h
    induction h with
    | self hd =>
      have e : b ≠ x := fun e => by rw [e] at hlt; omega
      exact Anc.self ((Dfn.set_ne _ e).mp hd)
    | @up v hd hne _ ih =>
      have e : b ≠ v := fun e => by rw [e] at hlt; omega
      have hd2 := (Dfn.set_ne _ e).mp hd
      rw [domPar_set_ne _ e] at ih
      have := (W.parent _ hd2 hne).2
      exact Anc.up hd2 hne (ih (by omega))
  · intro h
    induction h with
    | self hd => exact Anc.self (Dfn.set_of a hbl hd)
    | @up v hd hne _ ih =>
      have e : b ≠ v := fun e => by rw [e] at hlt; omega
      have := (W.parent _ hd hne).2
      refine Anc.up (Dfn.set_of a hbl hd) hne ?_
      rw [domPar_set_ne _ e]
      exact ih (by omega)

theorem Anc.anc_set_self {dom : List Int} (W : DomWf g post pi r dom) {b a : Nat}
    (hbl : b < dom.length) (hbr : b ≠ r) (hab : pi.getD b 0 < pi.getD a 0) {x : Nat} :
    Anc (dom.set b (Int.ofNat a)) r x b ↔ x = b ∨ Anc dom r x a := by
  constructor
  · intro h
    cases h with
    | self _ => exact Or.inl rfl
    | up _ _ h2 =>
      rw [domPar_set_self a hbl] at h2
      exact Or.inr ((Anc.set_above W hbl hab).mp h2)
  · rintro (e | h)
    · rw [e]; exact Anc.self (Dfn.dfn_set_self a hbl)
    · refine Anc.up (Dfn.dfn_set_self a hbl) hbr ?_
      rw [domPar_set_self a hbl]
      exact (Anc.set_above W hbl hab).mpr h

/-- When the new entry of `b` is an ancestor of the old one, chains only lose
nodes. -/
theorem Anc.set_shrink {dom : List Int} {b a : Nat}
    (hbl : b < dom.length) (hbr : b ≠ r) (hdb : Dfn dom b)
    (hU : Anc dom r a (domPar dom b)) {x v : Nat}
    (h : Anc (dom.set b (Int.ofNat a)) r x v) : Anc dom r x v := by
  induction h with
  | self hd =>
    by_cases e : b = x
    · subst e; exact Anc.self hdb
    · exact Anc.self ((Dfn.set_ne _ e).mp hd)
  | @up v hd hne _ ih =>
    by_cases e : b = v
    · subst e
      rw [domPar_set_self a hbl] at ih
      exact Anc.up hdb hbr (ih.anc_trans hU)
    · rw [domPar_set_ne _ e] at ih
      exact Anc.up ((Dfn.set_ne _ e).mp hd) hne ih

/-- The nodes that a chain loses lie between `b` and its new entry. -/
theorem Anc.set_loss {dom : List Int} (W : DomWf g post pi r dom) {b a : Nat}
    (hbl : b < dom.length) (hbr : b ≠ r) (hdb : Dfn dom b)
    (hU : Anc dom r a (domPar dom b)) {x v : Nat} (h : Anc dom r x v) :
    Anc (dom.set b (Int.ofNat a)) r x v ∨
      (Anc dom r b v ∧ Anc dom r x (domPar dom b) ∧ pi.getD x 0 < pi.getD a 0) := by
  have hbc := (W.parent b hdb hbr).2
  have hca := hU.pos_le W
  induction h with
  | self hd => exact Or.inl (Anc.self (Dfn.set_of a hbl hd))
  | @up v hd hne h2 ih =>
    by_cases e : b = v
    · subst e
      by_cases hle : pi.getD a 0 ≤ pi.getD x 0
      · left
        exact (Anc.anc_set_self W hbl hbr (by omega)).mpr (Or.inr (Anc.total W hU h2 hle))
      · right
        exact ⟨Anc.self hdb, h2, by omega⟩
    · rcases ih with h3 | ⟨h3, h4, h5⟩
      · left
        refine Anc.up (Dfn.set_of a hbl hd) hne ?_
        rw [domPar_set_ne _ e]
        exact h3
      · right
        exact ⟨Anc.up hd hne h3, h4, h5⟩

/-- Storing the first entry of `b` leaves the chains of the other nodes as they
are. -/
theorem Anc.set_fresh {dom : List Int} (W : DomWf g post pi r dom) {b a : Nat}
    (hbl : b < dom.length) (hdb : ¬ Dfn dom b) {x v : Nat} (hv : Dfn dom v) :
    Anc (dom.set b (Int.ofNat a)) r x v ↔ Anc dom r x v := by
  constructor
  · intro h
    induction h with
    | self _ => exact Anc.self hv
    | @up v _ hne h2 ih =>
      have e : b ≠ v := fun e => hdb (e ▸ hv)
      rw [domPar_set_ne _ e] at h2 ih
      exact Anc.up hv hne (ih (W.parent v hv hne).1)
  · intro h
    induction h with
    | self hd => exact Anc.self (Dfn.set_of a hbl hd)
    | @up v hd hne h2 ih =>
      have e : b ≠ v := fun e => hdb (e ▸ hd)
      refine Anc.up (Dfn.set_of a hbl hd) hne ?_
      rw [domPar_set_ne _ e]
      exact ih h2.dfn_right

/-! ### Dominators and chains -/

/-- Every dominator of a node with an entry is on the chain of the node. -/
theorem StrictDomInv.anc (C : DomCtx g tr post pi r) {dom : List Int}
    (W : DomWf g post pi r dom) (S : StrictDomInv g r dom) :
    ∀ n v d, Dfn dom v → post.length - 1 - pi.getD v 0 ≤ n → Dominates g r d v →
      Anc dom r d v := by
  intro n
  induction n with
  | zero =>
    intro v d hd hn hdom
    by_cases hne : v = r
    · subst hne
      rw [hdom.eq_root]
      exact Anc.self hd
    · have := C.pos_lt_root (W.inpost v hd) hne
      omega
  | succ n ih =>
    intro v d hd hn hdom
    by_cases e : d = v
    · rw [e]; exact Anc.self hd
    · by_cases hne : v = r
      · subst hne
        exact absurd hdom.eq_root e
      · have hp := W.parent v hd hne
        have := C.pos_lt (W.inpost _ hp.1)
        exact Anc.up hd hne (ih _ d hp.1 (by omega) (S v hd hne d e hdom))

theorem StrictDomInv.dominates_up {dom : List Int} (W : DomWf g post pi r dom)
    (S : StrictDomInv g r dom) {a p : Nat} (h : Anc dom r a p) :
    ∀ d, Dominates g r d p → Anc dom r d a → Dominates g r d a := by
  induction h with
  | self _ => intro d hdom _; exact hdom
  | @up v hd hne h2 ih =>
    intro d hdom hda
    by_cases e : d = v
    · have h3 : Anc dom r a v := Anc.up hd hne h2
      have h4 := hda.pos_le W
      rw [e] at h4
      have := h3.eq_of_pos_le W h4
      rw [e, this]
      exact Dominates.self_of _ _
    · exact ih d (S v hd hne d e hdom) hda

theorem StrictDomInv.set_sd (C : DomCtx g tr post pi r) {dom : List Int}
    (W : DomWf g post pi r dom) (S : StrictDomInv g r dom) {b a : Nat} (hb : b ∈ post)
    (hex : ∃ p, Arc g p b ∧ Dfn dom p)
    (hn1 : ∀ p, Arc g p b → Dfn dom p → Anc dom r a p)
    (hn2 : ∀ x, (∀ p, Arc g p b → Dfn dom p → Anc dom r x p) → Anc dom r x a) :
    StrictDomInv g r (dom.set b (Int.ofNat a)) := by
  have hbl : b < dom.length := by rw [W.len]; exact C.range b hb
  intro v hd hne d hdv hdom
  by_cases e : b = v
  · subst e
    rw [domPar_set_self a hbl]
    have hda : Anc dom r d a := by
      apply hn2
      intro p harc hdp
      exact S.anc C W post.length p d hdp (by omega) (hdom.pred hdv harc)
    obtain ⟨p, harc, hdp⟩ := hex
    exact S.dominates_up W (hn1 p harc hdp) d (hdom.pred hdv harc) hda
  · rw [domPar_set_ne _ e]
    exact S v ((Dfn.set_ne _ e).mp hd) hne d hdv hdom

/-- When every entry is an ancestor of all the predecessors of its node, the chain
of a node holds dominators of the node only. -/
theorem DomFixed.sound (C : DomCtx g tr post pi r) {dom : List Int}
    (F : DomFixed g post pi r 0 dom) {v : Nat} {l : List Nat} (h : Walk g r v l) :
    ∀ x, Anc dom r x v → x ∈ l := by
  induction h with
  | base =>
    intro x hx
    rw [hx.eq_root_of]
    exact List.mem_singleton.mpr rfl
  | @step p v l hw harc ih =>
    intro x hx
    cases hx with
    | self _ => exact List.mem_cons_self _ _
    | up hd hne h2 =>
      have hv : v ∈ post := C.mem_of_reach (Relation.ReflTransGen.tail hw.to_reach harc)
      have hp : p ∈ post := C.mem_of_reach hw.to_reach
      exact List.mem_cons_of_mem _ (ih x (h2.anc_trans (F v hv hne (Nat.zero_le _) p hp harc)))

/-- At the end of a pass that changed nothing, the entry of every node of `post` but
`r` is its immediate dominator. -/
theorem PassInv.immediate (C : DomCtx g tr post pi r) {dom : List Int}
    (I : PassInv g post pi r 0 dom) (F : DomFixed g post pi r 0 dom) {n : Nat}
    (hn : n ∈ post) (hne : n ≠ r) :
    ∃ d, dom.getD n (-1) = Int.ofNat d ∧ d ≠ n ∧ Dominates g r d n ∧
      ∀ e, e ≠ n → Dominates g r e n → Dominates g r e d := by
  have hd := I.all n hn
  have hp := I.wf.parent n hd hne
  refine ⟨domPar dom n, DomWf.getD_eq hd, ?_, ?_, ?_⟩
  · intro e
    rw [e] at hp
    omega
  · intro l hl
    exact F.sound C hl _ (Anc.parent I.wf hd hne)
  · intro e hen hdom l hl
    have h := I.sd.anc C I.wf post.length n e hd (by omega) hdom
    cases h with
    | self _ => exact absurd rfl hen
    | up _ _ h2 => exact F.sound C hl _ h2

end DomsProofs

section DomsPasses

variable {g tr : AdjacencyList} {post pi : List Nat} {r : Nat}

/-! ### The first pass -/

theorem FirstPassInv.first_step (C : DomCtx g tr post pi r) {fuel : Nat}
    (hfuel : 2 * post.length ≤ fuel) {k : Nat} (hk : k + 1 < post.length) {dom : List Int}
    (I : FirstPassInv g post pi r (k + 1) dom) (ch : Bool) :
    ∃ dom1, domStep tr pi fuel (post.getD k 0) dom ch = .ok (dom1, true) ∧
      FirstPassInv g post pi r k dom1 := by
  have hb : post.getD k 0 ∈ post := getD_mem_of_lt (by omega)
  have hpb : pi.getD (post.getD k 0) 0 = k := C.pipost k (by omega)
  generalize post.getD k 0 = b at hb hpb
  have hbr : b ≠ r := by
    intro e
    rw [e, C.root_pos] at hpb
    omega
  have hbl : b < dom.length := by rw [I.wf.len]; exact C.range b hb
  have hdb : ¬ Dfn dom b := by
    intro h
    have := ((I.defd b).mp h).2
    omega
  have hdfn : ∀ q ∈ post, pi.getD b 0 < pi.getD q 0 → Dfn dom q :=
    fun q hq hlt => (I.defd q).mpr ⟨hq, by omega⟩
  have hex : ∃ p, Arc g p b ∧ Dfn dom p := by
    obtain ⟨q, hq, harc, hlt⟩ := C.exists_later hb hbr
    exact ⟨q, harc, hdfn q hq hlt⟩
  obtain ⟨a, heq, hda, hn1, hn2⟩ := domStep_spec C I.wf hfuel hb ch hex
  have hapost := ((I.defd a).mp hda)
  have hab : pi.getD b 0 < pi.getD a 0 := by omega
  have hne : dom.getD b (-1) ≠ Int.ofNat a := by
    intro e
    apply hdb
    unfold Dfn
    rw [e]
    exact Int.ofNat_nonneg a
  have hch : (ch || decide (dom.getD b (-1) ≠ Int.ofNat a)) = true := by
    rw [decide_eq_true hne, Bool.or_true]
  rw [hch] at heq
  refine ⟨_, heq, ?_⟩
  have W1 := I.wf.set_wf C hb hbr hda hab
  have hfresh : ∀ {x v : Nat}, Dfn dom v →
      (Anc (dom.set b (Int.ofNat a)) r x v ↔ Anc dom r x v) :=
    fun hv => Anc.set_fresh I.wf hbl hdb hv
  constructor
  · exact W1
  · intro v
    by_cases e : b = v
    · subst e
      constructor
      · intro _; exact ⟨hb, by omega⟩
      · intro _; exact Dfn.dfn_set_self a hbl
    · rw [Dfn.set_ne _ e, I.defd v]
      constructor
      · rintro ⟨h1, h2⟩; exact ⟨h1, by omega⟩
      · rintro ⟨h1, h2⟩
        refine ⟨h1, ?_⟩
        have : pi.getD v 0 ≠ pi.getD b 0 := fun e2 => e (C.inj hb h1 e2.symm)
        omega
  · exact I.sd.set_sd C I.wf hb hex hn1 hn2
  · intro v hv hvr hkv
    by_cases e : b = v
    · subst e
      rw [domPar_set_self a hbl]
      constructor
      · intro q hq harc hlt
        have hdq := hdfn q hq hlt
        exact (hfresh hdq).mpr (hn1 q harc hdq)
      · intro x hx
        apply (hfresh hda).mpr
        apply hn2
        intro p harc hdp
        have hp := (I.defd p).mp hdp
        exact (hfresh hdp).mp (hx p hp.1 harc (by omega))
    · rw [domPar_set_ne _ e]
      have hkv2 : k + 1 ≤ pi.getD v 0 := by
        have : pi.getD v 0 ≠ pi.getD b 0 := fun e2 => e (C.inj hb hv e2.symm)
        omega
      have hdv : Dfn dom v := (I.defd v).mpr ⟨hv, hkv2⟩
      have hold := I.nca v hv hvr hkv2
      have hdq : ∀ q ∈ post, pi.getD v 0 < pi.getD q 0 → Dfn dom q :=
        fun q hq hlt => (I.defd q).mpr ⟨hq, by omega⟩
      constructor
      · intro q hq harc hlt
        exact (hfresh (hdq q hq hlt)).mpr (hold.1 q hq harc hlt)
      · intro x hx
        apply (hfresh (I.wf.parent v hdv hvr).1).mpr
        apply hold.2
        intro q hq harc hlt
        exact (hfresh (hdq q hq hlt)).mp (hx q hq harc hlt)

theorem FirstPassInv.first_pass (C : DomCtx g tr post pi r) {fuel : Nat}
    (hfuel : 2 * post.length ≤ fuel) :
    ∀ (k : Nat) (dom : List Int) (ch : Bool), k < post.length →
      FirstPassInv g post pi r k dom →
      ∃ dom1 ch1, domPass tr pi fuel post k dom ch = .ok (dom1, ch1) ∧
        FirstPassInv g post pi r 0 dom1 ∧ (ch = true ∨ 0 < k → ch1 = true) := by
  intro k
  induction k with
  | zero =>
    intro dom ch _ I
    refine ⟨dom, ch, rfl, I, ?_⟩
    rintro (h | h)
    · exact h
    · omega
  | succ k ih =>
    intro dom ch hk I
    obtain ⟨dom1, e1, I1⟩ := I.first_step C hfuel hk ch
    obtain ⟨dom2, ch2, e2, I2, hc2⟩ := ih dom1 true (by omega) I1
    refine ⟨dom2, ch2, ?_, I2, fun _ => hc2 (Or.inl rfl)⟩
    unfold domPass
    rw [idx_of_lt (by omega : k < post.length) 0]
    simp only
    rw [e1]
    exact e2

/-- After the first pass the invariant of the later passes holds. -/
theorem FirstPassInv.toPassInv {dom : List Int} (I : FirstPassInv g post pi r 0 dom) :
    PassInv g post pi r 0 dom := by
  constructor
  · exact I.wf
  · intro v hv
    exact (I.defd v).mpr ⟨hv, Nat.zero_le _⟩
  · exact I.sd
  · intro v hv hvr x hx
    have := (I.nca v hv hvr (Nat.zero_le _)).2 x (fun q hq harc _ => hx q hq harc)
    exact this.pos_le I.wf
  · intro v hv hvr _ q hq harc hlt
    exact (I.nca v hv hvr (Nat.zero_le _)).1 q hq harc hlt
  · intro v _ _ h
    omega

/-! ### The later passes -/

theorem domPot_le {dom dom1 : List Int}
    (h : ∀ v ∈ post, pi.getD (domPar dom v) 0 ≤ pi.getD (domPar dom1 v) 0) :
    domPot post pi dom ≤ domPot post pi dom1 :=
  List.sum_le_sum h

theorem domPot_lt {dom dom1 : List Int}
    (h : ∀ v ∈ post, pi.getD (domPar dom v) 0 ≤ pi.getD (domPar dom1 v) 0)
    (h2 : ∃ v ∈ post, pi.getD (domPar dom v) 0 < pi.getD (domPar dom1 v) 0) :
    domPot post pi dom < domPot post pi dom1 :=
  List.sum_lt_sum _ _ h h2

/-- One step of a later pass: the new entry of the node is an ancestor of the old
one, so the invariant is kept and the sum of the positions does not decrease. -/
theorem PassInv.later_step (C : DomCtx g tr post pi r) {fuel : Nat}
    (hfuel : 2 * post.length ≤ fuel) {k : Nat} (hk : k + 1 < post.length) {dom : List Int}
    (I : PassInv g post pi r (k + 1) dom) (ch : Bool)
    (hfix : ch = false → DomFixed g post pi r (k + 1) dom) :
    ∃ dom1 ch1, domStep tr pi fuel (post.getD k 0) dom ch = .ok (dom1, ch1) ∧
      PassInv g post pi r k dom1 ∧ domPot post pi dom ≤ domPot post pi dom1 ∧
      (ch1 = true → ch = true ∨ domPot post pi dom < domPot post pi dom1) ∧
      (ch1 = false → DomFixed g post pi r k dom1) := by
  have hb : post.getD k 0 ∈ post := getD_mem_of_lt (by omega)
  have hpb : pi.getD (post.getD k 0) 0 = k := C.pipost k (by omega)
  generalize post.getD k 0 = b at hb hpb
  have W := I.wf
  have hbr : b ≠ r := by
    intro e
    rw [e, C.root_pos] at hpb
    omega
  have hbl : b < dom.length := by rw [W.len]; exact C.range b hb
  have hdb : Dfn dom b := I.all b hb
  have hpar := W.parent b hdb hbr
  have hex : ∃ p, Arc g p b ∧ Dfn dom p := by
    obtain ⟨q, hq, harc, _⟩ := C.exists_later hb hbr
    exact ⟨q, harc, I.all q hq⟩
  obtain ⟨a, heq, hda, hn1, hn2⟩ := domStep_spec C W hfuel hb ch hex
  have hn1p : ∀ p ∈ post, Arc g p b → Anc dom r a p := fun p hp harc => hn1 p harc (I.all p hp)
  have hca : pi.getD (domPar dom b) 0 ≤ pi.getD a 0 := I.lb b hb hbr a hn1p
  have hU : Anc dom r a (domPar dom b) := by
    obtain ⟨q, hq, harc, _, h | ⟨_, h⟩⟩ := I.k2 b hb hbr (by omega)
    · exact Anc.total W h (hn1p q hq harc) hca
    · exact h a (hn1p q hq harc) hca
  have hab : pi.getD b 0 < pi.getD a 0 := by omega
  have W1 := W.set_wf C hb hbr hda hab
  have hshrink : ∀ {x v : Nat}, Anc (dom.set b (Int.ofNat a)) r x v → Anc dom r x v :=
    fun h => Anc.set_shrink hbl hbr hdb hU h
  have habove : ∀ {x v : Nat}, pi.getD b 0 < pi.getD v 0 →
      (Anc (dom.set b (Int.ofNat a)) r x v ↔ Anc dom r x v) :=
    fun h => Anc.set_above W hbl h
  have hterm : ∀ v ∈ post, pi.getD (domPar dom v) 0 ≤
      pi.getD (domPar (dom.set b (Int.ofNat a)) v) 0 := by
    intro v _
    by_cases e : b = v
    · subst e; rw [domPar_set_self a hbl]; exact hca
    · rw [domPar_set_ne _ e]
  refine ⟨_, _, heq, ?_, domPot_le hterm, ?_, ?_⟩
  · constructor
    · exact W1
    · intro v hv
      exact Dfn.set_of a hbl (I.all v hv)
    · exact I.sd.set_sd C W hb hex hn1 hn2
    · intro v hv hvr x hx
      have hx0 : ∀ p ∈ post, Arc g p v → Anc dom r x p := fun p hp harc => hshrink (hx p hp harc)
      by_cases e : b = v
      · subst e
        rw [domPar_set_self a hbl]
        exact (hn2 x (fun p harc hdp => hx0 p (W.inpost p hdp) harc)).pos_le W
      · rw [domPar_set_ne _ e]
        exact I.lb v hv hvr x hx0
    · intro v hv hvr hkv q hq harc hlt
      have hbq : pi.getD b 0 < pi.getD q 0 := by omega
      apply (habove hbq).mpr
      by_cases e : b = v
      · subst e
        rw [domPar_set_self a hbl]
        exact hn1p q hq harc
      · rw [domPar_set_ne _ e]
        have : pi.getD v 0 ≠ pi.getD b 0 := fun e2 => e (C.inj hb hv e2.symm)
        exact I.k3 v hv hvr (by omega) q hq harc hlt
    · intro v hv hvr hkv
      have e : b ≠ v := by
        intro e
        rw [e] at hpb
        omega
      rw [domPar_set_ne _ e]
      obtain ⟨q, hq, harc, hlt, h | ⟨hk1, h⟩⟩ := I.k2 v hv hvr (by omega)
      · refine ⟨q, hq, harc, hlt, ?_⟩
        rcases Anc.set_loss W hbl hbr hdb hU h with h3 | ⟨_, h4, _⟩
        · exact Or.inl h3
        · right
          have h5 := h4.pos_le W
          refine ⟨by omega, ?_⟩
          intro x hx hle
          exact (habove (by omega)).mpr (Anc.total W h (hshrink hx) hle)
      · refine ⟨q, hq, harc, hlt, Or.inr ⟨by omega, ?_⟩⟩
        intro x hx hle
        exact (habove (by omega)).mpr (h x (hshrink hx) hle)
  · intro hch1
    by_cases hch : ch = true
    · exact Or.inl hch
    · right
      have hdec : decide (dom.getD b (-1) ≠ Int.ofNat a) = true := by
        cases ch with
        | true => exact absurd rfl hch
        | false => simpa using hch1
      have hne : dom.getD b (-1) ≠ Int.ofNat a := of_decide_eq_true hdec
      rw [DomWf.getD_eq hdb] at hne
      have hne2 : domPar dom b ≠ a := fun e => hne (by rw [e])
      have hne3 : pi.getD (domPar dom b) 0 ≠ pi.getD a 0 :=
        fun e => hne2 (C.inj (W.inpost _ hpar.1) (W.inpost a hda) e)
      refine domPot_lt hterm ⟨b, hb, ?_⟩
      rw [domPar_set_self a hbl]
      omega
  · intro hch1
    have hch : ch = false := by
      cases ch with
      | true => simp at hch1
      | false => rfl
    have hdec : decide (dom.getD b (-1) ≠ Int.ofNat a) = false := by
      rw [hch] at hch1
      simpa using hch1
    have heq2 : dom.getD b (-1) = Int.ofNat a := by
      by_contra hc
      rw [decide_eq_true hc] at hdec
      cases hdec
    have hpa : domPar dom b = a := by
      rw [DomWf.getD_eq hdb] at heq2
      exact Int.ofNat_inj.mp heq2
    rw [← heq2, set_getD_self]
    intro v hv hvr hkv p hp harc
    by_cases e : b = v
    · subst e
      rw [hpa]
      exact hn1p p hp harc
    · have : pi.getD v 0 ≠ pi.getD b 0 := fun e2 => e (C.inj hb hv e2.symm)
      exact hfix hch v hv hvr (by omega) p hp harc

theorem PassInv.later_pass (C : DomCtx g tr post pi r) {fuel : Nat}
    (hfuel : 2 * post.length ≤ fuel) :
    ∀ (k : Nat) (dom : List Int) (ch : Bool), k < post.length →
      PassInv g post pi r k dom → (ch = false → DomFixed g post pi r k dom) →
      ∃ dom1 ch1, domPass tr pi fuel post k dom ch = .ok (dom1, ch1) ∧
        PassInv g post pi r 0 dom1 ∧ domPot post pi dom ≤ domPot post pi dom1 ∧
        (ch1 = true → ch = true ∨ domPot post pi dom < domPot post pi dom1) ∧
        (ch1 = false → DomFixed g post pi r 0 dom1) := by
  intro k
  induction k with
  | zero =>
    intro dom ch _ I hfix
    refine ⟨dom, ch, rfl, I, le_rfl, fun h => Or.inl h, hfix⟩
  | succ k ih =>
    intro dom ch hk I hfix
    obtain ⟨dom1, ch1, e1, I1, hp1, hc1, hf1⟩ := I.later_step C hfuel hk ch hfix
    obtain ⟨dom2, ch2, e2, I2, hp2, hc2, hf2⟩ := ih dom1 ch1 (by omega) I1 hf1
    refine ⟨dom2, ch2, ?_, I2, le_trans hp1 hp2, ?_, hf2⟩
    · unfold domPass
      rw [idx_of_lt (by omega : k < post.length) 0]
      simp only
      rw [e1]
      exact e2
    · intro h
      rcases hc2 h with h3 | h3
      · rcases hc1 h3 with h4 | h4
        · exact Or.inl h4
        · exact Or.inr (lt_of_lt_of_le h4 hp2)
      · exact Or.inr (lt_of_le_of_lt hp1 h3)

/-- The invariant at the end of a pass is the invariant at the start of the next. -/
theorem PassInv.restart (C : DomCtx g tr post pi r) {dom : List Int}
    (I : PassInv g post pi r 0 dom) : PassInv g post pi r (post.length - 1) dom := by
  constructor
  · exact I.wf
  · exact I.all
  · exact I.sd
  · exact I.lb
  · intro v hv hvr hkv
    have := C.pos_lt_root hv hvr
    omega
  · intro v hv hvr _
    obtain ⟨q, hq, harc, hlt⟩ := C.exists_later hv hvr
    exact ⟨q, hq, harc, hlt, Or.inl (I.k3 v hv hvr (Nat.zero_le _) q hq harc hlt)⟩

theorem domPot_bound (C : DomCtx g tr post pi r) {dom : List Int}
    (I : PassInv g post pi r 0 dom) : domPot post pi dom ≤ post.length * post.length := by
  unfold domPot
  have h := List.sum_le_card_nsmul (post.map (fun v => pi.getD (domPar dom v) 0)) post.length
    (by
      intro x hx
      obtain ⟨v, hv, e⟩ := List.mem_map.mp hx
      rw [← e]
      by_cases hvr : v = r
      · subst hvr
        have h1 : domPar dom v = v := by
          unfold domPar
          rw [I.wf.root]
          rfl
        rw [h1]
        exact le_of_lt (C.pos_lt hv)
      · exact le_of_lt (C.pos_lt (I.wf.inpost _ (I.wf.parent v (I.all v hv) hvr).1)))
  simpa using h

/-- The loop of passes stops, after a pass that changed nothing. -/
theorem domLoop_spec (C : DomCtx g tr post pi r) {fuel : Nat}
    (hfuel : 2 * post.length ≤ fuel) :
    ∀ (n : Nat) (dom : List Int), PassInv g post pi r 0 dom →
      post.length * post.length - domPot post pi dom + 1 ≤ n →
      ∃ dom1, domLoop tr pi fuel post n dom = .ok dom1 ∧ PassInv g post pi r 0 dom1 ∧
        DomFixed g post pi r 0 dom1 := by
  intro n
  induction n with
  | zero => intro dom _ h; omega
  | succ n ih =>
    intro dom I hn
    have hlen := C.length_pos
    have hfix : DomFixed g post pi r (post.length - 1) dom := by
      intro v hv hvr hkv
      have := C.pos_lt_root hv hvr
      omega
    obtain ⟨dom1, ch1, e1, I1, hp1, hc1, hf1⟩ :=
      PassInv.later_pass C hfuel (post.length - 1) dom false (by omega) (I.restart C) (fun _ => hfix)
    unfold domLoop
    rw [e1]
    simp only
    cases ch1 with
    | false =>
      exact ⟨dom1, by simp, I1, hf1 rfl⟩
    | true =>
      have hlt : domPot post pi dom < domPot post pi dom1 := by
        rcases hc1 rfl with h | h
        · cases h
        · exact h
      have hb := domPot_bound C I1
      obtain ⟨dom2, e2, I2, F2⟩ := ih dom1 I1 (by omega)
      exact ⟨dom2, by simpa using e2, I2, F2⟩

/-! ### The whole of `Doms` -/

theorem domPi_spec :
    ∀ (l : List Nat) (i : Nat) (pi0 : List Nat), l.Nodup → (∀ n ∈ l, n < pi0.length) →
      ∃ p, domPi l i pi0 = .ok p ∧ p.length = pi0.length ∧
        (∀ t < l.length, p.getD (l.getD t 0) 0 = i + t) ∧
        (∀ v, v ∉ l → p.getD v 0 = pi0.getD v 0) := by
  intro l
  induction l with
  | nil =>
    intro i pi0 _ _
    exact ⟨pi0, rfl, rfl, fun t ht => absurd ht (Nat.not_lt_zero t), fun _ _ => rfl⟩
  | cons n rest ih =>
    intro i pi0 hnd hlt
    have hn : n < pi0.length := hlt n (List.mem_cons_self _ _)
    have hnd2 := List.nodup_cons.mp hnd
    obtain ⟨p, e, hlen, hpos, hout⟩ := ih (i + 1) (pi0.set n i) hnd2.2
      (fun m hm => by rw [List.length_set]; exact hlt m (List.mem_cons_of_mem _ hm))
    refine ⟨p, ?_, ?_, ?_, ?_⟩
    · unfold domPi
      simp only [hn, if_true]
      exact e
    · rw [hlen, List.length_set]
    · intro t ht
      cases t with
      | zero =>
        rw [List.getD_cons_zero, hout n hnd2.1, getD_set_eq _ _ _ _ hn]
        rfl
      | succ t =>
        rw [List.getD_cons_succ, hpos t (by simpa using ht)]
        omega
    · intro v hv
      have hv1 : v ≠ n := fun e => hv (e ▸ List.mem_cons_self _ _)
      have hv2 : v ∉ rest := fun h => hv (List.mem_cons_of_mem _ h)
      rw [hout v hv2, getD_set_ne _ _ _ _ _ (Ne.symm hv1)]

theorem two_mul_le_sq_add_two (n : Nat) : 2 * n ≤ n * n + 2 := by
  nlinarith [sq_nonneg ((n : Int) - 1), Nat.zero_le n]

theorem DomCtx.of_pre {start : Nat} {p : List Nat} (htr : IsTranspose g tr)
    (hpost : PostOrdering g start post) (hlen : p.length = g.length)
    (hp : ∀ t < post.length, p.getD (post.getD t 0) 0 = t) : DomCtx g tr post p start := by
  obtain ⟨h1, h2, h3⟩ := htr
  obtain ⟨q1, q2, q3, q4⟩ := hpost
  constructor
  · exact h1
  · intro u v hv
    constructor
    · intro h
      exact h3 v (by omega) u h
    · intro h
      exact h2 u h.lt_left v h
  · exact hlen
  · exact hp
  · exact q1
  · exact q2
  · exact fun u hu => (q3 u hu).1
  · exact fun u hu v hv => (q3 u hu).2 v hv
  · exact q4

theorem FirstPassInv.initial (C : DomCtx g tr post pi r) :
    FirstPassInv g post pi r (post.length - 1)
      ((List.replicate g.length (-1 : Int)).set r (Int.ofNat r)) := by
  have hr : r < (List.replicate g.length (-1 : Int)).length := by
    rw [List.length_replicate]; exact C.range r C.root_mem
  have hrep : ∀ v, (List.replicate g.length (-1 : Int)).getD v (-1) = -1 := by
    intro v
    rw [List.getD_eq_getElem?_getD]
    by_cases h : v < g.length
    · simp [List.getElem?_replicate, h]
    · simp [List.getElem?_replicate, h]
  have hdef : ∀ v, Dfn ((List.replicate g.length (-1 : Int)).set r (Int.ofNat r)) v → v = r := by
    intro v hv
    by_contra hne
    rw [Dfn.set_ne _ (Ne.symm hne)] at hv
    unfold Dfn at hv
    rw [hrep v] at hv
    omega
  constructor
  · constructor
    · rw [List.length_set, List.length_replicate]
    · exact getD_set_eq _ _ _ _ hr
    · intro v hv
      rw [hdef v hv]
      exact C.root_mem
    · intro v hv hne
      exact absurd (hdef v hv) hne
  · intro v
    constructor
    · intro hv
      rw [hdef v hv]
      exact ⟨C.root_mem, by rw [C.root_pos]⟩
    · rintro ⟨hv, hk⟩
      have : v = r := by
        by_contra hne
        have := C.pos_lt_root hv hne
        omega
      rw [this]
      exact Dfn.dfn_set_self r hr
  · intro v hv hne
    exact absurd (hdef v hv) hne
  · intro v hv hne hk
    have := C.pos_lt_root hv hne
    omega

/-- Under its preconditions `Doms` returns, and what it returns is the state of a
pass that changed nothing. -/
theorem Doms_spec {start fuel : Nat} (htr : IsTranspose g tr)
    (hpost : PostOrdering g start post) (hfuel : post.length * post.length + 2 ≤ fuel) :
    ∃ imm p, Doms fuel g tr post = .ok imm ∧ DomCtx g tr post p start ∧
      PassInv g post p start 0 imm ∧ DomFixed g post p start 0 imm := by
  obtain ⟨p, ep, hplen, hppos, _⟩ := domPi_spec post 0 (List.replicate g.length 0) hpost.1
    (fun n hn => by rw [List.length_replicate]; exact (hpost.2.2.1 n hn).1)
  rw [List.length_replicate] at hplen
  have C : DomCtx g tr post p start :=
    DomCtx.of_pre htr hpost hplen (fun t ht => by rw [hppos t ht, Nat.zero_add])
  have hlen := C.length_pos
  have h2 := two_mul_le_sq_add_two post.length
  have hf2 : 2 * post.length ≤ fuel := by omega
  obtain ⟨dom1, ch1, e1, I1, hc1⟩ := FirstPassInv.first_pass C hf2 (post.length - 1) _ false
    (by omega) (FirstPassInv.initial C)
  have P1 := I1.toPassInv
  have hstart : start < g.length := C.range start C.root_mem
  obtain ⟨n, hn⟩ : ∃ n, fuel = n + 1 := ⟨fuel - 1, by omega⟩
  have hres : ∃ imm, domLoop tr p fuel post (n + 1)
      ((List.replicate g.length (-1 : Int)).set start (Int.ofNat start)) = .ok imm ∧
      PassInv g post p start 0 imm ∧ DomFixed g post p start 0 imm := by
    unfold domLoop
    rw [e1]
    simp only
    cases ch1 with
    | false =>
      refine ⟨dom1, by simp, P1, ?_⟩
      intro v hv hvr _
      have := C.pos_lt_root hv hvr
      have h0 : ¬ 0 < post.length - 1 := by
        intro h
        have := hc1 (Or.inr h)
        cases this
      omega
    | true =>
      have hb := domPot_bound C P1
      obtain ⟨dom2, e2, I2, F2⟩ := domLoop_spec C hf2 n dom1 P1 (by omega)
      exact ⟨dom2, by simpa using e2, I2, F2⟩
  obtain ⟨imm, e, I, F⟩ := hres
  refine ⟨imm, p, ?_, C, I, F⟩
  unfold Doms
  rw [ep]
  simp only
  rw [C.last]
  simp only [hstart, if_true]
  rw [hn]
  rw [hn] at e
  exact e

end DomsPasses

section DomsFrame

variable {g tr : AdjacencyList} {post pi : List Nat} {r : Nat}

/-! ### What a pass leaves unchanged -/

/-- One step stores into the entry of `b` only, and reports a change exactly when it
stored a different value. -/
theorem domStep_tail {pi : List Nat} {fuel b : Nat} {dom : List Int} {ch : Bool}
    {res : List Int × Bool} (l : List Nat) (im0 : Int)
    (h : (match domFold dom pi fuel l im0 with
      | .error e => .error e
      | .ok im =>
        match idx dom b with
        | .error e => .error e
        | .ok d => if d ≠ im then .ok (dom.set b im, true) else .ok (dom, ch)) =
      (.ok res : Except Fault (List Int × Bool))) :
    res.1.length = dom.length ∧ (∀ v d, v ≠ b → res.1.getD v d = dom.getD v d) ∧
      (res.2 = false → res.1 = dom ∧ ch = false) ∧ (ch = true → res.2 = true) := by
  cases h3 : domFold dom pi fuel l im0 with
  | error e => rw [h3] at h; cases h
  | ok im =>
    rw [h3] at h
    simp only at h
    cases h4 : idx dom b with
    | error e => rw [h4] at h; cases h
    | ok d0 =>
      rw [h4] at h
      simp only at h
      by_cases hd : d0 = im
      · simp only [hd, ne_eq, not_true_eq_false, if_false] at h
        injection h with h
        subst h
        exact ⟨rfl, fun _ _ _ => rfl, fun hc => ⟨rfl, hc⟩, fun hc => hc⟩
      · simp only [hd, ne_eq, not_false_eq_true, if_true] at h
        injection h with h
        subst h
        refine ⟨List.length_set _ _ _, fun v d hv => getD_set_ne _ _ _ _ _ (Ne.symm hv), ?_,
          fun _ => rfl⟩
        intro hc
        cases hc

/-- One step stores into the entry of `b` only, and reports a change exactly when it
stored a different value. -/
theorem domStep_frame {fuel b : Nat} {dom : List Int} {ch : Bool} {res : List Int × Bool}
    (h : domStep tr pi fuel b dom ch = .ok res) :
    res.1.length = dom.length ∧ (∀ v d, v ≠ b → res.1.getD v d = dom.getD v d) ∧
      (res.2 = false → res.1 = dom ∧ ch = false) ∧ (ch = true → res.2 = true) := by
  unfold domStep at h
  cases h1 : idx tr b with
  | error e => rw [h1] at h; cases h
  | ok fr =>
    rw [h1] at h
    simp only at h
    cases h2 : domFirst dom fr 0 with
    | error e => rw [h2] at h; cases h
    | ok jo =>
      rw [h2] at h
      simp only at h
      exact domStep_tail _ _ h

theorem domPass_frame {fuel : Nat} :
    ∀ (k : Nat) (dom : List Int) (ch : Bool) (res : List Int × Bool),
      domPass tr pi fuel post k dom ch = .ok res →
      res.1.length = dom.length ∧ (∀ v d, v ∉ post → res.1.getD v d = dom.getD v d) ∧
        (res.2 = false → res.1 = dom ∧ ch = false) ∧ (ch = true → res.2 = true) := by
  intro k
  induction k with
  | zero =>
    intro dom ch res h
    simp only [domPass] at h
    injection h with h
    subst h
    exact ⟨rfl, fun _ _ _ => rfl, fun hc => ⟨rfl, hc⟩, fun hc => hc⟩
  | succ k ih =>
    intro dom ch res h
    unfold domPass at h
    cases h1 : idx post k with
    | error e => rw [h1] at h; cases h
    | ok b =>
      rw [h1] at h
      simp only at h
      have hb : b ∈ post := by
        obtain ⟨hk, hg⟩ := idx_ok h1
        rw [← hg 0]
        exact getD_mem_of_lt hk
      cases h2 : domStep tr pi fuel b dom ch with
      | error e => rw [h2] at h; cases h
      | ok r1 =>
        rw [h2] at h
        simp only at h
        obtain ⟨a1, a2, a3, a4⟩ := domStep_frame h2
        obtain ⟨b1, b2, b3, b4⟩ := ih r1.1 r1.2 res h
        refine ⟨by rw [b1, a1], ?_, ?_, fun hc => b4 (a4 hc)⟩
        · intro v d hv
          rw [b2 v d hv, a2 v d (fun e => hv (e ▸ hb))]
        · intro hc
          obtain ⟨e1, e2⟩ := b3 hc
          obtain ⟨e3, e4⟩ := a3 e2
          exact ⟨by rw [e1, e3], e4⟩

/-- The result of the loop of passes is unchanged by one more pass. -/
theorem domLoop_frame {fuel : Nat} :
    ∀ (n : Nat) (dom imm : List Int), domLoop tr pi fuel post n dom = .ok imm →
      imm.length = dom.length ∧ (∀ v d, v ∉ post → imm.getD v d = dom.getD v d) ∧
        domPass tr pi fuel post (post.length - 1) imm false = .ok (imm, false) := by
  intro n
  induction n with
  | zero => intro dom imm h; cases h
  | succ n ih =>
    intro dom imm h
    unfold domLoop at h
    cases h1 : domPass tr pi fuel post (post.length - 1) dom false with
    | error e => rw [h1] at h; cases h
    | ok r1 =>
      rw [h1] at h
      simp only at h
      obtain ⟨a1, a2, a3, _⟩ := domPass_frame _ _ _ _ h1
      cases h2 : r1.2 with
      | true =>
        rw [h2] at h
        simp only [if_true] at h
        obtain ⟨b1, b2, b3⟩ := ih r1.1 imm h
        exact ⟨by rw [b1, a1], fun v d hv => by rw [b2 v d hv, a2 v d hv], b3⟩
      | false =>
        rw [h2] at h
        simp only [Bool.false_eq_true, if_false] at h
        injection h with h
        subst h
        obtain ⟨e1, _⟩ := a3 h2
        refine ⟨a1, a2, ?_⟩
        rw [e1, h1]
        congr 1
        exact Prod.ext e1 h2

/-- What `Doms` returns has the length of `g`, holds `-1` at the nodes that are not
in `post`, and is unchanged by one more pass. -/
theorem Doms_frame {fuel : Nat} {imm : List Int} (h : Doms fuel g tr post = .ok imm) :
    imm.length = g.length ∧ (∀ m, m < g.length → m ∉ post → imm.getD m 0 = -1) ∧
      ∃ p, domPi post 0 (List.replicate g.length 0) = .ok p ∧
        domPass tr p fuel post (post.length - 1) imm false = .ok (imm, false) := by
  unfold Doms at h
  cases h1 : domPi post 0 (List.replicate g.length 0) with
  | error e => rw [h1] at h; cases h
  | ok p =>
    rw [h1] at h
    simp only at h
    cases h2 : post.getLast? with
    | none => rw [h2] at h; cases h
    | some start =>
      rw [h2] at h
      simp only at h
      by_cases hs : start < g.length
      · simp only [hs, if_true] at h
        obtain ⟨a1, a2, a3⟩ := domLoop_frame _ _ _ h
        have hmem : start ∈ post := List.mem_of_getLast?_eq_some h2
        refine ⟨by rw [a1, List.length_set, List.length_replicate], ?_, p, rfl, a3⟩
        intro m hm hmp
        rw [a2 m 0 hmp, getD_set_ne _ _ _ _ _ (fun e => hmp (by rw [← e]; exact hmem)),
          List.getD_eq_getElem _ _ (by rw [List.length_replicate]; exact hm)]
        simp
      · simp only [hs, if_false] at h
        cases h

/-! ### Following the entries -/

theorem Anc.iterate {dom : List Int} {x v : Nat} (h : Anc dom r x v) :
    ∃ k, Nat.iterate (domPar dom) k v = x := by
  induction h with
  | self _ => exact ⟨0, rfl⟩
  | @up v _ _ _ ih =>
    obtain ⟨k, hk⟩ := ih
    exact ⟨k + 1, by rw [Function.iterate_succ_apply]; exact hk⟩

theorem domPar_root {dom : List Int} (W : DomWf g post pi r dom) : domPar dom r = r := by
  unfold domPar
  rw [W.root]
  rfl

theorem iterate_root {dom : List Int} (W : DomWf g post pi r dom) (k : Nat) :
    Nat.iterate (domPar dom) k r = r :=
  Function.iterate_fixed (domPar_root W) k

/-- Following the entries from a node other than `r` never comes back to the node. -/
theorem iterate_pos_lt {dom : List Int} (W : DomWf g post pi r dom) :
    ∀ (k : Nat) (v : Nat), Dfn dom v → v ≠ r →
      pi.getD v 0 < pi.getD (Nat.iterate (domPar dom) (k + 1) v) 0 := by
  intro k
  induction k with
  | zero =>
    intro v hd hne
    exact (W.parent v hd hne).2
  | succ k ih =>
    intro v hd hne
    rw [Function.iterate_succ_apply]
    have hp := W.parent v hd hne
    by_cases e : domPar dom v = r
    · rw [e, iterate_root W, ← e]
      exact hp.2
    · exact lt_trans hp.2 (ih _ hp.1 e)

/-! ### The result does not depend on the postordering -/

theorem getD_reverse_nat {xs : List Nat} {i : Nat} (hi : i < xs.length) :
    xs.reverse.getD i 0 = xs.getD (xs.length - 1 - i) 0 := by
  rw [List.getD_eq_getElem _ _ (by rw [List.length_reverse]; exact hi),
    List.getD_eq_getElem _ _ (by omega), List.getElem_reverse]

/-- The reverse of a visiting order is a postordering. -/
theorem VisitOrder.reverse_post {start : Nat} {order : List Nat}
    (h : VisitOrder g start order) : PostOrdering g start order.reverse := by
  obtain ⟨h1, h2, h3, h4⟩ := h
  refine ⟨List.nodup_reverse.mpr h1, ?_, ?_, ?_⟩
  · rw [List.getLast?_reverse]; exact h2
  · intro u hu
    have := h3 u (List.mem_reverse.mp hu)
    exact ⟨this.1, fun v hv => List.mem_reverse.mpr (this.2 v hv)⟩
  · intro i hi
    rw [List.length_reverse] at hi ⊢
    obtain ⟨j, hj, harc⟩ := h4 (order.length - 1 - i) (by omega) (by omega)
    refine ⟨order.length - 1 - j, by omega, by omega, ?_⟩
    rw [getD_reverse_nat (by omega), getD_reverse_nat (by omega)]
    have e : order.length - 1 - (order.length - 1 - j) = j := by omega
    rw [e]
    exact harc

theorem list_ext_getD {l1 l2 : List Int} (hlen : l1.length = l2.length)
    (h : ∀ i, i < l1.length → l1.getD i 0 = l2.getD i 0) : l1 = l2 := by
  apply List.ext_getElem hlen
  intro i h1 h2
  have := h i h1
  rw [List.getD_eq_getElem _ _ h1, List.getD_eq_getElem _ _ h2] at this
  exact this

theorem getD_default_irrel {l : List Int} {i : Nat} (hi : i < l.length) (d1 d2 : Int) :
    l.getD i d1 = l.getD i d2 := by
  rw [List.getD_eq_getElem _ _ hi, List.getD_eq_getElem _ _ hi]

theorem nodup_length_le {g : AdjacencyList} {start : Nat} {post : List Nat}
    (h : PostOrdering g start post) : post.length ≤ g.length := by
  have hsub : post ⊆ List.range g.length :=
    fun v hv => List.mem_range.mpr (h.2.2.1 v hv).1
  have := (List.subperm_of_subset h.1 hsub).length_le
  simpa using this

theorem sq_fuel_le {a b fuel : Nat} (hab : a ≤ b) (h : b * b + 2 ≤ fuel) :
    a * a + 2 ≤ fuel := by
  have := Nat.mul_le_mul hab hab
  omega

/-- With two postorderings from the same node `Doms` returns the same slice. -/
theorem Doms_unique {start f1 f2 : Nat} {p1 p2 : List Nat} (htr : IsTranspose g tr)
    (h1 : PostOrdering g start p1) (h2 : PostOrdering g start p2)
    (hf1 : p1.length * p1.length + 2 ≤ f1) (hf2 : p2.length * p2.length + 2 ≤ f2) :
    Doms f1 g tr p1 = Doms f2 g tr p2 := by
  obtain ⟨imm1, q1, e1, C1, I1, F1⟩ := Doms_spec htr h1 hf1
  obtain ⟨imm2, q2, e2, C2, I2, F2⟩ := Doms_spec htr h2 hf2
  obtain ⟨l1, m1, _⟩ := Doms_frame e1
  obtain ⟨l2, m2, _⟩ := Doms_frame e2
  rw [e1, e2]
  congr 1
  apply list_ext_getD (by rw [l1, l2])
  intro i hi
  rw [l1] at hi
  by_cases hp : i ∈ p1
  · have hr : Reach g start i := C1.reach_of_mem p1.length i hp (by omega)
    have hp2 : i ∈ p2 := C2.mem_of_reach hr
    by_cases hs : i = start
    · rw [hs, getD_default_irrel (by rw [l1]; exact hs ▸ hi) 0 (-1), I1.wf.root,
        getD_default_irrel (by rw [l2]; exact hs ▸ hi) 0 (-1), I2.wf.root]
    · obtain ⟨d1, a1, b1, c1, u1⟩ := I1.immediate C1 F1 hp hs
      obtain ⟨d2, a2, b2, c2, u2⟩ := I2.immediate C2 F2 hp2 hs
      rw [getD_default_irrel (by rw [l1]; exact hi) 0 (-1), a1,
        getD_default_irrel (by rw [l2]; exact hi) 0 (-1), a2]
      have hd1 : Dfn imm1 d1 := by
        have := (I1.wf.parent i (I1.all i hp) hs).1
        have e : domPar imm1 i = d1 := by
          have := DomWf.getD_eq (I1.all i hp)
          rw [a1] at this
          exact (Int.ofNat_inj.mp this).symm
        rw [← e]; exact this
      have hd2 : Dfn imm2 d2 := by
        have := (I2.wf.parent i (I2.all i hp2) hs).1
        have e : domPar imm2 i = d2 := by
          have := DomWf.getD_eq (I2.all i hp2)
          rw [a2] at this
          exact (Int.ofNat_inj.mp this).symm
        rw [← e]; exact this
      have hd21 : Dfn imm1 d2 :=
        I1.all d2 (C1.mem_of_reach (C2.reach_of_mem p2.length d2 (I2.wf.inpost d2 hd2) (by omega)))
      have x1 := I1.sd.anc C1 I1.wf p1.length d1 d2 hd1 (by omega) (u1 d2 b2 c2)
      have x2 := I1.sd.anc C1 I1.wf p1.length d2 d1 hd21 (by omega) (u2 d1 b1 c1)
      have := x1.eq_of_pos_le I1.wf (x2.pos_le I1.wf)
      rw [this]
  · have hp2 : i ∉ p2 := fun h => hp (C1.mem_of_reach (C2.reach_of_mem p2.length i h (by omega)))
    rw [m1 i hi hp, m2 i hi hp2]

/-- Under its preconditions `Doms` returns, with the positions `p` that its first
loop computes. -/
theorem Doms_spec_pi {start fuel : Nat} (htr : IsTranspose g tr)
    (hpost : PostOrdering g start post) (hfuel : post.length * post.length + 2 ≤ fuel) :
    ∃ imm p, domPi post 0 (List.replicate g.length 0) = .ok p ∧
      Doms fuel g tr post = .ok imm ∧ DomCtx g tr post p start ∧
      PassInv g post p start 0 imm ∧ DomFixed g post p start 0 imm := by
  obtain ⟨p, ep, hplen, hppos, _⟩ := domPi_spec post 0 (List.replicate g.length 0) hpost.1
    (fun n hn => by rw [List.length_replicate]; exact (hpost.2.2.1 n hn).1)
  rw [List.length_replicate] at hplen
  have C : DomCtx g tr post p start :=
    DomCtx.of_pre htr hpost hplen (fun t ht => by rw [hppos t ht, Nat.zero_add])
  have hlen := C.length_pos
  have h2 := two_mul_le_sq_add_two post.length
  have hf2 : 2 * post.length ≤ fuel := by omega
  obtain ⟨dom1, ch1, e1, I1, hc1⟩ := FirstPassInv.first_pass C hf2 (post.length - 1) _ false
    (by omega) (FirstPassInv.initial C)
  have P1 := I1.toPassInv
  have hstart : start < g.length := C.range start C.root_mem
  obtain ⟨n, hn⟩ : ∃ n, fuel = n + 1 := ⟨fuel - 1, by omega⟩
  have hres : ∃ imm, domLoop tr p fuel post (n + 1)
      ((List.replicate g.length (-1 : Int)).set start (Int.ofNat start)) = .ok imm ∧
      PassInv g post p start 0 imm ∧ DomFixed g post p start 0 imm := by
    unfold domLoop
    rw [e1]
    simp only
    cases ch1 with
    | false =>
      refine ⟨dom1, by simp, P1, ?_⟩
      intro v hv hvr _
      have := C.pos_lt_root hv hvr
      have h0 : ¬ 0 < post.length - 1 := by
        intro h
        have := hc1 (Or.inr h)
        cases this
      omega
    | true =>
      have hb := domPot_bound C P1
      obtain ⟨dom2, e2, I2, F2⟩ := domLoop_spec C hf2 n dom1 P1 (by omega)
      exact ⟨dom2, by simpa using e2, I2, F2⟩
  obtain ⟨imm, e, I, F⟩ := hres
  refine ⟨imm, p, ep, ?_, C, I, F⟩
  unfold Doms
  rw [ep]
  simp only
  rw [C.last]
  simp only [hstart, if_true]
  rw [hn]
  rw [hn] at e
  exact e


end DomsFrame

/-! ## Transpose, breadth-first search, `Dominators` and `PostDominators` -/

theorem Transpose_length (g : AdjacencyList) : (Transpose g).length = g.length := by
  simp [Transpose]

theorem mem_Transpose {g : AdjacencyList} {u v : Nat} (hv : v < g.length) :
    u ∈ (Transpose g).getD v [] ↔ u < g.length ∧ v ∈ g.getD u [] := by
  rw [List.getD_eq_getElem _ _ (by rw [Transpose_length]; exact hv)]
  simp only [Transpose, List.getElem_map, List.getElem_range, List.mem_flatten, List.mem_map,
    List.mem_range]
  constructor
  · rintro ⟨l, ⟨a, ha, rfl⟩, hu⟩
    obtain ⟨w, hw, rfl⟩ := List.mem_map.mp hu
    have := List.mem_filter.mp hw
    have e : w = v := of_decide_eq_true this.2
    exact ⟨ha, e ▸ this.1⟩
  · rintro ⟨hu, hmem⟩
    refine ⟨_, ⟨u, hu, rfl⟩, ?_⟩
    exact List.mem_map.mpr ⟨v, List.mem_filter.mpr ⟨hmem, decide_eq_true rfl⟩, rfl⟩

theorem Arc_Transpose {g : AdjacencyList} (hg : InRange g) {u v : Nat} :
    Arc (Transpose g) v u ↔ Arc g u v := by
  unfold Arc
  constructor
  · intro h
    have hv : v < g.length := by
      have := Arc.lt_left (g := Transpose g) h
      rw [Transpose_length] at this
      exact this
    exact ((mem_Transpose hv).mp h).2
  · intro h
    have hu : u < g.length := Arc.lt_left (g := g) h
    have hv : v < g.length := Arc.lt_right hg h
    exact (mem_Transpose hv).mpr ⟨hu, h⟩

theorem InRange_Transpose (g : AdjacencyList) : InRange (Transpose g) := by
  intro nbs hn u hu
  obtain ⟨v, hv, e⟩ := List.mem_iff_getElem.mp hn
  rw [Transpose_length] at hv ⊢
  have h2 : u ∈ (Transpose g).getD v [] := by
    rw [List.getD_eq_getElem _ _ (by rw [Transpose_length]; exact hv), e]
    exact hu
  exact ((mem_Transpose hv).mp h2).1

theorem IsTranspose_Transpose {g : AdjacencyList} (hg : InRange g) :
    IsTranspose g (Transpose g) := by
  refine ⟨Transpose_length g, ?_, ?_⟩
  · intro u _ v hv
    exact (Arc_Transpose hg).mpr hv
  · intro v _ u hu
    exact (Arc_Transpose hg).mp hu

theorem IsTranspose_symm {g : AdjacencyList} (hg : InRange g) :
    IsTranspose (Transpose g) g := by
  refine ⟨(Transpose_length g).symm, ?_, ?_⟩
  · intro u _ v hv
    exact (Arc_Transpose hg).mp hv
  · intro v _ u hu
    exact (Arc_Transpose hg).mpr hu

/-! ### Breadth-first search -/

theorem bfsFresh_spec :
    ∀ (vs seen : List Nat), seen.Nodup →
      (seen ++ bfsFresh vs seen).Nodup ∧ (∀ v ∈ vs, v ∈ seen ++ bfsFresh vs seen) ∧
        (∀ x ∈ bfsFresh vs seen, x ∈ vs) := by
  intro vs
  induction vs with
  | nil =>
    intro seen h
    simp only [bfsFresh, List.append_nil]
    exact ⟨h, fun v hv => absurd hv (List.not_mem_nil v), fun x hx => absurd hx (List.not_mem_nil x)⟩
  | cons v vs ih =>
    intro seen h
    unfold bfsFresh
    by_cases hv : v ∈ seen
    · simp only [hv, if_true]
      obtain ⟨a, b, c⟩ := ih seen h
      refine ⟨a, ?_, fun x hx => List.mem_cons_of_mem _ (c x hx)⟩
      intro w hw
      rcases List.mem_cons.mp hw with e | e
      · rw [e]; exact List.mem_append_left _ hv
      · exact b w e
    · simp only [hv, if_false]
      have h2 : (seen ++ [v]).Nodup := by
        rw [List.nodup_append]
        refine ⟨h, List.nodup_singleton v, ?_⟩
        intro a ha hb
        rw [List.mem_singleton] at hb
        exact hv (hb ▸ ha)
      obtain ⟨a, b, c⟩ := ih (seen ++ [v]) h2
      rw [List.append_assoc, List.singleton_append] at a b
      refine ⟨a, ?_, ?_⟩
      · intro w hw
        rcases List.mem_cons.mp hw with e | e
        · rw [e]; exact List.mem_append_right _ (List.mem_cons_self _ _)
        · exact b w e
      · intro x hx
        rcases List.mem_cons.mp hx with e | e
        · rw [e]; exact List.mem_cons_self _ _
        · exact List.mem_cons_of_mem _ (c x e)

theorem nodup_range_length_le {n : Nat} {l : List Nat} (hnd : l.Nodup)
    (h : ∀ v ∈ l, v < n) : l.length ≤ n := by
  have hsub : l ⊆ List.range n := fun v hv => List.mem_range.mpr (h v hv)
  have := (List.subperm_of_subset hnd hsub).length_le
  simpa using this

theorem getD_append_left_nat {l1 l2 : List Nat} {i : Nat} (h : i < l1.length) :
    (l1 ++ l2).getD i 0 = l1.getD i 0 := by
  rw [List.getD_eq_getElem?_getD, List.getD_eq_getElem?_getD, List.getElem?_append_left h]

theorem BfsInv.step {g : AdjacencyList} (hg : InRange g) {start u : Nat}
    {queue seen : List Nat} (I : BfsInv g start (u :: queue) seen) :
    BfsInv g start (queue ++ bfsFresh (g.getD u []) seen)
      (seen ++ bfsFresh (g.getD u []) seen) := by
  obtain ⟨a, b, c⟩ := bfsFresh_spec (g.getD u []) seen I.nodup
  have hu : u ∈ seen := I.sub u (List.mem_cons_self _ _)
  have hul : u < g.length := I.range u hu
  constructor
  · exact a
  · intro v hv
    rcases List.mem_append.mp hv with h | h
    · exact I.range v h
    · exact hg _ (getD_mem hul) v (c v h)
  · intro w hw
    rcases List.mem_append.mp hw with h | h
    · exact List.mem_append_left _ (I.sub w (List.mem_cons_of_mem _ h))
    · exact List.mem_append_right _ h
  · have hne : seen ≠ [] := List.ne_nil_of_mem hu
    rw [List.head?_append_of_ne_nil _ hne]
    exact I.head
  · intro w hw hwq v hv
    have hw1 : w ∈ seen := by
      rcases List.mem_append.mp hw with h | h
      · exact h
      · exact absurd (List.mem_append_right _ h) hwq
    by_cases e : w = u
    · rw [e] at hv
      exact b v hv
    · have : w ∉ u :: queue := by
        intro h
        rcases List.mem_cons.mp h with h | h
        · exact e h
        · exact hwq (List.mem_append_left _ h)
      exact List.mem_append_left _ (I.closed w hw1 this v hv)
  · intro i hi hpos
    by_cases hlt : i < seen.length
    · obtain ⟨j, hj, harc⟩ := I.pred i hlt hpos
      refine ⟨j, hj, ?_⟩
      rw [getD_append_left_nat hlt, getD_append_left_nat (by omega)]
      exact harc
    · have hx : (seen ++ bfsFresh (g.getD u []) seen).getD i 0 ∈ bfsFresh (g.getD u []) seen := by
        rw [List.getD_eq_getElem _ _ hi, List.getElem_append_right (by omega)]
        exact List.getElem_mem _
      obtain ⟨j, hj, ej⟩ := mem_iff_getD.mp hu
      refine ⟨j, by omega, ?_⟩
      rw [getD_append_left_nat hj, ej]
      exact c _ hx

theorem bfsLoop_inv {g : AdjacencyList} (hg : InRange g) {start : Nat} :
    ∀ (fuel : Nat) (queue seen : List Nat), BfsInv g start queue seen →
      queue.length + (g.length - seen.length) ≤ fuel →
      BfsInv g start [] (bfsLoop g fuel queue seen) := by
  intro fuel
  induction fuel with
  | zero =>
    intro queue seen I h
    have : queue = [] := List.eq_nil_of_length_eq_zero (by omega)
    subst this
    exact I
  | succ fuel ih =>
    intro queue seen I h
    cases queue with
    | nil => exact I
    | cons u queue =>
      unfold bfsLoop
      have I2 := I.step hg
      have hlen := nodup_range_length_le I2.nodup I2.range
      apply ih _ _ I2
      simp only [List.length_append, List.length_cons] at h hlen ⊢
      omega

/-- The breadth-first search visits the nodes in a visiting order. -/
theorem BreadthFirst_visit {g : AdjacencyList} (hg : InRange g) {start : Nat}
    (hs : start < g.length) : VisitOrder g start (BreadthFirst g start) := by
  have I0 : BfsInv g start [start] [start] := by
    constructor
    · exact List.nodup_singleton _
    · intro v hv; rw [List.mem_singleton.mp hv]; exact hs
    · intro u hu; exact hu
    · rfl
    · intro u hu hn; exact absurd hu hn
    · intro i hi hpos
      simp at hi
      omega
  have I := bfsLoop_inv hg g.length [start] [start] I0 (by simp; omega)
  exact ⟨I.nodup, I.head,
    fun u hu => ⟨I.range u hu, I.closed u hu (List.not_mem_nil u)⟩, I.pred⟩

/-! ### Paths in the transpose -/

theorem Walk.cons_front {g : AdjacencyList} {a b v : Nat} {l : List Nat} (harc : Arc g a b)
    (h : Walk g b v l) : Walk g a v (l ++ [a]) := by
  induction h with
  | base => exact Walk.step Walk.base harc
  | step _ h2 ih => exact Walk.step ih h2

/-- A walk of a graph, read backwards, is a walk of a graph with the reversed
arcs. -/
theorem Walk.reverse_of {g h : AdjacencyList} (harc : ∀ u v, Arc h u v → Arc g v u)
    {s v : Nat} {l : List Nat} (hw : Walk h s v l) : Walk g v s l.reverse := by
  induction hw with
  | base => exact Walk.base
  | step _ h2 ih =>
    rw [List.reverse_cons]
    exact Walk.cons_front (harc _ _ h2) ih

theorem Dominates_Transpose {g : AdjacencyList} (hg : InRange g) (e d v : Nat) :
    Dominates (Transpose g) e d v ↔ PostDominates g e d v := by
  constructor
  · intro h l hl
    have := h l.reverse (Walk.reverse_of (fun u v hv => (Arc_Transpose hg).mpr hv) hl)
    exact List.mem_reverse.mp this
  · intro h l hl
    have := h l.reverse (Walk.reverse_of (fun u v hv => (Arc_Transpose hg).mp hv) hl)
    exact List.mem_reverse.mp this

theorem Reach_Transpose {g : AdjacencyList} (hg : InRange g) (u v : Nat) :
    Reach (Transpose g) u v ↔ Reach g v u := by
  constructor
  · intro h
    induction h with
    | refl => exact Reach.refl _ _
    | tail _ harc ih => exact Reach.trans ((Arc_Transpose hg).mp harc).reach ih
  · intro h
    induction h with
    | refl => exact Reach.refl _ _
    | tail _ harc ih => exact Reach.trans ((Arc_Transpose hg).mpr harc).reach ih

/-! ### `Dominators` and `PostDominators` -/

theorem Dominators_post {g : AdjacencyList} (hg : InRange g) {start : Nat}
    (hs : start < g.length) : PostOrdering g start (BreadthFirst g start).reverse :=
  (BreadthFirst_visit hg hs).reverse_post

theorem mem_BreadthFirst {g : AdjacencyList} (hg : InRange g) {start : Nat}
    (hs : start < g.length) (v : Nat) : v ∈ BreadthFirst g start ↔ Reach g start v := by
  obtain ⟨imm, p, _, C, _, _⟩ := Doms_spec (IsTranspose_Transpose hg) (Dominators_post hg hs)
    (le_refl _)
  rw [← List.mem_reverse]
  exact ⟨fun h => C.reach_of_mem _ v h (le_refl _), C.mem_of_reach⟩

/-- `Dominators` returns, with the invariants of `Doms`. -/
theorem Dominators_spec {g : AdjacencyList} (hg : InRange g) {start fuel : Nat}
    (hs : start < g.length) (hfuel : g.length * g.length + 2 ≤ fuel) :
    ∃ imm p, Dominators fuel g start = .ok imm ∧
      DomCtx g (Transpose g) (BreadthFirst g start).reverse p start ∧
      PassInv g (BreadthFirst g start).reverse p start 0 imm ∧
      DomFixed g (BreadthFirst g start).reverse p start 0 imm :=
  Doms_spec (IsTranspose_Transpose hg) (Dominators_post hg hs)
    (sq_fuel_le (nodup_length_le (Dominators_post hg hs)) hfuel)

section Frontiers

variable {g tr : AdjacencyList} {post pi : List Nat} {r : Nat}

/-! ## Dominance frontiers -/

theorem FrontierWf.frontier_initial (im : List Int) : FrontierWf im (frontierInit im) := by
  refine ⟨by simp [frontierInit], ?_⟩
  intro a
  unfold frontierInit Dfn
  by_cases ha : a < im.length
  · rw [List.getD_eq_getElem _ _ (by rw [List.length_map]; exact ha), List.getElem_map,
      List.getD_eq_getElem _ _ ha]
    by_cases h0 : 0 ≤ im[a]
    · simp [h0]
    · simp [h0]
  · rw [List.getD_eq_default _ _ (by rw [List.length_map]; omega),
      List.getD_eq_default _ _ (by omega)]
    simp

theorem FMem_initial (im : List Int) (a y : Nat) : ¬ FMem (frontierInit im) a y := by
  rintro ⟨s, hs, hy⟩
  unfold frontierInit at hs
  by_cases ha : a < im.length
  · rw [List.getD_eq_getElem _ _ (by rw [List.length_map]; exact ha), List.getElem_map] at hs
    by_cases h0 : 0 ≤ im[a]
    · simp only [h0, if_true] at hs
      injection hs with hs
      rw [← hs] at hy
      exact absurd hy (List.not_mem_nil y)
    · simp only [h0, if_false] at hs
      cases hs
  · rw [List.getD_eq_default _ _ (by rw [List.length_map]; omega)] at hs
    cases hs

theorem getD_set_opt_eq (f : DominanceFrontiers) (x : Nat) (v : Option (List Nat))
    (h : x < f.length) : (f.set x v).getD x none = v := by
  rw [List.getD_eq_getElem?_getD, List.getElem?_set]
  simp [h]

theorem getD_set_opt_ne (f : DominanceFrontiers) (x a : Nat) (v : Option (List Nat))
    (h : x ≠ a) : (f.set x v).getD a none = f.getD a none := by
  rw [List.getD_eq_getElem?_getD, List.getD_eq_getElem?_getD, List.getElem?_set]
  simp [h]

/-- Storing `b` into the set of `x`. -/
theorem FMem_store {f : DominanceFrontiers} {x b : Nat} {s : List Nat} (hx : x < f.length)
    (hs : f.getD x none = some s) (a y : Nat) :
    FMem (f.set x (some (if b ∈ s then s else s ++ [b]))) a y ↔
      FMem f a y ∨ (a = x ∧ y = b) := by
  unfold FMem
  by_cases e : x = a
  · subst e
    rw [getD_set_opt_eq _ _ _ hx, hs]
    constructor
    · rintro ⟨s1, h1, h2⟩
      injection h1 with h1
      subst h1
      by_cases hb : b ∈ s
      · rw [if_pos hb] at h2
        exact Or.inl ⟨s, rfl, h2⟩
      · rw [if_neg hb] at h2
        rcases List.mem_append.mp h2 with h3 | h3
        · exact Or.inl ⟨s, rfl, h3⟩
        · exact Or.inr ⟨rfl, List.mem_singleton.mp h3⟩
    · rintro (⟨s1, h1, h2⟩ | ⟨_, h2⟩)
      · injection h1 with h1
        subst h1
        refine ⟨_, rfl, ?_⟩
        by_cases hb : b ∈ s
        · rw [if_pos hb]; exact h2
        · rw [if_neg hb]; exact List.mem_append_left _ h2
      · refine ⟨_, rfl, ?_⟩
        rw [h2]
        by_cases hb : b ∈ s
        · rw [if_pos hb]; exact hb
        · rw [if_neg hb]; exact List.mem_append_right _ (List.mem_singleton.mpr rfl)
  · rw [getD_set_opt_ne _ _ _ _ e]
    constructor
    · intro h; exact Or.inl h
    · rintro (h | ⟨h, _⟩)
      · exact h
      · exact absurd h.symm e

theorem FrontierWf.store {im : List Int} {f : DominanceFrontiers} (W : FrontierWf im f)
    {x : Nat} (hx : Dfn im x) (s : List Nat) : FrontierWf im (f.set x (some s)) := by
  refine ⟨by rw [List.length_set]; exact W.1, ?_⟩
  intro a
  by_cases e : x = a
  · subst e
    have hl : x < f.length := by
      rw [W.1]
      by_contra hc
      unfold Dfn at hx
      rw [List.getD_eq_default _ _ (by omega)] at hx
      omega
    rw [getD_set_opt_eq _ _ _ hl]
    exact ⟨fun _ => hx, fun _ => ⟨s, rfl⟩⟩
  · rw [getD_set_opt_ne _ _ _ _ e]
    exact W.2 a

/-- The loop of the runner from `x` up to the ancestor `c` of `x` stores `b` into the
sets of the nodes of the chain of `x` below `c`. -/
theorem frontierRun_spec (C : DomCtx g tr post pi r) {im : List Int}
    (W : DomWf g post pi r im) (b : Nat) {c x : Nat} (h : Anc im r c x) :
    ∀ (fuel : Nat) (f : DominanceFrontiers), FrontierWf im f →
      post.length - pi.getD x 0 ≤ fuel →
      ∃ f1, frontierRun im b (Int.ofNat c) fuel (Int.ofNat x) f = .ok f1 ∧ FrontierWf im f1 ∧
        ∀ a y, FMem f1 a y ↔ FMem f a y ∨ (y = b ∧ Anc im r a x ∧ ¬ Anc im r a c) := by
  induction h with
  | self hd =>
    intro fuel f hf hfuel
    have := C.pos_lt (W.inpost _ hd)
    obtain ⟨n, rfl⟩ : ∃ n, fuel = n + 1 := ⟨fuel - 1, by omega⟩
    refine ⟨f, by simp [frontierRun], hf, ?_⟩
    intro a y
    constructor
    · intro h; exact Or.inl h
    · rintro (h | ⟨_, h1, h2⟩)
      · exact h
      · exact absurd h1 h2
  | @up x hd hne h2 ih =>
    intro fuel f hf hfuel
    have hpl := C.pos_lt (W.inpost _ hd)
    obtain ⟨n, rfl⟩ : ∃ n, fuel = n + 1 := ⟨fuel - 1, by omega⟩
    have hcx : Anc im r c x := Anc.up hd hne h2
    by_cases e : x = c
    · subst e
      refine ⟨f, by simp [frontierRun], hf, ?_⟩
      intro a y
      constructor
      · intro h; exact Or.inl h
      · rintro (h | ⟨_, h1, h3⟩)
        · exact h
        · exact absurd h1 h3
    · have hxc : ¬ Anc im r x c := by
        intro h3
        exact e (h3.eq_of_pos_le W (hcx.pos_le W))
      have hp := W.parent x hd hne
      obtain ⟨s, hs⟩ := (hf.2 x).mpr hd
      have hxl : x < f.length := by rw [hf.1, W.len]; exact W.dfn_lt hd
      have hxi : x < im.length := by rw [W.len]; exact W.dfn_lt hd
      obtain ⟨f1, e1, w1, m1⟩ := ih n _ (hf.store hd (if b ∈ s then s else s ++ [b])) (by omega)
      refine ⟨f1, ?_, w1, ?_⟩
      · unfold frontierRun
        have hne2 : ¬ Int.ofNat x = Int.ofNat c := fun h => e (Int.ofNat_inj.mp h)
        simp only [hne2, if_false]
        rw [idxInt_ofNat, idx_of_lt hxl none, hs]
        simp only
        rw [idxInt_ofNat, idx_of_lt hxi (-1), DomWf.getD_eq hd]
        simp only [Int.toNat_ofNat]
        exact e1
      · intro a y
        rw [m1 a y, FMem_store hxl hs]
        constructor
        · rintro ((h | ⟨h3, h4⟩) | ⟨h3, h4, h5⟩)
          · exact Or.inl h
          · subst h3
            exact Or.inr ⟨h4, Anc.self hd, hxc⟩
          · exact Or.inr ⟨h3, Anc.up hd hne h4, h5⟩
        · rintro (h | ⟨h3, h4, h5⟩)
          · exact Or.inl (Or.inl h)
          · cases h4 with
            | self _ => exact Or.inl (Or.inr ⟨rfl, h3⟩)
            | up _ _ h6 => exact Or.inr ⟨h3, h6, h5⟩

theorem frontierPreds_spec (C : DomCtx g tr post pi r) {im : List Int}
    (W : DomWf g post pi r im) (b c : Nat) {fuel : Nat} (hfuel : post.length ≤ fuel) :
    ∀ (l : List Nat) (f : DominanceFrontiers), FrontierWf im f →
      (∀ p ∈ l, Anc im r c p) →
      ∃ f1, frontierPreds im b (Int.ofNat c) fuel l f = .ok f1 ∧ FrontierWf im f1 ∧
        ∀ a y, FMem f1 a y ↔
          FMem f a y ∨ (y = b ∧ ∃ p ∈ l, Anc im r a p ∧ ¬ Anc im r a c) := by
  intro l
  induction l with
  | nil =>
    intro f hf _
    refine ⟨f, rfl, hf, ?_⟩
    intro a y
    constructor
    · intro h; exact Or.inl h
    · rintro (h | ⟨_, p, hp, _⟩)
      · exact h
      · exact absurd hp (List.not_mem_nil p)
  | cons p rest ih =>
    intro f hf hanc
    obtain ⟨f1, e1, w1, m1⟩ := frontierRun_spec C W b (hanc p (List.mem_cons_self _ _)) fuel f hf
      (by omega)
    obtain ⟨f2, e2, w2, m2⟩ := ih f1 w1 (fun q hq => hanc q (List.mem_cons_of_mem _ hq))
    refine ⟨f2, ?_, w2, ?_⟩
    · unfold frontierPreds
      rw [e1]
      exact e2
    · intro a y
      rw [m2 a y, m1 a y]
      constructor
      · rintro ((h | ⟨h1, h2, h3⟩) | ⟨h1, q, hq, h2⟩)
        · exact Or.inl h
        · exact Or.inr ⟨h1, p, List.mem_cons_self _ _, h2, h3⟩
        · exact Or.inr ⟨h1, q, List.mem_cons_of_mem _ hq, h2⟩
      · rintro (h | ⟨h1, q, hq, h2⟩)
        · exact Or.inl (Or.inl h)
        · rcases List.mem_cons.mp hq with e | e
          · subst e
            exact Or.inl (Or.inr ⟨h1, h2.1, h2.2⟩)
          · exact Or.inr ⟨h1, q, e, h2⟩

/-- The entry of a node of `post` is an ancestor of every predecessor in `post`. -/
theorem entry_anc_pred (C : DomCtx g tr post pi r) {im : List Int}
    (I : PassInv g post pi r 0 im) (F : DomFixed g post pi r 0 im) {t p : Nat}
    (ht : t ∈ post) (hp : p ∈ post) (harc : Arc g p t) : Anc im r (domPar im t) p := by
  by_cases e : t = r
  · rw [e, domPar_root I.wf]
    exact Anc.of_root C I.wf post.length p (I.all p hp) (by omega)
  · exact F t ht e (Nat.zero_le _) p hp harc

theorem frontierNodes_spec (C : DomCtx g tr post pi r) {im : List Int}
    (I : PassInv g post pi r 0 im) (F : DomFixed g post pi r 0 im) {fuel : Nat}
    (hfuel : post.length ≤ fuel) :
    ∀ (rest : List (List Nat)) (t : Nat) (f : DominanceFrontiers), tr.drop t = rest →
      FrontierWf im f →
      (∀ y, t ≤ y → y < g.length → 2 ≤ (tr.getD y []).length →
        ∀ p ∈ tr.getD y [], p ∈ post) →
      ∃ f1, frontierNodes im fuel rest t f = .ok f1 ∧ FrontierWf im f1 ∧
        ∀ a y, FMem f1 a y ↔ FMem f a y ∨
          (t ≤ y ∧ y < g.length ∧ 2 ≤ (tr.getD y []).length ∧
            ∃ p ∈ tr.getD y [], Anc im r a p ∧ ¬ Anc im r a (domPar im y)) := by
  intro rest
  induction rest with
  | nil =>
    intro t f hdrop hf _
    refine ⟨f, rfl, hf, ?_⟩
    have ht : g.length ≤ t := by
      rw [← C.trlen]
      exact List.drop_eq_nil_iff.mp hdrop
    intro a y
    constructor
    · intro h; exact Or.inl h
    · rintro (h | ⟨h1, h2, _⟩)
      · exact h
      · omega
  | cons fr rest ih =>
    intro t f hdrop hf hjoin
    have ht : t < tr.length := by
      by_contra hc
      rw [List.drop_eq_nil_iff.mpr (by omega)] at hdrop
      cases hdrop
    have htg : t < g.length := by rw [← C.trlen]; exact ht
    rw [List.drop_eq_getElem_cons ht] at hdrop
    injection hdrop with hfr hrest
    have hfr2 : tr.getD t [] = fr := by rw [List.getD_eq_getElem _ _ ht]; exact hfr
    by_cases hlen : fr.length < 2
    · obtain ⟨f1, e1, w1, m1⟩ := ih (t + 1) f hrest hf
        (fun y hy => hjoin y (by omega))
      refine ⟨f1, ?_, w1, ?_⟩
      · unfold frontierNodes
        simp only [hlen, if_true]
        exact e1
      · intro a y
        rw [m1 a y]
        constructor
        · rintro (h | ⟨h1, h2⟩)
          · exact Or.inl h
          · exact Or.inr ⟨by omega, h2⟩
        · rintro (h | ⟨h1, h2, h3, h4⟩)
          · exact Or.inl h
          · have : y ≠ t := by
              intro e
              rw [e, hfr2] at h3
              omega
            exact Or.inr ⟨by omega, h2, h3, h4⟩
    · have hpre : ∀ p ∈ fr, p ∈ post := by
        intro p hp
        exact hjoin t (le_refl _) htg (by rw [hfr2]; omega) p (by rw [hfr2]; exact hp)
      have harc : ∀ p ∈ fr, Arc g p t := by
        intro p hp
        exact (C.trarc p t htg).mp (by rw [hfr2]; exact hp)
      have htp : t ∈ post := by
        cases fr with
        | nil => simp at hlen
        | cons p0 _ =>
          exact C.closed p0 (hpre p0 (List.mem_cons_self _ _)) t (harc p0 (List.mem_cons_self _ _))
      have hdt := I.all t htp
      obtain ⟨f1, e1, w1, m1⟩ := frontierPreds_spec C I.wf t (domPar im t) hfuel fr f hf
        (fun p hp => entry_anc_pred C I F htp (hpre p hp) (harc p hp))
      obtain ⟨f2, e2, w2, m2⟩ := ih (t + 1) f1 hrest w1 (fun y hy => hjoin y (by omega))
      refine ⟨f2, ?_, w2, ?_⟩
      · unfold frontierNodes
        simp only [hlen, if_false]
        rw [idx_of_lt (by rw [I.wf.len]; exact htg) (-1), DomWf.getD_eq hdt]
        simp only
        rw [e1]
        exact e2
      · intro a y
        rw [m2 a y, m1 a y]
        constructor
        · rintro ((h | ⟨h1, h2⟩) | ⟨h1, h2⟩)
          · exact Or.inl h
          · subst h1
            exact Or.inr ⟨le_refl _, htg, by rw [hfr2]; omega, by rw [hfr2]; exact h2⟩
          · exact Or.inr ⟨by omega, h2⟩
        · rintro (h | ⟨h1, h2, h3, h4⟩)
          · exact Or.inl (Or.inl h)
          · by_cases e : y = t
            · subst e
              rw [hfr2] at h4
              exact Or.inl (Or.inr ⟨rfl, h4⟩)
            · exact Or.inr ⟨by omega, h2, h3, h4⟩

/-- The loop of the runner fails at a node without an entry. -/
theorem frontierRun_undefined {im : List Int} {f : DominanceFrontiers} (hf : FrontierWf im f)
    {p : Nat} (hp : ¬ Dfn im p) (hlt : p < im.length) (b : Nat) (imb : Int)
    (hne : imb ≠ Int.ofNat p) (fuel : Nat) (f1 : DominanceFrontiers) :
    frontierRun im b imb fuel (Int.ofNat p) f ≠ .ok f1 := by
  cases fuel with
  | zero => intro h; cases h
  | succ n =>
    unfold frontierRun
    have hne2 : ¬ Int.ofNat p = imb := fun h => hne h.symm
    simp only [hne2, if_false]
    rw [idxInt_ofNat, idx_of_lt (by rw [hf.1]; exact hlt) none]
    cases hs : f.getD p none with
    | none => intro h; cases h
    | some s => exact absurd ((hf.2 p).mp ⟨s, hs⟩) hp

theorem frontierPreds_ok (C : DomCtx g tr post pi r) {im : List Int}
    (I : PassInv g post pi r 0 im) (F : DomFixed g post pi r 0 im) {fuel : Nat}
    (hfuel : post.length ≤ fuel) {t : Nat} :
    ∀ (l : List Nat) (f f1 : DominanceFrontiers), FrontierWf im f →
      (∀ p ∈ l, Arc g p t) →
      frontierPreds im t (im.getD t (-1)) fuel l f = .ok f1 → ∀ p ∈ l, p ∈ post := by
  intro l
  induction l with
  | nil => intro f f1 _ _ _ p hp; exact absurd hp (List.not_mem_nil p)
  | cons p rest ih =>
    intro f f1 hf harc h q hq
    have hpa := harc p (List.mem_cons_self _ _)
    unfold frontierPreds at h
    by_cases hd : Dfn im p
    · have hp := I.wf.inpost p hd
      have ht : t ∈ post := C.closed p hp t hpa
      have hdt := I.all t ht
      rw [DomWf.getD_eq hdt] at h ih
      obtain ⟨f2, e2, w2, _⟩ := frontierRun_spec C I.wf t (entry_anc_pred C I F ht hp hpa) fuel f hf
        (by omega)
      rw [e2] at h
      simp only at h
      rcases List.mem_cons.mp hq with e | e
      · rw [e]; exact hp
      · exact ih f2 f1 w2 (fun x hx => harc x (List.mem_cons_of_mem _ hx)) h q e
    · exfalso
      have hne : im.getD t (-1) ≠ Int.ofNat p := by
        intro e
        have hdt : Dfn im t := by unfold Dfn; rw [e]; exact Int.ofNat_nonneg p
        have e2 : domPar im t = p := by
          rw [DomWf.getD_eq hdt] at e
          exact Int.ofNat_inj.mp e
        apply hd
        rw [← e2]
        by_cases et : t = r
        · rw [et, domPar_root I.wf]; exact I.wf.dfn_root
        · exact (I.wf.parent t hdt et).1
      have hlt : p < im.length := by rw [I.wf.len]; exact hpa.lt_left
      cases h1 : frontierRun im t (im.getD t (-1)) fuel (Int.ofNat p) f with
      | error e => rw [h1] at h; cases h
      | ok f2 => exact frontierRun_undefined hf hd hlt t _ hne fuel f2 h1

theorem frontierNodes_ok (C : DomCtx g tr post pi r) {im : List Int}
    (I : PassInv g post pi r 0 im) (F : DomFixed g post pi r 0 im) {fuel : Nat}
    (hfuel : post.length ≤ fuel) :
    ∀ (rest : List (List Nat)) (t : Nat) (f f1 : DominanceFrontiers), tr.drop t = rest →
      FrontierWf im f → frontierNodes im fuel rest t f = .ok f1 →
      ∀ y, t ≤ y → y < g.length → 2 ≤ (tr.getD y []).length →
        ∀ p ∈ tr.getD y [], p ∈ post := by
  intro rest
  induction rest with
  | nil =>
    intro t f f1 hdrop _ _ y hy hyl
    have ht : g.length ≤ t := by
      rw [← C.trlen]
      exact List.drop_eq_nil_iff.mp hdrop
    omega
  | cons fr rest ih =>
    intro t f f1 hdrop hf h y hy hyl hy2 p hp
    have ht : t < tr.length := by
      by_contra hc
      rw [List.drop_eq_nil_iff.mpr (by omega)] at hdrop
      cases hdrop
    have htg : t < g.length := by rw [← C.trlen]; exact ht
    rw [List.drop_eq_getElem_cons ht] at hdrop
    injection hdrop with hfr hrest
    have hfr2 : tr.getD t [] = fr := by rw [List.getD_eq_getElem _ _ ht]; exact hfr
    unfold frontierNodes at h
    by_cases hlen : fr.length < 2
    · simp only [hlen, if_true] at h
      have : y ≠ t := by
        intro e
        rw [e, hfr2] at hy2
        omega
      exact ih (t + 1) f f1 hrest hf h y (by omega) hyl hy2 p hp
    · simp only [hlen, if_false] at h
      rw [idx_of_lt (by rw [I.wf.len]; exact htg) (-1)] at h
      simp only at h
      have harc : ∀ q ∈ fr, Arc g q t := by
        intro q hq
        exact (C.trarc q t htg).mp (by rw [hfr2]; exact hq)
      cases h1 : frontierPreds im t (im.getD t (-1)) fuel fr f with
      | error e => rw [h1] at h; cases h
      | ok f2 =>
        rw [h1] at h
        simp only at h
        have hpre := frontierPreds_ok C I F hfuel fr f f2 hf harc h1
        by_cases e : y = t
        · rw [e, hfr2] at hp
          exact hpre p hp
        · have htp : t ∈ post := by
            cases fr with
            | nil => simp at hlen
            | cons p0 _ =>
              exact C.closed p0 (hpre p0 (List.mem_cons_self _ _)) t
                (harc p0 (List.mem_cons_self _ _))
          obtain ⟨f3, e3, w3, _⟩ := frontierPreds_spec C I.wf t (domPar im t) hfuel fr f hf
            (fun q hq => entry_anc_pred C I F htp (hpre q hq) (harc q hq))
          rw [DomWf.getD_eq (I.all t htp), e3] at h1
          injection h1 with h1
          subst h1
          exact ih (t + 1) f3 f1 hrest w3 h y (by omega) hyl hy2 p hp

/-! ### Chains and dominators at the result of `Doms` -/

theorem anc_iff_dominates (C : DomCtx g tr post pi r) {im : List Int}
    (I : PassInv g post pi r 0 im) (F : DomFixed g post pi r 0 im) {p : Nat} (hp : p ∈ post)
    (a : Nat) : Anc im r a p ↔ Dominates g r a p :=
  ⟨fun h _ hl => F.sound C hl a h,
    fun h => I.sd.anc C I.wf post.length p a (I.all p hp) (by omega) h⟩

theorem anc_entry_iff (C : DomCtx g tr post pi r) {im : List Int}
    (I : PassInv g post pi r 0 im) (F : DomFixed g post pi r 0 im) {y : Nat} (hy : y ∈ post)
    (hne : y ≠ r) (a : Nat) :
    Anc im r a (domPar im y) ↔ (Dominates g r a y ∧ a ≠ y) := by
  have hd := I.all y hy
  have hp := I.wf.parent y hd hne
  constructor
  · intro h
    refine ⟨(anc_iff_dominates C I F hy a).mp (Anc.up hd hne h), ?_⟩
    intro e
    have := h.pos_le I.wf
    rw [e] at this
    omega
  · rintro ⟨h1, h2⟩
    have := (anc_iff_dominates C I F hy a).mpr h1
    cases this with
    | self _ => exact absurd rfl h2
    | up _ _ h3 => exact h3

theorem eq_of_mem_short {l : List Nat} (h : l.length < 2) {p q : Nat} (hp : p ∈ l)
    (hq : q ∈ l) : p = q := by
  match l, h with
  | [], _ => exact absurd hp (List.not_mem_nil p)
  | [x], _ =>
    rw [List.mem_singleton.mp hp, List.mem_singleton.mp hq]
  | _ :: _ :: _, h => simp at h; omega

/-- A node in a computed set is in the frontier as defined. -/
theorem frontier_sound (C : DomCtx g tr post pi r) {im : List Int}
    (I : PassInv g post pi r 0 im) (F : DomFixed g post pi r 0 im)
    (hjoin : ∀ y, y < g.length → 2 ≤ (tr.getD y []).length → ∀ p ∈ tr.getD y [], p ∈ post)
    {a y : Nat} (hy : y < g.length) (h2 : 2 ≤ (tr.getD y []).length)
    (h : ∃ p ∈ tr.getD y [], Anc im r a p ∧ ¬ Anc im r a (domPar im y)) :
    InFrontier g r a y := by
  obtain ⟨p, hp, h3, h4⟩ := h
  have hpp := hjoin y hy h2 p hp
  have harc : Arc g p y := (C.trarc p y hy).mp hp
  have hyp : y ∈ post := C.closed p hpp y harc
  refine ⟨⟨p, harc, (anc_iff_dominates C I F hpp a).mp h3⟩, ?_⟩
  rintro ⟨h5, h6⟩
  by_cases e : y = r
  · subst e
    exact h6 h5.eq_root
  · exact h4 ((anc_entry_iff C I F hyp e a).mpr ⟨h5, h6⟩)

/-- A node other than `r` that is in the frontier of `a` as defined is in the
computed set of `a`. -/
theorem frontier_complete (C : DomCtx g tr post pi r) {im : List Int}
    (I : PassInv g post pi r 0 im) (F : DomFixed g post pi r 0 im)
    (hjoin : ∀ y, y < g.length → 2 ≤ (tr.getD y []).length → ∀ p ∈ tr.getD y [], p ∈ post)
    {a y : Nat} (ha : Dfn im a) (hne : y ≠ r) (h : InFrontier g r a y) :
    y < g.length ∧ 2 ≤ (tr.getD y []).length ∧
      ∃ p ∈ tr.getD y [], Anc im r a p ∧ ¬ Anc im r a (domPar im y) := by
  obtain ⟨⟨p, harc, hdom⟩, hns⟩ := h
  have hap := I.wf.inpost a ha
  have hyp : y ∈ post := by
    by_contra hc
    apply hns
    refine ⟨fun l hl => absurd (C.mem_of_reach hl.to_reach) hc, ?_⟩
    intro e
    exact hc (e ▸ hap)
  have hyl : y < g.length := C.range y hyp
  have hpt : p ∈ tr.getD y [] := (C.trarc p y hyl).mpr harc
  have hnanc : ¬ Anc im r a (domPar im y) :=
    fun h => hns ((anc_entry_iff C I F hyp hne a).mp h)
  by_cases h2 : 2 ≤ (tr.getD y []).length
  · have hpp := hjoin y hyl h2 p hpt
    exact ⟨hyl, h2, p, hpt, (anc_iff_dominates C I F hpp a).mpr hdom, hnanc⟩
  · exfalso
    obtain ⟨q, hq, hqarc, hlt⟩ := C.exists_later hyp hne
    have hqt : q ∈ tr.getD y [] := (C.trarc q y hyl).mpr hqarc
    have e : p = q := eq_of_mem_short (by omega) hpt hqt
    subst e
    have hdp : Dominates g r p y := by
      intro l hl
      cases hl with
      | base => exact absurd rfl hne
      | @step p2 _ l2 hw harc2 =>
        have : p2 ∈ tr.getD y [] := (C.trarc p2 y hyl).mpr harc2
        have e2 : p2 = p := eq_of_mem_short (by omega) this hpt
        rw [← e2]
        exact List.mem_cons_of_mem _ hw.head_mem
    have hpy : p ≠ y := fun e => by rw [e] at hlt; omega
    have h1 := (anc_entry_iff C I F hyp hne p).mpr ⟨hdp, hpy⟩
    have h3 := F y hyp hne (Nat.zero_le _) p hq harc
    have e3 : domPar im y = p := h3.eq_of_pos_le I.wf (h1.pos_le I.wf)
    apply hnanc
    rw [e3]
    exact (anc_iff_dominates C I F hq a).mpr hdom

end Frontiers

/-! ### The frontiers of the result of `Dominators` -/

theorem le_sq_add_two (n : Nat) : n ≤ n * n + 2 := by
  have := two_mul_le_sq_add_two n
  omega

theorem JoinsReached.joins {g : AdjacencyList} {start : Nat} (h : JoinsReached g start) :
    ∀ y, y < g.length → 2 ≤ ((Transpose g).getD y []).length →
      ∀ p ∈ (Transpose g).getD y [], p ∈ (BreadthFirst g start).reverse :=
  fun y hy h2 p hp => List.mem_reverse.mpr (h y hy h2 p hp)

/-- When every predecessor of a node with two or more incoming arcs is reachable,
the frontiers are computed. -/
theorem DominatorsFrontier_returns {g : AdjacencyList} (hg : InRange g) {start fuel : Nat}
    (hs : start < g.length) (hfuel : g.length * g.length + 2 ≤ fuel)
    (hj : JoinsReached g start) : ∃ f, DominatorsFrontier fuel g start = .ok f := by
  obtain ⟨im, p, e, C, I, F⟩ := Dominators_spec hg hs hfuel
  have hpl := nodup_length_le (Dominators_post hg hs)
  have hn := le_sq_add_two g.length
  obtain ⟨f, ef, _⟩ := frontierNodes_spec C I F (by omega : _ ≤ fuel) (Transpose g) 0
    (frontierInit im) rfl (FrontierWf.frontier_initial im) (fun y _ hy h2 => hj.joins y hy h2)
  exact ⟨f, by unfold DominatorsFrontier domFrontiers; rw [e]; exact ef⟩

/-- What the computed frontiers hold, when they are computed. -/
theorem DominatorsFrontier_char {g : AdjacencyList} (hg : InRange g) {start fuel : Nat}
    (hs : start < g.length) (hfuel : g.length * g.length + 2 ≤ fuel)
    {f : DominanceFrontiers} (h : DominatorsFrontier fuel g start = .ok f) :
    ∃ im, Dominators fuel g start = .ok im ∧ FrontierWf im f ∧ JoinsReached g start ∧
      (∀ a y, FMem f a y → InFrontier g start a y) ∧
      (∀ a y, Dfn im a → y ≠ start → InFrontier g start a y → FMem f a y) := by
  obtain ⟨im, p, e, C, I, F⟩ := Dominators_spec hg hs hfuel
  have hpl := nodup_length_le (Dominators_post hg hs)
  have hn := le_sq_add_two g.length
  have hf : (BreadthFirst g start).reverse.length ≤ fuel := by omega
  unfold DominatorsFrontier domFrontiers at h
  rw [e] at h
  simp only at h
  have hjoin := frontierNodes_ok C I F hf (Transpose g) 0 (frontierInit im) f rfl
    (FrontierWf.frontier_initial im) h
  have hjoin2 : ∀ y, y < g.length → 2 ≤ ((Transpose g).getD y []).length →
      ∀ p ∈ (Transpose g).getD y [], p ∈ (BreadthFirst g start).reverse :=
    fun y hy h2 => hjoin y (Nat.zero_le _) hy h2
  obtain ⟨f1, e1, w1, m1⟩ := frontierNodes_spec C I F hf (Transpose g) 0
    (frontierInit im) rfl (FrontierWf.frontier_initial im) hjoin
  rw [e1] at h
  injection h with h
  subst h
  refine ⟨im, e, w1, fun b hb h2 q hq => List.mem_reverse.mp (hjoin2 b hb h2 q hq), ?_, ?_⟩
  · intro a y hm
    rcases (m1 a y).mp hm with h1 | ⟨_, h2, h3, h4⟩
    · exact absurd h1 (FMem_initial im a y)
    · exact frontier_sound C I F hjoin2 h2 h3 h4
  · intro a y ha hy hin
    obtain ⟨h2, h3, h4⟩ := frontier_complete C I F hjoin2 ha hy hin
    exact (m1 a y).mpr (Or.inr ⟨Nat.zero_le _, h2, h3, h4⟩)

/-! ## Degeneracy and cores -/

theorem exists_first_in (S : List Nat) :
    ∀ ord : List Nat, (∃ w ∈ S, w ∈ ord) →
      ∃ i, i < ord.length ∧ ord.getD i 0 ∈ S ∧ ∀ w ∈ S, w ∈ ord → w ∈ ord.drop i := by
  intro ord
  induction ord with
  | nil =>
    rintro ⟨w, _, hw⟩
    exact absurd hw (List.not_mem_nil w)
  | cons a rest ih =>
    rintro ⟨w, hwS, hw⟩
    by_cases ha : a ∈ S
    · exact ⟨0, by simp, by simpa using ha, fun x _ hx => by simpa using hx⟩
    · have hw2 : w ∈ rest := by
        rcases List.mem_cons.mp hw with e | e
        · exact absurd (e ▸ hwS) ha
        · exact e
      obtain ⟨i, hi, h1, h2⟩ := ih ⟨w, hwS, hw2⟩
      refine ⟨i + 1, by simp; omega, by simpa using h1, ?_⟩
      intro x hxS hx
      rw [List.drop_succ_cons]
      rcases List.mem_cons.mp hx with e | e
      · exact absurd (e ▸ hxS) ha
      · exact h2 x hxS e

theorem degreeIn_mono (g : AdjacencyList) (v : Nat) {S T : List Nat}
    (h : ∀ w ∈ S, w ∈ T) : degreeIn g v S ≤ degreeIn g v T := by
  unfold degreeIn
  apply List.Sublist.length_le
  apply List.monotone_filter_right
  intro u hu
  simp only [decide_eq_true_eq] at hu ⊢
  exact h u hu

/-- Every non-empty set of nodes has a node with at most `k` neighbours in the
set: the one that comes first in the ordering. -/
theorem DegOuter.first_low {g : AdjacencyList} (hg : Simple g) {s : DegState}
    (hs : DegOuter g g.length s) (hperm : s.ordering.Perm (List.range g.length))
    {S : List Nat} (hne : S ≠ []) (hS : ∀ v ∈ S, v < g.length) :
    ∃ i, i < g.length ∧ s.ordering.getD i 0 ∈ S ∧ (∀ w ∈ S, w ∈ s.ordering.drop i) ∧
      degreeIn g (s.ordering.getD i 0) S ≤
        outDeg g (s.ordering.getD i 0) (s.ordering.take i) := by
  have hmem : ∀ w ∈ S, w ∈ s.ordering :=
    fun w hw => hperm.mem_iff.2 (List.mem_range.2 (hS w hw))
  obtain ⟨w0, hw0⟩ := List.exists_mem_of_ne_nil S hne
  obtain ⟨i, hi, h1, h2⟩ := exists_first_in S s.ordering ⟨w0, hw0, hmem w0 hw0⟩
  have h3 : ∀ w ∈ S, w ∈ s.ordering.drop i := fun w hw => h2 w hw (hmem w hw)
  refine ⟨i, by rw [← hs.hlen]; exact hi, h1, h3, ?_⟩
  rw [← degreeIn_drop hg hperm]
  exact degreeIn_mono g _ h3

theorem DegOuter.perm {g : AdjacencyList} {s : DegState} (hs : DegOuter g g.length s) :
    s.ordering.Perm (List.range g.length) := by
  have hlen := hs.hlen
  have htake : s.ordering.take g.length = s.ordering := by
    rw [← hlen]; exact List.take_length _
  have hnd : s.ordering.Nodup := htake ▸ hs.hnodup
  exact perm_range_of_nodup hnd (fun v hv => hs.hlt v (by rw [htake]; exact hv)) hlen

theorem degreeSub_le (g : AdjacencyList) {S : List Nat} {E : Nat → Nat → Bool}
    (h : IsSubgraph g S E) (v : Nat) : degreeSub g E v ≤ degreeIn g v S := by
  unfold degreeSub degreeIn
  apply List.Sublist.length_le
  apply List.monotone_filter_right
  intro u hu
  simp only [decide_eq_true_eq]
  exact (h.2 v u hu).2.1

theorem degreeSub_induced (g : AdjacencyList) (S : List Nat) {v : Nat} (hv : v ∈ S) :
    degreeSub g (fun a b => decide (a ∈ S ∧ b ∈ S ∧ Arc g a b)) v = degreeIn g v S := by
  unfold degreeSub degreeIn
  congr 1
  apply List.filter_congr
  intro u hu
  have harc : Arc g v u := hu
  simp [hv, harc]

/-! ### The slice `cores` -/

theorem degNeighbor_frame {s s1 : DegState} {nb : Nat} (h : degNeighbor s nb = .ok s1) :
    s1.cores = s.cores ∧ s1.k = s.k ∧ s1.ordering = s.ordering := by
  unfold degNeighbor at h
  by_cases hb : Bit s.L nb = true
  · rw [if_pos hb] at h
    injection h with h
    subst h
    exact ⟨rfl, rfl, rfl⟩
  · rw [if_neg hb] at h
    cases h1 : idx s.d nb with
    | error e => rw [h1] at h; cases h
    | ok dn =>
      rw [h1] at h
      simp only at h
      cases h2 : idx s.D dn with
      | error e => rw [h2] at h; cases h
      | ok Ddn =>
        rw [h2] at h
        simp only at h
        cases dn with
        | zero => cases h
        | succ dn1 =>
          simp only at h
          cases h3 : idx (degRemove nb (dn1 + 1) Ddn.length 0 Ddn s.D) dn1 with
          | error e => rw [h3] at h; cases h
          | ok b =>
            rw [h3] at h
            injection h with h
            subst h
            exact ⟨rfl, rfl, rfl⟩

theorem degNeighbors_frame :
    ∀ (adj : List Nat) (s s1 : DegState), degNeighbors adj s = .ok s1 →
      s1.cores = s.cores ∧ s1.k = s.k ∧ s1.ordering = s.ordering := by
  intro adj
  induction adj with
  | nil =>
    intro s s1 h
    simp only [degNeighbors] at h
    injection h with h
    subst h
    exact ⟨rfl, rfl, rfl⟩
  | cons nb rest ih =>
    intro s s1 h
    simp only [degNeighbors] at h
    cases h1 : degNeighbor s nb with
    | error e => rw [h1] at h; cases h
    | ok s2 =>
      rw [h1] at h
      simp only at h
      obtain ⟨a1, a2, a3⟩ := degNeighbor_frame h1
      obtain ⟨b1, b2, b3⟩ := ih s2 s1 h
      exact ⟨by rw [b1, a1], by rw [b2, a2], by rw [b3, a3]⟩

/-- What one iteration of the outer loop does to `k`, `cores` and `ordering`. -/
theorem degStep_frame {g : AdjacencyList} {ox : Nat} {s s1 : DegState}
    (h : degStep g ox s = .ok s1) :
    ∃ i v, s1.k = (if i > s.k then i else s.k) ∧
      s1.cores = (if i > s.k then (growTo s.cores i 0).set s.k ox else s.cores) ∧
      s1.ordering = s.ordering.set ox v := by
  unfold degStep at h
  cases h1 : firstNonEmpty s.D 0 with
  | error e => rw [h1] at h; cases h
  | ok i =>
    rw [h1] at h
    simp only at h
    cases h2 : idx s.D i with
    | error e => rw [h2] at h; cases h
    | ok Di =>
      rw [h2] at h
      simp only at h
      cases h3 : idx Di (Di.length - 1) with
      | error e => rw [h3] at h; cases h
      | ok v =>
        rw [h3] at h
        simp only at h
        cases h4 : idx g v with
        | error e => rw [h4] at h; cases h
        | ok adj =>
          rw [h4] at h
          simp only at h
          obtain ⟨a1, a2, a3⟩ := degNeighbors_frame _ _ _ h
          exact ⟨i, v, a2, a1, a3⟩

theorem getD_growTo_zero (cs : List Nat) (i j : Nat) :
    (growTo cs i 0).getD j 0 = cs.getD j 0 := by
  unfold growTo
  by_cases hj : j < cs.length
  · rw [List.getD_append _ _ _ _ hj]
  · rw [List.getD_append_right _ _ _ _ (by omega), List.getD_eq_default cs _ (by omega)]
    rw [List.getD_eq_getElem?_getD]
    by_cases h2 : j - cs.length < (List.replicate (i + 1 - cs.length) (0 : Nat)).length
    · rw [List.getElem?_eq_getElem h2]
      simp
    · rw [List.getElem?_eq_none (by omega)]
      rfl

theorem length_growTo (cs : List Nat) (i : Nat) (h : cs.length ≤ i + 1) :
    (growTo cs i 0).length = i + 1 := by
  unfold growTo
  rw [List.length_append, List.length_replicate]
  omega

theorem outDeg_set_stable (g : AdjacencyList) (ord : List Nat) {ox t : Nat} (v : Nat)
    (h : t < ox) :
    outDeg g ((ord.set ox v).getD t 0) ((ord.set ox v).take t) =
      outDeg g (ord.getD t 0) (ord.take t) := by
  rw [getD_set_ne _ _ _ _ _ (by omega : ox ≠ t), take_set_le _ _ _ _ (by omega)]

theorem CoresInv.cores_step {g : AdjacencyList} (hg : Simple g) {ox : Nat} {s s1 : DegState}
    (hout : DegOuter g ox s) (hc : CoresInv g ox s) (hox : ox < g.length)
    (h : degStep g ox s = .ok s1) : CoresInv g (ox + 1) s1 := by
  have hout1 := degStep_inv hg hout hox h
  obtain ⟨i, v, ek, ec, eo⟩ := degStep_frame h
  have hstab : ∀ t, t < ox →
      outDeg g (s1.ordering.getD t 0) (s1.ordering.take t) =
        outDeg g (s.ordering.getD t 0) (s.ordering.take t) := by
    intro t ht
    rw [eo]
    exact outDeg_set_stable g s.ordering v ht
  have hkeep : ∀ j, ((j = 0 ∧ 0 < s.k) ∨ s.cores.getD j 0 ≠ 0) →
      j < s.k ∧ s.cores.getD j 0 < ox + 1 ∧
      (∀ t, t < s.cores.getD j 0 →
        outDeg g (s1.ordering.getD t 0) (s1.ordering.take t) ≤ j) ∧
      j < outDeg g (s1.ordering.getD (s.cores.getD j 0) 0)
        (s1.ordering.take (s.cores.getD j 0)) := by
    intro j hj
    obtain ⟨a, b, c, d⟩ := hc.hset j hj
    refine ⟨a, by omega, ?_, ?_⟩
    · intro t ht
      rw [hstab t (by omega)]
      exact c t ht
    · rw [hstab _ b]
      exact d
  by_cases hi : i > s.k
  · rw [if_pos hi] at ek ec
    have hlen0 : s.cores.length ≤ i + 1 := by
      rcases hc.hlen with ⟨a, _⟩ | ⟨a, _⟩ <;> omega
    have hgl := length_growTo s.cores i hlen0
    have hget : ∀ j, s1.cores.getD j 0 = if j = s.k then ox else s.cores.getD j 0 := by
      intro j
      rw [ec]
      by_cases e : j = s.k
      · rw [if_pos e, e, getD_set_eq _ _ _ _ (by rw [hgl]; omega)]
      · rw [if_neg e, getD_set_ne _ _ _ _ _ (Ne.symm e), getD_growTo_zero]
    constructor
    · right
      rw [ec, List.length_set, hgl, ek]
      exact ⟨rfl, by omega⟩
    · intro j hj
      rw [hget j] at hj ⊢
      rw [ek]
      by_cases e : j = s.k
      · rw [if_pos e]
        refine ⟨by omega, by omega, ?_, ?_⟩
        · intro t ht
          rw [hstab t ht, e]
          exact hout.hk1 t ht
        · rcases hout1.hk2 with h0 | ⟨t, ht, h0⟩
          · omega
          · rw [ek] at h0
            by_cases e2 : t = ox
            · rw [← e2, h0]; omega
            · have := hout.hk1 t (by omega)
              rw [← hstab t (by omega)] at this
              omega
      · rw [if_neg e] at hj ⊢
        have hj2 : (j = 0 ∧ 0 < s.k) ∨ s.cores.getD j 0 ≠ 0 := by
          rcases hj with ⟨a, _⟩ | b
          · left; exact ⟨a, by omega⟩
          · right; exact b
        obtain ⟨a, b, c, d⟩ := hkeep j hj2
        exact ⟨by omega, b, c, d⟩
  · rw [if_neg hi] at ek ec
    constructor
    · rw [ec, ek]; exact hc.hlen
    · intro j hj
      rw [ec, ek] at hj ⊢
      exact hkeep j hj

theorem degLoop_cores {g : AdjacencyList} (hg : Simple g) :
    ∀ (c ox : Nat) (s s1 : DegState), DegOuter g ox s → CoresInv g ox s →
      ox + c = g.length → degLoop g c ox s = .ok s1 → CoresInv g g.length s1 := by
  intro c
  induction c with
  | zero =>
    intro ox s s1 _ hc hn h
    simp only [degLoop] at h
    injection h with h
    subst h
    have : ox = g.length := by omega
    rw [← this]; exact hc
  | succ c ih =>
    intro ox s s1 hout hc hn h
    simp only [degLoop] at h
    cases h1 : degStep g ox s with
    | error e => rw [h1] at h; cases h
    | ok s2 =>
      rw [h1] at h
      simp only at h
      exact ih (ox + 1) s2 s1 (degStep_inv hg hout (by omega) h1)
        (hc.cores_step hg hout (by omega) h1) (by omega) h

/-- What `Degeneracy` returns, with the invariants of its loop at the end. -/
theorem Degeneracy_cores {g : AdjacencyList} (hg : Simple g) {k : Nat}
    {ord cores : List Nat} (h : Degeneracy g = .ok (k, ord, cores)) :
    ∃ s, DegOuter g g.length s ∧ CoresInv g g.length s ∧ s.k = k ∧ s.ordering = ord ∧
      s.k < s.cores.length ∧ cores = s.cores.set s.k s.ordering.length := by
  obtain ⟨s0, hs0, _, _⟩ := Degeneracy_outer hg h
  unfold Degeneracy at h
  cases h1 : degInit g 0 (List.replicate g.length 0) [] with
  | error e => rw [h1] at h; cases h
  | ok dD =>
    obtain ⟨d, D⟩ := dD
    rw [h1] at h
    simp only at h
    cases h2 : degLoop g g.length 0
        { k := 0, ordering := List.replicate g.length 0, cores := [], L := 0, d := d, D := D } with
    | error e => rw [h2] at h; cases h
    | ok s =>
      rw [h2] at h
      simp only at h
      by_cases hk : s.k < s.cores.length
      · rw [if_pos hk] at h
        injection h with h
        injection h with e1 e2
        injection e2 with e2 e3
        obtain ⟨i1, i2, i3, i4⟩ := degInit_inv (g := g) g 0 _ d [] D (by simp) (by omega) (by simp)
          (fun w hw => by omega) (fun j x => by simp) (fun j => by simp) h1
        have hout0 : DegOuter g 0
            { k := 0, ordering := List.replicate g.length 0, cores := [], L := 0, d := d,
              D := D } := by
          refine ⟨by simp, ⟨i1, ?_, ?_, ?_, i4⟩, by simp, by simp, ?_, Or.inl rfl, ?_⟩
          · intro v; simp [Bit_zero]
          · intro w hw _
            show d.getD w 0 = _
            rw [i2 w hw, List.take_zero, outDeg_nil]
            simp
          · intro j v
            show v ∈ D.getD j [] ↔ _
            rw [i3]
            constructor
            · rintro ⟨a, b⟩
              exact ⟨a, by simp, by rw [i2 v a]; exact b⟩
            · rintro ⟨a, _, b⟩
              exact ⟨a, by rw [← i2 v a]; exact b⟩
          · intro t ht; omega
          · intro t ht; omega
        have hc0 : CoresInv g 0
            { k := 0, ordering := List.replicate g.length 0, cores := [], L := 0, d := d,
              D := D } := by
          constructor
          · left; exact ⟨rfl, rfl⟩
          · intro j hj
            rcases hj with ⟨_, a⟩ | a
            · simp at a
            · simp at a
        exact ⟨s, degLoop_inv hg g.length 0 _ s hout0 (by omega) h2,
          degLoop_cores hg g.length 0 _ s hout0 hc0 (by omega) h2, e1, e2, hk, e3.symm⟩
      · rw [if_neg hk] at h; cases h

/-- No node is in the core of a number above `k`. -/
theorem DegOuter.core_empty {g : AdjacencyList} (hg : Simple g) {s : DegState}
    (hs : DegOuter g g.length s) (v : Nat) : ¬ InCore g (s.k + 1) v := by
  rintro ⟨S, hv, hS⟩
  obtain ⟨i, hi, h1, _, h3⟩ := hs.first_low hg hs.perm (List.ne_nil_of_mem hv)
    (fun u hu => (hS u hu).1)
  have := (hS _ h1).2
  have := hs.hk1 i hi
  omega

/-- A stored entry of `cores` of index `j` is the position in the ordering from which
the nodes are those of the core of `j + 1`. -/
theorem CoresInv.core_iff {g : AdjacencyList} (hg : Simple g) {s : DegState}
    (hs : DegOuter g g.length s) (hc : CoresInv g g.length s) {j : Nat}
    (hj : (j = 0 ∧ 0 < s.k) ∨ s.cores.getD j 0 ≠ 0) (v : Nat) :
    v ∈ s.ordering.drop (s.cores.getD j 0) ↔ InCore g (j + 1) v := by
  obtain ⟨_, hlt, hle, hgt⟩ := hc.hset j hj
  have hperm := hs.perm
  have hnd : s.ordering.Nodup := hperm.nodup_iff.2 (List.nodup_range _)
  have hmemlt : ∀ w ∈ s.ordering, w < g.length :=
    fun w hw => List.mem_range.1 (hperm.mem_iff.1 hw)
  constructor
  · intro hv
    refine ⟨s.ordering.drop (s.cores.getD j 0), hv, ?_⟩
    intro u hu
    have hum := List.mem_of_mem_drop hu
    refine ⟨hmemlt u hum, ?_⟩
    rw [degreeIn_drop hg hperm]
    have := hs.hmin _ hlt u (hmemlt u hum) ((mem_drop_iff_not_mem_take hnd _ hum).1 hu)
    omega
  · rintro ⟨S, hv, hS⟩
    have hvm : v ∈ s.ordering :=
      hperm.mem_iff.2 (List.mem_range.2 (hS v hv).1)
    rw [mem_drop_iff_not_mem_take hnd _ hvm]
    intro htake
    obtain ⟨i, hi, h1, h2, h3⟩ := hs.first_low hg hperm (List.ne_nil_of_mem hv)
      (fun u hu => (hS u hu).1)
    have hvi : v ∈ s.ordering.drop i := h2 v hv
    have hil : i < s.cores.getD j 0 := by
      by_contra hge
      have hsub : v ∈ s.ordering.drop (s.cores.getD j 0) := by
        have e : s.ordering.drop i =
            (s.ordering.drop (s.cores.getD j 0)).drop (i - s.cores.getD j 0) := by
          rw [List.drop_drop]
          congr 1
          omega
        rw [e] at hvi
        exact List.mem_of_mem_drop hvi
      exact ((mem_drop_iff_not_mem_take hnd _ hvm).1 hsub) htake
    have := (hS _ h1).2
    have := hle i hil
    omega

/-! ## Degeneracy returns on graphs with an edge -/

theorem firstNonEmpty_ok : ∀ (l : List (List Nat)) (k : Nat), (∃ j, l.getD j [] ≠ []) →
    ∃ i, firstNonEmpty l k = .ok i := by
  intro l
  induction l with
  | nil =>
    rintro k ⟨j, hj⟩
    exact absurd (by simp) hj
  | cons b rest ih =>
    rintro k ⟨j, hj⟩
    simp only [firstNonEmpty]
    by_cases hb : b.length = 0
    · rw [if_pos hb]
      cases j with
      | zero =>
        exfalso
        apply hj
        simpa using hb
      | succ j =>
        rw [List.getD_cons_succ] at hj
        exact ih (k + 1) ⟨j, hj⟩
    · rw [if_neg hb]
      exact ⟨k, rfl⟩

theorem degInit_ok : ∀ (rest : List (List Nat)) (v : Nat) (d : List Nat) (D : List (List Nat)),
    ∃ r, degInit rest v d D = .ok r := by
  intro rest
  induction rest with
  | nil => intro v d D; exact ⟨(d, D), rfl⟩
  | cons nb rest ih =>
    intro v d D
    simp only [degInit]
    have hlt : nb.length < (growTo D nb.length []).length := by
      unfold growTo
      rw [List.length_append, List.length_replicate]
      omega
    rw [idx_of_lt hlt []]
    exact ih _ _ _

theorem degRemove_length (nb dn : Nat) : ∀ (c wx : Nat) (Ddn : List Nat)
    (D : List (List Nat)), (degRemove nb dn c wx Ddn D).length = D.length := by
  intro c
  induction c with
  | zero => intro wx Ddn D; rfl
  | succ c ih =>
    intro wx Ddn D
    simp only [degRemove]
    split
    · rw [ih, List.length_set]
    · exact ih _ _ _

/-- The body of the loop over the neighbours returns when the degree recorded for a
neighbour that is not ordered yet is positive and has a bucket. -/
theorem degNeighbor_ok (s : DegState) (nb : Nat) (h1 : nb < s.d.length)
    (h2 : Bit s.L nb = false → 1 ≤ s.d.getD nb 0 ∧ s.d.getD nb 0 < s.D.length) :
    ∃ s1, degNeighbor s nb = .ok s1 ∧ s1.L = s.L ∧ s1.D.length = s.D.length ∧
      s1.d.length = s.d.length ∧ ∀ w, w ≠ nb → s1.d.getD w 0 = s.d.getD w 0 := by
  unfold degNeighbor
  by_cases hb : Bit s.L nb = true
  · rw [if_pos hb]
    exact ⟨s, rfl, rfl, rfl, rfl, fun w _ => rfl⟩
  · rw [if_neg hb]
    have hb0 : Bit s.L nb = false := by
      cases hx : Bit s.L nb
      · rfl
      · exact absurd hx hb
    obtain ⟨hpos, hlt⟩ := h2 hb0
    rw [idx_of_lt h1 0]
    simp only
    rw [idx_of_lt hlt []]
    simp only
    obtain ⟨dn1, hdn⟩ : ∃ dn1, s.d.getD nb 0 = dn1 + 1 := ⟨s.d.getD nb 0 - 1, by omega⟩
    rw [hdn]
    simp only
    have hlen : (degRemove nb (dn1 + 1) (s.D.getD (dn1 + 1) []).length 0
        (s.D.getD (dn1 + 1) []) s.D).length = s.D.length := degRemove_length _ _ _ _ _ _
    rw [idx_of_lt (by rw [hlen]; omega) []]
    refine ⟨_, rfl, rfl, ?_, ?_, ?_⟩
    · show (List.set _ _ _).length = _
      rw [List.length_set, hlen]
    · show (s.d.set nb dn1).length = _
      rw [List.length_set]
    · intro w hw
      show (s.d.set nb dn1).getD w 0 = _
      rw [getD_set_ne _ _ _ _ _ (Ne.symm hw)]

theorem degNeighbors_ok : ∀ (adj : List Nat) (s : DegState), adj.Nodup →
    (∀ nb, nb ∈ adj → nb < s.d.length ∧
      (Bit s.L nb = false → 1 ≤ s.d.getD nb 0 ∧ s.d.getD nb 0 < s.D.length)) →
    ∃ s1, degNeighbors adj s = .ok s1 := by
  intro adj
  induction adj with
  | nil => intro s _ _; exact ⟨s, rfl⟩
  | cons nb rest ih =>
    intro s hnd h
    obtain ⟨h1, h2⟩ := h nb (List.mem_cons_self _ _)
    obtain ⟨s1, e1, e2, e3, e4, e5⟩ := degNeighbor_ok s nb h1 h2
    have hnb : nb ∉ rest := (List.nodup_cons.1 hnd).1
    obtain ⟨s2, e6⟩ := ih s1 (List.nodup_cons.1 hnd).2 (by
      intro x hx
      have hne : x ≠ nb := fun e => hnb (e ▸ hx)
      obtain ⟨a, b⟩ := h x (List.mem_cons_of_mem _ hx)
      rw [e2, e3, e4, e5 x hne]
      exact ⟨a, b⟩)
    refine ⟨s2, ?_⟩
    simp only [degNeighbors]
    rw [e1]
    exact e6

theorem exists_not_mem_of_length_lt {n : Nat} {l : List Nat} (h : l.length < n) :
    ∃ w, w < n ∧ w ∉ l := by
  by_contra hc
  have hsub : List.range n ⊆ l := by
    intro w hw
    by_contra hw2
    exact hc ⟨w, List.mem_range.1 hw, hw2⟩
  have := (List.subperm_of_subset (List.nodup_range n) hsub).length_le
  simp at this
  omega

theorem degStep_ok {g : AdjacencyList} (hg : Simple g) {ox : Nat} {s : DegState}
    (hout : DegOuter g ox s) (hox : ox < g.length) : ∃ s1, degStep g ox s = .ok s1 := by
  have hinv := hout.inv
  obtain ⟨w, hw, hwp⟩ := exists_not_mem_of_length_lt (n := g.length)
    (l := s.ordering.take ox) (by rw [List.length_take]; omega)
  have hwD : w ∈ s.D.getD (s.d.getD w 0) [] := (hinv.hD _ w).2 ⟨hw, hwp, rfl⟩
  obtain ⟨i, h1⟩ := firstNonEmpty_ok s.D 0 ⟨_, List.ne_nil_of_mem hwD⟩
  have hne : s.D.getD i [] ≠ [] := by
    have := (firstNonEmpty_spec s.D 0 i h1).2.1
    simpa using this
  have hilt : i < s.D.length := by
    by_contra hc
    apply hne
    rw [List.getD_eq_default _ _ (by omega)]
  have hlast : (s.D.getD i []).length - 1 < (s.D.getD i []).length := by
    have := List.length_pos.2 hne
    omega
  have hvmem : (s.D.getD i []).getD ((s.D.getD i []).length - 1) 0 ∈ s.D.getD i [] :=
    getD_mem_of_lt hlast
  have hvfacts := (hinv.hD i _).1 hvmem
  have hadjmem : g.getD ((s.D.getD i []).getD ((s.D.getD i []).length - 1) 0) [] ∈ g :=
    getD_mem hvfacts.1
  obtain ⟨s1, e1⟩ := degNeighbors_ok
    (g.getD ((s.D.getD i []).getD ((s.D.getD i []).length - 1) 0) [])
    { k := if i > s.k then i else s.k,
      ordering := s.ordering.set ox ((s.D.getD i []).getD ((s.D.getD i []).length - 1) 0),
      cores := if i > s.k then (growTo s.cores i 0).set s.k ox else s.cores,
      L := SetBit s.L ((s.D.getD i []).getD ((s.D.getD i []).length - 1) 0) true, d := s.d,
      D := s.D.set i ((s.D.getD i []).take ((s.D.getD i []).length - 1)) }
    (hg.2.2.2 _ hadjmem) (by
      intro nb hnb
      have hnblt : nb < g.length := hg.1 _ hadjmem nb hnb
      refine ⟨by show nb < s.d.length; rw [hinv.hd]; exact hnblt, ?_⟩
      intro hL
      change Bit (SetBit s.L _ true) nb = false at hL
      rw [Bit_SetBit_true, Bool.or_eq_false_iff] at hL
      have hnbp : nb ∉ s.ordering.take ox := by
        intro hm
        rw [(hinv.hL nb).2 hm] at hL
        exact absurd hL.1 (by simp)
      have hdeg := hinv.hdeg nb hnblt hnbp
      simp only [List.not_mem_nil, if_false, Nat.add_zero] at hdeg
      have hrec : (s.D.getD i []).getD ((s.D.getD i []).length - 1) 0 ∈ g.getD nb [] :=
        hg.2.1 _ hvfacts.1 nb hnb
      have hpos : 1 ≤ outDeg g nb (s.ordering.take ox) := by
        unfold outDeg
        apply List.length_pos.2
        apply List.ne_nil_of_mem (a := (s.D.getD i []).getD ((s.D.getD i []).length - 1) 0)
        rw [List.mem_filter]
        exact ⟨hrec, by simpa using hvfacts.2.1⟩
      have hnbD : nb ∈ s.D.getD (s.d.getD nb 0) [] := (hinv.hD _ nb).2 ⟨hnblt, hnbp, rfl⟩
      have hblt : s.d.getD nb 0 < s.D.length := by
        by_contra hc
        rw [List.getD_eq_default _ _ (by omega)] at hnbD
        cases hnbD
      show 1 ≤ s.d.getD nb 0 ∧ s.d.getD nb 0 < (s.D.set i _).length
      rw [List.length_set]
      exact ⟨by omega, hblt⟩)
  refine ⟨s1, ?_⟩
  unfold degStep
  rw [h1]
  simp only
  rw [idx_of_lt hilt []]
  simp only
  rw [idx_of_lt hlast 0]
  simp only
  rw [idx_of_lt hvfacts.1 []]
  exact e1

theorem degLoop_ok {g : AdjacencyList} (hg : Simple g) :
    ∀ (c ox : Nat) (s : DegState), DegOuter g ox s → ox + c = g.length →
      ∃ s1, degLoop g c ox s = .ok s1 := by
  intro c
  induction c with
  | zero => intro ox s _ _; exact ⟨s, rfl⟩
  | succ c ih =>
    intro ox s hout hc
    obtain ⟨s1, e1⟩ := degStep_ok hg hout (by omega)
    obtain ⟨s2, e2⟩ := ih (ox + 1) s1 (degStep_inv hg hout (by omega) e1) (by omega)
    refine ⟨s2, ?_⟩
    simp only [degLoop]
    rw [e1]
    exact e2

/-- On a simple graph with an edge, `Degeneracy` returns a result. -/
theorem Degeneracy_returns {g : AdjacencyList} (hg : Simple g) (hedge : ∃ u v, Arc g u v) :
    ∃ k ord cores, Degeneracy g = .ok (k, ord, cores) := by
  obtain ⟨dD, h1⟩ := degInit_ok g 0 (List.replicate g.length 0) []
  obtain ⟨d, D⟩ := dD
  obtain ⟨i1, i2, i3, i4⟩ := degInit_inv (g := g) g 0 _ d [] D (by simp) (by omega) (by simp)
    (fun w hw => by omega) (fun j x => by simp) (fun j => by simp) h1
  have hout0 : DegOuter g 0
      { k := 0, ordering := List.replicate g.length 0, cores := [], L := 0, d := d,
        D := D } := by
    refine ⟨by simp, ⟨i1, ?_, ?_, ?_, i4⟩, by simp, by simp, ?_, Or.inl rfl, ?_⟩
    · intro v; simp [Bit_zero]
    · intro w hw _
      show d.getD w 0 = _
      rw [i2 w hw, List.take_zero, outDeg_nil]
      simp
    · intro j v
      show v ∈ D.getD j [] ↔ _
      rw [i3]
      constructor
      · rintro ⟨a, b⟩
        exact ⟨a, by simp, by rw [i2 v a]; exact b⟩
      · rintro ⟨a, _, b⟩
        exact ⟨a, by rw [← i2 v a]; exact b⟩
    · intro t ht; omega
    · intro t ht; omega
  have hc0 : CoresInv g 0
      { k := 0, ordering := List.replicate g.length 0, cores := [], L := 0, d := d,
        D := D } := by
    constructor
    · left; exact ⟨rfl, rfl⟩
    · intro j hj
      rcases hj with ⟨_, a⟩ | a
      · simp at a
      · simp at a
  obtain ⟨s, h2⟩ := degLoop_ok hg g.length 0 _ hout0 (by omega)
  have hs := degLoop_inv hg g.length 0 _ s hout0 (by omega) h2
  have hc := degLoop_cores hg g.length 0 _ s hout0 hc0 (by omega) h2
  obtain ⟨u, v, huv⟩ := hedge
  have hu : u < g.length := huv.lt_left
  have hv : v < g.length := Arc.lt_right hg.1 huv
  have hvu : Arc g v u := Arc.symm hg.2.1 huv
  obtain ⟨i, hi, hm, hall, hle⟩ := hs.first_low hg hs.perm (S := [u, v]) (by simp) (by
    intro w hw
    rcases List.mem_cons.1 hw with e | e
    · rw [e]; exact hu
    · rw [List.mem_singleton.1 e]; exact hv)
  have hk1 := hs.hk1 i hi
  have hpos : 1 ≤ degreeIn g (s.ordering.getD i 0) [u, v] := by
    unfold degreeIn
    apply List.length_pos.2
    rcases List.mem_cons.1 hm with e | e
    · apply List.ne_nil_of_mem (a := v)
      rw [List.mem_filter, e]
      exact ⟨huv, by simp⟩
    · apply List.ne_nil_of_mem (a := u)
      rw [List.mem_filter, List.mem_singleton.1 e]
      exact ⟨hvu, by simp⟩
  have hk : s.k < s.cores.length := by
    rcases hc.hlen with ⟨_, e⟩ | ⟨e, _⟩
    · omega
    · omega
  refine ⟨s.k, s.ordering, s.cores.set s.k s.ordering.length, ?_⟩
  unfold Degeneracy
  rw [h1]
  simp only
  rw [h2]
  simp only
  rw [if_pos hk]

/-! ## Pearce: counting -/

theorem idx_int_getD {xs : List Int} {u : Nat} (h : u < xs.length) :
    idx xs u = .ok (xs.getD u 0) := by
  unfold idx
  rw [List.getD_eq_getElem _ _ h, List.getElem?_eq_getElem h]

theorem length_le_flatten {L : List (List Nat)} (h : ∀ c, c ∈ L → c ≠ []) :
    L.length ≤ L.flatten.length := by
  induction L with
  | nil => simp
  | cons a L ih =>
    have h1 := ih (fun c hc => h c (List.mem_cons_of_mem _ hc))
    have h2 : 0 < a.length := List.length_pos.2 (h a (List.mem_cons_self _ _))
    simp only [List.flatten_cons, List.length_append, List.length_cons]
    omega

theorem PVis.lt {g : AdjacencyList} {P : List Nat} {st : PState} (hwf : PWf g P st) {v : Nat}
    (h : PVis st v) : v < g.length := by
  rcases h with h | h
  · by_contra hc
    apply h
    rw [List.getD_eq_default _ _ (by rw [hwf.hlen]; omega)]
  · exact (hwf.hdone v h).1

theorem PWf.vis_iff {g : AdjacencyList} {P : List Nat} {st : PState} (hwf : PWf g P st)
    (v : Nat) : PVis st v ↔ (v ∈ P ++ st.S ∨ v ∈ st.log.flatten) := by
  constructor
  · intro h
    by_cases hf : v ∈ st.log.flatten
    · exact Or.inr hf
    · rcases h with h1 | h1
      · exact Or.inl ((hwf.hact v).2 ⟨PVis.lt hwf (Or.inl h1), h1, hf⟩)
      · exact absurd h1 hf
  · rintro (h | h)
    · exact Or.inl ((hwf.hact v).1 h).2.1
    · exact Or.inr h

/-- Nodes that were not emitted are at most `c + 1`. -/
theorem PWf.count {g : AdjacencyList} {P : List Nat} {st : PState} (hwf : PWf g P st)
    (extra : List Nat) (hnd : extra.Nodup)
    (h : ∀ v, v ∈ extra → v < g.length ∧ v ∉ st.log.flatten) :
    (extra.length : Int) ≤ st.c + 1 := by
  have hall : (extra ++ st.log.flatten).Nodup := by
    rw [List.nodup_append]
    refine ⟨hnd, hwf.hjoin, ?_⟩
    intro v hv hv2
    exact (h v hv).2 hv2
  have hlen := nodup_range_length_le (n := g.length) hall (by
    intro v hv
    rcases List.mem_append.1 hv with e | e
    · exact (h v e).1
    · exact (hwf.hdone v e).1)
  have h1 := length_le_flatten hwf.hne
  have h2 := hwf.hc
  rw [List.length_append] at hlen
  omega

theorem PWf.index_le {g : AdjacencyList} {P : List Nat} {st : PState} (hwf : PWf g P st) :
    st.index ≤ st.c + 2 := by
  have := hwf.count (P ++ st.S) hwf.hnd (fun v hv =>
    ⟨((hwf.hact v).1 hv).1, ((hwf.hact v).1 hv).2.2⟩)
  have h2 := hwf.hidx
  omega

theorem PWf.active_le_done {g : AdjacencyList} {P : List Nat} {st : PState} (hwf : PWf g P st)
    {v w : Nat} (hv : v ∈ P ++ st.S) (hw : w ∈ st.log.flatten) :
    st.rindex.getD v 0 ≤ st.rindex.getD w 0 := by
  have h1 := hwf.index_le
  have h2 := (hwf.hri v hv).2
  have h3 := (hwf.hdone w hw).2
  omega

theorem PWf.c_nonneg {g : AdjacencyList} {P : List Nat} {st : PState} (hwf : PWf g P st)
    {v : Nat} (hv : v < g.length) (hf : v ∉ st.log.flatten) : 0 ≤ st.c := by
  have := hwf.count [v] (List.nodup_singleton v) (fun u hu => by
    rw [List.mem_singleton.1 hu]; exact ⟨hv, hf⟩)
  simp only [List.length_singleton] at this
  omega

theorem PWf.c_pos {g : AdjacencyList} {P : List Nat} {st : PState} (hwf : PWf g P st)
    {v w : Nat} (hv : v < g.length) (hf : v ∉ st.log.flatten) (hw : w < g.length)
    (hg : w ∉ st.log.flatten) (hne : v ≠ w) : 1 ≤ st.c := by
  have := hwf.count [v, w] (by simp [hne]) (fun u hu => by
    rcases List.mem_cons.1 hu with e | e
    · rw [e]; exact ⟨hv, hf⟩
    · rw [List.mem_singleton.1 e]; exact ⟨hw, hg⟩)
  simp only [List.length_cons, List.length_nil] at this
  omega

/-- While a node is not emitted, emitted nodes have a positive `rindex`. -/
theorem PWf.done_pos {g : AdjacencyList} {P : List Nat} {st : PState} (hwf : PWf g P st)
    {v : Nat} (hv : v < g.length) (hf : v ∉ st.log.flatten) {w : Nat}
    (hw : w ∈ st.log.flatten) : 1 ≤ st.rindex.getD w 0 := by
  have h1 := hwf.c_nonneg hv hf
  have h2 := (hwf.hdone w hw).2
  omega

theorem pwhites_mono (g : AdjacencyList) {a b : PState}
    (h : ∀ v, PVis a v → PVis b v) : pwhites g b ≤ pwhites g a := by
  unfold pwhites
  apply List.countP_mono_left
  intro v _ hv
  by_cases ha : PVis a v
  · have := h v ha
    simp [this] at hv
  · simp [ha]

theorem pwhites_lt (g : AdjacencyList) {a b : PState} {n : Nat}
    (h : ∀ v, PVis a v → PVis b v) (hn : n < g.length)
    (ha : ¬ PVis a n) (hb : PVis b n) : pwhites g b < pwhites g a := by
  unfold pwhites
  apply countP_lt_of_mem _ (List.mem_range.2 hn)
  · simp [ha]
  · simp [hb]
  · intro v _ hv
    by_cases hav : PVis a v
    · have := h v hav
      simp [this] at hv
    · simp [hav]

theorem pwhites_le (g : AdjacencyList) (st : PState) : pwhites g st ≤ g.length := by
  unfold pwhites
  have := List.countP_le_length (fun v => !decide (PVis st v)) (l := List.range g.length)
  simpa using this

/-! ## Pearce: the pop loop -/

theorem getD_set_int_eq (xs : List Int) (i : Nat) (a : Int) (h : i < xs.length) :
    (xs.set i a).getD i 0 = a := getD_set_eq xs i a 0 h

theorem getD_set_int_ne (xs : List Int) (i j : Nat) (a : Int) (h : i ≠ j) :
    (xs.set i a).getD j 0 = xs.getD j 0 := getD_set_ne xs i j a 0 h

theorem pearcePop_spec (v : Nat) (c : Int) (S0 : List Nat) :
    ∀ (seg : List Nat) (rindex : List Int) (scc : List Nat) (index : Int),
      (seg ++ S0).Nodup → v ∉ seg ++ S0 → v < rindex.length →
      (∀ u, u ∈ seg ++ S0 → u < rindex.length) →
      (∀ u, u ∈ seg → rindex.getD v 0 ≤ rindex.getD u 0) →
      (∀ z, z ∈ S0 → rindex.getD z 0 < rindex.getD v 0) →
      ∃ r1, pearcePop v c (seg ++ S0) rindex scc index =
          .ok (S0, r1, scc ++ seg, index - (seg.length : Int)) ∧
        r1.length = rindex.length ∧ (∀ u, u ∈ seg → r1.getD u 0 = c) ∧
        (∀ u, u ∉ seg → r1.getD u 0 = rindex.getD u 0) := by
  intro seg
  induction seg with
  | nil =>
    intro rindex scc index _ _ hv hlt _ hS0
    refine ⟨rindex, ?_, rfl, fun u hu => absurd hu (List.not_mem_nil u), fun u _ => rfl⟩
    rw [List.nil_append, List.append_nil]
    simp only [List.length_nil, Int.Nat.cast_ofNat_Int, sub_zero]
    cases S0 with
    | nil => rfl
    | cons z S0 =>
      rw [pearcePop, idx_int_getD hv, idx_int_getD (hlt z (by simp))]
      simp only []
      rw [if_pos (hS0 z (List.mem_cons_self _ _))]
  | cons w seg ih =>
    intro rindex scc index hnd hvn hv hlt hseg hS0
    have hwlt : w < rindex.length := hlt w (by simp)
    have hvw : v ≠ w := by
      intro e
      apply hvn
      rw [e]
      simp
    rw [List.cons_append] at hnd
    have hnd2 := (List.nodup_cons.1 hnd).2
    have hwn := (List.nodup_cons.1 hnd).1
    have hne : ∀ u, u ∈ seg ++ S0 → w ≠ u := fun u hu e => hwn (by rw [e]; exact hu)
    obtain ⟨r1, e1, e2, e3, e4⟩ := ih (rindex.set w c) (scc ++ [w]) (index - 1) hnd2
      (fun hm => hvn (by rw [List.cons_append]; exact List.mem_cons_of_mem _ hm))
      (by rw [List.length_set]; exact hv)
      (fun u hu => by
        rw [List.length_set]
        exact hlt u (by rw [List.cons_append]; exact List.mem_cons_of_mem _ hu))
      (fun u hu => by
        rw [getD_set_int_ne _ _ _ _ hvw.symm,
          getD_set_int_ne _ _ _ _ (hne u (List.mem_append_left _ hu))]
        exact hseg u (List.mem_cons_of_mem _ hu))
      (fun z hz => by
        rw [getD_set_int_ne _ _ _ _ hvw.symm,
          getD_set_int_ne _ _ _ _ (hne z (List.mem_append_right _ hz))]
        exact hS0 z hz)
    refine ⟨r1, ?_, by rw [e2, List.length_set], ?_, ?_⟩
    · rw [List.cons_append, pearcePop, idx_int_getD hv, idx_int_getD hwlt]
      simp only []
      rw [if_neg (by have := hseg w (List.mem_cons_self _ _); omega), e1]
      simp only [List.append_assoc, List.singleton_append, List.length_cons, Nat.cast_add,
        Nat.cast_one]
      have e5 : index - 1 - (seg.length : Int) = index - ((seg.length : Int) + 1) := by omega
      rw [e5]
    · intro u hu
      rcases List.mem_cons.1 hu with e | e
      · by_cases hws : w ∈ seg
        · rw [e]; exact e3 w hws
        · rw [e, e4 w hws, getD_set_int_eq _ _ _ hwlt]
      · exact e3 u e
    · intro u hu
      have hu1 : u ∉ seg := fun hm => hu (List.mem_cons_of_mem _ hm)
      have hu2 : w ≠ u := fun e => hu (by rw [e]; exact List.mem_cons_self _ _)
      rw [e4 u hu1, getD_set_int_ne _ _ _ _ hu2]

/-! ## Pearce: the loop over the successors -/

theorem PVis.of_set {st : PState} {n : Nat} {x : Int} (hx : x ≠ 0)
    (hn : st.rindex.getD n 0 ≠ 0) (hlt : n < st.rindex.length) (v : Nat) :
    PVis { st with rindex := st.rindex.set n x } v ↔ PVis st v := by
  unfold PVis
  dsimp only
  by_cases e : v = n
  · rw [e, getD_set_int_eq _ _ _ hlt]
    constructor
    · intro _; exact Or.inl hn
    · intro _; exact Or.inl hx
  · rw [getD_set_int_ne _ _ _ _ (Ne.symm e)]

theorem PWf.head_active {g : AdjacencyList} {P : List Nat} {n : Nat} {st : PState}
    (hwf : PWf g (n :: P) st) :
    n < g.length ∧ st.rindex.getD n 0 ≠ 0 ∧ n ∉ st.log.flatten :=
  (hwf.hact n).1 (by simp)

theorem PWf.vis_pos {g : AdjacencyList} {P : List Nat} {n : Nat} {st : PState}
    (hwf : PWf g (n :: P) st) {w : Nat} (hw : PVis st w) : 1 ≤ st.rindex.getD w 0 := by
  rcases (hwf.vis_iff w).1 hw with h | h
  · exact (hwf.hri w h).1
  · exact hwf.done_pos hwf.head_active.1 hwf.head_active.2.2 h

theorem PWf.lower_rindex {g : AdjacencyList} {P : List Nat} {n : Nat} {st : PState}
    (hwf : PWf g (n :: P) st) {x : Int} (h1 : 1 ≤ x) (h2 : x ≤ st.rindex.getD n 0) :
    PWf g (n :: P) { st with rindex := st.rindex.set n x } := by
  have hnmem : n ∈ (n :: P) ++ st.S := by simp
  have hnact := hwf.head_active
  have hnlt : n < st.rindex.length := by rw [hwf.hlen]; exact hnact.1
  refine ⟨by dsimp only; rw [List.length_set]; exact hwf.hlen, hwf.hnd, ?_, hwf.hidx, hwf.hc,
    ?_, ?_, hwf.hjoin, hwf.hscc, hwf.hne, hwf.htopo⟩
  · intro v
    dsimp only
    by_cases e : v = n
    · rw [e, getD_set_int_eq _ _ _ hnlt]
      constructor
      · intro _; exact ⟨hnact.1, by omega, hnact.2.2⟩
      · intro _; exact hnmem
    · rw [getD_set_int_ne _ _ _ _ (Ne.symm e)]; exact hwf.hact v
  · intro v hv
    dsimp only
    by_cases e : v = n
    · rw [e, getD_set_int_eq _ _ _ hnlt]
      have := (hwf.hri n hnmem).2
      exact ⟨h1, by omega⟩
    · rw [getD_set_int_ne _ _ _ _ (Ne.symm e)]; exact hwf.hri v hv
  · intro v hv
    have e : v ≠ n := fun e => hnact.2.2 (by rw [← e]; exact hv)
    dsimp only
    rw [getD_set_int_ne _ _ _ _ (Ne.symm e)]; exact hwf.hdone v hv

theorem PLoopInv.pearce_enter {g : AdjacencyList} {P : List Nat} {st : PState} {n : Nat}
    (hwf : PWf g P st) (hn : n < g.length) (hni : ¬ PVis st n) :
    PLoopInv g P n st []
      { st with rindex := st.rindex.set n st.index, index := st.index + 1 } true := by
  have hnlt : n < st.rindex.length := by rw [hwf.hlen]; exact hn
  have hnmem : n ∉ P ++ st.S := fun h => hni ((hwf.vis_iff n).2 (Or.inl h))
  have hnf : n ∉ st.log.flatten := fun h => hni (Or.inr h)
  have hipos : 1 ≤ st.index := by
    have := hwf.hidx
    omega
  have hne : ∀ v, (v ∈ P ++ st.S ∨ v ∈ st.log.flatten) → n ≠ v := by
    intro v hv e
    rcases hv with h | h
    · exact hnmem (by rw [e]; exact h)
    · exact hnf (by rw [e]; exact h)
  have hwf1 : PWf g (n :: P)
      { st with rindex := st.rindex.set n st.index, index := st.index + 1 } := by
    refine ⟨by dsimp only; rw [List.length_set]; exact hwf.hlen, ?_, ?_, ?_, hwf.hc, ?_, ?_,
      hwf.hjoin, hwf.hscc, hwf.hne, hwf.htopo⟩
    · rw [List.cons_append]
      exact List.nodup_cons.2 ⟨hnmem, hwf.hnd⟩
    · intro v
      dsimp only
      rw [List.cons_append, List.mem_cons]
      by_cases e : v = n
      · rw [e, getD_set_int_eq _ _ _ hnlt]
        constructor
        · intro _; exact ⟨hn, by omega, hnf⟩
        · intro _; exact Or.inl rfl
      · rw [getD_set_int_ne _ _ _ _ (Ne.symm e)]
        constructor
        · rintro (h | h)
          · exact absurd h e
          · exact (hwf.hact v).1 h
        · intro h; exact Or.inr ((hwf.hact v).2 h)
    · dsimp only
      rw [List.cons_append, List.length_cons, hwf.hidx]
      push_cast
      ring
    · intro v hv
      dsimp only
      rw [List.cons_append, List.mem_cons] at hv
      by_cases e : v = n
      · rw [e, getD_set_int_eq _ _ _ hnlt]
        exact ⟨hipos, by omega⟩
      · rw [getD_set_int_ne _ _ _ _ (Ne.symm e)]
        rcases hv with h | h
        · exact absurd h e
        · have := hwf.hri v h
          exact ⟨this.1, by omega⟩
    · intro v hv
      dsimp only
      rw [getD_set_int_ne _ _ _ _ (hne v (Or.inr hv))]
      exact hwf.hdone v hv
  have hvis : ∀ v, PVis st v →
      PVis { st with rindex := st.rindex.set n st.index, index := st.index + 1 } v := by
    intro v hv
    have e : n ≠ v := fun e => hni (by rw [e]; exact hv)
    unfold PVis at hv ⊢
    dsimp only
    rw [getD_set_int_ne _ _ _ _ e]
    exact hv
  refine ⟨hwf1, ?_, hvis, ⟨[], by simp⟩, ?_, ?_, ?_, ?_, ?_, ?_, ?_⟩
  · intro v hv
    dsimp only
    rw [getD_set_int_ne _ _ _ _ (hne v hv)]
  · intro v hv hv0 hvn w _
    exfalso
    apply hv0
    unfold PVis at hv ⊢
    dsimp only at hv
    rw [getD_set_int_ne _ _ _ _ (Ne.symm hvn)] at hv
    exact hv
  · intro w hw; cases hw
  · dsimp only
    rw [getD_set_int_eq _ _ _ hnlt]
  · dsimp only
    rw [getD_set_int_eq _ _ _ hnlt]
    simp
  · dsimp only
    rw [getD_set_int_eq _ _ _ hnlt]
    intro h
    omega
  · refine ⟨[], rfl, ?_, ?_, ?_⟩
    · intro v hv; cases hv
    · intro v hv; cases hv
    · intro u hu; cases hu
  · intro w hw; cases hw

/-- The nodes active at the call of `visit(n)` and the nodes put on the stack since
all reach `n`. -/
theorem PLoopInv.pearce_reachS {g : AdjacencyList} {P : List Nat} {n : Nat} {st0 st : PState}
    {done : List Nat} {root : Bool} (h : PLoopInv g P n st0 done st root)
    (hpre : ∀ v, v ∈ P ++ st0.S → Reach g v n) :
    ∀ w, w ∈ (n :: P) ++ st.S → Reach g w n := by
  intro w hw
  obtain ⟨seg, s1, s2, _⟩ := h.stack
  rw [s1, List.cons_append, List.mem_cons, List.mem_append, List.mem_append] at hw
  rcases hw with e | e | e | e
  · rw [e]; exact Reach.refl g n
  · exact hpre w (List.mem_append_left _ e)
  · exact (s2 w e).2
  · exact hpre w (List.mem_append_right _ e)

theorem PLoopInv.old_mem {g : AdjacencyList} {P : List Nat} {n : Nat} {st0 st : PState}
    {done : List Nat} {root : Bool} (h : PLoopInv g P n st0 done st root) {v : Nat}
    (hv : v ∈ P ++ st0.S) : v ∈ (n :: P) ++ st.S ∧ v ≠ n := by
  obtain ⟨seg, s1, _⟩ := h.stack
  have hmem : v ∈ (n :: P) ++ st.S := by
    rw [s1, List.cons_append, List.mem_cons, List.mem_append, List.mem_append]
    rcases List.mem_append.1 hv with e | e
    · exact Or.inr (Or.inl e)
    · exact Or.inr (Or.inr (Or.inr e))
  refine ⟨hmem, ?_⟩
  intro e
  have hnd := h.wf.hnd
  rw [s1, List.cons_append] at hnd
  apply (List.nodup_cons.1 hnd).1
  rw [← e, List.mem_append, List.mem_append]
  rcases List.mem_append.1 hv with e1 | e1
  · exact Or.inl e1
  · exact Or.inr (Or.inr e1)

/-- One successor `w` of `n` has been looked at: `st1` are the variables after the
call `visit(w)`, if there was one, and `st2` those after the comparison of
`rindex[w]` with `rindex[n]`. -/
theorem PLoopInv.advance_core {g : AdjacencyList} {P : List Nat} {n : Nat} {st0 st : PState}
    {done : List Nat} {root : Bool} (h : PLoopInv g P n st0 done st root)
    {st1 st2 : PState} {root2 : Bool} {w : Nat} {segw : List Nat}
    (hkeep : ∀ v, v ∈ (n :: P) ++ st.S ∨ v ∈ st.log.flatten →
      st1.rindex.getD v 0 = st.rindex.getD v 0)
    (hmono : ∀ v, PVis st v → PVis st1 v)
    (hlog : ∃ new, st1.log = st.log ++ new)
    (hclosed : ∀ v, PVis st1 v → ¬ PVis st v → ∀ x, Arc g v x → PVis st1 x)
    (hvis : PVis st1 w)
    (hS : st1.S = segw ++ st.S)
    (hreach : ∀ u, u ∈ segw → Reach g n u ∧ Reach g u n)
    (hsegw : ∀ u, u ∈ segw → st1.rindex.getD w 0 ≤ st1.rindex.getD u 0)
    (harcs : ∀ u, u ∈ segw → ∀ v, v ∈ P ++ st0.S → Arc g u v →
      st1.rindex.getD w 0 ≤ st1.rindex.getD v 0)
    (hwf2 : PWf g (n :: P) st2)
    (hr2 : ∀ v, v ≠ n → st2.rindex.getD v 0 = st1.rindex.getD v 0)
    (hS2 : st2.S = st1.S) (hlog2 : st2.log = st1.log)
    (hvis2 : ∀ v, PVis st2 v ↔ PVis st1 v)
    (hm1 : st2.rindex.getD n 0 ≤ st1.rindex.getD n 0)
    (hm2 : st2.rindex.getD n 0 ≤ st1.rindex.getD w 0)
    (hroot2 : root2 = true ↔ st2.rindex.getD n 0 = st0.index)
    (hloww2 : st2.rindex.getD n 0 < st0.index → ∃ z, z ∈ P ++ st0.S ∧ Reach g n z ∧
      st2.rindex.getD z 0 ≤ st2.rindex.getD n 0) :
    PLoopInv g P n st0 (done ++ [w]) st2 root2 := by
  obtain ⟨seg, s1, s2, s3, s4⟩ := h.stack
  obtain ⟨new0, hnew0⟩ := h.logpre
  obtain ⟨new1, hnew1⟩ := hlog
  have hn1 : st1.rindex.getD n 0 = st.rindex.getD n 0 := hkeep n (Or.inl (by simp))
  have hold : ∀ v, v ∈ P ++ st0.S → st2.rindex.getD v 0 = st.rindex.getD v 0 := by
    intro v hv
    rw [hr2 v (h.old_mem hv).2, hkeep v (Or.inl (h.old_mem hv).1)]
  have hnS : n ∉ st2.S := by
    have hnd := hwf2.hnd
    rw [List.cons_append] at hnd
    intro hm
    exact (List.nodup_cons.1 hnd).1 (List.mem_append_right _ hm)
  have hsegn : ∀ u, u ∈ segw ++ seg → u ≠ n := by
    intro u hu e
    apply hnS
    rw [hS2, hS, s1, ← List.append_assoc, ← e]
    exact List.mem_append_left _ hu
  have hseg1 : ∀ u, u ∈ seg → st1.rindex.getD u 0 = st.rindex.getD u 0 := by
    intro u hu
    apply hkeep u
    left
    rw [s1, List.cons_append]
    exact List.mem_cons_of_mem _ (List.mem_append_right _ (List.mem_append_left _ hu))
  refine ⟨hwf2, ?_, ?_, ⟨new0 ++ new1, by rw [hlog2, hnew1, hnew0, List.append_assoc]⟩, ?_, ?_,
    ?_, hroot2, hloww2, ?_, ?_⟩
  · intro v hv
    have hvn : v ≠ n := by
      rcases hv with e | e
      · exact (h.old_mem e).2
      · intro e1
        apply h.wf.head_active.2.2
        rw [hnew0, List.flatten_append, ← e1]
        exact List.mem_append_left _ e
    rw [hr2 v hvn, ← h.keep v hv]
    apply hkeep v
    rcases hv with e | e
    · exact Or.inl (h.old_mem e).1
    · right
      rw [hnew0, List.flatten_append]
      exact List.mem_append_left _ e
  · intro v hv
    exact (hvis2 v).2 (hmono v (h.mono v hv))
  · intro v hv hv0 hvn x hx
    rw [hvis2] at hv ⊢
    by_cases hvs : PVis st v
    · exact hmono x (h.closed v hvs hv0 hvn x hx)
    · exact hclosed v hv hvs x hx
  · intro x hx
    rw [hvis2]
    rcases List.mem_append.1 hx with e | e
    · exact hmono x (h.hdone x e)
    · rw [List.mem_singleton.1 e]; exact hvis
  · have := h.hnle
    omega
  · refine ⟨segw ++ seg, by rw [hS2, hS, s1, List.append_assoc], ?_, ?_, ?_⟩
    · intro v hv
      rcases List.mem_append.1 hv with e | e
      · exact hreach v e
      · exact s2 v e
    · intro v hv
      rw [hr2 v (hsegn v hv)]
      rcases List.mem_append.1 hv with e | e
      · have := hsegw v e
        omega
      · have := s3 v e
        rw [hseg1 v e]
        omega
    · intro u hu v hv huv
      rw [hold v hv]
      rcases List.mem_append.1 hu with e | e
      · have := harcs u e v hv huv
        have h3 := hkeep v (Or.inl (h.old_mem hv).1)
        omega
      · have := s4 u e v hv huv
        omega
  · intro x hx hxS
    rw [hold x hxS]
    rcases List.mem_append.1 hx with e | e
    · have := h.hdoneS x e hxS
      omega
    · rw [List.mem_singleton.1 e] at hxS ⊢
      have := hkeep w (Or.inl (h.old_mem hxS).1)
      omega

/-- One successor `w` of `n` has been looked at and `rindex[n]` lowered to
`rindex[w]` if that is smaller. -/
theorem PLoopInv.advance {g : AdjacencyList} {P : List Nat} {n : Nat} {st0 st : PState}
    {done : List Nat} {root : Bool} (h : PLoopInv g P n st0 done st root)
    {st1 : PState} {w : Nat} {segw : List Nat}
    (hwf1 : PWf g (n :: P) st1)
    (hkeep : ∀ v, v ∈ (n :: P) ++ st.S ∨ v ∈ st.log.flatten →
      st1.rindex.getD v 0 = st.rindex.getD v 0)
    (hmono : ∀ v, PVis st v → PVis st1 v)
    (hlog : ∃ new, st1.log = st.log ++ new)
    (hclosed : ∀ v, PVis st1 v → ¬ PVis st v → ∀ x, Arc g v x → PVis st1 x)
    (hvis : PVis st1 w)
    (hS : st1.S = segw ++ st.S)
    (hreach : ∀ u, u ∈ segw → Reach g n u ∧ Reach g u n)
    (hsegw : ∀ u, u ∈ segw → st1.rindex.getD w 0 ≤ st1.rindex.getD u 0)
    (harcs : ∀ u, u ∈ segw → ∀ v, v ∈ P ++ st0.S → Arc g u v →
      st1.rindex.getD w 0 ≤ st1.rindex.getD v 0)
    (hwit : st1.rindex.getD w 0 < st1.rindex.getD n 0 → ∃ z, z ∈ P ++ st0.S ∧
      Reach g n z ∧ st1.rindex.getD z 0 ≤ st1.rindex.getD w 0) :
    PLoopInv g P n st0 (done ++ [w]) (pearceLower n w st1 root).1
      (pearceLower n w st1 root).2 := by
  have hn1 : st1.rindex.getD n 0 = st.rindex.getD n 0 := hkeep n (Or.inl (by simp))
  have hnact := hwf1.head_active
  have hnlt : n < st1.rindex.length := by rw [hwf1.hlen]; exact hnact.1
  by_cases hlt : st1.rindex.getD w 0 < st1.rindex.getD n 0
  · have hpos := hwf1.vis_pos hvis
    have e : pearceLower n w st1 root =
        ({ st1 with rindex := st1.rindex.set n (st1.rindex.getD w 0) }, false) := by
      rw [pearceLower, if_pos hlt]
    rw [e]
    refine h.advance_core hkeep hmono hlog hclosed hvis hS hreach hsegw harcs
      (hwf1.lower_rindex hpos (le_of_lt hlt)) ?_ rfl rfl
      (PVis.of_set (by omega) hnact.2.1 hnlt) ?_ ?_ ?_ ?_
    · intro v hv
      dsimp only
      rw [getD_set_int_ne _ _ _ _ (Ne.symm hv)]
    · dsimp only
      rw [getD_set_int_eq _ _ _ hnlt]
      exact le_of_lt hlt
    · dsimp only
      rw [getD_set_int_eq _ _ _ hnlt]
    · dsimp only
      rw [getD_set_int_eq _ _ _ hnlt]
      have := h.hnle
      constructor
      · intro hf; cases hf
      · intro hf; omega
    · intro _
      obtain ⟨z, hz1, hz2, hz3⟩ := hwit hlt
      refine ⟨z, hz1, hz2, ?_⟩
      dsimp only
      rw [getD_set_int_eq _ _ _ hnlt, getD_set_int_ne _ _ _ _ (Ne.symm (h.old_mem hz1).2)]
      exact hz3
  · have e : pearceLower n w st1 root = (st1, root) := by
      rw [pearceLower, if_neg hlt]
    rw [e]
    refine h.advance_core hkeep hmono hlog hclosed hvis hS hreach hsegw harcs hwf1
      (fun v _ => rfl) rfl rfl (fun v => Iff.rfl) (le_refl _) (not_lt.1 hlt) ?_ ?_
    · rw [hn1]; exact h.hroot
    · intro hx
      rw [hn1] at hx
      obtain ⟨z, hz1, hz2, hz3⟩ := h.hloww hx
      refine ⟨z, hz1, hz2, ?_⟩
      rw [hn1, hkeep z (Or.inl (h.old_mem hz1).1)]
      exact hz3

/-! ## Pearce: the end of `visit` -/

theorem PLoopInv.pearce_nonroot {g : AdjacencyList} {P : List Nat} {n : Nat} {st0 st : PState}
    {adj : List Nat} (h : PLoopInv g P n st0 adj st false)
    (hadj : ∀ w, Arc g n w → w ∈ adj) :
    PPost g P n st0 { st with S := n :: st.S } := by
  obtain ⟨seg, s1, s2, s3, s4⟩ := h.stack
  have hperm : (P ++ n :: st.S).Perm ((n :: P) ++ st.S) := List.perm_middle
  have hnact := h.wf.head_active
  have hwf : PWf g P { st with S := n :: st.S } := by
    refine ⟨h.wf.hlen, hperm.nodup_iff.2 h.wf.hnd, ?_, ?_, h.wf.hc, ?_, h.wf.hdone, h.wf.hjoin,
      h.wf.hscc, h.wf.hne, h.wf.htopo⟩
    · intro v
      show v ∈ P ++ n :: st.S ↔ _
      rw [hperm.mem_iff]
      exact h.wf.hact v
    · show st.index = 1 + ((P ++ n :: st.S).length : Int)
      rw [hperm.length_eq]
      exact h.wf.hidx
    · intro v hv
      exact h.wf.hri v (hperm.mem_iff.1 hv)
  refine ⟨hwf, h.keep, h.mono, Or.inl hnact.2.1, ?_, h.logpre, ?_, ?_⟩
  · intro v hv hv0 w hw
    by_cases hvn : v = n
    · rw [hvn] at hw
      exact h.hdone w (hadj w hw)
    · exact h.closed v hv hv0 hvn w hw
  · intro w hw hw0
    exfalso
    have := h.wf.done_pos hnact.1 hnact.2.2 hw
    change st.rindex.getD w 0 = 0 at hw0
    omega
  · refine ⟨n :: seg, by show n :: st.S = _; rw [s1]; rfl, ?_, ?_, ?_, ?_⟩
    · intro v hv
      rcases List.mem_cons.1 hv with e | e
      · rw [e]; exact ⟨Reach.refl g n, Reach.refl g n⟩
      · exact s2 v e
    · intro v hv
      rcases List.mem_cons.1 hv with e | e
      · rw [e]
      · exact s3 v e
    · right
      refine ⟨List.mem_cons_self _ _, ?_⟩
      apply h.hloww
      have h1 := h.hnle
      have h2 : st.rindex.getD n 0 ≠ st0.index := fun e => by
        have := h.hroot.2 e
        cases this
      omega
    · intro u hu v hv huv
      rcases List.mem_cons.1 hu with e | e
      · rw [e] at huv
        exact h.hdoneS v (hadj v huv) hv
      · exact s4 u e v hv huv

theorem PLoopInv.pearce_root {g : AdjacencyList} {P : List Nat} {n : Nat} {st0 st : PState}
    {adj : List Nat} (h : PLoopInv g P n st0 adj st true) (hwf0 : PWf g P st0)
    (hadj : ∀ w, Arc g n w → w ∈ adj) :
    ∃ seg r1, pearcePop n st.c st.S st.rindex [] (st.index - 1) =
        .ok (st0.S, r1, seg, st0.index) ∧
      PPost g P n st0
        { rindex := r1.set n st.c, S := st0.S, index := st0.index, c := st.c - 1,
          log := st.log ++ [seg ++ [n]] } := by
  obtain ⟨seg, s1, s2, s3, s4⟩ := h.stack
  obtain ⟨new0, hnew0⟩ := h.logpre
  have hnact := h.wf.head_active
  have hnlt : n < st.rindex.length := by rw [h.wf.hlen]; exact hnact.1
  have hroot : st.rindex.getD n 0 = st0.index := h.hroot.1 rfl
  have hnd := h.wf.hnd
  rw [List.cons_append] at hnd
  have hnS : n ∉ st.S := fun hm => (List.nodup_cons.1 hnd).1 (List.mem_append_right _ hm)
  have hndS : st.S.Nodup := (List.nodup_cons.1 hnd).2.of_append_right
  have hSact : ∀ u, u ∈ st.S → u ∈ (n :: P) ++ st.S := fun u hu =>
    List.mem_append_right _ hu
  obtain ⟨r1, e1, e2, e3, e4⟩ := pearcePop_spec n st.c st0.S seg st.rindex [] (st.index - 1)
    (by rw [← s1]; exact hndS) (by rw [← s1]; exact hnS) hnlt
    (fun u hu => by
      rw [h.wf.hlen]
      exact ((h.wf.hact u).1 (hSact u (by rw [s1]; exact hu))).1)
    s3
    (fun z hz => by
      rw [hroot, h.keep z (Or.inl (List.mem_append_right _ hz))]
      exact (hwf0.hri z (List.mem_append_right _ hz)).2)
  have hidx : st.index - 1 - (seg.length : Int) = st0.index := by
    rw [h.wf.hidx, hwf0.hidx, s1]
    simp only [List.cons_append, List.length_cons, List.length_append]
    push_cast
    ring
  rw [← s1, hidx, List.nil_append] at e1
  refine ⟨seg, r1, e1, ?_⟩
  have hr1lt : n < r1.length := by rw [e2]; exact hnlt
  have hsegn : ∀ u, u ∈ seg → n ≠ u := fun u hu e =>
    hnS (by rw [s1, e]; exact List.mem_append_left _ hu)
  have hCmem : ∀ v, v ∈ seg ++ [n] ↔ (v ∈ seg ∨ v = n) := by
    intro v; rw [List.mem_append, List.mem_singleton]
  have hCact : ∀ v, v ∈ seg ++ [n] → v ∈ (n :: P) ++ st.S := by
    intro v hv
    rcases (hCmem v).1 hv with e | e
    · exact hSact v (by rw [s1]; exact List.mem_append_left _ e)
    · rw [e]; simp
  have hrC : ∀ v, v ∈ seg ++ [n] → (r1.set n st.c).getD v 0 = st.c := by
    intro v hv
    rcases (hCmem v).1 hv with e | e
    · rw [getD_set_int_ne _ _ _ _ (hsegn v e)]; exact e3 v e
    · rw [e, getD_set_int_eq _ _ _ hr1lt]
  have hrN : ∀ v, v ∉ seg ++ [n] → (r1.set n st.c).getD v 0 = st.rindex.getD v 0 := by
    intro v hv
    have h1 : v ∉ seg := fun hm => hv ((hCmem v).2 (Or.inl hm))
    have h2 : n ≠ v := fun e => hv ((hCmem v).2 (Or.inr e.symm))
    rw [getD_set_int_ne _ _ _ _ h2]; exact e4 v h1
  have hCndf : ∀ v, v ∈ seg ++ [n] → v ∉ st.log.flatten := fun v hv =>
    ((h.wf.hact v).1 (hCact v hv)).2.2
  have holdC : ∀ v, v ∈ P ++ st0.S → v ∉ seg ++ [n] := by
    intro v hv hc
    rcases (hCmem v).1 hc with e | e
    · have hnd2 := (List.nodup_cons.1 hnd).2
      rw [s1] at hnd2
      rcases List.mem_append.1 hv with e1 | e1
      · exact (List.nodup_append.1 hnd2).2.2 e1 (List.mem_append_left _ e)
      · exact (List.nodup_append.1 (List.nodup_append.1 hnd2).2.1).2.2 e e1
    · exact (h.old_mem hv).2 e
  have hflat : ∀ v, v ∈ (st.log ++ [seg ++ [n]]).flatten ↔
      (v ∈ st.log.flatten ∨ v ∈ seg ++ [n]) := by
    intro v
    rw [List.flatten_append, List.mem_append]
    simp
  have hCnd : (seg ++ [n]).Nodup := by
    rw [List.nodup_append]
    refine ⟨?_, List.nodup_singleton n, ?_⟩
    · rw [s1] at hndS
      exact hndS.of_append_left
    · intro v hv hv2
      exact hsegn v hv (List.mem_singleton.1 hv2).symm
  have hvis : ∀ v, PVis
      { rindex := r1.set n st.c, S := st0.S, index := st0.index, c := st.c - 1,
        log := st.log ++ [seg ++ [n]] } v ↔ PVis st v := by
    intro v
    unfold PVis
    dsimp only
    rw [hflat]
    by_cases hc : v ∈ seg ++ [n]
    · constructor
      · intro _; exact Or.inl ((h.wf.hact v).1 (hCact v hc)).2.1
      · intro _; exact Or.inr (Or.inr hc)
    · rw [hrN v hc]
      constructor
      · rintro (e | e | e)
        · exact Or.inl e
        · exact Or.inr e
        · exact absurd e hc
      · rintro (e | e)
        · exact Or.inl e
        · exact Or.inr (Or.inl e)
  have hwf : PWf g P
      { rindex := r1.set n st.c, S := st0.S, index := st0.index, c := st.c - 1,
        log := st.log ++ [seg ++ [n]] } := by
    refine ⟨by dsimp only; rw [List.length_set, e2]; exact h.wf.hlen, hwf0.hnd, ?_, hwf0.hidx,
      ?_, ?_, ?_, ?_, ?_, ?_, ?_⟩
    · intro v
      dsimp only
      rw [hflat]
      constructor
      · intro hv
        have hvC := holdC v hv
        have := (h.wf.hact v).1 (h.old_mem hv).1
        rw [hrN v hvC]
        refine ⟨this.1, this.2.1, ?_⟩
        rintro (e | e)
        · exact this.2.2 e
        · exact hvC e
      · rintro ⟨hv1, hv2, hv3⟩
        have hvC : v ∉ seg ++ [n] := fun e => hv3 (Or.inr e)
        rw [hrN v hvC] at hv2
        have hvA := (h.wf.hact v).2 ⟨hv1, hv2, fun e => hv3 (Or.inl e)⟩
        rw [s1, List.cons_append, List.mem_cons, List.mem_append, List.mem_append] at hvA
        rcases hvA with e | e | e | e
        · exact absurd ((hCmem v).2 (Or.inr e)) hvC
        · exact List.mem_append_left _ e
        · exact absurd ((hCmem v).2 (Or.inl e)) hvC
        · exact List.mem_append_right _ e
    · dsimp only
      have := h.wf.hc
      rw [List.length_append, List.length_singleton]
      push_cast
      omega
    · intro v hv
      dsimp only
      rw [hrN v (holdC v hv), h.keep v (Or.inl hv)]
      exact hwf0.hri v hv
    · intro v hv
      dsimp only
      rcases (hflat v).1 hv with e | e
      · have hvC : v ∉ seg ++ [n] := fun hc => hCndf v hc e
        rw [hrN v hvC]
        have := h.wf.hdone v e
        exact ⟨this.1, by omega⟩
      · rw [hrC v e]
        exact ⟨((h.wf.hact v).1 (hCact v e)).1, by omega⟩
    · dsimp only
      rw [List.flatten_append, List.nodup_append]
      refine ⟨h.wf.hjoin, by simpa using hCnd, ?_⟩
      intro v hv hv2
      have : v ∈ seg ++ [n] := by simpa using hv2
      exact hCndf v this hv
    · intro c hc u hu v hv
      change c ∈ st.log ++ [seg ++ [n]] at hc
      rcases List.mem_append.1 hc with e | e
      · exact h.wf.hscc c e u hu v hv
      · rw [List.mem_singleton] at e
        subst e
        have hun : Reach g u n := by
          rcases (hCmem u).1 hu with e | e
          · exact (s2 u e).2
          · rw [e]; exact Reach.refl g n
        have hnv : Reach g n v := by
          rcases (hCmem v).1 hv with e | e
          · exact (s2 v e).1
          · rw [e]; exact Reach.refl g n
        exact Reach.trans hun hnv
    · intro c hc
      change c ∈ st.log ++ [seg ++ [n]] at hc
      rcases List.mem_append.1 hc with e | e
      · exact h.wf.hne c e
      · rw [List.mem_singleton] at e
        rw [e]; simp
    · intro i u w hu huw
      change u ∈ (st.log ++ [seg ++ [n]]).getD i [] at hu
      show ∃ j, j ≤ i ∧ w ∈ (st.log ++ [seg ++ [n]]).getD j []
      rw [getD_append_singleton] at hu
      by_cases h1 : i < st.log.length
      · rw [if_pos h1] at hu
        obtain ⟨j, hj1, hj2⟩ := h.wf.htopo i u w hu huw
        refine ⟨j, hj1, ?_⟩
        rw [getD_append_singleton, if_pos (by omega)]
        exact hj2
      · rw [if_neg h1] at hu
        by_cases h2 : i = st.log.length
        · rw [if_pos h2] at hu
          have hwv : PVis st w := by
            rcases (hCmem u).1 hu with e | e
            · have hu0 : ¬ PVis st0 u := by
                intro hv0
                rcases (hwf0.vis_iff u).1 hv0 with e5 | e5
                · exact holdC u e5 hu
                · apply hCndf u hu
                  rw [hnew0, List.flatten_append]
                  exact List.mem_append_left _ e5
              exact h.closed u ((h.wf.vis_iff u).2 (Or.inl (hCact u hu))) hu0
                (hsegn u e).symm w huw
            · rw [e] at huw
              exact h.hdone w (hadj w huw)
          rcases (h.wf.vis_iff w).1 hwv with e | e
          · by_cases hwC : w ∈ seg ++ [n]
            · refine ⟨i, le_refl _, ?_⟩
              rw [getD_append_singleton, if_neg h1, if_pos h2]
              exact hwC
            · exfalso
              have hw0 : w ∈ P ++ st0.S := by
                rw [s1, List.cons_append, List.mem_cons, List.mem_append,
                  List.mem_append] at e
                rcases e with e | e | e | e
                · exact absurd ((hCmem w).2 (Or.inr e)) hwC
                · exact List.mem_append_left _ e
                · exact absurd ((hCmem w).2 (Or.inl e)) hwC
                · exact List.mem_append_right _ e
              have e5 := h.keep w (Or.inl hw0)
              have e6 := (hwf0.hri w hw0).2
              have e7 : st.rindex.getD n 0 ≤ st.rindex.getD w 0 := by
                rcases (hCmem u).1 hu with e | e
                · exact s4 u e w hw0 huw
                · rw [e] at huw
                  exact h.hdoneS w (hadj w huw) hw0
              omega
          · obtain ⟨j, hj1, hj2⟩ := mem_flatten_getD e
            refine ⟨j, by omega, ?_⟩
            rw [getD_append_singleton, if_pos hj1]
            exact hj2
        · rw [if_neg h2] at hu
          cases hu
  refine ⟨hwf, ?_, ?_, ?_, ?_, ?_, ?_, ?_⟩
  · intro v hv
    dsimp only
    have hvC : v ∉ seg ++ [n] := by
      rcases hv with e | e
      · exact holdC v e
      · intro hc
        apply hCndf v hc
        rw [hnew0, List.flatten_append]
        exact List.mem_append_left _ e
    rw [hrN v hvC]
    exact h.keep v hv
  · intro v hv
    exact (hvis v).2 (h.mono v hv)
  · exact (hvis n).2 (Or.inl hnact.2.1)
  · intro v hv hv0 w hw
    rw [hvis] at hv ⊢
    by_cases hvn : v = n
    · rw [hvn] at hw
      exact h.hdone w (hadj w hw)
    · exact h.closed v hv hv0 hvn w hw
  · obtain ⟨new, hnew⟩ := h.logpre
    exact ⟨new ++ [seg ++ [n]], by dsimp only; rw [hnew, List.append_assoc]⟩
  · intro w hw hw0
    dsimp only at hw hw0
    rcases (hflat w).1 hw with e | e
    · exfalso
      have hwC : w ∉ seg ++ [n] := fun hc => hCndf w hc e
      rw [hrN w hwC] at hw0
      have := h.wf.done_pos hnact.1 hnact.2.2 e
      omega
    · rcases (hCmem w).1 e with e5 | e5
      · exfalso
        rw [hrC w e] at hw0
        have hwa := (h.wf.hact w).1 (hCact w e)
        have := h.wf.c_pos hnact.1 hnact.2.2 hwa.1 hwa.2.2 (hsegn w e5)
        omega
      · exact e5
  · refine ⟨[], rfl, ?_, ?_, ?_, ?_⟩
    · intro v hv; cases hv
    · intro v hv; cases hv
    · left
      refine ⟨rfl, ?_⟩
      exact (hflat n).2 (Or.inr ((hCmem n).2 (Or.inr rfl)))
    · intro v hv; cases hv

/-! ## Pearce: the closure `visit` -/

theorem pwhites_lower (g : AdjacencyList) {P : List Nat} {n : Nat} {st : PState}
    (hwf : PWf g (n :: P) st) (w : Nat) (root : Bool) (hw : PVis st w) :
    pwhites g (pearceLower n w st root).1 ≤ pwhites g st := by
  apply pwhites_mono
  intro v hv
  unfold pearceLower
  split
  · have hpos := hwf.vis_pos hw
    have hnact := hwf.head_active
    exact (PVis.of_set (by omega) hnact.2.1 (by rw [hwf.hlen]; exact hnact.1) v).2 hv
  · exact hv

theorem pearceArcs_spec (g : AdjacencyList) (hg : InRange g)
    (call : Nat → PState → Except Fault (Bool × PState)) (fuel : Nat)
    (hcall : ∀ P m st, PWf g P st → m < g.length → ¬ PVis st m →
      (∀ v, v ∈ P ++ st.S → Reach g v m) → pwhites g st ≤ fuel →
      ∃ st1, call m st = .ok (true, st1) ∧ PPost g P m st st1)
    (P : List Nat) (n : Nat) (st0 : PState) (hpre : ∀ v, v ∈ P ++ st0.S → Reach g v n) :
    ∀ (rest done : List Nat) (st : PState) (root : Bool), (∀ w, w ∈ rest → Arc g n w) →
      PLoopInv g P n st0 done st root → pwhites g st ≤ fuel →
      ∃ st1 root1, pearceArcs call n rest st root = .ok (true, st1, root1) ∧
        PLoopInv g P n st0 (done ++ rest) st1 root1 := by
  intro rest
  induction rest with
  | nil =>
    intro done st root _ h _
    exact ⟨st, root, rfl, by rw [List.append_nil]; exact h⟩
  | cons w rest ih =>
    intro done st root harcs h hw
    have harc : Arc g n w := harcs w (List.mem_cons_self _ _)
    have harcs2 : ∀ x, x ∈ rest → Arc g n x := fun x hx => harcs x (List.mem_cons_of_mem _ hx)
    have hcons : done ++ w :: rest = (done ++ [w]) ++ rest := by simp
    have hwlt : w < g.length := Arc.lt_right hg harc
    have hwl : w < st.rindex.length := by rw [h.wf.hlen]; exact hwlt
    obtain ⟨seg, s1, s2, s3, s4⟩ := h.stack
    have hn1 := h.wf.head_active
    have hnmem : n ∈ (n :: P) ++ st.S := by simp
    rw [hcons]
    by_cases hz : st.rindex.getD w 0 = 0
    · have hnv : ¬ PVis st w := by
        intro hv
        have := h.wf.vis_pos hv
        omega
      obtain ⟨st1, hc, hp⟩ := hcall (n :: P) w st h.wf hwlt hnv
        (fun v hv => Reach.trans (h.pearce_reachS hpre v hv) harc.reach) hw
      obtain ⟨segw, t1, t2, t3, t4, t5⟩ := hp.stack
      have hn2 : st1.rindex.getD n 0 = st.rindex.getD n 0 := hp.keep n (Or.inl hnmem)
      have hinv := h.advance hp.wf hp.keep hp.mono hp.logpre hp.closed hp.hn t1
        (fun u hu => by
          refine ⟨Reach.trans harc.reach (t2 u hu).1, ?_⟩
          rcases t4 with ⟨e, _⟩ | ⟨_, z, hz1, hz2, _⟩
          · rw [e] at hu; cases hu
          · exact Reach.trans (t2 u hu).2 (Reach.trans hz2 (h.pearce_reachS hpre z hz1)))
        t3
        (fun u hu v hv huv => t5 u hu v (h.old_mem hv).1 huv)
        (fun hlt => by
          rcases t4 with ⟨_, e⟩ | ⟨_, z, hz1, hz2, hz3⟩
          · exfalso
            have := hp.wf.active_le_done (v := n) (by simp) e
            omega
          · rw [s1, List.cons_append, List.mem_cons, List.mem_append, List.mem_append] at hz1
            rcases hz1 with e | e | e | e
            · exfalso
              rw [e] at hz3
              omega
            · exact ⟨z, List.mem_append_left _ e, Reach.trans harc.reach hz2, hz3⟩
            · exfalso
              have h5 := s3 z e
              have h6 : st1.rindex.getD z 0 = st.rindex.getD z 0 := by
                apply hp.keep z
                left
                rw [s1, List.cons_append]
                exact List.mem_cons_of_mem _
                  (List.mem_append_right _ (List.mem_append_left _ e))
              omega
            · exact ⟨z, List.mem_append_right _ e, Reach.trans harc.reach hz2, hz3⟩)
      obtain ⟨st2, root2, e1, e2⟩ := ih (done ++ [w]) _ _ harcs2 hinv
        (le_trans (pwhites_lower g hp.wf w root hp.hn) (le_trans (pwhites_mono g hp.mono) hw))
      refine ⟨st2, root2, ?_, e2⟩
      rw [pearceArcs, idx_int_getD hwl]
      simp only []
      rw [if_pos hz, hc]
      exact e1
    · have hv : PVis st w := Or.inl hz
      have hinv := @PLoopInv.advance _ _ _ _ _ _ _ h st w [] h.wf (fun v _ => rfl)
        (fun v hv => hv) ⟨[], by simp⟩ (fun v hv hv0 => absurd hv hv0) hv rfl
        (fun u hu => by cases hu) (fun u hu => by cases hu) (fun u hu => by cases hu)
        (fun hlt => by
          rcases (h.wf.vis_iff w).1 hv with e | e
          · rw [s1, List.cons_append, List.mem_cons, List.mem_append, List.mem_append] at e
            rcases e with e | e | e | e
            · exfalso
              rw [e] at hlt
              omega
            · exact ⟨w, List.mem_append_left _ e, harc.reach, le_refl _⟩
            · exfalso
              have := s3 w e
              omega
            · exact ⟨w, List.mem_append_right _ e, harc.reach, le_refl _⟩
          · exfalso
            have := h.wf.active_le_done hnmem e
            omega)
      obtain ⟨st2, root2, e1, e2⟩ := ih (done ++ [w]) _ _ harcs2 hinv
        (le_trans (pwhites_lower g h.wf w root hv) hw)
      refine ⟨st2, root2, ?_, e2⟩
      rw [pearceArcs, idx_int_getD hwl]
      simp only []
      rw [if_neg hz]
      exact e1

theorem pearceVisit_spec (g : AdjacencyList) (hg : InRange g) :
    ∀ (fuel : Nat) (P : List Nat) (n : Nat) (st : PState), PWf g P st → n < g.length →
      ¬ PVis st n → (∀ v, v ∈ P ++ st.S → Reach g v n) → pwhites g st ≤ fuel →
      ∃ st1, pearceVisit g emitAll fuel n st = .ok (true, st1) ∧ PPost g P n st st1 := by
  intro fuel
  induction fuel with
  | zero =>
    intro P n st hwf hn hni _ hw
    exfalso
    have hinv := PLoopInv.pearce_enter hwf hn hni
    have := pwhites_lt g hinv.mono hn hni (Or.inl hinv.wf.head_active.2.1)
    omega
  | succ fuel ih =>
    intro P n st hwf hn hni hpre hw
    have hinv := PLoopInv.pearce_enter hwf hn hni
    have hw1 : pwhites g
        { st with rindex := st.rindex.set n st.index, index := st.index + 1 } ≤ fuel := by
      have := pwhites_lt g hinv.mono hn hni (Or.inl hinv.wf.head_active.2.1)
      omega
    have hnlt : n < st.rindex.length := by rw [hwf.hlen]; exact hn
    obtain ⟨st2, root2, e1, e2⟩ := pearceArcs_spec g hg (pearceVisit g emitAll fuel) fuel ih P n
      st hpre (g.getD n []) [] _ true (fun w hw => hw) hinv hw1
    rw [List.nil_append] at e2
    cases root2 with
    | false =>
      refine ⟨_, ?_, e2.pearce_nonroot (fun w hw => hw)⟩
      rw [pearceVisit, if_pos hnlt, idx_eq_getD hn]
      simp only []
      rw [e1]
    | true =>
      obtain ⟨seg, r1, p1, p2⟩ := e2.pearce_root hwf (fun w hw => hw)
      refine ⟨_, ?_, p2⟩
      rw [pearceVisit, if_pos hnlt, idx_eq_getD hn]
      simp only []
      rw [e1]
      simp only []
      rw [p1]
      rfl

/-! ## Pearce: the main loop -/

theorem pearceLoop_spec (g : AdjacencyList) (hg : InRange g) (fuel : Nat)
    (hfuel : g.length ≤ fuel) :
    ∀ (nodes : List Nat) (st : PState), PWf g [] st → st.S = [] → nodes.Nodup →
      (∀ v, v ∈ nodes → v < g.length) →
      (∀ w, w ∈ st.log.flatten → st.rindex.getD w 0 = 0 → w ∉ nodes) →
      ∃ st1, pearceLoop g emitAll fuel nodes st = .ok st1 ∧ PWf g [] st1 ∧ st1.S = [] ∧
        (∀ v, PVis st v → PVis st1 v) ∧ (∀ v, v ∈ nodes → PVis st1 v) := by
  intro nodes
  induction nodes with
  | nil =>
    intro st hwf hS _ _ _
    exact ⟨st, rfl, hwf, hS, fun v hv => hv, fun v hv => by cases hv⟩
  | cons n rest ih =>
    intro st hwf hS hnd hlt hzero
    have hrest : ∀ v, v ∈ rest → v < g.length := fun v hv => hlt v (List.mem_cons_of_mem _ hv)
    have hnd2 := (List.nodup_cons.1 hnd).2
    have hnr := (List.nodup_cons.1 hnd).1
    by_cases hz : st.rindex.getD n 0 = 0
    · have hni : ¬ PVis st n := by
        rintro (e | e)
        · exact e hz
        · exact hzero n e hz (List.mem_cons_self _ _)
      obtain ⟨st1, e1, hp⟩ := pearceVisit_spec g hg fuel [] n st hwf
        (hlt n (List.mem_cons_self _ _)) hni
        (fun v hv => by rw [hS] at hv; cases hv) (le_trans (pwhites_le g _) hfuel)
      have hS1 : st1.S = [] := by
        obtain ⟨seg, t1, _, _, t4, _⟩ := hp.stack
        rcases t4 with ⟨e, _⟩ | ⟨_, z, hz1, _⟩
        · rw [t1, e, hS]; rfl
        · rw [hS] at hz1; cases hz1
      obtain ⟨st2, e2, h1, h2, h3, h4⟩ := ih st1 hp.wf hS1 hnd2 hrest (by
        intro w hw hw0 hwr
        rw [hp.zero w hw hw0] at hwr
        exact hnr hwr)
      refine ⟨st2, ?_, h1, h2, fun v hv => h3 v (hp.mono v hv), ?_⟩
      · rw [pearceLoop, if_pos hz, e1]
        exact e2
      · intro v hv
        rcases List.mem_cons.1 hv with e | e
        · rw [e]; exact h3 n hp.hn
        · exact h4 v e
    · obtain ⟨st2, e2, h1, h2, h3, h4⟩ := ih st hwf hS hnd2 hrest
        (fun w hw hw0 hwr => hzero w hw hw0 (List.mem_cons_of_mem _ hwr))
      refine ⟨st2, ?_, h1, h2, h3, ?_⟩
      · rw [pearceLoop, if_neg hz]
        exact e2
      · intro v hv
        rcases List.mem_cons.1 hv with e | e
        · rw [e]; exact h3 n (Or.inl hz)
        · exact h4 v e

theorem getD_replicate_zero (k v : Nat) : (List.replicate k (0 : Int)).getD v 0 = 0 := by
  by_cases h : v < k
  · rw [List.getD_eq_getElem _ _ (by simpa using h)]
    simp
  · rw [List.getD_eq_default _ _ (by simpa using h)]

theorem PWf.pearce_init (g : AdjacencyList) : PWf g [] (pearceInit g) := by
  refine ⟨by simp [pearceInit], by simp [pearceInit], ?_, by simp [pearceInit],
    by simp [pearceInit], ?_, ?_, by simp [pearceInit], ?_, ?_, ?_⟩
  · intro v
    constructor
    · intro hv; simp [pearceInit] at hv
    · rintro ⟨_, h, _⟩
      exfalso
      apply h
      exact getD_replicate_zero _ _
  · intro v hv; simp [pearceInit] at hv
  · intro v hv; simp [pearceInit] at hv
  · intro c hc; simp [pearceInit] at hc
  · intro c hc; simp [pearceInit] at hc
  · intro i u w hu; simp [pearceInit] at hu

/-- The emitted components when `emit` always returns true: they are not empty, hold
each node once, are strongly connected, and arcs lead to components emitted before. -/
theorem SCCPearce_spec (g : AdjacencyList) (hg : InRange g) (fuel : Nat)
    (hfuel : g.length ≤ fuel) :
    ∃ comps, SCCPearce fuel g emitAll = .ok comps ∧
      comps.flatten.Perm (List.range g.length) ∧
      (∀ c, c ∈ comps → c ≠ []) ∧
      (∀ c, c ∈ comps → ∀ u, u ∈ c → ∀ v, v ∈ c → Reach g u v) ∧
      (∀ i u w, u ∈ comps.getD i [] → Arc g u w → ∃ j, j ≤ i ∧ w ∈ comps.getD j []) := by
  obtain ⟨st, e, hwf, hS, _, hall⟩ := pearceLoop_spec g hg fuel hfuel (List.range g.length)
    (pearceInit g) (PWf.pearce_init g) rfl (List.nodup_range _)
    (fun v hv => List.mem_range.1 hv) (fun w hw => by simp [pearceInit] at hw)
  refine ⟨st.log, by rw [SCCPearce, e]; rfl, ?_, hwf.hne, hwf.hscc, hwf.htopo⟩
  rw [List.perm_ext_iff_of_nodup hwf.hjoin (List.nodup_range _)]
  intro v
  rw [List.mem_range]
  constructor
  · intro h; exact (hwf.hdone v h).1
  · intro h
    rcases (hwf.vis_iff v).1 (hall v (List.mem_range.2 h)) with e1 | e1
    · rw [hS] at e1; cases e1
    · exact e1

/-! ## Condensation -/

theorem condFill_spec : ∀ (rest pre done : List (List Nat)), pre.length = rest.length →
    condFill (((pre.length + done.length : Nat) : Int) - 1) done.length rest (pre ++ done) =
      .ok (rest.reverse ++ done) := by
  intro rest
  induction rest with
  | nil =>
    intro pre done h
    have : pre = [] := List.length_eq_zero.1 h
    rw [this]
    rfl
  | cons ci rest ih =>
    intro pre done h
    rcases List.eq_nil_or_concat pre with e | ⟨pre1, x, e⟩
    · rw [e] at h; simp at h
    · rw [List.concat_eq_append] at e
      subst e
      have hl : pre1.length = rest.length := by
        simp only [List.length_append, List.length_cons, List.length_nil] at h
        omega
      have hk : (((pre1 ++ [x]).length + done.length : Nat) : Int) - 1 - (done.length : Int)
          = Int.ofNat pre1.length := by
        simp only [List.length_append, List.length_singleton, Int.ofNat_eq_coe]
        push_cast
        ring
      have hset : (pre1 ++ [x] ++ done).set pre1.length ci = pre1 ++ (ci :: done) := by
        rw [List.append_assoc, List.set_append_right _ _ (le_refl _)]
        simp
      have hlen : ((pre1 ++ [x]).length + done.length : Nat) =
          (pre1.length + (ci :: done).length : Nat) := by
        simp only [List.length_append, List.length_cons, List.length_nil]
        omega
      rw [condFill, hk]
      simp only []
      rw [if_pos (by simp), hset, hlen]
      have := ih pre1 (ci :: done) hl
      simp only [List.length_cons] at this ⊢
      rw [this, List.reverse_cons, List.append_assoc]
      rfl

theorem condFill_reverse (r : List (List Nat)) :
    condFill ((r.length : Int) - 1) 0 r (List.replicate r.length []) = .ok r.reverse := by
  have := condFill_spec r (List.replicate r.length []) [] (by simp)
  simpa using this

/-- What `Condensation` returns, from the components of `SCCPearce`. -/
theorem Condensation_spec (g : AdjacencyList) (hg : InRange g) (fuel : Nat)
    (hfuel : g.length ≤ fuel) :
    ∃ comps cd, SCCPearce fuel g emitAll = .ok comps ∧
      Condensation fuel g = .ok (comps.reverse, cd) ∧
      cd.length = comps.reverse.length ∧
      (∀ i j, j ∈ cd.getD i [] ↔ (i ≠ j ∧ ∃ u, u ∈ comps.reverse.getD i [] ∧
        ∃ w, w ∈ comps.reverse.getD j [] ∧ Arc g u w)) ∧
      (∀ i, (cd.getD i []).Nodup) ∧
      (∀ i u w, u ∈ comps.reverse.getD i [] → Arc g u w →
        ∃ j, i ≤ j ∧ w ∈ comps.reverse.getD j []) := by
  obtain ⟨comps, e, hperm, _, _, htopo⟩ := SCCPearce_spec g hg fuel hfuel
  have hperm2 : comps.reverse.flatten.Perm (List.range g.length) :=
    ((List.reverse_perm comps).flatten).trans hperm
  have hfwd : ∀ i u w, u ∈ comps.reverse.getD i [] → Arc g u w →
      ∃ j, i ≤ j ∧ w ∈ comps.reverse.getD j [] := by
    intro i u w hu huw
    have hi : i < comps.length := by
      by_contra hc
      rw [List.getD_eq_default _ _ (by simp; omega)] at hu
      cases hu
    rw [getD_reverse _ _ hi] at hu
    obtain ⟨j, hj1, hj2⟩ := htopo _ u w hu huw
    have hj : j < comps.length := by omega
    refine ⟨comps.length - 1 - j, by omega, ?_⟩
    rw [getD_reverse _ _ (by omega)]
    have : comps.length - 1 - (comps.length - 1 - j) = j := by omega
    rw [this]
    exact hj2
  obtain ⟨cd, c1, cond1, c2⟩ := condLoop_spec g hg comps.reverse hperm2 hfwd comps.reverse.length
    _ _ (le_refl _) (CondInv.cond_init g comps.reverse)
  refine ⟨comps, cd, e, ?_, c2.hcd, fun i j => c2.harcs i (Nat.zero_le _) j,
    fun i => c2.hnodup i (Nat.zero_le _), hfwd⟩
  rw [Condensation, e]
  simp only []
  rw [condFill_reverse]
  simp only []
  rw [c1]

/-! ## Calls of `emit` that stop the enumeration -/

theorem emitAllTrue_append {α : Type} (emit : Emit α) :
    ∀ (a pre b : List (List α)), emitAllTrue emit pre (a ++ b) =
      (emitAllTrue emit pre a && emitAllTrue emit (pre ++ a) b) := by
  intro a
  induction a with
  | nil => intro pre b; simp [emitAllTrue]
  | cons c a ih =>
    intro pre b
    rw [List.cons_append]
    simp only [emitAllTrue, ih, Bool.and_assoc, List.append_assoc, List.singleton_append]

theorem emitCut_append_true {α : Type} (emit : Emit α) :
    ∀ (a pre b : List (List α)), emitAllTrue emit pre a = true →
      emitCut emit pre (a ++ b) = a ++ emitCut emit (pre ++ a) b := by
  intro a
  induction a with
  | nil => intro pre b _; simp
  | cons c a ih =>
    intro pre b h
    simp only [emitAllTrue, Bool.and_eq_true] at h
    rw [List.cons_append]
    simp only [emitCut, h.1, if_true]
    rw [ih _ _ h.2]
    simp

theorem emitCut_append_false {α : Type} (emit : Emit α) :
    ∀ (a pre b : List (List α)), emitAllTrue emit pre a = false →
      emitCut emit pre (a ++ b) = emitCut emit pre a := by
  intro a
  induction a with
  | nil => intro pre b h; simp [emitAllTrue] at h
  | cons c a ih =>
    intro pre b h
    rw [List.cons_append]
    simp only [emitCut]
    by_cases he : emit pre c = true
    · simp only [emitAllTrue, he, Bool.true_and] at h
      simp only [he, if_true]
      rw [ih _ _ h]
    · simp only [he]
      rfl

theorem emitCut_of_true {α : Type} (emit : Emit α) (a pre : List (List α))
    (h : emitAllTrue emit pre a = true) : emitCut emit pre a = a := by
  have := emitCut_append_true emit a pre [] h
  simpa [emitCut] using this

theorem emitCut_prefix {α : Type} (emit : Emit α) :
    ∀ (a pre : List (List α)), emitCut emit pre a <+: a := by
  intro a
  induction a with
  | nil => intro pre; exact List.prefix_refl _
  | cons c a ih =>
    intro pre
    simp only [emitCut]
    by_cases he : emit pre c = true
    · simp only [he, if_true]
      exact (List.prefix_cons_inj c).2 (ih _)
    · simp only [he]
      exact ⟨a, rfl⟩

/-- After the calls `pre`, the calls `emitCut emit pre a` end with the first one
that returned false. -/
theorem emitCut_stops {α : Type} (emit : Emit α) :
    ∀ (a pre : List (List α)) (i : Nat), i < (emitCut emit pre a).length →
      emit (pre ++ (emitCut emit pre a).take i) ((emitCut emit pre a).getD i []) = false →
      i + 1 = (emitCut emit pre a).length := by
  intro a
  induction a with
  | nil => intro pre i hi; simp [emitCut] at hi
  | cons c a ih =>
    intro pre i hi hf
    by_cases he : emit pre c = true
    · have e : emitCut emit pre (c :: a) = c :: emitCut emit (pre ++ [c]) a := by
        simp only [emitCut, he, if_true]
      rw [e] at hi hf ⊢
      cases i with
      | zero =>
        simp only [List.take_zero, List.append_nil, List.getD_cons_zero] at hf
        rw [he] at hf
        cases hf
      | succ j =>
        simp only [List.take_succ_cons, List.getD_cons_succ] at hf
        simp only [List.length_cons] at hi ⊢
        have := ih (pre ++ [c]) j (by omega) (by
          rw [List.append_assoc]
          exact hf)
        omega
    · have e : emitCut emit pre (c :: a) = [c] := by
        simp only [emitCut, he]
        rfl
      rw [e] at hi ⊢
      simp only [List.length_singleton] at hi ⊢
      omega

theorem StopsAtFalse_emitCut {α : Type} (emit : Emit α) (a : List (List α)) :
    StopsAtFalse emit (emitCut emit [] a) := by
  intro i hi hf
  exact emitCut_stops emit a [] i hi (by simpa using hf)

theorem EmitTrace.single {α : Type} (emit : Emit α) (pre : List (List α)) (c : List α) :
    EmitTrace emit pre [c] (emit pre c) := by
  by_cases he : emit pre c = true
  · simp only [EmitTrace, he, if_true]
  · simp only [EmitTrace, he]
    simp only [Bool.not_eq_true] at he
    simp [he]

theorem EmitTrace.append {α : Type} (emit : Emit α) :
    ∀ (a pre b : List (List α)) (f : Bool), EmitTrace emit pre a true →
      EmitTrace emit (pre ++ a) b f → EmitTrace emit pre (a ++ b) f := by
  intro a
  induction a with
  | nil => intro pre b f _ h; simpa using h
  | cons c a ih =>
    intro pre b f h1 h2
    by_cases he : emit pre c = true
    · simp only [EmitTrace, he, if_true] at h1
      rw [List.cons_append]
      simp only [EmitTrace, he, if_true]
      apply ih _ _ _ h1
      rw [List.append_assoc]
      exact h2
    · simp only [EmitTrace, he] at h1
      simp at h1

/-- The calls of a run end with the first call that returned false. -/
theorem EmitTrace.stops {α : Type} (emit : Emit α) :
    ∀ (a pre : List (List α)) (b : Bool), EmitTrace emit pre a b → ∀ i, i < a.length →
      emit (pre ++ a.take i) (a.getD i []) = false → i + 1 = a.length := by
  intro a
  induction a with
  | nil => intro pre b _ i hi; simp at hi
  | cons c a ih =>
    intro pre b h i hi hf
    by_cases he : emit pre c = true
    · simp only [EmitTrace, he, if_true] at h
      cases i with
      | zero =>
        simp only [List.take_zero, List.append_nil, List.getD_cons_zero] at hf
        rw [he] at hf
        cases hf
      | succ j =>
        simp only [List.take_succ_cons, List.getD_cons_succ] at hf
        simp only [List.length_cons] at hi ⊢
        have := ih (pre ++ [c]) b h j (by omega) (by
          rw [List.append_assoc]
          exact hf)
        omega
    · simp only [EmitTrace, he] at h
      simp only [Bool.false_eq_true, if_false] at h
      rw [h.1] at hi ⊢
      simp only [List.length_singleton] at hi ⊢
      omega

theorem EmitTrace.stopsAtFalse {α : Type} (emit : Emit α) (a : List (List α)) (b : Bool)
    (h : EmitTrace emit [] a b) : StopsAtFalse emit a := by
  intro i hi hf
  exact EmitTrace.stops emit a [] b h i hi (by simpa using hf)

/-! ## SCCTarjan with an `emit` that stops -/

theorem scLoop_sim (emit : Emit Nat)
    (callA call : Nat → TState → Except Fault (Bool × TState))
    (hcall : ∀ m st b st2, callA m st = .ok (b, st2) → TSim emit st st2 b (call m st))
    (n : Nat) :
    ∀ (rest : List Nat) (st : TState) (b : Bool) (st2 : TState),
      scLoop callA n rest st = .ok (b, st2) → TSim emit st st2 b (scLoop call n rest st) := by
  intro rest
  induction rest with
  | nil =>
    intro st b st2 h
    simp only [scLoop] at h
    injection h with h
    injection h with h1 h2
    subst h1; subst h2
    exact ⟨rfl, [], by simp, Or.inl ⟨rfl, rfl⟩⟩
  | cons nb rest ih =>
    intro st b st2 h
    by_cases hi : Bit st.indexed nb = false
    · rw [scLoop, if_pos hi] at h ⊢
      cases hc : callA nb st with
      | error e => rw [hc] at h; cases h
      | ok p =>
        obtain ⟨b1, st1A⟩ := p
        obtain ⟨hb1, new1, hl1, hcase⟩ := hcall nb st b1 st1A hc
        subst hb1
        rw [hc] at h
        simp only at h
        obtain ⟨hb, new2, hl2, hcase2⟩ := ih _ b st2 h
        rw [lowerLink_log] at hl2
        rcases hcase with ⟨ht, hr⟩ | ⟨hf, st1, hr, hl⟩
        · rw [hr]
          simp only
          refine ⟨hb, new1 ++ new2, by rw [hl2, hl1, List.append_assoc], ?_⟩
          rcases hcase2 with ⟨ht2, hr2⟩ | ⟨hf2, st1, hr2, hl⟩
          · left
            rw [lowerLink_log, hl1] at ht2
            exact ⟨by rw [emitAllTrue_append, ht, ht2]; rfl, hr2⟩
          · right
            rw [lowerLink_log, hl1] at hf2
            rw [lowerLink_log, hl1] at hl
            refine ⟨by rw [emitAllTrue_append, ht, hf2]; rfl, st1, hr2, ?_⟩
            rw [hl, emitCut_append_true emit _ _ _ ht, List.append_assoc]
        · rw [hr]
          simp only
          exact ⟨hb, new1 ++ new2, by rw [hl2, hl1, List.append_assoc],
            Or.inr ⟨by rw [emitAllTrue_append, hf]; rfl, st1, rfl,
              by rw [hl, emitCut_append_false emit _ _ _ hf]⟩⟩
    · by_cases hs : Bit st.stacked nb = true
      · rw [scLoop, if_neg hi, if_pos hs] at h ⊢
        obtain ⟨hb, new2, hl2, hcase2⟩ := ih _ b st2 h
        rw [lowerLink_log] at hl2 hcase2
        exact ⟨hb, new2, hl2, hcase2⟩
      · rw [scLoop, if_neg hi, if_neg hs] at h ⊢
        exact ih _ b st2 h

theorem sc_sim (g : AdjacencyList) (emit : Emit Nat) :
    ∀ (fuel n : Nat) (st : TState) (b : Bool) (st2 : TState),
      sc g emitAll fuel n st = .ok (b, st2) → TSim emit st st2 b (sc g emit fuel n st) := by
  intro fuel
  induction fuel with
  | zero =>
    intro n st b st2 h
    simp only [sc] at h
    cases h
  | succ fuel ih =>
    intro n st b st2 h
    rw [sc] at h ⊢
    cases hx : idx g n with
    | error e => rw [hx] at h; cases h
    | ok adj =>
      rw [hx] at h
      simp only at h ⊢
      cases hl : scLoop (sc g emitAll fuel) n adj
          { index := st.index.set n st.x, lowlink := st.lowlink.set n st.x,
            indexed := SetBit st.indexed n true, stacked := SetBit st.stacked n true,
            x := st.x + 1, S := n :: st.S, log := st.log } with
      | error e => rw [hl] at h; cases h
      | ok p =>
        obtain ⟨bl, stl⟩ := p
        obtain ⟨hbl, new1, hl1, hcase⟩ := scLoop_sim emit (sc g emitAll fuel) (sc g emit fuel)
          ih n adj _ bl stl hl
        subst hbl
        rw [hl] at h
        simp only at h hl1
        by_cases hroot : stl.lowlink.getD n 0 = stl.index.getD n 0
        · rw [if_pos hroot] at h
          cases hp : scPop n stl.S stl.stacked [] with
          | error e => rw [hp] at h; cases h
          | ok q =>
            obtain ⟨S, stacked, c⟩ := q
            rw [hp] at h
            simp only at h
            injection h with h
            injection h with h1 h2
            have hbt : b = true := by rw [← h1]; rfl
            have hl2 : st2.log = st.log ++ (new1 ++ [c]) := by
              rw [← h2]
              simp only
              rw [hl1, List.append_assoc]
            rcases hcase with ⟨ht, hr⟩ | ⟨hf, st1, hr, hlg⟩
            · rw [hr]
              simp only
              rw [if_pos hroot, hp]
              simp only
              refine ⟨hbt, new1 ++ [c], hl2, ?_⟩
              by_cases he : emit stl.log c = true
              · left
                refine ⟨?_, by rw [he, ← h2]⟩
                rw [emitAllTrue_append, ht, ← hl1]
                simp [emitAllTrue, he]
              · right
                simp only [Bool.not_eq_true] at he
                refine ⟨?_, _, by rw [he], ?_⟩
                · rw [emitAllTrue_append, ht, ← hl1]
                  simp [emitAllTrue, he]
                · simp only
                  rw [emitCut_append_true emit _ _ _ ht, ← hl1]
                  simp only [emitCut, he]
                  rw [hl1, List.append_assoc]
                  rfl
            · rw [hr]
              simp only
              exact ⟨hbt, new1 ++ [c], hl2,
                Or.inr ⟨by rw [emitAllTrue_append, hf]; rfl, st1, rfl,
                  by rw [hlg, emitCut_append_false emit _ _ _ hf]⟩⟩
        · rw [if_neg hroot] at h
          injection h with h
          injection h with h1 h2
          subst h1; subst h2
          rcases hcase with ⟨ht, hr⟩ | ⟨hf, st1, hr, hlg⟩
          · rw [hr]
            simp only
            rw [if_neg hroot]
            exact ⟨rfl, new1, hl1, Or.inl ⟨ht, rfl⟩⟩
          · rw [hr]
            simp only
            exact ⟨rfl, new1, hl1, Or.inr ⟨hf, st1, rfl, hlg⟩⟩

theorem tarjanLoop_sim (g : AdjacencyList) (emit : Emit Nat) (fuel : Nat) :
    ∀ (nodes : List Nat) (st st2 : TState), tarjanLoop g emitAll fuel nodes st = .ok st2 →
      ∃ new, st2.log = st.log ++ new ∧
        ∃ st1, tarjanLoop g emit fuel nodes st = .ok st1 ∧
          st1.log = st.log ++ emitCut emit st.log new := by
  intro nodes
  induction nodes with
  | nil =>
    intro st st2 h
    simp only [tarjanLoop] at h
    injection h with h
    subst h
    exact ⟨[], by simp, st, rfl, by simp [emitCut]⟩
  | cons n rest ih =>
    intro st st2 h
    by_cases hi : Bit st.indexed n = false
    · rw [tarjanLoop, if_pos hi] at h ⊢
      cases hc : sc g emitAll fuel n st with
      | error e => rw [hc] at h; cases h
      | ok p =>
        obtain ⟨b1, st1A⟩ := p
        obtain ⟨hb1, new1, hl1, hcase⟩ := sc_sim g emit fuel n st b1 st1A hc
        subst hb1
        rw [hc] at h
        simp only at h
        obtain ⟨new2, hl2, st3, hr3, hl3⟩ := ih st1A st2 h
        refine ⟨new1 ++ new2, by rw [hl2, hl1, List.append_assoc], ?_⟩
        rcases hcase with ⟨ht, hr⟩ | ⟨hf, st1, hr, hlg⟩
        · rw [hr]
          simp only
          refine ⟨st3, hr3, ?_⟩
          rw [hl3, hl1, emitCut_append_true emit _ _ _ ht, List.append_assoc]
        · rw [hr]
          simp only
          exact ⟨st1, rfl, by rw [hlg, emitCut_append_false emit _ _ _ hf]⟩
    · rw [tarjanLoop, if_neg hi] at h ⊢
      exact ih st st2 h

/-- The run of `SCCTarjan` with `emit` makes the calls of the run with an `emit` that
always returns true, up to and including the first call for which `emit` returns
false. -/
theorem SCCTarjan_sim (g : AdjacencyList) (emit : Emit Nat) (fuel : Nat)
    {comps : List (List Nat)} (h : SCCTarjan fuel g emitAll = .ok comps) :
    SCCTarjan fuel g emit = .ok (emitCut emit [] comps) := by
  unfold SCCTarjan at h ⊢
  cases hc : tarjanLoop g emitAll fuel (List.range g.length) (tarjanInit g) with
  | error e => rw [hc] at h; cases h
  | ok st2 =>
    rw [hc] at h
    obtain ⟨new, hl, st1, hr, hl1⟩ := tarjanLoop_sim g emit fuel _ _ _ hc
    have e0 : (tarjanInit g).log = [] := rfl
    rw [e0, List.nil_append] at hl hl1
    rw [hr]
    have : st2.log = comps := by
      injection h
    show Except.ok st1.log = _
    rw [hl1, ← this, hl]

/-! ## Bron-Kerbosch with an `emit` that stops -/

theorem bkLoop_trace (emit : Emit Int) (g : AdjacencyList)
    (call : Nat → Nat → Nat → List (List Int) → Except Fault (Bool × List (List Int)))
    (hcall : ∀ R P X log b log1, call R P X log = .ok (b, log1) →
      ∃ new, log1 = log ++ new ∧ EmitTrace emit log new b)
    (pnu : Option Nat) (R : Nat) :
    ∀ (k : Nat) (n : Int) (P X : Nat) (log : List (List Int)) (b : Bool)
      (log1 : List (List Int)), bkLoop g call pnu R k n P X log = .ok (b, log1) →
      ∃ new, log1 = log ++ new ∧ EmitTrace emit log new b := by
  intro k
  induction k with
  | zero =>
    intro n P X log b log1 h
    cases n with
    | negSucc j =>
      rw [bkLoop_neg] at h
      injection h with h
      injection h with h1 h2
      subst h1; subst h2
      exact ⟨[], by simp, rfl⟩
    | ofNat m =>
      simp only [bkLoop] at h
      cases h
  | succ k ih =>
    intro n P X log b log1 h
    cases n with
    | negSucc j =>
      rw [bkLoop_neg] at h
      injection h with h
      injection h with h1 h2
      subst h1; subst h2
      exact ⟨[], by simp, rfl⟩
    | ofNat m =>
      simp only [bkLoop] at h
      cases hx : idx g m with
      | error e => rw [hx] at h; cases h
      | ok adj =>
        rw [hx] at h
        simp only at h
        cases hc : call (SetBit R m true) (bkChild adj P X).1 (bkChild adj P X).2 log with
        | error e => rw [hc] at h; cases h
        | ok p =>
          obtain ⟨b1, lg⟩ := p
          obtain ⟨new1, hl1, ht1⟩ := hcall _ _ _ _ _ _ hc
          rw [hc] at h
          cases b1 with
          | false =>
            simp only at h
            injection h with h
            injection h with h1 h2
            subst h1; subst h2
            exact ⟨new1, hl1, ht1⟩
          | true =>
            simp only at h
            obtain ⟨new2, hl2, ht2⟩ := ih _ _ _ _ _ _ h
            refine ⟨new1 ++ new2, by rw [hl2, hl1, List.append_assoc], ?_⟩
            apply EmitTrace.append emit _ _ _ _ ht1
            rw [← hl1]
            exact ht2

theorem bkf_trace (emit : Emit Int) (g : AdjacencyList) (pivot : Option Pivot) :
    ∀ (fuel R P X : Nat) (log : List (List Int)) (b : Bool) (log1 : List (List Int)),
      bkf g pivot emit fuel R P X log = .ok (b, log1) →
      ∃ new, log1 = log ++ new ∧ EmitTrace emit log new b := by
  intro fuel
  induction fuel with
  | zero =>
    intro R P X log b log1 h
    simp only [bkf] at h
    cases h
  | succ fuel ih =>
    intro R P X log b log1 h
    by_cases hP : P = 0
    · by_cases hX : X = 0
      · simp only [bkf, hP, hX, ne_eq, not_true_eq_false, if_false, if_true] at h
        by_cases he : emit log (bkClique R) = true
        · rw [if_pos he] at h
          injection h with h
          injection h with h1 h2
          subst h1; subst h2
          refine ⟨[bkClique R], rfl, ?_⟩
          have := EmitTrace.single emit log (bkClique R)
          rw [he] at this
          exact this
        · rw [if_neg he] at h
          injection h with h
          injection h with h1 h2
          subst h1; subst h2
          refine ⟨[bkClique R], rfl, ?_⟩
          have := EmitTrace.single emit log (bkClique R)
          simp only [Bool.not_eq_true] at he
          rw [he] at this
          exact this
      · simp only [bkf, hP, hX, ne_eq, not_true_eq_false, if_false] at h
        injection h with h
        injection h with h1 h2
        subst h1; subst h2
        exact ⟨[], by simp, rfl⟩
    · cases pivot with
      | none =>
        simp only [bkf, ne_eq, hP, not_false_eq_true, if_true] at h
        exact bkLoop_trace emit g _ ih none R fuel _ P X log b log1 h
      | some pv =>
        simp only [bkf, ne_eq, hP, not_false_eq_true, if_true] at h
        cases hx : idxInt g (pv P X) with
        | error e => rw [hx] at h; cases h
        | ok adj =>
          rw [hx] at h
          simp only at h
          exact bkLoop_trace emit g _ ih _ R fuel _ P X log b log1 h

theorem bk3Outer_trace (emit : Emit Int) (g : AdjacencyList)
    (call : Nat → Nat → Nat → List (List Int) → Except Fault (Bool × List (List Int)))
    (hcall : ∀ R P X log b log1, call R P X log = .ok (b, log1) →
      ∃ new, log1 = log ++ new ∧ EmitTrace emit log new b) :
    ∀ (ord : List Nat) (R P X : Nat) (log log1 : List (List Int)),
      bk3Outer g call ord R P X log = .ok log1 →
      ∃ new b, log1 = log ++ new ∧ EmitTrace emit log new b := by
  intro ord
  induction ord with
  | nil =>
    intro R P X log log1 h
    simp only [bk3Outer] at h
    injection h with h
    subst h
    exact ⟨[], true, by simp, rfl⟩
  | cons n rest ih =>
    intro R P X log log1 h
    simp only [bk3Outer] at h
    cases hx : idx g n with
    | error e => rw [hx] at h; cases h
    | ok adj =>
      rw [hx] at h
      simp only at h
      cases hc : call (SetBit R n true) (bkChild adj P X).1 (bkChild adj P X).2 log with
      | error e => rw [hc] at h; cases h
      | ok p =>
        obtain ⟨b1, lg⟩ := p
        obtain ⟨new1, hl1, ht1⟩ := hcall _ _ _ _ _ _ hc
        rw [hc] at h
        cases b1 with
        | false =>
          simp only at h
          injection h with h
          subst h
          exact ⟨new1, false, hl1, ht1⟩
        | true =>
          simp only at h
          obtain ⟨new2, b2, hl2, ht2⟩ := ih _ _ _ _ _ h
          refine ⟨new1 ++ new2, b2, by rw [hl2, hl1, List.append_assoc], ?_⟩
          apply EmitTrace.append emit _ _ _ _ ht1
          rw [← hl1]
          exact ht2

theorem BronKerbosch1_trace (emit : Emit Int) (g : AdjacencyList) (fuel : Nat)
    {cs : List (List Int)} (h : BronKerbosch1 fuel g emit = .ok cs) : StopsAtFalse emit cs := by
  unfold BronKerbosch1 at h
  cases hc : bkf g none emit fuel 0 (OneBits g.length) 0 [] with
  | error e => rw [hc] at h; cases h
  | ok p =>
    obtain ⟨b, lg⟩ := p
    rw [hc] at h
    have e : lg = cs := by injection h
    obtain ⟨new, hl, ht⟩ := bkf_trace emit g none fuel _ _ _ _ _ _ hc
    rw [List.nil_append] at hl
    rw [← e, hl]
    exact EmitTrace.stopsAtFalse emit new b ht

theorem BronKerbosch2_trace (emit : Emit Int) (g : AdjacencyList) (pivot : Pivot) (fuel : Nat)
    {cs : List (List Int)} (h : BronKerbosch2 fuel g pivot emit = .ok cs) :
    StopsAtFalse emit cs := by
  unfold BronKerbosch2 at h
  cases hc : bkf g (some pivot) emit fuel 0 (OneBits g.length) 0 [] with
  | error e => rw [hc] at h; cases h
  | ok p =>
    obtain ⟨b, lg⟩ := p
    rw [hc] at h
    have e : lg = cs := by injection h
    obtain ⟨new, hl, ht⟩ := bkf_trace emit g (some pivot) fuel _ _ _ _ _ _ hc
    rw [List.nil_append] at hl
    rw [← e, hl]
    exact EmitTrace.stopsAtFalse emit new b ht

theorem BronKerbosch3_trace (emit : Emit Int) (g : AdjacencyList) (pivot : Pivot) (fuel : Nat)
    {cs : List (List Int)} (h : BronKerbosch3 fuel g pivot emit = .ok cs) :
    StopsAtFalse emit cs := by
  unfold BronKerbosch3 at h
  cases hd : Degeneracy g with
  | error e => rw [hd] at h; cases h
  | ok r =>
    obtain ⟨k, ord, cores⟩ := r
    rw [hd] at h
    simp only at h
    obtain ⟨new, b, hl, ht⟩ := bk3Outer_trace emit g _
      (bkf_trace emit g (some pivot) fuel) ord _ _ _ _ _ h
    rw [List.nil_append] at hl
    rw [hl]
    exact EmitTrace.stopsAtFalse emit new b ht

theorem bkLoop_sim (emit : Emit Int) (g : AdjacencyList)
    (callA call : Nat → Nat → Nat → List (List Int) → Except Fault (Bool × List (List Int)))
    (hcall : ∀ R P X log b log2, callA R P X log = .ok (b, log2) →
      LSim emit log log2 b (call R P X log))
    (pnu : Option Nat) (R : Nat) :
    ∀ (k : Nat) (n : Int) (P X : Nat) (log : List (List Int)) (b : Bool)
      (log2 : List (List Int)), bkLoop g callA pnu R k n P X log = .ok (b, log2) →
      LSim emit log log2 b (bkLoop g call pnu R k n P X log) := by
  intro k
  induction k with
  | zero =>
    intro n P X log b log2 h
    cases n with
    | negSucc j =>
      rw [bkLoop_neg] at h ⊢
      injection h with h
      injection h with h1 h2
      subst h1; subst h2
      exact ⟨rfl, [], by simp, Or.inl ⟨rfl, rfl⟩⟩
    | ofNat m =>
      simp only [bkLoop] at h
      cases h
  | succ k ih =>
    intro n P X log b log2 h
    cases n with
    | negSucc j =>
      rw [bkLoop_neg] at h ⊢
      injection h with h
      injection h with h1 h2
      subst h1; subst h2
      exact ⟨rfl, [], by simp, Or.inl ⟨rfl, rfl⟩⟩
    | ofNat m =>
      simp only [bkLoop] at h ⊢
      cases hx : idx g m with
      | error e => rw [hx] at h; cases h
      | ok adj =>
        rw [hx] at h
        simp only at h ⊢
        cases hc : callA (SetBit R m true) (bkChild adj P X).1 (bkChild adj P X).2 log with
        | error e => rw [hc] at h; cases h
        | ok p =>
          obtain ⟨b1, lg⟩ := p
          obtain ⟨hb1, new1, hl1, hcase⟩ := hcall _ _ _ _ _ _ hc
          subst hb1
          rw [hc] at h
          simp only at h
          obtain ⟨hb, new2, hl2, hcase2⟩ := ih _ _ _ _ _ _ h
          rcases hcase with ⟨ht, hr⟩ | ⟨hf, hr⟩
          · rw [hr]
            simp only
            refine ⟨hb, new1 ++ new2, by rw [hl2, hl1, List.append_assoc], ?_⟩
            rcases hcase2 with ⟨ht2, hr2⟩ | ⟨hf2, hr2⟩
            · left
              rw [hl1] at ht2
              exact ⟨by rw [emitAllTrue_append, ht, ht2]; rfl, hr2⟩
            · right
              rw [hl1] at hf2
              refine ⟨by rw [emitAllTrue_append, ht, hf2]; rfl, ?_⟩
              rw [hr2, hl1, emitCut_append_true emit _ _ _ ht, List.append_assoc]
          · rw [hr]
            simp only
            exact ⟨hb, new1 ++ new2, by rw [hl2, hl1, List.append_assoc],
              Or.inr ⟨by rw [emitAllTrue_append, hf]; rfl,
                by rw [emitCut_append_false emit _ _ _ hf]⟩⟩

theorem bkf_sim (emit : Emit Int) (g : AdjacencyList) (pivot : Option Pivot) :
    ∀ (fuel R P X : Nat) (log : List (List Int)) (b : Bool) (log2 : List (List Int)),
      bkf g pivot emitAll fuel R P X log = .ok (b, log2) →
      LSim emit log log2 b (bkf g pivot emit fuel R P X log) := by
  intro fuel
  induction fuel with
  | zero =>
    intro R P X log b log2 h
    simp only [bkf] at h
    cases h
  | succ fuel ih =>
    intro R P X log b log2 h
    by_cases hP : P = 0
    · by_cases hX : X = 0
      · simp only [bkf, hP, hX, ne_eq, not_true_eq_false, if_false, if_true, emitAll] at h ⊢
        injection h with h
        injection h with h1 h2
        subst h1; subst h2
        refine ⟨rfl, [bkClique R], rfl, ?_⟩
        by_cases he : emit log (bkClique R) = true
        · left
          rw [if_pos he]
          exact ⟨by simp [emitAllTrue, he], rfl⟩
        · right
          rw [if_neg he]
          simp only [Bool.not_eq_true] at he
          exact ⟨by simp [emitAllTrue, he], by simp [emitCut, he]⟩
      · simp only [bkf, hP, hX, ne_eq, not_true_eq_false, if_false] at h ⊢
        injection h with h
        injection h with h1 h2
        subst h1; subst h2
        exact ⟨rfl, [], by simp, Or.inl ⟨rfl, rfl⟩⟩
    · cases pivot with
      | none =>
        simp only [bkf, ne_eq, hP, not_false_eq_true, if_true] at h ⊢
        exact bkLoop_sim emit g _ _ ih none R fuel _ P X log b log2 h
      | some pv =>
        simp only [bkf, ne_eq, hP, not_false_eq_true, if_true] at h ⊢
        cases hx : idxInt g (pv P X) with
        | error e => rw [hx] at h; cases h
        | ok adj =>
          rw [hx] at h
          simp only at h ⊢
          exact bkLoop_sim emit g _ _ ih _ R fuel _ P X log b log2 h

theorem bk3Outer_sim (emit : Emit Int) (g : AdjacencyList)
    (callA call : Nat → Nat → Nat → List (List Int) → Except Fault (Bool × List (List Int)))
    (hcall : ∀ R P X log b log2, callA R P X log = .ok (b, log2) →
      LSim emit log log2 b (call R P X log)) :
    ∀ (ord : List Nat) (R P X : Nat) (log log2 : List (List Int)),
      bk3Outer g callA ord R P X log = .ok log2 →
      ∃ new, log2 = log ++ new ∧
        bk3Outer g call ord R P X log = .ok (log ++ emitCut emit log new) := by
  intro ord
  induction ord with
  | nil =>
    intro R P X log log2 h
    simp only [bk3Outer] at h ⊢
    injection h with h
    subst h
    exact ⟨[], by simp, by simp [emitCut]⟩
  | cons n rest ih =>
    intro R P X log log2 h
    simp only [bk3Outer] at h ⊢
    cases hx : idx g n with
    | error e => rw [hx] at h; cases h
    | ok adj =>
      rw [hx] at h
      simp only at h ⊢
      cases hc : callA (SetBit R n true) (bkChild adj P X).1 (bkChild adj P X).2 log with
      | error e => rw [hc] at h; cases h
      | ok p =>
        obtain ⟨b1, lg⟩ := p
        obtain ⟨hb1, new1, hl1, hcase⟩ := hcall _ _ _ _ _ _ hc
        subst hb1
        rw [hc] at h
        simp only at h
        obtain ⟨new2, hl2, hr2⟩ := ih _ _ _ _ _ h
        refine ⟨new1 ++ new2, by rw [hl2, hl1, List.append_assoc], ?_⟩
        rcases hcase with ⟨ht, hr⟩ | ⟨hf, hr⟩
        · rw [hr]
          simp only
          rw [hr2, hl1, emitCut_append_true emit _ _ _ ht, List.append_assoc]
        · rw [hr]
          simp only
          rw [emitCut_append_false emit _ _ _ hf]

/-- The run of `BronKerbosch1` with `emit` makes the calls of the run with an `emit`
that always returns true, up to and including the first call for which `emit`
returns false. -/
theorem BronKerbosch1_sim (emit : Emit Int) (g : AdjacencyList) (fuel : Nat)
    {cs : List (List Int)} (h : BronKerbosch1 fuel g emitAll = .ok cs) :
    BronKerbosch1 fuel g emit = .ok (emitCut emit [] cs) := by
  unfold BronKerbosch1 at h ⊢
  cases hc : bkf g none emitAll fuel 0 (OneBits g.length) 0 [] with
  | error e => rw [hc] at h; cases h
  | ok p =>
    obtain ⟨b, lg⟩ := p
    rw [hc] at h
    have e : lg = cs := by injection h
    obtain ⟨_, new, hl, hcase⟩ := bkf_sim emit g none fuel _ _ _ _ _ _ hc
    rw [List.nil_append] at hl
    rw [← e, hl]
    rcases hcase with ⟨ht, hr⟩ | ⟨hf, hr⟩
    · rw [hr, emitCut_of_true emit _ _ ht, hl]; rfl
    · rw [hr]; rfl

theorem BronKerbosch2_sim (emit : Emit Int) (g : AdjacencyList) (pivot : Pivot) (fuel : Nat)
    {cs : List (List Int)} (h : BronKerbosch2 fuel g pivot emitAll = .ok cs) :
    BronKerbosch2 fuel g pivot emit = .ok (emitCut emit [] cs) := by
  unfold BronKerbosch2 at h ⊢
  cases hc : bkf g (some pivot) emitAll fuel 0 (OneBits g.length) 0 [] with
  | error e => rw [hc] at h; cases h
  | ok p =>
    obtain ⟨b, lg⟩ := p
    rw [hc] at h
    have e : lg = cs := by injection h
    obtain ⟨_, new, hl, hcase⟩ := bkf_sim emit g (some pivot) fuel _ _ _ _ _ _ hc
    rw [List.nil_append] at hl
    rw [← e, hl]
    rcases hcase with ⟨ht, hr⟩ | ⟨hf, hr⟩
    · rw [hr, emitCut_of_true emit _ _ ht, hl]; rfl
    · rw [hr]; rfl

theorem BronKerbosch3_sim (emit : Emit Int) (g : AdjacencyList) (pivot : Pivot) (fuel : Nat)
    {cs : List (List Int)} (h : BronKerbosch3 fuel g pivot emitAll = .ok cs) :
    BronKerbosch3 fuel g pivot emit = .ok (emitCut emit [] cs) := by
  unfold BronKerbosch3 at h ⊢
  cases hd : Degeneracy g with
  | error e => rw [hd] at h; cases h
  | ok r =>
    obtain ⟨k, ord, cores⟩ := r
    rw [hd] at h
    simp only at h ⊢
    obtain ⟨new, hl, hr⟩ := bk3Outer_sim emit g _ _
      (bkf_sim emit g (some pivot) fuel) ord _ _ _ _ _ h
    rw [List.nil_append] at hl hr
    rw [hr, hl]

/-! ## The pivot strategy BKPivotMaxDegree -/

theorem pivotScan_neg (g : AdjacencyList) (L k j : Nat) (u : Int) (maxDeg : Nat) :
    pivotScan g L k (Int.negSucc j) u maxDeg = .ok (u, maxDeg) := by
  cases k <;> rfl

/-- A scan of `BKPivotMaxDegree` over the members of `L` from `lo` on: it returns,
`maxDeg` does not go down and bounds the degrees of the members scanned, and the
node returned is the one it had or a scanned member with the degree `maxDeg`. -/
theorem pivotScan_spec (g : AdjacencyList) (L : Nat)
    (hL : ∀ v, Bit L v = true → v < g.length) :
    ∀ (k : Nat) (lo u : Int) (maxDeg : Nat), (L : Int) ≤ (k : Int) + lo → 0 ≤ lo →
      ∃ u1 d1, pivotScan g L k (NextOne L lo) u maxDeg = .ok (u1, d1) ∧ maxDeg ≤ d1 ∧
        (∀ v : Nat, Bit L v = true → lo ≤ (v : Int) → (g.getD v []).length ≤ d1) ∧
        ((u1 = u ∧ d1 = maxDeg) ∨
          ∃ w : Nat, u1 = (w : Int) ∧ Bit L w = true ∧ (g.getD w []).length = d1) := by
  intro k
  induction k with
  | zero =>
    intro lo u maxDeg hk hlo
    rcases NextOne_cases L lo with ⟨h1, h2⟩ | ⟨m, h1, h2, h3, _⟩
    · rw [h1]
      exact ⟨u, maxDeg, pivotScan_neg g L 0 0 u maxDeg, le_refl _,
        fun v hv hle => absurd hle (h2 v hv), Or.inl ⟨rfl, rfl⟩⟩
    · exfalso
      have := Bit_lt h2
      omega
  | succ k ih =>
    intro lo u maxDeg hk hlo
    rcases NextOne_cases L lo with ⟨h1, h2⟩ | ⟨m, h1, h2, h3, h4⟩
    · rw [h1]
      exact ⟨u, maxDeg, pivotScan_neg g L _ 0 u maxDeg, le_refl _,
        fun v hv hle => absurd hle (h2 v hv), Or.inl ⟨rfl, rfl⟩⟩
    · have hm : m < g.length := hL m h2
      have hmL := Bit_lt h2
      have hstep : ∀ v : Nat, Bit L v = true → lo ≤ (v : Int) →
          v = m ∨ (Int.ofNat m + 1 ≤ (v : Int)) := by
        intro v hv hle
        have := h4 v hv hle
        by_cases e : v = m
        · exact Or.inl e
        · right
          simp only [Int.ofNat_eq_coe]
          omega
      rw [h1]
      show ∃ u1 d1, pivotScan g L (k + 1) (Int.ofNat m) u maxDeg = .ok (u1, d1) ∧ _
      rw [pivotScan, idx_eq_getD hm]
      simp only
      by_cases hd : (g.getD m []).length > maxDeg
      · rw [if_pos hd]
        obtain ⟨u1, d1, e1, e2, e3, e4⟩ := ih (Int.ofNat m + 1) (Int.ofNat m)
          (g.getD m []).length (by simp only [Int.ofNat_eq_coe]; omega)
          (by simp only [Int.ofNat_eq_coe]; omega)
        refine ⟨u1, d1, e1, by omega, ?_, ?_⟩
        · intro v hv hle
          rcases hstep v hv hle with e | e
          · rw [e]; exact e2
          · exact e3 v hv e
        · right
          rcases e4 with ⟨e5, e6⟩ | ⟨w, e5, e6, e7⟩
          · exact ⟨m, e5, h2, e6.symm⟩
          · exact ⟨w, e5, e6, e7⟩
      · rw [if_neg hd]
        obtain ⟨u1, d1, e1, e2, e3, e4⟩ := ih (Int.ofNat m + 1) u maxDeg
          (by simp only [Int.ofNat_eq_coe]; omega) (by simp only [Int.ofNat_eq_coe]; omega)
        refine ⟨u1, d1, e1, e2, ?_, e4⟩
        intro v hv hle
        rcases hstep v hv hle with e | e
        · rw [e]; omega
        · exact e3 v hv e

/-- What `BKPivotMaxDegree` returns when `P` is not empty and the members of `P` and
`X` are nodes of `g`: a member of `P` or `X` whose degree is not below that of any
member of `P` or `X`. -/
theorem BKPivotMaxDegree_spec (g : AdjacencyList) (P X : Nat) (hP : P ≠ 0)
    (hPX : ∀ v, Bit P v = true ∨ Bit X v = true → v < g.length) :
    ∃ u : Nat, BKPivotMaxDegree g P X = .ok (u : Int) ∧ (Bit P u = true ∨ Bit X u = true) ∧
      ∀ v, Bit P v = true ∨ Bit X v = true → (g.getD v []).length ≤ (g.getD u []).length := by
  obtain ⟨i, hi⟩ := exists_Bit_of_ne_zero hP
  rcases NextOne_cases P 0 with ⟨_, e2⟩ | ⟨m0, e1, e2, _, e4⟩
  · exact absurd (Int.ofNat_nonneg i) (e2 i hi)
  · have hm0 : m0 < g.length := hPX m0 (Or.inl e2)
    obtain ⟨u1, d1, s1, s2, s3, s4⟩ := pivotScan_spec g P (fun v hv => hPX v (Or.inl hv)) P
      ((m0 : Int) + 1) (m0 : Int) (g.getD m0 []).length (by omega) (by omega)
    have hu1 : ∃ w : Nat, u1 = (w : Int) ∧ Bit P w = true ∧ (g.getD w []).length = d1 := by
      rcases s4 with ⟨e5, e6⟩ | h
      · exact ⟨m0, e5, e2, e6.symm⟩
      · exact h
    obtain ⟨w1, hw1, hw2, hw3⟩ := hu1
    have hPall : ∀ v, Bit P v = true → (g.getD v []).length ≤ d1 := by
      intro v hv
      have := e4 v hv (Int.ofNat_nonneg v)
      by_cases e : v = m0
      · rw [e]; exact s2
      · exact s3 v hv (by omega)
    obtain ⟨u2, d2, t1, t2, t3, t4⟩ := pivotScan_spec g X (fun v hv => hPX v (Or.inr hv)) X
      0 u1 d1 (by omega) (le_refl _)
    have hres : BKPivotMaxDegree g P X = .ok u2 := by
      unfold BKPivotMaxDegree
      rw [e1]
      have : idxInt g (m0 : Int) = .ok (g.getD m0 []) := idx_eq_getD hm0
      rw [this]
      simp only
      rw [s1]
      simp only
      rw [t1]
    rcases t4 with ⟨e5, e6⟩ | ⟨w2, e5, e6, e7⟩
    · refine ⟨w1, by rw [hres, e5, hw1], Or.inl hw2, ?_⟩
      intro v hv
      rw [hw3]
      rcases hv with hv | hv
      · exact hPall v hv
      · have := t3 v hv (Int.ofNat_nonneg v)
        omega
    · refine ⟨w2, by rw [hres, e5], Or.inr e6, ?_⟩
      intro v hv
      rw [e7]
      rcases hv with hv | hv
      · have := hPall v hv
        omega
      · exact t3 v hv (Int.ofNat_nonneg v)

/-! ## Topological ordering -/

theorem drop_set_self {α : Type} (a : α) : ∀ (xs : List α) (k : Nat), k < xs.length →
    (xs.set k a).drop k = a :: xs.drop (k + 1) := by
  intro xs
  induction xs with
  | nil => intro k hk; simp at hk
  | cons x xs ih =>
    intro k hk
    cases k with
    | zero => simp
    | succ k =>
      simp only [List.set_cons_succ, List.drop_succ_cons]
      exact ih k (by simpa using hk)

theorem twhites_mono (g : AdjacencyList) {a b : TopoState}
    (h : ∀ v, (Bit a.temp v = true ∨ Bit a.perm v = true) →
      (Bit b.temp v = true ∨ Bit b.perm v = true)) : twhites g b ≤ twhites g a := by
  unfold twhites
  apply List.countP_mono_left
  intro v _ hv
  simp only [Bool.and_eq_true, Bool.not_eq_true'] at hv ⊢
  constructor
  · cases ha : Bit a.temp v
    · rfl
    · have := h v (Or.inl ha)
      rcases this with e | e
      · rw [hv.1] at e; cases e
      · rw [hv.2] at e; cases e
  · cases ha : Bit a.perm v
    · rfl
    · have := h v (Or.inr ha)
      rcases this with e | e
      · rw [hv.1] at e; cases e
      · rw [hv.2] at e; cases e

theorem twhites_lt (g : AdjacencyList) {a b : TopoState} {n : Nat}
    (h : ∀ v, (Bit a.temp v = true ∨ Bit a.perm v = true) →
      (Bit b.temp v = true ∨ Bit b.perm v = true))
    (hn : n < g.length) (ha1 : Bit a.temp n = false) (ha2 : Bit a.perm n = false)
    (hb : Bit b.temp n = true ∨ Bit b.perm n = true) : twhites g b < twhites g a := by
  unfold twhites
  apply countP_lt_of_mem _ (List.mem_range.2 hn)
  · simp [ha1, ha2]
  · rcases hb with e | e <;> simp [e]
  · intro v _ hv
    simp only [Bool.and_eq_true, Bool.not_eq_true'] at hv ⊢
    constructor
    · cases ha : Bit a.temp v
      · rfl
      · have := h v (Or.inl ha)
        rcases this with e | e
        · rw [hv.1] at e; cases e
        · rw [hv.2] at e; cases e
    · cases ha : Bit a.perm v
      · rfl
      · have := h v (Or.inr ha)
        rcases this with e | e
        · rw [hv.1] at e; cases e
        · rw [hv.2] at e; cases e

theorem twhites_le (g : AdjacencyList) (st : TopoState) : twhites g st ≤ g.length := by
  unfold twhites
  have := List.countP_le_length (fun v => !Bit st.temp v && !Bit st.perm v)
    (l := List.range g.length)
  simpa using this

theorem TopoLoopInv.topo_enter {g : AdjacencyList} {st : TopoState} {n : Nat}
    (hwf : TopoWf g st) (hn : n < g.length) (hp : Bit st.perm n = false) :
    TopoLoopInv g n st [] { st with temp := SetBit st.temp n true } := by
  refine ⟨⟨hwf.hlen, hwf.hi, hwf.hperm, hwf.hnd, hwf.hlt, ?_, ?_, hwf.hcf, hwf.hord⟩, ?_,
    fun v hv => hv, fun w hw => by cases hw⟩
  · intro v hv
    dsimp only at hv ⊢
    rw [Bit_SetBit_true] at hv
    by_cases e : n = v
    · rw [← e]; exact hp
    · simp only [e, decide_False, Bool.or_false] at hv
      exact hwf.hdisj v hv
  · intro v hv
    dsimp only at hv
    rw [Bit_SetBit_true] at hv
    by_cases e : n = v
    · rw [← e]; exact hn
    · simp only [e, decide_False, Bool.or_false] at hv
      exact hwf.htlt v hv
  · intro v
    dsimp only
    rw [Bit_SetBit_true]

theorem topoArcs_spec (g : AdjacencyList) (hg : InRange g)
    (call : Nat → TopoState → Except Fault TopoState) (fuel : Nat)
    (hcall : ∀ m st, TopoWf g st → m < g.length →
      (∀ v, Bit st.temp v = true → Relation.TransGen (Arc g) v m) → twhites g st + 1 ≤ fuel →
      ∃ st1, call m st = .ok st1 ∧ TopoPost g m st st1)
    (n : Nat) (st0 : TopoState)
    (hpre : ∀ v, Bit st0.temp v = true → Relation.TransGen (Arc g) v n) :
    ∀ (rest done : List Nat) (st : TopoState), (∀ w, w ∈ rest → Arc g n w) →
      TopoLoopInv g n st0 done st → twhites g st + 1 ≤ fuel →
      ∃ st1, topoArcs call n rest st = .ok (true, st1) ∧
        TopoLoopInv g n st0 (done ++ rest) st1 := by
  intro rest
  induction rest with
  | nil =>
    intro done st _ h _
    exact ⟨st, rfl, by rw [List.append_nil]; exact h⟩
  | cons nb rest ih =>
    intro done st harcs h hw
    have harc : Arc g n nb := harcs nb (List.mem_cons_self _ _)
    have harcs2 : ∀ x, x ∈ rest → Arc g n x := fun x hx => harcs x (List.mem_cons_of_mem _ hx)
    have hcons : done ++ nb :: rest = (done ++ [nb]) ++ rest := by simp
    obtain ⟨st1, hc, hp⟩ := hcall nb st h.wf (Arc.lt_right hg harc) (by
      intro v hv
      rw [h.temp v] at hv
      by_cases e : n = v
      · rw [← e]; exact Relation.TransGen.single harc
      · simp only [e, decide_False, Bool.or_false] at hv
        exact Relation.TransGen.tail (hpre v hv) harc) hw
    have hinv : TopoLoopInv g n st0 (done ++ [nb]) st1 := by
      refine ⟨hp.wf, fun v => by rw [hp.temp v, h.temp v],
        fun v hv => hp.mono v (h.mono v hv), ?_⟩
      intro w hw
      rcases List.mem_append.1 hw with e | e
      · exact hp.mono w (h.hdone w e)
      · rw [List.mem_singleton.1 e]; exact hp.hn
    obtain ⟨st2, e1, e2⟩ := ih (done ++ [nb]) st1 harcs2 hinv (by
      have := twhites_mono g (a := st) (b := st1) (fun v hv => by
        rcases hv with e | e
        · left; rw [hp.temp v]; exact e
        · right; exact hp.mono v e)
      omega)
    rw [hcons]
    refine ⟨st2, ?_, e2⟩
    rw [topoArcs, hc]
    simp only
    rw [hp.wf.hcf]
    exact e1

theorem topoDf_spec (g : AdjacencyList) (hg : InRange g) (hac : Acyclic g) :
    ∀ (fuel n : Nat) (st : TopoState), TopoWf g st → n < g.length →
      (∀ v, Bit st.temp v = true → Relation.TransGen (Arc g) v n) →
      twhites g st + 1 ≤ fuel →
      ∃ st1, topoDf g fuel n st = .ok st1 ∧ TopoPost g n st st1 := by
  intro fuel
  induction fuel with
  | zero => intro n st _ _ _ h; omega
  | succ fuel ih =>
    intro n st hwf hn hpre hw
    have ht : Bit st.temp n = false := by
      cases hb : Bit st.temp n
      · rfl
      · exact absurd (hpre n hb) (hac n)
    by_cases hp : Bit st.perm n = true
    · refine ⟨st, ?_, hwf, fun v => rfl, hp, fun v hv => hv⟩
      rw [topoDf, ht, hp]
      simp
    · have hp0 : Bit st.perm n = false := by
        cases hb : Bit st.perm n
        · rfl
        · exact absurd hb hp
      have hinv := TopoLoopInv.topo_enter hwf hn hp0
      have hw1 : twhites g { st with temp := SetBit st.temp n true } + 1 ≤ fuel := by
        have := twhites_lt g (a := st) (b := { st with temp := SetBit st.temp n true })
          (n := n) (fun v hv => by
            rcases hv with e | e
            · left
              show Bit (SetBit st.temp n true) v = true
              rw [Bit_SetBit_true, e]; rfl
            · right; exact e) hn ht hp0 (Or.inl (by
              show Bit (SetBit st.temp n true) n = true
              rw [Bit_SetBit_true]; simp))
        omega
      obtain ⟨st1, e1, e2⟩ := topoArcs_spec g hg (topoDf g fuel) fuel ih n st hpre
        (g.getD n []) [] _ (fun w hw => hw) hinv hw1
      rw [List.nil_append] at e2
      have htn : Bit st1.temp n = true := by rw [e2.temp n]; simp
      have hpn : Bit st1.perm n = false := e2.wf.hdisj n htn
      have hnL : n ∉ st1.ordering.drop st1.i := fun hm => by
        rw [(e2.wf.hperm n).2 hm] at hpn; cases hpn
      have hcount : (n :: st1.ordering.drop st1.i).length ≤ g.length :=
        nodup_range_length_le (List.nodup_cons.2 ⟨hnL, e2.wf.hnd⟩) (by
          intro v hv
          rcases List.mem_cons.1 hv with e | e
          · rw [e]; exact hn
          · exact e2.wf.hlt v e)
      have hipos : 0 < st1.i := by
        simp only [List.length_cons, List.length_drop] at hcount
        have := e2.wf.hlen
        have := e2.wf.hi
        omega
      obtain ⟨j, hj⟩ : ∃ j, st1.i = j + 1 := ⟨st1.i - 1, by omega⟩
      have hjlt : j < st1.ordering.length := by
        have := e2.wf.hlen
        have := e2.wf.hi
        omega
      have hdrop : (st1.ordering.set j n).drop j = n :: st1.ordering.drop st1.i := by
        rw [drop_set_self n _ _ hjlt, hj]
      have hres : topoDf g (fuel + 1) n st = .ok
          { st1 with temp := SetBit st1.temp n false, perm := SetBit st1.perm n true,
                     i := j, ordering := st1.ordering.set j n } := by
        rw [topoDf, ht, hp0]
        simp only [Bool.false_eq_true, if_false]
        rw [idx_eq_getD hn]
        simp only
        rw [e1]
        simp only
        rw [hj]
        simp only
        rw [if_pos hjlt]
      refine ⟨_, hres, ⟨?_, ?_, ?_, ?_, ?_, ?_, ?_, e2.wf.hcf, ?_⟩, ?_, ?_, ?_⟩
      · show (st1.ordering.set j n).length = g.length
        rw [List.length_set]; exact e2.wf.hlen
      · show j ≤ g.length
        have := e2.wf.hi
        omega
      · intro v
        show Bit (SetBit st1.perm n true) v = true ↔ v ∈ (st1.ordering.set j n).drop j
        rw [hdrop, Bit_SetBit_true, List.mem_cons, Bool.or_eq_true, decide_eq_true_eq,
          e2.wf.hperm v]
        constructor
        · rintro (e | e)
          · exact Or.inr e
          · exact Or.inl e.symm
        · rintro (e | e)
          · exact Or.inr e.symm
          · exact Or.inl e
      · show ((st1.ordering.set j n).drop j).Nodup
        rw [hdrop]
        exact List.nodup_cons.2 ⟨hnL, e2.wf.hnd⟩
      · intro v hv
        change v ∈ (st1.ordering.set j n).drop j at hv
        rw [hdrop] at hv
        rcases List.mem_cons.1 hv with e | e
        · rw [e]; exact hn
        · exact e2.wf.hlt v e
      · intro v hv
        change Bit (SetBit st1.temp n false) v = true at hv
        show Bit (SetBit st1.perm n true) v = false
        rw [Bit_SetBit_false, Bool.and_eq_true] at hv
        have hne : ¬ n = v := by
          intro e
          have := hv.2
          simp [e] at this
        rw [Bit_SetBit_true, e2.wf.hdisj v hv.1]
        simp [hne]
      · intro v hv
        change Bit (SetBit st1.temp n false) v = true at hv
        rw [Bit_SetBit_false, Bool.and_eq_true] at hv
        exact e2.wf.htlt v hv.1
      · show ArcsForward g ((st1.ordering.set j n).drop j)
        rw [hdrop]
        intro l1 u l2 hl v huv
        cases l1 with
        | nil =>
          rw [List.nil_append] at hl
          injection hl with h1 h2
          rw [← h1] at huv
          rw [← h2]
          exact (e2.wf.hperm v).1 (e2.hdone v huv)
        | cons a l1 =>
          rw [List.cons_append] at hl
          injection hl with h1 h2
          exact e2.wf.hord l1 u l2 h2 v huv
      · intro v
        show Bit (SetBit st1.temp n false) v = Bit st.temp v
        rw [Bit_SetBit_false, e2.temp v]
        by_cases e : n = v
        · rw [← e, ht]; simp
        · simp [e]
      · show Bit (SetBit st1.perm n true) n = true
        rw [Bit_SetBit_true]; simp
      · intro v hv
        show Bit (SetBit st1.perm n true) v = true
        rw [Bit_SetBit_true, e2.mono v hv]; rfl

theorem topoLoop_spec (g : AdjacencyList) (hg : InRange g) (hac : Acyclic g) (fuel : Nat)
    (hfuel : g.length + 1 ≤ fuel) :
    ∀ (nodes : List Nat) (st : TopoState), TopoWf g st → (∀ v, Bit st.temp v = false) →
      (∀ v, v ∈ nodes → v < g.length) →
      ∃ st1, topoLoop g fuel nodes st = .ok (some (st1.ordering.drop st1.i), none) ∧
        TopoWf g st1 ∧ (∀ v, Bit st.perm v = true → Bit st1.perm v = true) ∧
        (∀ v, v ∈ nodes → Bit st1.perm v = true) := by
  intro nodes
  induction nodes with
  | nil =>
    intro st hwf _ _
    exact ⟨st, rfl, hwf, fun v hv => hv, fun v hv => by cases hv⟩
  | cons n rest ih =>
    intro st hwf ht hlt
    have hrest : ∀ v, v ∈ rest → v < g.length := fun v hv => hlt v (List.mem_cons_of_mem _ hv)
    by_cases hp : Bit st.perm n = true
    · obtain ⟨st2, e2, h1, h2, h3⟩ := ih st hwf ht hrest
      refine ⟨st2, ?_, h1, h2, ?_⟩
      · rw [topoLoop, if_pos hp]; exact e2
      · intro v hv
        rcases List.mem_cons.1 hv with e | e
        · rw [e]; exact h2 n hp
        · exact h3 v e
    · obtain ⟨st1, e1, hpost⟩ := topoDf_spec g hg hac fuel n st hwf
        (hlt n (List.mem_cons_self _ _)) (fun v hv => by rw [ht v] at hv; cases hv)
        (by have := twhites_le g st; omega)
      obtain ⟨st2, e2, h1, h2, h3⟩ := ih st1 hpost.wf (fun v => by rw [hpost.temp v, ht v])
        hrest
      refine ⟨st2, ?_, h1, fun v hv => h2 v (hpost.mono v hv), ?_⟩
      · rw [topoLoop, if_neg hp, e1]
        simp only
        rw [hpost.wf.hcf]
        exact e2
      · intro v hv
        rcases List.mem_cons.1 hv with e | e
        · rw [e]; exact h2 n hpost.hn
        · exact h3 v e

/-- `Topological` on an acyclic graph: the ordering holds every node once, and every
arc leads further back in it. -/
theorem Topological_spec (g : AdjacencyList) (hg : InRange g) (hac : Acyclic g) (fuel : Nat)
    (hfuel : g.length + 1 ≤ fuel) :
    ∃ ord, Topological fuel g = .ok (some ord, none) ∧ ord.Perm (List.range g.length) ∧
      ArcsForward g ord := by
  have hinit : TopoWf g
      { ordering := List.replicate g.length 0, i := g.length, temp := 0, perm := 0,
        cycleFound := false, cycleStart := 0, cycle := none } := by
    refine ⟨by simp, le_refl _, ?_, ?_, ?_, ?_, ?_, rfl, ?_⟩
    · intro v
      simp [Bit_zero]
    · simp
    · intro v hv; simp at hv
    · intro v hv; simp [Bit_zero] at hv
    · intro v hv; simp [Bit_zero] at hv
    · intro l1 u l2 hl
      simp at hl
  obtain ⟨st1, e1, hwf, _, hall⟩ := topoLoop_spec g hg hac fuel hfuel (List.range g.length) _
    hinit (fun v => Bit_zero v) (fun v hv => List.mem_range.1 hv)
  refine ⟨st1.ordering.drop st1.i, e1, ?_, hwf.hord⟩
  rw [List.perm_ext_iff_of_nodup hwf.hnd (List.nodup_range _)]
  intro v
  rw [List.mem_range]
  constructor
  · exact hwf.hlt v
  · intro hv
    exact (hwf.hperm v).1 (hall v (List.mem_range.2 hv))

/-- A graph in which every arc leads to a higher node number has no cycle. -/
theorem Acyclic.of_increasing {g : AdjacencyList}
    (h : ∀ u, u < g.length → ∀ v, v ∈ g.getD u [] → u < v) : Acyclic g := by
  have harc : ∀ u v, Arc g u v → u < v := by
    intro u v huv
    exact h u huv.lt_left v huv
  have hgen : ∀ a b, Relation.TransGen (Arc g) a b → a < b := by
    intro a b hab
    induction hab with
    | single h1 => exact harc _ _ h1
    | tail _ h1 ih => exact lt_trans ih (harc _ _ h1)
  intro v hv
  exact absurd (hgen v v hv) (lt_irrefl v)

/-! ## Consequences used by the statements below -/

/-- On a simple graph, `Degeneracy` returns a result only if the graph has an edge. -/
theorem Degeneracy_ok_has_edge {g : AdjacencyList} (hg : Simple g) {k : Nat}
    {ord cores : List Nat} (h : Degeneracy g = .ok (k, ord, cores)) : ∃ u v, Arc g u v := by
  obtain ⟨s, hs, hc, _, _, hlt, _⟩ := Degeneracy_cores hg h
  rcases hc.hlen with ⟨e1, _⟩ | ⟨_, hpos⟩
  · omega
  · rcases hs.hk2 with e | ⟨t, _, e⟩
    · omega
    · have hne : (g.getD (s.ordering.getD t 0) []).filter
          (fun u => decide (u ∉ s.ordering.take t)) ≠ [] := by
        intro e2
        unfold outDeg at e
        rw [e2] at e
        simp at e
        omega
      obtain ⟨u, hu⟩ := List.exists_mem_of_ne_nil _ hne
      exact ⟨s.ordering.getD t 0, u, (List.mem_filter.1 hu).1⟩

theorem pathDf_emit (g : AdjacencyList) (emit : Emit Nat) :
    ∀ fuel, pathDf g emit fuel = pathDf g emitAll fuel := by
  intro fuel
  induction fuel with
  | zero => rfl
  | succ fuel ih =>
    funext v st
    simp only [pathDf]
    rw [ih]

/-- `SCCPathBased` does not look at what `emit` returns. -/
theorem SCCPathBased_emit (fuel : Nat) (g : AdjacencyList) (emit : Emit Nat) :
    SCCPathBased fuel g emit = SCCPathBased fuel g emitAll := by
  have hloop : ∀ (nodes : List Nat) (st : BState),
      pathLoop g emit fuel nodes st = pathLoop g emitAll fuel nodes st := by
    intro nodes
    induction nodes with
    | nil => intro st; rfl
    | cons v rest ih =>
      intro st
      simp only [pathLoop]
      rw [pathDf_emit g emit fuel]
      split
      · split
        · rfl
        · exact ih _
      · exact ih _
  unfold SCCPathBased
  rw [hloop]

/-- In a list without repetition whose arcs lead further back, an arc leads from a
lower index to a higher one. -/
theorem ArcsForward.index_lt {g : AdjacencyList} {l : List Nat} (h : ArcsForward g l)
    (hnd : l.Nodup) {i j : Nat} (hi : i < l.length) (hj : j < l.length)
    (harc : Arc g (l.getD i 0) (l.getD j 0)) : i < j := by
  have hsplit : l = l.take i ++ l.getD i 0 :: l.drop (i + 1) := by
    rw [List.getD_eq_getElem _ _ hi]
    have := List.take_append_drop i l
    rw [List.drop_eq_getElem_cons hi] at this
    exact this.symm
  have hmem := h _ _ _ hsplit _ harc
  obtain ⟨k, hk, e⟩ := List.getElem_of_mem hmem
  rw [List.getElem_drop] at e
  have hk2 : i + 1 + k < l.length := by
    rw [List.length_drop] at hk
    omega
  rw [List.getD_eq_getElem _ _ hj] at e
  have := (List.Nodup.getElem_inj_iff hnd).1 e
  omega

theorem mem_unique_of_nodup_flatten {L : List (List Nat)} (h : L.flatten.Nodup)
    {c d : List Nat} (hc : c ∈ L) (hd : d ∈ L) {u : Nat} (huc : u ∈ c) (hud : u ∈ d) :
    c = d := by
  obtain ⟨i, hi, ei⟩ := List.getElem_of_mem hc
  obtain ⟨j, hj, ej⟩ := List.getElem_of_mem hd
  have h1 : u ∈ L.getD i [] := by rw [List.getD_eq_getElem _ _ hi, ei]; exact huc
  have h2 : u ∈ L.getD j [] := by rw [List.getD_eq_getElem _ _ hj, ej]; exact hud
  have := getD_unique_of_nodup_flatten h h1 h2
  subst this
  rw [← ei, ← ej]

/-- A component of a list of components that hold every node once, are strongly
connected and are in reverse topological order is a complete strongly connected
component. -/
theorem component_complete {g : AdjacencyList} {L : List (List Nat)}
    (hperm : L.flatten.Perm (List.range g.length))
    (hscc : ∀ c, c ∈ L → ∀ u, u ∈ c → ∀ v, v ∈ c → Reach g u v)
    (htopo : ∀ i u w, u ∈ L.getD i [] → Arc g u w → ∃ j, j ≤ i ∧ w ∈ L.getD j [])
    {c : List Nat} (hc : c ∈ L) {u : Nat} (hu : u ∈ c) (v : Nat) :
    v ∈ c ↔ (Reach g u v ∧ Reach g v u) := by
  have hnd : L.flatten.Nodup := hperm.nodup_iff.2 (List.nodup_range _)
  have hul : u < g.length :=
    List.mem_range.1 (hperm.mem_iff.1 (List.mem_flatten.2 ⟨c, hc, hu⟩))
  constructor
  · intro hv
    exact ⟨hscc c hc u hu v hv, hscc c hc v hv u hu⟩
  · intro hr
    obtain ⟨d, hd, hud, hvd⟩ := (same_component_iff hperm hscc htopo hul).2 hr
    rw [mem_unique_of_nodup_flatten hnd hc hd hu hud]
    exact hvd

theorem Bit_lt_of_lt_pow {x n v : Nat} (hx : x < 2 ^ n) (hv : Bit x v = true) : v < n := by
  by_contra hc
  have h1 : x < 2 ^ v := lt_of_lt_of_le hx (Nat.pow_le_pow_right (by omega) (by omega))
  have := Nat.testBit_eq_false_of_lt h1
  unfold Bit at hv
  rw [this] at hv
  cases hv

section DomsSteps

variable {g tr : AdjacencyList} {post pi : List Nat} {r : Nat}

/-! ### The steps of the passes -/

/-- A step at a node that has a predecessor with an entry is in order. -/
theorem DomStepOk.of_pred (C : DomCtx g tr post pi r) {dom : List Int}
    (W : DomWf g post pi r dom) {fuel : Nat} (hfuel : 2 * post.length ≤ fuel) {b : Nat}
    (hb : b ∈ post) (hex : ∃ p, Arc g p b ∧ Dfn dom p) : DomStepOk tr pi fuel b dom := by
  have hbl : b < g.length := C.range b hb
  have hfr : ∀ p, p ∈ tr.getD b [] ↔ Arc g p b := fun p => C.trarc p b hbl
  refine ⟨?_, ?_, ?_⟩
  · obtain ⟨p, hp, hd⟩ := hex
    exact ⟨p, (hfr p).2 hp, hd⟩
  · have hlt : ∀ p ∈ tr.getD b [], p < dom.length := by
      intro p hp
      rw [W.len]
      exact ((hfr p).mp hp).lt_left
    rcases domFirst_spec (tr.getD b []) 0 hlt with ⟨_, hn⟩ | ⟨t, _, e, _, _⟩
    · obtain ⟨p, hp, hdp⟩ := hex
      exact absurd hdp (hn p ((hfr p).mpr hp))
    · exact ⟨_, e⟩
  · intro ch
    obtain ⟨a, e, _⟩ := domStep_spec C W hfuel hb ch hex
    exact ⟨_, e⟩

theorem FirstPassInv.first_steps (C : DomCtx g tr post pi r) {fuel : Nat}
    (hfuel : 2 * post.length ≤ fuel) :
    ∀ (k : Nat) (dom : List Int) (ch : Bool), k < post.length →
      FirstPassInv g post pi r k dom →
      (∀ x, x ∈ domPassSteps tr pi fuel post k dom ch →
        x.1 ∈ post ∧ x.1 ≠ r ∧ DomStepOk tr pi fuel x.1 x.2) ∧
      ∀ j, j < k → ∃ d, (post.getD j 0, d) ∈ domPassSteps tr pi fuel post k dom ch := by
  intro k
  induction k with
  | zero =>
    intro dom ch _ _
    refine ⟨?_, fun j hj => absurd hj (Nat.not_lt_zero j)⟩
    intro x hx
    simp [domPassSteps] at hx
  | succ k ih =>
    intro dom ch hk I
    obtain ⟨dom1, e1, I1⟩ := I.first_step C hfuel hk ch
    obtain ⟨h1, h2⟩ := ih dom1 true (by omega) I1
    have hb : post.getD k 0 ∈ post := getD_mem_of_lt (by omega)
    have hpb : pi.getD (post.getD k 0) 0 = k := C.pipost k (by omega)
    have hbr : post.getD k 0 ≠ r := by
      intro e
      rw [e, C.root_pos] at hpb
      omega
    have hex : ∃ p, Arc g p (post.getD k 0) ∧ Dfn dom p := by
      obtain ⟨q, hq, harc, hlt⟩ := C.exists_later hb hbr
      exact ⟨q, harc, (I.defd q).mpr ⟨hq, by omega⟩⟩
    have hunf : domPassSteps tr pi fuel post (k + 1) dom ch =
        (post.getD k 0, dom) :: domPassSteps tr pi fuel post k dom1 true := by
      rw [domPassSteps, idx_of_lt (by omega : k < post.length) 0]
      simp only
      rw [e1]
    rw [hunf]
    constructor
    · intro x hx
      rcases List.mem_cons.1 hx with e | e
      · rw [e]
        exact ⟨hb, hbr, DomStepOk.of_pred C I.wf hfuel hb hex⟩
      · exact h1 x e
    · intro j hj
      by_cases hjk : j = k
      · rw [hjk]
        exact ⟨dom, List.mem_cons_self _ _⟩
      · obtain ⟨d, hd⟩ := h2 j (by omega)
        exact ⟨d, List.mem_cons_of_mem _ hd⟩

theorem PassInv.later_steps (C : DomCtx g tr post pi r) {fuel : Nat}
    (hfuel : 2 * post.length ≤ fuel) :
    ∀ (k : Nat) (dom : List Int) (ch : Bool), k < post.length →
      PassInv g post pi r k dom → (ch = false → DomFixed g post pi r k dom) →
      ∀ x, x ∈ domPassSteps tr pi fuel post k dom ch →
        x.1 ∈ post ∧ x.1 ≠ r ∧ DomStepOk tr pi fuel x.1 x.2 := by
  intro k
  induction k with
  | zero =>
    intro dom ch _ _ _ x hx
    simp [domPassSteps] at hx
  | succ k ih =>
    intro dom ch hk I hfix
    obtain ⟨dom1, ch1, e1, I1, _, _, hf1⟩ := I.later_step C hfuel hk ch hfix
    have hb : post.getD k 0 ∈ post := getD_mem_of_lt (by omega)
    have hpb : pi.getD (post.getD k 0) 0 = k := C.pipost k (by omega)
    have hbr : post.getD k 0 ≠ r := by
      intro e
      rw [e, C.root_pos] at hpb
      omega
    have hex : ∃ p, Arc g p (post.getD k 0) ∧ Dfn dom p := by
      obtain ⟨q, hq, harc, _⟩ := C.exists_later hb hbr
      exact ⟨q, harc, I.all q hq⟩
    have hunf : domPassSteps tr pi fuel post (k + 1) dom ch =
        (post.getD k 0, dom) :: domPassSteps tr pi fuel post k dom1 ch1 := by
      rw [domPassSteps, idx_of_lt (by omega : k < post.length) 0]
      simp only
      rw [e1]
    rw [hunf]
    intro x hx
    rcases List.mem_cons.1 hx with e | e
    · rw [e]
      exact ⟨hb, hbr, DomStepOk.of_pred C I.wf hfuel hb hex⟩
    · exact ih dom1 ch1 (by omega) I1 hf1 x e

theorem domLoopSteps_ok (C : DomCtx g tr post pi r) {fuel : Nat}
    (hfuel : 2 * post.length ≤ fuel) :
    ∀ (n : Nat) (dom : List Int), PassInv g post pi r 0 dom →
      ∀ x, x ∈ domLoopSteps tr pi fuel post n dom →
        x.1 ∈ post ∧ x.1 ≠ r ∧ DomStepOk tr pi fuel x.1 x.2 := by
  intro n
  induction n with
  | zero =>
    intro dom _ x hx
    simp [domLoopSteps] at hx
  | succ n ih =>
    intro dom I x hx
    have hlen := C.length_pos
    have hfix : DomFixed g post pi r (post.length - 1) dom := by
      intro v hv hvr hkv
      have := C.pos_lt_root hv hvr
      omega
    obtain ⟨dom1, ch1, e1, I1, _, _, _⟩ :=
      PassInv.later_pass C hfuel (post.length - 1) dom false (by omega) (I.restart C)
        (fun _ => hfix)
    rw [domLoopSteps, e1] at hx
    rcases List.mem_append.1 hx with h | h
    · exact PassInv.later_steps C hfuel (post.length - 1) dom false (by omega) (I.restart C)
        (fun _ => hfix) x h
    · cases ch1 with
      | false => simp at h
      | true =>
        simp only [if_true] at h
        exact ih dom1 I1 x h

/-- Under the preconditions of `Doms`, every non-start node of `post` is processed,
and every step of every pass finds a predecessor with an entry. -/
theorem DomsSteps_spec {start fuel : Nat} (htr : IsTranspose g tr)
    (hpost : PostOrdering g start post) (hfuel : post.length * post.length + 2 ≤ fuel) :
    ∃ p, domPi post 0 (List.replicate g.length 0) = .ok p ∧
      (∀ b, b ∈ post → b ≠ start → ∃ dom, (b, dom) ∈ DomsSteps fuel g tr post) ∧
      ∀ x, x ∈ DomsSteps fuel g tr post →
        x.1 ∈ post ∧ x.1 ≠ start ∧ DomStepOk tr p fuel x.1 x.2 := by
  obtain ⟨p, ep, hplen, hppos, _⟩ := domPi_spec post 0 (List.replicate g.length 0) hpost.1
    (fun n hn => by rw [List.length_replicate]; exact (hpost.2.2.1 n hn).1)
  rw [List.length_replicate] at hplen
  have C : DomCtx g tr post p start :=
    DomCtx.of_pre htr hpost hplen (fun t ht => by rw [hppos t ht, Nat.zero_add])
  have hlen := C.length_pos
  have h2 := two_mul_le_sq_add_two post.length
  have hf2 : 2 * post.length ≤ fuel := by omega
  obtain ⟨dom1, ch1, e1, I1, _⟩ := FirstPassInv.first_pass C hf2 (post.length - 1) _ false
    (by omega) (FirstPassInv.initial C)
  obtain ⟨s1, s2⟩ := FirstPassInv.first_steps C hf2 (post.length - 1) _ false
    (by omega) (FirstPassInv.initial C)
  have P1 := I1.toPassInv
  have hstart : start < g.length := C.range start C.root_mem
  obtain ⟨n, hn⟩ : ∃ n, fuel = n + 1 := ⟨fuel - 1, by omega⟩
  have hsteps : DomsSteps fuel g tr post =
      domPassSteps tr p fuel post (post.length - 1)
        ((List.replicate g.length (-1 : Int)).set start (Int.ofNat start)) false ++
      (if ch1 then domLoopSteps tr p fuel post n dom1 else []) := by
    unfold DomsSteps
    rw [ep]
    simp only
    rw [C.last]
    simp only [hstart, if_true]
    conv_lhs => rw [hn, domLoopSteps, ← hn]
    rw [e1]
  refine ⟨p, ep, ?_, ?_⟩
  · intro b hb hbs
    obtain ⟨d, hd⟩ := s2 (p.getD b 0) (by
      have := C.pos_lt_root hb hbs
      omega)
    rw [C.post_pos hb] at hd
    exact ⟨d, by rw [hsteps]; exact List.mem_append_left _ hd⟩
  · intro x hx
    rw [hsteps] at hx
    rcases List.mem_append.1 hx with h | h
    · exact s1 x h
    · cases ch1 with
      | false => simp at h
      | true =>
        simp only [if_true] at h
        exact domLoopSteps_ok C hf2 n dom1 P1 x h

end DomsSteps

/-! ## The arguments of the calls of the closure of BronKerbosch1 -/

theorem bkLoopCalls_inv {g : AdjacencyList} (hg : Simple g)
    (call : Nat → Nat → Nat → List (List Int) → Except Fault (Bool × List (List Int)))
    (calls : Nat → Nat → Nat → List (List Int) → List (Nat × Nat × Nat)) (R : Nat)
    (hcalls : ∀ R1 P1 X1 log, BInv g R1 P1 X1 →
      ∀ x, x ∈ calls R1 P1 X1 log → BInv g x.1 x.2.1 x.2.2) :
    ∀ (k : Nat) (n : Int) (P X : Nat) (log : List (List Int)), BInv g R P X →
      (∀ m : Nat, n = (m : Int) → Bit P m = true) →
      ∀ x, x ∈ bkLoopCalls g call calls none R k n P X log → BInv g x.1 x.2.1 x.2.2 := by
  intro k
  induction k with
  | zero =>
    intro n P X log _ _ x hx
    cases n <;> simp [bkLoopCalls] at hx
  | succ k ih =>
    intro n P X log hinv hn x hx
    cases n with
    | negSucc j => simp [bkLoopCalls] at hx
    | ofNat m =>
      have hm : Bit P m = true := hn m rfl
      have hml : m < g.length := ((hinv.2.2.1 m).1 (Or.inl hm)).1
      rw [bkLoopCalls, idx_eq_getD hml] at hx
      simp only at hx
      rcases List.mem_append.1 hx with h | h
      · exact hcalls _ _ _ _ (hinv.bk_child hg hm) x h
      · cases hc : call (SetBit R m true) (bkChild (g.getD m []) P X).1
            (bkChild (g.getD m []) P X).2 log with
        | error e => rw [hc] at h; simp at h
        | ok r =>
          obtain ⟨b, log1⟩ := r
          rw [hc] at h
          cases b with
          | false => simp at h
          | true =>
            simp only at h
            refine ih _ _ _ _ (hinv.move hm) ?_ x h
            intro m2 hm2
            simp only [Option.getD_none] at hm2
            rcases NextOne_cases (SetBit P m false) (Int.ofNat m + 1) with ⟨e, _⟩ | ⟨n2, e, hb, _⟩
            · rw [e] at hm2
              omega
            · rw [e] at hm2
              have : n2 = m2 := by omega
              rw [← this]
              exact hb

theorem bkfCalls_inv {g : AdjacencyList} (hg : Simple g) (emit : Emit Int) :
    ∀ (fuel R P X : Nat) (log : List (List Int)), BInv g R P X →
      ∀ x, x ∈ bkfCalls g none emit fuel R P X log → BInv g x.1 x.2.1 x.2.2 := by
  intro fuel
  induction fuel with
  | zero =>
    intro R P X log hinv x hx
    simp only [bkfCalls, List.mem_singleton] at hx
    rw [hx]
    exact hinv
  | succ fuel ih =>
    intro R P X log hinv x hx
    rw [bkfCalls] at hx
    rcases List.mem_cons.1 hx with h | h
    · rw [h]
      exact hinv
    · by_cases hP : P ≠ 0
      · simp only [hP, ne_eq, not_false_eq_true, if_true] at h
        refine bkLoopCalls_inv hg _ _ R (fun R1 P1 X1 log1 h1 => ih R1 P1 X1 log1 h1) fuel _ P X
          log hinv ?_ x h
        intro m hm
        rcases NextOne_cases P 0 with ⟨e, _⟩ | ⟨n2, e, hb, _⟩
        · rw [e] at hm
          omega
        · rw [e] at hm
          have : n2 = m := by omega
          rw [← this]
          exact hb
      · simp only [hP, if_false, List.not_mem_nil] at h

/-- The first call of the closure is listed, and the arguments of every call satisfy
the invariant. -/
theorem BronKerbosch1Calls_spec {g : AdjacencyList} (hg : Simple g) (emit : Emit Int)
    (fuel : Nat) :
    (0, OneBits g.length, 0) ∈ BronKerbosch1Calls fuel g emit ∧
    ∀ x, x ∈ BronKerbosch1Calls fuel g emit → BInv g x.1 x.2.1 x.2.2 := by
  constructor
  · unfold BronKerbosch1Calls
    cases fuel with
    | zero => simp [bkfCalls]
    | succ fuel =>
      rw [bkfCalls]
      exact List.mem_cons_self _ _
  · exact bkfCalls_inv hg emit fuel 0 _ 0 [] (BInv.bk_init g)

/-! ## TopologicalKahn -/

theorem sum_map_range_succ (f : Nat → Nat) (N : Nat) :
    ((List.range (N + 1)).map f).sum = ((List.range N).map f).sum + f N := by
  rw [List.range_succ, List.map_append, List.sum_append]
  simp

theorem sum_indicator_range (a N : Nat) (h : a < N) :
    ((List.range N).map (fun u => if a = u then 1 else 0)).sum = 1 := by
  induction N with
  | zero => omega
  | succ N ih =>
    rw [sum_map_range_succ]
    by_cases e : a = N
    · have hz : ((List.range N).map (fun u => if a = u then 1 else 0)).sum = 0 := by
        apply List.sum_eq_zero
        intro x hx
        obtain ⟨u, hu, rfl⟩ := List.mem_map.1 hx
        have := List.mem_range.1 hu
        rw [if_neg (by omega)]
      rw [hz, if_pos e]
    · rw [ih (by omega), if_neg e]

theorem length_eq_sum_count (N : Nat) :
    ∀ (l : List Nat), (∀ v, v ∈ l → v < N) →
      l.length = ((List.range N).map (fun u => l.count u)).sum := by
  intro l
  induction l with
  | nil =>
    intro _
    symm
    apply List.sum_eq_zero
    intro x hx
    obtain ⟨u, _, rfl⟩ := List.mem_map.1 hx
    rfl
  | cons a l ih =>
    intro h
    have ha : a < N := h a (List.mem_cons_self _ _)
    have hl := ih (fun v hv => h v (List.mem_cons_of_mem _ hv))
    have hsplit : ((List.range N).map (fun u => (a :: l).count u)).sum =
        ((List.range N).map (fun u => l.count u)).sum +
        ((List.range N).map (fun u => if a = u then 1 else 0)).sum := by
      rw [← List.sum_map_add]
      congr 1
      apply List.map_congr_left
      intro u _
      rw [List.count_cons]
      simp only [beq_iff_eq]
    rw [hsplit, ← hl, sum_indicator_range a N ha, List.length_cons]

theorem sum_filter_remove (f : Nat → Nat) (L : List Nat) (n : Nat) (hn : n ∉ L) :
    ∀ (l : List Nat), l.Nodup → n ∈ l →
      ((l.filter (fun u => decide (u ∉ L))).map f).sum =
        ((l.filter (fun u => decide (u ∉ L ++ [n]))).map f).sum + f n := by
  intro l
  induction l with
  | nil => intro _ h; cases h
  | cons a l ih =>
    intro hnd hmem
    obtain ⟨ha, hl⟩ := List.nodup_cons.1 hnd
    by_cases e : a = n
    · subst e
      have hsame : l.filter (fun u => decide (u ∉ L ++ [a])) =
          l.filter (fun u => decide (u ∉ L)) := by
        apply List.filter_congr
        intro x hx
        have hxa : x ≠ a := fun e2 => ha (e2 ▸ hx)
        simp [hxa]
      rw [List.filter_cons_of_pos (by simpa using hn),
        List.filter_cons_of_neg (by simp), hsame, List.map_cons, List.sum_cons]
      omega
    · have hmem2 : n ∈ l := by
        rcases List.mem_cons.1 hmem with h | h
        · exact absurd h.symm e
        · exact h
      have h2 := ih hl hmem2
      by_cases haL : a ∈ L
      · rw [List.filter_cons_of_neg (by simpa using haL),
          List.filter_cons_of_neg (by simp [haL]), h2]
      · rw [List.filter_cons_of_pos (by simpa using haL),
          List.filter_cons_of_pos (by simp [haL, e]), List.map_cons, List.map_cons,
          List.sum_cons, List.sum_cons, h2]
        omega

theorem remFrom_snoc (g : AdjacencyList) (L : List Nat) (n m : Nat) (hn : n < g.length)
    (hL : n ∉ L) :
    remFrom g L m = remFrom g (L ++ [n]) m + (g.getD n []).count m := by
  unfold remFrom
  exact sum_filter_remove (fun u => (g.getD u []).count m) L n hL (List.range g.length)
    (List.nodup_range _) (List.mem_range.2 hn)

theorem remFrom_eq_zero {g : AdjacencyList} {L : List Nat} {m : Nat}
    (h : remFrom g L m = 0) {u : Nat} (harc : Arc g u m) : u ∈ L := by
  by_contra hu
  unfold remFrom at h
  have hz := List.sum_eq_zero_iff.1 h ((g.getD u []).count m) (by
    apply List.mem_map.2
    exact ⟨u, List.mem_filter.2 ⟨List.mem_range.2 harc.lt_left, by simpa using hu⟩, rfl⟩)
  have := List.count_pos_iff.2 harc
  omega

theorem remFrom_pos {g : AdjacencyList} {L : List Nat} {m : Nat}
    (h : remFrom g L m ≠ 0) : ∃ u, u < g.length ∧ u ∉ L ∧ Arc g u m := by
  by_contra hc
  apply h
  unfold remFrom
  apply List.sum_eq_zero
  intro x hx
  obtain ⟨u, hu, rfl⟩ := List.mem_map.1 hx
  obtain ⟨h1, h2⟩ := List.mem_filter.1 hu
  by_contra hne
  apply hc
  refine ⟨u, List.mem_range.1 h1, by simpa using h2, ?_⟩
  exact List.count_pos_iff.1 (Nat.pos_of_ne_zero hne)

theorem remFrom_nil {g tr : AdjacencyList} (htr : TransposeOf g tr) {m : Nat}
    (hm : m < g.length) : remFrom g [] m = (tr.getD m []).length := by
  obtain ⟨h1, h2, h3⟩ := htr
  have hmem : tr.getD m [] ∈ tr := getD_mem (by rw [h1]; exact hm)
  rw [length_eq_sum_count g.length (tr.getD m []) (fun v hv => by
    have := h2 _ hmem v hv
    rw [h1] at this
    exact this)]
  unfold remFrom
  have hf : (List.range g.length).filter (fun u => decide (u ∉ ([] : List Nat))) =
      List.range g.length := by
    apply List.filter_eq_self.2
    intro a _
    simp
  rw [hf]
  congr 1
  apply List.map_congr_left
  intro u hu
  exact (h3 u (List.mem_range.1 hu) m hm).symm

theorem kahnInit_spec (N : Nat) :
    ∀ (rest : List (List Nat)) (n : Nat) (S rem : List Nat), rem.length = N →
      n + rest.length = N → (∀ m, n ≤ m → rem.getD m 0 = 0) → S.Nodup → (∀ v, v ∈ S → v < n) →
      ∃ S1 rem1, kahnInit rest n S rem = .ok (S1, rem1) ∧ rem1.length = N ∧ S1.Nodup ∧
        (∀ m, m < n → rem1.getD m 0 = rem.getD m 0) ∧
        (∀ m, n ≤ m → rem1.getD m 0 = (rest.getD (m - n) []).length) ∧
        (∀ v, v ∈ S1 ↔ (v ∈ S ∨ (n ≤ v ∧ v < N ∧ (rest.getD (v - n) []).length = 0))) := by
  intro rest
  induction rest with
  | nil =>
    intro n S rem hlen hn hz hnd _
    refine ⟨S, rem, rfl, hlen, hnd, fun _ _ => rfl, ?_, ?_⟩
    · intro m hm
      rw [hz m hm]
      simp
    · intro v
      simp only [List.length_nil, Nat.add_zero] at hn
      constructor
      · intro h; exact Or.inl h
      · rintro (h | ⟨h1, h2, _⟩)
        · exact h
        · omega
  | cons fr rest ih =>
    intro n S rem hlen hn hz hnd hS
    simp only [List.length_cons] at hn
    by_cases hfr : fr.length = 0
    · obtain ⟨S1, rem1, e, h1, h2, h3, h4, h5⟩ := ih (n + 1) (n :: S) rem hlen (by omega)
        (fun m hm => hz m (by omega))
        (List.nodup_cons.2 ⟨fun h => by have := hS n h; omega, hnd⟩)
        (fun v hv => by
          rcases List.mem_cons.1 hv with h | h
          · omega
          · have := hS v h; omega)
      refine ⟨S1, rem1, ?_, h1, h2, fun m hm => h3 m (by omega), ?_, ?_⟩
      · rw [kahnInit, if_pos hfr]
        exact e
      · intro m hm
        by_cases e2 : m = n
        · subst e2
          rw [h3 m (by omega), hz m (le_refl _)]
          simp [hfr]
        · rw [h4 m (by omega)]
          have : m - n = (m - (n + 1)) + 1 := by omega
          rw [this, List.getD_cons_succ]
      · intro v
        rw [h5 v]
        constructor
        · rintro (h | ⟨a, b, c⟩)
          · rcases List.mem_cons.1 h with h | h
            · right
              subst h
              refine ⟨le_refl _, by omega, ?_⟩
              simp [hfr]
            · exact Or.inl h
          · right
            refine ⟨by omega, b, ?_⟩
            have : v - n = (v - (n + 1)) + 1 := by omega
            rw [this, List.getD_cons_succ]
            exact c
        · rintro (h | ⟨a, b, c⟩)
          · exact Or.inl (List.mem_cons_of_mem _ h)
          · by_cases e2 : v = n
            · exact Or.inl (e2 ▸ List.mem_cons_self _ _)
            · right
              refine ⟨by omega, b, ?_⟩
              have : v - n = (v - (n + 1)) + 1 := by omega
              rw [this, List.getD_cons_succ] at c
              exact c
    · have hnl : n < rem.length := by omega
      obtain ⟨S1, rem1, e, h1, h2, h3, h4, h5⟩ := ih (n + 1) S (rem.set n fr.length)
        (by rw [List.length_set]; exact hlen) (by omega)
        (fun m hm => by rw [getD_set_ne _ _ _ _ _ (by omega)]; exact hz m (by omega))
        hnd (fun v hv => by have := hS v hv; omega)
      refine ⟨S1, rem1, ?_, h1, h2, ?_, ?_, ?_⟩
      · rw [kahnInit, if_neg hfr, if_pos hnl]
        exact e
      · intro m hm
        rw [h3 m (by omega), getD_set_ne _ _ _ _ _ (by omega)]
      · intro m hm
        by_cases e2 : m = n
        · subst e2
          rw [h3 m (by omega), getD_set_eq _ _ _ _ hnl]
          simp
        · rw [h4 m (by omega)]
          have : m - n = (m - (n + 1)) + 1 := by omega
          rw [this, List.getD_cons_succ]
      · intro v
        rw [h5 v]
        constructor
        · rintro (h | ⟨a, b, c⟩)
          · exact Or.inl h
          · right
            refine ⟨by omega, b, ?_⟩
            have : v - n = (v - (n + 1)) + 1 := by omega
            rw [this, List.getD_cons_succ]
            exact c
        · rintro (h | ⟨a, b, c⟩)
          · exact Or.inl h
          · right
            have hvn : v ≠ n := by
              intro e2
              subst e2
              simp at c
              exact hfr (by simp [c])
            refine ⟨by omega, b, ?_⟩
            have : v - n = (v - (n + 1)) + 1 := by omega
            rw [this, List.getD_cons_succ] at c
            exact c

theorem kahnArcs_spec {g : AdjacencyList} (L : List Nat) :
    ∀ (pend S rem : List Nat), (∀ m, m ∈ pend → m < g.length) → KahnInv g L S rem pend →
      ∃ S1 rem1, kahnArcs pend S rem = .ok (S1, rem1) ∧ KahnInv g L S1 rem1 [] := by
  intro pend
  induction pend with
  | nil =>
    intro S rem _ h
    exact ⟨S, rem, rfl, h⟩
  | cons m pend ih =>
    intro S rem hlt h
    have hm : m < g.length := hlt m (List.mem_cons_self _ _)
    have hml : m < rem.length := by rw [h.hlen]; exact hm
    have hr := h.hrem m hm
    rw [List.count_cons_self] at hr
    have hpos : rem.getD m 0 > 0 := by omega
    have hnot : m ∉ L ++ S := fun hc => by
      have := (h.hzero m hm).1 hc
      omega
    have hrem2 : ∀ x, x < g.length →
        (rem.set m (rem.getD m 0 - 1)).getD x 0 = remFrom g L x + pend.count x := by
      intro x hx
      by_cases e : m = x
      · subst e
        rw [getD_set_eq _ _ _ _ hml]
        omega
      · rw [getD_set_ne _ _ _ _ _ e, h.hrem x hx, List.count_cons_of_ne (Ne.symm e)]
    rw [kahnArcs, idx_of_lt hml 0]
    simp only
    rw [if_pos hpos]
    by_cases hz : rem.getD m 0 - 1 = 0
    · rw [if_pos hz]
      apply ih (m :: S) _ (fun x hx => hlt x (List.mem_cons_of_mem _ hx))
      refine ⟨by rw [List.length_set]; exact h.hlen, ?_, ?_, hrem2, ?_, h.hord⟩
      · have hperm : (L ++ m :: S).Perm (m :: (L ++ S)) := List.perm_middle
        exact hperm.nodup_iff.2 (List.nodup_cons.2 ⟨hnot, h.hnd⟩)
      · intro v hv
        rcases List.mem_append.1 hv with h1 | h1
        · exact h.hlt v (List.mem_append_left _ h1)
        · rcases List.mem_cons.1 h1 with h2 | h2
          · rw [h2]; exact hm
          · exact h.hlt v (List.mem_append_right _ h2)
      · intro x hx
        by_cases e : m = x
        · subst e
          rw [getD_set_eq _ _ _ _ hml]
          exact ⟨fun _ => hz, fun _ => by simp⟩
        · rw [getD_set_ne _ _ _ _ _ e, ← h.hzero x hx]
          simp only [List.mem_append, List.mem_cons]
          constructor
          · rintro (h1 | h1 | h1)
            · exact Or.inl h1
            · exact absurd h1.symm e
            · exact Or.inr h1
          · rintro (h1 | h1)
            · exact Or.inl h1
            · exact Or.inr (Or.inr h1)
    · rw [if_neg hz]
      apply ih S _ (fun x hx => hlt x (List.mem_cons_of_mem _ hx))
      refine ⟨by rw [List.length_set]; exact h.hlen, h.hnd, h.hlt, hrem2, ?_, h.hord⟩
      intro x hx
      by_cases e : m = x
      · subst e
        rw [getD_set_eq _ _ _ _ hml]
        constructor
        · intro hc; exact absurd hc hnot
        · intro hc; exact absurd hc hz
      · rw [getD_set_ne _ _ _ _ _ e]
        exact h.hzero x hx

theorem kahnLoop_spec {g : AdjacencyList} (hg : InRange g) :
    ∀ (fuel : Nat) (L S rem : List Nat), KahnInv g L S rem [] → g.length ≤ fuel + L.length →
      ∃ L1 rem1, kahnLoop g fuel L S rem = .ok (L1, rem1) ∧ KahnInv g L1 [] rem1 [] := by
  intro fuel
  induction fuel with
  | zero =>
    intro L S rem h hf
    cases S with
    | nil => exact ⟨L, rem, rfl, h⟩
    | cons n S =>
      exfalso
      have := nodup_range_length_le h.hnd h.hlt
      simp only [List.length_append, List.length_cons] at this
      omega
  | succ fuel ih =>
    intro L S rem h hf
    cases S with
    | nil => exact ⟨L, rem, by simp [kahnLoop], h⟩
    | cons n S =>
      have hn : n < g.length := h.hlt n (by simp)
      have hnL : n ∉ L := by
        intro hc
        have := h.hnd
        rw [List.nodup_append] at this
        exact this.2.2 hc (List.mem_cons_self _ _)
      have hperm : ((L ++ [n]) ++ S).Perm (L ++ n :: S) := by
        rw [List.append_assoc]
        rfl
      have hinv : KahnInv g (L ++ [n]) S rem (g.getD n []) := by
        refine ⟨h.hlen, hperm.nodup_iff.2 h.hnd, fun v hv => h.hlt v (hperm.mem_iff.1 hv), ?_,
          ?_, ?_⟩
        · intro m hm
          rw [h.hrem m hm, List.count_nil, Nat.add_zero]
          exact remFrom_snoc g L n m hn hnL
        · intro m hm
          rw [← h.hzero m hm]
          exact hperm.mem_iff
        · intro i hi u hu
          rw [List.length_append, List.length_singleton] at hi
          by_cases e : i < L.length
          · rw [List.getD_append _ _ _ _ e] at hu
            rw [List.take_append_of_le_length (le_of_lt e)]
            exact h.hord i e u hu
          · have hi2 : i = L.length := by omega
            subst hi2
            rw [List.getD_append_right _ _ _ _ (le_refl _)] at hu
            simp only [Nat.sub_self, List.getD_cons_zero] at hu
            rw [List.take_append_of_le_length (le_refl _), List.take_length]
            have hz := (h.hzero n hn).1 (by simp)
            rw [h.hrem n hn, List.count_nil, Nat.add_zero] at hz
            exact remFrom_eq_zero hz hu
      obtain ⟨S1, rem1, e1, h1⟩ := kahnArcs_spec (L ++ [n]) (g.getD n []) S rem
        (fun m hm => hg _ (getD_mem hn) m hm) hinv
      obtain ⟨L2, rem2, e2, h2⟩ := ih (L ++ [n]) S1 rem1 h1 (by
        rw [List.length_append, List.length_singleton]; omega)
      refine ⟨L2, rem2, ?_, h2⟩
      rw [kahnLoop, idx_eq_getD hn]
      simp only
      rw [e1]
      exact e2

/-- In a graph whose nodes can be listed with every arc leading further back, no set
of nodes holds a predecessor of each of its members. -/
theorem ArcsForward.no_closed_set {g : AdjacencyList} (T : Nat → Prop) :
    ∀ (l : List Nat), ArcsForward g l → l.Nodup →
      (∀ m, T m → m ∈ l ∧ ∃ u, T u ∧ Arc g u m) → ∀ m, ¬ T m := by
  intro l
  induction l generalizing T with
  | nil =>
    intro _ _ h m hm
    exact absurd (h m hm).1 (List.not_mem_nil m)
  | cons a l ih =>
    intro hfw hnd h
    obtain ⟨ha, hl⟩ := List.nodup_cons.1 hnd
    have hTa : ¬ T a := by
      intro hc
      obtain ⟨_, u, hu, harc⟩ := h a hc
      rcases List.mem_cons.1 (h u hu).1 with e | e
      · subst e
        exact ha (hfw [] u l rfl u harc)
      · obtain ⟨l1, l2, hs⟩ := List.append_of_mem e
        have := hfw (a :: l1) u l2 (by rw [hs]; rfl) a harc
        apply ha
        rw [hs]
        exact List.mem_append_right _ (List.mem_cons_of_mem _ this)
    have hfw2 : ArcsForward g l := by
      intro l1 u l2 hs v harc
      exact hfw (a :: l1) u l2 (by rw [hs]; rfl) v harc
    apply ih T hfw2 hl
    intro m hm
    obtain ⟨h1, h2⟩ := h m hm
    refine ⟨?_, h2⟩
    rcases List.mem_cons.1 h1 with e | e
    · rw [e] at hm
      exact absurd hm hTa
    · exact e

theorem kahnCycle_zero (g : AdjacencyList) (rem : List Nat) :
    ∀ (rest : List Nat) (c : Nat) (cycle : List Nat), (∀ i, i ∈ rest → i = 0) →
      kahnCycle g rem rest c cycle = .ok cycle := by
  intro rest
  induction rest with
  | nil => intro c cycle _; rfl
  | cons i rest ih =>
    intro c cycle h
    have hi : i = 0 := h i (List.mem_cons_self _ _)
    rw [kahnCycle, if_neg (by omega)]
    exact ih (c + 1) cycle (fun x hx => h x (List.mem_cons_of_mem _ hx))

/-- `TopologicalKahn` on an acyclic graph and its transpose: the ordering holds every
node once, and every arc to a node of the ordering comes from a node before it. -/
theorem TopologicalKahn_spec (g tr : AdjacencyList) (hg : InRange g)
    (htr : TransposeOf g tr) (hac : Acyclic g) (fuel : Nat) (hfuel : g.length ≤ fuel) :
    ∃ ord, TopologicalKahn fuel g tr = .ok (sliceOf ord, none) ∧
      ord.Perm (List.range g.length) ∧
      ∀ i, i < ord.length → ∀ u, Arc g u (ord.getD i 0) → u ∈ ord.take i := by
  obtain ⟨S1, rem1, e1, h1, h2, _, h4, h5⟩ := kahnInit_spec g.length tr 0 []
    (List.replicate g.length 0) (by simp) (by rw [htr.1]; omega)
    (fun m _ => by
      rw [List.getD_eq_getElem?_getD, List.getElem?_replicate]
      split <;> rfl)
    List.nodup_nil (fun v hv => by cases hv)
  have hinv : KahnInv g [] S1 rem1 [] := by
    refine ⟨h1, by simpa using h2, ?_, ?_, ?_, ?_⟩
    · intro v hv
      rw [List.nil_append] at hv
      rcases (h5 v).1 hv with h | ⟨_, h, _⟩
      · cases h
      · exact h
    · intro m hm
      rw [h4 m (Nat.zero_le _), Nat.sub_zero, remFrom_nil htr hm, List.count_nil, Nat.add_zero]
    · intro m hm
      rw [List.nil_append, h5 m, h4 m (Nat.zero_le _)]
      constructor
      · rintro (h | ⟨_, _, h⟩)
        · cases h
        · exact h
      · intro h
        exact Or.inr ⟨Nat.zero_le _, hm, h⟩
    · intro i hi
      simp at hi
  obtain ⟨L, rem2, e2, hL⟩ := kahnLoop_spec hg fuel [] S1 rem1 hinv (by simpa using hfuel)
  obtain ⟨ord0, _, hperm0, hfw0⟩ := Topological_spec g hg hac (g.length + 1) (le_refl _)
  have hall : ∀ m, ¬ (m < g.length ∧ m ∉ L) := by
    apply ArcsForward.no_closed_set (fun m => m < g.length ∧ m ∉ L) ord0 hfw0
      (hperm0.nodup_iff.2 (List.nodup_range _))
    rintro m ⟨hm, hmL⟩
    refine ⟨hperm0.mem_iff.2 (List.mem_range.2 hm), ?_⟩
    have hne : rem2.getD m 0 ≠ 0 := fun hc => hmL (by
      have := (hL.hzero m hm).2 hc
      simpa using this)
    rw [hL.hrem m hm, List.count_nil, Nat.add_zero] at hne
    obtain ⟨u, hu, huL, harc⟩ := remFrom_pos hne
    exact ⟨u, ⟨hu, huL⟩, harc⟩
  have hmem : ∀ m, m < g.length → m ∈ L := fun m hm => by
    by_contra hc
    exact hall m ⟨hm, hc⟩
  have hzero : ∀ i, i ∈ rem2 → i = 0 := by
    intro i hi
    obtain ⟨k, hk, e⟩ := List.getElem_of_mem hi
    rw [← e, ← List.getD_eq_getElem _ 0 hk]
    rw [hL.hlen] at hk
    exact (hL.hzero k hk).1 (List.mem_append_left _ (hmem k hk))
  refine ⟨L, ?_, ?_, hL.hord⟩
  · unfold TopologicalKahn
    rw [e1]
    simp only
    rw [e2]
    simp only
    rw [kahnCycle_zero g rem2 rem2 0 [] hzero]
    simp
  · have hnd : L.Nodup := by
      have := hL.hnd
      rwa [List.append_nil] at this
    rw [List.perm_ext_iff_of_nodup hnd (List.nodup_range _)]
    intro v
    rw [List.mem_range]
    constructor
    · intro hv
      exact hL.hlt v (List.mem_append_left _ hv)
    · exact hmem v

/-- In a list without repetition in which every arc to a member comes from a member
before it, an arc leads from a lower index to a higher one. -/
theorem index_lt_of_preds_before {g : AdjacencyList} {l : List Nat} (hnd : l.Nodup)
    (h : ∀ i, i < l.length → ∀ u, Arc g u (l.getD i 0) → u ∈ l.take i)
    {i j : Nat} (hi : i < l.length) (hj : j < l.length)
    (harc : Arc g (l.getD i 0) (l.getD j 0)) : i < j := by
  have hmem := h j hj _ harc
  obtain ⟨k, hk, e⟩ := List.getElem_of_mem hmem
  rw [List.getElem_take] at e
  rw [List.length_take] at hk
  rw [List.getD_eq_getElem _ _ hi] at e
  have := (List.Nodup.getElem_inj_iff hnd).1 e
  omega

/-! ## FromList -/

theorem unlabeled_length (g : LabeledAdjacencyList) : (unlabeled g).length = g.length := by
  unfold unlabeled
  rw [List.length_map]

theorem unlabeled_getD (g : LabeledAdjacencyList) (u : Nat) :
    (unlabeled g).getD u [] = (g.getD u []).map Half.To := by
  unfold unlabeled
  rw [List.getD_eq_getElem?_getD, List.getD_eq_getElem?_getD, List.getElem?_map]
  cases g[u]? <;> rfl

theorem arc_unlabeled {g : LabeledAdjacencyList} {u m : Nat} :
    Arc (unlabeled g) u m ↔ ∃ h, h ∈ g.getD u [] ∧ h.To = m := by
  unfold Arc
  rw [unlabeled_getD, List.mem_map]

theorem cntTo_append (a b : List Half) (m : Nat) : cntTo (a ++ b) m = cntTo a m + cntTo b m := by
  unfold cntTo
  rw [List.filter_append, List.length_append]

theorem cntTo_pos {hs : List Half} {h : Half} (hm : h ∈ hs) : 0 < cntTo hs h.To := by
  unfold cntTo
  apply List.length_pos.2
  apply List.ne_nil_of_mem (a := h)
  rw [List.mem_filter]
  exact ⟨hm, by simp⟩

theorem cntTo_singleton (h : Half) (m : Nat) : cntTo [h] m = if h.To = m then 1 else 0 := by
  unfold cntTo
  by_cases e : h.To = m
  · rw [List.filter_cons_of_pos (by simpa using e), if_pos e]
    rfl
  · rw [List.filter_cons_of_neg (by simpa using e), if_neg e]
    rfl

theorem flatten_split {α : Type} (g : List (List α)) (fr : Nat) (h : fr < g.length) :
    g.flatten = (g.take fr).flatten ++ (g.getD fr [] ++ (g.drop (fr + 1)).flatten) := by
  conv_lhs => rw [← List.take_append_drop fr g]
  rw [List.flatten_append, List.drop_eq_getElem_cons h, List.flatten_cons,
    List.getD_eq_getElem _ _ h]

theorem take_succ_flatten {α : Type} (g : List (List α)) (fr : Nat) (h : fr < g.length) :
    (g.take (fr + 1)).flatten = (g.take fr).flatten ++ g.getD fr [] := by
  rw [List.take_succ, List.flatten_append, List.getD_eq_getElem _ _ h,
    List.getElem?_eq_getElem h]
  simp

theorem idx_paths {paths : List PathEnd} {m : Nat} (h : m < paths.length) :
    idx paths m = .ok (paths.getD m ⟨-1, 0⟩) := by
  unfold idx
  rw [List.getD_eq_getElem _ _ h, List.getElem?_eq_getElem h]

theorem fromArcs_spec {g : LabeledAdjacencyList} {fr : Nat} (hfr : fr < g.length) :
    ∀ (rest pre : List Half) (paths : List PathEnd) (leaves : Nat),
      g.getD fr [] = pre ++ rest → (∀ h, h ∈ rest → h.To < g.length) →
      FromInv g fr pre paths →
      (∃ n paths1 leaves1, fromArcs fr rest paths leaves = .ok (some n, paths1, leaves1) ∧
        2 ≤ inArcs g n) ∨
      (∃ paths1 leaves1, fromArcs fr rest paths leaves = .ok (none, paths1, leaves1) ∧
        FromInv g fr (pre ++ rest) paths1) := by
  intro rest
  induction rest with
  | nil =>
    intro pre paths leaves _ _ h
    right
    exact ⟨paths, leaves, rfl, by rw [List.append_nil]; exact h⟩
  | cons a rest ih =>
    intro pre paths leaves hg hlt h
    have ha : a.To < g.length := hlt a (List.mem_cons_self _ _)
    have hal : a.To < paths.length := by rw [h.hlen]; exact ha
    rw [fromArcs, idx_paths hal]
    simp only
    rcases h.hcnt a.To ha with ⟨h1, h2⟩ | ⟨h1, h2⟩
    · rw [if_neg (by rw [h1]; decide)]
      have hinv : FromInv g fr (pre ++ [a])
          (paths.set a.To { paths.getD a.To ⟨-1, 0⟩ with From := (fr : Int) }) := by
        refine ⟨by rw [List.length_set]; exact h.hlen, ?_, ?_, ?_⟩
        · intro m hm
          rw [← List.append_assoc, cntTo_append, cntTo_singleton]
          by_cases e : a.To = m
          · subst e
            right
            rw [getD_set_eq _ _ _ _ hal, h2, if_pos rfl]
            exact ⟨Int.ofNat_nonneg fr, rfl⟩
          · rw [getD_set_ne _ _ _ _ _ e, if_neg e, Nat.add_zero]
            exact h.hcnt m hm
        · intro m hm u x hx hux
          by_cases e : a.To = m
          · subst e
            rw [getD_set_eq _ _ _ _ hal]
            have hzero : ∀ y, y ∈ (g.take fr).flatten ++ pre → y.To ≠ a.To := by
              intro y hy hc
              have := cntTo_pos hy
              rw [hc] at this
              omega
            rcases hux with ⟨hu, hxm⟩ | ⟨hu, hxm⟩
            · exfalso
              apply hzero x _ hx
              apply List.mem_append_left
              rw [List.mem_flatten]
              refine ⟨g.getD u [], ?_, hxm⟩
              rw [List.getD_eq_getElem _ _ (by omega)]
              rw [List.mem_take_iff_getElem]
              exact ⟨u, by rw [Nat.lt_min]; exact ⟨hu, by omega⟩, rfl⟩
            · rw [hu]
          · rw [getD_set_ne _ _ _ _ _ e]
            apply h.hsrc m hm u x hx
            rcases hux with h3 | ⟨hu, hxm⟩
            · exact Or.inl h3
            · right
              refine ⟨hu, ?_⟩
              rcases List.mem_append.1 hxm with h4 | h4
              · exact h4
              · rw [List.mem_singleton.1 h4] at hx
                exact absurd hx e
        · intro m hm
          by_cases e : a.To = m
          · subst e
            rw [getD_set_eq _ _ _ _ hal]
            exact h.hLen _ hm
          · rw [getD_set_ne _ _ _ _ _ e]
            exact h.hLen m hm
      have := ih (pre ++ [a]) _ (SetBit leaves fr false) (by rw [hg]; simp)
        (fun x hx => hlt x (List.mem_cons_of_mem _ hx)) hinv
      rw [List.append_assoc] at this
      exact this
    · rw [if_pos h1]
      left
      refine ⟨a.To, paths, leaves, rfl, ?_⟩
      unfold inArcs
      rw [flatten_split g fr hfr, hg]
      rw [show (g.take fr).flatten ++ (pre ++ a :: rest ++ (g.drop (fr + 1)).flatten) =
        ((g.take fr).flatten ++ pre) ++ ([a] ++ (rest ++ (g.drop (fr + 1)).flatten)) by simp]
      rw [cntTo_append ((g.take fr).flatten ++ pre), cntTo_append [a], h2, cntTo_singleton,
        if_pos rfl]
      omega

theorem fromNodes_spec {g : LabeledAdjacencyList} (hg : InRange (unlabeled g)) :
    ∀ (rest : List (List Half)) (fr : Nat) (paths : List PathEnd) (leaves : Nat),
      rest = g.drop fr → fr ≤ g.length → FromInv g fr [] paths →
      (∃ n paths1 leaves1, fromNodes rest fr paths leaves = .ok (some n, paths1, leaves1) ∧
        2 ≤ inArcs g n) ∨
      (∃ paths1 leaves1, fromNodes rest fr paths leaves = .ok (none, paths1, leaves1) ∧
        FromInv g g.length [] paths1) := by
  intro rest
  induction rest with
  | nil =>
    intro fr paths leaves hr hfr h
    right
    have hlen : g.length ≤ fr := by
      have := congrArg List.length hr
      rw [List.length_drop, List.length_nil] at this
      omega
    have : fr = g.length := by omega
    rw [this] at h
    exact ⟨paths, leaves, rfl, h⟩
  | cons arcs rest ih =>
    intro fr paths leaves hr hfr h
    have hlt : fr < g.length := by
      have := congrArg List.length hr
      rw [List.length_drop, List.length_cons] at this
      omega
    have harcs : g.getD fr [] = arcs := by
      rw [List.drop_eq_getElem_cons hlt] at hr
      injection hr with h1 h2
      rw [List.getD_eq_getElem _ _ hlt]
      exact h1.symm
    have hrest : rest = g.drop (fr + 1) := by
      rw [List.drop_eq_getElem_cons hlt] at hr
      injection hr
    have hin : ∀ x, x ∈ arcs → x.To < g.length := by
      intro x hx
      have : x.To ∈ (unlabeled g).getD fr [] := by
        rw [unlabeled_getD, harcs]
        exact List.mem_map_of_mem _ hx
      have := hg _ (getD_mem (by rw [unlabeled_length]; exact hlt)) _ this
      rw [unlabeled_length] at this
      exact this
    rw [fromNodes]
    rcases fromArcs_spec hlt arcs [] paths leaves (by rw [harcs]; rfl) hin h with
      ⟨n, p1, l1, e, hn⟩ | ⟨p1, l1, e, h1⟩
    · left
      rw [e]
      exact ⟨n, p1, l1, rfl, hn⟩
    · rw [e]
      simp only
      apply ih (fr + 1) p1 l1 hrest (by omega)
      rw [List.nil_append] at h1
      refine ⟨h1.hlen, ?_, ?_, h1.hLen⟩
      · intro m hm
        rw [List.append_nil, take_succ_flatten g fr hlt, harcs]
        exact h1.hcnt m hm
      · intro m hm u x hx hux
        apply h1.hsrc m hm u x hx
        rcases hux with ⟨hu, hxm⟩ | ⟨_, hxm⟩
        · by_cases e2 : u = fr
          · right
            rw [e2, harcs] at hxm
            exact ⟨e2, hxm⟩
          · left
            exact ⟨by omega, hxm⟩
        · cases hxm

/-- An acyclic graph has a numbering of its nodes, below its order, that every arc
increases. -/
theorem Acyclic.exists_rank {g : AdjacencyList} (hg : InRange g) (hac : Acyclic g) :
    ∃ rank : Nat → Nat, (∀ u v, Arc g u v → rank u < rank v) ∧
      ∀ v, v < g.length → rank v < g.length := by
  obtain ⟨ord, _, hperm, hfw⟩ := Topological_spec g hg hac (g.length + 1) (le_refl _)
  have hnd : ord.Nodup := hperm.nodup_iff.2 (List.nodup_range _)
  have hlen : ord.length = g.length := by rw [hperm.length_eq, List.length_range]
  have hmem : ∀ v, v < g.length → v ∈ ord := fun v hv =>
    hperm.mem_iff.2 (List.mem_range.2 hv)
  refine ⟨fun v => ord.indexOf v, ?_, ?_⟩
  · intro u v harc
    have hu := List.indexOf_lt_length.2 (hmem u harc.lt_left)
    have hv := List.indexOf_lt_length.2 (hmem v (Arc.lt_right hg harc))
    apply hfw.index_lt hnd hu hv
    rw [List.getD_eq_getElem _ _ hu, List.getD_eq_getElem _ _ hv, List.getElem_indexOf,
      List.getElem_indexOf]
    exact harc
  · intro v hv
    have := List.indexOf_lt_length.2 (hmem v hv)
    rw [hlen] at this
    exact this

theorem getD_set_From (paths : List PathEnd) (n m : Nat) (q : PathEnd)
    (hq : q.From = (paths.getD n ⟨-1, 0⟩).From) (hn : n < paths.length) :
    ((paths.set n q).getD m ⟨-1, 0⟩).From = (paths.getD m ⟨-1, 0⟩).From := by
  by_cases e : n = m
  · subst e
    rw [getD_set_eq _ _ _ _ hn, hq]
  · rw [getD_set_ne _ _ _ _ _ e]

theorem LengInv.set_len {g : LabeledAdjacencyList} {paths : List PathEnd} (h : LengInv g paths)
    (n : Nat) (q : PathEnd) (hq : q.From = (paths.getD n ⟨-1, 0⟩).From)
    (hn : n < paths.length) : LengInv g (paths.set n q) := by
  refine ⟨by rw [List.length_set]; exact h.hlen, ?_⟩
  intro m hm u hu
  rw [getD_set_From paths n m q hq hn] at hu
  exact h.harc m hm u hu

theorem leng_spec {g : LabeledAdjacencyList} (rank : Nat → Nat)
    (hrank : ∀ u v, Arc (unlabeled g) u v → rank u < rank v) :
    ∀ (fuel n : Nat) (paths : List PathEnd), n < g.length → rank n < fuel → LengInv g paths →
      ∃ l paths1, leng fuel n paths = .ok (l, paths1) ∧ LengInv g paths1 ∧
        ∀ m, (paths1.getD m ⟨-1, 0⟩).From = (paths.getD m ⟨-1, 0⟩).From := by
  intro fuel
  induction fuel with
  | zero => intro n paths _ h _; omega
  | succ fuel ih =>
    intro n paths hn hr h
    have hnl : n < paths.length := by rw [h.hlen]; exact hn
    rw [leng, idx_paths hnl]
    simp only
    by_cases hl : (paths.getD n ⟨-1, 0⟩).Len > 0
    · rw [if_pos hl]
      exact ⟨_, paths, rfl, h, fun _ => rfl⟩
    · rw [if_neg hl]
      cases hf : (paths.getD n ⟨-1, 0⟩).From with
      | negSucc j =>
        simp only
        exact ⟨_, _, rfl, h.set_len n _ hf.symm hnl,
          fun m => getD_set_From paths n m _ hf.symm hnl⟩
      | ofNat fr =>
        simp only
        have harc : Arc (unlabeled g) fr n := h.harc n hn fr hf
        have hfr : fr < g.length := by
          have := harc.lt_left
          rw [unlabeled_length] at this
          exact this
        have := hrank fr n harc
        obtain ⟨l, p1, e1, h1, hsame⟩ := ih fr paths hfr (by omega) h
        have hnl1 : n < p1.length := by rw [h1.hlen]; exact hn
        rw [e1]
        simp only
        rw [idx_paths hnl1]
        refine ⟨_, _, rfl, h1.set_len n _ rfl hnl1, ?_⟩
        intro m
        exact (getD_set_From p1 n m
          { From := (p1.getD n ⟨-1, 0⟩).From, Len := 1 + l } rfl hnl1).trans (hsame m)

theorem fromLeaves_spec {g : LabeledAdjacencyList} (rank : Nat → Nat)
    (hrank : ∀ u v, Arc (unlabeled g) u v → rank u < rank v) (fuel : Nat)
    (hfuel : ∀ v, v < g.length → rank v < fuel) (leaves : Nat) :
    ∀ (c i : Nat) (paths : List PathEnd) (maxLen : Nat), i + c = g.length →
      LengInv g paths →
      ∃ paths1 maxLen1, fromLeaves fuel leaves c i paths maxLen = .ok (paths1, maxLen1) ∧
        LengInv g paths1 ∧
        ∀ m, (paths1.getD m ⟨-1, 0⟩).From = (paths.getD m ⟨-1, 0⟩).From := by
  intro c
  induction c with
  | zero =>
    intro i paths maxLen _ h
    exact ⟨paths, maxLen, rfl, h, fun _ => rfl⟩
  | succ c ih =>
    intro i paths maxLen hi h
    rw [fromLeaves]
    by_cases hb : Bit leaves i = true
    · rw [if_pos hb]
      obtain ⟨l, p1, e1, h1, hs1⟩ := leng_spec rank hrank fuel i paths (by omega)
        (hfuel i (by omega)) h
      rw [e1]
      simp only
      obtain ⟨p2, m2, e2, h2, hs2⟩ := ih (i + 1) p1 (if l > maxLen then l else maxLen)
        (by omega) h1
      exact ⟨p2, m2, e2, h2, fun m => by rw [hs2 m, hs1 m]⟩
    · rw [if_neg hb]
      exact ih (i + 1) paths maxLen (by omega) h

theorem inArcs_out_of_range {g : LabeledAdjacencyList} (hg : InRange (unlabeled g)) {m : Nat}
    (hm : g.length ≤ m) : inArcs g m = 0 := by
  unfold inArcs cntTo
  rw [List.length_eq_zero, List.filter_eq_nil_iff]
  intro h hh
  obtain ⟨l, hl, hhl⟩ := List.mem_flatten.1 hh
  have hmem : l.map Half.To ∈ unlabeled g := by
    unfold unlabeled
    exact List.mem_map_of_mem _ hl
  have := hg _ hmem h.To (List.mem_map_of_mem _ hhl)
  rw [unlabeled_length] at this
  simp only [decide_eq_true_eq]
  omega

theorem FromInv.from_initial (g : LabeledAdjacencyList) :
    FromInv g 0 [] (List.replicate g.length { From := -1, Len := 0 }) := by
  have hrep : ∀ m, (List.replicate g.length ({ From := -1, Len := 0 } : PathEnd)).getD m
      ⟨-1, 0⟩ = ⟨-1, 0⟩ := by
    intro m
    rw [List.getD_eq_getElem?_getD, List.getElem?_replicate]
    split <;> rfl
  refine ⟨by simp, ?_, ?_, ?_⟩
  · intro m _
    left
    rw [hrep m]
    exact ⟨rfl, rfl⟩
  · intro m _ u h _ hu
    rcases hu with ⟨h1, _⟩ | ⟨_, h1⟩
    · omega
    · cases h1
  · intro m _
    rw [hrep m]

/-- What the loops of `FromList` over the arcs do: they return a node with two or
more incoming arcs, or they end with a slice in which `From` is the from-node of
the only arc to the node, or `-1` for a node without incoming arc. -/
theorem fromNodes_result {g : LabeledAdjacencyList} (hg : InRange (unlabeled g)) :
    (∃ n paths1 leaves1, fromNodes g 0 (List.replicate g.length { From := -1, Len := 0 })
        (OneBits g.length) = .ok (some n, paths1, leaves1) ∧ 2 ≤ inArcs g n) ∨
    (∃ paths1 leaves1, fromNodes g 0 (List.replicate g.length { From := -1, Len := 0 })
        (OneBits g.length) = .ok (none, paths1, leaves1) ∧ LengInv g paths1 ∧
      (∀ n, inArcs g n ≤ 1) ∧
      ∀ m, m < g.length →
        (inArcs g m = 0 → (paths1.getD m ⟨-1, 0⟩).From = -1) ∧
        ∀ u, Arc (unlabeled g) u m → (paths1.getD m ⟨-1, 0⟩).From = (u : Int)) := by
  rcases fromNodes_spec hg g 0 _ (OneBits g.length) (by simp) (Nat.zero_le _)
      (FromInv.from_initial g) with h | ⟨p1, l1, e, h⟩
  · exact Or.inl h
  · right
    have hfl : (g.take g.length).flatten ++ [] = g.flatten := by
      rw [List.append_nil, List.take_length]
    have hcnt : ∀ m, m < g.length →
        ((p1.getD m ⟨-1, 0⟩).From = -1 ∧ inArcs g m = 0) ∨
        (0 ≤ (p1.getD m ⟨-1, 0⟩).From ∧ inArcs g m = 1) := by
      intro m hm
      have := h.hcnt m hm
      rw [hfl] at this
      exact this
    have hsrc : ∀ m, m < g.length → ∀ u, Arc (unlabeled g) u m →
        (p1.getD m ⟨-1, 0⟩).From = (u : Int) := by
      intro m hm u harc
      obtain ⟨x, hx, hxm⟩ := arc_unlabeled.1 harc
      have hu := harc.lt_left
      rw [unlabeled_length] at hu
      exact h.hsrc m hm u x hxm (Or.inl ⟨hu, hx⟩)
    refine ⟨p1, l1, e, ⟨h.hlen, ?_⟩, ?_, ?_⟩
    · intro m hm u hu
      rcases hcnt m hm with ⟨h1, _⟩ | ⟨_, h2⟩
      · rw [h1] at hu
        omega
      · have hpos : 0 < cntTo g.flatten m := by
          unfold inArcs at h2
          omega
        unfold cntTo at hpos
        obtain ⟨x, hx⟩ := List.exists_mem_of_length_pos hpos
        obtain ⟨hx1, hx2⟩ := List.mem_filter.1 hx
        obtain ⟨l, hl, hxl⟩ := List.mem_flatten.1 hx1
        obtain ⟨k, hk, ek⟩ := List.getElem_of_mem hl
        have hxm : x.To = m := by simpa using hx2
        have harc : Arc (unlabeled g) k m := by
          apply arc_unlabeled.2
          refine ⟨x, ?_, hxm⟩
          rw [List.getD_eq_getElem _ _ hk, ek]
          exact hxl
        have := hsrc m hm k harc
        rw [hu] at this
        have hku : u = k := by omega
        rw [hku]
        exact harc
    · intro n
      by_cases hn : n < g.length
      · rcases hcnt n hn with ⟨_, h2⟩ | ⟨_, h2⟩ <;> omega
      · rw [inArcs_out_of_range hg (by omega)]
        omega
    · intro m hm
      refine ⟨?_, hsrc m hm⟩
      intro hz
      rcases hcnt m hm with ⟨h1, _⟩ | ⟨_, h2⟩
      · exact h1
      · omega

/-- `FromList` on a graph in which some node has two or more incoming arcs. -/
theorem FromList_dup {g : LabeledAdjacencyList} (hg : InRange (unlabeled g))
    (hdup : ∃ n, 2 ≤ inArcs g n) (fuel : Nat) :
    ∃ n : Nat, FromList fuel g = .ok (none, (n : Int)) ∧ 2 ≤ inArcs g n := by
  rcases fromNodes_result hg with ⟨n, p1, l1, e, hn⟩ | ⟨_, _, _, _, hle, _⟩
  · refine ⟨n, ?_, hn⟩
    unfold FromList
    rw [e]
  · obtain ⟨n, hn⟩ := hdup
    have := hle n
    omega

/-- `FromList` on an acyclic graph in which no node has two incoming arcs. -/
theorem FromList_tree {g : LabeledAdjacencyList} (hg : InRange (unlabeled g))
    (hone : ∀ n, inArcs g n ≤ 1) (hac : Acyclic (unlabeled g)) (fuel : Nat)
    (hfuel : g.length ≤ fuel) :
    ∃ f, FromList fuel g = .ok (some f, -1) ∧ f.Paths.length = g.length ∧
      ∀ m, m < g.length →
        (inArcs g m = 0 → (f.Paths.getD m ⟨-1, 0⟩).From = -1) ∧
        ∀ u, Arc (unlabeled g) u m → (f.Paths.getD m ⟨-1, 0⟩).From = (u : Int) := by
  rcases fromNodes_result hg with ⟨n, _, _, _, hn⟩ | ⟨p1, l1, e, hinv, _, hres⟩
  · have := hone n
    omega
  · obtain ⟨rank, hr1, hr2⟩ := Acyclic.exists_rank hg hac
    rw [unlabeled_length] at hr2
    obtain ⟨p2, m2, e2, h2, hsame⟩ := fromLeaves_spec rank hr1 fuel
      (fun v hv => lt_of_lt_of_le (hr2 v hv) hfuel) l1 g.length 0 p1 0 (by omega) hinv
    refine ⟨{ Paths := p2, Leaves := l1, MaxLen := m2 }, ?_, h2.hlen, ?_⟩
    · unfold FromList
      rw [e]
      simp only
      rw [hinv.hlen, e2]
    · intro m hm
      simp only
      rw [hsame m]
      exact hres m hm

/-- With arcs in range, a bound on the incoming arcs of the nodes of the graph is a
bound for every node number. -/
theorem inArcs_le_of_bounded {g : LabeledAdjacencyList} (hg : InRange (unlabeled g))
    (h : ∀ n, n < g.length → inArcs g n ≤ 1) (n : Nat) : inArcs g n ≤ 1 := by
  by_cases hn : n < g.length
  · exact h n hn
  · rw [inArcs_out_of_range hg (by omega)]
    omega

/-- On the graph with the arcs `0 → 0` and `0 → 1` the closure `leng` of `FromList`
does not return: with any fuel the model runs out of it. -/
theorem FromList_loops (fuel : Nat) :
    FromList fuel [[⟨0, 0⟩, ⟨1, 0⟩], []] = .error .fuel := by
  have h1 : fromNodes [[⟨0, 0⟩, ⟨1, 0⟩], []] 0
      (List.replicate ([[⟨0, 0⟩, ⟨1, 0⟩], []] : LabeledAdjacencyList).length
        { From := -1, Len := 0 })
      (OneBits ([[⟨0, 0⟩, ⟨1, 0⟩], []] : LabeledAdjacencyList).length) =
      .ok (none, [⟨0, 0⟩, ⟨0, 0⟩], 2) := by decide
  have h0 : ∀ f, leng f 0 [⟨0, 0⟩, ⟨0, 0⟩] = .error .fuel := by
    intro f
    induction f with
    | zero => rfl
    | succ f ih => simp [leng, idx, ih]
  have hl : leng fuel 1 [⟨0, 0⟩, ⟨0, 0⟩] = .error .fuel := by
    cases fuel with
    | zero => rfl
    | succ f => simp [leng, idx, h0 f]
  have hb0 : Bit 2 0 = false := by decide
  have hb1 : Bit 2 1 = true := by decide
  have hf : fromLeaves fuel 2 2 0 [⟨0, 0⟩, ⟨0, 0⟩] 0 = .error .fuel := by
    simp [fromLeaves, hb0, hb1, hl]
  unfold FromList
  rw [h1]
  simp only [List.length_cons, List.length_nil]
  exact (by rw [hf] : (match fromLeaves fuel 2 (0 + 1 + 1) 0 [⟨0, 0⟩, ⟨0, 0⟩] 0 with
    | Except.error e => Except.error e
    | Except.ok (paths1, maxLen) =>
      Except.ok (some { Paths := paths1, Leaves := 2, MaxLen := maxLen }, -1)) =
      (Except.error Fault.fuel : Except Fault (Option FromListData × Int)))

/-! ## Topological on any graph -/

theorem PathTo.cons {g : AdjacencyList} {c : List Nat} {s n : Nat} (h : PathTo g c s)
    (harc : Arc g n ((c ++ [s]).getD 0 0)) : PathTo g (n :: c) s := by
  intro i hi
  cases i with
  | zero =>
    rw [List.getD_cons_zero, List.cons_append, List.getD_cons_succ]
    exact harc
  | succ i =>
    rw [List.getD_cons_succ, List.cons_append, List.getD_cons_succ]
    exact h i (by simpa using hi)

theorem IsCyclePath.of_pathTo {g : AdjacencyList} {c : List Nat} (hne : c ≠ [])
    (h : PathTo g c (c.getD 0 0)) : IsCyclePath g c := by
  have hpos : 0 < c.length := List.length_pos.2 hne
  refine ⟨hne, ?_, ?_⟩
  · intro i hi
    have := h i (by omega)
    rw [List.getD_append _ _ _ _ (by omega)] at this
    exact this
  · have := h (c.length - 1) (by omega)
    rw [List.getD_append_right _ _ _ _ (by omega)] at this
    have e : c.length - 1 + 1 - c.length = 0 := by omega
    rw [e, List.getD_cons_zero] at this
    exact this

theorem TopoPath.of_temp_eq {g : AdjacencyList} {P : List Nat} {st st1 : TopoState}
    (h : TopoPath g P st) (ht : ∀ v, Bit st1.temp v = Bit st.temp v) : TopoPath g P st1 :=
  ⟨fun v => by rw [ht v]; exact h.htemp v, h.hnd, h.hchain⟩

theorem TopoPath.push {g : AdjacencyList} {P : List Nat} {st0 st : TopoState} {n : Nat}
    (h : TopoPath g P st0) (hn : Bit st0.temp n = false)
    (hhead : ∀ p, P.head? = some p → Arc g p n)
    (ht : ∀ v, Bit st.temp v = (Bit st0.temp v || decide (n = v))) :
    TopoPath g (n :: P) st := by
  refine ⟨?_, ?_, ?_⟩
  · intro v
    rw [ht v, List.mem_cons, Bool.or_eq_true, decide_eq_true_eq, h.htemp v]
    constructor
    · rintro (h1 | h1)
      · exact Or.inr h1
      · exact Or.inl h1.symm
    · rintro (h1 | h1)
      · exact Or.inr h1.symm
      · exact Or.inl h1
  · refine List.nodup_cons.2 ⟨?_, h.hnd⟩
    intro hc
    rw [(h.htemp n).2 hc] at hn
    cases hn
  · exact List.Chain'.cons' h.hchain (fun y hy => hhead y hy)

theorem TopoPath.length_le {g : AdjacencyList} {P : List Nat} {st : TopoState}
    (h : TopoPath g P st) (hwf : ∀ v, Bit st.temp v = true → v < g.length) :
    P.length ≤ g.length :=
  nodup_range_length_le h.hnd (fun v hv => hwf v ((h.htemp v).2 hv))

/-- The statements after a call that found a cycle put the caller in front of the
cycle, and complete the cycle when the caller is `cycleStart`. -/
theorem topoCycle_spec {g : AdjacencyList} {P : List Nat} {n nb : Nat} {st1 : TopoState}
    (h : TopoCyc g (n :: P) nb st1) (harc : Arc g n nb) :
    ∃ st2, topoCycle n st1 = .ok st2 ∧ TopoCyc g P n st2 ∧
      ((st1.cycleStart = -1 ∧ st2 = st1) ∨
       (∃ s : Nat, st1.cycleStart = (s : Int) ∧
         st2.cycle.getD [] = n :: st1.cycle.getD [] ∧
         st2.cycleStart = if (n : Int) = (s : Int) then -1 else (s : Int))) := by
  rcases h.hcyc with ⟨h1, h2, h3⟩ | ⟨s, h1, h2, h3, h4⟩
  · refine ⟨st1, ?_, ⟨h.hcf, h.hlen, h.hsuf, ?_, Or.inl ⟨h1, h2, h3⟩⟩, Or.inl ⟨h1, rfl⟩⟩
    · unfold topoCycle
      rw [if_neg (by rw [h1]; decide)]
    · have := h.hroom
      simp only [List.length_cons] at this
      omega
  · have hroom := h.hroom
    simp only [List.length_cons] at hroom
    have hx : ((st1.ordering.length : Int) - 1 - ((st1.cycle.getD []).length : Int)) =
        Int.ofNat (g.length - 1 - (st1.cycle.getD []).length) := by
      rw [h.hlen]
      simp only [Int.ofNat_eq_coe]
      omega
    have hxl : g.length - 1 - (st1.cycle.getD []).length < st1.ordering.length := by
      rw [h.hlen]; omega
    have hdrop : (st1.ordering.set (g.length - 1 - (st1.cycle.getD []).length) n).drop
        (g.length - 1 - (st1.cycle.getD []).length) = n :: st1.cycle.getD [] := by
      rw [drop_set_self n _ _ hxl]
      congr 1
      have e : g.length - 1 - (st1.cycle.getD []).length + 1 =
          g.length - (st1.cycle.getD []).length := by omega
      rw [e]
      exact h.hsuf.symm
    refine ⟨{ st1 with
        ordering := st1.ordering.set (g.length - 1 - (st1.cycle.getD []).length) n,
        cycle := some ((st1.ordering.set (g.length - 1 - (st1.cycle.getD []).length) n).drop
          (g.length - 1 - (st1.cycle.getD []).length)),
        cycleStart := if (n : Int) = st1.cycleStart then -1 else st1.cycleStart }, ?_, ?_,
        Or.inr ⟨s, h1, ?_, ?_⟩⟩
    · unfold topoCycle
      rw [if_pos (by rw [h1]; exact Int.ofNat_nonneg s), hx]
      simp only
      rw [if_pos hxl]
    · have hc : (some ((st1.ordering.set (g.length - 1 - (st1.cycle.getD []).length) n).drop
          (g.length - 1 - (st1.cycle.getD []).length))).getD [] = n :: st1.cycle.getD [] := by
        rw [Option.getD_some, hdrop]
      have hpath : PathTo g (n :: st1.cycle.getD []) s := h3.cons (by rw [h4]; exact harc)
      refine ⟨h.hcf, by simp only [List.length_set]; exact h.hlen, ?_, ?_, ?_⟩
      · simp only
        rw [hc, List.length_cons]
        have e : g.length - ((st1.cycle.getD []).length + 1) =
            g.length - 1 - (st1.cycle.getD []).length := by omega
        rw [e, hdrop]
      · simp only
        rw [hc, List.length_cons]
        omega
      · simp only
        rw [hc]
        by_cases e : n = s
        · left
          refine ⟨by rw [h1, e]; simp, by simp, ?_⟩
          rw [List.getD_cons_zero, e]
          rw [e] at hpath
          exact hpath
        · right
          refine ⟨s, ?_, ?_, hpath, by simp⟩
          · rw [h1, if_neg]
            intro hc2
            exact e (by exact_mod_cast hc2)
          · rcases List.mem_cons.1 h2 with h5 | h5
            · exact absurd h5.symm e
            · exact h5
    · simp only
      rw [Option.getD_some, hdrop]
    · simp only
      rw [h1]

/-- The end of a call `df(n)` whose loop found no cycle: `n` leaves `temp`, enters
`perm` and is written in front of the ordering. -/
theorem TopoLoopInv.topo_exit {g : AdjacencyList} {n : Nat} {st st1 : TopoState}
    (hn : n < g.length) (ht : Bit st.temp n = false)
    (e2 : TopoLoopInv g n st (g.getD n []) st1) :
    ∃ j, st1.i = j + 1 ∧ j < st1.ordering.length ∧
      TopoPost g n st
        { st1 with temp := SetBit st1.temp n false, perm := SetBit st1.perm n true,
                   i := j, ordering := st1.ordering.set j n } := by
  have htn : Bit st1.temp n = true := by rw [e2.temp n]; simp
  have hpn : Bit st1.perm n = false := e2.wf.hdisj n htn
  have hnL : n ∉ st1.ordering.drop st1.i := fun hm => by
    rw [(e2.wf.hperm n).2 hm] at hpn; cases hpn
  have hcount : (n :: st1.ordering.drop st1.i).length ≤ g.length :=
    nodup_range_length_le (List.nodup_cons.2 ⟨hnL, e2.wf.hnd⟩) (by
      intro v hv
      rcases List.mem_cons.1 hv with e | e
      · rw [e]; exact hn
      · exact e2.wf.hlt v e)
  have hipos : 0 < st1.i := by
    simp only [List.length_cons, List.length_drop] at hcount
    have := e2.wf.hlen
    have := e2.wf.hi
    omega
  obtain ⟨j, hj⟩ : ∃ j, st1.i = j + 1 := ⟨st1.i - 1, by omega⟩
  have hjlt : j < st1.ordering.length := by
    have := e2.wf.hlen
    have := e2.wf.hi
    omega
  have hdrop : (st1.ordering.set j n).drop j = n :: st1.ordering.drop st1.i := by
    rw [drop_set_self n _ _ hjlt, hj]
  refine ⟨j, hj, hjlt, ⟨?_, ?_, ?_, ?_, ?_, ?_, ?_, e2.wf.hcf, ?_⟩, ?_, ?_, ?_⟩
  · show (st1.ordering.set j n).length = g.length
    rw [List.length_set]; exact e2.wf.hlen
  · show j ≤ g.length
    have := e2.wf.hi
    omega
  · intro v
    show Bit (SetBit st1.perm n true) v = true ↔ v ∈ (st1.ordering.set j n).drop j
    rw [hdrop, Bit_SetBit_true, List.mem_cons, Bool.or_eq_true, decide_eq_true_eq,
      e2.wf.hperm v]
    constructor
    · rintro (e | e)
      · exact Or.inr e
      · exact Or.inl e.symm
    · rintro (e | e)
      · exact Or.inr e.symm
      · exact Or.inl e
  · show ((st1.ordering.set j n).drop j).Nodup
    rw [hdrop]
    exact List.nodup_cons.2 ⟨hnL, e2.wf.hnd⟩
  · intro v hv
    change v ∈ (st1.ordering.set j n).drop j at hv
    rw [hdrop] at hv
    rcases List.mem_cons.1 hv with e | e
    · rw [e]; exact hn
    · exact e2.wf.hlt v e
  · intro v hv
    change Bit (SetBit st1.temp n false) v = true at hv
    show Bit (SetBit st1.perm n true) v = false
    rw [Bit_SetBit_false, Bool.and_eq_true] at hv
    have hne : ¬ n = v := by
      intro e
      have := hv.2
      simp [e] at this
    rw [Bit_SetBit_true, e2.wf.hdisj v hv.1]
    simp [hne]
  · intro v hv
    change Bit (SetBit st1.temp n false) v = true at hv
    rw [Bit_SetBit_false, Bool.and_eq_true] at hv
    exact e2.wf.htlt v hv.1
  · show ArcsForward g ((st1.ordering.set j n).drop j)
    rw [hdrop]
    intro l1 u l2 hl v huv
    cases l1 with
    | nil =>
      rw [List.nil_append] at hl
      injection hl with h1 h2
      rw [← h1] at huv
      rw [← h2]
      exact (e2.wf.hperm v).1 (e2.hdone v huv)
    | cons a l1 =>
      rw [List.cons_append] at hl
      injection hl with h1 h2
      exact e2.wf.hord l1 u l2 h2 v huv
  · intro v
    show Bit (SetBit st1.temp n false) v = Bit st.temp v
    rw [Bit_SetBit_false, e2.temp v]
    by_cases e : n = v
    · rw [← e, ht]; simp
    · simp [e]
  · show Bit (SetBit st1.perm n true) n = true
    rw [Bit_SetBit_true]; simp
  · intro v hv
    show Bit (SetBit st1.perm n true) v = true
    rw [Bit_SetBit_true, e2.mono v hv]; rfl

theorem topoArcs_total (g : AdjacencyList) (hg : InRange g)
    (call : Nat → TopoState → Except Fault TopoState) (fuel : Nat) (n : Nat) (P : List Nat)
    (hcall : ∀ m st, TopoWf g st → st.cycle = none → TopoPath g (n :: P) st → m < g.length →
      Arc g n m → twhites g st + 1 ≤ fuel →
      ∃ st1, call m st = .ok st1 ∧
        ((TopoPost g m st st1 ∧ st1.cycle = none) ∨ TopoCyc g (n :: P) m st1))
    (st0 : TopoState) (hP0 : TopoPath g P st0) (hn0 : Bit st0.temp n = false)
    (hhead : ∀ p, P.head? = some p → Arc g p n) :
    ∀ (rest done : List Nat) (st : TopoState), (∀ w, w ∈ rest → Arc g n w) →
      TopoLoopInv g n st0 done st → st.cycle = none → twhites g st + 1 ≤ fuel →
      ∃ r, topoArcs call n rest st = .ok r ∧
        ((r.1 = true ∧ TopoLoopInv g n st0 (done ++ rest) r.2 ∧ r.2.cycle = none) ∨
         (r.1 = false ∧ TopoCyc g P n r.2)) := by
  intro rest
  induction rest with
  | nil =>
    intro done st _ h hc _
    exact ⟨(true, st), rfl, Or.inl ⟨rfl, by rw [List.append_nil]; exact h, hc⟩⟩
  | cons nb rest ih =>
    intro done st harcs h hc hw
    have harc : Arc g n nb := harcs nb (List.mem_cons_self _ _)
    have harcs2 : ∀ x, x ∈ rest → Arc g n x := fun x hx => harcs x (List.mem_cons_of_mem _ hx)
    have hcons : done ++ nb :: rest = (done ++ [nb]) ++ rest := by simp
    obtain ⟨st1, e1, hres⟩ := hcall nb st h.wf hc (hP0.push hn0 hhead h.temp)
      (Arc.lt_right hg harc) harc hw
    rw [topoArcs, e1]
    simp only
    rcases hres with ⟨hp, hc1⟩ | hcyc
    · rw [hp.wf.hcf]
      simp only [Bool.false_eq_true, if_false]
      have hinv : TopoLoopInv g n st0 (done ++ [nb]) st1 := by
        refine ⟨hp.wf, fun v => by rw [hp.temp v, h.temp v],
          fun v hv => hp.mono v (h.mono v hv), ?_⟩
        intro w hw
        rcases List.mem_append.1 hw with e | e
        · exact hp.mono w (h.hdone w e)
        · rw [List.mem_singleton.1 e]; exact hp.hn
      rw [hcons]
      exact ih (done ++ [nb]) st1 harcs2 hinv hc1 (by
        have := twhites_mono g (a := st) (b := st1) (fun v hv => by
          rcases hv with e | e
          · left; rw [hp.temp v]; exact e
          · right; exact hp.mono v e)
        omega)
    · rw [hcyc.hcf]
      simp only [if_true]
      obtain ⟨st2, e2, h2, _⟩ := topoCycle_spec hcyc harc
      rw [e2]
      exact ⟨(false, st2), rfl, Or.inr ⟨rfl, h2⟩⟩

theorem topoDf_total (g : AdjacencyList) (hg : InRange g) :
    ∀ (fuel n : Nat) (P : List Nat) (st : TopoState), TopoWf g st → st.cycle = none →
      TopoPath g P st → n < g.length → (∀ p, P.head? = some p → Arc g p n) →
      twhites g st + 1 ≤ fuel →
      ∃ st1, topoDf g fuel n st = .ok st1 ∧
        ((TopoPost g n st st1 ∧ st1.cycle = none) ∨ TopoCyc g P n st1) := by
  intro fuel
  induction fuel with
  | zero => intro n P st _ _ _ _ _ h; omega
  | succ fuel ih =>
    intro n P st hwf hc hP hn hhead hw
    by_cases ht : Bit st.temp n = true
    · refine ⟨{ st with cycleFound := true, cycleStart := n }, ?_, Or.inr ?_⟩
      · rw [topoDf, if_pos ht]
      · refine ⟨rfl, hwf.hlen, ?_, ?_, Or.inr ⟨n, rfl, (hP.htemp n).1 ht, ?_, ?_⟩⟩
        · show st.cycle.getD [] = st.ordering.drop (g.length - (st.cycle.getD []).length)
          rw [hc]
          simp only [Option.getD_none, List.length_nil, Nat.sub_zero]
          rw [← hwf.hlen, List.drop_length]
        · show (st.cycle.getD []).length + P.length ≤ g.length
          rw [hc]
          simp only [Option.getD_none, List.length_nil, Nat.zero_add]
          exact hP.length_le hwf.htlt
        · show PathTo g (st.cycle.getD []) n
          rw [hc]
          intro i hi
          simp at hi
        · show (st.cycle.getD [] ++ [n]).getD 0 0 = n
          rw [hc]
          rfl
    · have ht0 : Bit st.temp n = false := by
        cases hb : Bit st.temp n
        · rfl
        · exact absurd hb ht
      by_cases hp : Bit st.perm n = true
      · refine ⟨st, ?_, Or.inl ⟨⟨hwf, fun v => rfl, hp, fun v hv => hv⟩, hc⟩⟩
        rw [topoDf, ht0, hp]
        simp
      · have hp0 : Bit st.perm n = false := by
          cases hb : Bit st.perm n
          · rfl
          · exact absurd hb hp
        have hinv := TopoLoopInv.topo_enter hwf hn hp0
        have hw1 : twhites g { st with temp := SetBit st.temp n true } + 1 ≤ fuel := by
          have := twhites_lt g (a := st) (b := { st with temp := SetBit st.temp n true })
            (n := n) (fun v hv => by
              rcases hv with e | e
              · left
                show Bit (SetBit st.temp n true) v = true
                rw [Bit_SetBit_true, e]; rfl
              · right; exact e) hn ht0 hp0 (Or.inl (by
                show Bit (SetBit st.temp n true) n = true
                rw [Bit_SetBit_true]; simp))
          omega
        obtain ⟨r, e1, hres⟩ := topoArcs_total g hg (topoDf g fuel) fuel n P
          (fun m st2 h1 h2 h3 h4 h5 h6 => ih m (n :: P) st2 h1 h2 h3 h4
            (fun p hp => by
              rw [List.head?_cons] at hp
              injection hp with hp
              rw [← hp]; exact h5) h6)
          st hP ht0 hhead (g.getD n []) [] _ (fun w hw => hw) hinv hc hw1
        obtain ⟨b, st1⟩ := r
        rcases hres with ⟨hb, e2, hc1⟩ | ⟨hb, hcyc⟩
        · simp only at hb e2 hc1
          subst hb
          rw [List.nil_append] at e2
          obtain ⟨j, hj, hjlt, hpost⟩ := e2.topo_exit hn ht0
          refine ⟨_, ?_, Or.inl ⟨hpost, hc1⟩⟩
          rw [topoDf, ht0, hp0]
          simp only [Bool.false_eq_true, if_false]
          rw [idx_eq_getD hn]
          simp only
          rw [e1]
          simp only
          rw [hj]
          simp only
          rw [if_pos hjlt]
        · simp only at hb hcyc
          subst hb
          refine ⟨st1, ?_, Or.inr hcyc⟩
          rw [topoDf, ht0, hp0]
          simp only [Bool.false_eq_true, if_false]
          rw [idx_eq_getD hn]
          simp only
          rw [e1]

theorem topoLoop_total (g : AdjacencyList) (hg : InRange g) (fuel : Nat)
    (hfuel : g.length + 1 ≤ fuel) :
    ∀ (nodes : List Nat) (st : TopoState), TopoWf g st → st.cycle = none →
      (∀ v, Bit st.temp v = false) → (∀ v, v ∈ nodes → v < g.length) →
      (∃ st1, topoLoop g fuel nodes st = .ok (some (st1.ordering.drop st1.i), none) ∧
        TopoWf g st1 ∧ (∀ v, Bit st.perm v = true → Bit st1.perm v = true) ∧
        (∀ v, v ∈ nodes → Bit st1.perm v = true)) ∨
      (∃ c, topoLoop g fuel nodes st = .ok (none, some c) ∧ IsCyclePath g c) := by
  intro nodes
  induction nodes with
  | nil =>
    intro st hwf _ _ _
    exact Or.inl ⟨st, rfl, hwf, fun v hv => hv, fun v hv => by cases hv⟩
  | cons n rest ih =>
    intro st hwf hc ht hlt
    have hrest : ∀ v, v ∈ rest → v < g.length := fun v hv => hlt v (List.mem_cons_of_mem _ hv)
    by_cases hp : Bit st.perm n = true
    · rcases ih st hwf hc ht hrest with ⟨st2, e2, h1, h2, h3⟩ | ⟨c, e2, h1⟩
      · refine Or.inl ⟨st2, ?_, h1, h2, ?_⟩
        · rw [topoLoop, if_pos hp]; exact e2
        · intro v hv
          rcases List.mem_cons.1 hv with e | e
          · rw [e]; exact h2 n hp
          · exact h3 v e
      · refine Or.inr ⟨c, ?_, h1⟩
        rw [topoLoop, if_pos hp]; exact e2
    · have hP : TopoPath g [] st :=
        ⟨fun v => by rw [ht v]; simp, List.nodup_nil, List.chain'_nil⟩
      obtain ⟨st1, e1, hres⟩ := topoDf_total g hg fuel n [] st hwf hc hP
        (hlt n (List.mem_cons_self _ _)) (fun p hp => by cases hp)
        (by have := twhites_le g st; omega)
      rcases hres with ⟨hpost, hc1⟩ | hcyc
      · rcases ih st1 hpost.wf hc1 (fun v => by rw [hpost.temp v, ht v]) hrest with
          ⟨st2, e2, h1, h2, h3⟩ | ⟨c, e2, h1⟩
        · refine Or.inl ⟨st2, ?_, h1, fun v hv => h2 v (hpost.mono v hv), ?_⟩
          · rw [topoLoop, if_neg hp, e1]
            simp only
            rw [hpost.wf.hcf]
            exact e2
          · intro v hv
            rcases List.mem_cons.1 hv with e | e
            · rw [e]; exact h2 n hpost.hn
            · exact h3 v e
        · refine Or.inr ⟨c, ?_, h1⟩
          rw [topoLoop, if_neg hp, e1]
          simp only
          rw [hpost.wf.hcf]
          exact e2
      · rcases hcyc.hcyc with ⟨_, h2, h3⟩ | ⟨s, _, hs, _⟩
        · cases hcy : st1.cycle with
          | none =>
            rw [hcy] at h2
            exact absurd rfl h2
          | some c =>
            rw [hcy] at h2 h3
            simp only [Option.getD_some] at h2 h3
            refine Or.inr ⟨c, ?_, IsCyclePath.of_pathTo h2 h3⟩
            rw [topoLoop, if_neg hp, e1]
            simp only
            rw [hcyc.hcf, hcy]
            simp
        · cases hs

/-- A graph whose nodes can all be listed with every arc leading further back has no
cycle. -/
theorem Acyclic.of_arcsForward {g : AdjacencyList} (hg : InRange g) {l : List Nat}
    (hperm : l.Perm (List.range g.length)) (hfw : ArcsForward g l) : Acyclic g := by
  intro v hv
  have hmem : ∀ a b, Arc g a b → b ∈ l := fun a b h =>
    hperm.mem_iff.2 (List.mem_range.2 (Arc.lt_right hg h))
  refine ArcsForward.no_closed_set
    (fun m => Relation.TransGen (Arc g) v m ∧ Relation.TransGen (Arc g) m v) l hfw
    (hperm.nodup_iff.2 (List.nodup_range _)) ?_ v ⟨hv, hv⟩
  rintro m ⟨h1, h2⟩
  obtain ⟨b, hb, harc⟩ := Relation.TransGen.tail'_iff.1 h1
  refine ⟨hmem b m harc, b, ⟨?_, Relation.TransGen.head harc h2⟩, harc⟩
  rcases Relation.reflTransGen_iff_eq_or_transGen.1 hb with e | e
  · rw [e]; exact hv
  · exact e

/-- `Topological` on any graph with arcs in range: it returns an ordering of all the
nodes with every arc leading further back, or the path of a cycle. -/
theorem Topological_total (g : AdjacencyList) (hg : InRange g) (fuel : Nat)
    (hfuel : g.length + 1 ≤ fuel) :
    (∃ ord, Topological fuel g = .ok (some ord, none) ∧ ord.Perm (List.range g.length) ∧
      ArcsForward g ord) ∨
    (∃ c, Topological fuel g = .ok (none, some c) ∧ IsCyclePath g c) := by
  have hinit : TopoWf g
      { ordering := List.replicate g.length 0, i := g.length, temp := 0, perm := 0,
        cycleFound := false, cycleStart := 0, cycle := none } := by
    refine ⟨by simp, le_refl _, ?_, ?_, ?_, ?_, ?_, rfl, ?_⟩
    · intro v
      simp [Bit_zero]
    · simp
    · intro v hv; simp at hv
    · intro v hv; simp [Bit_zero] at hv
    · intro v hv; simp [Bit_zero] at hv
    · intro l1 u l2 hl
      simp at hl
  rcases topoLoop_total g hg fuel hfuel (List.range g.length) _ hinit rfl
      (fun v => Bit_zero v) (fun v hv => List.mem_range.1 hv) with
    ⟨st1, e1, hwf, _, hall⟩ | ⟨c, e1, hc⟩
  · refine Or.inl ⟨st1.ordering.drop st1.i, e1, ?_, hwf.hord⟩
    rw [List.perm_ext_iff_of_nodup hwf.hnd (List.nodup_range _)]
    intro v
    rw [List.mem_range]
    constructor
    · exact hwf.hlt v
    · intro hv
      exact (hwf.hperm v).1 (hall v (List.mem_range.2 hv))
  · exact Or.inr ⟨c, e1, hc⟩

/-- `Topological` on a graph with a cycle returns the path of a cycle. -/
theorem Topological_cycle (g : AdjacencyList) (hg : InRange g) (hcyc : ¬ Acyclic g)
    (fuel : Nat) (hfuel : g.length + 1 ≤ fuel) :
    ∃ c, Topological fuel g = .ok (none, some c) ∧ IsCyclePath g c := by
  rcases Topological_total g hg fuel hfuel with ⟨ord, _, hperm, hfw⟩ | h
  · exact absurd (Acyclic.of_arcsForward hg hperm hfw) hcyc
  · exact h

/-! ## Cyclic, by comparison with dfTopo -/

/-- The statements that follow a call which found a cycle keep the relation between
the variables of `Cyclic` and those of `dfTopo`. -/
theorem CycSimC.cyc_step {g : AdjacencyList} {P : List Nat} {n nb : Nat} {st1 st2 : TopoState}
    {sc1 : CycState} (hs : CycSimC sc1 st1) (hcyc : TopoCyc g (n :: P) nb st1)
    (hshape : (st1.cycleStart = -1 ∧ st2 = st1) ∨
      (∃ s : Nat, st1.cycleStart = (s : Int) ∧
        st2.cycle.getD [] = n :: st1.cycle.getD [] ∧
        st2.cycleStart = if (n : Int) = (s : Int) then -1 else (s : Int))) :
    CycSimC (if sc1.fr < 0 then { sc1 with fr := (n : Int), toNode := (nb : Int) } else sc1)
      st2 := by
  obtain ⟨hcy, hrel⟩ := hs
  rcases hshape with ⟨h1, h2⟩ | ⟨s, h1, h2, h3⟩
  · -- the cycle is complete already
    rw [h2]
    rcases hcyc.hcyc with ⟨_, hne, _⟩ | ⟨s, hs1, _⟩
    · rcases hrel with ⟨he, _⟩ | ⟨_, hfr, hto⟩
      · exact absurd he hne
      · rw [if_neg (by rw [hfr]; omega)]
        exact ⟨hcy, Or.inr ⟨hne, hfr, hto⟩⟩
    · rw [h1] at hs1
      omega
  · rcases hrel with ⟨he, hfr⟩ | ⟨hne, hfr, hto⟩
    · -- first step of the unwinding
      have hsnb : s = nb := by
        rcases hcyc.hcyc with ⟨h4, _⟩ | ⟨s2, h4, _, _, h5⟩
        · rw [h1] at h4; omega
        · rw [he] at h5
          simp only [List.nil_append, List.getD_cons_zero] at h5
          rw [h1] at h4
          have : s = s2 := by exact_mod_cast h4
          rw [this]; exact h5
      rw [if_pos (by rw [hfr]; decide)]
      refine ⟨hcy, Or.inr ⟨by rw [h2]; simp, ?_, ?_⟩⟩
      · simp only
        rw [h2, he]
        rfl
      · simp only
        rw [h2, h3, he, List.getD_cons_zero]
        by_cases e : n = s
        · left
          refine ⟨by rw [if_pos (by rw [e])], ?_⟩
          rw [e, hsnb]
        · right
          refine ⟨s, ?_, by rw [hsnb]⟩
          rw [if_neg]
          intro hc
          exact e (by exact_mod_cast hc)
    · rw [if_neg (by rw [hfr]; omega)]
      have hlen : 0 < (st1.cycle.getD []).length := List.length_pos.2 hne
      refine ⟨hcy, Or.inr ⟨by rw [h2]; simp, ?_, ?_⟩⟩
      · rw [hfr, h2, List.length_cons]
        have e : (st1.cycle.getD []).length + 1 - 1 = ((st1.cycle.getD []).length - 1) + 1 := by
          omega
        rw [e, List.getD_cons_succ]
      · have hto2 : sc1.toNode = (s : Int) := by
          rcases hto with ⟨h4, _⟩ | ⟨s2, h4, h5⟩
          · rw [h1] at h4; omega
          · rw [h5, ← h4, h1]
        rw [h2, h3, List.getD_cons_zero]
        by_cases e : n = s
        · left
          refine ⟨by rw [if_pos (by rw [e])], ?_⟩
          rw [hto2, e]
        · right
          refine ⟨s, ?_, hto2⟩
          rw [if_neg]
          intro hc
          exact e (by exact_mod_cast hc)

theorem cyclicArcs_sim (g : AdjacencyList) (hg : InRange g)
    (callT : Nat → TopoState → Except Fault TopoState)
    (callC : Nat → CycState → Except Fault CycState) (fuel : Nat) (n : Nat) (P : List Nat)
    (hcall : ∀ m st sc, TopoWf g st → st.cycle = none → TopoPath g (n :: P) st →
      m < g.length → Arc g n m → twhites g st + 1 ≤ fuel → CycSimN sc st →
      ∃ st1 sc1, callT m st = .ok st1 ∧ callC m sc = .ok sc1 ∧
        ((TopoPost g m st st1 ∧ st1.cycle = none ∧ CycSimN sc1 st1) ∨
         (TopoCyc g (n :: P) m st1 ∧ CycSimC sc1 st1)))
    (st0 : TopoState) (hP0 : TopoPath g P st0) (hn0 : Bit st0.temp n = false)
    (hhead : ∀ p, P.head? = some p → Arc g p n) :
    ∀ (rest done : List Nat) (st : TopoState) (sc : CycState),
      (∀ w, w ∈ rest → Arc g n w) → TopoLoopInv g n st0 done st → st.cycle = none →
      twhites g st + 1 ≤ fuel → CycSimN sc st →
      ∃ rt rc, topoArcs callT n rest st = .ok rt ∧ cyclicArcs callC n rest sc = .ok rc ∧
        rc.1 = rt.1 ∧
        ((rt.1 = true ∧ TopoLoopInv g n st0 (done ++ rest) rt.2 ∧ rt.2.cycle = none ∧
            CycSimN rc.2 rt.2) ∨
         (rt.1 = false ∧ TopoCyc g P n rt.2 ∧ CycSimC rc.2 rt.2)) := by
  intro rest
  induction rest with
  | nil =>
    intro done st sc _ h hc _ hs
    exact ⟨(true, st), (true, sc), rfl, rfl, rfl,
      Or.inl ⟨rfl, by rw [List.append_nil]; exact h, hc, hs⟩⟩
  | cons nb rest ih =>
    intro done st sc harcs h hc hw hs
    have harc : Arc g n nb := harcs nb (List.mem_cons_self _ _)
    have harcs2 : ∀ x, x ∈ rest → Arc g n x := fun x hx => harcs x (List.mem_cons_of_mem _ hx)
    have hcons : done ++ nb :: rest = (done ++ [nb]) ++ rest := by simp
    obtain ⟨st1, sc1, e1, f1, hres⟩ := hcall nb st sc h.wf hc (hP0.push hn0 hhead h.temp)
      (Arc.lt_right hg harc) harc hw hs
    rw [topoArcs, e1, cyclicArcs, f1]
    simp only
    rcases hres with ⟨hp, hc1, hs1⟩ | ⟨hcyc, hs1⟩
    · rw [if_neg (by rw [hp.wf.hcf]; decide), if_neg (by rw [hs1.2.2.1]; decide)]
      have hinv : TopoLoopInv g n st0 (done ++ [nb]) st1 := by
        refine ⟨hp.wf, fun v => by rw [hp.temp v, h.temp v],
          fun v hv => hp.mono v (h.mono v hv), ?_⟩
        intro w hw
        rcases List.mem_append.1 hw with e | e
        · exact hp.mono w (h.hdone w e)
        · rw [List.mem_singleton.1 e]; exact hp.hn
      rw [hcons]
      exact ih (done ++ [nb]) st1 sc1 harcs2 hinv hc1 (by
        have := twhites_mono g (a := st) (b := st1) (fun v hv => by
          rcases hv with e | e
          · left; rw [hp.temp v]; exact e
          · right; exact hp.mono v e)
        omega) hs1
    · rw [if_pos hcyc.hcf, if_pos hs1.1]
      obtain ⟨st2, e2, h2, hshape⟩ := topoCycle_spec hcyc harc
      rw [e2]
      exact ⟨(false, st2), _, rfl, rfl, rfl, Or.inr ⟨rfl, h2, hs1.cyc_step hcyc hshape⟩⟩

theorem cyclicDf_sim (g : AdjacencyList) (hg : InRange g) :
    ∀ (fuel n : Nat) (P : List Nat) (st : TopoState) (sc : CycState), TopoWf g st →
      st.cycle = none → TopoPath g P st → n < g.length →
      (∀ p, P.head? = some p → Arc g p n) → twhites g st + 1 ≤ fuel → CycSimN sc st →
      ∃ st1 sc1, topoDf g fuel n st = .ok st1 ∧ cyclicDf g fuel n sc = .ok sc1 ∧
        ((TopoPost g n st st1 ∧ st1.cycle = none ∧ CycSimN sc1 st1) ∨
         (TopoCyc g P n st1 ∧ CycSimC sc1 st1)) := by
  intro fuel
  induction fuel with
  | zero => intro n P st sc _ _ _ _ _ h; omega
  | succ fuel ih =>
    intro n P st sc hwf hc hP hn hhead hw hs
    obtain ⟨st1, e1, hres⟩ := topoDf_total g hg (fuel + 1) n P st hwf hc hP hn hhead hw
    obtain ⟨hs1, hs2, hs3, hs4, hs5⟩ := hs
    have htc : Bit sc.temp n = Bit st.temp n := by rw [hs1]
    have hpc : Bit sc.perm n = Bit st.perm n := by rw [hs2]
    by_cases ht : Bit st.temp n = true
    · have e1b : topoDf g (fuel + 1) n st = .ok { st with cycleFound := true, cycleStart := n } := by
        rw [topoDf, if_pos ht]
      rw [e1b] at e1
      injection e1 with e1
      subst e1
      refine ⟨_, { sc with cyclic := true }, e1b, ?_, Or.inr ⟨?_, rfl, Or.inl ⟨?_, hs4⟩⟩⟩
      · rw [cyclicDf, if_pos (by rw [htc]; exact ht)]
      · rcases hres with ⟨hp, _⟩ | hcyc
        · have := hp.wf.hcf
          simp at this
        · exact hcyc
      · show st.cycle.getD [] = []
        rw [hc]; rfl
    · have ht0 : Bit st.temp n = false := by
        cases hb : Bit st.temp n
        · rfl
        · exact absurd hb ht
      by_cases hp : Bit st.perm n = true
      · have e1b : topoDf g (fuel + 1) n st = .ok st := by
          rw [topoDf, ht0, hp]; simp
        refine ⟨st, sc, e1b, ?_, Or.inl ⟨⟨hwf, fun v => rfl, hp, fun v hv => hv⟩, hc,
          hs1, hs2, hs3, hs4, hs5⟩⟩
        rw [cyclicDf, htc, hpc, ht0, hp]; simp
      · have hp0 : Bit st.perm n = false := by
          cases hb : Bit st.perm n
          · rfl
          · exact absurd hb hp
        have hinv := TopoLoopInv.topo_enter hwf hn hp0
        have hw1 : twhites g { st with temp := SetBit st.temp n true } + 1 ≤ fuel := by
          have := twhites_lt g (a := st) (b := { st with temp := SetBit st.temp n true })
            (n := n) (fun v hv => by
              rcases hv with e | e
              · left
                show Bit (SetBit st.temp n true) v = true
                rw [Bit_SetBit_true, e]; rfl
              · right; exact e) hn ht0 hp0 (Or.inl (by
                show Bit (SetBit st.temp n true) n = true
                rw [Bit_SetBit_true]; simp))
          omega
        have hsin : CycSimN { sc with temp := SetBit sc.temp n true }
            { st with temp := SetBit st.temp n true } :=
          ⟨by show SetBit sc.temp n true = SetBit st.temp n true; rw [hs1], hs2, hs3, hs4, hs5⟩
        obtain ⟨rt, rc, a1, a2, a3, ares⟩ := cyclicArcs_sim g hg (topoDf g fuel)
          (cyclicDf g fuel) fuel n P
          (fun m st2 sc2 h1 h2 h3 h4 h5 h6 h7 => ih m (n :: P) st2 sc2 h1 h2 h3 h4
            (fun p hp => by
              rw [List.head?_cons] at hp
              injection hp with hp
              rw [← hp]; exact h5) h6 h7)
          st hP ht0 hhead (g.getD n []) [] _ _ (fun w hw => hw) hinv hc hw1 hsin
        obtain ⟨bt, stl⟩ := rt
        obtain ⟨bc, scl⟩ := rc
        simp only at a3 ares
        subst a3
        rcases ares with ⟨hb, e2, hc1, hsl⟩ | ⟨hb, hcyc, hsl⟩
        · subst hb
          rw [List.nil_append] at e2
          obtain ⟨j, hj, hjlt, hpost⟩ := e2.topo_exit hn ht0
          refine ⟨_, { scl with temp := SetBit scl.temp n false, perm := SetBit scl.perm n true },
            ?_, ?_, Or.inl ⟨hpost, hc1, ?_⟩⟩
          · rw [topoDf, ht0, hp0]
            simp only [Bool.false_eq_true, if_false]
            rw [idx_eq_getD hn]
            simp only
            rw [a1]
            simp only
            rw [hj]
            simp only
            rw [if_pos hjlt]
          · rw [cyclicDf, htc, hpc, ht0, hp0]
            simp only [Bool.false_eq_true, if_false]
            rw [idx_eq_getD hn]
            simp only
            rw [a2]
          · obtain ⟨k1, k2, k3, k4, k5⟩ := hsl
            exact ⟨by show SetBit scl.temp n false = SetBit stl.temp n false; rw [k1],
              by show SetBit scl.perm n true = SetBit stl.perm n true; rw [k2], k3, k4, k5⟩
        · subst hb
          refine ⟨stl, scl, ?_, ?_, Or.inr ⟨hcyc, hsl⟩⟩
          · rw [topoDf, ht0, hp0]
            simp only [Bool.false_eq_true, if_false]
            rw [idx_eq_getD hn]
            simp only
            rw [a1]
          · rw [cyclicDf, htc, hpc, ht0, hp0]
            simp only [Bool.false_eq_true, if_false]
            rw [idx_eq_getD hn]
            simp only
            rw [a2]

theorem cyclicLoop_sim (g : AdjacencyList) (hg : InRange g) (fuel : Nat)
    (hfuel : g.length + 1 ≤ fuel) :
    ∀ (nodes : List Nat) (st : TopoState) (sc : CycState), TopoWf g st → st.cycle = none →
      (∀ v, Bit st.temp v = false) → (∀ v, v ∈ nodes → v < g.length) → CycSimN sc st →
      ∃ rc, cyclicLoop g fuel nodes sc = .ok rc ∧
        ((rc.cyclic = false ∧ rc.fr = -1 ∧ rc.toNode = -1 ∧
          ∃ st1, TopoWf g st1 ∧ (∀ v, Bit st.perm v = true → Bit st1.perm v = true) ∧
            (∀ v, v ∈ nodes → Bit st1.perm v = true)) ∨
         (rc.cyclic = true ∧ ∃ c, IsCyclePath g c ∧
            rc.fr = ((c.getD (c.length - 1) 0 : Nat) : Int) ∧
            rc.toNode = ((c.getD 0 0 : Nat) : Int))) := by
  intro nodes
  induction nodes with
  | nil =>
    intro st sc hwf _ _ _ hs
    exact ⟨sc, rfl, Or.inl ⟨hs.2.2.1, hs.2.2.2.1, hs.2.2.2.2, st, hwf, fun v hv => hv,
      fun v hv => by cases hv⟩⟩
  | cons n rest ih =>
    intro st sc hwf hc ht hlt hs
    have hrest : ∀ v, v ∈ rest → v < g.length := fun v hv => hlt v (List.mem_cons_of_mem _ hv)
    have hpc : Bit sc.perm n = Bit st.perm n := by rw [hs.2.1]
    by_cases hp : Bit st.perm n = true
    · obtain ⟨rc, e, hres⟩ := ih st sc hwf hc ht hrest hs
      refine ⟨rc, ?_, ?_⟩
      · rw [cyclicLoop, if_pos (by rw [hpc]; exact hp)]; exact e
      · rcases hres with ⟨a1, a2, a3, st1, a4, a5, a6⟩ | h
        · refine Or.inl ⟨a1, a2, a3, st1, a4, a5, ?_⟩
          intro v hv
          rcases List.mem_cons.1 hv with e2 | e2
          · rw [e2]; exact a5 n hp
          · exact a6 v e2
        · exact Or.inr h
    · have hP : TopoPath g [] st :=
        ⟨fun v => by rw [ht v]; simp, List.nodup_nil, List.chain'_nil⟩
      obtain ⟨st1, sc1, _, f1, hres⟩ := cyclicDf_sim g hg fuel n [] st sc hwf hc hP
        (hlt n (List.mem_cons_self _ _)) (fun p hp => by cases hp)
        (by have := twhites_le g st; omega) hs
      rcases hres with ⟨hpost, hc1, hs1⟩ | ⟨hcyc, hs1⟩
      · obtain ⟨rc, e, hres2⟩ := ih st1 sc1 hpost.wf hc1
          (fun v => by rw [hpost.temp v, ht v]) hrest hs1
        refine ⟨rc, ?_, ?_⟩
        · rw [cyclicLoop, if_neg (by rw [hpc]; exact hp), f1]
          simp only
          rw [if_neg (by rw [hs1.2.2.1]; decide)]
          exact e
        · rcases hres2 with ⟨a1, a2, a3, st2, a4, a5, a6⟩ | h
          · refine Or.inl ⟨a1, a2, a3, st2, a4, fun v hv => a5 v (hpost.mono v hv), ?_⟩
            intro v hv
            rcases List.mem_cons.1 hv with e2 | e2
            · rw [e2]; exact a5 n hpost.hn
            · exact a6 v e2
          · exact Or.inr h
      · refine ⟨sc1, ?_, Or.inr ⟨hs1.1, ?_⟩⟩
        · rw [cyclicLoop, if_neg (by rw [hpc]; exact hp), f1]
          simp only
          rw [if_pos hs1.1]
        · rcases hcyc.hcyc with ⟨h1, h2, h3⟩ | ⟨s, _, hsm, _⟩
          · refine ⟨st1.cycle.getD [], IsCyclePath.of_pathTo h2 h3, ?_⟩
            rcases hs1.2 with ⟨he, _⟩ | ⟨_, hfr, hto⟩
            · exact absurd he h2
            · refine ⟨hfr, ?_⟩
              rcases hto with ⟨_, h5⟩ | ⟨s, h4, _⟩
              · exact h5
              · rw [h1] at h4; omega
          · cases hsm

theorem IsCyclePath.reach_from_head {g : AdjacencyList} {c : List Nat} (h : IsCyclePath g c) :
    ∀ i, i < c.length → Reach g (c.getD 0 0) (c.getD i 0) := by
  intro i
  induction i with
  | zero => intro _; exact Reach.refl g _
  | succ i ih =>
    intro hi
    exact (ih (by omega)).trans (h.2.1 i (by omega)).reach

theorem IsCyclePath.not_acyclic {g : AdjacencyList} {c : List Nat} (h : IsCyclePath g c) :
    ¬ Acyclic g := by
  intro hac
  have hpos : 0 < c.length := List.length_pos.2 h.1
  exact hac _ (Relation.TransGen.head' h.2.2 (h.reach_from_head (c.length - 1) (by omega)))

/-- `Cyclic` on a graph with arcs in range: it returns false with `fr = to = -1` on an
acyclic graph, and true with the last and the first node of the path of a cycle
otherwise. -/
theorem Cyclic_spec (g : AdjacencyList) (hg : InRange g) (fuel : Nat)
    (hfuel : g.length + 1 ≤ fuel) :
    (Cyclic fuel g = .ok (false, -1, -1) ∧ Acyclic g) ∨
    (∃ c, IsCyclePath g c ∧
      Cyclic fuel g = .ok (true, ((c.getD (c.length - 1) 0 : Nat) : Int),
        ((c.getD 0 0 : Nat) : Int))) := by
  have hinit : TopoWf g
      { ordering := List.replicate g.length 0, i := g.length, temp := 0, perm := 0,
        cycleFound := false, cycleStart := 0, cycle := none } := by
    refine ⟨by simp, le_refl _, ?_, ?_, ?_, ?_, ?_, rfl, ?_⟩
    · intro v
      simp [Bit_zero]
    · simp
    · intro v hv; simp at hv
    · intro v hv; simp [Bit_zero] at hv
    · intro v hv; simp [Bit_zero] at hv
    · intro l1 u l2 hl
      simp at hl
  obtain ⟨rc, e, hres⟩ := cyclicLoop_sim g hg fuel hfuel (List.range g.length) _
    { temp := 0, perm := 0, cyclic := false, fr := -1, toNode := -1 } hinit rfl
    (fun v => Bit_zero v) (fun v hv => List.mem_range.1 hv) ⟨rfl, rfl, rfl, rfl, rfl⟩
  rcases hres with ⟨a1, a2, a3, st1, hwf, _, hall⟩ | ⟨a1, c, hc, a2, a3⟩
  · left
    constructor
    · unfold Cyclic
      rw [e]
      show Except.ok (rc.cyclic, rc.fr, rc.toNode) = _
      rw [a1, a2, a3]
    · have hperm : (st1.ordering.drop st1.i).Perm (List.range g.length) := by
        rw [List.perm_ext_iff_of_nodup hwf.hnd (List.nodup_range _)]
        intro v
        rw [List.mem_range]
        constructor
        · exact hwf.hlt v
        · intro hv
          exact (hwf.hperm v).1 (hall v (List.mem_range.2 hv))
      exact Acyclic.of_arcsForward hg hperm hwf.hord
  · right
    refine ⟨c, hc, ?_⟩
    unfold Cyclic
    rw [e]
    show Except.ok (rc.cyclic, rc.fr, rc.toNode) = _
    rw [a1, a2, a3]

/-! ## The bit sets of the labeled methods and those of the unlabeled methods -/

theorem bsTest_eq (b i : Nat) : bsTest b i = Bit b i := rfl

theorem bsSet_eq (b i : Nat) : bsSet b i = SetBit b i true := by
  simp [bsSet, SetBit]

theorem bsClear_eq (b i : Nat) : bsClear b i = SetBit b i false := by
  simp [bsClear, SetBit]

theorem bsCount_eq (b : Nat) : bsCount b = PopCount b := rfl

theorem bitList_eq_nil {b : Nat} : bitList b = [] ↔ b = 0 := by
  constructor
  · intro h
    by_contra hb
    obtain ⟨i, hi⟩ := exists_Bit_of_ne_zero hb
    have := mem_bitList.2 hi
    rw [h] at this
    cases this
  · intro h
    subst h
    rfl

theorem bsAny_eq (b : Nat) : bsAny b = decide (b ≠ 0) := by
  unfold bsAny
  rw [decide_eq_decide, ne_eq, ne_eq, bitList_eq_nil]

theorem bsNone_eq (b : Nat) : bsNone b = decide (b = 0) := by
  unfold bsNone
  rw [decide_eq_decide, bitList_eq_nil]

theorem Bit_foldl_bsSet (l : List Nat) : ∀ (b j : Nat),
    Bit (l.foldl bsSet b) j = (Bit b j || decide (j ∈ l)) := by
  induction l with
  | nil => intro b j; simp
  | cons a rest ih =>
    intro b j
    rw [List.foldl_cons, ih, bsSet_eq, Bit_SetBit_true]
    by_cases e : j = a
    · simp [e]
    · have e2 : ¬ a = j := fun h => e h.symm
      simp [e, e2]

theorem bsFull_eq (n : Nat) : bsFull n = OneBits n := by
  apply eq_of_Bit_eq
  intro j
  unfold bsFull
  rw [Bit_foldl_bsSet, Bit_OneBits, Bit_zero]
  simp

theorem NextOne_of_bsNextSet (x k : Nat) :
    NextOne x (k : Int) = if (bsNextSet x k).2 then Int.ofNat (bsNextSet x k).1 else -1 := by
  unfold NextOne bsNextSet
  have hp : (fun (i : Nat) => decide ((k : Int) ≤ Int.ofNat i)) =
      (fun i => decide (k ≤ i)) := by
    funext i
    simp
  rw [hp]
  cases List.find? (fun i => decide (k ≤ i)) (bitList x) <;> rfl

theorem bsNextSet_ne_zero {P : Nat} (hP : P ≠ 0) :
    (bsNextSet P 0).2 = true ∧ NextOne P 0 = Int.ofNat (bsNextSet P 0).1 := by
  have h := NextOne_of_bsNextSet P 0
  rcases NextOne_cases P 0 with ⟨_, e2⟩ | ⟨n1, e1, _, _, _⟩
  · obtain ⟨i, hi⟩ := exists_Bit_of_ne_zero hP
    exact absurd (Int.ofNat_nonneg i) (e2 i hi)
  · cases hb : (bsNextSet P 0).2
    · rw [hb] at h
      simp only [Nat.cast_zero] at h e1
      rw [e1] at h
      simp at h
    · rw [hb] at h
      simp only [Nat.cast_zero] at h
      exact ⟨rfl, by simpa using h⟩

/-! ## Indexing a labeled graph -/

theorem idx_unlabeled (g : LabeledAdjacencyList) (n : Nat) :
    idx (unlabeled g) n = (idx g n).map (List.map Half.To) := by
  unfold idx unlabeled
  rw [List.getElem?_map]
  cases g[n]? <;> rfl

theorem idxInt_unlabeled (g : LabeledAdjacencyList) (n : Int) :
    idxInt (unlabeled g) n = (idxInt g n).map (List.map Half.To) := by
  cases n with
  | ofNat n => exact idx_unlabeled g n
  | negSucc n => rfl

/-! ## Degeneracy of a labeled graph -/

theorem degInitL_eq : ∀ (g : LabeledAdjacencyList) (v : Nat) (d : List Nat)
    (D : List (List Nat)), degInitL g v d D = degInit (unlabeled g) v d D := by
  intro g
  induction g with
  | nil => intro v d D; rfl
  | cons nb rest ih =>
    intro v d D
    show degInitL (nb :: rest) v d D = degInit (nb.map Half.To :: unlabeled rest) v d D
    simp only [degInitL, degInit, List.length_map]
    cases idx (growTo D nb.length []) nb.length with
    | error e => rfl
    | ok b => exact ih _ _ _

theorem degNeighborsL_eq : ∀ (adj : List Half) (s : DegState),
    degNeighborsL adj s = degNeighbors (adj.map Half.To) s := by
  intro adj
  induction adj with
  | nil => intro s; rfl
  | cons nb rest ih =>
    intro s
    simp only [degNeighborsL, List.map_cons, degNeighbors]
    cases degNeighbor s nb.To with
    | error e => rfl
    | ok s1 => exact ih s1

theorem degStepL_eq (g : LabeledAdjacencyList) (ox : Nat) (s : DegState) :
    degStepL g ox s = degStep (unlabeled g) ox s := by
  unfold degStepL degStep
  cases firstNonEmpty s.D 0 with
  | error e => rfl
  | ok i =>
    simp only
    cases idx s.D i with
    | error e => rfl
    | ok Di =>
      simp only
      cases idx Di (Di.length - 1) with
      | error e => rfl
      | ok v =>
        simp only
        rw [idx_unlabeled]
        cases idx g v with
        | error e => rfl
        | ok adj => exact degNeighborsL_eq _ _

theorem degLoopL_eq (g : LabeledAdjacencyList) : ∀ (c ox : Nat) (s : DegState),
    degLoopL g c ox s = degLoop (unlabeled g) c ox s := by
  intro c
  induction c with
  | zero => intro ox s; rfl
  | succ c ih =>
    intro ox s
    simp only [degLoopL, degLoop, degStepL_eq]
    cases degStep (unlabeled g) ox s with
    | error e => rfl
    | ok s1 => exact ih _ _

theorem DegeneracyL_eq (g : LabeledAdjacencyList) : DegeneracyL g = Degeneracy (unlabeled g) := by
  unfold DegeneracyL Degeneracy
  rw [degInitL_eq, unlabeled_length]
  cases degInit (unlabeled g) 0 (List.replicate g.length 0) [] with
  | error e => rfl
  | ok dD =>
    obtain ⟨d, D⟩ := dD
    simp only [degLoopL_eq] <;> rfl

/-! ## The pivot strategy on a labeled graph -/

theorem pivotScanL_eq (g : LabeledAdjacencyList) (L : Nat) : ∀ (k s u maxDeg : Nat),
    pivotScan (unlabeled g) L k (NextOne L (s : Int)) (Int.ofNat u) maxDeg =
      (pivotScanL g L k (bsNextSet L s) u maxDeg).map (fun p => (Int.ofNat p.1, p.2)) := by
  intro k
  induction k with
  | zero =>
    intro s u maxDeg
    rw [NextOne_of_bsNextSet]
    obtain ⟨n, b⟩ := bsNextSet L s
    cases b <;> rfl
  | succ k ih =>
    intro s u maxDeg
    rw [NextOne_of_bsNextSet]
    obtain ⟨n, b⟩ := bsNextSet L s
    cases b
    · rfl
    · show pivotScan (unlabeled g) L (k + 1) (Int.ofNat n) (Int.ofNat u) maxDeg = _
      simp only [pivotScan, pivotScanL, idx_unlabeled]
      cases idx g n with
      | error e => rfl
      | ok adj =>
        simp only [Except.map, List.length_map]
        have h1 := ih (n + 1) n adj.length
        have h2 := ih (n + 1) u maxDeg
        simp only [Except.map, Nat.cast_add, Nat.cast_one] at h1 h2
        by_cases hd : adj.length > maxDeg
        · rw [if_pos hd, if_pos hd]
          exact h1
        · rw [if_neg hd, if_neg hd]
          exact h2

theorem BKPivotMaxDegreeL_eq (g : LabeledAdjacencyList) {P : Nat} (hP : P ≠ 0) (X : Nat) :
    BKPivotMaxDegreeL g P X = BKPivotMaxDegree (unlabeled g) P X := by
  obtain ⟨_, h2⟩ := bsNextSet_ne_zero hP
  unfold BKPivotMaxDegreeL BKPivotMaxDegree
  rw [h2]
  show _ = match idx (unlabeled g) (bsNextSet P 0).1 with
    | .error e => .error e
    | .ok adj => _
  rw [idx_unlabeled]
  cases idx g (bsNextSet P 0).1 with
  | error e => rfl
  | ok adj =>
    simp only [Except.map, List.length_map]
    have h3 := pivotScanL_eq g P P ((bsNextSet P 0).1 + 1) (bsNextSet P 0).1 adj.length
    simp only [Nat.cast_add, Nat.cast_one] at h3
    have h4 : (Int.ofNat (bsNextSet P 0).1 + 1) = (((bsNextSet P 0).1 : Nat) : Int) + 1 := rfl
    rw [h4, h3]
    cases pivotScanL g P P (bsNextSet P ((bsNextSet P 0).1 + 1)) (bsNextSet P 0).1
        adj.length with
    | error e => rfl
    | ok um =>
      simp only [Except.map]
      have h5 := pivotScanL_eq g X X 0 um.1 um.2
      simp only [Nat.cast_zero] at h5
      rw [h5]
      cases pivotScanL g X X (bsNextSet X 0) um.1 um.2 with
      | error e => rfl
      | ok um1 => rfl

/-! ## The closures of the labeled Bron-Kerbosch method -/

theorem bsNextSet_of_NextOne {x k n : Nat} (h : NextOne x (k : Int) = (n : Int)) :
    bsNextSet x k = (n, true) := by
  rw [NextOne_of_bsNextSet] at h
  rcases hb : bsNextSet x k with ⟨m, b⟩
  rw [hb] at h
  cases b
  · simp at h
  · simp at h
    rw [h]

theorem bkCollectL_suffix (R : Nat) :
    ∀ (suf pre : List Nat) (s : Nat), bitList R = pre ++ suf →
      (∀ a ∈ pre, a < s) → (∀ a ∈ suf, s ≤ a) →
      bkCollectL R suf.length s = suf.map Int.ofNat := by
  intro suf
  induction suf with
  | nil => intro pre n _ _ _; rfl
  | cons a rest ih =>
    intro pre s hsplit hpre hsuf
    have hsorted := bitList_sorted R
    rw [hsplit, List.pairwise_append] at hsorted
    have hrest : ∀ b ∈ rest, a < b := (List.pairwise_cons.1 hsorted.2.1).1
    have ha : Bit R a = true := mem_bitList.1 (by rw [hsplit]; simp)
    have hnext : bsNextSet R s = (a, true) := by
      apply bsNextSet_of_NextOne
      apply NextOne_eq_of_min ha
      · have := hsuf a (by simp); omega
      · intro i hi hki
        have hmem : i ∈ pre ++ a :: rest := by rw [← hsplit]; exact mem_bitList.2 hi
        rcases List.mem_append.1 hmem with h | h
        · have := hpre i h; omega
        · rcases List.mem_cons.1 h with h | h
          · omega
          · exact Nat.le_of_lt (hrest i h)
    simp only [List.length_cons, bkCollectL, hnext, List.map_cons]
    congr 1
    apply ih (pre ++ [a]) (a + 1)
    · rw [hsplit]; simp
    · intro b hb
      rcases List.mem_append.1 hb with h | h
      · have h1 := hpre b h
        have h2 := hsuf a (by simp)
        omega
      · simp at h; omega
    · intro b hb
      have := hrest b hb
      omega

theorem bkCliqueL_eq (R : Nat) : bkCliqueL R = bkClique R := by
  rw [bkClique_eq]
  unfold bkCliqueL bsCount
  apply bkCollectL_suffix R (bitList R) [] 0
  · simp
  · simp
  · simp

theorem bkChildL_eq (adj : List Half) (P X : Nat) :
    bkChildL adj P X = bkChild (adj.map Half.To) P X := by
  unfold bkChildL bkChild
  rw [List.foldl_map]
  simp only [bsTest_eq, bsSet_eq]

theorem bkPnuL_eq (adj : List Half) (P : Nat) : bkPnuL adj P = bkPnu (adj.map Half.To) P := by
  unfold bkPnuL bkPnu
  rw [List.foldl_map]
  simp only [bsClear_eq]

theorem bkLoopL_eq (g : LabeledAdjacencyList)
    (call : Nat → Nat → Nat → List (List Int) → Except Fault (Bool × List (List Int)))
    (pnu R : Nat) : ∀ (k s P X : Nat) (log : List (List Int)),
    bkLoopL g call pnu R k (bsNextSet pnu s) P X log =
      bkLoop (unlabeled g) call (some pnu) R k (NextOne pnu (s : Int)) P X log := by
  intro k
  induction k with
  | zero =>
    intro s P X log
    rw [NextOne_of_bsNextSet]
    obtain ⟨n, b⟩ := bsNextSet pnu s
    cases b <;> rfl
  | succ k ih =>
    intro s P X log
    rw [NextOne_of_bsNextSet]
    obtain ⟨n, b⟩ := bsNextSet pnu s
    cases b
    · rfl
    · show _ = bkLoop (unlabeled g) call (some pnu) R (k + 1) (Int.ofNat n) P X log
      simp only [bkLoopL, bkLoop, idx_unlabeled]
      cases idx g n with
      | error e => rfl
      | ok adj =>
        simp only [Except.map, bkChildL_eq, bsSet_eq, bsClear_eq]
        cases call (SetBit R n true) (bkChild (List.map Half.To adj) P X).1
            (bkChild (List.map Half.To adj) P X).2 log with
        | error e => rfl
        | ok r =>
          obtain ⟨b, log1⟩ := r
          cases b
          · rfl
          · simp only [Option.getD_some]
            have := ih (n + 1) (SetBit P n false) (SetBit X n true) log1
            simp only [Nat.cast_add, Nat.cast_one] at this
            exact this

theorem bkfL_eq (g : LabeledAdjacencyList) (pvL pv : Pivot) (emit : Emit Int)
    (hpv : ∀ P X, P ≠ 0 → pvL P X = pv P X) :
    ∀ (fuel R P X : Nat) (log : List (List Int)),
      bkfL g pvL emit fuel R P X log = bkf (unlabeled g) (some pv) emit fuel R P X log := by
  intro fuel
  induction fuel with
  | zero => intro R P X log; rfl
  | succ fuel ih =>
    intro R P X log
    have hcall : bkfL g pvL emit fuel = bkf (unlabeled g) (some pv) emit fuel := by
      funext R P X log
      exact ih R P X log
    unfold bkfL bkf
    rw [hcall, bsAny_eq, bsNone_eq, bkCliqueL_eq]
    by_cases hP : P = 0
    · have h1 : ¬ (decide (P ≠ 0) = true) := by simp [hP]
      have h2 : ¬ (P ≠ 0) := by simp [hP]
      rw [if_neg h1, if_neg h2]
      by_cases hX : X = 0
      · rw [if_pos (by simp [hX]), if_pos hX]
      · rw [if_neg (by simp [hX]), if_neg hX]
    · have h1 : decide (P ≠ 0) = true := by simp [hP]
      rw [if_pos h1, if_pos hP, hpv P X hP]
      simp only
      rw [idxInt_unlabeled]
      cases idxInt g (pv P X) with
      | error e => rfl
      | ok adj =>
        simp only [Except.map, bkPnuL_eq]
        have := bkLoopL_eq g (bkf (unlabeled g) (some pv) emit fuel)
          (bkPnu (List.map Half.To adj) P) R fuel 0 P X log
        simp only [Nat.cast_zero] at this
        exact this

theorem bk3OuterL_eq (g : LabeledAdjacencyList)
    (call : Nat → Nat → Nat → List (List Int) → Except Fault (Bool × List (List Int))) :
    ∀ (ord : List Nat) (R P X : Nat) (log : List (List Int)),
      bk3OuterL g call ord R P X log = bk3Outer (unlabeled g) call ord R P X log := by
  intro ord
  induction ord with
  | nil => intro R P X log; rfl
  | cons n rest ih =>
    intro R P X log
    simp only [bk3OuterL, bk3Outer, idx_unlabeled]
    cases idx g n with
    | error e => rfl
    | ok adj =>
      simp only [Except.map, bkChildL_eq, bsSet_eq, bsClear_eq]
      cases call (SetBit R n true) (bkChild (List.map Half.To adj) P X).1
          (bkChild (List.map Half.To adj) P X).2 log with
      | error e => rfl
      | ok r =>
        obtain ⟨b, log1⟩ := r
        cases b
        · rfl
        · exact ih _ _ _ _

theorem pivotOf_labeled (g : LabeledAdjacencyList) (P X : Nat) (hP : P ≠ 0) :
    pivotOf (BKPivotMaxDegreeL g) P X = pivotOf (BKPivotMaxDegree (unlabeled g)) P X := by
  unfold pivotOf
  rw [BKPivotMaxDegreeL_eq g hP]

/-- The labeled method, on bit sets, computes what the unlabeled method computes on
the graph without its labels. -/
theorem BronKerbosch3L_eq (fuel : Nat) (g : LabeledAdjacencyList) (emit : Emit Int) :
    BronKerbosch3L fuel g (pivotOf (BKPivotMaxDegreeL g)) emit =
      BronKerbosch3 fuel (unlabeled g) (pivotOf (BKPivotMaxDegree (unlabeled g))) emit := by
  unfold BronKerbosch3L BronKerbosch3
  rw [DegeneracyL_eq]
  cases Degeneracy (unlabeled g) with
  | error e => rfl
  | ok r =>
    obtain ⟨k, ord, cores⟩ := r
    simp only
    have hcall : bkfL g (pivotOf (BKPivotMaxDegreeL g)) emit fuel =
        bkf (unlabeled g) (some (pivotOf (BKPivotMaxDegree (unlabeled g)))) emit fuel := by
      funext R P X log
      exact bkfL_eq g _ _ emit (pivotOf_labeled g) fuel R P X log
    rw [hcall, bk3OuterL_eq, bsFull_eq, unlabeled_length]

/-! ## BronKerbosch3 with BKPivotMaxDegree returns -/

/-- The specification of the closure `f` for a pivot function that is valid on the
sets of nodes of `g`. -/
theorem bkf_spec_on (g : AdjacencyList) (hg : Simple g) (pivot : Option Pivot)
    (hpv : ∀ p, pivot = some p → PivotValidOn g p) :
    ∀ (fuel R P X : Nat) (log : List (List Int)), BInv g R P X → PopCount P < fuel →
      BKSpec g R P log (bkf g pivot emitAll fuel R P X log) := by
  intro fuel
  induction fuel with
  | zero => intro R P X log _ h; omega
  | succ fuel ih =>
    intro R P X log hinv hpop
    by_cases hP : P = 0
    · subst hP
      by_cases hX : X = 0
      · subst hX
        refine ⟨[R], by simp [bkf, emitAll], by simp, ?_⟩
        intro C
        rw [MC.base_iff hinv]
        simp
      · refine ⟨[], by simp [bkf, hX], by simp, ?_⟩
        intro C
        simp only [List.not_mem_nil, false_iff]
        exact MC.base_none hg hinv hX
    · cases pivot with
      | none =>
        simp only [bkf, ne_eq, hP, not_false_eq_true, if_true]
        apply bkLoop_spec g hg _ none R fuel ih fuel _ P X log hinv (by omega) (by omega)
        · intro hn
          rcases NextOne_cases P 0 with ⟨e1, _⟩ | ⟨n1, e1, e2, _, _⟩
          · rw [e1] at hn; omega
          · rw [e1]
            exact ⟨by simpa using e2, fun v hv _ => hv⟩
        · intro v hv _
          rcases NextOne_cases P 0 with ⟨_, e2⟩ | ⟨n1, e1, _, _, e4⟩
          · exact absurd (Int.ofNat_nonneg v) (e2 v hv)
          · rw [e1]
            have := e4 v hv (Int.ofNat_nonneg v)
            omega
        · intro C hC
          obtain ⟨v, hv1, hv2⟩ := hC.exists_mem_P hg hinv hP
          exact ⟨v, hv1, hv2, hv2⟩
      | some pv =>
        obtain ⟨u, hu1, hu2⟩ := hpv pv rfl P X hP (fun v hv => ((hinv.2.2.1 v).1 hv).1)
        have hult : u < g.length := ((hinv.2.2.1 u).1 hu2).1
        have hidx : idxInt g (pv P X) = .ok (g.getD u []) := by
          rw [hu1]
          exact idx_eq_getD hult
        simp only [bkf, ne_eq, hP, not_false_eq_true, if_true, hidx]
        apply bkLoop_spec g hg _ _ R fuel ih fuel _ P X log hinv (by omega) (by omega)
        · intro hn
          rcases NextOne_cases (bkPnu (g.getD u []) P) 0 with ⟨e1, _⟩ | ⟨n1, e1, e2, _, _⟩
          · rw [e1] at hn; omega
          · rw [e1]
            refine ⟨by simpa using e2, ?_⟩
            intro v hv _
            simp only [Option.getD_some, Bit_bkPnu, Bool.and_eq_true] at hv
            exact hv.1
        · intro v hv _
          rcases NextOne_cases (bkPnu (g.getD u []) P) 0 with ⟨_, e2⟩ | ⟨n1, e1, _, _, e4⟩
          · exact absurd (Int.ofNat_nonneg v) (e2 v hv)
          · rw [e1]
            have := e4 v hv (Int.ofNat_nonneg v)
            omega
        · intro C hC
          exact hC.exists_mem_pnu hg hinv hu2

theorem pivotOf_validOn (g : AdjacencyList) : PivotValidOn g (pivotOf (BKPivotMaxDegree g)) := by
  intro P X hP hPX
  obtain ⟨u, h1, h2, _⟩ := BKPivotMaxDegree_spec g P X hP hPX
  refine ⟨u, ?_, h2⟩
  unfold pivotOf
  rw [h1]

theorem SetBit_zero_clear (n : Nat) : SetBit (SetBit 0 n true) n false = 0 := by
  apply eq_of_Bit_eq
  intro j
  rw [Bit_SetBit_false, Bit_SetBit_true, Bit_zero]
  by_cases e : j = n
  · simp [e]
  · have e2 : ¬ n = j := fun h => e h.symm
    simp [e, e2]

theorem bk3Outer_total (g : AdjacencyList) (hg : Simple g) (pv : Pivot)
    (hpv : PivotValidOn g pv) (fuel : Nat) (hfuel : g.length < fuel) :
    ∀ (ord : List Nat) (P X : Nat) (log : List (List Int)), ord.Nodup →
      (∀ n ∈ ord, Bit P n = true) → BInv g 0 P X →
      ∃ cs, bk3Outer g (bkf g (some pv) emitAll fuel) ord 0 P X log = .ok cs := by
  intro ord
  induction ord with
  | nil => intro P X log _ _ _; exact ⟨log, rfl⟩
  | cons n rest ih =>
    intro P X log hnd hP hinv
    have hn : Bit P n = true := hP n (List.mem_cons_self _ _)
    have hnlt : n < g.length := ((hinv.2.2.1 n).1 (Or.inl hn)).1
    have hchild := hinv.bk_child hg hn
    have hpop : PopCount (bkChild (g.getD n []) P X).1 < fuel := by
      have h1 : PopCount (bkChild (g.getD n []) P X).1 < PopCount (OneBits g.length) := by
        apply PopCount_lt (n := n)
        · intro i hi
          rw [bkChild_fst] at hi
          simp only [Bool.and_eq_true, decide_eq_true_eq] at hi
          rw [Bit_OneBits]
          simpa using ((hinv.2.2.1 i).1 (Or.inl hi.2)).1
        · rw [Bit_OneBits]; simpa using hnlt
        · rw [bkChild_fst]
          simp only [Bool.and_eq_true, decide_eq_true_eq, not_and]
          intro h
          exact absurd h (hg.2.2.1 n hnlt)
      rw [PopCount_OneBits] at h1
      omega
    obtain ⟨out, hres, _, _⟩ := bkf_spec_on g hg (some pv) (fun p h => by cases h; exact hpv)
      fuel _ _ _ log hchild hpop
    obtain ⟨cs, hcs⟩ := ih (SetBit P n false) (SetBit X n true)
      (log ++ out.map bkClique) (List.nodup_cons.1 hnd).2
      (fun m hm => by
        rw [Bit_SetBit_false, hP m (List.mem_cons_of_mem _ hm)]
        have h1 : m ≠ n := fun e => (List.nodup_cons.1 hnd).1 (e ▸ hm)
        have h2 : ¬ n = m := fun e => h1 e.symm
        simp [h1, h2])
      (hinv.move hn)
    refine ⟨cs, ?_⟩
    simp only [bk3Outer]
    rw [idx_eq_getD hnlt]
    simp only
    rw [hres]
    simp only
    rw [SetBit_zero_clear]
    exact hcs

/-- On a simple graph with an edge, `BronKerbosch3` with `BKPivotMaxDegree` returns,
given fuel above the number of nodes. -/
theorem BronKerbosch3_returns (g : AdjacencyList) (hg : Simple g)
    (hedge : ∃ u v, Arc g u v) (emit : Emit Int) (fuel : Nat) (hfuel : g.length < fuel) :
    ∃ cs, BronKerbosch3 fuel g (pivotOf (BKPivotMaxDegree g)) emit = .ok cs := by
  obtain ⟨k, ord, cores, hd⟩ := Degeneracy_returns hg hedge
  obtain ⟨s, hs, _, hord⟩ := Degeneracy_outer hg hd
  have hlen : ord.length = g.length := by rw [← hord]; exact hs.hlen
  have htake : s.ordering.take g.length = ord := by
    rw [hord, ← hlen, List.take_length]
  have hnd : ord.Nodup := by rw [← htake]; exact hs.hnodup
  have hlt : ∀ v ∈ ord, v < g.length := by rw [← htake]; exact hs.hlt
  obtain ⟨cs, hcs⟩ := bk3Outer_total g hg _ (pivotOf_validOn g) fuel hfuel ord
    (OneBits g.length) 0 [] hnd
    (fun n hn => by rw [Bit_OneBits]; simpa using hlt n hn) (BInv.bk_init g)
  have hall : BronKerbosch3 fuel g (pivotOf (BKPivotMaxDegree g)) emitAll = .ok cs := by
    unfold BronKerbosch3
    rw [hd]
    exact hcs
  exact ⟨_, BronKerbosch3_sim emit g _ fuel hall⟩

/-- On a simple graph without an edge, `Degeneracy` fails. -/
theorem Degeneracy_fails_of_no_edge {g : AdjacencyList} (hg : Simple g)
    (hedge : ¬ ∃ u v, Arc g u v) : ∃ e, Degeneracy g = .error e := by
  cases h : Degeneracy g with
  | error e => exact ⟨e, rfl⟩
  | ok r =>
    obtain ⟨k, ord, cores⟩ := r
    exact absurd (Degeneracy_ok_has_edge hg h) hedge

/-! ## SCCTarjan and SCCPearce side by side -/

theorem SameSets.refl_nil : SameSets [] [] := ⟨rfl, fun _ _ => Iff.rfl⟩

theorem SameSets.mem_flatten {a b : List (List Nat)} (h : SameSets a b) (v : Nat) :
    v ∈ a.flatten ↔ v ∈ b.flatten := by
  constructor
  · intro hv
    obtain ⟨j, _, hj⟩ := mem_flatten_getD hv
    exact getD_mem_flatten ((h.2 j v).1 hj)
  · intro hv
    obtain ⟨j, _, hj⟩ := mem_flatten_getD hv
    exact getD_mem_flatten ((h.2 j v).2 hj)

theorem SameSets.same_snoc {a b : List (List Nat)} (h : SameSets a b) {c d : List Nat}
    (hcd : ∀ v, v ∈ c ↔ v ∈ d) : SameSets (a ++ [c]) (b ++ [d]) := by
  refine ⟨by rw [List.length_append, List.length_append, h.1]; rfl, ?_⟩
  intro i v
  rw [getD_append_singleton, getD_append_singleton, h.1]
  by_cases h1 : i < b.length
  · rw [if_pos h1, if_pos h1]; exact h.2 i v
  · rw [if_neg h1, if_neg h1]
    by_cases h2 : i = b.length
    · rw [if_pos h2, if_pos h2]; exact hcd v
    · rw [if_neg h2, if_neg h2]

/-- The nodes on the stack of `SCCTarjan` are the nodes that `SCCPearce` has visited and
not emitted. -/
theorem TPRel.active {g : AdjacencyList} {tj : TState} {pe : PState} {P : List Nat}
    (h : TPRel tj pe) (hT : TWf g tj) (hP : PWf g P pe) (v : Nat) :
    v ∈ tj.S ↔ v ∈ P ++ pe.S := by
  have hfl := h.logs.mem_flatten v
  constructor
  · intro hv
    have hi := hT.hSi v hv
    have hnl : v ∉ tj.log.flatten := fun hl => ((hT.hlog v).1 hl).2 ((hT.hstk v).2 hv)
    rcases (hP.vis_iff v).1 ((h.vis v).1 hi) with e | e
    · exact e
    · exact absurd (hfl.2 e) hnl
  · intro hv
    have hnl : v ∉ pe.log.flatten := ((hP.hact v).1 hv).2.2
    have hi : Bit tj.indexed v = true := (h.vis v).2 ((hP.vis_iff v).2 (Or.inl hv))
    by_contra hS
    apply hnl
    rw [← hfl, hT.hlog]
    exact ⟨hi, fun hs => hS ((hT.hstk v).1 hs)⟩

theorem TPRel.whites_eq {tj : TState} {pe : PState} (h : TPRel tj pe) (g : AdjacencyList) :
    pwhites g pe = whites g tj.indexed := by
  unfold pwhites whites
  congr 1
  funext v
  by_cases hv : PVis pe v
  · simp [hv, (h.vis v).2 hv]
  · have : ¬ Bit tj.indexed v = true := fun e => hv ((h.vis v).1 e)
    simp [hv, this]

theorem TWf.reach_log_t {g : AdjacencyList} {st : TState} (h : TWf g st) {u v : Nat}
    (hu : u ∈ st.log.flatten) (hr : Reach g u v) : v ∈ st.log.flatten := by
  induction hr with
  | refl => exact hu
  | tail _ harc ih =>
    obtain ⟨i, _, hi⟩ := mem_flatten_getD ih
    obtain ⟨j, _, hj⟩ := h.htopo i _ _ hi harc
    exact getD_mem_flatten hj

theorem PWf.reach_log_p {g : AdjacencyList} {P : List Nat} {st : PState} (h : PWf g P st)
    {u v : Nat} (hu : u ∈ st.log.flatten) (hr : Reach g u v) : v ∈ st.log.flatten := by
  induction hr with
  | refl => exact hu
  | tail _ harc ih =>
    obtain ⟨i, _, hi⟩ := mem_flatten_getD ih
    obtain ⟨j, _, hj⟩ := h.htopo i _ _ hi harc
    exact getD_mem_flatten hj

/-- At the end of the loop of `sc(n)`, node `n` is a root exactly when no node that was
on the stack at the call can be reached from it. -/
theorem ScLoopInv.root_iff {g : AdjacencyList} {n : Nat} {st0 st : TState} {adj : List Nat}
    (h : ScLoopInv g n st0 adj st) (hwf0 : TWf g st0) (hadj : ∀ w, Arc g n w → w ∈ adj) :
    st.lowlink.getD n 0 = st.index.getD n 0 ↔ ¬ ∃ z, z ∈ st0.S ∧ Reach g n z := by
  obtain ⟨seg, s1, s2, s3, s4⟩ := h.stack
  have hnd := h.wf.hnd
  rw [s1] at hnd
  have hold : ∀ v, v ∈ st0.S → st.index.getD v 0 < st0.x := by
    intro v hv
    rw [h.keepI v (hwf0.hSi v hv)]
    exact hwf0.hix v (hwf0.hSi v hv)
  constructor
  · intro hroot
    rw [h.hnidx] at hroot
    have hQ : ∀ v, Reach g n v → v ∈ seg ∨ v = n ∨ v ∈ st.log.flatten := by
      intro v hr
      induction hr with
      | refl => exact Or.inr (Or.inl rfl)
      | @tail u v _ harc ih =>
        have hcase : Bit st.indexed v = true →
            (v ∈ st0.S → st.lowlink.getD n 0 ≤ st.index.getD v 0) →
            v ∈ seg ∨ v = n ∨ v ∈ st.log.flatten := by
          intro hi hle
          by_cases hs : Bit st.stacked v = true
          · have hv := (h.wf.hstk v).1 hs
            rw [s1] at hv
            rcases List.mem_append.1 hv with e | e
            · exact Or.inl e
            · rcases List.mem_cons.1 e with e | e
              · exact Or.inr (Or.inl e)
              · exfalso
                have := hle e
                have := hold v e
                omega
          · exact Or.inr (Or.inr ((h.wf.hlog v).2 ⟨hi, hs⟩))
        rcases ih with e | e | e
        · have hnew : ¬ Bit st0.indexed u = true := by
            intro hi0
            have h1 := s2 u e
            rw [h.keepI u hi0] at h1
            have := hwf0.hix u hi0
            omega
          have hun : u ≠ n := by
            intro e2
            rw [e2] at e
            exact (List.nodup_append.1 hnd).2.2 e (List.mem_cons_self _ _)
          have hui : Bit st.indexed u = true :=
            h.wf.hSi u (by rw [s1]; exact List.mem_append_left _ e)
          exact hcase (h.closed u hui hnew hun v harc) (fun hv => s4 u e v hv harc)
        · rw [e] at harc
          exact hcase (h.hdone v (hadj v harc)) (fun hv => h.hdoneS v (hadj v harc) hv)
        · exact Or.inr (Or.inr (h.wf.reach_log_t e harc.reach))
    rintro ⟨z, hz, hr⟩
    have hzS : z ∈ st.S := by
      rw [s1]; exact List.mem_append_right _ (List.mem_cons_of_mem _ hz)
    rcases hQ z hr with e | e | e
    · exact (List.nodup_append.1 hnd).2.2 e (List.mem_cons_of_mem _ hz)
    · rw [e] at hz
      exact (List.nodup_cons.1 (List.nodup_append.1 hnd).2.1).1 hz
    · exact ((h.wf.hlog z).1 e).2 ((h.wf.hstk z).2 hzS)
  · intro hno
    by_contra hne
    apply hno
    obtain ⟨w, hw, hlw, hr⟩ := h.hloww
    have hle := h.hlowle
    rw [h.hnidx] at hne
    rw [s1] at hw
    rcases List.mem_append.1 hw with e | e
    · have := s2 w e
      omega
    · rcases List.mem_cons.1 e with e | e
      · rw [e, h.hnidx] at hlw
        exact absurd hlw hne
      · exact ⟨w, e, hr⟩

/-- At the end of the loop of `visit(n)`, node `n` is a root exactly when no node that
was visited and not emitted at the call can be reached from it. -/
theorem PLoopInv.root_iff_unreached {g : AdjacencyList} {P : List Nat} {n : Nat}
    {st0 st : PState} {adj : List Nat} {root : Bool} (h : PLoopInv g P n st0 adj st root)
    (hwf0 : PWf g P st0) (hadj : ∀ w, Arc g n w → w ∈ adj) :
    root = true ↔ ¬ ∃ z, z ∈ P ++ st0.S ∧ Reach g n z := by
  obtain ⟨seg, s1, s2, s3, s4⟩ := h.stack
  obtain ⟨new0, hnew0⟩ := h.logpre
  have hnd := h.wf.hnd
  rw [s1, List.cons_append] at hnd
  have hold : ∀ v, v ∈ P ++ st0.S → st.rindex.getD v 0 < st0.index := by
    intro v hv
    rw [h.keep v (Or.inl hv)]
    exact (hwf0.hri v hv).2
  have hperm : (n :: (P ++ (seg ++ st0.S))).Perm (seg ++ (n :: (P ++ st0.S))) := by
    have h1 : (n :: (P ++ (seg ++ st0.S))).Perm (n :: (seg ++ (P ++ st0.S))) := by
      apply List.Perm.cons
      rw [← List.append_assoc, ← List.append_assoc]
      exact List.Perm.append_right _ List.perm_append_comm
    exact h1.trans List.perm_middle.symm
  have hnd2 : (seg ++ (n :: (P ++ st0.S))).Nodup := hperm.nodup_iff.1 hnd
  constructor
  · intro hroot
    have hrn : st.rindex.getD n 0 = st0.index := h.hroot.1 hroot
    have hQ : ∀ v, Reach g n v → v ∈ seg ∨ v = n ∨ v ∈ st.log.flatten := by
      intro v hr
      induction hr with
      | refl => exact Or.inr (Or.inl rfl)
      | @tail u v _ harc ih =>
        have hcase : PVis st v →
            (v ∈ P ++ st0.S → st.rindex.getD n 0 ≤ st.rindex.getD v 0) →
            v ∈ seg ∨ v = n ∨ v ∈ st.log.flatten := by
          intro hi hle
          rcases (h.wf.vis_iff v).1 hi with e | e
          · rw [s1, List.cons_append, List.mem_cons, List.mem_append, List.mem_append] at e
            rcases e with e | e | e | e
            · exact Or.inr (Or.inl e)
            · exfalso
              have := hle (List.mem_append_left _ e)
              have := hold v (List.mem_append_left _ e)
              omega
            · exact Or.inl e
            · exfalso
              have := hle (List.mem_append_right _ e)
              have := hold v (List.mem_append_right _ e)
              omega
          · exact Or.inr (Or.inr e)
        rcases ih with e | e | e
        · have hnew : ¬ PVis st0 u := by
            intro hv0
            rcases (hwf0.vis_iff u).1 hv0 with e2 | e2
            · exact (List.nodup_append.1 hnd2).2.2 e (List.mem_cons_of_mem _ e2)
            · have hact : u ∈ (n :: P) ++ st.S := by
                rw [s1]
                exact List.mem_append_right _ (List.mem_append_left _ e)
              apply ((h.wf.hact u).1 hact).2.2
              rw [hnew0, List.flatten_append]
              exact List.mem_append_left _ e2
          have hun : u ≠ n := by
            intro e2
            rw [e2] at e
            exact (List.nodup_append.1 hnd2).2.2 e (List.mem_cons_self _ _)
          have hui : PVis st u := (h.wf.vis_iff u).2 (Or.inl (by
            rw [s1]
            exact List.mem_append_right _ (List.mem_append_left _ e)))
          exact hcase (h.closed u hui hnew hun v harc) (fun hv => s4 u e v hv harc)
        · rw [e] at harc
          exact hcase (h.hdone v (hadj v harc)) (fun hv => h.hdoneS v (hadj v harc) hv)
        · exact Or.inr (Or.inr (h.wf.reach_log_p e harc.reach))
    rintro ⟨z, hz, hr⟩
    rcases hQ z hr with e | e | e
    · exact (List.nodup_append.1 hnd2).2.2 e (List.mem_cons_of_mem _ hz)
    · rw [e] at hz
      exact (List.nodup_cons.1 (List.nodup_append.1 hnd2).2.1).1 hz
    · exact ((h.wf.hact z).1 (h.old_mem hz).1).2.2 e
  · intro hno
    cases hr : root with
    | true => rfl
    | false =>
      exfalso
      apply hno
      have hne : st.rindex.getD n 0 ≠ st0.index := by
        intro e
        have := h.hroot.2 e
        rw [hr] at this
        cases this
      have hle := h.hnle
      obtain ⟨z, hz, hrz, _⟩ := h.hloww (by omega)
      exact ⟨z, hz, hrz⟩

theorem pearcePop_shape (v : Nat) (c : Int) :
    ∀ (S : List Nat) (rindex : List Int) (scc : List Nat) (index : Int) (S1 : List Nat)
      (r1 : List Int) (scc1 : List Nat) (i1 : Int),
      pearcePop v c S rindex scc index = .ok (S1, r1, scc1, i1) →
      ∃ seg, S = seg ++ S1 ∧ scc1 = scc ++ seg := by
  intro S
  induction S with
  | nil =>
    intro rindex scc index S1 r1 scc1 i1 h
    simp only [pearcePop] at h
    injection h with h
    injection h with e1 e2
    injection e2 with e2 e3
    injection e3 with e3 e4
    exact ⟨[], by rw [← e1]; rfl, by rw [← e3]; simp⟩
  | cons w S ih =>
    intro rindex scc index S1 r1 scc1 i1 h
    simp only [pearcePop] at h
    cases h1 : idx rindex v with
    | error e => rw [h1] at h; cases h
    | ok rv =>
      rw [h1] at h
      simp only at h
      cases h2 : idx rindex w with
      | error e => rw [h2] at h; cases h
      | ok rw1 =>
        rw [h2] at h
        simp only at h
        by_cases hgt : rv > rw1
        · rw [if_pos hgt] at h
          injection h with h
          injection h with e1 e2
          injection e2 with e2 e3
          injection e3 with e3 e4
          exact ⟨[], by rw [← e1]; rfl, by rw [← e3]; simp⟩
        · rw [if_neg hgt] at h
          obtain ⟨seg, s1, s2⟩ := ih _ _ _ _ _ _ _ h
          exact ⟨w :: seg, by rw [s1]; rfl, by rw [s2]; simp⟩

theorem TPRel.tp_of_eq {tj tj1 : TState} {pe pe1 : PState} (h : TPRel tj pe)
    (h1 : tj1.indexed = tj.indexed) (h2 : tj1.log = tj.log)
    (h3 : ∀ v, PVis pe1 v ↔ PVis pe v) (h4 : pe1.log = pe.log) : TPRel tj1 pe1 := by
  refine ⟨?_, ?_⟩
  · intro v
    rw [h1, h3]
    exact h.vis v
  · rw [h2, h4]
    exact h.logs

theorem pearceLower_log (n w : Nat) (st : PState) (root : Bool) :
    (pearceLower n w st root).1.log = st.log := by
  unfold pearceLower
  split <;> rfl

theorem pearceLower_vis {g : AdjacencyList} {P : List Nat} {n : Nat} {st : PState}
    (hwf : PWf g (n :: P) st) {w : Nat} (hw : PVis st w) (root : Bool) (v : Nat) :
    PVis (pearceLower n w st root).1 v ↔ PVis st v := by
  unfold pearceLower
  split
  · have hpos := hwf.vis_pos hw
    have hnact := hwf.head_active
    exact PVis.of_set (by omega) hnact.2.1 (by rw [hwf.hlen]; exact hnact.1) v
  · exact Iff.rfl

theorem seg_mem_iff {segT S0 segP A B : List Nat} {n : Nat}
    (hT : (segT ++ n :: S0).Nodup) (hP : (n :: (A ++ (segP ++ B))).Nodup)
    (h1 : ∀ v, v ∈ segT ++ n :: S0 ↔ v ∈ n :: (A ++ (segP ++ B)))
    (h0 : ∀ v, v ∈ S0 ↔ v ∈ A ++ B) : ∀ v, v ∈ segT ↔ v ∈ segP := by
  intro v
  have hT1 := List.nodup_append.1 hT
  have hP1 := List.nodup_cons.1 hP
  have hP2 := List.nodup_append.1 hP1.2
  have hP3 := List.nodup_append.1 hP2.2.1
  constructor
  · intro hv
    have hvn : v ≠ n := fun e => hT1.2.2 hv (by rw [e]; exact List.mem_cons_self _ _)
    have hv0 : v ∉ S0 := fun e => hT1.2.2 hv (List.mem_cons_of_mem _ e)
    have := (h1 v).1 (List.mem_append_left _ hv)
    rcases List.mem_cons.1 this with e | e
    · exact absurd e hvn
    · rcases List.mem_append.1 e with e | e
      · exact absurd ((h0 v).2 (List.mem_append_left _ e)) hv0
      · rcases List.mem_append.1 e with e | e
        · exact e
        · exact absurd ((h0 v).2 (List.mem_append_right _ e)) hv0
  · intro hv
    have hvn : v ≠ n := fun e => hP1.1 (by
      rw [← e]; exact List.mem_append_right _ (List.mem_append_left _ hv))
    have hv0 : v ∉ S0 := by
      intro e
      rcases List.mem_append.1 ((h0 v).1 e) with e | e
      · exact hP2.2.2 e (List.mem_append_left _ hv)
      · exact hP3.2.2 hv e
    have := (h1 v).2 (List.mem_cons_of_mem _
      (List.mem_append_right _ (List.mem_append_left _ hv)))
    rcases List.mem_append.1 this with e | e
    · exact e
    · rcases List.mem_cons.1 e with e | e
      · exact absurd e hvn
      · exact absurd e hv0

/-- The loops over the successors of `n` in `sc(n)` and in `visit(n)`, side by side. -/
theorem tp_arcs (g : AdjacencyList) (hg : InRange g)
    (callT : Nat → TState → Except Fault (Bool × TState))
    (callP : Nat → PState → Except Fault (Bool × PState)) (fuel : Nat)
    (hcall : ∀ P m tj pe, TWf g tj → PWf g P pe → TPRel tj pe → m < g.length →
      Bit tj.indexed m = false → (∀ v, v ∈ tj.S → Reach g v m) →
      whites g tj.indexed ≤ fuel →
      ∃ tj1 pe1, callT m tj = .ok (true, tj1) ∧ callP m pe = .ok (true, pe1) ∧
        ScPost g m tj tj1 ∧ PPost g P m pe pe1 ∧ TPRel tj1 pe1)
    (P : List Nat) (n : Nat) (tj0 : TState) (pe0 : PState) (hnlt : n < g.length)
    (hpreT : ∀ v, v ∈ tj0.S → Reach g v n) (hpreP : ∀ v, v ∈ P ++ pe0.S → Reach g v n) :
    ∀ (rest done : List Nat) (tj : TState) (pe : PState) (root : Bool),
      (∀ w, w ∈ rest → Arc g n w) → ScLoopInv g n tj0 done tj →
      PLoopInv g P n pe0 done pe root → TPRel tj pe → whites g tj.indexed ≤ fuel →
      ∃ tj1 pe1 root1, scLoop callT n rest tj = .ok (true, tj1) ∧
        pearceArcs callP n rest pe root = .ok (true, pe1, root1) ∧
        ScLoopInv g n tj0 (done ++ rest) tj1 ∧
        PLoopInv g P n pe0 (done ++ rest) pe1 root1 ∧ TPRel tj1 pe1 := by
  intro rest
  induction rest with
  | nil =>
    intro done tj pe root _ hT hP hrel _
    exact ⟨tj, pe, root, rfl, rfl, by rw [List.append_nil]; exact hT,
      by rw [List.append_nil]; exact hP, hrel⟩
  | cons w rest ih =>
    intro done tj pe root harcs hT h hrel hw
    have harc : Arc g n w := harcs w (List.mem_cons_self _ _)
    have harcs2 : ∀ x, x ∈ rest → Arc g n x := fun x hx => harcs x (List.mem_cons_of_mem _ hx)
    have hcons : done ++ w :: rest = (done ++ [w]) ++ rest := by simp
    have hwlt : w < g.length := Arc.lt_right hg harc
    have hwl : w < pe.rindex.length := by rw [h.wf.hlen]; exact hwlt
    obtain ⟨seg, s1, s2, s3, s4⟩ := h.stack
    have hn1 := h.wf.head_active
    have hnmem : n ∈ (n :: P) ++ pe.S := by simp
    rw [hcons]
    by_cases hi : Bit tj.indexed w = false
    · have hnv : ¬ PVis pe w := by
        intro hv
        rw [(hrel.vis w).2 hv] at hi
        cases hi
      have hz : pe.rindex.getD w 0 = 0 := by
        by_contra hne
        exact hnv (Or.inl hne)
      obtain ⟨tj1, pe1, hcT, hcP, hpT, hp, hrel1⟩ := hcall (n :: P) w tj pe hT.wf h.wf hrel
        hwlt hi (fun v hv => Reach.trans (hT.reachS hpreT v hv) harc.reach) hw
      have hinvT := hT.after_call hpreT hnlt harc hi hpT
      obtain ⟨segw, t1, t2, t3, t4, t5⟩ := hp.stack
      have hn2 : pe1.rindex.getD n 0 = pe.rindex.getD n 0 := hp.keep n (Or.inl hnmem)
      have hinv := h.advance hp.wf hp.keep hp.mono hp.logpre hp.closed hp.hn t1
        (fun u hu => by
          refine ⟨Reach.trans harc.reach (t2 u hu).1, ?_⟩
          rcases t4 with ⟨e, _⟩ | ⟨_, z, hz1, hz2, _⟩
          · rw [e] at hu; cases hu
          · exact Reach.trans (t2 u hu).2 (Reach.trans hz2 (h.pearce_reachS hpreP z hz1)))
        t3
        (fun u hu v hv huv => t5 u hu v (h.old_mem hv).1 huv)
        (fun hlt => by
          rcases t4 with ⟨_, e⟩ | ⟨_, z, hz1, hz2, hz3⟩
          · exfalso
            have := hp.wf.active_le_done (v := n) (by simp) e
            omega
          · rw [s1, List.cons_append, List.mem_cons, List.mem_append, List.mem_append] at hz1
            rcases hz1 with e | e | e | e
            · exfalso
              rw [e] at hz3
              omega
            · exact ⟨z, List.mem_append_left _ e, Reach.trans harc.reach hz2, hz3⟩
            · exfalso
              have h5 := s3 z e
              have h6 : pe1.rindex.getD z 0 = pe.rindex.getD z 0 := by
                apply hp.keep z
                left
                rw [s1, List.cons_append]
                exact List.mem_cons_of_mem _
                  (List.mem_append_right _ (List.mem_append_left _ e))
              omega
            · exact ⟨z, List.mem_append_right _ e, Reach.trans harc.reach hz2, hz3⟩)
      have hrel2 : TPRel (lowerLink tj1 n (tj1.lowlink.getD w 0))
          (pearceLower n w pe1 root).1 :=
        hrel1.tp_of_eq (lowerLink_indexed _ _ _) (lowerLink_log _ _ _)
          (pearceLower_vis hp.wf hp.hn root) (pearceLower_log _ _ _ _)
      obtain ⟨tj2, pe2, root2, e1, e2, e3, e4, e5⟩ := ih (done ++ [w]) _ _ _ harcs2 hinvT hinv
        hrel2 (by
          rw [lowerLink_indexed]
          exact le_trans (whites_mono g hpT.mono) hw)
      refine ⟨tj2, pe2, root2, ?_, ?_, e3, e4, e5⟩
      · rw [scLoop, if_pos hi, hcT]
        exact e1
      · rw [pearceArcs, idx_int_getD hwl]
        simp only []
        rw [if_pos hz, hcP]
        exact e2
    · have hi1 : Bit tj.indexed w = true := by
        cases hb : Bit tj.indexed w
        · exact absurd hb hi
        · rfl
      have hv : PVis pe w := (hrel.vis w).1 hi1
      have hz : ¬ pe.rindex.getD w 0 = 0 := by
        have := h.wf.vis_pos hv
        omega
      have hinv := @PLoopInv.advance _ _ _ _ _ _ _ h pe w [] h.wf (fun v _ => rfl)
        (fun v hv => hv) ⟨[], by simp⟩ (fun v hv hv0 => absurd hv hv0) hv rfl
        (fun u hu => by cases hu) (fun u hu => by cases hu) (fun u hu => by cases hu)
        (fun hlt => by
          rcases (h.wf.vis_iff w).1 hv with e | e
          · rw [s1, List.cons_append, List.mem_cons, List.mem_append, List.mem_append] at e
            rcases e with e | e | e | e
            · exfalso
              rw [e] at hlt
              omega
            · exact ⟨w, List.mem_append_left _ e, harc.reach, le_refl _⟩
            · exfalso
              have := s3 w e
              omega
            · exact ⟨w, List.mem_append_right _ e, harc.reach, le_refl _⟩
          · exfalso
            have := h.wf.active_le_done hnmem e
            omega)
      by_cases hs : Bit tj.stacked w = true
      · have hnbS : w ∈ tj.S := (hT.wf.hstk w).1 hs
        have hlow := hT.lower hnlt (tj.index.getD w 0)
          (fun _ => ⟨w, hnbS, rfl, harc.reach⟩)
        have hinvT : ScLoopInv g n tj0 (done ++ [w]) (lowerLink tj n (tj.index.getD w 0)) := by
          apply hlow.snoc w
          · rw [lowerLink_indexed]; exact hi1
          · intro _
            rw [lowerLink_eq _ _ _ (by rw [hT.wf.hlow]; exact hnlt), lowerLink_index]
            exact Nat.min_le_right _ _
        have hrel2 : TPRel (lowerLink tj n (tj.index.getD w 0)) (pearceLower n w pe root).1 :=
          hrel.tp_of_eq (lowerLink_indexed _ _ _) (lowerLink_log _ _ _)
            (pearceLower_vis h.wf hv root) (pearceLower_log _ _ _ _)
        obtain ⟨tj2, pe2, root2, e1, e2, e3, e4, e5⟩ := ih (done ++ [w]) _ _ _ harcs2 hinvT
          hinv hrel2 (by rw [lowerLink_indexed]; exact hw)
        refine ⟨tj2, pe2, root2, ?_, ?_, e3, e4, e5⟩
        · rw [scLoop, if_neg hi, if_pos hs]
          exact e1
        · rw [pearceArcs, idx_int_getD hwl]
          simp only []
          rw [if_neg hz]
          exact e2
      · have hinvT : ScLoopInv g n tj0 (done ++ [w]) tj := by
          apply hT.snoc w hi1
          intro h0
          obtain ⟨seg0, u1, _⟩ := hT.stack
          exfalso
          apply hs
          rw [hT.wf.hstk, u1]
          exact List.mem_append_right _ (List.mem_cons_of_mem _ h0)
        have hrel2 : TPRel tj (pearceLower n w pe root).1 :=
          hrel.tp_of_eq rfl rfl (pearceLower_vis h.wf hv root) (pearceLower_log _ _ _ _)
        obtain ⟨tj2, pe2, root2, e1, e2, e3, e4, e5⟩ := ih (done ++ [w]) _ _ _ harcs2 hinvT
          hinv hrel2 hw
        refine ⟨tj2, pe2, root2, ?_, ?_, e3, e4, e5⟩
        · rw [scLoop, if_neg hi, if_neg hs]
          exact e1
        · rw [pearceArcs, idx_int_getD hwl]
          simp only []
          rw [if_neg hz]
          exact e2

/-- The closures `sc` and `visit` side by side: from related variables both return, with
related variables. -/
theorem tp_visit (g : AdjacencyList) (hg : InRange g) :
    ∀ (fuel : Nat) (P : List Nat) (n : Nat) (tj : TState) (pe : PState), TWf g tj →
      PWf g P pe → TPRel tj pe → n < g.length → Bit tj.indexed n = false →
      (∀ v, v ∈ tj.S → Reach g v n) → whites g tj.indexed ≤ fuel →
      ∃ tj1 pe1, sc g emitAll fuel n tj = .ok (true, tj1) ∧
        pearceVisit g emitAll fuel n pe = .ok (true, pe1) ∧
        ScPost g n tj tj1 ∧ PPost g P n pe pe1 ∧ TPRel tj1 pe1 := by
  intro fuel
  induction fuel with
  | zero =>
    intro P n tj pe _ _ _ hn hni _ hw
    exfalso
    have := whites_lt g (a := tj.indexed) (b := SetBit tj.indexed n true) (n := n)
      (fun v hv => by rw [Bit_SetBit_true, hv]; rfl) hn hni (by rw [Bit_SetBit_true]; simp)
    omega
  | succ fuel ih =>
    intro P n tj pe hwf hP hrel hn hi hpreT hw
    have hw1 : whites g (SetBit tj.indexed n true) ≤ fuel := by
      have := whites_lt g (a := tj.indexed) (b := SetBit tj.indexed n true) (n := n)
        (fun v hv => by rw [Bit_SetBit_true, hv]; rfl) hn hi (by rw [Bit_SetBit_true]; simp)
      omega
    have hni : ¬ PVis pe n := by
      intro hv
      rw [(hrel.vis n).2 hv] at hi
      cases hi
    have hpreP : ∀ v, v ∈ P ++ pe.S → Reach g v n :=
      fun v hv => hpreT v ((hrel.active hwf hP v).2 hv)
    have hinvT := ScLoopInv.enter hwf hn hi
    have hinvP := PLoopInv.pearce_enter hP hn hni
    have hnlt : n < pe.rindex.length := by rw [hP.hlen]; exact hn
    have hrel1 : TPRel
        { index := tj.index.set n tj.x, lowlink := tj.lowlink.set n tj.x,
          indexed := SetBit tj.indexed n true, stacked := SetBit tj.stacked n true,
          x := tj.x + 1, S := n :: tj.S, log := tj.log }
        { pe with rindex := pe.rindex.set n pe.index, index := pe.index + 1 } := by
      refine ⟨?_, hrel.logs⟩
      intro v
      show Bit (SetBit tj.indexed n true) v = true ↔ _
      rw [Bit_SetBit_true]
      by_cases e : v = n
      · subst e
        simp only [decide_True, Bool.or_true, true_iff]
        exact Or.inl hinvP.wf.head_active.2.1
      · have e2 : ¬ n = v := fun h => e h.symm
        simp only [e2, decide_False, Bool.or_false]
        rw [hrel.vis v]
        unfold PVis
        dsimp only
        rw [getD_set_int_ne _ _ _ _ e2]
    obtain ⟨tj2, pe2, root2, e1, e2, e3, e4, e5⟩ := tp_arcs g hg (sc g emitAll fuel)
      (pearceVisit g emitAll fuel) fuel ih P n tj pe hn hpreT hpreP (g.getD n []) [] _ _ true
      (fun w hw => hw) hinvT hinvP hrel1 hw1
    rw [List.nil_append] at e3 e4
    have hrT := e3.root_iff hwf (fun w hw => hw)
    have hrP := e4.root_iff_unreached hP (fun w hw => hw)
    have hagree : (∃ z, z ∈ tj.S ∧ Reach g n z) ↔ (∃ z, z ∈ P ++ pe.S ∧ Reach g n z) := by
      constructor
      · rintro ⟨z, h1, h2⟩; exact ⟨z, (hrel.active hwf hP z).1 h1, h2⟩
      · rintro ⟨z, h1, h2⟩; exact ⟨z, (hrel.active hwf hP z).2 h1, h2⟩
    cases root2 with
    | false =>
      have hroot : ¬ tj2.lowlink.getD n 0 = tj2.index.getD n 0 := by
        intro e
        have := hrP.2 (fun h => hrT.1 e (hagree.2 h))
        cases this
      refine ⟨tj2, { pe2 with S := n :: pe2.S }, ?_, ?_, e3.exit_nonroot (fun w hw => hw) hroot,
        e4.pearce_nonroot (fun w hw => hw), e5.tp_of_eq rfl rfl (fun v => Iff.rfl) rfl⟩
      · rw [sc, idx_eq_getD hn]
        simp only []
        rw [e1]
        simp only []
        rw [if_neg hroot]
      · rw [pearceVisit, if_pos hnlt, idx_eq_getD hn]
        simp only []
        rw [e2]
    | true =>
      have hroot : tj2.lowlink.getD n 0 = tj2.index.getD n 0 :=
        hrT.2 (fun h => hrP.1 rfl (hagree.1 h))
      obtain ⟨stk, c, p1, p2⟩ := e3.exit_root hwf (fun w hw => hw) hroot
      obtain ⟨seg, r1, q1, q2⟩ := e4.pearce_root hP (fun w hw => hw)
      obtain ⟨segT, s1, _⟩ := e3.stack
      obtain ⟨segP, u1, _⟩ := e4.stack
      have hndT := e3.wf.hnd
      rw [s1] at hndT
      have hnseg : n ∉ segT := fun e =>
        (List.nodup_append.1 hndT).2.2 e (List.mem_cons_self _ _)
      obtain ⟨stk1, hpop, _⟩ := scPop_spec n tj.S segT tj2.stacked [] hnseg
      have hc : c = segT ++ [n] := by
        rw [s1, hpop] at p1
        injection p1 with p1
        injection p1 with _ p1
        injection p1 with _ p1
        rw [← p1]
        simp
      obtain ⟨sg, v1, v2⟩ := pearcePop_shape _ _ _ _ _ _ _ _ _ _ q1
      have hsg : sg = segP := by
        rw [u1] at v1
        exact (List.append_cancel_right v1).symm
      have hseg : seg = segP := by rw [v2, hsg]; rfl
      have hndP := e4.wf.hnd
      rw [u1, List.cons_append] at hndP
      have hsame : ∀ v, v ∈ segT ↔ v ∈ segP := by
        apply seg_mem_iff hndT hndP
        · intro v
          have := e5.active e3.wf e4.wf v
          rw [s1, u1, List.cons_append] at this
          exact this
        · exact hrel.active hwf hP
      refine ⟨_, _, ?_, ?_, p2, q2, ?_⟩
      · rw [sc, idx_eq_getD hn]
        simp only []
        rw [e1]
        simp only []
        rw [if_pos hroot, p1]
        rfl
      · rw [pearceVisit, if_pos hnlt, idx_eq_getD hn]
        simp only []
        rw [e2]
        simp only []
        rw [q1]
        rfl
      · refine ⟨?_, ?_⟩
        · intro v
          show Bit tj2.indexed v = true ↔ _
          rw [e5.vis v, e4.wf.vis_iff v, q2.wf.vis_iff v]
          show _ ↔ (v ∈ P ++ pe.S ∨ v ∈ (pe2.log ++ [seg ++ [n]]).flatten)
          rw [u1, hseg]
          simp only [List.cons_append, List.mem_cons, List.mem_append, List.flatten_append,
            List.flatten_cons, List.flatten_nil, List.append_nil, List.mem_singleton]
          tauto
        · show SameSets (tj2.log ++ [c]) (pe2.log ++ [seg ++ [n]])
          apply e5.logs.same_snoc
          intro v
          rw [hc, hseg, List.mem_append, List.mem_append, hsame v]

/-- The main loops of `SCCTarjan` and `SCCPearce` side by side. -/
theorem tp_loop (g : AdjacencyList) (hg : InRange g) (fuel : Nat) (hfuel : g.length ≤ fuel) :
    ∀ (nodes : List Nat) (tj : TState) (pe : PState), TWf g tj → PWf g [] pe → TPRel tj pe →
      tj.S = [] → nodes.Nodup → (∀ v, v ∈ nodes → v < g.length) →
      (∀ w, w ∈ pe.log.flatten → pe.rindex.getD w 0 = 0 → w ∉ nodes) →
      ∃ tj1 pe1, tarjanLoop g emitAll fuel nodes tj = .ok tj1 ∧
        pearceLoop g emitAll fuel nodes pe = .ok pe1 ∧ TPRel tj1 pe1 := by
  intro nodes
  induction nodes with
  | nil =>
    intro tj pe _ _ hrel _ _ _ _
    exact ⟨tj, pe, rfl, rfl, hrel⟩
  | cons n rest ih =>
    intro tj pe hwf hP hrel hS hnd hlt hzero
    have hrest : ∀ v, v ∈ rest → v < g.length := fun v hv => hlt v (List.mem_cons_of_mem _ hv)
    have hnd2 := (List.nodup_cons.1 hnd).2
    have hnr := (List.nodup_cons.1 hnd).1
    by_cases hi : Bit tj.indexed n = false
    · have hni : ¬ PVis pe n := by
        intro hv
        rw [(hrel.vis n).2 hv] at hi
        cases hi
      have hz : pe.rindex.getD n 0 = 0 := by
        by_contra hne
        exact hni (Or.inl hne)
      obtain ⟨tj1, pe1, e1, e2, hpT, hp, hrel1⟩ := tp_visit g hg fuel [] n tj pe hwf hP hrel
        (hlt n (List.mem_cons_self _ _)) hi (fun v hv => by rw [hS] at hv; cases hv)
        (le_trans (whites_le g _) hfuel)
      have hS1 : tj1.S = [] := by
        obtain ⟨seg, t1, _, _, t4, _⟩ := hpT.stack
        rcases t4 with ⟨e, _⟩ | ⟨_, w, hw, _⟩
        · rw [t1, e, hS]; rfl
        · rw [hS] at hw; cases hw
      obtain ⟨tj2, pe2, f1, f2, f3⟩ := ih tj1 pe1 hpT.wf hp.wf hrel1 hS1 hnd2 hrest (by
        intro w hw hw0 hwr
        rw [hp.zero w hw hw0] at hwr
        exact hnr hwr)
      refine ⟨tj2, pe2, ?_, ?_, f3⟩
      · rw [tarjanLoop, if_pos hi, e1]
        exact f1
      · rw [pearceLoop, if_pos hz, e2]
        exact f2
    · have hi1 : Bit tj.indexed n = true := by
        cases hb : Bit tj.indexed n
        · exact absurd hb hi
        · rfl
      have hz : ¬ pe.rindex.getD n 0 = 0 := by
        intro e
        rcases (hrel.vis n).1 hi1 with h | h
        · exact h e
        · exact hzero n h e (List.mem_cons_self _ _)
      obtain ⟨tj2, pe2, f1, f2, f3⟩ := ih tj pe hwf hP hrel hS hnd2 hrest
        (fun w hw hw0 hwr => hzero w hw hw0 (List.mem_cons_of_mem _ hwr))
      refine ⟨tj2, pe2, ?_, ?_, f3⟩
      · rw [tarjanLoop, if_neg hi]
        exact f1
      · rw [pearceLoop, if_neg hz]
        exact f2

/-- `SCCPearce` emits as many components as `SCCTarjan`, with the same nodes in the same
order. -/
theorem SCCTarjan_SCCPearce (g : AdjacencyList) (hg : InRange g) (fuel : Nat)
    (hfuel : g.length ≤ fuel) :
    ∃ ct cq, SCCTarjan fuel g emitAll = .ok ct ∧ SCCPearce fuel g emitAll = .ok cq ∧
      SameSets ct cq := by
  have hrel : TPRel (tarjanInit g) (pearceInit g) := by
    refine ⟨?_, SameSets.refl_nil⟩
    intro v
    constructor
    · intro h
      simp [tarjanInit, Bit_zero] at h
    · rintro (h | h)
      · exfalso
        apply h
        exact getD_replicate_zero _ _
      · simp [pearceInit] at h
  obtain ⟨tj, pe, e1, e2, e3⟩ := tp_loop g hg fuel hfuel (List.range g.length) (tarjanInit g)
    (pearceInit g) (TWf.tarjan_init g) (PWf.pearce_init g) hrel rfl (List.nodup_range _)
    (fun v hv => List.mem_range.1 hv) (fun w hw => by simp [pearceInit] at hw)
  exact ⟨tj.log, pe.log, by rw [SCCTarjan, e1]; rfl, by rw [SCCPearce, e2]; rfl, e3.logs⟩

/-! ## SCCTarjan and SCCPathBased side by side -/

theorem pathTrim_eq_filter (iw : Int) : ∀ (B : List Int), B.Pairwise (fun a b => b < a) →
    (∃ b, b ∈ B ∧ b ≤ iw) →
    pathTrim iw B = .ok (B.filter (fun b => decide (b ≤ iw))) := by
  intro B
  induction B with
  | nil => rintro _ ⟨b, hb, _⟩; cases hb
  | cons a B ih =>
    intro hs hex
    have hs1 := List.pairwise_cons.1 hs
    by_cases hlt : iw < a
    · rw [pathTrim, if_pos hlt, List.filter_cons_of_neg (by simpa using hlt)]
      apply ih hs1.2
      obtain ⟨b, hb, hle⟩ := hex
      rcases List.mem_cons.1 hb with e | e
      · rw [e] at hle; omega
      · exact ⟨b, e, hle⟩
    · rw [pathTrim, if_neg hlt]
      congr 1
      symm
      rw [List.filter_eq_self]
      intro b hb
      rcases List.mem_cons.1 hb with e | e
      · rw [e]; simpa using hlt
      · have := hs1.1 b e
        simp only [decide_eq_true_eq]
        omega

theorem filter_le_filter_le (X : List Int) (a b : Int) :
    (X.filter (fun x => decide (x ≤ a))).filter (fun x => decide (x ≤ b)) =
      X.filter (fun x => decide (x ≤ min a b)) := by
  rw [List.filter_filter]
  apply List.filter_congr
  intro x _
  by_cases h1 : x ≤ a <;> by_cases h2 : x ≤ b <;> simp [h1, h2]

theorem BOk.filter {B : List Int} {len : Nat} (h : BOk B len) {k : Int} (hk : 0 ≤ k) :
    BOk (B.filter (fun b => decide (b ≤ k))) len := by
  refine ⟨h.1.filter _, ?_, ?_⟩
  · intro b hb
    exact h.2.1 b (List.mem_filter.1 hb).1
  · intro hpos
    exact List.mem_filter.2 ⟨h.2.2 hpos, by simpa using hk⟩

theorem BOk.bok_push {B : List Int} {len : Nat} (h : BOk B len) :
    BOk ((len : Int) :: B) (len + 1) := by
  refine ⟨List.pairwise_cons.2 ⟨fun b hb => (h.2.1 b hb).2, h.1⟩, ?_, ?_⟩
  · intro b hb
    rcases List.mem_cons.1 hb with e | e
    · rw [e]; omega
    · have := h.2.1 b e
      omega
  · intro _
    by_cases h0 : 0 < len
    · exact List.mem_cons_of_mem _ (h.2.2 h0)
    · have : len = 0 := by omega
      rw [this]
      exact List.mem_cons_self _ _

theorem BOk.mono {B : List Int} {len len1 : Nat} (h : BOk B len) (h0 : 0 < len)
    (hle : len ≤ len1) : BOk B len1 := by
  refine ⟨h.1, ?_, fun _ => h.2.2 h0⟩
  intro b hb
  have := h.2.1 b hb
  omega

/-- Along the stack, the index of `SCCTarjan` and the position kept by `SCCPathBased`
order the nodes in the same way. -/
theorem PBRel.stack_pos_lt {g : AdjacencyList} {tj : TState} {pb : BState} (h : PBRel g tj pb)
    {u v : Nat} (hu : u ∈ tj.S) (hv : v ∈ tj.S) :
    tj.index.getD u 0 < tj.index.getD v 0 ↔ pb.I.getD u 0 < pb.I.getD v 0 := by
  obtain ⟨s, t, e⟩ := List.append_of_mem hv
  have hsort := h.hsort
  rw [e] at hu
  rcases List.mem_append.1 hu with hu1 | hu1
  · obtain ⟨s1, s2, e1⟩ := List.append_of_mem hu1
    have e2 : tj.S = s1 ++ u :: (s2 ++ v :: t) := by rw [e, e1]; simp
    have hIu := h.hpos _ _ _ e2
    have hIv := h.hpos _ _ _ e
    rw [e2] at hsort
    have := (List.pairwise_cons.1 (List.pairwise_append.1 hsort).2.1).1 v (by simp)
    rw [hIu, hIv]
    simp only [List.length_append, List.length_cons, Nat.cast_add, Nat.cast_one]
    constructor
    · intro h1; omega
    · intro h1; omega
  · rcases List.mem_cons.1 hu1 with hu2 | hu2
    · rw [hu2]
      constructor
      · intro h1; omega
      · intro h1; omega
    · obtain ⟨t1, t2, e1⟩ := List.append_of_mem hu2
      have e2 : tj.S = (s ++ v :: t1) ++ u :: t2 := by rw [e, e1]; simp
      have hIu := h.hpos _ _ _ e2
      have hIv := h.hpos _ _ _ e
      rw [e] at hsort
      have := (List.pairwise_cons.1 (List.pairwise_append.1 hsort).2.1).1 u hu2
      rw [hIu, hIv, e1]
      simp only [List.length_append, List.length_cons, Nat.cast_add, Nat.cast_one]
      constructor
      · intro _; omega
      · intro _; exact this

theorem PBRel.stack_pos_le {g : AdjacencyList} {tj : TState} {pb : BState} (h : PBRel g tj pb)
    {u v : Nat} (hu : u ∈ tj.S) (hv : v ∈ tj.S) :
    tj.index.getD u 0 ≤ tj.index.getD v 0 ↔ pb.I.getD u 0 ≤ pb.I.getD v 0 := by
  have := h.stack_pos_lt hv hu
  constructor
  · intro h1
    by_contra h2
    have := this.2 (by omega)
    omega
  · intro h1
    by_contra h2
    have := this.1 (by omega)
    omega

theorem PBRel.pos_nonneg {g : AdjacencyList} {tj : TState} {pb : BState} (h : PBRel g tj pb)
    {u : Nat} (hu : u ∈ tj.S) : 0 ≤ pb.I.getD u 0 ∧ pb.I.getD u 0 < (tj.S.length : Int) := by
  obtain ⟨s, t, e⟩ := List.append_of_mem hu
  rw [h.hpos _ _ _ e, e]
  simp only [List.length_append, List.length_cons, Nat.cast_add, Nat.cast_one]
  omega

theorem PBRel.pos_keep {g : AdjacencyList} {tj tj1 : TState} {pb pb1 : BState}
    (h : PBRel g tj pb) (h1 : PBRel g tj1 pb1) {seg : List Nat} (hS : tj1.S = seg ++ tj.S)
    {u : Nat} (hu : u ∈ tj.S) : pb1.I.getD u 0 = pb.I.getD u 0 := by
  obtain ⟨s, t, e⟩ := List.append_of_mem hu
  rw [h.hpos _ _ _ e, h1.hpos (seg ++ s) u t (by rw [hS, e]; simp)]

theorem PBRel.pb_of_eq {g : AdjacencyList} {tj tj1 : TState} {pb pb1 : BState}
    (h : PBRel g tj pb) (h1 : tj1.S = tj.S) (h2 : tj1.log = tj.log)
    (h3 : tj1.indexed = tj.indexed) (h4 : tj1.stacked = tj.stacked)
    (h5 : tj1.index = tj.index) (h6 : pb1.S = pb.S) (h7 : pb1.log = pb.log)
    (h8 : pb1.I = pb.I) (h9 : pb1.c = pb.c) : PBRel g tj1 pb1 := by
  refine ⟨?_, ?_, ?_, ?_, ?_, ?_, ?_, ?_⟩
  · rw [h6, h1]; exact h.hS
  · rw [h7, h2]; exact h.hlog
  · rw [h8]; exact h.hI
  · rw [h9]; exact h.hc
  · rw [h8, h3]; exact h.hwhite
  · rw [h8, h1]; exact h.hpos
  · rw [h8, h3, h4]; exact h.hdone
  · rw [h1, h5]; exact h.hsort

theorem Slength_le {g : AdjacencyList} {tj : TState} (h : TWf g tj) : tj.S.length ≤ g.length :=
  nodup_range_length_le h.hnd (fun v hv => h.hlt v (h.hSi v hv))

/-- Lowering `lowlink[n]` to the index of the stack node `u` matches dropping the
entries of `B` above the position of `u`. -/
theorem PBLoop.pb_lower {g : AdjacencyList} {n : Nat} {pb0 : BState} {tj : TState}
    {pb pb1 : BState} (h : PBLoop g n pb0 tj pb) (hn : n < tj.lowlink.length) {u : Nat}
    (hu : u ∈ tj.S) (hB : pb1.B = pb.B.filter (fun b => decide (b ≤ pb.I.getD u 0)))
    (hS : pb1.S = pb.S) (hlog : pb1.log = pb.log) (hI : pb1.I = pb.I) (hc : pb1.c = pb.c) :
    PBLoop g n pb0 (lowerLink tj n (tj.index.getD u 0)) pb1 := by
  obtain ⟨w, hw, hlw, hBw⟩ := h.hB
  refine ⟨h.rel.pb_of_eq (lowerLink_S _ _ _) (lowerLink_log _ _ _) (lowerLink_indexed _ _ _)
    (lowerLink_stacked _ _ _) (lowerLink_index _ _ _) hS hlog hI hc, ?_⟩
  rw [lowerLink_S, lowerLink_index, lowerLink_eq _ _ _ hn, hB, hBw, filter_le_filter_le, hI,
    hlw]
  by_cases hlt : tj.index.getD u 0 < tj.index.getD w 0
  · refine ⟨u, hu, by omega, ?_⟩
    have := (h.rel.stack_pos_lt hu hw).1 hlt
    rw [min_eq_right (by omega)]
  · refine ⟨w, hw, by omega, ?_⟩
    have := (h.rel.stack_pos_le hw hu).1 (by omega)
    rw [min_eq_left this]

theorem PBLoop.bok {g : AdjacencyList} {n : Nat} {pb0 : BState} {tj : TState} {pb : BState}
    (h : PBLoop g n pb0 tj pb) (h0 : BOk pb0.B pb0.S.length)
    (hlen : pb0.S.length + 1 ≤ tj.S.length) : BOk pb.B tj.S.length := by
  obtain ⟨w, hw, _, hBw⟩ := h.hB
  rw [hBw]
  exact (h0.bok_push.filter (h.rel.pos_nonneg hw).1).mono (by omega) hlen

theorem pathPop_spec (n : Nat) (c : Int) (S0 : List Nat) (hc : (S0.length : Int) < c) :
    ∀ (seg : List Nat) (I : List Int) (scc : List Nat), n ∉ seg → n < I.length →
      (∀ u, u ∈ seg → u < I.length) → I.getD n 0 = (S0.length : Int) →
      ∃ I1, pathPop n c (seg ++ n :: S0) I scc = .ok (S0, I1, scc ++ seg ++ [n]) ∧
        I1.length = I.length ∧ (∀ u, u ∈ seg ∨ u = n → I1.getD u 0 = c) ∧
        (∀ u, u ∉ seg → u ≠ n → I1.getD u 0 = I.getD u 0) := by
  intro seg
  induction seg with
  | nil =>
    intro I scc _ hn _ hIn
    refine ⟨I.set n c, ?_, by simp, ?_, ?_⟩
    · rw [List.nil_append, pathPop, idx_int_getD hn]
      simp only []
      rw [hIn, if_pos (by simp only [List.length_cons, Nat.cast_add, Nat.cast_one]; omega),
        if_pos hn]
      have hn2 : n < (I.set n c).length := by rw [List.length_set]; exact hn
      cases S0 with
      | nil =>
        rw [pathPop, idx_int_getD hn2, getD_set_int_eq _ _ _ hn]
        simp only []
        rw [if_neg (by simp only [List.length_nil, Nat.cast_zero] at hc; omega)]
        simp
      | cons w S1 =>
        rw [pathPop, idx_int_getD hn2, getD_set_int_eq _ _ _ hn]
        simp only []
        rw [if_neg (by omega)]
        simp
    · intro u hu
      rcases hu with hu | hu
      · cases hu
      · rw [hu]; exact getD_set_int_eq _ _ _ hn
    · intro u _ hu
      exact getD_set_int_ne _ _ _ _ (Ne.symm hu)
  | cons w seg ih =>
    intro I scc hnseg hn hlt hIn
    have hwn : w ≠ n := fun e => hnseg (e ▸ List.mem_cons_self _ _)
    have hn2 : n ∉ seg := fun e => hnseg (List.mem_cons_of_mem _ e)
    have hw : w < I.length := hlt w (List.mem_cons_self _ _)
    obtain ⟨I1, e1, e2, e3, e4⟩ := ih (I.set w c) (scc ++ [w]) hn2
      (by rw [List.length_set]; exact hn)
      (fun u hu => by rw [List.length_set]; exact hlt u (List.mem_cons_of_mem _ hu))
      (by rw [getD_set_int_ne _ _ _ _ hwn]; exact hIn)
    refine ⟨I1, ?_, by rw [e2, List.length_set], ?_, ?_⟩
    · rw [List.cons_append, pathPop, idx_int_getD hn]
      simp only []
      rw [hIn, if_pos (by
        simp only [List.length_cons, List.length_append, Nat.cast_add, Nat.cast_one]; omega),
        if_pos hw, e1]
      simp
    · intro u hu
      rcases hu with hu | hu
      · rcases List.mem_cons.1 hu with e | e
        · by_cases hws : w ∈ seg
          · rw [e]; exact e3 w (Or.inl hws)
          · rw [e, e4 w hws hwn]
            exact getD_set_int_eq _ _ _ hw
        · exact e3 u (Or.inl e)
      · exact e3 u (Or.inr hu)
    · intro u hu hun
      have hu1 : u ∉ seg := fun e => hu (List.mem_cons_of_mem _ e)
      have hu2 : w ≠ u := fun e => hu (e ▸ List.mem_cons_self _ _)
      rw [e4 u hu1 hun]
      exact getD_set_int_ne _ _ _ _ hu2

/-- The loops over the successors of `n` in `sc(n)` and in `df(n)`, side by side. -/
theorem pb_arcs (g : AdjacencyList) (hg : InRange g)
    (callT : Nat → TState → Except Fault (Bool × TState))
    (callB : Nat → BState → Except Fault BState) (fuel : Nat)
    (hcall : ∀ m tj pb, TWf g tj → PBRel g tj pb → BOk pb.B tj.S.length → m < g.length →
      Bit tj.indexed m = false → (∀ v, v ∈ tj.S → Reach g v m) →
      whites g tj.indexed ≤ fuel →
      ∃ tj1 pb1, callT m tj = .ok (true, tj1) ∧ callB m pb = .ok pb1 ∧
        ScPost g m tj tj1 ∧ PBRel g tj1 pb1 ∧ PBPost m tj tj1 pb pb1)
    (n : Nat) (tj0 : TState) (pb0 : BState) (hnlt : n < g.length)
    (hpre : ∀ v, v ∈ tj0.S → Reach g v n) (hS0 : pb0.S = tj0.S)
    (hB0 : BOk pb0.B pb0.S.length) :
    ∀ (rest done : List Nat) (tj : TState) (pb : BState), (∀ w, w ∈ rest → Arc g n w) →
      ScLoopInv g n tj0 done tj → PBLoop g n pb0 tj pb → whites g tj.indexed ≤ fuel →
      ∃ tj1 pb1, scLoop callT n rest tj = .ok (true, tj1) ∧
        pathArcs callB rest pb = .ok pb1 ∧
        ScLoopInv g n tj0 (done ++ rest) tj1 ∧ PBLoop g n pb0 tj1 pb1 := by
  intro rest
  induction rest with
  | nil =>
    intro done tj pb _ hT hL _
    exact ⟨tj, pb, rfl, rfl, by rw [List.append_nil]; exact hT, hL⟩
  | cons w rest ih =>
    intro done tj pb harcs hT hL hw
    have harc : Arc g n w := harcs w (List.mem_cons_self _ _)
    have harcs2 : ∀ x, x ∈ rest → Arc g n x := fun x hx => harcs x (List.mem_cons_of_mem _ hx)
    have hcons : done ++ w :: rest = (done ++ [w]) ++ rest := by simp
    have hwlt : w < g.length := Arc.lt_right hg harc
    have hwl : w < pb.I.length := by rw [hL.rel.hI]; exact hwlt
    have hnl : n < tj.lowlink.length := by rw [hT.wf.hlow]; exact hnlt
    obtain ⟨seg, s1, s2, s3, s4⟩ := hT.stack
    have hlen : pb0.S.length + 1 ≤ tj.S.length := by
      rw [hS0, s1]
      simp only [List.length_append, List.length_cons]
      omega
    have hbok := hL.bok hB0 hlen
    rw [hcons]
    by_cases hi : Bit tj.indexed w = false
    · have hneg : pb.I.getD w 0 < 0 := (hL.rel.hwhite w hwlt).2 hi
      obtain ⟨tj1, pb1, hcT, hcB, hpT, hrel1, hpost⟩ := hcall w tj pb hT.wf hL.rel hbok hwlt hi
        (fun v hv => Reach.trans (hT.reachS hpre v hv) harc.reach) hw
      have hinvT := hT.after_call hpre hnlt harc hi hpT
      obtain ⟨segw, t1, _⟩ := hpT.stack
      obtain ⟨x, hx, hlx, hBx⟩ := hL.hB
      have hx1 : x ∈ tj1.S := by rw [t1]; exact List.mem_append_right _ hx
      have hlx1 : tj1.lowlink.getD n 0 = tj1.index.getD x 0 := by
        rw [hpT.keepL n hT.hn, hpT.keepI x (hT.wf.hSi x hx)]
        exact hlx
      have hBx1 : pb.B = ((pb0.S.length : Int) :: pb0.B).filter
          (fun b => decide (b ≤ pb1.I.getD x 0)) := by
        rw [hL.rel.pos_keep hrel1 t1 hx]
        exact hBx
      have hLm : PBLoop g n pb0 tj1 { pb1 with B := pb.B } :=
        ⟨hrel1.pb_of_eq rfl rfl rfl rfl rfl rfl rfl rfl rfl, ⟨x, hx1, hlx1, hBx1⟩⟩
      have hL2 : PBLoop g n pb0 (lowerLink tj1 n (tj1.lowlink.getD w 0)) pb1 := by
        rcases hpost with ⟨_, r2, r3⟩ | ⟨u, hu, hlu, hBu⟩
        · have hsame : lowerLink tj1 n (tj1.lowlink.getD w 0) = tj1 := by
            unfold lowerLink
            rw [if_neg]
            rw [r2, hpT.keepL n hT.hn]
            have := hT.hlowle
            have := hT.hx
            omega
          rw [hsame]
          exact ⟨hrel1, ⟨x, hx1, hlx1, by rw [r3]; exact hBx1⟩⟩
        · rw [hlu]
          exact hLm.pb_lower (by rw [hpT.wf.hlow]; exact hnlt)
            (by rw [t1]; exact List.mem_append_right _ hu) hBu rfl rfl rfl rfl
      obtain ⟨tj2, pb2, e1, e2, e3, e4⟩ := ih (done ++ [w]) _ _ harcs2 hinvT hL2 (by
        rw [lowerLink_indexed]
        exact le_trans (whites_mono g hpT.mono) hw)
      refine ⟨tj2, pb2, ?_, ?_, e3, e4⟩
      · rw [scLoop, if_pos hi, hcT]
        exact e1
      · rw [pathArcs, idx_int_getD hwl]
        simp only []
        rw [if_pos hneg, hcB]
        exact e2
    · have hi1 : Bit tj.indexed w = true := by
        cases hb : Bit tj.indexed w
        · exact absurd hb hi
        · rfl
      have hnneg : ¬ pb.I.getD w 0 < 0 := fun h => hi ((hL.rel.hwhite w hwlt).1 h)
      have hzero : (0 : Int) ∈ pb.B := hbok.2.2 (by omega)
      by_cases hs : Bit tj.stacked w = true
      · have hwS : w ∈ tj.S := (hT.wf.hstk w).1 hs
        have htrim := pathTrim_eq_filter (pb.I.getD w 0) pb.B hbok.1
          ⟨0, hzero, (hL.rel.pos_nonneg hwS).1⟩
        have hlow := hT.lower hnlt (tj.index.getD w 0)
          (fun _ => ⟨w, hwS, rfl, harc.reach⟩)
        have hinvT : ScLoopInv g n tj0 (done ++ [w]) (lowerLink tj n (tj.index.getD w 0)) := by
          apply hlow.snoc w
          · rw [lowerLink_indexed]; exact hi1
          · intro _
            rw [lowerLink_eq _ _ _ hnl, lowerLink_index]
            exact Nat.min_le_right _ _
        have hL2 : PBLoop g n pb0 (lowerLink tj n (tj.index.getD w 0))
            { pb with B := pb.B.filter (fun b => decide (b ≤ pb.I.getD w 0)) } :=
          hL.pb_lower hnl hwS rfl rfl rfl rfl rfl
        obtain ⟨tj2, pb2, e1, e2, e3, e4⟩ := ih (done ++ [w]) _ _ harcs2 hinvT hL2
          (by rw [lowerLink_indexed]; exact hw)
        refine ⟨tj2, pb2, ?_, ?_, e3, e4⟩
        · rw [scLoop, if_neg hi, if_pos hs]
          exact e1
        · rw [pathArcs, idx_int_getD hwl]
          simp only []
          rw [if_neg hnneg, htrim]
          exact e2
      · have hbig := hL.rel.hdone w hi1 hs
        have hSl := Slength_le hT.wf
        have hself : pb.B.filter (fun b => decide (b ≤ pb.I.getD w 0)) = pb.B := by
          rw [List.filter_eq_self]
          intro b hb
          have := (hbok.2.1 b hb).2
          simp only [decide_eq_true_eq]
          omega
        have htrim := pathTrim_eq_filter (pb.I.getD w 0) pb.B hbok.1 ⟨0, hzero, by omega⟩
        rw [hself] at htrim
        have hinvT : ScLoopInv g n tj0 (done ++ [w]) tj := by
          apply hT.snoc w hi1
          intro h0
          exfalso
          apply hs
          rw [hT.wf.hstk, s1]
          exact List.mem_append_right _ (List.mem_cons_of_mem _ h0)
        obtain ⟨tj2, pb2, e1, e2, e3, e4⟩ := ih (done ++ [w]) _ _ harcs2 hinvT hL hw
        refine ⟨tj2, pb2, ?_, ?_, e3, e4⟩
        · rw [scLoop, if_neg hi, if_neg hs]
          exact e1
        · rw [pathArcs, idx_int_getD hwl]
          simp only []
          rw [if_neg hnneg, htrim]
          exact e2

theorem PBRel.pb_enter {g : AdjacencyList} {tj : TState} {pb : BState} {n : Nat}
    (h : PBRel g tj pb) (hwf : TWf g tj) (hn : n < g.length) (hi : Bit tj.indexed n = false) :
    PBRel g
      { index := tj.index.set n tj.x, lowlink := tj.lowlink.set n tj.x,
        indexed := SetBit tj.indexed n true, stacked := SetBit tj.stacked n true,
        x := tj.x + 1, S := n :: tj.S, log := tj.log }
      { pb with I := pb.I.set n (pb.S.length : Int), B := (pb.S.length : Int) :: pb.B,
                S := n :: pb.S } := by
  have hne : ∀ v, Bit tj.indexed v = true → v ≠ n := by
    intro v hv e
    rw [e, hi] at hv
    cases hv
  have hnS : ∀ v, v ∈ tj.S → v ≠ n := fun v hv => hne v (hwf.hSi v hv)
  have hnl : n < pb.I.length := by rw [h.hI]; exact hn
  refine ⟨?_, h.hlog, ?_, h.hc, ?_, ?_, ?_, ?_⟩
  · show n :: pb.S = n :: tj.S
    rw [h.hS]
  · show (pb.I.set n (pb.S.length : Int)).length = g.length
    rw [List.length_set]; exact h.hI
  · intro v hv
    show (pb.I.set n (pb.S.length : Int)).getD v 0 < 0 ↔ Bit (SetBit tj.indexed n true) v = false
    rw [Bit_SetBit_true]
    by_cases e : v = n
    · subst e
      rw [getD_set_int_eq _ _ _ hnl]
      simp only [decide_True, Bool.or_true]
      constructor
      · intro h1; omega
      · intro h1; cases h1
    · have e2 : ¬ n = v := fun h => e h.symm
      rw [getD_set_int_ne _ _ _ _ e2]
      simp only [e2, decide_False, Bool.or_false]
      exact h.hwhite v hv
  · intro l1 v l2 e
    show (pb.I.set n (pb.S.length : Int)).getD v 0 = _
    cases l1 with
    | nil =>
      simp only [List.nil_append, List.cons.injEq] at e
      rw [← e.1, getD_set_int_eq _ _ _ hnl, h.hS, e.2]
    | cons a l1 =>
      simp only [List.cons_append, List.cons.injEq] at e
      have hv : v ∈ tj.S := by rw [e.2]; simp
      rw [getD_set_int_ne _ _ _ _ (fun e2 => hnS v hv e2.symm)]
      exact h.hpos _ _ _ e.2
  · intro v hv hs
    change Bit (SetBit tj.indexed n true) v = true at hv
    change ¬ Bit (SetBit tj.stacked n true) v = true at hs
    show _ ≤ (pb.I.set n (pb.S.length : Int)).getD v 0
    rw [Bit_SetBit_true] at hv hs
    simp only [Bool.or_eq_true, decide_eq_true_eq, not_or] at hv hs
    rw [getD_set_int_ne _ _ _ _ hs.2]
    rcases hv with hv | hv
    · exact h.hdone v hv hs.1
    · exact absurd hv hs.2
  · show (n :: tj.S).Pairwise
      (fun a b => (tj.index.set n tj.x).getD b 0 < (tj.index.set n tj.x).getD a 0)
    have hilen : n < tj.index.length := by rw [hwf.hidx]; exact hn
    refine List.pairwise_cons.2 ⟨?_, ?_⟩
    · intro b hb
      rw [getD_set_eq _ _ _ _ hilen, getD_set_ne _ _ _ _ _ (fun e => hnS b hb e.symm)]
      exact hwf.hix b (hwf.hSi b hb)
    · apply h.hsort.imp_of_mem
      intro a b ha hb hab
      rw [getD_set_ne _ _ _ _ _ (fun e => hnS b hb e.symm),
        getD_set_ne _ _ _ _ _ (fun e => hnS a ha e.symm)]
      exact hab

/-- The closures `sc` and `df` side by side: from related variables both return, with
related variables. -/
theorem pb_visit (g : AdjacencyList) (hg : InRange g) :
    ∀ (fuel : Nat) (n : Nat) (tj : TState) (pb : BState), TWf g tj → PBRel g tj pb →
      BOk pb.B tj.S.length → n < g.length → Bit tj.indexed n = false →
      (∀ v, v ∈ tj.S → Reach g v n) → whites g tj.indexed ≤ fuel →
      ∃ tj1 pb1, sc g emitAll fuel n tj = .ok (true, tj1) ∧
        pathDf g emitAll fuel n pb = .ok pb1 ∧
        ScPost g n tj tj1 ∧ PBRel g tj1 pb1 ∧ PBPost n tj tj1 pb pb1 := by
  intro fuel
  induction fuel with
  | zero =>
    intro n tj pb _ _ _ hn hni _ hw
    exfalso
    have := whites_lt g (a := tj.indexed) (b := SetBit tj.indexed n true) (n := n)
      (fun v hv => by rw [Bit_SetBit_true, hv]; rfl) hn hni (by rw [Bit_SetBit_true]; simp)
    omega
  | succ fuel ih =>
    intro n tj pb hwf hrel hbok hn hi hpre hw
    have hw1 : whites g (SetBit tj.indexed n true) ≤ fuel := by
      have := whites_lt g (a := tj.indexed) (b := SetBit tj.indexed n true) (n := n)
        (fun v hv => by rw [Bit_SetBit_true, hv]; rfl) hn hi (by rw [Bit_SetBit_true]; simp)
      omega
    have hnl : n < pb.I.length := by rw [hrel.hI]; exact hn
    have hSlen : pb.S.length = tj.S.length := by rw [hrel.hS]
    have hinvT := ScLoopInv.enter hwf hn hi
    have hrelE := hrel.pb_enter hwf hn hi
    have hLE : PBLoop g n pb
        { index := tj.index.set n tj.x, lowlink := tj.lowlink.set n tj.x,
          indexed := SetBit tj.indexed n true, stacked := SetBit tj.stacked n true,
          x := tj.x + 1, S := n :: tj.S, log := tj.log }
        { pb with I := pb.I.set n (pb.S.length : Int), B := (pb.S.length : Int) :: pb.B,
                  S := n :: pb.S } := by
      refine ⟨hrelE, n, List.mem_cons_self _ _, ?_, ?_⟩
      · show (tj.lowlink.set n tj.x).getD n 0 = (tj.index.set n tj.x).getD n 0
        rw [getD_set_eq _ _ _ _ (by rw [hwf.hlow]; exact hn),
          getD_set_eq _ _ _ _ (by rw [hwf.hidx]; exact hn)]
      · show (pb.S.length : Int) :: pb.B = List.filter
          (fun b => decide (b ≤ (pb.I.set n (pb.S.length : Int)).getD n 0))
          ((pb.S.length : Int) :: pb.B)
        symm
        rw [List.filter_eq_self, getD_set_int_eq _ _ _ hnl]
        intro b hb
        simp only [decide_eq_true_eq]
        rcases List.mem_cons.1 hb with e | e
        · rw [e]
        · have := (hbok.2.1 b e).2
          omega
    obtain ⟨tj2, pb2, e1, e2, e3, e4⟩ := pb_arcs g hg (sc g emitAll fuel)
      (pathDf g emitAll fuel) fuel ih n tj pb hn hpre hrel.hS (by rw [hSlen]; exact hbok)
      (g.getD n []) [] _ _ (fun w hw => hw) hinvT hLE hw1
    rw [List.nil_append] at e3
    obtain ⟨w, hwS, hlw, hBw⟩ := e4.hB
    obtain ⟨segT, s1, s2, s3, s4⟩ := e3.stack
    have hnS2 : n ∈ tj2.S := by rw [s1]; simp
    have hIn : pb2.I.getD n 0 = (tj.S.length : Int) := e4.rel.hpos segT n tj.S s1
    have hnl2 : n < pb2.I.length := by rw [e4.rel.hI]; exact hn
    have hndT := e3.wf.hnd
    rw [s1] at hndT
    have hnseg : n ∉ segT := fun e =>
      (List.nodup_append.1 hndT).2.2 e (List.mem_cons_self _ _)
    by_cases hroot : tj2.lowlink.getD n 0 = tj2.index.getD n 0
    · have hIw : pb2.I.getD w 0 = (tj.S.length : Int) := by
        have h1 := (e4.rel.stack_pos_le hwS hnS2).1 (by omega)
        have h2 := (e4.rel.stack_pos_le hnS2 hwS).1 (by omega)
        omega
      have hB2 : pb2.B = (pb.S.length : Int) :: pb.B := by
        rw [hBw, List.filter_eq_self, hIw]
        intro b hb
        simp only [decide_eq_true_eq]
        rcases List.mem_cons.1 hb with e | e
        · rw [e, hSlen]
        · have := (hbok.2.1 b e).2
          omega
      obtain ⟨stk, c, p1, p2⟩ := e3.exit_root hwf (fun w hw => hw) hroot
      obtain ⟨stk1, hpop, _⟩ := scPop_spec n tj.S segT tj2.stacked [] hnseg
      have hc : c = segT ++ [n] := by
        rw [s1, hpop] at p1
        injection p1 with p1
        injection p1 with _ p1
        injection p1 with _ p1
        rw [← p1]
        simp
      have hSl2 := Slength_le e3.wf
      have hlen2 : tj2.S.length = segT.length + (tj.S.length + 1) := by
        rw [s1]; simp
      obtain ⟨I1, q1, q2, q3, q4⟩ := pathPop_spec n pb2.c tj.S (by
          have := e4.rel.hc
          omega) segT pb2.I [] hnseg hnl2
        (fun u hu => by
          rw [e4.rel.hI]
          exact e3.wf.hlt u (e3.wf.hSi u (by rw [s1]; exact List.mem_append_left _ hu)))
        hIn
      refine ⟨_,
        { S := tj.S, B := pb.B, I := I1, c := pb2.c + 1,
          log := pb2.log ++ [[] ++ segT ++ [n]] }, ?_, ?_, p2, ?_, ?_⟩
      · rw [sc, idx_eq_getD hn]
        simp only []
        rw [e1]
        simp only []
        rw [if_pos hroot, p1]
        rfl
      · rw [pathDf, if_pos hnl, idx_eq_getD hn]
        simp only []
        rw [e2]
        simp only []
        rw [hB2, idx_int_getD hnl2]
        simp only []
        rw [hIn, hSlen, if_pos rfl, e4.rel.hS, s1, q1]
      · refine ⟨rfl, ?_, by show I1.length = g.length; rw [q2]; exact e4.rel.hI, ?_, ?_, ?_, ?_,
          ?_⟩
        · show pb2.log ++ [[] ++ segT ++ [n]] = tj2.log ++ [c]
          rw [e4.rel.hlog, hc]
          simp
        · show (g.length : Int) ≤ pb2.c + 1
          have := e4.rel.hc
          omega
        · intro v hv
          show I1.getD v 0 < 0 ↔ Bit tj2.indexed v = false
          by_cases hm : v ∈ segT ∨ v = n
          · rw [q3 v hm]
            have hvS : v ∈ tj2.S := by
              rw [s1]
              rcases hm with h | h
              · exact List.mem_append_left _ h
              · rw [h]; simp
            rw [e3.wf.hSi v hvS]
            have := e4.rel.hc
            constructor
            · intro h1; omega
            · intro h1; cases h1
          · rw [q4 v (fun h => hm (Or.inl h)) (fun h => hm (Or.inr h))]
            exact e4.rel.hwhite v hv
        · intro l1 v l2 e
          show I1.getD v 0 = _
          have hv : v ∈ tj.S := by rw [e]; simp
          have hv1 : v ∉ segT := fun h =>
            (List.nodup_append.1 hndT).2.2 h (List.mem_cons_of_mem _ hv)
          have hv2 : v ≠ n := fun h =>
            (List.nodup_cons.1 (List.nodup_append.1 hndT).2.1).1 (h ▸ hv)
          rw [q4 v hv1 hv2]
          exact e4.rel.hpos (segT ++ n :: l1) v l2 (by rw [s1, e]; simp)
        · intro v hv hs
          change Bit tj2.indexed v = true at hv
          change ¬ Bit stk v = true at hs
          show _ ≤ I1.getD v 0
          have hvS : v ∉ tj.S := fun h => hs ((p2.wf.hstk v).2 h)
          by_cases hm : v ∈ segT ∨ v = n
          · rw [q3 v hm]
            exact e4.rel.hc
          · rw [q4 v (fun h => hm (Or.inl h)) (fun h => hm (Or.inr h))]
            apply e4.rel.hdone v hv
            intro hst
            have := (e3.wf.hstk v).1 hst
            rw [s1] at this
            rcases List.mem_append.1 this with h | h
            · exact hm (Or.inl h)
            · rcases List.mem_cons.1 h with h | h
              · exact hm (Or.inr h)
              · exact hvS h
        · show tj.S.Pairwise (fun a b => tj2.index.getD b 0 < tj2.index.getD a 0)
          have := e4.rel.hsort
          rw [s1] at this
          exact (List.pairwise_cons.1 (List.pairwise_append.1 this).2.1).2
      · left
        refine ⟨rfl, ?_, rfl⟩
        show tj2.lowlink.getD n 0 = tj.x
        rw [hroot]
        exact e3.hnidx
    · have hlt : tj2.index.getD w 0 < tj2.index.getD n 0 := by
        have h1 := e3.hlowle
        have h2 := e3.hnidx
        omega
      have hIlt : pb2.I.getD w 0 < (tj.S.length : Int) := by
        rw [← hIn]
        exact (e4.rel.stack_pos_lt hwS hnS2).1 hlt
      have hw0 : w ∈ tj.S := by
        rw [s1] at hwS
        rcases List.mem_append.1 hwS with h | h
        · have h1 := s2 w h
          have h2 := e3.hnidx
          omega
        · rcases List.mem_cons.1 h with h | h
          · rw [h] at hlt; omega
          · exact h
      have hB2 : pb2.B = pb.B.filter (fun b => decide (b ≤ pb2.I.getD w 0)) := by
        rw [hBw, List.filter_cons_of_neg]
        simp only [decide_eq_true_eq]
        omega
      have hpos : 0 < tj.S.length := List.length_pos_of_mem hw0
      have h0mem : (0 : Int) ∈ pb2.B := by
        rw [hB2]
        exact List.mem_filter.2 ⟨hbok.2.2 hpos, by
          simpa using (e4.rel.pos_nonneg hwS).1⟩
      refine ⟨tj2, pb2, ?_, ?_, e3.exit_nonroot (fun w hw => hw) hroot, e4.rel, ?_⟩
      · rw [sc, idx_eq_getD hn]
        simp only []
        rw [e1]
        simp only []
        rw [if_neg hroot]
      · rw [pathDf, if_pos hnl, idx_eq_getD hn]
        simp only []
        rw [e2]
        simp only []
        rw [idx_int_getD hnl2]
        cases hB : pb2.B with
        | nil => rw [hB] at h0mem; cases h0mem
        | cons b B =>
          simp only []
          have hb : b ∈ pb2.B := by rw [hB]; exact List.mem_cons_self _ _
          rw [hB2] at hb
          have := (List.mem_filter.1 hb).2
          simp only [decide_eq_true_eq] at this
          rw [if_neg (by omega)]
      · right
        exact ⟨w, hw0, hlw, hB2⟩

/-- The main loops of `SCCTarjan` and `SCCPathBased` side by side. -/
theorem pb_loop (g : AdjacencyList) (hg : InRange g) (fuel : Nat) (hfuel : g.length ≤ fuel) :
    ∀ (nodes : List Nat) (tj : TState) (pb : BState), TWf g tj → PBRel g tj pb →
      tj.S = [] → pb.B = [] → (∀ v, v ∈ nodes → v < g.length) →
      ∃ tj1 pb1, tarjanLoop g emitAll fuel nodes tj = .ok tj1 ∧
        pathLoop g emitAll fuel nodes pb = .ok pb1 ∧ PBRel g tj1 pb1 := by
  intro nodes
  induction nodes with
  | nil =>
    intro tj pb _ hrel _ _ _
    exact ⟨tj, pb, rfl, rfl, hrel⟩
  | cons n rest ih =>
    intro tj pb hwf hrel hS hB hlt
    have hrest : ∀ v, v ∈ rest → v < g.length := fun v hv => hlt v (List.mem_cons_of_mem _ hv)
    have hn : n < g.length := hlt n (List.mem_cons_self _ _)
    by_cases hi : Bit tj.indexed n = false
    · have hneg : pb.I.getD n 0 < 0 := (hrel.hwhite n hn).2 hi
      have hbok : BOk pb.B tj.S.length := by
        rw [hB, hS]
        refine ⟨List.Pairwise.nil, ?_, ?_⟩
        · intro b hb
          cases hb
        · intro h
          exact absurd h (Nat.lt_irrefl 0)
      obtain ⟨tj1, pb1, e1, e2, hpT, hrel1, hpost⟩ := pb_visit g hg fuel n tj pb hwf hrel hbok
        hn hi (fun v hv => by rw [hS] at hv; cases hv) (le_trans (whites_le g _) hfuel)
      have hS1 : tj1.S = [] := by
        obtain ⟨seg, t1, _, _, t4, _⟩ := hpT.stack
        rcases t4 with ⟨e, _⟩ | ⟨_, w, hw, _⟩
        · rw [t1, e, hS]; rfl
        · rw [hS] at hw; cases hw
      have hB1 : pb1.B = [] := by
        rcases hpost with ⟨_, _, r3⟩ | ⟨u, hu, _, _⟩
        · rw [r3, hB]
        · rw [hS] at hu; cases hu
      obtain ⟨tj2, pb2, f1, f2, f3⟩ := ih tj1 pb1 hpT.wf hrel1 hS1 hB1 hrest
      refine ⟨tj2, pb2, ?_, ?_, f3⟩
      · rw [tarjanLoop, if_pos hi, e1]
        exact f1
      · rw [pathLoop, if_pos hneg, e2]
        exact f2
    · have hnneg : ¬ pb.I.getD n 0 < 0 := fun h => hi ((hrel.hwhite n hn).1 h)
      obtain ⟨tj2, pb2, f1, f2, f3⟩ := ih tj pb hwf hrel hS hB hrest
      refine ⟨tj2, pb2, ?_, ?_, f3⟩
      · rw [tarjanLoop, if_neg hi]
        exact f1
      · rw [pathLoop, if_neg hnneg]
        exact f2

theorem getD_replicate_neg (k v : Nat) (h : v < k) :
    (List.replicate k (-1 : Int)).getD v 0 = -1 := by
  rw [List.getD_eq_getElem _ _ (by simpa using h)]
  simp

/-- `SCCPathBased` emits the very lists that `SCCTarjan` emits, in the same order. -/
theorem SCCTarjan_SCCPathBased (g : AdjacencyList) (hg : InRange g) (fuel : Nat)
    (hfuel : g.length ≤ fuel) :
    ∃ ct, SCCTarjan fuel g emitAll = .ok ct ∧ SCCPathBased fuel g emitAll = .ok ct := by
  have hrel : PBRel g (tarjanInit g)
      { S := [], B := [], I := List.replicate g.length (-1), c := (g.length : Int),
        log := [] } := by
    refine ⟨rfl, rfl, by simp, le_refl _, ?_, ?_, ?_, List.Pairwise.nil⟩
    · intro v hv
      show (List.replicate g.length (-1 : Int)).getD v 0 < 0 ↔ Bit 0 v = false
      rw [getD_replicate_neg _ _ hv, Bit_zero]
      simp
    · intro l1 v l2 e
      change [] = l1 ++ v :: l2 at e
      simp at e
    · intro v hv
      change Bit 0 v = true at hv
      rw [Bit_zero] at hv
      cases hv
  obtain ⟨tj, pb, e1, e2, e3⟩ := pb_loop g hg fuel hfuel (List.range g.length) (tarjanInit g)
    _ (TWf.tarjan_init g) hrel rfl rfl (fun v hv => List.mem_range.1 hv)
  refine ⟨tj.log, by rw [SCCTarjan, e1]; rfl, ?_⟩
  rw [SCCPathBased, e2, ← e3.hlog]
  rfl

/-! ## Maximal cliques -/

/-- C4: on a simple undirected graph `g`, with `emit` always returning true and
enough fuel, `BronKerbosch1` returns after calling `emit` exactly once for each
maximal clique of `g` and for nothing else: every emitted list is an ascending list
of nodes whose node set is a maximal clique, every maximal clique is the node set of
an emitted list, and no two emitted lists have the same node set. -/
theorem BronKerbosch1_emits_maximal_cliques (g : AdjacencyList) (hg : Simple g)
    (fuel : Nat) (hfuel : g.length < fuel) :
    ∃ cs, BronKerbosch1 fuel g emitAll = .ok cs ∧
      (∀ c ∈ cs, c.Pairwise (· < ·) ∧ (∀ x ∈ c, 0 ≤ x) ∧ IsMaximalClique g (nodesOf c)) ∧
      (∀ S : Nat → Prop, IsMaximalClique g S → ∃ c ∈ cs, ∀ v, nodesOf c v ↔ S v) ∧
      cs.Pairwise (fun c d => ¬ ∀ v, nodesOf c v ↔ nodesOf d v) := by
  obtain ⟨cs, h1, h2, h3⟩ := BronKerbosch1_spec g hg fuel hfuel
  exact ⟨cs, h1, maximal_cliques_of_spec h2 h3⟩

theorem BronKerbosch1_emits_maximal_cliques_witness :
    Simple [[1, 2], [0, 2], [0, 1, 3], [2]] ∧
    ∃ cs, BronKerbosch1 5 [[1, 2], [0, 2], [0, 1, 3], [2]] emitAll = .ok cs ∧
      (∀ c ∈ cs, c.Pairwise (· < ·) ∧ (∀ x ∈ c, 0 ≤ x) ∧
        IsMaximalClique [[1, 2], [0, 2], [0, 1, 3], [2]] (nodesOf c)) ∧
      (∀ S : Nat → Prop, IsMaximalClique [[1, 2], [0, 2], [0, 1, 3], [2]] S →
        ∃ c ∈ cs, ∀ v, nodesOf c v ↔ S v) ∧
      cs.Pairwise (fun c d => ¬ ∀ v, nodesOf c v ↔ nodesOf d v) :=
  ⟨by decide,
    BronKerbosch1_emits_maximal_cliques [[1, 2], [0, 2], [0, 1, 3], [2]] (by decide) 5
      (by decide)⟩

/-- C6: on the simple graph with one node and no edge, `BronKerbosch1` emits the
clique of node 0, while `BronKerbosch3` emits nothing, for any fuel, pivot function
and `emit`: its call of `Degeneracy` fails, indexing the empty slice `cores`. -/
theorem BronKerbosch3_fails_on_edgeless_graph (fuel : Nat) (pivot : Pivot)
    (emit : Emit Int) :
    Simple [[]] ∧ BronKerbosch1 2 [[]] emitAll = .ok [[0]] ∧
    Degeneracy [[]] = .error .index ∧
    BronKerbosch3 fuel [[]] pivot emit = .error .index :=
  ⟨by decide, by decide, by decide, rfl⟩

/-! ## Degeneracy -/

/-- C7: on a simple undirected graph `g` on which `Degeneracy` returns
`(k, ordering, cores)`, `k` is the maximum over the positions `i` of the number of
neighbours of `ordering[i]` among the nodes `ordering[i+1:]`: no position has more,
and some position has exactly `k`. -/
theorem Degeneracy_k_is_max_removal_degree (g : AdjacencyList) (hg : Simple g) (k : Nat)
    (ordering cores : List Nat) (h : Degeneracy g = .ok (k, ordering, cores)) :
    (∀ i, i < ordering.length →
      degreeIn g (ordering.getD i 0) (ordering.drop (i + 1)) ≤ k) ∧
    (∃ i, i < ordering.length ∧
      degreeIn g (ordering.getD i 0) (ordering.drop (i + 1)) = k) := by
  obtain ⟨s, hs, hk, hord⟩ := Degeneracy_outer hg h
  subst hk; subst hord
  have hlen := hs.hlen
  have htake : s.ordering.take g.length = s.ordering := by
    rw [← hlen]; exact List.take_length _
  have hnd : s.ordering.Nodup := htake ▸ hs.hnodup
  have hperm : s.ordering.Perm (List.range g.length) :=
    perm_range_of_nodup hnd (fun v hv => hs.hlt v (by rw [htake]; exact hv)) hlen
  have hdeg : ∀ i, i < s.ordering.length →
      degreeIn g (s.ordering.getD i 0) (s.ordering.drop (i + 1))
        = outDeg g (s.ordering.getD i 0) (s.ordering.take i) := by
    intro i hi
    rw [degreeIn_drop hg hperm, outDeg_take_succ hg hnd hlen hi]
  have hle : ∀ i, i < s.ordering.length →
      degreeIn g (s.ordering.getD i 0) (s.ordering.drop (i + 1)) ≤ s.k := by
    intro i hi
    rw [hdeg i hi]
    exact hs.hk1 i (by omega)
  refine ⟨hle, ?_⟩
  rcases hs.hk2 with h0 | ⟨t, ht, h0⟩
  · have hpos : 0 < g.length := by
      cases g with
      | nil =>
        have e : Degeneracy [] = .error .index := rfl
        rw [e] at h
        cases h
      | cons a l => simp
    refine ⟨0, by omega, ?_⟩
    have := hle 0 (by omega)
    omega
  · exact ⟨t, by omega, by rw [hdeg t (by omega)]; exact h0⟩

theorem Degeneracy_k_is_max_removal_degree_witness :
    Simple [[1, 2], [0, 2], [0, 1, 3], [2]] ∧
    Degeneracy [[1, 2], [0, 2], [0, 1, 3], [2]] = .ok (2, [3, 2, 1, 0], [0, 1, 4]) ∧
    (∀ i, i < [3, 2, 1, 0].length →
      degreeIn [[1, 2], [0, 2], [0, 1, 3], [2]] ([3, 2, 1, 0].getD i 0)
        ([3, 2, 1, 0].drop (i + 1)) ≤ 2) ∧
    (∃ i, i < [3, 2, 1, 0].length ∧
      degreeIn [[1, 2], [0, 2], [0, 1, 3], [2]] ([3, 2, 1, 0].getD i 0)
        ([3, 2, 1, 0].drop (i + 1)) = 2) :=
  ⟨by decide, by decide,
    Degeneracy_k_is_max_removal_degree [[1, 2], [0, 2], [0, 1, 3], [2]] (by decide) 2
      [3, 2, 1, 0] [0, 1, 4] (by decide)⟩

/-- C8: on a simple undirected graph `g` on which `Degeneracy` returns
`(k, ordering, cores)`, `ordering` is a permutation of the nodes of `g`, and each
`ordering[i]` has minimum remaining degree at its removal: no node of
`ordering[i:]` has fewer neighbours among `ordering[i:]` than `ordering[i]` has. -/
theorem Degeneracy_ordering_min_remaining_degree (g : AdjacencyList) (hg : Simple g)
    (k : Nat) (ordering cores : List Nat) (h : Degeneracy g = .ok (k, ordering, cores)) :
    ordering.Perm (List.range g.length) ∧
    ∀ i, i < ordering.length → ∀ w ∈ ordering.drop i,
      degreeIn g (ordering.getD i 0) (ordering.drop i) ≤ degreeIn g w (ordering.drop i) := by
  obtain ⟨s, hs, hk, hord⟩ := Degeneracy_outer hg h
  subst hk; subst hord
  have hlen := hs.hlen
  have htake : s.ordering.take g.length = s.ordering := by
    rw [← hlen]; exact List.take_length _
  have hnd : s.ordering.Nodup := htake ▸ hs.hnodup
  have hperm : s.ordering.Perm (List.range g.length) :=
    perm_range_of_nodup hnd (fun v hv => hs.hlt v (by rw [htake]; exact hv)) hlen
  refine ⟨hperm, ?_⟩
  intro i hi w hw
  rw [degreeIn_drop hg hperm, degreeIn_drop hg hperm]
  have hwmem : w ∈ s.ordering := List.mem_of_mem_drop hw
  have hwlt : w < g.length := List.mem_range.1 (hperm.mem_iff.1 hwmem)
  exact hs.hmin i (by omega) w hwlt ((mem_drop_iff_not_mem_take hnd i hwmem).1 hw)

theorem Degeneracy_ordering_min_remaining_degree_witness :
    Simple [[1, 2], [0, 2], [0, 1, 3], [2]] ∧
    Degeneracy [[1, 2], [0, 2], [0, 1, 3], [2]] = .ok (2, [3, 2, 1, 0], [0, 1, 4]) ∧
    [3, 2, 1, 0].Perm (List.range [[1, 2], [0, 2], [0, 1, 3], [2]].length) ∧
    ∀ i, i < [3, 2, 1, 0].length → ∀ w ∈ [3, 2, 1, 0].drop i,
      degreeIn [[1, 2], [0, 2], [0, 1, 3], [2]] ([3, 2, 1, 0].getD i 0) ([3, 2, 1, 0].drop i)
        ≤ degreeIn [[1, 2], [0, 2], [0, 1, 3], [2]] w ([3, 2, 1, 0].drop i) :=
  ⟨by decide, by decide,
    Degeneracy_ordering_min_remaining_degree [[1, 2], [0, 2], [0, 1, 3], [2]] (by decide) 2
      [3, 2, 1, 0] [0, 1, 4] (by decide)⟩

/-! ## Strongly connected components -/

/-- C1: on a directed graph `g` whose arcs all lead to nodes of `g`, with `emit` always
returning true and enough fuel, `SCCTarjan` returns, and the emitted components
partition the node set: no component is empty and the components together hold
every node `0 .. order-1` exactly once; two nodes lie in the same emitted component
iff each is reachable from the other. -/
theorem SCCTarjan_components_partition_by_mutual_reachability (g : AdjacencyList)
    (hg : InRange g) (fuel : Nat) (hfuel : g.length ≤ fuel) :
    ∃ comps, SCCTarjan fuel g emitAll = .ok comps ∧
      comps.flatten.Perm (List.range g.length) ∧ (∀ c, c ∈ comps → c ≠ []) ∧
      ∀ u v, u < g.length → v < g.length →
        ((∃ c, c ∈ comps ∧ u ∈ c ∧ v ∈ c) ↔ (Reach g u v ∧ Reach g v u)) := by
  obtain ⟨comps, e, hperm, hne, hscc, htopo⟩ := SCCTarjan_spec g hg fuel hfuel
  exact ⟨comps, e, hperm, hne, fun u v hu _ => same_component_iff hperm hscc htopo hu⟩

theorem SCCTarjan_components_partition_by_mutual_reachability_witness :
    InRange [[1], [2], [1]] ∧ [[1], [2], [1]].length ≤ 3 ∧
    ∃ comps, SCCTarjan 3 [[1], [2], [1]] emitAll = .ok comps ∧
      comps.flatten.Perm (List.range [[1], [2], [1]].length) ∧ (∀ c, c ∈ comps → c ≠ []) ∧
      ∀ u v, u < [[1], [2], [1]].length → v < [[1], [2], [1]].length →
        ((∃ c, c ∈ comps ∧ u ∈ c ∧ v ∈ c) ↔
          (Reach [[1], [2], [1]] u v ∧ Reach [[1], [2], [1]] v u)) :=
  ⟨by decide, by decide,
    SCCTarjan_components_partition_by_mutual_reachability [[1], [2], [1]] (by decide) 3
      (by decide)⟩

/-- C2: on a directed graph `g` (arcs in range), with `emit` always returning true and
enough fuel, the components emitted by `SCCTarjan` hold every node once and are in
reverse topological order of the condensation: for every arc `u → v` of `g` whose
endpoints lie in different components, the component of `v` (position `j`) is emitted
before the component of `u` (position `i`). -/
theorem SCCTarjan_emits_in_reverse_topological_order (g : AdjacencyList) (hg : InRange g)
    (fuel : Nat) (hfuel : g.length ≤ fuel) :
    ∃ comps, SCCTarjan fuel g emitAll = .ok comps ∧
      comps.flatten.Perm (List.range g.length) ∧
      ∀ i j u v, u ∈ comps.getD i [] → v ∈ comps.getD j [] → Arc g u v → i ≠ j → j < i := by
  obtain ⟨comps, e, hperm, _, _, htopo⟩ := SCCTarjan_spec g hg fuel hfuel
  refine ⟨comps, e, hperm, ?_⟩
  intro i j u v hu hv huv hij
  obtain ⟨k, hk1, hk2⟩ := htopo i u v hu huv
  have hnd : comps.flatten.Nodup := hperm.nodup_iff.2 (List.nodup_range _)
  have := getD_unique_of_nodup_flatten hnd hk2 hv
  omega

theorem SCCTarjan_emits_in_reverse_topological_order_witness :
    InRange [[1], [2], [1]] ∧ [[1], [2], [1]].length ≤ 3 ∧
    ∃ comps, SCCTarjan 3 [[1], [2], [1]] emitAll = .ok comps ∧
      comps.flatten.Perm (List.range [[1], [2], [1]].length) ∧
      ∀ i j u v, u ∈ comps.getD i [] → v ∈ comps.getD j [] → Arc [[1], [2], [1]] u v →
        i ≠ j → j < i :=
  ⟨by decide, by decide,
    SCCTarjan_emits_in_reverse_topological_order [[1], [2], [1]] (by decide) 3 (by decide)⟩

/-- C9: on a directed graph `g` (arcs in range), with enough fuel,
`TarjanCondensation` returns `(scc, cd)` with `len(cd) = len(scc)` such that for all
component indices `i` and `j`: `j` occurs in `cd[i]` iff `i ≠ j` and `g` has an arc
from some node of `scc[i]` to some node of `scc[j]`; and no `cd[i]` holds the same
component index twice. -/
theorem TarjanCondensation_arcs_between_components (g : AdjacencyList) (hg : InRange g)
    (fuel : Nat) (hfuel : g.length ≤ fuel) :
    ∃ scc cd, TarjanCondensation fuel g = .ok (scc, cd) ∧ cd.length = scc.length ∧
      (∀ i j, j ∈ cd.getD i [] ↔
        (i ≠ j ∧ ∃ u, u ∈ scc.getD i [] ∧ ∃ w, w ∈ scc.getD j [] ∧ Arc g u w)) ∧
      (∀ i, (cd.getD i []).Nodup) := by
  obtain ⟨comps, cd, _, _, h3, h4, h5, h6, _⟩ := TarjanCondensation_spec g hg fuel hfuel
  exact ⟨comps.reverse, cd, h3, h4, h5, h6⟩

theorem TarjanCondensation_arcs_between_components_witness :
    InRange [[1], [2], [1]] ∧ [[1], [2], [1]].length ≤ 3 ∧
    ∃ scc cd, TarjanCondensation 3 [[1], [2], [1]] = .ok (scc, cd) ∧ cd.length = scc.length ∧
      (∀ i j, j ∈ cd.getD i [] ↔
        (i ≠ j ∧ ∃ u, u ∈ scc.getD i [] ∧ ∃ w, w ∈ scc.getD j [] ∧
          Arc [[1], [2], [1]] u w)) ∧
      (∀ i, (cd.getD i []).Nodup) :=
  ⟨by decide, by decide,
    TarjanCondensation_arcs_between_components [[1], [2], [1]] (by decide) 3 (by decide)⟩

/-- C10: on a directed graph `g` (arcs in range), with enough fuel, the components
returned by `TarjanForward` and by `TarjanCondensation` are the components emitted by
`SCCTarjan` in reversed emission order, and every arc `i → j` of the condensation
graph `cd` has `i < j`; hence `cd` has no cycle and the order of the components is a
forward topological order of it. -/
theorem TarjanCondensation_is_forward_topological (g : AdjacencyList) (hg : InRange g)
    (fuel : Nat) (hfuel : g.length ≤ fuel) :
    ∃ comps scc cd, SCCTarjan fuel g emitAll = .ok comps ∧
      TarjanForward fuel g = .ok scc ∧ TarjanCondensation fuel g = .ok (scc, cd) ∧
      scc = comps.reverse ∧
      (∀ i j, j ∈ cd.getD i [] → i < j) ∧
      (∀ i, ¬ Relation.TransGen (fun a b => b ∈ cd.getD a []) i i) := by
  obtain ⟨comps, cd, h1, h2, h3, _, h5, _, h7⟩ := TarjanCondensation_spec g hg fuel hfuel
  have hperm : comps.reverse.flatten.Perm (List.range g.length) := by
    obtain ⟨comps1, e1, hp, _⟩ := SCCTarjan_spec g hg fuel hfuel
    rw [h1] at e1
    injection e1 with e1
    subst e1
    exact ((List.reverse_perm comps).flatten).trans hp
  have hnd : comps.reverse.flatten.Nodup := hperm.nodup_iff.2 (List.nodup_range _)
  have hlt : ∀ i j, j ∈ cd.getD i [] → i < j := by
    intro i j hj
    obtain ⟨hij, u, hu, w, hw, huw⟩ := (h5 i j).1 hj
    obtain ⟨k, hk1, hk2⟩ := h7 i u w hu huw
    have := getD_unique_of_nodup_flatten hnd hk2 hw
    omega
  refine ⟨comps, comps.reverse, cd, h1, h2, h3, rfl, hlt, ?_⟩
  intro i hi
  have hgen : ∀ a b, Relation.TransGen (fun a b => b ∈ cd.getD a []) a b → a < b := by
    intro a b hab
    induction hab with
    | single h => exact hlt _ _ h
    | tail _ h ih => exact lt_trans ih (hlt _ _ h)
  exact absurd (hgen i i hi) (lt_irrefl i)

theorem TarjanCondensation_is_forward_topological_witness :
    InRange [[1], [2], [1]] ∧ [[1], [2], [1]].length ≤ 3 ∧
    ∃ comps scc cd, SCCTarjan 3 [[1], [2], [1]] emitAll = .ok comps ∧
      TarjanForward 3 [[1], [2], [1]] = .ok scc ∧
      TarjanCondensation 3 [[1], [2], [1]] = .ok (scc, cd) ∧
      scc = comps.reverse ∧
      (∀ i j, j ∈ cd.getD i [] → i < j) ∧
      (∀ i, ¬ Relation.TransGen (fun a b => b ∈ cd.getD a []) i i) :=
  ⟨by decide, by decide,
    TarjanCondensation_is_forward_topological [[1], [2], [1]] (by decide) 3 (by decide)⟩

/-! ## Dominators -/

/-- C3: when `tr` is the transpose of `g` and `post` is a postordering of a spanning
tree of the subgraph of `g` reachable from `start` (with `start` last), `Doms`
returns (given enough fuel), and for every node `n` other than `start` that is
reachable from `start` the entry `Immediate[n]` is a node `d` that is the immediate
dominator of `n`: `d` lies on every path from `start` to `n`, `d` differs from `n`,
and every dominator `e` of `n` other than `n` dominates `d`. -/
theorem Doms_immediate_dominators (g tr : AdjacencyList) (start : Nat) (post : List Nat)
    (fuel : Nat) (htr : IsTranspose g tr) (hpost : PostOrdering g start post)
    (hfuel : post.length * post.length + 2 ≤ fuel) :
    ∃ imm, Doms fuel g tr post = .ok imm ∧
      ∀ n, n ≠ start → Reach g start n →
        ∃ d, imm.getD n (-1) = Int.ofNat d ∧ d ≠ n ∧ Dominates g start d n ∧
          ∀ e, e ≠ n → Dominates g start e n → Dominates g start e d := by
  obtain ⟨imm, p, e, C, I, F⟩ := Doms_spec htr hpost hfuel
  exact ⟨imm, e, fun n hn hr => I.immediate C F (C.mem_of_reach hr) hn⟩

theorem Doms_immediate_dominators_witness :
    IsTranspose [[1, 2], [3], [3], []] [[], [0], [0], [1, 2]] ∧
    PostOrdering [[1, 2], [3], [3], []] 0 [3, 1, 2, 0] ∧
    [3, 1, 2, 0].length * [3, 1, 2, 0].length + 2 ≤ 18 ∧
    Doms 18 [[1, 2], [3], [3], []] [[], [0], [0], [1, 2]] [3, 1, 2, 0] = .ok [0, 0, 0, 0] ∧
    ∃ imm, Doms 18 [[1, 2], [3], [3], []] [[], [0], [0], [1, 2]] [3, 1, 2, 0] = .ok imm ∧
      ∀ n, n ≠ 0 → Reach [[1, 2], [3], [3], []] 0 n →
        ∃ d, imm.getD n (-1) = Int.ofNat d ∧ d ≠ n ∧ Dominates [[1, 2], [3], [3], []] 0 d n ∧
          ∀ e, e ≠ n → Dominates [[1, 2], [3], [3], []] 0 e n →
            Dominates [[1, 2], [3], [3], []] 0 e d :=
  ⟨by decide, by decide, by decide, by decide,
    Doms_immediate_dominators [[1, 2], [3], [3], []] [[], [0], [0], [1, 2]] 0 [3, 1, 2, 0] 18
      (by decide) (by decide) (by decide)⟩

/-- C13: under the preconditions of `Doms` (`tr` the transpose of `g`, `post` a
postordering from `start`) and with enough fuel, `Doms` returns a slice `imm` with
`imm[start] = start`; for every node `n` other than `start` reachable from `start`
the entry `imm[n]` is a node other than `n` that lies on every path from `start` to
`n`; following the entries from a reachable node reaches `start` after finitely many
steps, and from a reachable node other than `start` never comes back to the node. -/
theorem Doms_immediate_forms_tree (g tr : AdjacencyList) (start : Nat) (post : List Nat)
    (fuel : Nat) (htr : IsTranspose g tr) (hpost : PostOrdering g start post)
    (hfuel : post.length * post.length + 2 ≤ fuel) :
    ∃ imm, Doms fuel g tr post = .ok imm ∧ imm.getD start (-1) = Int.ofNat start ∧
      (∀ n, n ≠ start → Reach g start n →
        ∃ d, imm.getD n (-1) = Int.ofNat d ∧ d ≠ n ∧ Dominates g start d n) ∧
      (∀ n, Reach g start n → ∃ k, Nat.iterate (domPar imm) k n = start) ∧
      (∀ n, Reach g start n → n ≠ start → ∀ k, Nat.iterate (domPar imm) (k + 1) n ≠ n) := by
  obtain ⟨imm, p, e, C, I, F⟩ := Doms_spec htr hpost hfuel
  refine ⟨imm, e, I.wf.root, ?_, ?_, ?_⟩
  · intro n hn hr
    obtain ⟨d, h1, h2, h3, _⟩ := I.immediate C F (C.mem_of_reach hr) hn
    exact ⟨d, h1, h2, h3⟩
  · intro n hr
    exact (Anc.of_root C I.wf post.length n (I.all n (C.mem_of_reach hr)) (by omega)).iterate
  · intro n hr hn k hk
    have := iterate_pos_lt I.wf k n (I.all n (C.mem_of_reach hr)) hn
    rw [hk] at this
    omega

theorem Doms_immediate_forms_tree_witness :
    IsTranspose [[1, 2], [3], [3], []] [[], [0], [0], [1, 2]] ∧
    PostOrdering [[1, 2], [3], [3], []] 0 [3, 1, 2, 0] ∧
    [3, 1, 2, 0].length * [3, 1, 2, 0].length + 2 ≤ 18 ∧
    ∃ imm, Doms 18 [[1, 2], [3], [3], []] [[], [0], [0], [1, 2]] [3, 1, 2, 0] = .ok imm ∧
      imm.getD 0 (-1) = Int.ofNat 0 ∧
      (∀ n, n ≠ 0 → Reach [[1, 2], [3], [3], []] 0 n →
        ∃ d, imm.getD n (-1) = Int.ofNat d ∧ d ≠ n ∧ Dominates [[1, 2], [3], [3], []] 0 d n) ∧
      (∀ n, Reach [[1, 2], [3], [3], []] 0 n → ∃ k, Nat.iterate (domPar imm) k n = 0) ∧
      (∀ n, Reach [[1, 2], [3], [3], []] 0 n → n ≠ 0 →
        ∀ k, Nat.iterate (domPar imm) (k + 1) n ≠ n) :=
  ⟨by decide, by decide, by decide,
    Doms_immediate_forms_tree [[1, 2], [3], [3], []] [[], [0], [0], [1, 2]] 0 [3, 1, 2, 0] 18
      (by decide) (by decide) (by decide)⟩

/-- C14: under the preconditions of `Doms` and with enough fuel, the slice that
`Doms` returns has the length of `g`, the nodes of `post` are the nodes reachable
from `start`, and the entry of every node of `g` that does not occur in `post` is
`-1`. -/
theorem Doms_unreached_entries_stay_none (g tr : AdjacencyList) (start : Nat)
    (post : List Nat) (fuel : Nat) (htr : IsTranspose g tr)
    (hpost : PostOrdering g start post) (hfuel : post.length * post.length + 2 ≤ fuel) :
    ∃ imm, Doms fuel g tr post = .ok imm ∧ imm.length = g.length ∧
      (∀ m, m ∈ post ↔ Reach g start m) ∧
      ∀ m, m < g.length → m ∉ post → imm.getD m 0 = -1 := by
  obtain ⟨imm, p, e, C, _, _⟩ := Doms_spec htr hpost hfuel
  obtain ⟨h1, h2, _⟩ := Doms_frame e
  exact ⟨imm, e, h1,
    fun m => ⟨fun h => C.reach_of_mem post.length m h (by omega), C.mem_of_reach⟩, h2⟩

theorem Doms_unreached_entries_stay_none_witness :
    IsTranspose [[1], [], [1]] [[], [0, 2], []] ∧ PostOrdering [[1], [], [1]] 0 [1, 0] ∧
    [1, 0].length * [1, 0].length + 2 ≤ 6 ∧
    Doms 6 [[1], [], [1]] [[], [0, 2], []] [1, 0] = .ok [0, 0, -1] ∧
    ∃ imm, Doms 6 [[1], [], [1]] [[], [0, 2], []] [1, 0] = .ok imm ∧
      imm.length = [[1], [], [1]].length ∧
      (∀ m, m ∈ [1, 0] ↔ Reach [[1], [], [1]] 0 m) ∧
      ∀ m, m < [[1], [], [1]].length → m ∉ [1, 0] → imm.getD m 0 = -1 :=
  ⟨by decide, by decide, by decide, by decide,
    Doms_unreached_entries_stay_none [[1], [], [1]] [[], [0, 2], []] 0 [1, 0] 6
      (by decide) (by decide) (by decide)⟩

/-- C17: when `tr` is the transpose of `g`, `Doms` called with the reverse of a
breadth-first visiting order of the nodes reachable from `start` (as `Dominators`
calls it) and `Doms` called with a depth-first postordering of a spanning tree from
`start` both return, and return the same slice. -/
theorem Doms_same_for_breadth_first_and_depth_first (g tr : AdjacencyList) (start : Nat)
    (bfs dfs : List Nat) (fuel : Nat) (htr : IsTranspose g tr)
    (hbfs : VisitOrder g start bfs) (hdfs : PostOrdering g start dfs)
    (hfuel : g.length * g.length + 2 ≤ fuel) :
    ∃ imm, Doms fuel g tr bfs.reverse = .ok imm ∧ Doms fuel g tr dfs = .ok imm := by
  have hb := hbfs.reverse_post
  have f1 := sq_fuel_le (nodup_length_le hb) hfuel
  have f2 := sq_fuel_le (nodup_length_le hdfs) hfuel
  obtain ⟨imm, p, e, _⟩ := Doms_spec htr hdfs f2
  exact ⟨imm, by rw [Doms_unique htr hb hdfs f1 f2]; exact e, e⟩

theorem Doms_same_for_breadth_first_and_depth_first_witness :
    IsTranspose [[1, 2], [3], [3], []] [[], [0], [0], [1, 2]] ∧
    VisitOrder [[1, 2], [3], [3], []] 0 [0, 1, 2, 3] ∧
    PostOrdering [[1, 2], [3], [3], []] 0 [3, 1, 2, 0] ∧
    [[1, 2], [3], [3], []].length * [[1, 2], [3], [3], []].length + 2 ≤ 18 ∧
    ∃ imm, Doms 18 [[1, 2], [3], [3], []] [[], [0], [0], [1, 2]] [0, 1, 2, 3].reverse = .ok imm ∧
      Doms 18 [[1, 2], [3], [3], []] [[], [0], [0], [1, 2]] [3, 1, 2, 0] = .ok imm :=
  ⟨by decide, by decide, by decide, by decide,
    Doms_same_for_breadth_first_and_depth_first [[1, 2], [3], [3], []]
      [[], [0], [0], [1, 2]] 0 [0, 1, 2, 3] [3, 1, 2, 0] 18 (by decide) (by decide)
      (by decide) (by decide)⟩

/-- C18: under the preconditions of `Doms` (`tr` the transpose of `g`, `post` a
postordering from its last element `start`) and with fuel `post.length² + 2` or
more, `Doms` returns: no walk of `intersect` and no pass runs out of fuel, and the
loop of passes stops, at a state `imm` that one more pass leaves unchanged; at that
state `intersect` returns for any two nodes of `post`. -/
theorem Doms_terminates (g tr : AdjacencyList) (start : Nat) (post : List Nat)
    (fuel : Nat) (htr : IsTranspose g tr) (hpost : PostOrdering g start post)
    (hfuel : post.length * post.length + 2 ≤ fuel) :
    ∃ imm p, Doms fuel g tr post = .ok imm ∧
      domPi post 0 (List.replicate g.length 0) = .ok p ∧
      domPass tr p fuel post (post.length - 1) imm false = .ok (imm, false) ∧
      ∀ b1 ∈ post, ∀ b2 ∈ post,
        ∃ m, intersect imm p fuel (Int.ofNat b1) (Int.ofNat b2) = .ok m := by
  obtain ⟨imm, p, hp, e, C, I, _⟩ := Doms_spec_pi htr hpost hfuel
  obtain ⟨_, _, p2, hp2, hpass⟩ := Doms_frame e
  rw [hp] at hp2
  injection hp2 with hp2
  subst hp2
  refine ⟨imm, p, e, hp, hpass, ?_⟩
  intro b1 h1 b2 h2
  have h := two_mul_le_sq_add_two post.length
  have l1 := C.pos_lt h1
  have l2 := C.pos_lt h2
  obtain ⟨m, hm, _⟩ := intersect_spec C I.wf fuel b1 b2 (I.all b1 h1) (I.all b2 h2) (by omega)
  exact ⟨_, hm⟩

theorem Doms_terminates_witness :
    IsTranspose [[1, 2], [3], [3], []] [[], [0], [0], [1, 2]] ∧
    PostOrdering [[1, 2], [3], [3], []] 0 [3, 1, 2, 0] ∧
    [3, 1, 2, 0].length * [3, 1, 2, 0].length + 2 ≤ 18 ∧
    ∃ imm p, Doms 18 [[1, 2], [3], [3], []] [[], [0], [0], [1, 2]] [3, 1, 2, 0] = .ok imm ∧
      domPi [3, 1, 2, 0] 0 (List.replicate [[1, 2], [3], [3], []].length 0) = .ok p ∧
      domPass [[], [0], [0], [1, 2]] p 18 [3, 1, 2, 0] ([3, 1, 2, 0].length - 1) imm false
        = .ok (imm, false) ∧
      ∀ b1 ∈ [3, 1, 2, 0], ∀ b2 ∈ [3, 1, 2, 0],
        ∃ m, intersect imm p 18 (Int.ofNat b1) (Int.ofNat b2) = .ok m :=
  ⟨by decide, by decide, by decide,
    Doms_terminates [[1, 2], [3], [3], []] [[], [0], [0], [1, 2]] 0 [3, 1, 2, 0] 18
      (by decide) (by decide) (by decide)⟩

/-- C16: on a directed graph `g` whose arcs all lead to nodes of `g`, for a node `e`
of `g` and with enough fuel, `PostDominators` returns a slice `imm` of the length of
`g`, the one that `Doms` returns on the transpose of `g`, with `g` as the graph of
the predecessors, for any postordering of the transpose from `e`; `imm[e] = e`; for
every node `n` other than `e` that can reach `e`, the entry `imm[n]` is the
immediate postdominator of `n`: a node `d` other than `n` that lies on every path
from `n` to `e`, and is the closest such node, as every other such node lies on
every path from `d` to `e`; and `imm[n] = -1` for every node that cannot reach
`e`. -/
theorem PostDominators_immediate_postdominators (g : AdjacencyList) (e fuel : Nat)
    (hg : InRange g) (he : e < g.length) (hfuel : g.length * g.length + 2 ≤ fuel) :
    ∃ imm, PostDominators fuel g e = .ok imm ∧
      (∀ post, PostOrdering (Transpose g) e post →
        Doms fuel (Transpose g) g post = .ok imm) ∧
      imm.length = g.length ∧ imm.getD e (-1) = Int.ofNat e ∧
      (∀ n, n ≠ e → Reach g n e →
        ∃ d, imm.getD n (-1) = Int.ofNat d ∧ d ≠ n ∧ PostDominates g e d n ∧
          ∀ x, x ≠ n → PostDominates g e x n → PostDominates g e x d) ∧
      (∀ n, n < g.length → ¬ Reach g n e → imm.getD n 0 = -1) := by
  have hlen := Transpose_length g
  have htr := IsTranspose_symm hg
  have hpost : PostOrdering (Transpose g) e (BreadthFirst (Transpose g) e).reverse :=
    Dominators_post (InRange_Transpose g) (by rw [hlen]; exact he)
  have hfuel2 : (Transpose g).length * (Transpose g).length + 2 ≤ fuel := by
    rw [hlen]; exact hfuel
  have hf := sq_fuel_le (nodup_length_le hpost) hfuel2
  obtain ⟨imm, p, h1, C, I, F⟩ := Doms_spec htr hpost hf
  obtain ⟨l1, m1, _⟩ := Doms_frame h1
  refine ⟨imm, h1, ?_, by rw [l1, hlen], I.wf.root, ?_, ?_⟩
  · intro post hp
    rw [Doms_unique htr hp hpost (sq_fuel_le (nodup_length_le hp) hfuel2) hf]
    exact h1
  · intro n hn hr
    have hmem := C.mem_of_reach ((Reach_Transpose hg e n).mpr hr)
    obtain ⟨d, a, b, c, u⟩ := I.immediate C F hmem hn
    refine ⟨d, a, b, (Dominates_Transpose hg e d n).mp c, ?_⟩
    intro x hx hpd
    exact (Dominates_Transpose hg e x d).mp (u x hx ((Dominates_Transpose hg e x n).mpr hpd))
  · intro n hn hr
    apply m1 n (by rw [hlen]; exact hn)
    intro hmem
    exact hr ((Reach_Transpose hg e n).mp (C.reach_of_mem _ n hmem (le_refl _)))

theorem PostDominators_immediate_postdominators_witness :
    InRange [[1, 2], [3], [3], []] ∧ 3 < [[1, 2], [3], [3], []].length ∧
    [[1, 2], [3], [3], []].length * [[1, 2], [3], [3], []].length + 2 ≤ 18 ∧
    PostDominators 18 [[1, 2], [3], [3], []] 3 = .ok [3, 3, 3, 3] ∧
    ∃ imm, PostDominators 18 [[1, 2], [3], [3], []] 3 = .ok imm ∧
      (∀ post, PostOrdering (Transpose [[1, 2], [3], [3], []]) 3 post →
        Doms 18 (Transpose [[1, 2], [3], [3], []]) [[1, 2], [3], [3], []] post = .ok imm) ∧
      imm.length = [[1, 2], [3], [3], []].length ∧ imm.getD 3 (-1) = Int.ofNat 3 ∧
      (∀ n, n ≠ 3 → Reach [[1, 2], [3], [3], []] n 3 →
        ∃ d, imm.getD n (-1) = Int.ofNat d ∧ d ≠ n ∧
          PostDominates [[1, 2], [3], [3], []] 3 d n ∧
          ∀ x, x ≠ n → PostDominates [[1, 2], [3], [3], []] 3 x n →
            PostDominates [[1, 2], [3], [3], []] 3 x d) ∧
      (∀ n, n < [[1, 2], [3], [3], []].length → ¬ Reach [[1, 2], [3], [3], []] n 3 →
        imm.getD n 0 = -1) :=
  ⟨by decide, by decide, by decide, by decide,
    PostDominators_immediate_postdominators [[1, 2], [3], [3], []] 3 18 (by decide)
      (by decide) (by decide)⟩

/-! ## Dominance frontiers -/

/-- C11, as stated, fails on the graph `0 → 1`, `1 → 0` with start node `0`: node `1`
has an entry in the dominators, node `0` is in the frontier of `1` as defined (node
`1` dominates the predecessor `1` of `0` and does not strictly dominate `0`), but the
set computed for node `1` is empty, as node `0` has a single incoming arc. -/
theorem domFrontiers_not_exact_counterexample :
    Dominators 6 [[1], [0]] 0 = .ok [0, 0] ∧
    DominatorsFrontier 6 [[1], [0]] 0 = .ok [some [], some []] ∧
    ¬ (∀ b, 0 ≤ ([0, 0] : List Int).getD b (-1) →
      ∀ y, FMem [some [], some []] b y ↔ InFrontier [[1], [0]] 0 b y) := by
  refine ⟨by decide, by decide, ?_⟩
  intro h
  have hin : InFrontier [[1], [0]] 0 1 0 := by
    refine ⟨⟨1, by decide, Dominates.self_of _ _⟩, ?_⟩
    rintro ⟨h1, _⟩
    have := h1 [0] Walk.base
    simp at this
  obtain ⟨s, hs, hy⟩ := (h 1 (by decide) 0).mpr hin
  have e : s = [] := by
    have : ([some [], some []] : DominanceFrontiers).getD 1 none = some [] := by decide
    rw [this] at hs
    injection hs with hs
    exact hs.symm
  rw [e] at hy
  exact absurd hy (List.not_mem_nil 0)

/-- C11, amended: on a directed graph `g` (arcs in range) with a start node of `g`,
when every predecessor of a node with two or more incoming arcs is reachable from
`start`, and with enough fuel, the frontiers of the result of `Dominators` are
computed; there is a set for exactly the nodes with an entry in the dominators, and
for every such node `b` and every node `y` other than `start`, `y` is in the set of
`b` iff `b` dominates some predecessor of `y` in `g` and does not strictly dominate
`y`. -/
theorem domFrontiers_frontier_sets (g : AdjacencyList) (start fuel : Nat) (hg : InRange g)
    (hs : start < g.length) (hfuel : g.length * g.length + 2 ≤ fuel)
    (hj : JoinsReached g start) :
    ∃ im f, Dominators fuel g start = .ok im ∧ DominatorsFrontier fuel g start = .ok f ∧
      f.length = g.length ∧
      (∀ b, (∃ s, f.getD b none = some s) ↔ 0 ≤ im.getD b (-1)) ∧
      ∀ b, 0 ≤ im.getD b (-1) → ∀ y, y ≠ start →
        (FMem f b y ↔ InFrontier g start b y) := by
  obtain ⟨f, hf⟩ := DominatorsFrontier_returns hg hs hfuel hj
  obtain ⟨im, e, w, _, h1, h2⟩ := DominatorsFrontier_char hg hs hfuel hf
  obtain ⟨l, _, _⟩ := Doms_frame e
  exact ⟨im, f, e, hf, by rw [w.1, l], w.2,
    fun b hb y hy => ⟨h1 b y, h2 b y hb hy⟩⟩

theorem domFrontiers_frontier_sets_witness :
    InRange [[1, 2], [3], [3], []] ∧ 0 < [[1, 2], [3], [3], []].length ∧
    [[1, 2], [3], [3], []].length * [[1, 2], [3], [3], []].length + 2 ≤ 18 ∧
    JoinsReached [[1, 2], [3], [3], []] 0 ∧
    DominatorsFrontier 18 [[1, 2], [3], [3], []] 0 = .ok [some [], some [3], some [3], some []] ∧
    ∃ im f, Dominators 18 [[1, 2], [3], [3], []] 0 = .ok im ∧
      DominatorsFrontier 18 [[1, 2], [3], [3], []] 0 = .ok f ∧
      f.length = [[1, 2], [3], [3], []].length ∧
      (∀ b, (∃ s, f.getD b none = some s) ↔ 0 ≤ im.getD b (-1)) ∧
      ∀ b, 0 ≤ im.getD b (-1) → ∀ y, y ≠ 0 →
        (FMem f b y ↔ InFrontier [[1, 2], [3], [3], []] 0 b y) :=
  ⟨by decide, by decide, by decide, by decide, by decide,
    domFrontiers_frontier_sets [[1, 2], [3], [3], []] 0 18 (by decide) (by decide)
      (by decide) (by decide)⟩

/-- On the graph `0 → 1`, `2 → 1` with start node `0`, node `1` has two incoming arcs
and its predecessor `2` is not reachable: `domFrontiers` stores into the nil map of
node `2`, and no frontiers are computed. -/
theorem DominatorsFrontier_unreached_predecessor :
    DominatorsFrontier 11 [[1], [], [1]] 0 = .error .nilMap ∧ ¬ JoinsReached [[1], [], [1]] 0 :=
  ⟨by decide, by decide⟩

/-- C12, as stated, fails on the graph `0 → 1`, `1 → 2`, `2 → 1` with start node `0`:
node `1` is in the computed frontier of node `1`, and node `1` dominates node
`1`. -/
theorem domFrontiers_round_trip_counterexample :
    DominatorsFrontier 11 [[1], [2], [1]] 0 = .ok [some [], some [1], some [1]] ∧
    ¬ (∀ a b, FMem [some [], some [1], some [1]] a b →
      ¬ Dominates [[1], [2], [1]] 0 a b ∧
        ∃ p, Arc [[1], [2], [1]] p b ∧ Dominates [[1], [2], [1]] 0 a p) := by
  refine ⟨by decide, ?_⟩
  intro h
  have hm : FMem [some [], some [1], some [1]] 1 1 := ⟨[1], by decide, by decide⟩
  exact (h 1 1 hm).1 (Dominates.self_of _ _)

/-- C12, amended: on a directed graph `g` (arcs in range) with a start node of `g`
and with enough fuel, whenever the frontiers of the result of `Dominators` are
computed and node `b` is in the computed frontier of node `a`, `a` does not strictly
dominate `b` (it does not both dominate `b` and differ from `b`), and `a` dominates
some predecessor of `b` (possibly `a` is itself that predecessor). -/
theorem domFrontiers_round_trip (g : AdjacencyList) (start fuel : Nat) (hg : InRange g)
    (hs : start < g.length) (hfuel : g.length * g.length + 2 ≤ fuel)
    (f : DominanceFrontiers) (hf : DominatorsFrontier fuel g start = .ok f) :
    ∀ a b, FMem f a b →
      ¬ (Dominates g start a b ∧ a ≠ b) ∧ ∃ p, Arc g p b ∧ Dominates g start a p := by
  obtain ⟨im, _, _, _, h1, _⟩ := DominatorsFrontier_char hg hs hfuel hf
  intro a b hm
  exact ⟨(h1 a b hm).2, (h1 a b hm).1⟩

theorem domFrontiers_round_trip_witness :
    InRange [[1], [2], [1]] ∧ 0 < [[1], [2], [1]].length ∧
    [[1], [2], [1]].length * [[1], [2], [1]].length + 2 ≤ 11 ∧
    DominatorsFrontier 11 [[1], [2], [1]] 0 = .ok [some [], some [1], some [1]] ∧
    ∀ a b, FMem [some [], some [1], some [1]] a b →
      ¬ (Dominates [[1], [2], [1]] 0 a b ∧ a ≠ b) ∧
        ∃ p, Arc [[1], [2], [1]] p b ∧ Dominates [[1], [2], [1]] 0 a p :=
  ⟨by decide, by decide, by decide, by decide,
    domFrontiers_round_trip [[1], [2], [1]] 0 11 (by decide) (by decide) (by decide)
      [some [], some [1], some [1]] (by decide)⟩

/-- C19: on a simple undirected graph `g` on which `Degeneracy` returns
`(k, ordering, cores)`, `k` is the degeneracy of `g`: every non-empty subgraph of
`g` has a node of degree at most `k`, and `k` is the smallest number with that
property. -/
theorem Degeneracy_k_is_degeneracy (g : AdjacencyList) (hg : Simple g) (k : Nat)
    (ordering cores : List Nat) (h : Degeneracy g = .ok (k, ordering, cores)) :
    (∀ S E, IsSubgraph g S E → S ≠ [] → ∃ v ∈ S, degreeSub g E v ≤ k) ∧
    (∀ k1, (∀ S E, IsSubgraph g S E → S ≠ [] → ∃ v ∈ S, degreeSub g E v ≤ k1) →
      k ≤ k1) := by
  obtain ⟨s, hs, hk, hord⟩ := Degeneracy_outer hg h
  subst hk; subst hord
  have hperm := hs.perm
  have hnd : s.ordering.Nodup := hperm.nodup_iff.2 (List.nodup_range _)
  constructor
  · intro S E hsub hne
    obtain ⟨i, hi, h1, _, h3⟩ := hs.first_low hg hperm hne hsub.1
    exact ⟨_, h1, le_trans (degreeSub_le g hsub _) (le_trans h3 (hs.hk1 i hi))⟩
  · intro k1 hk1
    rcases hs.hk2 with h0 | ⟨t, ht, h0⟩
    · omega
    · have htl : t < s.ordering.length := by rw [hs.hlen]; exact ht
      have hmemlt : ∀ v ∈ s.ordering.drop t, v < g.length :=
        fun v hv => List.mem_range.1 (hperm.mem_iff.1 (List.mem_of_mem_drop hv))
      have hsub : IsSubgraph g (s.ordering.drop t)
          (fun a b => decide (a ∈ s.ordering.drop t ∧ b ∈ s.ordering.drop t ∧ Arc g a b)) :=
        ⟨hmemlt, fun u v huv => of_decide_eq_true huv⟩
      have hne : s.ordering.drop t ≠ [] := by
        intro e
        have := List.drop_eq_nil_iff.mp e
        omega
      obtain ⟨v, hv, hle⟩ := hk1 _ _ hsub hne
      rw [degreeSub_induced g _ hv, degreeIn_drop hg hperm] at hle
      have hvm : v ∈ s.ordering := List.mem_of_mem_drop hv
      have := hs.hmin t ht v (hmemlt v hv) ((mem_drop_iff_not_mem_take hnd t hvm).1 hv)
      omega

theorem Degeneracy_k_is_degeneracy_witness :
    Simple [[1, 2], [0, 2], [0, 1, 3], [2]] ∧
    Degeneracy [[1, 2], [0, 2], [0, 1, 3], [2]] = .ok (2, [3, 2, 1, 0], [0, 1, 4]) ∧
    (∀ S E, IsSubgraph [[1, 2], [0, 2], [0, 1, 3], [2]] S E → S ≠ [] →
      ∃ v ∈ S, degreeSub [[1, 2], [0, 2], [0, 1, 3], [2]] E v ≤ 2) ∧
    (∀ k1, (∀ S E, IsSubgraph [[1, 2], [0, 2], [0, 1, 3], [2]] S E → S ≠ [] →
      ∃ v ∈ S, degreeSub [[1, 2], [0, 2], [0, 1, 3], [2]] E v ≤ k1) → 2 ≤ k1) :=
  ⟨by decide, by decide,
    Degeneracy_k_is_degeneracy [[1, 2], [0, 2], [0, 1, 3], [2]] (by decide) 2
      [3, 2, 1, 0] [0, 1, 4] (by decide)⟩

/-- C20, as stated, fails on the triangle `0, 1, 2` with the pendant node `3`:
`Degeneracy` returns `k = 2` and `cores = [0, 1, 4]`, so that `ordering[cores[2]:]`
is empty, while node `0` is in the 2-core (the triangle). -/
theorem Degeneracy_cores_not_core_start_counterexample :
    Simple [[1, 2], [0, 2], [0, 1, 3], [2]] ∧
    Degeneracy [[1, 2], [0, 2], [0, 1, 3], [2]] = .ok (2, [3, 2, 1, 0], [0, 1, 4]) ∧
    ¬ (∀ j, j ≤ 2 → ∀ v, v ∈ [3, 2, 1, 0].drop ([0, 1, 4].getD j 0) ↔
      InCore [[1, 2], [0, 2], [0, 1, 3], [2]] j v) := by
  refine ⟨by decide, by decide, ?_⟩
  intro h
  have hin : InCore [[1, 2], [0, 2], [0, 1, 3], [2]] 2 0 := ⟨[0, 1, 2], by decide, by decide⟩
  have := (h 2 (le_refl _) 0).mpr hin
  simp at this

/-- C20, amended: on a simple undirected graph `g` on which `Degeneracy` returns
`(k, ordering, cores)`, for every `j` with `0 ≤ j ≤ k` whose entry of `cores` has been
stored (`j = 0`, or `cores[j]` is not zero), `cores[j]` is the index in `ordering`
where the core of `j + 1` begins: the nodes `ordering[cores[j]:]` are exactly the
nodes of the `(j+1)`-core of `g`. -/
theorem Degeneracy_cores_mark_next_core (g : AdjacencyList) (hg : Simple g) (k : Nat)
    (ordering cores : List Nat) (h : Degeneracy g = .ok (k, ordering, cores)) :
    ∀ j, j ≤ k → (j = 0 ∨ cores.getD j 0 ≠ 0) →
      ∀ v, v ∈ ordering.drop (cores.getD j 0) ↔ InCore g (j + 1) v := by
  obtain ⟨s, hs, hc, hk, hord, hlt, hcores⟩ := Degeneracy_cores hg h
  subst hk; subst hord; subst hcores
  intro j hj hset v
  by_cases e : j = s.k
  · rw [e, getD_set_eq _ _ _ _ hlt, List.drop_length]
    exact ⟨fun hv => absurd hv (List.not_mem_nil v), fun hv => absurd hv (hs.core_empty hg v)⟩
  · rw [getD_set_ne _ _ _ _ _ (Ne.symm e)] at hset ⊢
    apply hc.core_iff hg hs
    rcases hset with a | a
    · left; exact ⟨a, by omega⟩
    · right; exact a

theorem Degeneracy_cores_mark_next_core_witness :
    Simple [[1, 2], [0, 2], [0, 1, 3], [2]] ∧
    Degeneracy [[1, 2], [0, 2], [0, 1, 3], [2]] = .ok (2, [3, 2, 1, 0], [0, 1, 4]) ∧
    ∀ j, j ≤ 2 → (j = 0 ∨ [0, 1, 4].getD j 0 ≠ 0) →
      ∀ v, v ∈ [3, 2, 1, 0].drop ([0, 1, 4].getD j 0) ↔
        InCore [[1, 2], [0, 2], [0, 1, 3], [2]] (j + 1) v :=
  ⟨by decide, by decide,
    Degeneracy_cores_mark_next_core [[1, 2], [0, 2], [0, 1, 3], [2]] (by decide) 2
      [3, 2, 1, 0] [0, 1, 4] (by decide)⟩

/-- An entry of `cores` that has not been stored: on the complete graph with four
nodes and one more node without edges, `Degeneracy` returns `cores = [1, 0, 0, 5]`;
the entries of index `1` and `2` are zero, though the cores of `2` and `3` begin at
index `1` of the ordering. -/
theorem Degeneracy_cores_unset_entries :
    Degeneracy [[1, 2, 3], [0, 2, 3], [0, 1, 3], [0, 1, 2], []] =
      .ok (3, [4, 3, 2, 1, 0], [1, 0, 0, 5]) := by
  decide

/-! ## Strongly connected components by Pearce's algorithm -/

/-- C15: on a directed graph `g` (arcs in range), with `emit` always returning true and
enough fuel, `SCCPearce` returns and the emitted components are exactly the strongly
connected components of `g`: no component is empty, together they hold every node
`0 .. order-1` exactly once, and two nodes lie in the same component iff each is
reachable from the other.  They are emitted in reverse topological order of the
condensation: an arc of `g` between two different components leads to the component
emitted earlier.  `Condensation` returns the components in the reversed order, in
which every such arc leads to a later component: a forward topological order. -/
theorem SCCPearce_components_in_reverse_topological_order (g : AdjacencyList)
    (hg : InRange g) (fuel : Nat) (hfuel : g.length ≤ fuel) :
    ∃ comps cd, SCCPearce fuel g emitAll = .ok comps ∧
      Condensation fuel g = .ok (comps.reverse, cd) ∧
      comps.flatten.Perm (List.range g.length) ∧ (∀ c, c ∈ comps → c ≠ []) ∧
      (∀ u v, u < g.length → v < g.length →
        ((∃ c, c ∈ comps ∧ u ∈ c ∧ v ∈ c) ↔ (Reach g u v ∧ Reach g v u))) ∧
      (∀ i j u v, u ∈ comps.getD i [] → v ∈ comps.getD j [] → Arc g u v → i ≠ j → j < i) ∧
      (∀ i j u v, u ∈ comps.reverse.getD i [] → v ∈ comps.reverse.getD j [] → Arc g u v →
        i ≠ j → i < j) := by
  obtain ⟨comps, e, hperm, hne, hscc, htopo⟩ := SCCPearce_spec g hg fuel hfuel
  obtain ⟨comps1, cd, e1, hcd, _, _, _, hfwd⟩ := Condensation_spec g hg fuel hfuel
  rw [e] at e1
  injection e1 with e1
  subst e1
  have hnd : comps.flatten.Nodup := hperm.nodup_iff.2 (List.nodup_range _)
  have hnd2 : comps.reverse.flatten.Nodup :=
    ((List.reverse_perm comps).flatten).nodup_iff.2 hnd
  refine ⟨comps, cd, e, hcd, hperm, hne,
    fun u v hu _ => same_component_iff hperm hscc htopo hu, ?_, ?_⟩
  · intro i j u v hu hv huv hij
    obtain ⟨k, hk1, hk2⟩ := htopo i u v hu huv
    have := getD_unique_of_nodup_flatten hnd hk2 hv
    omega
  · intro i j u v hu hv huv hij
    obtain ⟨k, hk1, hk2⟩ := hfwd i u v hu huv
    have := getD_unique_of_nodup_flatten hnd2 hk2 hv
    omega

theorem SCCPearce_components_in_reverse_topological_order_witness :
    InRange [[1], [2], [1]] ∧ [[1], [2], [1]].length ≤ 3 ∧
    ∃ comps cd, SCCPearce 3 [[1], [2], [1]] emitAll = .ok comps ∧
      Condensation 3 [[1], [2], [1]] = .ok (comps.reverse, cd) ∧
      comps.flatten.Perm (List.range [[1], [2], [1]].length) ∧ (∀ c, c ∈ comps → c ≠ []) ∧
      (∀ u v, u < [[1], [2], [1]].length → v < [[1], [2], [1]].length →
        ((∃ c, c ∈ comps ∧ u ∈ c ∧ v ∈ c) ↔
          (Reach [[1], [2], [1]] u v ∧ Reach [[1], [2], [1]] v u))) ∧
      (∀ i j u v, u ∈ comps.getD i [] → v ∈ comps.getD j [] → Arc [[1], [2], [1]] u v →
        i ≠ j → j < i) ∧
      (∀ i j u v, u ∈ comps.reverse.getD i [] → v ∈ comps.reverse.getD j [] →
        Arc [[1], [2], [1]] u v → i ≠ j → i < j) :=
  ⟨by decide, by decide,
    SCCPearce_components_in_reverse_topological_order [[1], [2], [1]] (by decide) 3
      (by decide)⟩

/-! ## Failure, early stop and scenarios -/

/-- C21: `Degeneracy` fails on well-formed graphs without an edge.  The graph without
nodes, the graph of one node and the graph of two nodes without an edge are simple
graphs, and on each of them `Degeneracy` indexes the empty slice `cores` at its last
statement `cores[k] = len(ordering)`. -/
theorem Degeneracy_fails_without_edges :
    Simple [] ∧ Degeneracy [] = .error .index ∧
    Simple [[]] ∧ Degeneracy [[]] = .error .index ∧
    Simple [[], []] ∧ Degeneracy [[], []] = .error .index :=
  ⟨by decide, by decide, by decide, by decide, by decide, by decide⟩

/-- C22: on the graph `0 → 1`, `2 → 1` (arcs in range) with start node `0`, where node
`2` is not reachable, `Dominators` gives `Immediate = [0, 0, -1]`, and `domFrontiers`
on the transpose `[[], [0, 2], []]` and these dominators fails for every positive
fuel: node `1` has two incoming arcs, and the runner started at its predecessor `2`
stores into the absent set of node `2`. -/
theorem domFrontiers_fails_on_unreached_predecessor :
    InRange [[1], [], [1]] ∧ Dominators 11 [[1], [], [1]] 0 = .ok [0, 0, -1] ∧
    IsTranspose [[1], [], [1]] [[], [0, 2], []] ∧
    (∀ fuel, domFrontiers (fuel + 1) [[], [0, 2], []] [0, 0, -1] = .error .nilMap) ∧
    DominatorsFrontier 11 [[1], [], [1]] 0 = .error .nilMap :=
  ⟨by decide, by decide, by decide, fun _ => rfl, by decide⟩

/-- C23: on a directed graph `g` (arcs in range), for every `emit` and with enough
fuel, `SCCTarjan` returns; the components passed to `emit` are those passed by the
run with an `emit` that always returns true, up to the first call for which `emit`
returns false: no call follows a call that returned false.  Every component passed
to `emit` is a complete strongly connected component: it is not empty, and with a
node it holds exactly the nodes that reach it and are reached from it. -/
theorem SCCTarjan_stops_when_emit_returns_false (g : AdjacencyList) (hg : InRange g)
    (emit : Emit Nat) (fuel : Nat) (hfuel : g.length ≤ fuel) :
    ∃ all comps, SCCTarjan fuel g emitAll = .ok all ∧ SCCTarjan fuel g emit = .ok comps ∧
      comps <+: all ∧ StopsAtFalse emit comps ∧
      ∀ c, c ∈ comps → c ≠ [] ∧
        ∀ u, u ∈ c → ∀ v, (v ∈ c ↔ (Reach g u v ∧ Reach g v u)) := by
  obtain ⟨all, e, hperm, hne, hscc, htopo⟩ := SCCTarjan_spec g hg fuel hfuel
  have hpre : emitCut emit [] all <+: all := emitCut_prefix emit all []
  refine ⟨all, emitCut emit [] all, e, SCCTarjan_sim g emit fuel e, hpre,
    StopsAtFalse_emitCut emit all, ?_⟩
  intro c hc
  have hmem : c ∈ all := hpre.subset hc
  exact ⟨hne c hmem, fun u hu v => component_complete hperm hscc htopo hmem hu v⟩

theorem SCCTarjan_stops_when_emit_returns_false_witness :
    InRange [[1], [2], []] ∧ [[1], [2], []].length ≤ 3 ∧
    ∃ all comps, SCCTarjan 3 [[1], [2], []] emitAll = .ok all ∧
      SCCTarjan 3 [[1], [2], []] emitStopSecond = .ok comps ∧
      comps <+: all ∧ StopsAtFalse emitStopSecond comps ∧
      ∀ c, c ∈ comps → c ≠ [] ∧
        ∀ u, u ∈ c → ∀ v, (v ∈ c ↔ (Reach [[1], [2], []] u v ∧ Reach [[1], [2], []] v u)) :=
  ⟨by decide, by decide,
    SCCTarjan_stops_when_emit_returns_false [[1], [2], []] (by decide) emitStopSecond 3
      (by decide)⟩

/-- C24: `SCCPathBased` goes on after `emit` has returned false.  Its result does not
depend on what `emit` returns; on the graph of two nodes without an arc, with an
`emit` that always returns false, it calls `emit` with `[0]` and then again with
`[1]`. -/
theorem SCCPathBased_calls_emit_after_false :
    (∀ fuel g emit, SCCPathBased fuel g emit = SCCPathBased fuel g emitAll) ∧
    SCCPathBased 2 [[], []] (fun _ _ => false) = .ok [[0], [1]] ∧
    ¬ StopsAtFalse (fun _ _ => false) [[0], [1]] := by
  refine ⟨SCCPathBased_emit, by decide, ?_⟩
  intro h
  have := h 0 (by decide) rfl
  simp at this

/-- C25: for every graph, pivot function, `emit` and fuel, in the calls of `emit` of a
run of `BronKerbosch1`, `BronKerbosch2` or `BronKerbosch3` that returns, no call
follows a call that returned false; and where the run with an `emit` that always
returns true returns, the run with `emit` returns after the same calls up to the
first one for which `emit` returns false. -/
theorem BronKerbosch_stops_when_emit_returns_false (g : AdjacencyList) (pivot : Pivot)
    (emit : Emit Int) (fuel : Nat) :
    (∀ cs, BronKerbosch1 fuel g emit = .ok cs → StopsAtFalse emit cs) ∧
    (∀ cs, BronKerbosch2 fuel g pivot emit = .ok cs → StopsAtFalse emit cs) ∧
    (∀ cs, BronKerbosch3 fuel g pivot emit = .ok cs → StopsAtFalse emit cs) ∧
    (∀ all, BronKerbosch1 fuel g emitAll = .ok all →
      BronKerbosch1 fuel g emit = .ok (emitCut emit [] all)) ∧
    (∀ all, BronKerbosch2 fuel g pivot emitAll = .ok all →
      BronKerbosch2 fuel g pivot emit = .ok (emitCut emit [] all)) ∧
    (∀ all, BronKerbosch3 fuel g pivot emitAll = .ok all →
      BronKerbosch3 fuel g pivot emit = .ok (emitCut emit [] all)) :=
  ⟨fun _ h => BronKerbosch1_trace emit g fuel h,
    fun _ h => BronKerbosch2_trace emit g pivot fuel h,
    fun _ h => BronKerbosch3_trace emit g pivot fuel h,
    fun _ h => BronKerbosch1_sim emit g fuel h,
    fun _ h => BronKerbosch2_sim emit g pivot fuel h,
    fun _ h => BronKerbosch3_sim emit g pivot fuel h⟩

theorem BronKerbosch_stops_when_emit_returns_false_witness :
    (BronKerbosch1 5 [[1], [0, 2], [1, 3], [2]] emitAll = .ok [[0, 1], [1, 2], [2, 3]] ∧
      BronKerbosch1 5 [[1], [0, 2], [1, 3], [2]] emitStopSecond = .ok [[0, 1], [1, 2]] ∧
      StopsAtFalse (emitStopSecond : Emit Int) [[0, 1], [1, 2]]) ∧
    (BronKerbosch2 5 [[1], [0, 2], [1, 3], [2]]
        (pivotOf (BKPivotMaxDegree [[1], [0, 2], [1, 3], [2]])) emitStopSecond =
          .ok [[0, 1], [1, 2]] ∧
      StopsAtFalse (emitStopSecond : Emit Int) [[0, 1], [1, 2]]) ∧
    (BronKerbosch3 5 [[1], [0, 2], [1, 3], [2]]
        (pivotOf (BKPivotMaxDegree [[1], [0, 2], [1, 3], [2]])) emitStopSecond =
          .ok [[2, 3], [1, 2]] ∧
      StopsAtFalse (emitStopSecond : Emit Int) [[2, 3], [1, 2]]) :=
  ⟨⟨by decide,
      (BronKerbosch_stops_when_emit_returns_false [[1], [0, 2], [1, 3], [2]]
        (pivotOf (BKPivotMaxDegree [[1], [0, 2], [1, 3], [2]])) emitStopSecond 5).2.2.2.1
          [[0, 1], [1, 2], [2, 3]] (by decide),
      (BronKerbosch_stops_when_emit_returns_false [[1], [0, 2], [1, 3], [2]]
        (pivotOf (BKPivotMaxDegree [[1], [0, 2], [1, 3], [2]])) emitStopSecond 5).1
          [[0, 1], [1, 2]] (by decide)⟩,
    ⟨by decide,
      (BronKerbosch_stops_when_emit_returns_false [[1], [0, 2], [1, 3], [2]]
        (pivotOf (BKPivotMaxDegree [[1], [0, 2], [1, 3], [2]])) emitStopSecond 5).2.1
          [[0, 1], [1, 2]] (by decide)⟩,
    ⟨by decide,
      (BronKerbosch_stops_when_emit_returns_false [[1], [0, 2], [1, 3], [2]]
        (pivotOf (BKPivotMaxDegree [[1], [0, 2], [1, 3], [2]])) emitStopSecond 5).2.2.1
          [[2, 3], [1, 2]] (by decide)⟩⟩

/-- C26: for every graph `g` and sets `P` and `X` of nodes of `g` (their members are
below the order of `g`) with `P` not empty, `BKPivotMaxDegree` returns a node `u`
that is a member of `P` or of `X`, and no member of `P` or `X` has a longer
adjacency list than `u`. -/
theorem BKPivotMaxDegree_returns_max_degree_member (g : AdjacencyList) (P X : Nat)
    (hP : P ≠ 0) (hPg : P < 2 ^ g.length) (hXg : X < 2 ^ g.length) :
    ∃ u : Nat, BKPivotMaxDegree g P X = .ok (u : Int) ∧ (Bit P u = true ∨ Bit X u = true) ∧
      ∀ v, Bit P v = true ∨ Bit X v = true → (g.getD v []).length ≤ (g.getD u []).length :=
  BKPivotMaxDegree_spec g P X hP (fun v hv => by
    rcases hv with h | h
    · exact Bit_lt_of_lt_pow hPg h
    · exact Bit_lt_of_lt_pow hXg h)

theorem BKPivotMaxDegree_returns_max_degree_member_witness :
    (3 : Nat) ≠ 0 ∧ 3 < 2 ^ [[1, 2], [0, 2], [0, 1, 3], [2]].length ∧
    12 < 2 ^ [[1, 2], [0, 2], [0, 1, 3], [2]].length ∧
    ∃ u : Nat, BKPivotMaxDegree [[1, 2], [0, 2], [0, 1, 3], [2]] 3 12 = .ok (u : Int) ∧
      (Bit 3 u = true ∨ Bit 12 u = true) ∧
      ∀ v, Bit 3 v = true ∨ Bit 12 v = true →
        ([[1, 2], [0, 2], [0, 1, 3], [2]].getD v []).length ≤
          ([[1, 2], [0, 2], [0, 1, 3], [2]].getD u []).length :=
  ⟨by decide, by decide, by decide,
    BKPivotMaxDegree_returns_max_degree_member [[1, 2], [0, 2], [0, 1, 3], [2]] 3 12
      (by decide) (by decide) (by decide)⟩

/-- C27: on the cycle `0 → 1 → 2 → 3 → 0`, `SCCTarjan` emits one component, which holds
the nodes `0`, `1`, `2` and `3`; on the graph `0 → 1`, `1 → 2`, `2 → 1`,
`TarjanCondensation` returns the two components `[0]` and `[2, 1]` and the
condensation graph whose only arc leads from component `0`, which is `[0]`, to
component `1`, which is `[2, 1]`. -/
theorem SCCTarjan_scenarios :
    SCCTarjan 4 [[1], [2], [3], [0]] emitAll = .ok [[3, 2, 1, 0]] ∧
    TarjanCondensation 3 [[1], [2], [1]] = .ok ([[0], [2, 1]], [[1], []]) :=
  ⟨by decide, by decide⟩

/-- C28: with start node `0`, on the path `0 → 1 → 2 → 3` `Dominators` gives
`Immediate = [0, 0, 1, 2]` and every frontier set is empty; on the diamond `0 → 1`,
`0 → 2`, `1 → 3`, `2 → 3` it gives `Immediate[3] = 0`, and the frontier sets of the
nodes `1` and `2` hold the node `3` and nothing else. -/
theorem Dominators_scenarios :
    Dominators 18 [[1], [2], [3], []] 0 = .ok [0, 0, 1, 2] ∧
    DominatorsFrontier 18 [[1], [2], [3], []] 0 = .ok [some [], some [], some [], some []] ∧
    Dominators 18 [[1, 2], [3], [3], []] 0 = .ok [0, 0, 0, 0] ∧
    DominatorsFrontier 18 [[1, 2], [3], [3], []] 0 =
      .ok [some [], some [3], some [3], some []] :=
  ⟨by decide, by decide, by decide, by decide⟩

/-- C29: on the graph with the edges `0-1`, `0-2`, `1-2` and `2-3`, `BronKerbosch1`,
`BronKerbosch2` with `BKPivotMaxDegree` and `BronKerbosch3` with `BKPivotMaxDegree`
each call `emit` twice, with the cliques `[0, 1, 2]` and `[2, 3]`. -/
theorem BronKerbosch_scenario :
    Simple [[1, 2], [0, 2], [0, 1, 3], [2]] ∧
    BronKerbosch1 5 [[1, 2], [0, 2], [0, 1, 3], [2]] emitAll = .ok [[0, 1, 2], [2, 3]] ∧
    BronKerbosch2 5 [[1, 2], [0, 2], [0, 1, 3], [2]]
      (pivotOf (BKPivotMaxDegree [[1, 2], [0, 2], [0, 1, 3], [2]])) emitAll =
        .ok [[0, 1, 2], [2, 3]] ∧
    BronKerbosch3 5 [[1, 2], [0, 2], [0, 1, 3], [2]]
      (pivotOf (BKPivotMaxDegree [[1, 2], [0, 2], [0, 1, 3], [2]])) emitAll =
        .ok [[2, 3], [0, 1, 2]] :=
  ⟨by decide, by decide, by decide, by decide⟩

/-- C30: on an acyclic directed graph `g` (arcs in range), with enough fuel,
`Topological` returns `cycle = nil` and an ordering that is a permutation of the
node numbers `0 .. order-1` in which the from-node of every arc stands before its
to-node. -/
theorem Topological_orders_acyclic_graph (g : AdjacencyList) (hg : InRange g)
    (hac : Acyclic g) (fuel : Nat) (hfuel : g.length + 1 ≤ fuel) :
    ∃ ord, Topological fuel g = .ok (some ord, none) ∧ ord.Perm (List.range g.length) ∧
      ∀ i j, i < ord.length → j < ord.length → Arc g (ord.getD i 0) (ord.getD j 0) →
        i < j := by
  obtain ⟨ord, e, hperm, hfw⟩ := Topological_spec g hg hac fuel hfuel
  have hnd : ord.Nodup := hperm.nodup_iff.2 (List.nodup_range _)
  exact ⟨ord, e, hperm, fun i j hi hj harc => hfw.index_lt hnd hi hj harc⟩

theorem Topological_orders_acyclic_graph_witness :
    InRange [[1, 2], [3], [3], []] ∧ Acyclic [[1, 2], [3], [3], []] ∧
    [[1, 2], [3], [3], []].length + 1 ≤ 5 ∧
    ∃ ord, Topological 5 [[1, 2], [3], [3], []] = .ok (some ord, none) ∧
      ord.Perm (List.range [[1, 2], [3], [3], []].length) ∧
      ∀ i j, i < ord.length → j < ord.length →
        Arc [[1, 2], [3], [3], []] (ord.getD i 0) (ord.getD j 0) → i < j :=
  ⟨by decide, Acyclic.of_increasing (by decide), by decide,
    Topological_orders_acyclic_graph [[1, 2], [3], [3], []] (by decide)
      (Acyclic.of_increasing (by decide)) 5 (by decide)⟩

/-! ## Doms: a predecessor with an entry at every step -/

/-- C38: under the preconditions of `Doms` (`tr` the transpose of `g`, `post` a
postordering from its last element `start`) and with fuel `post.length² + 2` or
more, every node of `post` other than `start` is processed, and whenever a node `b`
is processed in a pass, with the slice `dom` of that moment: `b` is a node of `post`
other than `start`, a predecessor `q` in `tr[b]` has an entry in `dom`, the first
loop over the predecessors breaks (so `im` is set to a predecessor and not left at
zero), and the step returns, for either value of `changed`: `intersect` indexes
nothing out of range and follows no entry `-1`. -/
theorem Doms_step_has_defined_predecessor (g tr : AdjacencyList) (start : Nat)
    (post : List Nat) (fuel : Nat) (htr : IsTranspose g tr)
    (hpost : PostOrdering g start post) (hfuel : post.length * post.length + 2 ≤ fuel) :
    ∃ p, domPi post 0 (List.replicate g.length 0) = .ok p ∧
      (∀ b, b ∈ post → b ≠ start → ∃ dom, (b, dom) ∈ DomsSteps fuel g tr post) ∧
      ∀ b dom, (b, dom) ∈ DomsSteps fuel g tr post →
        b ∈ post ∧ b ≠ start ∧
        (∃ q, q ∈ tr.getD b [] ∧ 0 ≤ dom.getD q (-1)) ∧
        (∃ j, domFirst dom (tr.getD b []) 0 = .ok (some j)) ∧
        ∀ ch, ∃ res, domStep tr p fuel b dom ch = .ok res := by
  obtain ⟨p, ep, hall, hok⟩ := DomsSteps_spec htr hpost hfuel
  refine ⟨p, ep, hall, ?_⟩
  intro b dom hmem
  obtain ⟨h1, h2, h3, h4, h5⟩ := hok (b, dom) hmem
  exact ⟨h1, h2, h3, h4, h5⟩

theorem Doms_step_has_defined_predecessor_witness :
    IsTranspose [[1, 2], [3], [3], []] [[], [0], [0], [1, 2]] ∧
    PostOrdering [[1, 2], [3], [3], []] 0 [3, 1, 2, 0] ∧
    [3, 1, 2, 0].length * [3, 1, 2, 0].length + 2 ≤ 18 ∧
    ∃ p, domPi [3, 1, 2, 0] 0 (List.replicate [[1, 2], [3], [3], []].length 0) = .ok p ∧
      (∀ b, b ∈ [3, 1, 2, 0] → b ≠ 0 →
        ∃ dom, (b, dom) ∈ DomsSteps 18 [[1, 2], [3], [3], []] [[], [0], [0], [1, 2]]
          [3, 1, 2, 0]) ∧
      ∀ b dom, (b, dom) ∈ DomsSteps 18 [[1, 2], [3], [3], []] [[], [0], [0], [1, 2]]
          [3, 1, 2, 0] →
        b ∈ [3, 1, 2, 0] ∧ b ≠ 0 ∧
        (∃ q, q ∈ ([[], [0], [0], [1, 2]] : AdjacencyList).getD b [] ∧ 0 ≤ dom.getD q (-1)) ∧
        (∃ j, domFirst dom (([[], [0], [0], [1, 2]] : AdjacencyList).getD b []) 0 =
          .ok (some j)) ∧
        ∀ ch, ∃ res, domStep [[], [0], [0], [1, 2]] p 18 b dom ch = .ok res :=
  ⟨by decide, by decide, by decide,
    Doms_step_has_defined_predecessor [[1, 2], [3], [3], []] [[], [0], [0], [1, 2]] 0
      [3, 1, 2, 0] 18 (by decide) (by decide) (by decide)⟩

/-! ## DepthFirst and the answer of the visitor -/

/-- C35 (code bug): `LabeledAdjacencyList.DepthFirst` does not end the traversal when
the visitor returns false.  On the graph with the arcs `0 → 1` and `0 → 2`, from
node 0, with a visitor that returns false at node 1 only, the visitor is called with
0, 1 and then 2: the call with node 2 follows the call that returned false.  The
result `ok` is false. -/
theorem DepthFirst_visits_after_false :
    DepthFirst 3 [[⟨1, 0⟩, ⟨2, 0⟩], [], []] 0 none (some (fun _ n => decide (n ≠ 1))) =
      .ok (false, 7, [0, 1, 2]) ∧
    (fun (_ : List Nat) (n : Nat) => decide (n ≠ 1)) [0] 1 = false ∧
    ¬ VisitsStop (fun _ n => decide (n ≠ 1)) [0, 1, 2] := by
  decide

/-! ## TopologicalKahn on acyclic graphs -/

/-- C32: on an acyclic directed graph `g` (arcs in range) and its transpose `tr` (as
many arcs from `v` to `u` as `g` has from `u` to `v`), with enough fuel,
`TopologicalKahn` returns `cycle = nil` and an ordering that is a permutation of the
node numbers `0 .. order-1` in which the from-node of every arc stands before its
to-node.  (The ordering is built by `append` from `nil`, so it is `nil` when `g`
has no node.) -/
theorem TopologicalKahn_orders_acyclic_graph (g tr : AdjacencyList) (hg : InRange g)
    (htr : TransposeOf g tr) (hac : Acyclic g) (fuel : Nat) (hfuel : g.length ≤ fuel) :
    ∃ ord, TopologicalKahn fuel g tr = .ok (sliceOf ord, none) ∧
      ord.Perm (List.range g.length) ∧
      ∀ i j, i < ord.length → j < ord.length → Arc g (ord.getD i 0) (ord.getD j 0) →
        i < j := by
  obtain ⟨ord, e, hperm, hpre⟩ := TopologicalKahn_spec g tr hg htr hac fuel hfuel
  have hnd : ord.Nodup := hperm.nodup_iff.2 (List.nodup_range _)
  exact ⟨ord, e, hperm, fun i j hi hj harc => index_lt_of_preds_before hnd hpre hi hj harc⟩

theorem TopologicalKahn_orders_acyclic_graph_witness :
    InRange [[1, 2], [3], [3], []] ∧
    TransposeOf [[1, 2], [3], [3], []] [[], [0], [0], [1, 2]] ∧
    Acyclic [[1, 2], [3], [3], []] ∧ [[1, 2], [3], [3], []].length ≤ 4 ∧
    ∃ ord, TopologicalKahn 4 [[1, 2], [3], [3], []] [[], [0], [0], [1, 2]] =
        .ok (sliceOf ord, none) ∧
      ord.Perm (List.range [[1, 2], [3], [3], []].length) ∧
      ∀ i j, i < ord.length → j < ord.length →
        Arc [[1, 2], [3], [3], []] (ord.getD i 0) (ord.getD j 0) → i < j :=
  ⟨by decide, by decide, Acyclic.of_increasing (by decide), by decide,
    TopologicalKahn_orders_acyclic_graph [[1, 2], [3], [3], []] [[], [0], [0], [1, 2]]
      (by decide) (by decide) (Acyclic.of_increasing (by decide)) 4 (by decide)⟩

/-! ## TopologicalKahn on graphs with a cycle -/

/-- C33 (code bug): on a graph with a cycle, `TopologicalKahn` returns `nil` and a
list of nodes that is not the path of a cycle.  On the cycle `0 → 2 → 1 → 0` it
returns `[0, 1, 2]`, where node 0 has no arc to node 1; on the graph with the arcs
`0 → 1`, `1 → 0`, `1 → 2`, `2 → 3` it returns `[0, 1, 2]`, where node 2 is on no
cycle. -/
theorem TopologicalKahn_cycle_is_not_a_path :
    TransposeOf [[2], [0], [1]] [[1], [2], [0]] ∧
    TopologicalKahn 3 [[2], [0], [1]] [[1], [2], [0]] = .ok (none, some [0, 1, 2]) ∧
    ¬ Arc [[2], [0], [1]] 0 1 ∧ ¬ IsCyclePath [[2], [0], [1]] [0, 1, 2] ∧
    TransposeOf [[1], [0, 2], [3], []] [[1], [0], [1], [2]] ∧
    TopologicalKahn 4 [[1], [0, 2], [3], []] [[1], [0], [1], [2]] =
      .ok (none, some [0, 1, 2]) ∧
    ¬ Relation.TransGen (Arc [[1], [0, 2], [3], []]) 2 2 := by
  refine ⟨by decide, by decide, by decide, by decide, by decide, by decide, ?_⟩
  have h : ∀ b, Relation.TransGen (Arc [[1], [0, 2], [3], []]) 2 b → b = 3 := by
    intro b hb
    induction hb with
    | single h1 =>
      have : _ ∈ ([3] : List Nat) := h1
      simpa using this
    | tail _ h1 ih =>
      rw [ih] at h1
      have : _ ∈ ([] : List Nat) := h1
      simp at this
  intro hc
  have := h 2 hc
  omega

/-! ## The arguments of the calls of the closure of BronKerbosch1 -/

/-- C37: on a simple undirected graph, for every `emit` and every fuel, the first call
`f(0, all nodes, 0)` of the closure of `BronKerbosch1` is made, and at every call
`f(R, P, X)` made during the run: `R` is a clique, the sets `R`, `P` and `X` are
pairwise disjoint, and `P ∪ X` is exactly the set of the nodes of `g` adjacent to
every member of `R`. -/
theorem BronKerbosch1_calls_keep_invariant (g : AdjacencyList) (hg : Simple g)
    (emit : Emit Int) (fuel : Nat) :
    (0, OneBits g.length, 0) ∈ BronKerbosch1Calls fuel g emit ∧
    ∀ R P X, (R, P, X) ∈ BronKerbosch1Calls fuel g emit →
      (∀ a b, Bit R a = true → Bit R b = true → a ≠ b → Arc g a b) ∧
      (∀ v, ¬ (Bit R v = true ∧ Bit P v = true)) ∧
      (∀ v, ¬ (Bit R v = true ∧ Bit X v = true)) ∧
      (∀ v, ¬ (Bit P v = true ∧ Bit X v = true)) ∧
      (∀ v, (Bit P v = true ∨ Bit X v = true) ↔
        (v < g.length ∧ ∀ r, Bit R r = true → Arc g r v)) := by
  obtain ⟨h0, hall⟩ := BronKerbosch1Calls_spec hg emit fuel
  refine ⟨h0, ?_⟩
  intro R P X hmem
  have hinv : BInv g R P X := hall (R, P, X) hmem
  refine ⟨hinv.2.1, ?_, ?_, ?_, hinv.2.2.1⟩
  · intro v hv
    exact hinv.not_mem_R hg (Or.inl hv.2) hv.1
  · intro v hv
    exact hinv.not_mem_R hg (Or.inr hv.2) hv.1
  · intro v hv
    exact hinv.2.2.2 v hv.1 hv.2

theorem BronKerbosch1_calls_keep_invariant_witness :
    Simple [[1, 2], [0, 2], [0, 1, 3], [2]] ∧
    (0, OneBits [[1, 2], [0, 2], [0, 1, 3], [2]].length, 0) ∈
      BronKerbosch1Calls 5 [[1, 2], [0, 2], [0, 1, 3], [2]] emitAll ∧
    ∀ R P X, (R, P, X) ∈ BronKerbosch1Calls 5 [[1, 2], [0, 2], [0, 1, 3], [2]] emitAll →
      (∀ a b, Bit R a = true → Bit R b = true → a ≠ b →
        Arc [[1, 2], [0, 2], [0, 1, 3], [2]] a b) ∧
      (∀ v, ¬ (Bit R v = true ∧ Bit P v = true)) ∧
      (∀ v, ¬ (Bit R v = true ∧ Bit X v = true)) ∧
      (∀ v, ¬ (Bit P v = true ∧ Bit X v = true)) ∧
      (∀ v, (Bit P v = true ∨ Bit X v = true) ↔
        (v < [[1, 2], [0, 2], [0, 1, 3], [2]].length ∧
          ∀ r, Bit R r = true → Arc [[1, 2], [0, 2], [0, 1, 3], [2]] r v)) :=
  ⟨by decide,
    BronKerbosch1_calls_keep_invariant [[1, 2], [0, 2], [0, 1, 3], [2]] (by decide) emitAll 5⟩

/-! ## FromList -/

/-- C36 (counterexample): the graph with the arcs `0 → 0` and `0 → 1` has its arcs in
range and no node with more than one incoming arc, but `FromList` returns nothing on
it: the closure `leng`, called for the leaf 1, follows the `From` entries
`1, 0, 0, 0, ...` without end, so the model runs out of any fuel. -/
theorem FromList_no_result_on_cycle :
    InRange (unlabeled [[⟨0, 0⟩, ⟨1, 0⟩], []]) ∧
    (∀ n, inArcs [[⟨0, 0⟩, ⟨1, 0⟩], []] n ≤ 1) ∧
    ∀ fuel, FromList fuel [[⟨0, 0⟩, ⟨1, 0⟩], []] = .error .fuel :=
  ⟨by decide, inArcs_le_of_bounded (by decide) (by decide), FromList_loops⟩

/-- C36 (amended): for every labeled graph `g` with arcs in range and with enough
fuel: if some node is the to-node of more than one arc, `FromList` returns
`(nil, n)` where `n` is such a node; if no node is and `g` has no cycle, `FromList`
returns a `FromList` that is not `nil` together with `-1`, in which `Paths[m].From`
is the from-node of the arc to `m`, or `-1` when `m` has no incoming arc. -/
theorem FromList_returns_forest_or_node (g : LabeledAdjacencyList)
    (hg : InRange (unlabeled g)) (fuel : Nat) (hfuel : g.length ≤ fuel) :
    ((∃ n, 2 ≤ inArcs g n) →
      ∃ n : Nat, FromList fuel g = .ok (none, (n : Int)) ∧ 2 ≤ inArcs g n) ∧
    ((∀ n, inArcs g n ≤ 1) → Acyclic (unlabeled g) →
      ∃ f, FromList fuel g = .ok (some f, -1) ∧ f.Paths.length = g.length ∧
        ∀ m, m < g.length →
          (inArcs g m = 0 → (f.Paths.getD m ⟨-1, 0⟩).From = -1) ∧
          ∀ u, Arc (unlabeled g) u m → (f.Paths.getD m ⟨-1, 0⟩).From = (u : Int)) :=
  ⟨fun hdup => FromList_dup hg hdup fuel,
    fun hone hac => FromList_tree hg hone hac fuel hfuel⟩

theorem FromList_returns_forest_or_node_witness :
    InRange (unlabeled [[⟨1, 7⟩, ⟨2, 8⟩], [⟨3, 9⟩], [], []]) ∧
    ([[⟨1, 7⟩, ⟨2, 8⟩], [⟨3, 9⟩], [], []] : LabeledAdjacencyList).length ≤ 4 ∧
    (∀ n, inArcs [[⟨1, 7⟩, ⟨2, 8⟩], [⟨3, 9⟩], [], []] n ≤ 1) ∧
    Acyclic (unlabeled [[⟨1, 7⟩, ⟨2, 8⟩], [⟨3, 9⟩], [], []]) ∧
    ∃ f, FromList 4 [[⟨1, 7⟩, ⟨2, 8⟩], [⟨3, 9⟩], [], []] = .ok (some f, -1) ∧
      f.Paths.length = ([[⟨1, 7⟩, ⟨2, 8⟩], [⟨3, 9⟩], [], []] : LabeledAdjacencyList).length ∧
      ∀ m, m < ([[⟨1, 7⟩, ⟨2, 8⟩], [⟨3, 9⟩], [], []] : LabeledAdjacencyList).length →
        (inArcs [[⟨1, 7⟩, ⟨2, 8⟩], [⟨3, 9⟩], [], []] m = 0 →
          (f.Paths.getD m ⟨-1, 0⟩).From = -1) ∧
        ∀ u, Arc (unlabeled [[⟨1, 7⟩, ⟨2, 8⟩], [⟨3, 9⟩], [], []]) u m →
          (f.Paths.getD m ⟨-1, 0⟩).From = (u : Int) :=
  ⟨by decide, by decide, inArcs_le_of_bounded (by decide) (by decide),
    Acyclic.of_increasing (by decide),
    (FromList_returns_forest_or_node [[⟨1, 7⟩, ⟨2, 8⟩], [⟨3, 9⟩], [], []] (by decide) 4
      (by decide)).2 (inArcs_le_of_bounded (by decide) (by decide))
      (Acyclic.of_increasing (by decide))⟩

/-! ## Topological and Cyclic on a graph with a cycle -/

/-- C31: on a directed graph `g` (arcs in range) that contains a cycle, with enough
fuel, `Topological` returns `ordering = nil` and a non-empty `cycle` in which every two
consecutive nodes are joined by an arc of `g` and whose last node has an arc of `g`
back to its first node. -/
theorem Topological_returns_cycle_path (g : AdjacencyList) (hg : InRange g)
    (hcyc : ¬ Acyclic g) (fuel : Nat) (hfuel : g.length + 1 ≤ fuel) :
    ∃ c, Topological fuel g = .ok (none, some c) ∧ c ≠ [] ∧
      (∀ i, i + 1 < c.length → Arc g (c.getD i 0) (c.getD (i + 1) 0)) ∧
      Arc g (c.getD (c.length - 1) 0) (c.getD 0 0) := by
  obtain ⟨c, e, h1, h2, h3⟩ := Topological_cycle g hg hcyc fuel hfuel
  exact ⟨c, e, h1, fun i hi => h2 i (by omega), h3⟩

theorem Topological_returns_cycle_path_witness :
    InRange [[1], [2], [1, 3], []] ∧ ¬ Acyclic [[1], [2], [1, 3], []] ∧
    [[1], [2], [1, 3], []].length + 1 ≤ 5 ∧
    ∃ c, Topological 5 [[1], [2], [1, 3], []] = .ok (none, some c) ∧ c ≠ [] ∧
      (∀ i, i + 1 < c.length → Arc [[1], [2], [1, 3], []] (c.getD i 0) (c.getD (i + 1) 0)) ∧
      Arc [[1], [2], [1, 3], []] (c.getD (c.length - 1) 0) (c.getD 0 0) :=
  ⟨by decide,
    fun h => h 1 (Relation.TransGen.tail
      (Relation.TransGen.single (show Arc [[1], [2], [1, 3], []] 1 2 by decide))
      (show Arc [[1], [2], [1, 3], []] 2 1 by decide)),
    by decide,
    Topological_returns_cycle_path [[1], [2], [1, 3], []] (by decide)
      (fun h => h 1 (Relation.TransGen.tail
        (Relation.TransGen.single (show Arc [[1], [2], [1, 3], []] 1 2 by decide))
        (show Arc [[1], [2], [1, 3], []] 2 1 by decide))) 5 (by decide)⟩

/-- C34: on a directed graph `g` with arcs in range, with enough fuel, `Cyclic`
returns; `cyclic` is true exactly when `g` contains a cycle (a node with a non-empty
path back to itself, loops included); when it is true, `fr` and `to` are nodes with an
arc `fr -> to` of `g` and a path of `g` from `to` back to `fr`, so that the arc lies on
a cycle; when it is false, `fr = to = -1`. -/
theorem Cyclic_finds_arc_on_cycle (g : AdjacencyList) (hg : InRange g) (fuel : Nat)
    (hfuel : g.length + 1 ≤ fuel) :
    ∃ (cyclic : Bool) (fr t : Int), Cyclic fuel g = .ok (cyclic, fr, t) ∧
      (cyclic = true ↔ ∃ v, Relation.TransGen (Arc g) v v) ∧
      (cyclic = true → ∃ u v : Nat, fr = (u : Int) ∧ t = (v : Int) ∧ Arc g u v ∧
        Reach g v u) ∧
      (cyclic = false → fr = -1 ∧ t = -1) := by
  rcases Cyclic_spec g hg fuel hfuel with ⟨e, hac⟩ | ⟨c, hc, e⟩
  · refine ⟨false, -1, -1, e, ?_, ?_, ?_⟩
    · constructor
      · intro h; cases h
      · rintro ⟨v, hv⟩
        exact absurd hv (hac v)
    · intro h; cases h
    · intro _; exact ⟨rfl, rfl⟩
  · have hpos : 0 < c.length := List.length_pos.2 hc.1
    refine ⟨true, _, _, e, ?_, ?_, ?_⟩
    · constructor
      · intro _
        exact ⟨_, Relation.TransGen.head' hc.2.2 (hc.reach_from_head (c.length - 1) (by omega))⟩
      · intro _; rfl
    · intro _
      exact ⟨_, _, rfl, rfl, hc.2.2, hc.reach_from_head (c.length - 1) (by omega)⟩
    · intro h; cases h

theorem Cyclic_finds_arc_on_cycle_witness :
    InRange [[1], [2], [1, 3], []] ∧ [[1], [2], [1, 3], []].length + 1 ≤ 5 ∧
    ∃ (cyclic : Bool) (fr t : Int), Cyclic 5 [[1], [2], [1, 3], []] = .ok (cyclic, fr, t) ∧
      (cyclic = true ↔ ∃ v, Relation.TransGen (Arc [[1], [2], [1, 3], []]) v v) ∧
      (cyclic = true → ∃ u v : Nat, fr = (u : Int) ∧ t = (v : Int) ∧
        Arc [[1], [2], [1, 3], []] u v ∧ Reach [[1], [2], [1, 3], []] v u) ∧
      (cyclic = false → fr = -1 ∧ t = -1) :=
  ⟨by decide, by decide, Cyclic_finds_arc_on_cycle [[1], [2], [1, 3], []] (by decide) 5
    (by decide)⟩

/-! ## The labeled BronKerbosch3 on bit sets -/

/-- C40: on a labeled simple undirected graph `g`, for every `emit` callback and with
fuel above the number of nodes, `UndirectedLAL.BronKerbosch3` on bit sets with
`UndirectedLAL.BKPivotMaxDegree` has the same outcome as `Undirected.BronKerbosch3` on
big integers with `Undirected.BKPivotMaxDegree` on the graph with the labels dropped;
and either both return after calling `emit` with the same lists in the same order,
or the call of `Degeneracy` with which both begin fails (before any call of `emit`)
in both. -/
theorem BronKerbosch3_labeled_matches_unlabeled (g : LabeledAdjacencyList)
    (hg : Simple (unlabeled g)) (emit : Emit Int) (fuel : Nat) (hfuel : g.length < fuel) :
    BronKerbosch3L fuel g (pivotOf (BKPivotMaxDegreeL g)) emit =
      BronKerbosch3 fuel (unlabeled g) (pivotOf (BKPivotMaxDegree (unlabeled g))) emit ∧
    ((∃ cs, BronKerbosch3L fuel g (pivotOf (BKPivotMaxDegreeL g)) emit = .ok cs ∧
        BronKerbosch3 fuel (unlabeled g) (pivotOf (BKPivotMaxDegree (unlabeled g))) emit =
          .ok cs) ∨
     (∃ e, DegeneracyL g = .error e ∧ Degeneracy (unlabeled g) = .error e)) := by
  refine ⟨BronKerbosch3L_eq fuel g emit, ?_⟩
  by_cases hedge : ∃ u v, Arc (unlabeled g) u v
  · left
    obtain ⟨cs, hcs⟩ := BronKerbosch3_returns (unlabeled g) hg hedge emit fuel
      (by rw [unlabeled_length]; exact hfuel)
    exact ⟨cs, by rw [BronKerbosch3L_eq, hcs], hcs⟩
  · right
    obtain ⟨e, he⟩ := Degeneracy_fails_of_no_edge hg hedge
    exact ⟨e, by rw [DegeneracyL_eq, he], he⟩

theorem BronKerbosch3_labeled_matches_unlabeled_witness :
    Simple (unlabeled [[⟨1, 5⟩, ⟨2, 6⟩], [⟨0, 5⟩, ⟨2, 7⟩], [⟨0, 6⟩, ⟨1, 7⟩, ⟨3, 8⟩], [⟨2, 8⟩]]) ∧
    [[(⟨1, 5⟩ : Half), ⟨2, 6⟩], [⟨0, 5⟩, ⟨2, 7⟩], [⟨0, 6⟩, ⟨1, 7⟩, ⟨3, 8⟩], [⟨2, 8⟩]].length < 5 ∧
    BronKerbosch3L 5 [[⟨1, 5⟩, ⟨2, 6⟩], [⟨0, 5⟩, ⟨2, 7⟩], [⟨0, 6⟩, ⟨1, 7⟩, ⟨3, 8⟩], [⟨2, 8⟩]]
      (pivotOf (BKPivotMaxDegreeL
        [[⟨1, 5⟩, ⟨2, 6⟩], [⟨0, 5⟩, ⟨2, 7⟩], [⟨0, 6⟩, ⟨1, 7⟩, ⟨3, 8⟩], [⟨2, 8⟩]])) emitAll =
      .ok [[2, 3], [0, 1, 2]] ∧
    BronKerbosch3L 5 [[⟨1, 5⟩, ⟨2, 6⟩], [⟨0, 5⟩, ⟨2, 7⟩], [⟨0, 6⟩, ⟨1, 7⟩, ⟨3, 8⟩], [⟨2, 8⟩]]
      (pivotOf (BKPivotMaxDegreeL
        [[⟨1, 5⟩, ⟨2, 6⟩], [⟨0, 5⟩, ⟨2, 7⟩], [⟨0, 6⟩, ⟨1, 7⟩, ⟨3, 8⟩], [⟨2, 8⟩]])) emitAll =
      BronKerbosch3 5
        (unlabeled [[⟨1, 5⟩, ⟨2, 6⟩], [⟨0, 5⟩, ⟨2, 7⟩], [⟨0, 6⟩, ⟨1, 7⟩, ⟨3, 8⟩], [⟨2, 8⟩]])
        (pivotOf (BKPivotMaxDegree
          (unlabeled [[⟨1, 5⟩, ⟨2, 6⟩], [⟨0, 5⟩, ⟨2, 7⟩], [⟨0, 6⟩, ⟨1, 7⟩, ⟨3, 8⟩], [⟨2, 8⟩]])))
        emitAll :=
  ⟨by decide, by decide, by decide,
    (BronKerbosch3_labeled_matches_unlabeled
      [[⟨1, 5⟩, ⟨2, 6⟩], [⟨0, 5⟩, ⟨2, 7⟩], [⟨0, 6⟩, ⟨1, 7⟩, ⟨3, 8⟩], [⟨2, 8⟩]]
      (by decide) emitAll 5 (by decide)).1⟩

/-! ## The three methods for strongly connected components -/

/-- C39: on a directed graph `g` with arcs in range, with an `emit` that always returns
true and fuel at least the order of the graph, `SCCTarjan`, `SCCPathBased` and
`SCCPearce` all return; `SCCPathBased` and `SCCPearce` each emit as many components as
`SCCTarjan`, and for every `i` the `i`-th component emitted by each of them has the same
nodes as the `i`-th component emitted by `SCCTarjan`. -/
theorem SCCPathBased_SCCPearce_emit_as_SCCTarjan (g : AdjacencyList) (hg : InRange g)
    (fuel : Nat) (hfuel : g.length ≤ fuel) :
    ∃ ct cp cq, SCCTarjan fuel g emitAll = .ok ct ∧ SCCPathBased fuel g emitAll = .ok cp ∧
      SCCPearce fuel g emitAll = .ok cq ∧ cp.length = ct.length ∧ cq.length = ct.length ∧
      ∀ i v, (v ∈ cp.getD i [] ↔ v ∈ ct.getD i []) ∧ (v ∈ cq.getD i [] ↔ v ∈ ct.getD i []) := by
  obtain ⟨ct, h1, h2⟩ := SCCTarjan_SCCPathBased g hg fuel hfuel
  obtain ⟨ct1, cq, h3, h4, h5⟩ := SCCTarjan_SCCPearce g hg fuel hfuel
  have e : ct1 = ct := by
    rw [h1] at h3
    injection h3 with h3
    exact h3.symm
  rw [e] at h5
  exact ⟨ct, ct, cq, h1, h2, h4, rfl, h5.1.symm, fun i v => ⟨Iff.rfl, (h5.2 i v).symm⟩⟩

theorem SCCPathBased_SCCPearce_emit_as_SCCTarjan_witness :
    InRange [[1], [2, 3], [0], [4], [3], [0]] ∧ [[1], [2, 3], [0], [4], [3], [0]].length ≤ 6 ∧
    SCCTarjan 6 [[1], [2, 3], [0], [4], [3], [0]] emitAll = .ok [[4, 3], [2, 1, 0], [5]] ∧
    SCCPearce 6 [[1], [2, 3], [0], [4], [3], [0]] emitAll = .ok [[4, 3], [1, 2, 0], [5]] ∧
    ∃ ct cp cq, SCCTarjan 6 [[1], [2, 3], [0], [4], [3], [0]] emitAll = .ok ct ∧
      SCCPathBased 6 [[1], [2, 3], [0], [4], [3], [0]] emitAll = .ok cp ∧
      SCCPearce 6 [[1], [2, 3], [0], [4], [3], [0]] emitAll = .ok cq ∧
      cp.length = ct.length ∧ cq.length = ct.length ∧
      ∀ i v, (v ∈ cp.getD i [] ↔ v ∈ ct.getD i []) ∧ (v ∈ cq.getD i [] ↔ v ∈ ct.getD i []) :=
  ⟨by decide, by decide, by decide, by decide,
    SCCPathBased_SCCPearce_emit_as_SCCTarjan [[1], [2, 3], [0], [4], [3], [0]] (by decide) 6
      (by decide)⟩

end Graph
